import Mathlib

/-!
CDCL-proof-structural-analysis: bounded variable addition, component handling and probing.

A shallow embedding of `maplecryptominisat/src/bva.cpp`,
`maplecryptominisat/src/comphandler.cpp` and `maplecryptominisat/src/prober.cpp`.  Each
C++ member function becomes a Lean
function that passes the mutated objects explicitly.  `std::vector` is `List`; `Var`,
`ClOffset`, `size_t` and `uint32_t` are `Nat`; `int` and `int64_t` are `Int` (no value in
the modelled runs leaves the machine range); the per-literal arrays `watches`, `seen` and
`seen2` are functions of the index `Lit::toInt()`.

Output on `cout`, the DRUP sink and the SQL statistics are not part of the embedding, and
parameters of a function that only feed its assertions or its output are left out.
An assertion is part of the embedding only where a doc comment says so; a write outside a
vector, which the assertions of the component handler exclude, leaves the vector as it is.
Functions of the solver that are declared in headers outside the analysed sources are
modelled from the specification; their doc comments say so.
-/

namespace CMSat

/-! ## Literals, clauses, watch lists -/

/-- Modelled from the spec: `Lit` is declared in `solvertypes.h`, which is not among the
sources.  A literal is a variable plus sign, packed as `2*v + s`; `Lit(var, false)` is
the positive literal (`prober.cpp` enqueues `Lit(var, !propValue[var])`). -/
structure Lit where
  var : Nat
  sign : Bool
  deriving DecidableEq

/-- Modelled from the spec: `var_Undef` of `solvertypes.h` (`0xffffffffU >> 4`). -/
def var_Undef : Nat := 268435455

/-- Modelled from the spec: the distinguished `Undef` literal. -/
def lit_Undef : Lit := ⟨var_Undef, false⟩

namespace Lit

/-- Modelled from the spec: `Lit::toInt()`, the packing `2*v + s`. -/
def toInt (l : Lit) : Nat := 2 * l.var + (if l.sign then 1 else 0)

/-- Modelled from the spec: `Lit::toLit(i)`, the inverse of `toInt`. -/
def toLit (i : Nat) : Lit := ⟨i / 2, i % 2 == 1⟩

/-- Modelled from the spec: `operator~`, negation flips the sign. -/
def neg (l : Lit) : Lit := ⟨l.var, !l.sign⟩

/-- Modelled from the spec: `operator<` on literals compares the packed integers. -/
def lt (a b : Lit) : Bool := decide (a.toInt < b.toInt)

/-- Non-strict version of `lt`, used as the key of `std::sort` on literals. -/
def le (a b : Lit) : Prop := a.toInt ≤ b.toInt

instance : DecidableRel le := fun a b => inferInstanceAs (Decidable (a.toInt ≤ b.toInt))

end Lit

/-- Modelled from the spec: a long clause of the clause allocator, reduced to its literals
and its `is_redundant` attribute. -/
structure Clause where
  lits : List Lit
  red : Bool
  deriving DecidableEq

/-- Modelled from the spec: a watch entry, the tagged union
`Binary(other_lit, red) | Ternary(lit2, lit3, red) | Long(Nat, blocker_lit)`. -/
inductive Watched where
  | binary (lit2 : Lit) (red : Bool)
  | tertiary (lit2 lit3 : Lit) (red : Bool)
  | clause (offset : Nat) (blocker : Lit)
  deriving DecidableEq

/-- Modelled from the spec: `WatchType`, the tag of a watch entry. -/
inductive WatchType where
  | watch_binary_t
  | watch_tertiary_t
  | watch_clause_t
  deriving DecidableEq

namespace Watched

def getType : Watched → WatchType
  | binary _ _ => .watch_binary_t
  | tertiary _ _ _ => .watch_tertiary_t
  | clause _ _ => .watch_clause_t

def isBinary : Watched → Bool
  | binary _ _ => true
  | _ => false

def isTri : Watched → Bool
  | tertiary _ _ _ => true
  | _ => false

def isClause : Watched → Bool
  | clause _ _ => true
  | _ => false

/-- The second literal of an implicit entry (`lit_Undef` on a long entry, where the C++
accessor asserts). -/
def lit2 : Watched → Lit
  | binary l _ => l
  | tertiary l _ _ => l
  | clause _ _ => lit_Undef

def lit3 : Watched → Lit
  | tertiary _ l _ => l
  | _ => lit_Undef

/-- The stored flag of an implicit entry. -/
def red : Watched → Bool
  | binary _ r => r
  | tertiary _ _ r => r
  | clause _ _ => false

def get_offset : Watched → Nat
  | clause o _ => o
  | _ => 0

end Watched

/-- The pair `OccurClause(lit, ws)`: a watch entry together with the literal whose watch
list holds it. -/
structure OccurClause where
  lit : Lit
  ws : Watched
  deriving DecidableEq

/-- Modelled from the spec: `Removed` of `solvertypes.h`,
`removed_kind ∈ {none, eliminated, decomposed, substituted}`. -/
inductive Removed where
  | none
  | elimed
  | replaced
  | decomposed
  deriving DecidableEq

/-- Modelled from the spec: `lbool`. -/
inductive lbool where
  | l_True
  | l_False
  | l_Undef
  deriving DecidableEq

/-- Modelled from the spec: the per-variable record `VarData`, reduced to the fields the
component handler touches. -/
structure VarData where
  removed : Removed
  is_decision : Bool
  polarity : Bool
  level : Nat := 0
  deriving DecidableEq

/-- A call of a mutating member of `Solver` or `OccSimplifier` issued by the analysed
code, recorded in issue order. -/
inductive SolverCall where
  | new_var
  | add_clause_int (lits : List Lit) (red : Bool)
  | detach_bin_clause (lit1 lit2 : Lit) (red : Bool)
  | detach_tri_clause (lit1 lit2 lit3 : Lit) (red : Bool)
  | unlink_clause (offset : Nat)
  | addClause (lits : List Lit)
  | fully_enqueue_these (lits : List Lit)
  deriving DecidableEq

/-- The part of `SolverConf` that BVA, the component handler and the prober read or write,
with the defaults of `solverconf.cpp`.  A `double` is kept as the rational number it
stands for. -/
structure SolverConf where
  bva_also_twolit_diff : Bool := true
  bva_extra_lit_and_red_start : Int := 0
  verbosity : Int := 0
  otfHyperbin : Bool := true
  doSQL : Int := 1
  doProbe : Bool := true
  doStamp : Bool := true
  doCache : Bool := true
  do_simplify_problem : Bool := true
  doCompHandler : Bool := true
  compVarLimit : Nat := 1000000
  origSeed : Nat := 0
  do_bva : Bool := true
  bva_limit_per_call : Nat := 150000
  bva_time_limitM : Nat := 100
  doStrSubImplicit : Bool := true
  global_timeout_multiplier : ℚ := 1
  probe_bogoprops_time_limitM : Nat := 800
  otf_hyper_time_limitM : Nat := 340
  otf_hyper_ratio_limit : ℚ := 1 / 2
  single_probe_time_limit_perc : ℚ := 1 / 2
  cacheUpdateCutoff : Nat := 2000
  simplify_at_startup_sequence : String := "sub-impl, simplify, scc-vrepl"
  simplify_nonstartup_sequence : String :=
    "handle-comps,"
    ++ "scc-vrepl, cache-clean, cache-tryboth,"
    ++ "sub-impl, intree-probe, probe,"
    ++ "str-cls, distill-cls, scc-vrepl, sub-impl, simplify,"
    ++ "str-impl, cache-clean, str-cls, distill-cls, scc-vrepl,"
    ++ "check-cache-size, renumber"
  deriving DecidableEq

/-- Modelled from the spec: the main solver as far as BVA, the component handler and the
prober read or write it.  `trace` is a ghost field: the mutating calls issued, oldest
first.  The arrays `varData`, `assigns`, `outerToInterMain` and `interToOuterMain` are
functions of the variable; `bogoProps` and `otfHyperTime` are the counters of `propStats`,
`redLits` and `irredLits` those of `litStats`; `drup_enabled` is `drup->enabled()`;
`litReachable` holds the field `lit` of each entry; `implCache` stands for the whole
implication cache; `mtrand i` is the result of the call number `i` of `mtrand.randInt` and
`mtrand_calls` the number of calls made; `irredBins`, `irredTris`, `redBins` and `redTris`
are the `uint64_t` counters of `binTri`. -/
structure Solver where
  nVars : Nat
  watches : Nat → List Watched
  cl_alloc : List Clause
  ok : Bool
  conf : SolverConf
  sumConflicts : Nat
  trace : List SolverCall
  nVarsOuter : Nat := 0
  varData : Nat → VarData := fun _ => ⟨.none, true, false, 0⟩
  outerToInterMain : Nat → Nat := fun v => v
  interToOuterMain : Nat → Nat := fun v => v
  assigns : Nat → lbool := fun _ => .l_Undef
  longIrredCls : List Nat := []
  longRedCls : List Nat := []
  trail : List Lit := []
  trail_lim : List Nat := []
  timedOutPropagateFull : Bool := false
  learnt_clause : List Lit := []
  bogoProps : Nat := 0
  otfHyperTime : Nat := 0
  redLits : Nat := 0
  irredLits : Nat := 0
  drup_enabled : Bool := false
  litReachable : Nat → Lit := fun _ => ⟨268435455, false⟩
  implCache : Nat := 0
  mtrand : Nat → Nat := fun _ => 0
  mtrand_calls : Nat := 0
  irredBins : Nat := 0
  irredTris : Nat := 0
  redBins : Nat := 0
  redTris : Nat := 0

namespace Solver

def okay (S : Solver) : Bool := S.ok

/-- The clause behind `cl_alloc.ptr(offset)`. -/
def ptr (S : Solver) (offset : Nat) : Clause := S.cl_alloc.getD offset ⟨[], false⟩

/-- Modelled from the spec: `Solver::redundant(ws)`. -/
def redundant (S : Solver) : Watched → Bool
  | .binary _ r => r
  | .tertiary _ _ r => r
  | .clause o _ => (S.ptr o).red

/-- Modelled from the spec: `Solver::cl_size(ws)`. -/
def cl_size (S : Solver) : Watched → Nat
  | .binary _ _ => 2
  | .tertiary _ _ _ => 3
  | .clause o _ => (S.ptr o).lits.length

/-- The literals visited by `Solver::for_each_lit(cl, f, limit)`, in visiting order. -/
def occ_lits (S : Solver) (cl : OccurClause) : List Lit :=
  match cl.ws with
  | .binary l2 _ => [cl.lit, l2]
  | .tertiary l2 l3 _ => [cl.lit, l2, l3]
  | .clause o _ => (S.ptr o).lits

/-- The literals visited by `Solver::for_each_lit_except_watched(cl, f, limit)`. -/
def occ_lits_except_watched (S : Solver) (cl : OccurClause) : List Lit :=
  match cl.ws with
  | .binary l2 _ => [l2]
  | .tertiary l2 l3 _ => [l2, l3]
  | .clause o _ => (S.ptr o).lits.filter (fun l => l != cl.lit)

/-- Modelled from the spec: what `for_each_lit` and `for_each_lit_except_watched` take
from the budget, one unit per literal of a long clause. -/
def for_each_lit_cost (S : Solver) (cl : OccurClause) : Int :=
  match cl.ws with
  | .clause o _ => ((S.ptr o).lits.length : Int)
  | _ => 0

def setWatches (S : Solver) (i : Nat) (ws : List Watched) : Solver :=
  { S with watches := fun j => if j = i then ws else S.watches j }

def pushWatch (S : Solver) (l : Lit) (w : Watched) : Solver :=
  S.setWatches l.toInt (S.watches l.toInt ++ [w])

def log (S : Solver) (c : SolverCall) : Solver :=
  { S with trace := S.trace ++ [c] }

/-- Modelled from the spec: `Solver::new_var`, which extends the variable space by one
variable with two empty watch lists. -/
def new_var (S : Solver) : Solver :=
  let S1 := (S.setWatches (2 * S.nVars) []).setWatches (2 * S.nVars + 1) []
  { S1 with nVars := S.nVars + 1, trace := S.trace ++ [.new_var] }

/-- Modelled from the spec: `attach_bin_clause`, a binary clause is watched by both its
literals. -/
def attach_bin_clause (S : Solver) (l1 l2 : Lit) (red : Bool) : Solver :=
  (S.pushWatch l1 (.binary l2 red)).pushWatch l2 (.binary l1 red)

/-- Modelled from the spec: `attach_tri_clause` on literals in ascending order, a ternary
clause is watched by all three literals, each entry holding the other two. -/
def attach_tri_clause (S : Solver) (l1 l2 l3 : Lit) (red : Bool) : Solver :=
  ((S.pushWatch l1 (.tertiary l2 l3 red)).pushWatch l2 (.tertiary l1 l3 red)).pushWatch l3
    (.tertiary l1 l2 red)

/-- Modelled from the spec: `OccSimplifier::linkInClause`, the occurrence list of every
literal of a long clause receives a reference to it. -/
def linkInClause (S : Solver) (offset : Nat) : Solver :=
  (S.ptr offset).lits.foldl
    (fun T l => T.pushWatch l (.clause offset ((S.ptr offset).lits.headD lit_Undef))) S

/-- Modelled from the spec: `Solver::detach_bin_clause`, which takes one matching entry
out of each of the two watch lists. -/
def detach_bin_clause (S : Solver) (l1 l2 : Lit) (red : Bool) : Solver :=
  let S1 := S.setWatches l1.toInt ((S.watches l1.toInt).erase (.binary l2 red))
  let S2 := S1.setWatches l2.toInt ((S1.watches l2.toInt).erase (.binary l1 red))
  S2.log (.detach_bin_clause l1 l2 red)

/-- Modelled from the spec: `Solver::detach_tri_clause` on literals in ascending order. -/
def detach_tri_clause (S : Solver) (l1 l2 l3 : Lit) (red : Bool) : Solver :=
  let S1 := S.setWatches l1.toInt ((S.watches l1.toInt).erase (.tertiary l2 l3 red))
  let S2 := S1.setWatches l2.toInt ((S1.watches l2.toInt).erase (.tertiary l1 l3 red))
  let S3 := S2.setWatches l3.toInt ((S2.watches l3.toInt).erase (.tertiary l1 l2 red))
  S3.log (.detach_tri_clause l1 l2 l3 red)

/-- Modelled from the spec: `OccSimplifier::unlink_clause`, which takes the reference to
the clause out of the occurrence list of each of its literals. -/
def unlink_clause (S : Solver) (offset : Nat) : Solver :=
  let S1 := (S.ptr offset).lits.foldl
    (fun T l => T.setWatches l.toInt
      ((T.watches l.toInt).eraseP (fun w => w.isClause && w.get_offset == offset))) S
  S1.log (.unlink_clause offset)

end Solver

/-! ## BVA: data -/

/-- Modelled from the spec: `BVA::lit_pair` of `bva.h`; a single literal is the pair
`(lit, lit_Undef)`. -/
structure lit_pair where
  lit1 : Lit
  lit2 : Lit
  deriving DecidableEq

/-- The conversion `lit_pair(Lit a, Lit b = lit_Undef)` applied to one literal. -/
def lit_pair.of_lit (a : Lit) : lit_pair := ⟨a, lit_Undef⟩

/-- The literals that the code pushes for a pair: `lit1`, and `lit2` unless it is
`lit_Undef`. -/
def lit_pair.lits (p : lit_pair) : List Lit :=
  [p.lit1] ++ (if p.lit2 != lit_Undef then [p.lit2] else [])

/-- Modelled from the spec: `BVA::PotentialClause` of `bva.h`. -/
structure PotentialClause where
  lits : lit_pair
  occur_cl : OccurClause
  deriving DecidableEq

/-- Modelled from the spec: `BVA::m_cls_lits_and_red` of `bva.h`. -/
structure m_cls_lits_and_red where
  lits : List Lit
  red : Bool
  deriving DecidableEq

/-- The parts of the program that BVA calls and that are not among the sources, taken as
parameters. `add_clause_fails S lits` tells whether `Solver::add_clause_int` on `lits`
finds the formula inconsistent; `hash` is `lit_pair::hash(N)`; `seen2_size` is
`seen2.size()`; `sub_sort_cost limit n` is the budget after the floating-point update
`limit -= (double)n * std::log(n) * 0.2`; `mysort_cost S cls` is what the comparator
calls of `std::sort` in `remove_duplicates_from_m_cls` take from the budget;
`sort_order l` lists the positions of `l` in the order in which `std::sort` of `potential`
leaves entries with equal pairs, and `mysort_order S cls` does so for `std::sort` of `m_cls`
(the library is free in it; see `BVA.arrange`).
`propagate_occur`, `clean_implicit_clauses` (of the clause cleaner), `subsume_implicit` and
`must_interrupt_asap` are the functions of these names that `bounded_var_addition` calls;
`double_to_int q` is the `int64_t` to which the `double` nearest to `q` converts. -/
structure Env where
  add_clause_fails : Solver → List Lit → Bool
  hash : lit_pair → Nat → Nat
  seen2_size : Nat
  sub_sort_cost : Int → Nat → Int
  mysort_cost : Solver → List OccurClause → Nat
  sort_order : List PotentialClause → List Nat := fun l => List.range l.length
  mysort_order : Solver → List OccurClause → List Nat := fun _ l => List.range l.length
  propagate_occur : Solver → Solver × Bool := fun S => (S, S.ok)
  clean_implicit_clauses : Solver → Solver := fun S => S
  subsume_implicit : Solver → Solver := fun S => S
  must_interrupt_asap : Solver → Bool := fun _ => false
  double_to_int : ℚ → Int := fun q => Rat.floor q

/-- Modelled from the spec: `Solver::add_clause_int(lits, red, stats, attach = false,
finalLits, addDrup, drup_first)`.  `add_clause` may fail with Unsat, `ok = false` is set
once and every later mutation is a no-op.  Otherwise the literals are put in ascending
order; a binary or ternary clause is attached to the watch lists, a longer one is allocated
and its offset returned for the caller to link.  Returns the solver, `finalLits` and the
new long clause if any. -/
def add_clause_int (E : Env) (S : Solver) (lits : List Lit) (red : Bool) :
    Solver × List Lit × Option Nat :=
  let S0 := S.log (.add_clause_int lits red)
  if !S.ok then (S0, [], none)
  else if E.add_clause_fails S lits then ({ S0 with ok := false }, [], none)
  else
    let ps := lits.insertionSort Lit.le
    match ps with
    | [] => (S0, ps, none)
    | [_] => (S0, ps, none)
    | [a, b] => (S0.attach_bin_clause a b red, ps, none)
    | [a, b, c] => (S0.attach_tri_clause a b c red, ps, none)
    | _ => ({ S0 with cl_alloc := S0.cl_alloc ++ [⟨ps, red⟩] }, ps, some S0.cl_alloc.length)

/-- The object `BVA` together with the objects it holds by reference: the solver, the
budget `*simplifier->limit_to_decrease`, `simplifier->clauses`, and the scratch arrays
`seen` and `seen2`.  `var_bva_order` lists the literals currently in the heap. -/
structure BVA where
  solver : Solver
  limit_to_decrease : Int
  simplifier_clauses : List Nat
  seen : Nat → Nat
  seen2 : Nat → Nat
  bva_worked : Nat
  bva_simp_size : Int
  m_lits : List lit_pair
  m_cls : List OccurClause
  m_lits_this_cl : List lit_pair
  potential : List PotentialClause
  m_cls_lits : List m_cls_lits_and_red
  to_remove : List Lit
  bva_tmp_lits : List Lit
  touched : List Nat
  watch_irred_sizes : Nat → Nat
  var_bva_order : List Nat

namespace BVA

/-- Assignment `arr[i] = v` on a per-literal array. -/
def setAt (arr : Nat → Nat) (i v : Nat) : Nat → Nat := fun j => if j = i then v else arr j

/-- Modelled from the spec: `TouchList::touch(lits)`, every literal is listed once. -/
def touch (B : BVA) (lits : List Lit) : BVA :=
  { B with touched :=
      lits.foldl (fun t l => if l.toInt ∈ t then t else t ++ [l.toInt]) B.touched }

/-- `BVA::simplification_size`. -/
def simplification_size (m_lits_size m_cls_size : Int) : Int :=
  m_lits_size * m_cls_size - m_lits_size - m_cls_size

/-- `BVA::calc_watch_irred_size`. -/
def calc_watch_irred_size (B : BVA) (lit : Lit) : Nat :=
  (B.solver.watches lit.toInt).foldl
    (fun num w =>
      match w with
      | .binary _ r => num + (if !r then 1 else 0)
      | .tertiary _ _ r => num + (if !r then 1 else 0)
      | .clause o _ => num + (if !(B.solver.ptr o).red then 1 else 0)) 0

/-- One refresh `watch_irred_sizes[lit.toInt()] = calc_watch_irred_size(lit)` of
`BVA::update_touched_lits_in_bva`, done for a literal that is in the heap. -/
def refresh_watch_irred_size (B : BVA) (lit : Lit) : BVA :=
  if lit.toInt ∈ B.var_bva_order then
    { B with watch_irred_sizes := setAt B.watch_irred_sizes lit.toInt (B.calc_watch_irred_size lit) }
  else B

/-- `BVA::update_touched_lits_in_bva`; `update_if_inside` only restores the heap order
and leaves the set of literals in the heap as it is. -/
def update_touched_lits_in_bva (B : BVA) : BVA :=
  let B1 := B.touched.foldl
    (fun b lit_uint =>
      (b.refresh_watch_irred_size (Lit.toLit lit_uint)).refresh_watch_irred_size
        (Lit.toLit lit_uint).neg) B
  { B1 with touched := [] }

/-- The entry that `BVA::fill_m_cls_lits_and_red` stores for one clause of `m_cls`: its
literals without the watched one, and its redundancy flag. -/
def cls_lits_and_red (S : Solver) (cl : OccurClause) : m_cls_lits_and_red :=
  match cl.ws with
  | .binary l2 r => ⟨[l2], r⟩
  | .tertiary l2 l3 r => ⟨[l2, l3], r⟩
  | .clause o _ => ⟨(S.ptr o).lits.filter (fun lit => cl.lit != lit), (S.ptr o).red⟩

/-- `BVA::fill_m_cls_lits_and_red`. -/
def fill_m_cls_lits_and_red (B : BVA) : BVA :=
  { B with m_cls_lits := B.m_cls.map (cls_lits_and_red B.solver) }

/-- The watch-list scan of `BVA::find_cl_for_bva`: `cl` is the clause pointer, `none`
for `NULL`.  A long entry overwrites `cl` before it is checked, so a scan that finds no
match ends with the last long clause of the list. -/
def find_cl_for_bva_scan (S : Solver) (seen : Nat → Nat) (torem : List Lit) (red : Bool) :
    List Watched → Option Nat → Option Nat
  | [], cl => cl
  | w :: ws, cl =>
    if !w.isClause then find_cl_for_bva_scan S seen torem red ws cl
    else
      let c := S.ptr w.get_offset
      if c.red != red || c.lits.length != torem.length then
        find_cl_for_bva_scan S seen torem red ws (some w.get_offset)
      else if c.lits.all (fun lit => seen lit.toInt != 0) then some w.get_offset
      else find_cl_for_bva_scan S seen torem red ws (some w.get_offset)

/-- `BVA::find_cl_for_bva`; the result is `none` where `assert(cl != NULL)` fails. -/
def find_cl_for_bva (B : BVA) (torem : List Lit) (red : Bool) : BVA × Option Nat :=
  let seen1 := torem.foldl (fun s lit => setAt s lit.toInt 1) B.seen
  let cl := find_cl_for_bva_scan B.solver seen1 torem red
    (B.solver.watches (torem.headD lit_Undef).toInt) none
  let seen2 := torem.foldl (fun s lit => setAt s lit.toInt 0) seen1
  ({ B with seen := seen2 }, cl)

/-- The vector `to_remove` that `BVA::remove_matching_clause` builds: the replacing
literal (pair) followed by the other literals of the clause. -/
def to_remove_lits (cl_lits_and_red : m_cls_lits_and_red) (lit_replace : lit_pair) : List Lit :=
  lit_replace.lits ++ cl_lits_and_red.lits

/-- `BVA::remove_matching_clause`; `none` where the assertion of `find_cl_for_bva`
fails. -/
def remove_matching_clause (B : BVA) (cl_lits_and_red : m_cls_lits_and_red)
    (lit_replace : lit_pair) : Option BVA :=
  let to_remove := to_remove_lits cl_lits_and_red lit_replace
  let B1 := ({ B with to_remove := to_remove }).touch to_remove
  match to_remove with
  | [a, b] =>
    some { B1 with
      limit_to_decrease := B1.limit_to_decrease - 2 * (B1.solver.watches a.toInt).length,
      solver := B1.solver.detach_bin_clause a b false }
  | [_, _, _] =>
    match to_remove.insertionSort Lit.le with
    | [a, b, c] =>
      some { B1 with
        to_remove := [a, b, c],
        limit_to_decrease := B1.limit_to_decrease - 2 * (B1.solver.watches a.toInt).length,
        solver := B1.solver.detach_tri_clause a b c false }
    | _ => none
  | _ =>
    match B1.find_cl_for_bva to_remove cl_lits_and_red.red with
    | (B2, some cl_new) => some { B2 with solver := B2.solver.unlink_clause cl_new }
    | (_, none) => none

/-- The literals that `BVA::add_longer_clause` puts into `bva_tmp_lits`: the clause `cl`
with `new_lit` in the place of the watched literal. -/
def longer_clause_lits (S : Solver) (new_lit : Lit) (cl : OccurClause) : List Lit :=
  match cl.ws with
  | .binary l2 _ => [new_lit, l2]
  | .tertiary l2 l3 _ => [new_lit, l2, l3]
  | .clause o _ => (S.ptr o).lits.map (fun l => if l = cl.lit then new_lit else l)

/-- `BVA::add_longer_clause`; the second component is the returned `solver->okay()`. -/
def add_longer_clause (E : Env) (B : BVA) (new_lit : Lit) (cl : OccurClause) : BVA × Bool :=
  let lits := longer_clause_lits B.solver new_lit cl
  let r := add_clause_int E B.solver lits false
  let B1 : BVA :=
    match cl.ws, r.2.2 with
    | .clause _ _, some newCl =>
      { B with
        solver := r.1.linkInClause newCl,
        simplifier_clauses := B.simplifier_clauses ++ [newCl],
        bva_tmp_lits := r.2.1 }
    | _, _ => { B with solver := r.1, bva_tmp_lits := r.2.1 }
  let B2 := B1.touch B1.bva_tmp_lits
  (B2, B2.solver.okay)

/-- The literals that the loop `//Binary clauses` of `BVA::bva_simplify_system` puts into
`bva_tmp_lits` for one entry of `m_lits`. -/
def binary_clause_lits (new_lit : Lit) (m_lit : lit_pair) : List Lit :=
  m_lit.lits ++ [new_lit]

/-- The loop `//Binary clauses` of `BVA::bva_simplify_system`, one round. -/
def add_binary_clause (E : Env) (B : BVA) (new_lit : Lit) (m_lit : lit_pair) : BVA :=
  let r := add_clause_int E B.solver (binary_clause_lits new_lit m_lit) false
  ({ B with solver := r.1, bva_tmp_lits := r.2.1 }).touch r.2.1

/-- The loop `//Longer clauses` of `BVA::bva_simplify_system`; `false` when a round
returned `!ok` and the function returns early. -/
def add_longer_clauses (E : Env) (new_lit : Lit) : BVA → List OccurClause → BVA × Bool
  | B, [] => (B, true)
  | B, m_cl :: rest =>
    match add_longer_clause E B new_lit m_cl with
    | (B1, false) => (B1, false)
    | (B1, true) => add_longer_clauses E new_lit B1 rest

/-- The inner removal loop of `BVA::bva_simplify_system` for one `replace_lit`. -/
def remove_matching_clauses_for (replace_lit : lit_pair) :
    BVA → List m_cls_lits_and_red → Option BVA
  | B, [] => some B
  | B, cl :: rest =>
    match B.remove_matching_clause cl replace_lit with
    | none => none
    | some B1 => remove_matching_clauses_for replace_lit B1 rest

/-- The outer removal loop of `BVA::bva_simplify_system`. -/
def remove_matching_clauses : BVA → List lit_pair → Option BVA
  | B, [] => some B
  | B, replace_lit :: rest =>
    match remove_matching_clauses_for replace_lit B B.m_cls_lits with
    | none => none
    | some B1 => remove_matching_clauses B1 rest

/-- The statements of `BVA::bva_simplify_system` before its loops: the counters are
updated and the fresh variable is created. -/
def bva_new_var (B : BVA) : BVA :=
  { B with
    touched := [],
    bva_worked := B.bva_worked + 1,
    bva_simp_size :=
      B.bva_simp_size + simplification_size B.m_lits.length B.m_cls.length,
    solver := B.solver.new_var }

/-- The loop `//Binary clauses` of `BVA::bva_simplify_system`. -/
def add_binary_clauses (E : Env) (new_lit : Lit) (B : BVA) : BVA :=
  B.m_lits.foldl (fun b m_lit => add_binary_clause E b new_lit m_lit) B

/-- `BVA::bva_simplify_system`; the second component is the returned flag, the result is
`none` where an assertion fails. -/
def bva_simplify_system (E : Env) (B : BVA) : Option (BVA × Bool) :=
  let B1 := B.bva_new_var
  let newvar : Nat := B1.solver.nVars - 1
  let new_lit : Lit := ⟨newvar, false⟩
  let B2 := add_binary_clauses E new_lit B1
  match add_longer_clauses E new_lit.neg B2 B2.m_cls with
  | (B3, false) => some (B3, false)
  | (B3, true) =>
    let B4 := B3.fill_m_cls_lits_and_red
    match remove_matching_clauses B4 B4.m_lits with
    | none => none
    | some B5 =>
      let B6 := B5.update_touched_lits_in_bva
      some (B6, B6.solver.okay)

/-- The lambda `mysort` of `BVA::remove_duplicates_from_m_cls`: binary entries come
first, then ternary ones, then long clauses by size and then by their literals. -/
def mysort (S : Solver) (a b : OccurClause) : Bool :=
  match a.ws, b.ws with
  | .binary a2 _, .binary b2 _ => a2.lt b2
  | .binary _ _, _ => true
  | _, .binary _ _ => false
  | .tertiary a2 a3 _, .tertiary b2 b3 _ => if a2 != b2 then a2.lt b2 else a3.lt b3
  | .tertiary _ _ _, _ => true
  | _, .tertiary _ _ _ => false
  | .clause oa _, .clause ob _ =>
    if (S.ptr oa).lits.length != (S.ptr ob).lits.length then
      decide ((S.ptr oa).lits.length < (S.ptr ob).lits.length)
    else
      match (List.zip (S.ptr oa).lits (S.ptr ob).lits).find? (fun p => p.1 != p.2) with
      | some p => p.1.lt p.2
      | none => false

/-- The flag `del` of the clean-up loop of `BVA::remove_duplicates_from_m_cls` for two
entries of the same type.  On long clauses `del` is set before the sizes are compared, and
the `break` on different sizes leaves the `switch` with `del == true`. -/
def is_duplicate (S : Solver) (prev next : Watched) : Bool :=
  match prev, next with
  | .binary p2 _, .binary n2 _ => p2 == n2
  | .tertiary p2 p3 _, .tertiary n2 n3 _ => p2 == n2 && p3 == n3
  | .clause o1 _, .clause o2 _ =>
    if (S.ptr o1).lits.length != (S.ptr o2).lits.length then true
    else (List.zip (S.ptr o1).lits (S.ptr o2).lits).all (fun p => p.1 == p.2)
  | _, _ => false

/-- What one round of the clean-up loop takes from the budget. -/
def is_duplicate_cost (S : Solver) (prev next : Watched) : Int :=
  match prev, next with
  | .clause o1 _, .clause o2 _ =>
    if (S.ptr o1).lits.length != (S.ptr o2).lits.length then 10
    else
      10 + (((List.zip (S.ptr o1).lits (S.ptr o2).lits).takeWhile (fun p => p.1 == p.2)).length
              + (if (List.zip (S.ptr o1).lits (S.ptr o2).lits).all (fun p => p.1 == p.2)
                  then 0 else 1) : Nat)
  | _, _ => 0

/-- The clean-up loop of `BVA::remove_duplicates_from_m_cls`: `prev` is `m_cls[j]`, the
list holds `m_cls[i+1 ..]`, the result is what is written to `m_cls[j+1 ..]`. -/
def remove_duplicates_scan (S : Solver) : OccurClause → List OccurClause → List OccurClause
  | _, [] => []
  | prev, next :: rest =>
    if prev.ws.getType != next.ws.getType then next :: remove_duplicates_scan S next rest
    else if is_duplicate S prev.ws next.ws then remove_duplicates_scan S prev rest
    else next :: remove_duplicates_scan S next rest

/-- The budget taken by the clean-up loop. -/
def remove_duplicates_scan_cost (S : Solver) : OccurClause → List OccurClause → Int
  | _, [] => 0
  | prev, next :: rest =>
    if prev.ws.getType != next.ws.getType then remove_duplicates_scan_cost S next rest
    else if is_duplicate S prev.ws next.ws then
      is_duplicate_cost S prev.ws next.ws + remove_duplicates_scan_cost S prev rest
    else is_duplicate_cost S prev.ws next.ws + remove_duplicates_scan_cost S next rest

/-- The value of `(long)std::sqrt(n)`: the largest `k` with `k * k ≤ n`. -/
def isqrt (n : Nat) : Nat :=
  (List.range (n + 1)).foldl (fun r k => if k * k ≤ n then k else r) 0

/-- The entries of `l` in the order of the positions `order`; a list of positions that is
no rearrangement of the positions of `l` is ignored. -/
def arrange {α : Type} (order : List Nat) (l : List α) : List α :=
  if order.length = l.length ∧ order.Nodup ∧ ∀ i ∈ order, i < l.length then
    order.filterMap (fun i => l[i]?)
  else l

/-- `BVA::remove_duplicates_from_m_cls`.  `std::sort` puts `m_cls` in the order of `mysort`
and leaves open in which order entries come of which `mysort` puts neither first: the
embedding arranges the entries as `E.mysort_order` says and then sorts them keeping the
order of such entries, so that every result that `std::sort` may have is the result for
some `E.mysort_order`. -/
def remove_duplicates_from_m_cls (E : Env) (B : BVA) : BVA :=
  if B.m_cls.length ≤ 1 then B
  else
    let sorted := (arrange (E.mysort_order B.solver B.m_cls) B.m_cls).insertionSort
      (fun a b => mysort B.solver b a = false)
    let limit1 : Int :=
      B.limit_to_decrease - 2 * (B.m_cls.length : Int) * (isqrt B.m_cls.length : Int)
        - (E.mysort_cost B.solver B.m_cls : Int)
    match sorted with
    | [] => { B with m_cls := [], limit_to_decrease := limit1 }
    | first :: rest =>
      { B with
        m_cls := first :: remove_duplicates_scan B.solver first rest,
        limit_to_decrease := limit1 - remove_duplicates_scan_cost B.solver first rest }

/-- The lambda `check_seen` of `BVA::lit_diff_watches` run over the literals of `a`:
`(num, toret)`. -/
def check_seen (seen : Nat → Nat) (acc : Nat × lit_pair) (lit : Lit) : Nat × lit_pair :=
  if seen lit.toInt = 0 then
    (acc.1 + 1, if acc.1 = 0 then { acc.2 with lit1 := lit } else { acc.2 with lit2 := lit })
  else acc

/-- `BVA::lit_diff_watches`: the literals of `a` that are not in `b`. -/
def lit_diff_watches (B : BVA) (a b : OccurClause) : BVA × lit_pair :=
  let seen1 := (B.solver.occ_lits b).foldl (fun s lit => setAt s lit.toInt 1) B.seen
  let r := (B.solver.occ_lits a).foldl (check_seen seen1) (0, ⟨lit_Undef, lit_Undef⟩)
  let seen2 := (B.solver.occ_lits b).foldl (fun s lit => setAt s lit.toInt 0) seen1
  let B1 : BVA :=
    { B with
      seen := seen2,
      limit_to_decrease :=
        B.limit_to_decrease - B.solver.for_each_lit_cost b - B.solver.for_each_lit_cost a
          - B.solver.for_each_lit_cost b }
  if 1 ≤ r.1 ∧ r.1 ≤ 2 then (B1, r.2) else (B1, lit_pair.of_lit lit_Undef)

/-- The marking loops of `BVA::least_occurring_except` over `m_lits`. -/
def mark_m_lits (m_lits : List lit_pair) (v : Nat) (seen : Nat → Nat) : Nat → Nat :=
  m_lits.foldl
    (fun s lits =>
      let s1 := setAt s lits.lit1.toInt v
      if lits.lit2 != lit_Undef then setAt s1 lits.lit2.toInt v else s1) seen

/-- The lambda `check_smallest` of `BVA::least_occurring_except`: `(smallest,
smallest_val)`. -/
def check_smallest (S : Solver) (seen : Nat → Nat) (acc : Lit × Nat) (lit : Lit) : Lit × Nat :=
  if seen lit.toInt != 0 then acc
  else if (S.watches lit.toInt).length < acc.2 then (lit, (S.watches lit.toInt).length)
  else acc

/-- `BVA::least_occurring_except`; `smallest_val` starts at the largest `size_t`. -/
def least_occurring_except (B : BVA) (c : OccurClause) : BVA × Lit :=
  let seen1 := mark_m_lits B.m_lits 1 B.seen
  let r := (B.solver.occ_lits_except_watched c).foldl (check_smallest B.solver seen1)
    (lit_Undef, 2 ^ 64 - 1)
  let seen2 := mark_m_lits B.m_lits 0 seen1
  ({ B with
      seen := seen2,
      limit_to_decrease :=
        B.limit_to_decrease - (B.m_lits.length : Int) - B.solver.for_each_lit_cost c }, r.1)

/-- Setting `seen2[lits.hash(seen2.size())] = v` for every pair of a list. -/
def mark_seen2 (E : Env) (ls : List lit_pair) (v : Nat) (seen2 : Nat → Nat) : Nat → Nat :=
  ls.foldl (fun s lits => setAt s (E.hash lits E.seen2_size) v) seen2

/-- The scan of `solver->watches[l_min]` inside `BVA::fill_potential`; it stops at the
first entry met with a negative budget (`goto end`). -/
def fill_potential_scan (E : Env) (lit : Lit) (c : OccurClause) (l_min : Lit) :
    BVA → List Watched → BVA
  | B, [] => B
  | B, d_ws :: rest =>
    if B.limit_to_decrease < 0 then B
    else
      let d : OccurClause := ⟨l_min, d_ws⟩
      let sz_c := B.solver.cl_size c.ws
      let sz_d := B.solver.cl_size d.ws
      if c.ws != d.ws
          && (sz_c == sz_d
              || (sz_c + 1 == sz_d
                  && B.solver.conf.bva_also_twolit_diff
                  && decide ((B.solver.sumConflicts : Int)
                      ≥ B.solver.conf.bva_extra_lit_and_red_start)))
          && !B.solver.redundant d.ws then
        let r1 := B.lit_diff_watches c d
        if r1.2 = lit_pair.of_lit lit then
          let r2 := r1.1.lit_diff_watches d c
          let diff := r2.2
          if r2.1.seen2 (E.hash diff E.seen2_size) = 0 then
            fill_potential_scan E lit c l_min
              { r2.1 with
                limit_to_decrease := r2.1.limit_to_decrease - 3,
                potential := r2.1.potential ++ [⟨diff, c⟩],
                m_lits_this_cl := r2.1.m_lits_this_cl ++ [diff],
                seen2 := setAt r2.1.seen2 (E.hash diff E.seen2_size) 1 } rest
          else fill_potential_scan E lit c l_min r2.1 rest
        else fill_potential_scan E lit c l_min r1.1 rest
      else fill_potential_scan E lit c l_min B rest

/-- The body of the loop of `BVA::fill_potential` for one clause `c` of `m_cls`. -/
def fill_potential_for (E : Env) (lit : Lit) (B : BVA) (c : OccurClause) : BVA :=
  let r := B.least_occurring_except c
  let l_min := r.2
  if l_min = lit_Undef then r.1
  else
    let B1 : BVA :=
      { r.1 with
        m_lits_this_cl := r.1.m_lits,
        limit_to_decrease := r.1.limit_to_decrease - (r.1.m_lits.length : Int) }
    let B2 : BVA := { B1 with seen2 := mark_seen2 E B1.m_lits_this_cl 1 B1.seen2 }
    let B3 : BVA :=
      { B2 with
        limit_to_decrease :=
          B2.limit_to_decrease - ((B2.solver.watches l_min.toInt).length : Int) * 3 }
    let B4 := fill_potential_scan E lit c l_min B3 (B3.solver.watches l_min.toInt)
    { B4 with seen2 := mark_seen2 E B4.m_lits_this_cl 0 B4.seen2 }

/-- The loop of `BVA::fill_potential` over `m_cls`; it stops at the first clause met with
a negative budget. -/
def fill_potential_loop (E : Env) (lit : Lit) : BVA → List OccurClause → BVA
  | B, [] => B
  | B, c :: rest =>
    if B.limit_to_decrease < 0 then B
    else fill_potential_loop E lit (fill_potential_for E lit B c) rest

/-- `BVA::fill_potential`. -/
def fill_potential (E : Env) (B : BVA) (lit : Lit) : BVA :=
  fill_potential_loop E lit B B.m_cls

/-- `BVA::simplifies_system`. -/
def simplifies_system (B : BVA) (num_occur : Nat) : Bool :=
  if B.m_lits.length = 1 then decide (num_occur ≥ 2)
  else
    let orig_num_red := simplification_size B.m_lits.length B.m_cls.length
    let new_num_red := simplification_size (B.m_lits.length + 1) num_occur
    if new_num_red ≤ 0 then false
    else if new_num_red < orig_num_red then false
    else true

/-- Modelled from the spec: `operator<` of `lit_pair` and `PotentialClause` in `bva.h`,
the key of the sort in `most_occuring_lit_in_potential`: pairs are compared by their first
and then their second literal, so that equal pairs become neighbours. -/
def lit_pair.lt (a b : lit_pair) : Bool :=
  if a.lit1 != b.lit1 then a.lit1.lt b.lit1 else a.lit2.lt b.lit2

/-- The counting loop of `BVA::most_occuring_lit_in_potential`:
`(largest, most_occur, last_occur, num)`. -/
def most_occuring_scan (acc : Nat × lit_pair × lit_pair × Nat) (pot : PotentialClause) :
    Nat × lit_pair × lit_pair × Nat :=
  let largest := acc.1
  let most_occur := acc.2.1
  let last_occur := acc.2.2.1
  let num := acc.2.2.2
  if last_occur != pot.lits then
    if num ≥ largest then (num, last_occur, pot.lits, 1)
    else (largest, most_occur, pot.lits, 1)
  else (largest, most_occur, last_occur, num + 1)

/-- The entries of `l` in the order `E.sort_order l`. -/
def sort_arrange (E : Env) (l : List PotentialClause) : List PotentialClause :=
  arrange (E.sort_order l) l

/-- `BVA::most_occuring_lit_in_potential`: the state, the returned pair and `largest`.
`std::sort` puts `potential` in ascending order of the pairs and leaves open in which order
entries with equal pairs come: the embedding arranges the entries as `E.sort_order` says and
then sorts them keeping the order of entries with equal pairs, so that every result that
`std::sort` may have is the result for some `E.sort_order`. -/
def most_occuring_lit_in_potential (E : Env) (B : BVA) : BVA × lit_pair × Nat :=
  let B1 : BVA :=
    if B.potential.length > 1 then
      { B with
        limit_to_decrease := E.sub_sort_cost B.limit_to_decrease B.potential.length,
        potential := (sort_arrange E B.potential).insertionSort
          (fun a b => lit_pair.lt b.lits a.lits = false) }
    else B
  let r := B1.potential.foldl most_occuring_scan
    (0, ⟨lit_Undef, lit_Undef⟩, ⟨lit_Undef, lit_Undef⟩, 0)
  if r.2.2.2 ≥ r.1 then (B1, r.2.2.1, r.2.2.2) else (B1, r.2.1, r.1)

/-- The `while(true)` loop of `BVA::try_bva_on_lit`.  The result is `none` when `fuel`
rounds do not suffice; the flag is `false` where the function returns from inside the loop
on a negative budget and `true` where the loop is left by `break`.  The assertion
`pot.occur_cl.lit == lit` is not modelled. -/
def try_bva_on_lit_loop (E : Env) (lit : Lit) : Nat → BVA → Option (BVA × Bool)
  | 0, _ => none
  | fuel + 1, B =>
    let B1 := fill_potential E { B with potential := [] } lit
    if B1.limit_to_decrease < 0 then some (B1, false)
    else
      let r := most_occuring_lit_in_potential E B1
      let l_max := r.2.1
      let num_occur := r.2.2
      if r.1.simplifies_system num_occur then
        let B2 : BVA :=
          { r.1 with
            m_lits := r.1.m_lits ++ [l_max],
            limit_to_decrease := r.1.limit_to_decrease - (r.1.potential.length : Int) * 3,
            m_cls := (r.1.potential.filter (fun pot => pot.lits = l_max)).map
              (fun pot => pot.occur_cl) }
        try_bva_on_lit_loop E lit fuel B2
      else some (r.1, true)

/-- The first part of `BVA::try_bva_on_lit`, up to the call of
`remove_duplicates_from_m_cls`. -/
def try_bva_on_lit_init (E : Env) (B : BVA) (lit : Lit) : BVA :=
  let B1 : BVA :=
    { B with
      m_cls := [],
      m_lits := [lit_pair.of_lit lit],
      limit_to_decrease :=
        B.limit_to_decrease - ((B.solver.watches lit.toInt).length : Int) }
  let B2 : BVA :=
    { B1 with
      m_cls := ((B1.solver.watches lit.toInt).filter (fun w => !B1.solver.redundant w)).map
        (fun w => (⟨lit, w⟩ : OccurClause)) }
  remove_duplicates_from_m_cls E B2

/-- `BVA::try_bva_on_lit`; the second component is the returned flag.  The result is
`none` when `fuel` rounds of the loop do not suffice or an assertion of
`bva_simplify_system` fails. -/
def try_bva_on_lit (E : Env) (fuel : Nat) (B : BVA) (lit : Lit) : Option (BVA × Bool) :=
  match try_bva_on_lit_loop E lit fuel (try_bva_on_lit_init E B lit) with
  | none => none
  | some (B1, false) => some (B1, B1.solver.okay)
  | some (B1, true) =>
    let simp_size := simplification_size B1.m_lits.length B1.m_cls.length
    if simp_size ≤ 0 then some (B1, B1.solver.okay)
    else bva_simplify_system E B1

end BVA

/-- The clauses handed to `add_clause_int` in a sequence of calls, in call order. -/
def added_clauses (tr : List SolverCall) : List (List Lit) :=
  tr.filterMap fun c =>
    match c with
    | .add_clause_int lits _ => some lits
    | _ => none

/-- Whether a call takes a clause out of the clause database. -/
def SolverCall.is_removal : SolverCall → Bool
  | .detach_bin_clause _ _ _ => true
  | .detach_tri_clause _ _ _ _ => true
  | .unlink_clause _ => true
  | _ => false

/-! ## The formula held by the solver -/

/-- The value of a literal under an assignment of the variables; `sign` marks negation. -/
def Lit.eval (σ : Nat → Bool) (l : Lit) : Bool := σ l.var != l.sign

/-- An assignment satisfies a clause when it makes one of its literals true. -/
def clause_sat (σ : Nat → Bool) (lits : List Lit) : Prop := ∃ l ∈ lits, l.eval σ = true

/-- An assignment satisfies the formula `F` of the solver when it satisfies every
irredundant clause found in a watch list. -/
def Solver.models (S : Solver) (σ : Nat → Bool) : Prop :=
  ∀ i, ∀ w ∈ S.watches i, S.redundant w = false → clause_sat σ (S.occ_lits ⟨Lit.toLit i, w⟩)

/-- The clauses `(Cᵢ \ {ℓ}) ∪ ℓⱼ` that `bva_simplify_system` looks up and removes, in the
order of its two removal loops. -/
def BVA.matched_clauses (B : BVA) : List (List Lit) :=
  B.m_lits.flatMap fun lj =>
    B.m_cls.map fun cl => BVA.to_remove_lits (BVA.cls_lits_and_red B.solver cl) lj

/-- The state in which `bva_simplify_system` expects the solver and the sets `m_lits` and
`m_cls`.  The watch lists cover the literals of the `nVars` variables and hold clauses
over these variables; a long entry points to an allocated clause without repeated
literals.  Every entry of `m_cls` is an entry of the watch list of its pivot literal, and
for every `ℓⱼ` of `m_lits` and `Cᵢ` of `m_cls` the clause `(Cᵢ \ {ℓ}) ∪ ℓⱼ` is an
irredundant clause of the formula, a long one being listed in the watch list of its first
literal; these matched clauses differ from each other.  `seen` is all zero. -/
structure BVA.Ready (B : BVA) : Prop where
  watches_size : ∀ i, 2 * B.solver.nVars ≤ i → B.solver.watches i = []
  vars_bounded : ∀ i < 2 * B.solver.nVars, ∀ w ∈ B.solver.watches i,
    ∀ l ∈ B.solver.occ_lits ⟨Lit.toLit i, w⟩, l.var < B.solver.nVars
  offsets_valid : ∀ i < 2 * B.solver.nVars, ∀ w ∈ B.solver.watches i,
    w.isClause = true → w.get_offset < B.solver.cl_alloc.length
  long_nodup : ∀ i < 2 * B.solver.nVars, ∀ w ∈ B.solver.watches i,
    w.isClause = true → (B.solver.ptr w.get_offset).lits.Nodup
  long_size : ∀ i < 2 * B.solver.nVars, ∀ w ∈ B.solver.watches i,
    w.isClause = true → 2 ≤ (B.solver.ptr w.get_offset).lits.length
  seen_clear : ∀ i, B.seen i = 0
  m_cls_watched : ∀ cl ∈ B.m_cls, cl.ws ∈ B.solver.watches cl.lit.toInt
  m_cls_pivot : ∀ cl ∈ B.m_cls, cl.lit ∈ B.solver.occ_lits cl
  m_lits_bounded : ∀ lj ∈ B.m_lits, lj.lit1.var < B.solver.nVars
    ∧ (lj.lit2 ≠ lit_Undef → lj.lit2.var < B.solver.nVars)
  matched : ∀ t ∈ B.matched_clauses, ∃ i < 2 * B.solver.nVars, ∃ w ∈ B.solver.watches i,
    B.solver.redundant w = false
      ∧ (∀ l ∈ B.solver.occ_lits ⟨Lit.toLit i, w⟩, l ∈ t)
      ∧ (∀ l ∈ t, l ∈ B.solver.occ_lits ⟨Lit.toLit i, w⟩)
  matched_long : ∀ lj ∈ B.m_lits, ∀ cl ∈ B.m_cls,
    (BVA.to_remove_lits (BVA.cls_lits_and_red B.solver cl) lj).length ≠ 2 →
    (BVA.to_remove_lits (BVA.cls_lits_and_red B.solver cl) lj).length ≠ 3 →
    ∃ w ∈ B.solver.watches
        ((BVA.to_remove_lits (BVA.cls_lits_and_red B.solver cl) lj).headD lit_Undef).toInt,
      w.isClause = true
        ∧ (B.solver.ptr w.get_offset).red = (BVA.cls_lits_and_red B.solver cl).red
        ∧ (B.solver.ptr w.get_offset).lits.length
            = (BVA.to_remove_lits (BVA.cls_lits_and_red B.solver cl) lj).length
        ∧ ∀ l ∈ (B.solver.ptr w.get_offset).lits,
            l ∈ BVA.to_remove_lits (BVA.cls_lits_and_red B.solver cl) lj
  matched_distinct : B.matched_clauses.Pairwise
    fun s t => ¬ ((∀ l ∈ s, l ∈ t) ∧ (∀ l ∈ t, l ∈ s))

/-! ## A small formula on which BVA applies

Variables `0..6` and the six clauses `(a ∨ c ∨ d ∨ e)`, `(b ∨ c ∨ d ∨ e)`, `(a ∨ f)`,
`(b ∨ f)`, `(a ∨ g)`, `(b ∨ g)`: with pivot `a`, `m_lits = {a, b}` and
`m_cls = {(a ∨ c ∨ d ∨ e), (a ∨ f), (a ∨ g)}`. -/

namespace Example

def a : Lit := ⟨0, false⟩

def b : Lit := ⟨1, false⟩

def c : Lit := ⟨2, false⟩

def d : Lit := ⟨3, false⟩

def e : Lit := ⟨4, false⟩

def f : Lit := ⟨5, false⟩

def g : Lit := ⟨6, false⟩

/-- The positive literal of the variable that BVA creates on this formula. -/
def x : Lit := ⟨7, false⟩

/-- The watch lists of the six clauses, indexed by `Lit::toInt()`. -/
def watch_table : List (List Watched) :=
  [[.clause 0 a, .binary f false, .binary g false], [],
   [.clause 1 b, .binary f false, .binary g false], [],
   [.clause 0 a, .clause 1 b], [],
   [.clause 0 a, .clause 1 b], [],
   [.clause 0 a, .clause 1 b], [],
   [.binary a false, .binary b false], [],
   [.binary a false, .binary b false], []]

def solver : Solver :=
  { nVars := 7
    watches := fun i => watch_table.getD i []
    cl_alloc := [⟨[a, c, d, e], false⟩, ⟨[b, c, d, e], false⟩]
    ok := true
    conf := { bva_also_twolit_diff := true, bva_extra_lit_and_red_start := 0 }
    sumConflicts := 0
    trace := [] }

/-- The whole part of `(double)n * std::log(n) * 0.2` for `n < 33`; the examples sort no
longer lists. -/
def sort_charge (n : Nat) : Nat :=
  [0, 0, 0, 0, 1, 1, 2, 2, 3, 3, 4, 5, 5, 6, 7, 8, 8, 9, 10, 11, 11, 12, 13, 14, 15, 16, 16,
    17, 18, 19, 20, 21, 22].getD n n

/-- The budget after `limit -= (double)n * std::log(n) * 0.2`: the difference is computed
as a `double` and converted to `int64_t`, which drops its fraction.  For `n ≥ 2` the
product is no whole number. -/
def sub_sort_cost (limit : Int) (n : Nat) : Int :=
  if n < 2 then limit
  else if limit > (sort_charge n : Int) then limit - (sort_charge n : Int) - 1
  else limit - (sort_charge n : Int)

/-- What one call `mysort(a, b)` of the comparator of `remove_duplicates_from_m_cls` takes
from the budget: nothing unless both entries are long clauses, then `20`, and `1` for every
pair of literals it compares when the sizes agree. -/
def mysort_charge (S : Solver) (a b : OccurClause) : Nat :=
  match a.ws, b.ws with
  | .clause oa _, .clause ob _ =>
    if (S.ptr oa).lits.length != (S.ptr ob).lits.length then 20
    else
      20 + min (S.ptr oa).lits.length
        (((List.zip (S.ptr oa).lits (S.ptr ob).lits).takeWhile (fun p => p.1 == p.2)).length + 1)
  | _, _ => 0

/-- One round of the insertion sort that `std::sort` of the GNU C++ library runs on at most
16 entries: the entry `val` is compared with the first entry of the sorted part `p` and,
unless it goes in front of it, with the entries of `p` from the last one down to the first
that is not greater.  The charge of these calls of the comparator, and the sorted part
with `val` in it. -/
def insert_charge (S : Solver) (val : OccurClause) (p : List OccurClause) :
    Nat × List OccurClause :=
  match p with
  | [] => (0, [val])
  | first :: _ =>
    if BVA.mysort S val first then (mysort_charge S val first, val :: p)
    else
      let bigger := p.reverse.takeWhile (fun x => BVA.mysort S val x)
      let stop := (p.reverse.drop bigger.length).head?
      (mysort_charge S val first + (bigger.map (mysort_charge S val)).sum
          + (stop.map (mysort_charge S val)).getD 0,
        p.take (p.length - bigger.length) ++ [val] ++ p.drop (p.length - bigger.length))

/-- What the calls of the comparator take from the budget when `std::sort` of the GNU C++
library sorts `cls`, a list of at most 16 entries. -/
def mysort_cost (S : Solver) (cls : List OccurClause) : Nat :=
  (cls.foldl
    (fun (acc : Nat × List OccurClause) val =>
      let r := insert_charge S val acc.2
      (acc.1 + r.1, r.2))
    (0, [])).1

/-- An environment in which no clause addition fails; the charges of the sorts are those of
a build with the GNU C++ library. -/
def env : Env :=
  { add_clause_fails := fun _ _ => false
    hash := fun p n => (p.lit1.toInt * 31 + p.lit2.toInt) % n
    seen2_size := 1024
    sub_sort_cost := sub_sort_cost
    mysort_cost := mysort_cost }

/-- An environment in which `add_clause_int` finds the formula inconsistent when it is
given a clause over the negative literal of variable `7`. -/
def env_failing : Env :=
  { env with add_clause_fails := fun _ lits => decide (x.neg ∈ lits) }

/-- The state of BVA when `bva_simplify_system` is called for pivot `a`. -/
def bva : BVA :=
  { solver := solver
    limit_to_decrease := 1000
    simplifier_clauses := [0, 1]
    seen := fun _ => 0
    seen2 := fun _ => 0
    bva_worked := 0
    bva_simp_size := 0
    m_lits := [lit_pair.of_lit a, lit_pair.of_lit b]
    m_cls := [⟨a, .clause 0 a⟩, ⟨a, .binary f false⟩, ⟨a, .binary g false⟩]
    m_lits_this_cl := []
    potential := []
    m_cls_lits := []
    to_remove := []
    bva_tmp_lits := []
    touched := []
    watch_irred_sizes := fun _ => 0
    var_bva_order := [] }

/-- The state in which `bva_simplify_system` leaves `bva`. -/
def bva_simplified : BVA :=
  ((BVA.bva_simplify_system env bva).map Prod.fst).getD bva

/-- The state in which `bva_simplify_system` leaves `bva` when clause additions fail. -/
def bva_failed : BVA :=
  ((BVA.bva_simplify_system env_failing bva).map Prod.fst).getD bva

end Example

/-- The clauses that, in the words of the specification, BVA adds for the positive literal
`x` of the fresh variable: `(¬x ∨ ℓⱼ)` for each `ℓⱼ` and `(x ∨ Cᵢ \ {ℓ})` for each `Cᵢ`. -/
def spec_added_clauses (x pivot : Lit) (m_lits : List Lit) (m_cls : List (List Lit)) :
    List (List Lit) :=
  m_lits.map (fun lj => [x.neg, lj]) ++ m_cls.map (fun Ci => x :: Ci.filter (fun l => l != pivot))

/-! ## Relations between solver states used in the proofs -/

/-- The entry `w` of watch list `j` stands for the irredundant clause with the literals
`lits`, and it points into the allocator if it is a long entry. -/
def Solver.Denotes (T : Solver) (j : Nat) (w : Watched) (lits : List Lit) : Prop :=
  T.redundant w = false
    ∧ (∀ l ∈ lits, l ∈ T.occ_lits ⟨Lit.toLit j, w⟩)
    ∧ (∀ l ∈ T.occ_lits ⟨Lit.toLit j, w⟩, l ∈ lits)
    ∧ (w.isClause = true → w.get_offset < T.cl_alloc.length)

/-- The solver `T` results from `S` by one clause addition with the literals `lits`: the
old entries stay, every new entry stands for `lits`, and unless the solver became
inconsistent the clause is present. -/
structure Solver.AddStep (S T : Solver) (lits : List Lit) : Prop where
  alloc : S.cl_alloc <+: T.cl_alloc
  nVars : T.nVars = S.nVars
  old : ∀ j w, w ∈ S.watches j → w ∈ T.watches j
  entries : ∀ j w, w ∈ T.watches j → w ∈ S.watches j ∨ T.Denotes j w lits
  present : T.ok = true → 2 ≤ lits.length → ∃ j w, w ∈ T.watches j ∧ T.Denotes j w lits
  ok : T.ok = true → S.ok = true

/-- The solver after `add_clause_int` and, for a new long clause, `linkInClause`. -/
def add_and_link (E : Env) (S : Solver) (lits : List Lit) : Solver :=
  match (add_clause_int E S lits false).2.2 with
  | some o => (add_clause_int E S lits false).1.linkInClause o
  | none => (add_clause_int E S lits false).1

/-- The solver `T` results from `S` by `new_var` and the clause additions `issued`. -/
structure Solver.AddInv (S T : Solver) (issued : List (List Lit)) : Prop where
  alloc : S.cl_alloc <+: T.cl_alloc
  nVars : T.nVars = S.nVars + 1
  old : ∀ j w, w ∈ S.watches j → w ∈ T.watches j
  entries : ∀ j w, w ∈ T.watches j → w ∈ S.watches j ∨ ∃ c ∈ issued, T.Denotes j w c
  valid : ∀ j w, w ∈ T.watches j → w.isClause = true → w.get_offset < T.cl_alloc.length
  present : T.ok = true → ∀ c ∈ issued, 2 ≤ c.length →
    ∃ j w, w ∈ T.watches j ∧ T.Denotes j w c

/-- The literal lists `s` and `t` hold the same literals. -/
def same_lits (s t : List Lit) : Prop := (∀ l ∈ s, l ∈ t) ∧ (∀ l ∈ t, l ∈ s)

/-- The solver `T'` results from `T` by taking out watch entries that stand for the clause
`torem`. -/
structure Solver.RemStep (T T' : Solver) (torem : List Lit) : Prop where
  alloc : T'.cl_alloc = T.cl_alloc
  nVars : T'.nVars = T.nVars
  sub : ∀ j w, w ∈ T'.watches j → w ∈ T.watches j
  erased : ∀ j w, w ∈ T.watches j →
    w ∈ T'.watches j ∨ same_lits (T.occ_lits ⟨Lit.toLit j, w⟩) torem

/-- The condition under which `find_cl_for_bva` finds the long clause `torem`: the watch
list of its first literal holds a long clause with the flag `red`, the size of `torem` and
literals of `torem` only. -/
def Solver.LongMatch (T : Solver) (torem : List Lit) (red : Bool) : Prop :=
  ∃ w ∈ T.watches (torem.headD lit_Undef).toInt,
    w.isClause = true ∧ (T.ptr w.get_offset).red = red
      ∧ (T.ptr w.get_offset).lits.length = torem.length
      ∧ ∀ l ∈ (T.ptr w.get_offset).lits, l ∈ torem

/-- The solver `T` results from `T0` by taking out watch entries that stand for the clauses
`done`. -/
structure Solver.RemInv (T0 T : Solver) (done : List (List Lit)) : Prop where
  alloc : T.cl_alloc = T0.cl_alloc
  nVars : T.nVars = T0.nVars
  sub : ∀ j w, w ∈ T.watches j → w ∈ T0.watches j
  erased : ∀ j w, w ∈ T0.watches j →
    w ∈ T.watches j ∨ ∃ t ∈ done, same_lits (T0.occ_lits ⟨Lit.toLit j, w⟩) t

/-- Every long clause of the watch lists whose literals all occur in `q` has no repeated
literal. -/
def Solver.NodupWithin (T : Solver) (q : List Lit) : Prop :=
  ∀ j, ∀ w ∈ T.watches j, w.isClause = true →
    (∀ l ∈ (T.ptr w.get_offset).lits, l ∈ q) → (T.ptr w.get_offset).lits.Nodup

/-! ## A formula on which the greedy loop takes a round of equal gain

The formula of `Example` and the two clauses `(h ∨ f)`, `(h ∨ g)` over a further variable
`7`: after the round that puts `b` into `m_lits`, the pair `h` matches two of the three
clauses of `m_cls`. -/

namespace Example2

def h : Lit := ⟨7, false⟩

/-- The watch lists of the eight clauses, indexed by `Lit::toInt()`. -/
def watch_table : List (List Watched) :=
  [[.clause 0 Example.a, .binary Example.f false, .binary Example.g false], [],
   [.clause 1 Example.b, .binary Example.f false, .binary Example.g false], [],
   [.clause 0 Example.a, .clause 1 Example.b], [],
   [.clause 0 Example.a, .clause 1 Example.b], [],
   [.clause 0 Example.a, .clause 1 Example.b], [],
   [.binary Example.a false, .binary Example.b false, .binary h false], [],
   [.binary Example.a false, .binary Example.b false, .binary h false], [],
   [.binary Example.f false, .binary Example.g false], []]

def solver : Solver :=
  { Example.solver with
    nVars := 8
    watches := fun i => watch_table.getD i [] }

/-- The state of BVA before `try_bva_on_lit` is called. -/
def bva : BVA :=
  { Example.bva with
    solver := solver
    m_lits := []
    m_cls := [] }

end Example2

/-- The state `B` results from `A` by steps that leave the solver, `m_lits` and `m_cls` as
they are and do not raise the budget. -/
structure BVA.Frame (A B : BVA) : Prop where
  solver : B.solver = A.solver
  m_lits : B.m_lits = A.m_lits
  m_cls : B.m_cls = A.m_cls
  limit : B.limit_to_decrease ≤ A.limit_to_decrease


/-! ## What `fill_potential` finds -/

/-- The pair that `lit_diff_watches(a, b)` returns when `diff` lists the literals of `a`
that are not in `b`: the pair itself for one or two literals, `lit_Undef` otherwise. -/
def lit_pair.of_diff : List Lit → lit_pair
  | [x] => ⟨x, lit_Undef⟩
  | [x, y] => ⟨x, y⟩
  | _ => ⟨lit_Undef, lit_Undef⟩

/-- The clause `d` that `l_min` watches as `d_ws` witnesses the entry `(diff, c)` of
`potential` for the pivot `lit`: `d` is irredundant and is not `c`, `c \ d = {lit}`,
`d \ c = diff`, and so `d` is the clause `(c \ {lit}) ∪ diff`. -/
structure Solver.Witnesses (S : Solver) (lit : Lit) (c : OccurClause) (l_min : Lit)
    (d_ws : Watched) (diff : lit_pair) : Prop where
  watched : d_ws ∈ S.watches l_min.toInt
  irred : S.redundant d_ws = false
  differs : c.ws ≠ d_ws
  c_minus_d : ∀ l, (l ∈ S.occ_lits c ∧ l ∉ S.occ_lits ⟨l_min, d_ws⟩) ↔ l = lit
  d_minus_c : ∀ l, (l ∈ S.occ_lits ⟨l_min, d_ws⟩ ∧ l ∉ S.occ_lits c) ↔ l ∈ diff.lits
  size : (S.cl_size c.ws = S.cl_size d_ws ∧ diff.lits.length = 1)
    ∨ (S.cl_size c.ws + 1 = S.cl_size d_ws ∧ diff.lits.length = 2)
  present : ∀ l, l ∈ S.occ_lits ⟨l_min, d_ws⟩ ↔ (l ∈ S.occ_lits c ∧ l ≠ lit) ∨ l ∈ diff.lits

/-- What `fill_potential(lit)` relies on: `seen` is all zero, the pivot is a literal, the
watch lists end with the variables, every watched clause lists each of its literals once
and holds no `lit_Undef`, and the clauses of `m_cls` are watched by their literal. -/
structure BVA.Scannable (B : BVA) (lit : Lit) : Prop where
  seen_clear : ∀ i, B.seen i = 0
  pivot : lit ≠ lit_Undef
  watches_size : ∀ i, 2 * B.solver.nVars ≤ i → B.solver.watches i = []
  lits_nodup : ∀ i < 2 * B.solver.nVars, ∀ w ∈ B.solver.watches i,
    (B.solver.occ_lits ⟨Lit.toLit i, w⟩).Nodup
  lits_defined : ∀ i < 2 * B.solver.nVars, ∀ w ∈ B.solver.watches i,
    lit_Undef ∉ B.solver.occ_lits ⟨Lit.toLit i, w⟩
  m_cls_watched : ∀ c ∈ B.m_cls, c.ws ∈ B.solver.watches c.lit.toInt

/-- The state of BVA in the first round of the greedy loop of `try_bva_on_lit(a)` on the
formula of `Example2`. -/
def Example2.bva_round1 : BVA :=
  { Example2.bva with
    m_lits := [lit_pair.of_lit Example.a]
    m_cls := [⟨Example.a, .binary Example.f false⟩, ⟨Example.a, .binary Example.g false⟩,
      ⟨Example.a, .clause 0 Example.a⟩] }

/-! ## Component handler: data

`CompHandler` hands every component of the formula but the largest to a sub-solver of its
own.  The statistics counters `binTri` of the solver, the SQL sink and the output on
`cout` are not part of the embedding. -/

namespace Solver

def map_outer_to_inter (S : Solver) (outer : Nat) : Nat := S.outerToInterMain outer

def map_inter_to_outer (S : Solver) (inter : Nat) : Nat := S.interToOuterMain inter

/-- The overload of `map_inter_to_outer` on literals: the variable is renumbered, the sign
is kept. -/
def map_inter_to_outer_lit (S : Solver) (lit : Lit) : Lit :=
  ⟨S.map_inter_to_outer lit.var, lit.sign⟩

/-- Assignment `varData[var] = d`. -/
def setVarData (S : Solver) (var : Nat) (d : VarData) : Solver :=
  { S with varData := fun v => if v = var then d else S.varData v }

/-- Modelled from the spec: `Solver::set_decision_var`, reduced to the flag of `varData`. -/
def set_decision_var (S : Solver) (var : Nat) : Solver :=
  S.setVarData var { S.varData var with is_decision := true }

/-- Modelled from the spec: `Solver::unset_decision_var`, reduced to the flag of
`varData`. -/
def unset_decision_var (S : Solver) (var : Nat) : Solver :=
  S.setVarData var { S.varData var with is_decision := false }

/-- Modelled from the spec: `Solver::addClause` on outer literals, reduced to the record
of the call. -/
def addClause (S : Solver) (lits : List Lit) : Solver := S.log (.addClause lits)

/-- Modelled from the spec: `Solver::enqueue`, which gives the literal its value, notes the
number of open decision levels as the level of its variable and puts it on the trail. -/
def enqueue (S : Solver) (lit : Lit) : Solver :=
  { S with
    assigns := fun v =>
      if v = lit.var then (if lit.sign then .l_False else .l_True) else S.assigns v,
    varData := fun v =>
      if v = lit.var then { S.varData v with level := S.trail_lim.length } else S.varData v,
    trail := S.trail ++ [lit] }

/-- Modelled from the spec: `Solver::detachClause`, which takes the references to a long
clause out of the watch lists of its literals.  The call is not recorded in `trace`. -/
def detachClause (S : Solver) (offset : Nat) : Solver :=
  (S.ptr offset).lits.foldl
    (fun T l => T.setWatches l.toInt
      ((T.watches l.toInt).eraseP (fun w => w.isClause && w.get_offset == offset))) S

/-- Modelled from the spec: `removeWBin(watches, lit1, lit2, red)` of `watchalgos.h`, which
takes the entry for the binary clause out of the watch list of `lit1`. -/
def removeWBin (S : Solver) (lit1 lit2 : Lit) (red : Bool) : Solver :=
  S.setWatches lit1.toInt ((S.watches lit1.toInt).erase (.binary lit2 red))

/-- Modelled from the spec: `removeWTri(watches, lit1, lit2, lit3, red)` of
`watchalgos.h`. -/
def removeWTri (S : Solver) (lit1 lit2 lit3 : Lit) (red : Bool) : Solver :=
  S.setWatches lit1.toInt ((S.watches lit1.toInt).erase (.tertiary lit2 lit3 red))

end Solver

/-- Modelled from the spec: the sub-solver `SATSolver newSolver`, as far as the component
handler fills it: its configuration, its variables and the clauses given to
`add_clause`, oldest first. -/
structure SATSolver where
  conf : SolverConf
  nVars : Nat
  clauses : List (List Lit)

namespace SATSolver

def new_var (N : SATSolver) : SATSolver := { N with nVars := N.nVars + 1 }

def add_clause (N : SATSolver) (lits : List Lit) : SATSolver :=
  { N with clauses := N.clauses ++ [lits] }

end SATSolver

/-- Modelled from the spec: what a `CompFinder` reports after `find_components()`: the
result of the call, `getTimedOut()`, `getReverseTable()` (a `std::map` from component
number to variables, listed in key order) and the table behind `getVarComp`. -/
structure CompFinder where
  found : Bool
  timedOut : Bool
  reverseTable : List (Nat × List Nat)
  table : Nat → Nat

/-- The parts of the program that the component handler calls and that are not among the
sources, taken as parameters: the component finder, the sub-solver (`solve`, `get_model`,
`get_zero_assigned_lits`), `var_inside_assumptions`, whether `propagate` ends without a
conflict, and the next value of `mtrand.randInt()`. -/
structure CompEnv where
  find_components : Solver → CompFinder
  solve : SATSolver → lbool
  get_model : SATSolver → Nat → lbool
  get_zero_assigned_lits : SATSolver → List Lit
  var_inside_assumptions : Solver → Nat → Bool
  propagate_ok : Solver → Bool
  randInt : Nat

/-- The member `removedClauses`: the literals of the saved clauses one after the other, and
the size of each clause. -/
structure RemovedClauses where
  lits : List Lit
  sizes : List Nat
  deriving DecidableEq

/-- The state of a `CompHandler`; `num_vars_removed` is a `size_t`. -/
structure CompHandler where
  solver : Solver
  compFinder : Option CompFinder
  savedState : List lbool
  removedClauses : RemovedClauses
  num_vars_removed : Nat
  smallsolver_to_bigsolver : List Nat
  bigsolver_to_smallsolver : List Nat
  numRemovedHalfIrred : Nat
  numRemovedHalfRed : Nat
  numRemovedThirdIrred : Nat
  numRemovedThirdRed : Nat
  tmp_lits : List Lit

/-! ## Component handler: code -/

namespace CompHandler

/-- `compFinder->getVarComp(var)`. -/
def getVarComp (H : CompHandler) (var : Nat) : Nat :=
  match H.compFinder with
  | some cf => cf.table var
  | none => 0

/-- `std::vector::resize(n)` on a vector of variables: the first `n` entries are kept, new
entries are zero. -/
def resize (l : List Nat) (n : Nat) : List Nat := l.take n ++ List.replicate (n - l.length) 0

/-- `CompHandler::createRenumbering`.  The accumulator of the loop is
`(bigsolver_to_smallsolver, smallsolver_to_bigsolver, i)`. -/
def createRenumbering (H : CompHandler) (vars : List Nat) : CompHandler :=
  let r := vars.foldl
    (fun (acc : List Nat × List Nat × Nat) v =>
      (acc.1.set v acc.2.2, acc.2.1.set acc.2.2 v, acc.2.2 + 1))
    (resize H.bigsolver_to_smallsolver H.solver.nVars,
      resize H.smallsolver_to_bigsolver vars.length, 0)
  { H with bigsolver_to_smallsolver := r.1, smallsolver_to_bigsolver := r.2.1 }

/-- Modelled from the spec: `upd_bigsolver_to_smallsolver(var)` of `comphandler.h`. -/
def upd_bigsolver_to_smallsolver (H : CompHandler) (var : Nat) : Nat :=
  H.bigsolver_to_smallsolver.getD var 0

/-- Modelled from the spec: `upd_bigsolver_to_smallsolver(lit)` of `comphandler.h`. -/
def upd_bigsolver_to_smallsolver_lit (H : CompHandler) (lit : Lit) : Lit :=
  ⟨H.upd_bigsolver_to_smallsolver lit.var, lit.sign⟩

/-- `CompHandler::assumpsInsideComponent`. -/
def assumpsInsideComponent (E : CompEnv) (H : CompHandler) (vars : List Nat) : Bool :=
  vars.any (fun var => E.var_inside_assumptions H.solver var)

/-- `CompHandler::get_component_sizes`: the pairs `(component, size)`, smallest size first.
Modelled from the spec: the comparison `sort_pred` of `comphandler.h` orders the pairs by
their second component. -/
def get_component_sizes (H : CompHandler) : List (Nat × Nat) :=
  match H.compFinder with
  | some cf =>
    (cf.reverseTable.map (fun p => (p.1, p.2.length % 2 ^ 32))).insertionSort
      (fun a b => a.2 ≤ b.2)
  | none => []

/-- `CompHandler::configureNewSolver`. -/
def configureNewSolver (E : CompEnv) (H : CompHandler) (numVars : Nat) : SolverConf :=
  let conf0 : SolverConf := { H.solver.conf with origSeed := E.randInt }
  let conf1 : SolverConf :=
    if numVars < 60 then
      { conf0 with
        do_simplify_problem := false,
        doStamp := false,
        doCache := false,
        doProbe := false,
        otfHyperbin := false,
        verbosity := min H.solver.conf.verbosity 0 }
    else conf0
  let conf2 : SolverConf := { conf1 with doSQL := 0 }
  let conf3 : SolverConf :=
    if numVars < 20 ∧ H.solver.conf.verbosity < 3 then { conf2 with verbosity := 0 } else conf2
  { conf3 with doCompHandler := false }

/-- `CompHandler::moveVariablesBetweenSolvers`. -/
def moveVariablesBetweenSolvers (H : CompHandler) (newSolver : SATSolver) (vars : List Nat) :
    CompHandler × SATSolver :=
  vars.foldl
    (fun (acc : CompHandler × SATSolver) var =>
      let S1 := acc.1.solver.unset_decision_var var
      let S2 := S1.setVarData var { S1.varData var with removed := .decomposed }
      ({ acc.1 with solver := S2, num_vars_removed := (acc.1.num_vars_removed + 1) % 2 ^ 64 },
        acc.2.new_var))
    (H, newSolver)

/-- `CompHandler::saveClause`: the literals are stored under their outer numbers. -/
def saveClause (H : CompHandler) (lits : List Lit) : CompHandler :=
  { H with removedClauses :=
      { lits := H.removedClauses.lits ++ lits.map H.solver.map_inter_to_outer_lit,
        sizes := H.removedClauses.sizes ++ [lits.length] } }

/-- The tail of the loop body of `CompHandler::moveClausesLong`: the clause goes to the
sub-solver (after a backup, unless it is redundant) and leaves the main solver. -/
def moveClausesLong_move (H : CompHandler) (newSolver : SATSolver) (offset : Nat) :
    CompHandler × SATSolver :=
  let cl := H.solver.ptr offset
  let tmp := cl.lits.map H.upd_bigsolver_to_smallsolver_lit
  let r : CompHandler × SATSolver :=
    if cl.red then (H, newSolver) else (H.saveClause cl.lits, newSolver.add_clause tmp)
  ({ r.1 with solver := r.1.solver.detachClause offset }, r.2)

/-- The loop body of `CompHandler::moveClausesLong`; the third component collects the
offsets written through `j`. -/
def moveClausesLong_step (comp : Nat) (acc : CompHandler × SATSolver × List Nat)
    (offset : Nat) : CompHandler × SATSolver × List Nat :=
  let H := acc.1
  let cl := H.solver.ptr offset
  if !cl.red && H.getVarComp (cl.lits.headD lit_Undef).var != comp then
    (H, acc.2.1, acc.2.2 ++ [offset])
  else if cl.red then
    let thisComp := cl.lits.any (fun l => H.getVarComp l.var == comp)
    let otherComp := cl.lits.any (fun l => H.getVarComp l.var != comp)
    if thisComp && otherComp then
      ({ H with solver := H.solver.detachClause offset }, acc.2.1, acc.2.2)
    else if !thisComp then (H, acc.2.1, acc.2.2 ++ [offset])
    else
      let r := moveClausesLong_move H acc.2.1 offset
      (r.1, r.2, acc.2.2)
  else
    let r := moveClausesLong_move H acc.2.1 offset
    (r.1, r.2, acc.2.2)

/-- `CompHandler::moveClausesLong`; the third component is `cs` after the call.
`cl_alloc.clauseFree` leaves no trace in the embedding. -/
def moveClausesLong (H : CompHandler) (newSolver : SATSolver) (comp : Nat) (cs : List Nat) :
    CompHandler × SATSolver × List Nat :=
  cs.foldl (moveClausesLong_step comp) (H, newSolver, [])

/-- The difference of two `uint64_t`. -/
def sub64 (a b : Nat) : Nat := (a + 2 ^ 64 - b % 2 ^ 64) % 2 ^ 64

/-- `CompHandler::remove_bin_except_for_lit1`. -/
def remove_bin_except_for_lit1 (H : CompHandler) (lit lit2 : Lit) : CompHandler :=
  let S1 := H.solver.removeWBin lit2 lit true
  { H with solver := { S1 with redBins := sub64 S1.redBins 1 } }

/-- `CompHandler::move_binary_clause` for the watch entry `i` of `lit`. -/
def move_binary_clause (H : CompHandler) (newSolver : SATSolver) (comp : Nat) (i : Watched)
    (lit : Lit) : CompHandler × SATSolver :=
  let lit2 := i.lit2
  if H.getVarComp lit.var != comp || H.getVarComp lit2.var != comp then
    (H.remove_bin_except_for_lit1 lit lit2, newSolver)
  else if lit.lt lit2 then
    let H1 : CompHandler :=
      { H with tmp_lits :=
          [H.upd_bigsolver_to_smallsolver_lit lit, H.upd_bigsolver_to_smallsolver_lit lit2] }
    if i.red then ({ H1 with numRemovedHalfRed := H1.numRemovedHalfRed + 1 }, newSolver)
    else
      let H2 := H1.saveClause [lit, lit2]
      ({ H2 with numRemovedHalfIrred := H2.numRemovedHalfIrred + 1 },
        newSolver.add_clause H2.tmp_lits)
  else if i.red then ({ H with numRemovedHalfRed := H.numRemovedHalfRed + 1 }, newSolver)
  else ({ H with numRemovedHalfIrred := H.numRemovedHalfIrred + 1 }, newSolver)

/-- `CompHandler::remove_tri_except_for_lit1`. -/
def remove_tri_except_for_lit1 (H : CompHandler) (lit lit2 lit3 : Lit) : CompHandler :=
  let sorted := [lit, lit2, lit3].insertionSort Lit.le
  let t0 := sorted.getD 0 lit_Undef
  let t1 := sorted.getD 1 lit_Undef
  let t2 := sorted.getD 2 lit_Undef
  let S0 := H.solver
  let S1 := if t0 != lit then S0.removeWTri t0 t1 t2 true else S0
  let S2 := if t1 != lit then S1.removeWTri t1 t0 t2 true else S1
  let S3 := if t2 != lit then S2.removeWTri t2 t0 t1 true else S2
  { H with tmp_lits := sorted, solver := { S3 with redTris := sub64 S3.redTris 1 } }

/-- `CompHandler::move_tri_clause` for the watch entry `i` of `lit`. -/
def move_tri_clause (H : CompHandler) (newSolver : SATSolver) (comp : Nat) (i : Watched)
    (lit : Lit) : CompHandler × SATSolver :=
  let lit2 := i.lit2
  let lit3 := i.lit3
  if H.getVarComp lit.var != comp || H.getVarComp lit2.var != comp
      || H.getVarComp lit3.var != comp then
    (H.remove_tri_except_for_lit1 lit lit2 lit3, newSolver)
  else if lit.lt lit2 && lit2.lt lit3 then
    let H1 : CompHandler :=
      { H with tmp_lits :=
          [H.upd_bigsolver_to_smallsolver_lit lit, H.upd_bigsolver_to_smallsolver_lit lit2,
            H.upd_bigsolver_to_smallsolver_lit lit3] }
    if i.red then ({ H1 with numRemovedThirdRed := H1.numRemovedThirdRed + 1 }, newSolver)
    else
      let H2 := H1.saveClause [lit, lit2, lit3]
      ({ H2 with numRemovedThirdIrred := H2.numRemovedThirdIrred + 1 },
        newSolver.add_clause H2.tmp_lits)
  else if i.red then ({ H with numRemovedThirdRed := H.numRemovedThirdRed + 1 }, newSolver)
  else ({ H with numRemovedThirdIrred := H.numRemovedThirdIrred + 1 }, newSolver)

/-- The body of the loop of `CompHandler::moveClausesImplicit` over the watch list of
`lit`; the third component collects the entries written through `j`. -/
def moveClausesImplicit_entry (comp : Nat) (lit : Lit)
    (acc : CompHandler × SATSolver × List Watched) (i : Watched) :
    CompHandler × SATSolver × List Watched :=
  let H := acc.1
  if i.isBinary && (H.getVarComp lit.var == comp || H.getVarComp i.lit2.var == comp) then
    let r := move_binary_clause H acc.2.1 comp i lit
    (r.1, r.2, acc.2.2)
  else if i.isTri
      && (H.getVarComp lit.var == comp || H.getVarComp i.lit2.var == comp
        || H.getVarComp i.lit3.var == comp) then
    let r := move_tri_clause H acc.2.1 comp i lit
    (r.1, r.2, acc.2.2)
  else (H, acc.2.1, acc.2.2 ++ [i])

/-- The pass of `CompHandler::moveClausesImplicit` over the watch list of one literal.  The
list is read at the start of the pass and written back, shrunk, at its end. -/
def moveClausesImplicit_lit (comp : Nat) (acc : CompHandler × SATSolver) (lit : Lit) :
    CompHandler × SATSolver :=
  let ws := acc.1.solver.watches lit.toInt
  if ws.isEmpty then acc
  else
    let r := ws.foldl (moveClausesImplicit_entry comp lit) (acc.1, acc.2, [])
    ({ r.1 with solver := r.1.solver.setWatches lit.toInt r.2.2 }, r.2.1)

/-- The loops of `CompHandler::moveClausesImplicit` over the variables and their two
literals, after the four counters were set to zero. -/
def moveClausesImplicit_loop (H : CompHandler) (newSolver : SATSolver) (comp : Nat)
    (vars : List Nat) : CompHandler × SATSolver :=
  let H0 : CompHandler :=
    { H with
      numRemovedHalfIrred := 0,
      numRemovedHalfRed := 0,
      numRemovedThirdIrred := 0,
      numRemovedThirdRed := 0 }
  vars.foldl
    (fun acc var =>
      moveClausesImplicit_lit comp (moveClausesImplicit_lit comp acc ⟨var, false⟩) ⟨var, true⟩)
    (H0, newSolver)

/-- `CompHandler::moveClausesImplicit`.  The assertions that the four counters are
multiples of two and of three are not part of the embedding. -/
def moveClausesImplicit (H : CompHandler) (newSolver : SATSolver) (comp : Nat)
    (vars : List Nat) : CompHandler × SATSolver :=
  let r := moveClausesImplicit_loop H newSolver comp vars
  let S := r.1.solver
  ({ r.1 with solver :=
      { S with
        irredBins := sub64 S.irredBins (r.1.numRemovedHalfIrred / 2),
        irredTris := sub64 S.irredTris (r.1.numRemovedThirdIrred / 3),
        redBins := sub64 S.redBins (r.1.numRemovedHalfRed / 2),
        redTris := sub64 S.redTris (r.1.numRemovedThirdRed / 3) } }, r.2)

/-- The first loop of `CompHandler::readdRemovedClauses` for one outer variable. -/
def clear_removed (H : CompHandler) (outer : Nat) : CompHandler :=
  let inter := H.solver.map_outer_to_inter outer
  if (H.solver.varData inter).removed = .decomposed then
    let S1 := H.solver.setVarData inter { H.solver.varData inter with removed := .none }
    { H with
      num_vars_removed := (H.num_vars_removed + (2 ^ 64 - 1)) % 2 ^ 64,
      solver := S1.set_decision_var inter }
  else H

/-- The clauses that `removedClauses` holds: `lits` cut according to `sizes`, starting at
position `at` (the loop of `readdRemovedClauses` and of `dump_removed_clauses`). -/
def cut_clauses (lits : List Lit) : Nat → List Nat → List (List Lit)
  | _, [] => []
  | pos, sz :: rest => ((lits.drop pos).take sz) :: cut_clauses lits (pos + sz) rest

/-- `CompHandler::readdRemovedClauses`. -/
def readdRemovedClauses (H : CompHandler) : CompHandler :=
  let H1 := (List.range H.solver.nVarsOuter).foldl clear_removed H
  let H2 : CompHandler := { H1 with savedState := H1.savedState.map (fun _ => lbool.l_Undef) }
  let S3 := (cut_clauses H2.removedClauses.lits 0 H2.removedClauses.sizes).foldl
    (fun S tmp => S.addClause tmp) H2.solver
  { H2 with solver := S3, removedClauses := ⟨[], []⟩ }

/-- `CompHandler::save_solution_to_savedstate`. -/
def save_solution_to_savedstate (E : CompEnv) (H : CompHandler) (newSolver : SATSolver)
    (vars : List Nat) : CompHandler :=
  vars.foldl
    (fun (A : CompHandler) var =>
      let outerVar := A.solver.map_inter_to_outer var
      let val := E.get_model newSolver (A.upd_bigsolver_to_smallsolver var)
      if val != lbool.l_Undef then { A with savedState := A.savedState.set outerVar val }
      else A)
    H

/-- `CompHandler::move_decision_level_zero_vars_here`. -/
def move_decision_level_zero_vars_here (E : CompEnv) (H : CompHandler)
    (newSolver : SATSolver) : CompHandler :=
  (E.get_zero_assigned_lits newSolver).foldl
    (fun (A : CompHandler) l =>
      let lit : Lit := ⟨A.smallsolver_to_bigsolver.getD l.var 0, l.sign⟩
      let S1 := A.solver.setVarData lit.var { A.solver.varData lit.var with removed := .none }
      let S2 := S1.set_decision_var lit.var
      let outer := S2.map_inter_to_outer lit.var
      let S3 := S2.enqueue lit
      { A with
        num_vars_removed := (A.num_vars_removed + (2 ^ 64 - 1)) % 2 ^ 64,
        savedState := A.savedState.set outer lbool.l_Undef,
        solver := { S3 with ok := E.propagate_ok S3 } })
    H

/-- The body of the loop of `CompHandler::addSavedState` for the outer variable `var`. -/
def addSavedState_step (acc : CompHandler × List lbool) (var : Nat) :
    CompHandler × List lbool :=
  let val := acc.1.savedState.getD var lbool.l_Undef
  if val != lbool.l_Undef then
    let interVar := acc.1.solver.map_outer_to_inter var
    let d : VarData :=
      { acc.1.solver.varData interVar with polarity := (val == lbool.l_True) }
    ({ acc.1 with solver := acc.1.solver.setVarData interVar d }, acc.2.set var val)
  else acc

/-- `CompHandler::addSavedState`; the second component is `solution` after the call. -/
def addSavedState (H : CompHandler) (solution : List lbool) : CompHandler × List lbool :=
  (List.range H.savedState.length).foldl addSavedState_step (H, solution)

/-- The part of `CompHandler::solve_component` before `newSolver.solve()`: the variables
are sorted and renumbered, the sub-solver is created, and the variables and clauses of the
component are moved to it. -/
def solve_component_setup (E : CompEnv) (H : CompHandler) (comp : Nat) (vars_orig : List Nat) :
    CompHandler × SATSolver :=
  let vars := vars_orig.insertionSort (fun a b => a ≤ b)
  let H1 := H.createRenumbering vars
  let conf := configureNewSolver E H1 vars.length
  let r1 := moveVariablesBetweenSolvers H1 ⟨conf, 0, []⟩ vars
  let r2 := moveClausesImplicit r1.1 r1.2 comp vars
  let r3 := moveClausesLong r2.1 r2.2 comp r2.1.solver.longIrredCls
  let H3 : CompHandler := { r3.1 with solver := { r3.1.solver with longIrredCls := r3.2.2 } }
  let r4 := moveClausesLong H3 r3.2.1 comp H3.solver.longRedCls
  ({ r4.1 with solver := { r4.1.solver with longRedCls := r4.2.2 } }, r4.2.1)

/-- `CompHandler::solve_component`; the second component is the returned flag. -/
def solve_component (E : CompEnv) (H : CompHandler) (comp : Nat) (vars_orig : List Nat) :
    CompHandler × Bool :=
  let vars := vars_orig.insertionSort (fun a b => a ≤ b)
  let r := solve_component_setup E H comp vars_orig
  let status := E.solve r.2
  if status = lbool.l_Undef then (r.1.readdRemovedClauses, false)
  else if status = lbool.l_False then
    ({ r.1 with solver := { r.1.solver with ok := false } }, false)
  else
    let H1 := save_solution_to_savedstate E r.1 r.2 vars
    (move_decision_level_zero_vars_here E H1 r.2, true)

/-- `CompHandler::try_to_solve_component`. -/
def try_to_solve_component (E : CompEnv) (H : CompHandler) (comp : Nat)
    (vars_orig : List Nat) : CompHandler × Bool :=
  if vars_orig.length > 100 * 1000 then (H, true)
  else if assumpsInsideComponent E H vars_orig then (H, true)
  else solve_component E H comp vars_orig

/-- The loop of `CompHandler::handle` over the entries of `sizes` but the last.  The flag
is `false` when the loop was left by `break`. -/
def handle_loop (E : CompEnv) (reverseTable : List (Nat × List Nat)) :
    CompHandler → List (Nat × Nat) → CompHandler × Bool
  | H, [] => (H, true)
  | H, s :: rest =>
    let vars := (reverseTable.lookup s.1).getD []
    let r := try_to_solve_component E H s.1 vars
    if !r.2 then (r.1, false) else handle_loop E reverseTable r.1 rest

/-- `CompHandler::handle`; the second component is the returned flag. -/
def handle (E : CompEnv) (H : CompHandler) : CompHandler × Bool :=
  let cf := E.find_components H.solver
  let H0 : CompHandler := { H with compFinder := some cf }
  if !cf.found then ({ H0 with compFinder := none }, false)
  else if cf.timedOut then ({ H0 with compFinder := none }, H0.solver.okay)
  else if cf.reverseTable.length % 2 ^ 32 ≤ 1 then ({ H0 with compFinder := none }, H0.solver.ok)
  else
    let sizes := H0.get_component_sizes
    let r := handle_loop E cf.reverseTable H0 sizes.dropLast
    ({ r.1 with compFinder := none }, r.1.solver.ok)

end CompHandler

/-! ## A formula of two components -/

namespace Example3

/-- The component of each variable: variables `0, 1` form component `0`, the others
component `1`. -/
def table (v : Nat) : Nat := if v < 2 then 0 else 1

def finder : CompFinder :=
  { found := true
    timedOut := false
    reverseTable := [(0, [0, 1]), (1, [2, 3, 4, 5])]
    table := table }

/-- The watch lists of the binary clause `(v0 ∨ v1)` and of the long clause
`(v2 ∨ v3 ∨ v4 ∨ v5)`, indexed by `Lit::toInt()`. -/
def watch_table : List (List Watched) :=
  [[.binary ⟨1, false⟩ false], [], [.binary ⟨0, false⟩ false], [],
   [.clause 0 ⟨3, false⟩], [], [.clause 0 ⟨2, false⟩], []]

def solver : Solver :=
  { nVars := 6
    watches := fun i => watch_table.getD i []
    cl_alloc := [⟨[⟨2, false⟩, ⟨3, false⟩, ⟨4, false⟩, ⟨5, false⟩], false⟩]
    ok := true
    conf := {}
    sumConflicts := 0
    trace := []
    nVarsOuter := 6
    longIrredCls := [0] }

def handler : CompHandler :=
  { solver := solver
    compFinder := none
    savedState := List.replicate 6 lbool.l_Undef
    removedClauses := ⟨[], []⟩
    num_vars_removed := 0
    smallsolver_to_bigsolver := []
    bigsolver_to_smallsolver := []
    numRemovedHalfIrred := 0
    numRemovedHalfRed := 0
    numRemovedThirdIrred := 0
    numRemovedThirdRed := 0
    tmp_lits := [] }

/-- An environment whose sub-solver finds every component unsatisfiable. -/
def env_unsat : CompEnv :=
  { find_components := fun _ => finder
    solve := fun _ => lbool.l_False
    get_model := fun _ _ => lbool.l_Undef
    get_zero_assigned_lits := fun _ => []
    var_inside_assumptions := fun _ _ => false
    propagate_ok := fun _ => true
    randInt := 0 }

/-- An environment whose sub-solver runs out of time on every component. -/
def env_timeout : CompEnv := { env_unsat with solve := fun _ => lbool.l_Undef }

/-- An environment whose sub-solver sets its variable `0` to true and its variable `1` to
false. -/
def env_sat : CompEnv :=
  { env_unsat with
    solve := fun _ => lbool.l_True
    get_model := fun _ i => if i = 0 then lbool.l_True else lbool.l_False }

/-- The handler after the two variables of component `0` were moved to a sub-solver. -/
def handler_moved : CompHandler :=
  (CompHandler.moveVariablesBetweenSolvers handler ⟨{}, 0, []⟩ [0, 1]).1

/-- The handler and the sub-solver when `solve_component` has set up component `0`. -/
def setup : CompHandler × SATSolver :=
  CompHandler.solve_component_setup env_sat { handler with compFinder := some finder } 0 [0, 1]

end Example3

/-- The handler of `Example3` with the component finder in place and
`conf.compVarLimit = 1`. -/
def Example3.handler_limit : CompHandler :=
  { Example3.handler with
    solver := { Example3.solver with conf := { compVarLimit := 1 } }
    compFinder := some Example3.finder }

/-- The entries of `sizes` for which the loop of `CompHandler::handle` calls
`try_to_solve_component`, in call order: the loop of `handle_loop`, with the entry noted
at each call. -/
def CompHandler.handle_loop_offered (E : CompEnv) (reverseTable : List (Nat × List Nat)) :
    CompHandler → List (Nat × Nat) → List (Nat × Nat)
  | _, [] => []
  | H, s :: rest =>
    let vars := (reverseTable.lookup s.1).getD []
    let r := CompHandler.try_to_solve_component E H s.1 vars
    if !r.2 then [s] else s :: CompHandler.handle_loop_offered E reverseTable r.1 rest

/-- The components that `CompHandler::handle` offers to `try_to_solve_component`, in call
order, each with its size as `get_component_sizes` lists it. -/
def CompHandler.handle_offered (E : CompEnv) (H : CompHandler) : List (Nat × Nat) :=
  let cf := E.find_components H.solver
  let H0 : CompHandler := { H with compFinder := some cf }
  if !cf.found then []
  else if cf.timedOut then []
  else if cf.reverseTable.length % 2 ^ 32 ≤ 1 then []
  else CompHandler.handle_loop_offered E cf.reverseTable H0 H0.get_component_sizes.dropLast

/-! ## BVA: the driver `bounded_var_addition` -/

/-- How a run of a function of the embedding ends: the fuel of the embedding did not
suffice, an assertion of the code failed, or the function returned. -/
inductive Outcome (α : Type) where
  | out_of_fuel
  | assert_failed
  | returned (a : α)

/-- Modelled from the spec: `Solver::value(lit)`, the value of the variable under the sign
of the literal. -/
def Solver.value (S : Solver) (lit : Lit) : lbool :=
  match S.assigns lit.var with
  | .l_Undef => .l_Undef
  | .l_True => if lit.sign then .l_False else .l_True
  | .l_False => if lit.sign then .l_True else .l_False

/-- Modelled from the spec: `Solver::bva_changed`, which notes that BVA has run and leaves
the fields of the embedding as they are. -/
def Solver.bva_changed (S : Solver) : Solver := S

namespace BVA

/-- `BVA::VarBVAOrder::operator()`: `lit1` comes before `lit2` in the heap when its
irredundant watch list is the longer one. -/
def VarBVAOrder (watch_irred_sizes : Nat → Nat) (lit1_uint lit2_uint : Nat) : Bool :=
  decide (watch_irred_sizes lit1_uint > watch_irred_sizes lit2_uint)

/-- Modelled from the spec: the entry that `var_bva_order.remove_min()` takes out of the
heap, one that no other entry comes before; of several such entries the embedding takes
the one inserted first. -/
def heap_min (B : BVA) : Nat :=
  B.var_bva_order.foldl
    (fun best x => if VarBVAOrder B.watch_irred_sizes x best then x else best)
    (B.var_bva_order.headD 0)

/-- `BVA::calc_watch_irred_sizes`. -/
def calc_watch_irred_sizes (B : BVA) : BVA :=
  { B with watch_irred_sizes := fun i =>
      if i < B.solver.nVars * 2 then B.calc_watch_irred_size (Lit.toLit i) else 0 }

/-- The `while` loop of `BVA::bounded_var_addition`.  `try_bva_on_lit` is given the fuel
that `try_bva_on_lit_loop_total` shows to suffice, so that its result `none` stands for a
failed assertion. -/
def bounded_var_addition_loop (E : Env) : Nat → BVA → Outcome BVA
  | 0, _ => .out_of_fuel
  | fuel + 1, B =>
    if B.var_bva_order.isEmpty then .returned B
    else if B.limit_to_decrease < 0 ∨ B.bva_worked ≥ B.solver.conf.bva_limit_per_call
        ∨ E.must_interrupt_asap B.solver = true then .returned B
    else
      let lit := Lit.toLit B.heap_min
      let B1 : BVA := { B with var_bva_order := B.var_bva_order.erase B.heap_min }
      match try_bva_on_lit E (B1.limit_to_decrease.toNat + 2) B1 lit with
      | none => .assert_failed
      | some (B2, ok) =>
        if !ok then .returned B2 else bounded_var_addition_loop E fuel B2

/-- The state in which `BVA::bounded_var_addition` enters its `while` loop, given the
solver that `propagate_occur` left. -/
def bounded_var_addition_init (E : Env) (B : BVA) (S : Solver) : BVA :=
  let limit := E.double_to_int
    ((B.solver.conf.bva_time_limitM * 2 * 400 * 1000 : ℚ) * B.solver.conf.global_timeout_multiplier)
  let S1 := E.clean_implicit_clauses S
  let S2 := if S1.conf.doStrSubImplicit then E.subsume_implicit S1 else S1
  let B1 : BVA :=
    { B with
      solver := S2,
      limit_to_decrease := limit,
      bva_worked := 0,
      bva_simp_size := 0,
      var_bva_order := [] }
  let B2 := B1.calc_watch_irred_sizes
  { B2 with var_bva_order :=
      (List.range (B2.solver.nVars * 2)).filter (fun i =>
        decide (B2.solver.value (Lit.toLit i) = lbool.l_Undef)
          && decide ((B2.solver.varData (Lit.toLit i).var).removed = Removed.none)) }

/-- `BVA::bounded_var_addition`; the second component is the returned flag. -/
def bounded_var_addition (E : Env) (B : BVA) : Outcome (BVA × Bool) :=
  if !B.solver.conf.do_bva then .returned (B, B.solver.okay)
  else
    let r := E.propagate_occur B.solver
    if !r.2 then .returned ({ B with solver := r.1 }, false)
    else
      let B4 := bounded_var_addition_init E B r.1
      match bounded_var_addition_loop E (B4.var_bva_order.length + 1) B4 with
      | .out_of_fuel => .out_of_fuel
      | .assert_failed => .assert_failed
      | .returned B5 =>
        let B6 : BVA := { B5 with solver := B5.solver.bva_changed }
        .returned (B6, B6.solver.okay)

end BVA

/-- An environment in which `add_clause_int` finds the formula of `Example2` inconsistent
when it is given a clause over the negative literal of the fresh variable `8`. -/
def Example2.env_failing : Env :=
  { Example.env with add_clause_fails := fun _ lits => decide ((⟨8, true⟩ : Lit) ∈ lits) }

/-- What a run of `bounded_var_addition` shows of its result: the returned flag, the `ok`
flag and the number of variables of the solver, the number of clause removals issued and
the number of literals left in the heap. -/
def BVA.run_summary (o : Outcome (BVA × Bool)) : Option (Bool × Bool × Nat × Nat × Nat) :=
  match o with
  | .returned (B, b) =>
    some (b, B.solver.ok, B.solver.nVars, B.solver.trace.countP SolverCall.is_removal,
      B.var_bva_order.length)
  | _ => none

/-! ## The prober (`prober.cpp`)

`Prober` probes both polarities of free variables at decision level one.  Propagation,
conflict analysis, hyper-binary resolution, the clause cleaners and the implication cache
are not part of `prober.cpp`; they are fields of `ProbeEnv`.  An assertion that fails, or
an index outside a vector, makes a function return `none`.  Output, timing statistics,
the proof log `drup`, the SQL statistics, the sets `needToAddBinClause` and `uselessBin`,
the counters `origNumBins` and `conflStats`, and the field `depth` of `varData` are not
part of the embedding. -/

namespace Solver

/-- Modelled from the spec: `Solver::decisionLevel`, the number of open decision levels. -/
def decisionLevel (S : Solver) : Nat := S.trail_lim.length

/-- Modelled from the spec: `Solver::trail_size`. -/
def trail_size (S : Solver) : Nat := S.trail.length

/-- Modelled from the spec: `Solver::new_decision_level`, which opens a decision level at
the present end of the trail. -/
def new_decision_level (S : Solver) : Solver :=
  { S with trail_lim := S.trail_lim ++ [S.trail.length] }

/-- Modelled from the spec: `Solver::cancelUntil(level)`, which takes back every
assignment made above `level` and closes the decision levels above it. -/
def cancelUntil (S : Solver) (level : Nat) : Solver :=
  if level < S.trail_lim.length then
    let lim := S.trail_lim.getD level 0
    { S with
      assigns := fun v =>
        if (S.trail.drop lim).any (fun l => decide (l.var = v)) then lbool.l_Undef
        else S.assigns v,
      trail := S.trail.take lim,
      trail_lim := S.trail_lim.take level }
  else S

/-- Modelled from the spec: `mtrand.randInt(n)`; the result is the next number of the
stream `mtrand`, which for the generator of the solver lies in `[0, n]`. -/
def randInt (S : Solver) (_n : Nat) : Nat × Solver :=
  (S.mtrand S.mtrand_calls, { S with mtrand_calls := S.mtrand_calls + 1 })

end Solver

/-- Modelled from the spec: the two values of `StampType`. -/
inductive StampType where
  | STAMP_IRRED
  | STAMP_RED
  deriving DecidableEq

/-- The counters of `Prober::Stats` that `prober.cpp` writes. -/
structure Prober.Stats where
  numFailed : Nat := 0
  numProbed : Nat := 0
  numLoopIters : Nat := 0
  numVarProbed : Nat := 0
  numVisited : Nat := 0
  zeroDepthAssigns : Nat := 0
  origNumFreeVars : Nat := 0
  addedBin : Nat := 0
  removedIrredBin : Nat := 0
  removedRedBin : Nat := 0
  bothSameAdded : Nat := 0
  numConflicts : Nat := 0
  timeAllocated : Nat := 0
  numCalls : Nat := 0
  deriving DecidableEq

/-- Modelled from the spec: `Prober::Stats::operator+=`, which adds counter by counter. -/
def Prober.Stats.add (a b : Prober.Stats) : Prober.Stats :=
  { numFailed := a.numFailed + b.numFailed,
    numProbed := a.numProbed + b.numProbed,
    numLoopIters := a.numLoopIters + b.numLoopIters,
    numVarProbed := a.numVarProbed + b.numVarProbed,
    numVisited := a.numVisited + b.numVisited,
    zeroDepthAssigns := a.zeroDepthAssigns + b.zeroDepthAssigns,
    origNumFreeVars := a.origNumFreeVars + b.origNumFreeVars,
    addedBin := a.addedBin + b.addedBin,
    removedIrredBin := a.removedIrredBin + b.removedIrredBin,
    removedRedBin := a.removedRedBin + b.removedRedBin,
    bothSameAdded := a.bothSameAdded + b.bothSameAdded,
    numConflicts := a.numConflicts + b.numConflicts,
    timeAllocated := a.timeAllocated + b.timeAllocated,
    numCalls := a.numCalls + b.numCalls }

/-- The functions of the solver that `prober.cpp` calls and that are not under `src/`.
`propagate` returns the conflict if there is one; `analyze_conflict` leaves the learnt
clause in `learnt_clause`; `propagate_dfs` and `propagate_bfs` return the failed literal or
`lit_Undef`; the functions of the implication cache take and return the cache;
`out_of_time` is `cpuTime() > conf.maxTime`; `to_uint64` is the conversion of a `double`
to `uint64_t` and `pow_0_3 n` is `std::pow((double)n, 0.3)`. -/
structure ProbeEnv where
  remove_and_clean_all : Solver → Solver := fun S => S
  detach_nonbins_nontris : Solver → Solver := fun S => S
  reattachLongs : Solver → Solver × Bool := fun S => (S, true)
  num_active_vars : Solver → Nat := fun S => S.nVars
  get_num_free_vars : Solver → Nat := fun S => S.nVars
  getNumLongClauses : Solver → Nat := fun S => S.longIrredCls.length + S.longRedCls.length
  propagate_dfs : Solver → StampType → Nat → Solver × Lit := fun S _ _ => (S, lit_Undef)
  propagate_bfs : Solver → Nat → Solver × Lit := fun S _ => (S, lit_Undef)
  propagate : Solver → Solver × Option Nat := fun S => (S, none)
  analyze_conflict : Solver → Nat → Solver := fun S _ => S
  hyper_bin_res_all : Solver → Solver × Nat := fun S => (S, 0)
  remove_useless_bins : Solver → Solver × Nat × Nat := fun S => (S, 0, 0)
  add_clause_int : Solver → List Lit → Bool → Solver := fun S _ _ => S
  fully_enqueue_these : Solver → List Lit → Solver × Bool := fun S _ => (S, S.ok)
  getAncestor : Solver → Nat → Lit := fun _ _ => lit_Undef
  isRedStep : Solver → Nat → Bool := fun _ _ => false
  cache_size : Nat → Nat → Nat := fun _ _ => 0
  cache_merge : Nat → Nat → Nat → Lit → Bool → Nat → Nat × Bool :=
    fun c _ _ _ _ _ => (c, false)
  cache_merge_lits : Nat → Nat → List Lit → Lit → Bool → Nat → Nat × Bool :=
    fun c _ _ _ _ _ => (c, false)
  cache_free : Nat → Nat := fun c => c
  out_of_time : Solver → Bool := fun _ => false
  must_interrupt_asap : Solver → Bool := fun _ => false
  to_uint64 : ℚ → Nat := fun q => (Rat.floor q).toNat % 2 ^ 64
  pow_0_3 : Nat → ℚ := fun _ => 1

/-- The object `Prober` together with the solver it points to.  The vectors
`visitedAlready`, `propagated` and `propValue` are functions of the index. -/
structure Prober where
  solver : Solver
  numPropsMultiplier : ℚ := 1
  lastTimeZeroDepthAssings : Nat := 0
  extraTime : Nat := 0
  extraTimeCache : Nat := 0
  visitedAlready : Nat → Bool := fun _ => false
  propagatedBitSet : List Nat := []
  propagated : Nat → Bool := fun _ => false
  propValue : Nat → Bool := fun _ => false
  toEnqueue : List Lit := []
  tmp_lits : List Lit := []
  runStats : Prober.Stats := {}
  globalStats : Prober.Stats := {}

/-- What the tentative propagation of `Prober::try_this` ends with: `try_this` returns at
once, an assertion fails, or the propagation is over with the failed literal found
(`lit_Undef` if none). -/
inductive Prober.Tentative where
  | returned (P : Prober) (ret : Bool)
  | assert_failed
  | propagated (P : Prober) (failed : Lit)

/-- Modelled from the spec: `calc_percentage`, the quotient, which is zero when the
denominator is. -/
def calc_percentage (numerator denominator : Nat) : ℚ :=
  if denominator = 0 then 0 else (numerator : ℚ) / (denominator : ℚ)

namespace Prober

/-- `Prober::limit_used`. -/
def limit_used (P : Prober) : Nat :=
  (P.solver.bogoProps + P.solver.otfHyperTime + P.extraTime + P.extraTimeCache) % 2 ^ 64

/-- `Prober::checkOTFRatio`.  The quotient `ratio` is not a number when its denominator is
zero, and is then below no limit. -/
def checkOTFRatio (E : ProbeEnv) (P : Prober) : Prober :=
  let S := P.solver
  let time_limit := E.to_uint64
    (((S.conf.otf_hyper_time_limitM * 1000 * 1000 % 2 ^ 64 : Nat) : ℚ)
      * S.conf.global_timeout_multiplier)
  if decide (S.bogoProps + S.otfHyperTime > time_limit)
      && (decide (S.otfHyperTime + S.bogoProps ≠ 0)
        && decide ((S.bogoProps : ℚ) / ((S.otfHyperTime + S.bogoProps : Nat) : ℚ)
          < S.conf.otf_hyper_ratio_limit))
      && S.conf.otfHyperbin
      && !S.drup_enabled then
    { P with solver := { S with conf := { S.conf with otfHyperbin := false } } }
  else P

/-- `Prober::reset_stats_and_state`. -/
def reset_stats_and_state (P : Prober) : Prober :=
  { P with
    extraTime := 0,
    extraTimeCache := 0,
    solver := { P.solver with bogoProps := 0, otfHyperTime := 0 },
    runStats := {},
    visitedAlready := fun _ => false,
    propagatedBitSet := [],
    propagated := fun _ => false }

/-- `Prober::calc_numpropstodo`; the second component is the budget returned.  A product
of the budget and a `double` constant is converted back to `uint64_t` by `to_uint64`. -/
def calc_numpropstodo (E : ProbeEnv) (P : Prober) : Prober × Nat :=
  let S := P.solver
  let n0 : Nat := S.conf.probe_bogoprops_time_limitM * 1000 * 1000 % 2 ^ 64
  let n1 : Nat := if !S.conf.otfHyperbin then n0 / 4 else n0
  let num_active_vars := E.num_active_vars S
  let n2 : Nat := if num_active_vars < 50 * 1000 then E.to_uint64 ((n1 : ℚ) * (12 / 10)) else n1
  let n3 : Nat := if S.redLits + S.irredLits < 2 * 1000 * 1000 then
    E.to_uint64 ((n2 : ℚ) * (12 / 10)) else n2
  let n4 : Nat := if num_active_vars > 600 * 1000 then E.to_uint64 ((n3 : ℚ) * (8 / 10)) else n3
  let n5 : Nat := if S.redLits + S.irredLits > 20 * 1000 * 1000 then
    E.to_uint64 ((n4 : ℚ) * (8 / 10)) else n4
  ({ P with runStats := { P.runStats with origNumFreeVars := num_active_vars } }, n5)

/-- `Prober::clean_clauses_before_probe`. -/
def clean_clauses_before_probe (E : ProbeEnv) (P : Prober) : Prober :=
  { P with solver := E.remove_and_clean_all P.solver }

/-- `Prober::update_numpropstodo_based_on_prev_performance`.  The quotient
`percentEffectLast` is infinite or not a number when `origNumFreeVars` is zero: infinite,
it is above every bound; not a number, it passes no comparison. -/
def update_numpropstodo_based_on_prev_performance (E : ProbeEnv) (P : Prober)
    (numPropsTodo : Nat) : Prober × Nat :=
  let last := P.lastTimeZeroDepthAssings
  let orig := P.runStats.origNumFreeVars
  let percentEffectLast : ℚ := (last : ℚ) / (orig : ℚ) * 100
  let m1 : ℚ :=
    if orig = 0 then
      (if 0 < last then min (P.numPropsMultiplier * 2) 5 else 1)
    else if percentEffectLast > 20 then min (P.numPropsMultiplier * 2) 5
    else if percentEffectLast ≥ 10 then min (P.numPropsMultiplier * (16 / 10)) 4
    else if percentEffectLast ≤ 3 then 1 / 2
    else 1
  let m2 : ℚ := if P.globalStats.numCalls = 0 then 1 else m1
  let n1 := E.to_uint64 ((numPropsTodo : ℚ) * m2)
  let n2 := E.to_uint64 ((n1 : ℚ) * E.pow_0_3 (P.globalStats.numCalls + 1))
  ({ P with numPropsMultiplier := m2 }, n2)

/-- `Prober::clean_clauses_after_probe`; `none` when `release_assert(ret == true)`
fails. -/
def clean_clauses_after_probe (E : ProbeEnv) (P : Prober) : Option Prober :=
  if decide ((P.runStats.origNumFreeVars : ℚ) - (E.get_num_free_vars P.solver : ℚ)
        > (P.runStats.origNumFreeVars : ℚ) / 10)
      && decide (E.getNumLongClauses P.solver > 200000) then
    let r := E.reattachLongs (E.detach_nonbins_nontris P.solver)
    if r.2 then some { P with solver := r.1 } else none
  else some { P with solver := E.remove_and_clean_all P.solver }

/-- `Prober::check_if_must_disable_otf_hyperbin_and_tred`.  The quotient of `numVisited`
and `origNumFreeVars*2` is below no bound when the latter is zero. -/
def check_if_must_disable_otf_hyperbin_and_tred (E : ProbeEnv) (P : Prober)
    (numPropsTodo : Nat) : Prober :=
  let ratioUsedTime := calc_percentage
    ((P.solver.bogoProps + P.solver.otfHyperTime + P.extraTime) % 2 ^ 64) numPropsTodo
  if P.solver.conf.otfHyperbin
      && (decide (P.runStats.origNumFreeVars * 2 ≠ 0)
        && decide ((P.runStats.numVisited : ℚ) / ((P.runStats.origNumFreeVars * 2 : Nat) : ℚ)
          < 4 / 10))
      && decide (ratioUsedTime > 8 / 10) then
    P.checkOTFRatio E
  else P

/-- `Prober::check_if_must_disable_cache_update`. -/
def check_if_must_disable_cache_update (E : ProbeEnv) (P : Prober) : Prober :=
  let timeOnCache := calc_percentage P.extraTimeCache
    ((P.solver.bogoProps + P.solver.otfHyperTime + P.extraTime + P.extraTimeCache) % 2 ^ 64)
    * 100
  if decide (timeOnCache > 50) && P.solver.conf.doCache then
    { P with solver :=
        { P.solver with
          conf := { P.solver.conf with doCache := false },
          implCache := E.cache_free P.solver.implCache } }
  else P

/-- `Prober::update_lit_for_dominator`. -/
def update_lit_for_dominator (P : Prober) (lit : Lit) : Lit :=
  if P.solver.conf.doCache then
    if P.solver.litReachable lit.toInt ≠ lit_Undef then
      let betterlit := P.solver.litReachable lit.toInt
      if decide (P.solver.assigns betterlit.var = lbool.l_Undef)
          && (P.solver.varData betterlit.var).is_decision then betterlit
      else lit
    else lit
  else lit

/-- The effect of `std::swap(poss_choice[i], poss_choice[j])`; `none` when an index lies
outside the vector. -/
def swap (poss_choice : List Nat) (i j : Nat) : Option (List Nat) :=
  if i < poss_choice.length ∧ j < poss_choice.length then
    some ((poss_choice.set i (poss_choice.getD j 0)).set j (poss_choice.getD i 0))
  else none

/-- One round of the loop `Random swap` of `Prober::randomize_possible_choices`. -/
def randomize_possible_choices_step (acc : List Nat × Solver) (i : Nat) :
    Option (List Nat × Solver) :=
  let r := acc.2.randInt (acc.1.length - 1 - i)
  match swap acc.1 i (i + r.1) with
  | none => none
  | some poss_choice => some (poss_choice, r.2)

/-- `Prober::randomize_possible_choices`: the vector returned, and the prober whose solver
has drawn the random numbers. -/
def randomize_possible_choices (P : Prober) : Option (List Nat × Prober) :=
  let poss_choice := (List.range P.solver.nVars).filter (fun i =>
    decide (P.solver.assigns i = lbool.l_Undef)
      && decide ((P.solver.varData i).removed = Removed.none))
  match (List.range (poss_choice.length - 1)).foldlM randomize_possible_choices_step
      (poss_choice, P.solver) with
  | none => none
  | some r => some (r.1, { P with solver := r.2 })

/-- `Prober::update_and_print_stats`. -/
def update_and_print_stats (P : Prober) (numPropsTodo : Nat) : Prober :=
  let visited := ((List.range (P.solver.nVars * 2)).filter P.visitedAlready).length
  let runStats : Prober.Stats :=
    { P.runStats with
      numVisited := P.runStats.numVisited + visited,
      timeAllocated := P.runStats.timeAllocated + numPropsTodo,
      numCalls := 1 }
  { P with
    lastTimeZeroDepthAssings := P.runStats.zeroDepthAssigns,
    runStats := runStats,
    globalStats := P.globalStats.add runStats }

/-- `Prober::clear_up_before_first_set`. -/
def clear_up_before_first_set (P : Prober) : Prober :=
  { P with
    extraTime := P.extraTime + P.propagatedBitSet.length,
    propagated := fun v => if v ∈ P.propagatedBitSet then false else P.propagated v,
    propagatedBitSet := [] }

/-- `Prober::update_cache`; `none` when `assert(ancestor != lit_Undef)` fails. -/
def update_cache (E : ProbeEnv) (P : Prober) (thisLit lit : Lit) (numElemsSet : Nat) :
    Option Prober :=
  let ancestor := E.getAncestor P.solver thisLit.var
  if P.solver.conf.doCache && decide (thisLit ≠ lit)
      && decide (numElemsSet ≤ P.solver.conf.cacheUpdateCutoff) then
    let c := P.solver.implCache
    let P1 : Prober :=
      { P with
        extraTime := P.extraTime + 1,
        extraTimeCache := P.extraTimeCache + E.cache_size c ancestor.neg.toInt / 30
          + E.cache_size c thisLit.neg.toInt / 30 }
    let redStep := E.isRedStep P.solver thisLit.var
    if ancestor = lit_Undef then none
    else
      let r := E.cache_merge c ancestor.neg.toInt thisLit.neg.toInt thisLit redStep ancestor.var
      let P2 : Prober := { P1 with solver := { P1.solver with implCache := r.1 } }
      if r.2 && decide ((P2.solver.varData ancestor.var).removed = Removed.none) then
        some { P2 with toEnqueue := P2.toEnqueue ++ [ancestor.neg] }
      else some P2
  else some P

/-- `Prober::check_and_set_both_prop`. -/
def check_and_set_both_prop (P : Prober) (var : Nat) (first : Bool) : Prober :=
  if first then
    { P with
      propagatedBitSet := P.propagatedBitSet ++ [var],
      propagated := fun v => if v = var then true else P.propagated v,
      propValue := fun v =>
        if v = var then decide (P.solver.assigns var = lbool.l_True) else P.propValue v }
  else if P.propagated var then
    if P.propValue var = decide (P.solver.assigns var = lbool.l_True) then
      { P with toEnqueue := P.toEnqueue ++ [⟨var, !P.propValue var⟩] }
    else P
  else P

/-- `Prober::add_rest_of_lits_to_cache`; `none` when the solver is at decision level zero
or its trail ends below the first decision. -/
def add_rest_of_lits_to_cache (E : ProbeEnv) (P : Prober) (lit : Lit) : Option Prober :=
  match P.solver.trail_lim with
  | [] => none
  | lim :: _ =>
    if P.solver.trail.length < lim then none
    else
      let tmp_lits := (P.solver.trail.drop lim).reverse
      let P1 : Prober :=
        { P with tmp_lits := tmp_lits, extraTime := P.extraTime + 2 * tmp_lits.length }
      let r := E.cache_merge_lits P1.solver.implCache lit.neg.toInt tmp_lits lit_Undef true
        lit.var
      let P2 : Prober := { P1 with solver := { P1.solver with implCache := r.1 } }
      if r.2 then some { P2 with toEnqueue := P2.toEnqueue ++ [lit.neg] } else some P2

/-- `Prober::handle_failed_lit`. -/
def handle_failed_lit (E : ProbeEnv) (P : Prober) (_lit failed : Lit) : Prober :=
  let S1 := P.solver.cancelUntil 0
  let r1 := E.hyper_bin_res_all S1
  let r2 := E.remove_useless_bins r1.1
  let lits := [failed.neg]
  let S3 := E.add_clause_int (r2.1.log (.add_clause_int lits true)) lits true
  clear_up_before_first_set
    { P with
      solver := S3,
      runStats :=
        { P.runStats with
          numFailed := P.runStats.numFailed + 1,
          numConflicts := P.runStats.numConflicts + 1,
          addedBin := P.runStats.addedBin + r1.2,
          removedIrredBin := P.runStats.removedIrredBin + r2.2.1,
          removedRedBin := P.runStats.removedRedBin + r2.2.2 } }

/-- `Prober::check_timeout_due_to_hyperbin`; the second component is the flag returned. -/
def check_timeout_due_to_hyperbin (E : ProbeEnv) (P : Prober) : Prober × Bool :=
  if P.solver.timedOutPropagateFull && !P.solver.drup_enabled then
    let S0 : Solver := { P.solver with conf := { P.solver.conf with otfHyperbin := false } }
    let S1 := S0.cancelUntil 0
    let r1 := E.hyper_bin_res_all S1
    let r2 := E.remove_useless_bins r1.1
    ({ P with
       solver := r2.1,
       runStats :=
         { P.runStats with
           addedBin := P.runStats.addedBin + r1.2,
           removedIrredBin := P.runStats.removedIrredBin + r2.2.1,
           removedRedBin := P.runStats.removedRedBin + r2.2.2 },
       propagated := fun v => if v ∈ P.propagatedBitSet then false else P.propagated v,
       propagatedBitSet := [],
       toEnqueue := [] }, true)
  else (P, false)

/-- The state in which `Prober::try_this` starts its tentative propagation: the bothprop
marks cleared for a first probe, `toEnqueue` empty, a new decision level open and the
probe literal enqueued. -/
def try_this_begin (P : Prober) (lit : Lit) (first : Bool) : Prober :=
  let P1 := if first then P.clear_up_before_first_set else P
  { P1 with
    toEnqueue := [],
    runStats := { P1.runStats with numProbed := P1.runStats.numProbed + 1 },
    solver := P1.solver.new_decision_level.enqueue lit }

/-- The hyper-binary propagation of `Prober::try_this` with its early-abort timeout: the
solver it leaves and the failed literal. -/
def try_this_hyper (E : ProbeEnv) (S : Solver) (orig_num_props_to_do : Nat) : Solver × Lit :=
  let timeout :=
    if !S.drup_enabled then
      E.to_uint64 ((((S.otfHyperTime + S.bogoProps) % 2 ^ 64 : Nat) : ℚ)
        + (orig_num_props_to_do : ℚ) * S.conf.single_probe_time_limit_perc)
    else 2 ^ 64 - 1
  if S.conf.doStamp then
    let r1 := S.randInt 1
    if r1.1 = 0 then
      let r2 := r1.2.randInt 1
      let stampType := if r2.1 ≠ 0 then StampType.STAMP_IRRED else StampType.STAMP_RED
      E.propagate_dfs r2.2 stampType timeout
    else E.propagate_bfs r1.2 timeout
  else E.propagate_bfs S timeout

/-- The tentative propagation of `Prober::try_this`, from `Lit failed = lit_Undef` to the
test `failed != lit_Undef`. -/
def try_this_propagate (E : ProbeEnv) (P : Prober) (orig_num_props_to_do : Nat) :
    Prober.Tentative :=
  if P.solver.conf.otfHyperbin then
    let r := try_this_hyper E P.solver orig_num_props_to_do
    let c := check_timeout_due_to_hyperbin E { P with solver := r.1 }
    if c.2 then .returned c.1 c.1.solver.okay
    else .propagated c.1 r.2
  else
    let r := E.propagate P.solver
    match r.2 with
    | some confl =>
      let S1 := E.analyze_conflict r.1 confl
      match S1.learnt_clause with
      | [] => .returned { P with solver := { S1 with ok := false } } false
      | [l] => .propagated { P with solver := S1 } l.neg
      | _ => .assert_failed
    | none => .propagated { P with solver := r.1 } lit_Undef

/-- One round of the loop `Fill bothprop, cache` of `Prober::try_this`. -/
def try_this_fill (E : ProbeEnv) (lit : Lit) (first : Bool) (numElemsSet : Nat) (P : Prober)
    (thisLit : Lit) : Option Prober :=
  let P1 : Prober := { P with extraTime := P.extraTime + 2 }
  let P2 := P1.check_and_set_both_prop thisLit.var first
  let P3 : Prober :=
    { P2 with visitedAlready := fun i => if i = thisLit.toInt then true else P2.visitedAlready i }
  if !P3.solver.conf.otfHyperbin then some P3
  else P3.update_cache E thisLit lit numElemsSet

/-- The literals that the loop `Fill bothprop, cache` visits, in its order: the trail above
decision level zero, last literal first. -/
def bothprop_trail (S : Solver) : List Lit :=
  (S.trail.drop (S.trail_lim.headD 0)).reverse

/-- `Prober::try_this` from the test `failed != lit_Undef` on; `none` when an assertion
fails or the trail ends below the first decision. -/
def try_this_finish (E : ProbeEnv) (P : Prober) (lit : Lit) (first : Bool) (failed : Lit) :
    Option (Prober × Bool) :=
  if failed ≠ lit_Undef then
    let P1 := handle_failed_lit E P lit failed
    some (P1, P1.solver.ok)
  else
    match P.solver.trail_lim with
    | [] => none
    | lim :: _ =>
      if P.solver.trail.length < lim then none
      else
        let numElemsSet := P.solver.trail_size - lim
        match (bothprop_trail P.solver).foldlM (try_this_fill E lit first numElemsSet) P with
        | none => none
        | some P1 =>
          match (if !P1.solver.conf.otfHyperbin && P1.solver.conf.doCache
              then P1.add_rest_of_lits_to_cache E lit else some P1) with
          | none => none
          | some P2 =>
            let S3 := P2.solver.cancelUntil 0
            let r1 := E.hyper_bin_res_all S3
            let r2 := E.remove_useless_bins r1.1
            if !r2.1.ok then none
            else
              let r3 := E.fully_enqueue_these (r2.1.log (.fully_enqueue_these P2.toEnqueue))
                P2.toEnqueue
              some ({ P2 with
                      solver := r3.1,
                      runStats :=
                        { P2.runStats with
                          addedBin := P2.runStats.addedBin + r1.2,
                          removedIrredBin := P2.runStats.removedIrredBin + r2.2.1,
                          removedRedBin := P2.runStats.removedRedBin + r2.2.2,
                          bothSameAdded := P2.runStats.bothSameAdded + P2.toEnqueue.length },
                      extraTime := P2.extraTime + 3 * P2.toEnqueue.length }, r3.2)

/-- `Prober::try_this`; the second component is the flag returned, `none` is a failed
assertion. -/
def try_this (E : ProbeEnv) (P : Prober) (lit : Lit) (first : Bool)
    (orig_num_props_to_do : Nat) : Option (Prober × Bool) :=
  match try_this_propagate E (P.try_this_begin lit first) orig_num_props_to_do with
  | .returned P1 ret => some (P1, ret)
  | .assert_failed => none
  | .propagated P1 failed => try_this_finish E P1 lit first failed

/-- The loop of `Prober::probe` over the rest of `poss_choice`; it ends at the label
`end`. -/
def probe_loop (E : ProbeEnv) (numPropsTodo : Nat) : Prober → List Nat → Option Prober
  | P, [] => some P
  | P, var :: rest =>
    if !(decide (P.limit_used < numPropsTodo) && !E.out_of_time P.solver
        && !E.must_interrupt_asap P.solver) then some P
    else
      let P1 : Prober :=
        { P with
          extraTime := P.extraTime + 20,
          runStats := { P.runStats with numLoopIters := P.runStats.numLoopIters + 1 } }
      if var = 2 ^ 32 - 1 then probe_loop E numPropsTodo P1 rest
      else
        let lit0 : Lit := ⟨var, false⟩
        if decide (P1.solver.assigns lit0.var ≠ lbool.l_Undef)
            || !(P1.solver.varData lit0.var).is_decision
            || P1.visitedAlready lit0.toInt then probe_loop E numPropsTodo P1 rest
        else
          let lit := P1.update_lit_for_dominator lit0
          let P2 : Prober :=
            { P1 with
              extraTime := P1.extraTime + 20,
              runStats := { P1.runStats with numVarProbed := P1.runStats.numVarProbed + 1 } }
          match try_this E P2 lit true numPropsTodo with
          | none => none
          | some (P3, ret) =>
            if !ret then some P3
            else if P3.solver.value lit = lbool.l_Undef then
              match try_this E P3 lit.neg false numPropsTodo with
              | none => none
              | some (P4, ret2) =>
                if !ret2 then some P4 else probe_loop E numPropsTodo P4 rest
            else probe_loop E numPropsTodo P3 rest

/-- `Prober::probe`; the second component is the flag returned, `none` is a failed
assertion. -/
def probe (E : ProbeEnv) (P : Prober) : Option (Prober × Bool) :=
  if P.solver.decisionLevel ≠ 0 ∨ P.solver.nVars = 0 then none
  else
    let P1 := P.clean_clauses_before_probe E
    let P2 := P1.reset_stats_and_state
    let r3 := P2.calc_numpropstodo E
    let origTrailSize := r3.1.solver.trail_size
    let r4 := r3.1.update_numpropstodo_based_on_prev_performance E r3.2
    let numPropsTodo := r4.2
    match r4.1.randomize_possible_choices with
    | none => none
    | some (poss_choice, P5) =>
      match probe_loop E numPropsTodo P5 poss_choice with
      | none => none
      | some P6 =>
        let zeroDepthAssigns := (P6.solver.trail_size + 2 ^ 64 - origTrailSize) % 2 ^ 64
        let P7 : Prober :=
          { P6 with runStats := { P6.runStats with zeroDepthAssigns := zeroDepthAssigns } }
        match (if P7.solver.ok && decide (zeroDepthAssigns ≠ 0)
            then P7.clean_clauses_after_probe E else some P7) with
        | none => none
        | some P8 =>
          let P9 := P8.update_and_print_stats numPropsTodo
          let P10 := P9.check_if_must_disable_otf_hyperbin_and_tred E numPropsTodo
          let P11 := P10.check_if_must_disable_cache_update E
          some (P11, P11.solver.ok)

end Prober

/-! ### A formula to probe

The formula `(¬x0 ∨ x1) ∧ (¬x0 ∨ x2) ∧ (x0 ∨ x1) ∧ (x0 ∨ ¬x2)` over the variables
`x0 .. x3`: `x0` implies `x1` and `x2`, `¬x0` implies `x1` and `¬x2`. -/

namespace Example4

/-- Unit propagation on the formula, as a table of the first decision on the trail. -/
def propagate (S : Solver) : Solver × Option Nat :=
  match S.trail_lim with
  | [] => (S, none)
  | lim :: _ =>
    if S.trail.getD lim lit_Undef = ⟨0, false⟩ then
      ((S.enqueue ⟨1, false⟩).enqueue ⟨2, false⟩, none)
    else if S.trail.getD lim lit_Undef = ⟨0, true⟩ then
      ((S.enqueue ⟨1, false⟩).enqueue ⟨2, true⟩, none)
    else (S, none)

/-- Enqueues the literals that have no value; a literal that is false makes the formula
inconsistent. -/
def fully_enqueue_these (S : Solver) (lits : List Lit) : Solver × Bool :=
  let S1 := lits.foldl (fun T l =>
    if T.value l = lbool.l_Undef then T.enqueue l
    else if T.value l = lbool.l_False then { T with ok := false }
    else T) S
  (S1, S1.ok)

def env : ProbeEnv :=
  { propagate := propagate
    fully_enqueue_these := fully_enqueue_these
    add_clause_int := fun S lits _ => (fully_enqueue_these S lits).1 }

def solver : Solver :=
  { nVars := 4
    watches := fun _ => []
    cl_alloc := []
    ok := true
    conf := { otfHyperbin := false, doCache := false }
    sumConflicts := 0
    trace := [] }

def prober : Prober := { solver := solver }

/-- The prober of the example with `global_timeout_multiplier` set to `c`. -/
def prober_with_multiplier (c : ℚ) : Prober :=
  { solver := { solver with conf := { solver.conf with global_timeout_multiplier := c } } }

end Example4

/-- Modelled from the spec: the functions that the prober calls at decision level zero work
on the clauses and on the assignment of that level; they open and close no decision
level. -/
structure ProbeEnv.KeepsLevel (E : ProbeEnv) : Prop where
  remove_and_clean_all : ∀ S, (E.remove_and_clean_all S).trail_lim = S.trail_lim
  detach_nonbins_nontris : ∀ S, (E.detach_nonbins_nontris S).trail_lim = S.trail_lim
  reattachLongs : ∀ S, (E.reattachLongs S).1.trail_lim = S.trail_lim
  hyper_bin_res_all : ∀ S, (E.hyper_bin_res_all S).1.trail_lim = S.trail_lim
  remove_useless_bins : ∀ S, (E.remove_useless_bins S).1.trail_lim = S.trail_lim
  add_clause_int : ∀ S lits red, (E.add_clause_int S lits red).trail_lim = S.trail_lim
  fully_enqueue_these : ∀ S lits, (E.fully_enqueue_these S lits).1.trail_lim = S.trail_lim

/-- Modelled from the spec: `hyper_bin_res_all` and `remove_useless_bins` leave the
configuration as it is. -/
structure ProbeEnv.KeepsConf (E : ProbeEnv) : Prop where
  hyper_bin_res_all_conf : ∀ S, (E.hyper_bin_res_all S).1.conf = S.conf
  remove_useless_bins_conf : ∀ S, (E.remove_useless_bins S).1.conf = S.conf

/-! ### A formula with a failed literal

The formula `(¬x0 ∨ x1) ∧ (¬x0 ∨ x2) ∧ (¬x1 ∨ ¬x2 ∨ x3) ∧ (¬x3 ∨ x4) ∧ (¬x3 ∨ ¬x4)` over the
variables `x0 .. x4`.  Under the decision `x0` unit propagation sets `x1`, `x2`, `x3`, `x4`
and finds the last clause false; every path from `x0` to the conflict passes `x3`, and the
clause learnt is `¬x3`.  With `x3` false no clause is unit. -/

namespace Example5

/-- Unit propagation on the formula, as a table of the first decision on the trail; the
conflict is the clause number `4`. -/
def propagate (S : Solver) : Solver × Option Nat :=
  match S.trail_lim with
  | [] => (S, none)
  | lim :: _ =>
    if S.trail.getD lim lit_Undef = ⟨0, false⟩ then
      ((((S.enqueue ⟨1, false⟩).enqueue ⟨2, false⟩).enqueue ⟨3, false⟩).enqueue ⟨4, false⟩,
        some 4)
    else (S, none)

def env : ProbeEnv :=
  { propagate := propagate
    analyze_conflict := fun S _ => { S with learnt_clause := [⟨3, true⟩] }
    fully_enqueue_these := Example4.fully_enqueue_these
    add_clause_int := fun S lits _ => (Example4.fully_enqueue_these S lits).1 }

/-- The environment of a formula that has the clause `¬x3` as well: the analysis of the
conflict learns the empty clause. -/
def env_empty : ProbeEnv :=
  { env with analyze_conflict := fun S _ => { S with learnt_clause := [] } }

def solver : Solver := { Example4.solver with nVars := 5 }

def prober : Prober := { solver := solver }

end Example5

/-! ### A hyper-binary propagation that times out -/

namespace Example6

/-- A propagation that exceeds every timeout below the largest `uint64_t`. -/
def env : ProbeEnv :=
  { propagate_dfs := fun S _ t =>
      ({ S.enqueue ⟨1, false⟩ with timedOutPropagateFull := decide (t < 2 ^ 64 - 1) }, lit_Undef)
    propagate_bfs := fun S t =>
      ({ S.enqueue ⟨1, false⟩ with timedOutPropagateFull := decide (t < 2 ^ 64 - 1) }, lit_Undef) }

def solver : Solver :=
  { Example4.solver with conf := { otfHyperbin := true, doCache := false } }

/-- A prober that holds the marks of an earlier probe. -/
def prober : Prober :=
  { solver := solver
    propagatedBitSet := [2]
    propagated := fun v => decide (v = 2)
    toEnqueue := [⟨3, false⟩] }

/-- A propagation that sets `x1` and leaves `timedOutPropagateFull` set whatever timeout it
is given. -/
def env_flag : ProbeEnv :=
  { propagate_dfs := fun S _ _ =>
      ({ S.enqueue ⟨1, false⟩ with timedOutPropagateFull := true }, lit_Undef)
    propagate_bfs := fun S _ =>
      ({ S.enqueue ⟨1, false⟩ with timedOutPropagateFull := true }, lit_Undef) }

/-- A prober whose solver writes a proof log (`drup->enabled()`), holding the mark that the
first probe of a pair left for `x1` set to true. -/
def prober_sink : Prober :=
  { solver := { solver with drup_enabled := true }
    propagatedBitSet := [1]
    propagated := fun v => decide (v = 1)
    propValue := fun v => decide (v = 1) }

end Example6

/-! ### The probe pair `x0`, `¬x0` on the formula of `Example4` -/

namespace Example4

/-- The prober after the tentative propagation of the probe `x0`. -/
def after_first_propagation : Prober :=
  { prober.try_this_begin ⟨0, false⟩ true with
    solver := (propagate (prober.try_this_begin ⟨0, false⟩ true).solver).1 }

/-- The prober that the probe `x0` returns. -/
def after_first_probe : Prober :=
  ((Prober.try_this env prober ⟨0, false⟩ true 1000).map Prod.fst).getD prober

/-- The prober after the tentative propagation of the probe `¬x0`. -/
def after_second_propagation : Prober :=
  { after_first_probe.try_this_begin ⟨0, true⟩ false with
    solver := (propagate (after_first_probe.try_this_begin ⟨0, true⟩ false).solver).1 }

/-- The prober that the probe `¬x0` returns. -/
def after_second_probe : Prober :=
  ((Prober.try_this env after_first_probe ⟨0, true⟩ false 1000).map Prod.fst).getD prober

end Example4

/-! ## The simplification schedules (`solverconf.cpp`) -/

/-- The pieces of a text between its commas. -/
def split_commas : List Char → List (List Char)
  | [] => [[]]
  | c :: cs =>
    match split_commas cs with
    | [] => [[]]
    | t :: ts => if c = ',' then [] :: t :: ts else (c :: t) :: ts

/-- A text without the blanks at its two ends. -/
def trim_blanks (t : List Char) : List Char :=
  ((t.dropWhile (fun c => c = ' ')).reverse.dropWhile (fun c => c = ' ')).reverse

/-- Modelled from the spec: the step tokens of a schedule, the pieces between its commas
without the blanks around them, in the order of the schedule. -/
def schedule_tokens (schedule : String) : List (List Char) :=
  (split_commas schedule.toList).map trim_blanks

/-! ### Two long clauses of different sizes

The clauses `(a ∨ c ∨ d ∨ e)` and `(a ∨ c ∨ d ∨ e ∨ f)`, both watched at `a`. -/

namespace Example7

def solver : Solver :=
  { Example.solver with
    watches := fun i => if i = 0 then [.clause 0 Example.a, .clause 1 Example.a] else []
    cl_alloc :=
      [⟨[Example.a, Example.c, Example.d, Example.e], false⟩,
        ⟨[Example.a, Example.c, Example.d, Example.e, Example.f], false⟩] }

/-- A state of BVA in which `m_cls` holds the two clauses. -/
def bva : BVA :=
  { Example.bva with
    solver := solver
    m_cls := [⟨Example.a, .clause 0 Example.a⟩, ⟨Example.a, .clause 1 Example.a⟩] }

end Example7

/-! ### The long clauses of a component, in the words of the specification -/

/-- The clause at `offset` stays in the main solver: it is irredundant and the variable of
its first literal is not in `comp`, or it is redundant and none of its variables is in
`comp`. -/
def CompHandler.stays_in_main (H : CompHandler) (comp offset : Nat) : Bool :=
  (!(H.solver.ptr offset).red
      && H.getVarComp ((H.solver.ptr offset).lits.headD lit_Undef).var != comp)
    || ((H.solver.ptr offset).red
      && !((H.solver.ptr offset).lits.any (fun l => H.getVarComp l.var == comp)))

/-- The clause at `offset` is an irredundant clause of `comp`: it is irredundant and the
variable of its first literal is in `comp`. -/
def CompHandler.irredundant_of_comp (H : CompHandler) (comp offset : Nat) : Bool :=
  !(H.solver.ptr offset).red
    && H.getVarComp ((H.solver.ptr offset).lits.headD lit_Undef).var == comp

/-- The clause at `offset` is redundant and has a variable in `comp`. -/
def CompHandler.redundant_in_comp (H : CompHandler) (comp offset : Nat) : Bool :=
  (H.solver.ptr offset).red
    && (H.solver.ptr offset).lits.any (fun l => H.getVarComp l.var == comp)

/-! ## `PackedRow` (`packedrow.h`)

A row lives in the memory of its matrix: the word `is_true_internal` at `mp - 1`, followed
by the `size` words of the columns at `mp`.  The memory is a function from byte addresses to
bytes, a `uint64_t` is eight bytes with the least significant byte first, and `mp` is the
byte address of the first column word. -/

/-- The members `mp` and `size` of a `PackedRow`; `is_true_internal` is the word before
`mp`. -/
structure PackedRow where
  mp : Nat
  size : Nat
  deriving DecidableEq

namespace PackedRow

/-- The `uint64_t` stored at a byte address. -/
def read_word (mem : Nat → Nat) (addr : Nat) : Nat :=
  (List.range 8).foldl (fun w k => w + mem (addr + k) % 256 * 256 ^ k) 0

/-- The library function `memcpy(dest, src, count)` on regions that do not overlap: `count`
bytes are copied. -/
def memcpy (mem : Nat → Nat) (dest src count : Nat) : Nat → Nat :=
  fun addr => if dest ≤ addr ∧ addr < dest + count then mem (src + (addr - dest)) else mem addr

/-- The word `mp[k]`, that is `*(mp + k)`. -/
def word (r : PackedRow) (mem : Nat → Nat) (k : Nat) : Nat := read_word mem (r.mp + 8 * k)

/-- `PackedRow::is_true`. -/
def is_true (r : PackedRow) (mem : Nat → Nat) : Nat := read_word mem (r.mp - 8)

/-- `PackedRow::operator[]`. -/
def get (r : PackedRow) (mem : Nat → Nat) (i : Nat) : Bool :=
  ((r.word mem (i / 64) >>> (i % 64)) &&& 1) != 0

/-- `PackedRow::setZero`, which clears `sizeof(uint64_t)*size` bytes. -/
def setZero (r : PackedRow) (mem : Nat → Nat) : Nat → Nat :=
  fun addr => if r.mp ≤ addr ∧ addr < r.mp + 8 * r.size then 0 else mem addr

/-- `PackedRow::operator=`: the memory after `a = b`.  The count given to `memcpy` is
`size+1`. -/
def assign (a b : PackedRow) (mem : Nat → Nat) : Nat → Nat :=
  memcpy mem (a.mp - 8) (b.mp - 8) (a.size + 1)

end PackedRow

/-! ### Two rows of one column word

Row `a` at the bytes `0 .. 15` is zero; row `b` at the bytes `16 .. 31` has the right-hand
side one and the bit of column `0` set. -/

namespace Example8

def a : PackedRow := ⟨8, 1⟩

def b : PackedRow := ⟨24, 1⟩

def mem : Nat → Nat := fun addr => if addr = 16 ∨ addr = 24 then 1 else 0

end Example8

/-! ## The tool `restrictSHA1` (`restrictSHA1.cpp`)

A `std::string` is a list of characters, the input file is the list of its lines as
`std::getline` reads them, and the output file is the list of the lines written, each
ended by `std::endl`.  The results of `std::rand()` are a stream, `rand i` being the
result of the call number `i`, and `RAND_MAX` is a parameter.  An `int` is an `Int`; the
sum in the header line wraps at 32 bits. -/

namespace RestrictSHA1

/-- How a run of `main` ends: it returns, `std::string::substr` throws `std::out_of_range`,
or an index outside `randomizedOrder` is used. -/
inductive Exit where
  | returned (code : Int)
  | out_of_range
  | out_of_bounds
  deriving DecidableEq

/-- What a run of `main` leaves: the lines written to the output file and how it ended. -/
structure Run where
  outfile : List (List Char)
  exit : Exit
  deriving DecidableEq

/-- `clamp`. -/
def clamp (min val max : Int) : Int :=
  if val < min then min else if val > max then max else val

/-- `isPrefix(str, prefix)`: the loop compares the characters at the indices that both
texts have. -/
def isPrefix : List Char → List Char → Bool
  | c :: str, p :: pre => if c != p then false else isPrefix str pre
  | _, _ => true

def headerPrefix : List Char := "p cnf ".toList

/-- The library function `std::isspace` in the default locale. -/
def isspace (c : Char) : Bool := c.toNat = 32 || (9 ≤ c.toNat && c.toNat ≤ 13)

/-- The library function `std::isdigit`. -/
def isdigit (c : Char) : Bool := 48 ≤ c.toNat && c.toNat ≤ 57

/-- The decimal digits at the start of a text: their value after `acc`, and the rest. -/
def read_digits : List Char → Nat → Nat × List Char
  | [], acc => (acc, [])
  | c :: cs, acc =>
    if isdigit c then read_digits cs (acc * 10 + (c.toNat - 48)) else (acc, c :: cs)

/-- The extraction `iss >> n` of an `int`: blanks are skipped, a sign may come first, then
at least one digit; `none` when the stream fails, which it also does on a value outside
the range of `int`.  The second component is the rest of the stream. -/
def read_int (s : List Char) : Option (Int × List Char) :=
  let s1 := s.dropWhile isspace
  let negative := decide (s1.head? = some '-')
  let s2 := if s1.head? = some '-' ∨ s1.head? = some '+' then s1.tail else s1
  match s2 with
  | [] => none
  | c :: _ =>
    if isdigit c then
      let r := read_digits s2 0
      let v : Int := if negative then -(r.1 : Int) else (r.1 : Int)
      if v < -(2 ^ 31) ∨ v > 2 ^ 31 - 1 then none else some (v, r.2)
    else none

/-- The insertion `outfile << n` of an `int`: its decimal digits after the sign of a
negative number. -/
def show_int (n : Int) : List Char :=
  if n < 0 then '-' :: Nat.toDigits 10 n.natAbs else Nat.toDigits 10 n.toNat

/-- The value of an `int` sum that has left the range of `int`. -/
def wrap_int (n : Int) : Int := (n + 2 ^ 31) % 2 ^ 32 - 2 ^ 31

/-- The numbers of the header line: `none` when `substr` throws because the line is
shorter than `headerPrefix`, `some none` when the extraction fails. -/
def read_header (line : List Char) : Option (Option (Int × Int)) :=
  if line.length < headerPrefix.length then none
  else
    match read_int (line.drop headerPrefix.length) with
    | none => some none
    | some (numVariables, rest) =>
      match read_int rest with
      | none => some none
      | some (numClauses, _) => some (some (numVariables, numClauses))

/-- The loop `while (std::getline(cnfFile, line))` of `main` over the lines left: the
lines written, and how `main` ends if it ends inside the loop. -/
def copy_lines (numToRestrict : Int) : List (List Char) → List (List Char) →
    List (List Char) × Option Exit
  | [], outfile => (outfile, none)
  | line :: rest, outfile =>
    if isPrefix line headerPrefix then
      match read_header line with
      | none => (outfile, some .out_of_range)
      | some none => (outfile, some (.returned 1))
      | some (some (numVariables, numClauses)) =>
        copy_lines numToRestrict rest
          (outfile ++ [headerPrefix ++ show_int numVariables ++ " ".toList
            ++ show_int (wrap_int (numClauses + numToRestrict))])
    else copy_lines numToRestrict rest (outfile ++ [line])

/-- The effect of `std::swap(list[i], list[j])`; `none` when an index lies outside the
array. -/
def swap (list : List Int) (i j : Int) : Option (List Int) :=
  if 0 ≤ i ∧ i < list.length ∧ 0 ≤ j ∧ j < list.length then
    some ((list.set i.toNat (list.getD j.toNat 0)).set j.toNat (list.getD i.toNat 0))
  else none

/-- The index `indexToSwap` of `shuffle` in round `i`, for the result `r` of `std::rand()`.
The quotient and the product are exact; the conversion to `int` drops the fraction. -/
def indexToSwap (RAND_MAX : Nat) (r : Nat) (length i : Int) : Int :=
  Rat.floor ((r : ℚ) / (RAND_MAX : ℚ) * ((length - i : Int) : ℚ)) + i

/-- `shuffle(list, length, shuffleFirstN)`; round `i` takes the result of the call number
`i` of `std::rand()`. -/
def shuffle (RAND_MAX : Nat) (rand : Nat → Nat) (list : List Int) (length shuffleFirstN : Int) :
    Option (List Int) :=
  let n := clamp 0 shuffleFirstN length
  (List.range n.toNat).foldlM
    (fun l (i : Nat) => swap l (i : Int) (indexToSwap RAND_MAX (rand i) length (i : Int))) list

/-- The unit clause that `main` writes in round `i` of `Randomly set n bits`. -/
def random_unit (rand : Nat → Nat) (randomizedOrder : List Int) (numToRestrict : Int)
    (i : Nat) : List Char :=
  let sign : Int := if rand (numToRestrict.toNat + i) % 2 = 1 then 1 else -1
  show_int (sign * (randomizedOrder.getD i 0 + 1)) ++ " ".toList ++ show_int 0

/-- The unit clause that `main` writes in round `i` of `Force first n bits to be zero`. -/
def zero_unit (i : Nat) : List Char :=
  show_int (-((i : Int) + 1)) ++ " ".toList ++ show_int 0

/-- `main`, given `argc`, the value `atoi(argv[1])`, the lines of the input file and the
results of `std::rand()`. -/
def main (argc : Nat) (argNumToRestrict : Int) (cnfFile : List (List Char)) (RAND_MAX : Nat)
    (rand : Nat → Nat) : Run :=
  if argc ≠ 4 then ⟨[], .returned 1⟩
  else
    let numToRestrict := clamp 0 |argNumToRestrict| 512
    match copy_lines numToRestrict cnfFile [] with
    | (outfile, some e) => ⟨outfile, e⟩
    | (outfile, none) =>
      if argNumToRestrict < 0 then
        let totalNumBits : Nat := 512
        match shuffle RAND_MAX rand ((List.range totalNumBits).map Int.ofNat) totalNumBits
            numToRestrict with
        | none => ⟨outfile, .out_of_bounds⟩
        | some randomizedOrder =>
          ⟨outfile ++ (List.range numToRestrict.toNat).map
              (random_unit rand randomizedOrder numToRestrict), .returned 0⟩
      else
        ⟨outfile ++ (List.range numToRestrict.toNat).map zero_unit, .returned 0⟩

/-- In the words of the specification: the line that the output has for an input line, a
header line `p cnf V C` being rewritten to `p cnf V C+N`. -/
def restricted_line (N : Int) (line : List Char) : List Char :=
  if isPrefix line headerPrefix then
    match read_header line with
    | some (some (numVariables, numClauses)) =>
      headerPrefix ++ show_int numVariables ++ " ".toList
        ++ show_int (wrap_int (numClauses + N))
    | _ => line
  else line

end RestrictSHA1

/-! ### The implicit clauses of a component, in the words of the specification -/

namespace CompHandler

/-- The literals whose watch lists `moveClausesImplicit` visits, in the order of its
visit. -/
def lits_of_vars (vars : List Nat) : List Lit :=
  vars.flatMap (fun var => [(⟨var, false⟩ : Lit), (⟨var, true⟩ : Lit)])

/-- The watch entries that the irredundant binary clauses `bins`, given as pairs in
ascending order, have in the watch list of `lit`. -/
def bin_entries (bins : List (Lit × Lit)) (lit : Lit) : List Watched :=
  (bins.filter (fun p => p.1 = lit)).map (fun p => Watched.binary p.2 false)
    ++ (bins.filter (fun p => p.2 = lit)).map (fun p => Watched.binary p.1 false)

/-- The watch entries that the irredundant ternary clauses `tris`, given as triples in
ascending order, have in the watch list of `lit`: each entry stores the two other
literals in ascending order. -/
def tri_entries (tris : List (Lit × Lit × Lit)) (lit : Lit) : List Watched :=
  (tris.filter (fun t => t.1 = lit)).map (fun t => Watched.tertiary t.2.1 t.2.2 false)
    ++ ((tris.filter (fun t => t.2.1 = lit)).map (fun t => Watched.tertiary t.1 t.2.2 false)
      ++ (tris.filter (fun t => t.2.2 = lit)).map (fun t => Watched.tertiary t.1 t.2.1 false))

/-- The irredundant binary clauses `bins` and ternary clauses `tris` are the irredundant
implicit clauses of the variables `vars`: their literals are in ascending order and over
`vars`, and the irredundant binary and ternary entries of the watch list of each literal
of `vars` are, up to their order, the entries of these clauses. -/
structure Represents (S : Solver) (vars : List Nat) (bins : List (Lit × Lit))
    (tris : List (Lit × Lit × Lit)) : Prop where
  bins_ascending : ∀ p ∈ bins, p.1.lt p.2 = true
  bins_inside : ∀ p ∈ bins, p.1.var ∈ vars ∧ p.2.var ∈ vars
  tris_ascending : ∀ t ∈ tris, t.1.lt t.2.1 = true ∧ t.2.1.lt t.2.2 = true
  tris_inside : ∀ t ∈ tris, t.1.var ∈ vars ∧ t.2.1.var ∈ vars ∧ t.2.2.var ∈ vars
  bin_watches : ∀ lit ∈ lits_of_vars vars,
    ((S.watches lit.toInt).filter (fun w => w.isBinary && !w.red)).Perm (bin_entries bins lit)
  tri_watches : ∀ lit ∈ lits_of_vars vars,
    ((S.watches lit.toInt).filter (fun w => w.isTri && !w.red)).Perm (tri_entries tris lit)

/-- The clause that the visit of the entry `i` in the watch list of `lit` hands to the
sub-solver: an irredundant entry whose literals follow `lit` in ascending order. -/
def moved_entry (lit : Lit) (i : Watched) : Option (List Lit) :=
  match i with
  | .binary l2 false => if lit.lt l2 then some [lit, l2] else none
  | .tertiary l2 l3 false => if lit.lt l2 && l2.lt l3 then some [lit, l2, l3] else none
  | _ => none

end CompHandler

/-- The solver `S1` results from `S` by taking redundant implicit entries out of watch
lists: each watch list of `S1` is a sublist of that of `S` with the same entries that are
not redundant, and the outer numbering and the counters of the irredundant implicit
clauses are those of `S`. -/
structure Solver.WatchFrame (S S1 : Solver) : Prop where
  outer : S1.interToOuterMain = S.interToOuterMain
  irredBins : S1.irredBins = S.irredBins
  irredTris : S1.irredTris = S.irredTris
  sub : ∀ m, (S1.watches m).Sublist (S.watches m)
  irr : ∀ m, (S1.watches m).filter (fun w => !w.red) = (S.watches m).filter (fun w => !w.red)

/-- The handler `G1` results from `G` by steps of `moveClausesImplicit`: the component
finder and the renumbering are those of `G`, and the solver has lost redundant implicit
entries only. -/
structure CompHandler.ImplicitFrame (G G1 : CompHandler) : Prop where
  compFinder : G1.compFinder = G.compFinder
  big : G1.bigsolver_to_smallsolver = G.bigsolver_to_smallsolver
  solver : G.solver.WatchFrame G1.solver

namespace Example9

/-- The component of each variable: variables `0, 1` form component `0`, variables
`2, 3, 4` component `1`. -/
def table (v : Nat) : Nat := if v < 2 then 0 else 1

def finder : CompFinder :=
  { found := true
    timedOut := false
    reverseTable := [(0, [0, 1]), (1, [2, 3, 4])]
    table := table }

/-- The watch lists, indexed by `Lit::toInt()`, of the irredundant binary clauses
`(v0 ∨ v1)` and `(v2 ∨ v3)`, of the irredundant ternary clause `(v2 ∨ ¬v3 ∨ v4)` and of
the redundant binary clause `(v3 ∨ v4)`. -/
def watch_table : List (List Watched) :=
  [[.binary ⟨1, false⟩ false], [], [.binary ⟨0, false⟩ false], [],
   [.binary ⟨3, false⟩ false, .tertiary ⟨3, true⟩ ⟨4, false⟩ false], [],
   [.binary ⟨4, false⟩ true, .binary ⟨2, false⟩ false],
   [.tertiary ⟨2, false⟩ ⟨4, false⟩ false],
   [.tertiary ⟨2, false⟩ ⟨3, true⟩ false, .binary ⟨3, false⟩ true], []]

def solver : Solver :=
  { nVars := 5
    watches := fun i => watch_table.getD i []
    cl_alloc := []
    ok := true
    conf := {}
    sumConflicts := 0
    trace := []
    nVarsOuter := 5
    irredBins := 2
    irredTris := 1
    redBins := 1 }

/-- The handler when the variables `2, 3, 4` of component `1` were given the numbers
`0, 1, 2` of the sub-solver. -/
def handler : CompHandler :=
  { solver := solver
    compFinder := some finder
    savedState := List.replicate 5 lbool.l_Undef
    removedClauses := ⟨[], []⟩
    num_vars_removed := 0
    smallsolver_to_bigsolver := [2, 3, 4]
    bigsolver_to_smallsolver := [0, 0, 0, 1, 2]
    numRemovedHalfIrred := 0
    numRemovedHalfRed := 0
    numRemovedThirdIrred := 0
    numRemovedThirdRed := 0
    tmp_lits := [] }

def newSolver : SATSolver := ⟨{}, 3, []⟩

def vars : List Nat := [2, 3, 4]

/-- The irredundant binary clauses of component `1`. -/
def bins : List (Lit × Lit) := [(⟨2, false⟩, ⟨3, false⟩)]

/-- The irredundant ternary clauses of component `1`. -/
def tris : List (Lit × Lit × Lit) := [(⟨2, false⟩, ⟨3, true⟩, ⟨4, false⟩)]

end Example9

/-! ### `popcnt_is_one(from)` and `operator^=` of `PackedRow` -/

namespace PackedRow

/-- The store of a `uint64_t` at a byte address, least significant byte first. -/
def write_word (mem : Nat → Nat) (addr w : Nat) : Nat → Nat :=
  fun x => if addr ≤ x ∧ x < addr + 8 then w / 256 ^ (x - addr) % 256 else mem x

/-- The loop `for (uint32_t i = from/64+1; i != size; i++)` of
`PackedRow::popcnt_is_one(uint32_t from)`; `reads` lists the indices `k` of the words
`mp[k]` read so far, and the result is `none` when `fuel` rounds do not suffice. -/
def popcnt_is_one_loop (r : PackedRow) (mem : Nat → Nat) :
    Nat → Nat → List Nat → Option (Bool × List Nat)
  | 0, _, _ => none
  | fuel + 1, i, reads =>
    if i = r.size then some (true, reads)
    else if r.word mem i ≠ 0 then some (false, reads ++ [i])
    else popcnt_is_one_loop r mem fuel ((i + 1) % 2 ^ 32) (reads ++ [i])

/-- `PackedRow::popcnt_is_one(uint32_t from)`, with the argument `from0`: the returned
value and the indices `k` of the words `mp[k]` that were read, in the order of the
reads. -/
def popcnt_is_one (r : PackedRow) (mem : Nat → Nat) (fuel from0 : Nat) :
    Option (Bool × List Nat) :=
  let from1 := (from0 + 1) % 2 ^ 32
  let tmp := r.word mem (from1 / 64) >>> (from1 % 64)
  if tmp ≠ 0 then some (false, [from1 / 64])
  else popcnt_is_one_loop r mem fuel (from1 / 64 + 1) [from1 / 64]

/-- `PackedRow::operator^=`: the memory after `a ^= b`. -/
def xor_assign (a b : PackedRow) (mem : Nat → Nat) : Nat → Nat :=
  let m1 := (List.range a.size).foldl
    (fun m i => write_word m (a.mp + 8 * i) (a.word m i ^^^ b.word m i)) mem
  write_word m1 (a.mp - 8) (a.is_true m1 ^^^ b.is_true m1)

/-- The bytes of a row: the word `is_true_internal` and the `size` column words. -/
def owns (r : PackedRow) (addr : Nat) : Prop := r.mp - 8 ≤ addr ∧ addr < r.mp + 8 * r.size

instance (r : PackedRow) (addr : Nat) : Decidable (r.owns addr) :=
  inferInstanceAs (Decidable (_ ∧ _))

end PackedRow

/-! ### Two rows of one column word after a third word

Row `a` at the bytes `0 .. 15` is zero, the word at the bytes `16 .. 23` is zero, and the
word at the bytes `24 .. 31` is one. -/

namespace Example10

def a : PackedRow := ⟨8, 1⟩

def mem : Nat → Nat := fun addr => if addr = 24 then 1 else 0

end Example10

/-- The state `(largest, most_occur, last_occur, num)` of the counting loop of
`most_occuring_lit_in_potential` when the pairs read so far are `P0` followed by a run of
`num` pairs `last_occur`: the pairs of `P0` are below `last_occur`, `most_occur` occurs
`largest` times in `P0`, no pair occurs more often, and the pairs of `P0` that occur as
often are below `most_occur`. -/
structure BVA.ScanInv (P0 : List lit_pair) (st : Nat × lit_pair × lit_pair × Nat) : Prop where
  fresh : st.2.2.2 = 0 → P0 = []
  below : ∀ q ∈ P0, lit_pair.lt q st.2.2.1 = true
  bound : ∀ q, P0.count q ≤ st.1
  attained : P0.count st.2.1 = st.1
  ties : ∀ q ∈ P0, P0.count q = st.1 → q ≠ st.2.1 → lit_pair.lt q st.2.1 = true

namespace BVA

/-- One round of the loop `while(true)` of `BVA::try_bva_on_lit`: the state in which the
next round starts, when `potential` was filled within the budget and `simplifies_system`
holds of the most frequent pair; `none` when the loop is left in this round. -/
def try_bva_on_lit_next (E : Env) (lit : Lit) (B : BVA) : Option BVA :=
  let B1 := fill_potential E { B with potential := [] } lit
  if B1.limit_to_decrease < 0 then none
  else
    let r := most_occuring_lit_in_potential E B1
    let l_max := r.2.1
    let num_occur := r.2.2
    if r.1.simplifies_system num_occur then
      some
        { r.1 with
          m_lits := r.1.m_lits ++ [l_max],
          limit_to_decrease := r.1.limit_to_decrease - (r.1.potential.length : Int) * 3,
          m_cls := (r.1.potential.filter (fun pot => pot.lits = l_max)).map
            (fun pot => pot.occur_cl) }
    else none

/-- The state in which round `n` of the loop of `BVA::try_bva_on_lit` starts, counted from
zero, when the loop gets that far. -/
def try_bva_on_lit_round (E : Env) (lit : Lit) : Nat → BVA → Option BVA
  | 0, B => some B
  | n + 1, B => (try_bva_on_lit_round E lit n B).bind (try_bva_on_lit_next E lit)

end BVA

/-- The state of BVA in the second round of the greedy loop of `try_bva_on_lit(a)` on the
formula of `Example2`, after the pair of `b` was accepted in the first round. -/
def Example2.bva_round2 : BVA :=
  (BVA.try_bva_on_lit_round Example.env Example.a 1
    (BVA.try_bva_on_lit_init Example.env Example2.bva Example.a)).getD Example2.bva

/-! ### A run of BVA on a small budget

The formula of `Example2` with `conf.bva_time_limitM = 1` and
`conf.global_timeout_multiplier = 9/32768`, so that the budget of `bounded_var_addition`
is `800000 * 9/32768 = 219.7265625`, cut to `219`. -/

namespace Example11

def bva : BVA :=
  { Example2.bva with
    solver :=
      { Example2.solver with
        conf :=
          { Example2.solver.conf with
            bva_time_limitM := 1
            global_timeout_multiplier := 9 / 32768 } } }

/-- The state in which `bounded_var_addition` calls `try_bva_on_lit` for the first literal
taken from the heap, the literal `a`. -/
def called : BVA :=
  let B4 := BVA.bounded_var_addition_init Example.env bva (Example.env.propagate_occur bva.solver).1
  { B4 with var_bva_order := B4.var_bva_order.erase B4.heap_min }

/-- The state in which `try_bva_on_lit(a)` leaves its loop. -/
def stopped : BVA :=
  ((BVA.try_bva_on_lit_loop Example.env Example.a (called.limit_to_decrease.toNat + 2)
    (BVA.try_bva_on_lit_init Example.env called Example.a)).map Prod.fst).getD called

/-- The state of `bva_simplify_system`, called in the state `stopped`, before its removal
loops: the fresh variable was created, the clauses were added and `m_cls_lits` was
filled. -/
def before_removal : BVA :=
  let B1 := stopped.bva_new_var
  let new_lit : Lit := ⟨B1.solver.nVars - 1, false⟩
  let B2 := BVA.add_binary_clauses Example.env new_lit B1
  (BVA.add_longer_clauses Example.env new_lit.neg B2 B2.m_cls).1.fill_m_cls_lits_and_red

/-- The state after the inner removal loop for the first pair of `m_lits`, the literal
`a`. -/
def after_first : BVA :=
  (BVA.remove_matching_clauses_for ⟨Example.a, lit_Undef⟩ before_removal
    before_removal.m_cls_lits).getD before_removal

/-- The state that `bounded_var_addition` leaves. -/
def result : BVA :=
  match BVA.bounded_var_addition Example.env bva with
  | .returned (B, _) => B
  | _ => bva

/-- The state of `Example2` with a budget of `50`, which the first `fill_potential` of
`try_bva_on_lit(a)` uses up. -/
def low : BVA := { Example2.bva with limit_to_decrease := 50 }

end Example11

/-! ## Component handler: the sanity check of `handle` -/

namespace CompHandler

/-- The body of the loop of `CompHandler::check_local_vardata_sanity` for the outer variable
`outerVar`.  The first component of the accumulator is false once an assertion of the body
has failed, the second is the `size_t` counter `num_vars_removed_check`;
`solver->value(interVar)` is the entry of `assigns`. -/
def check_local_vardata_sanity_step (H : CompHandler) (acc : Bool × Nat) (outerVar : Nat) :
    Bool × Nat :=
  let interVar := H.solver.map_outer_to_inter outerVar
  if H.savedState.getD outerVar lbool.l_Undef ≠ lbool.l_Undef then
    (acc.1
      && !(H.solver.varData interVar).is_decision
      && decide ((H.solver.varData interVar).removed = Removed.decomposed)
      && (decide (H.solver.assigns interVar = lbool.l_Undef)
        || decide ((H.solver.varData interVar).level = 0)),
      (acc.2 + 1) % 2 ^ 64)
  else acc

/-- `CompHandler::check_local_vardata_sanity`: true when every assertion of the function
holds. -/
def check_local_vardata_sanity (H : CompHandler) : Bool :=
  let r := (List.range H.solver.nVarsOuter).foldl H.check_local_vardata_sanity_step (true, 0)
  r.1 && decide (H.num_vars_removed = r.2)

/-- Whether `savedState` holds a value for the outer variable. -/
def is_saved (H : CompHandler) (outer : Nat) : Bool :=
  decide (H.savedState.getD outer lbool.l_Undef ≠ lbool.l_Undef)

/-- Whether the outer variable is marked `Removed::decomposed` in the main solver. -/
def is_decomposed (H : CompHandler) (outer : Nat) : Bool :=
  decide ((H.solver.varData (H.solver.map_outer_to_inter outer)).removed = Removed.decomposed)

/-- The part of the state that `check_local_vardata_sanity` reads, and the number of
variables of the main solver. -/
def sanity_view (H : CompHandler) :
    (Nat → VarData) × (Nat → lbool) × (Nat → Nat) × (Nat → Nat) × Nat × Nat × List lbool
      × Nat :=
  (H.solver.varData, H.solver.assigns, H.solver.outerToInterMain, H.solver.interToOuterMain,
    H.solver.nVarsOuter, H.solver.nVars, H.savedState, H.num_vars_removed)

end CompHandler

/-- The two renumbering maps of the main solver undo each other: on the outer variables,
and on the variables of the solver, each of which has an outer number. -/
structure Solver.Renumbered (S : Solver) : Prop where
  outer : ∀ o < S.nVarsOuter, S.map_inter_to_outer (S.map_outer_to_inter o) = o
  inter : ∀ v < S.nVars,
    S.map_inter_to_outer v < S.nVarsOuter ∧ S.map_outer_to_inter (S.map_inter_to_outer v) = v

/-- The state of the handler between two calls of `handle`: `savedState` has an entry for
each outer variable; a value is saved for exactly the variables marked
`Removed::decomposed`; these are no decision variables and are unassigned or assigned at
level `0`; and `num_vars_removed` counts them. -/
structure CompHandler.Sane (H : CompHandler) : Prop where
  size : H.savedState.length = H.solver.nVarsOuter
  saved : ∀ o < H.solver.nVarsOuter, H.is_saved o = H.is_decomposed o
  nondecision : ∀ o < H.solver.nVarsOuter, H.is_saved o = true →
    (H.solver.varData (H.solver.map_outer_to_inter o)).is_decision = false
  value : ∀ o < H.solver.nVarsOuter, H.is_saved o = true →
    H.solver.assigns (H.solver.map_outer_to_inter o) = lbool.l_Undef
    ∨ (H.solver.varData (H.solver.map_outer_to_inter o)).level = 0
  count : H.num_vars_removed = (List.range H.solver.nVarsOuter).countP H.is_saved % 2 ^ 64

/-- What the handler takes for granted about the components found: each is listed once
(the table is a `std::map`), no variable is listed twice or in two components, and each
variable listed is a variable of the main solver that is unassigned (asserted by
`try_to_solve_component`) and has no saved value (asserted by
`save_solution_to_savedstate`). -/
structure CompFinder.Fresh (cf : CompFinder) (H : CompHandler) : Prop where
  keys : (cf.reverseTable.map Prod.fst).Nodup
  nodup : ∀ p ∈ cf.reverseTable, p.2.Nodup
  disjoint : cf.reverseTable.Pairwise (fun p q => List.Disjoint p.2 q.2)
  bound : ∀ p ∈ cf.reverseTable, ∀ v ∈ p.2, v < H.solver.nVars
  unassigned : ∀ p ∈ cf.reverseTable, ∀ v ∈ p.2, H.solver.assigns v = lbool.l_Undef
  unsaved : ∀ p ∈ cf.reverseTable, ∀ v ∈ p.2,
    H.savedState.getD (H.solver.map_inter_to_outer v) lbool.l_Undef = lbool.l_Undef

/-- What the handler takes for granted about a sub-solver: a model assigns every variable
of the sub-solver, and the literals assigned at level `0` are literals of the sub-solver
(asserted by `move_decision_level_zero_vars_here`), one per variable. -/
structure CompEnv.SubSolver (E : CompEnv) : Prop where
  model : ∀ N, E.solve N = lbool.l_True → ∀ i < N.nVars, E.get_model N i ≠ lbool.l_Undef
  zero_bound : ∀ N, ∀ l ∈ E.get_zero_assigned_lits N, l.var < N.nVars
  zero_nodup : ∀ N, ((E.get_zero_assigned_lits N).map Lit.var).Nodup

/-- An environment whose sub-solver sets its variable `0` to true at level `0` and its
other variables to false by decisions. -/
def Example3.env_zero : CompEnv :=
  { Example3.env_sat with
    get_zero_assigned_lits := fun N => if 0 < N.nVars then [⟨0, false⟩] else [] }

/-- The body of the loop of `CompHandler::move_decision_level_zero_vars_here` for the
literal `l` of the sub-solver. -/
def CompHandler.move_decision_level_zero_vars_here_step (E : CompEnv) (A : CompHandler)
    (l : Lit) : CompHandler :=
  let lit : Lit := ⟨A.smallsolver_to_bigsolver.getD l.var 0, l.sign⟩
  let S1 := A.solver.setVarData lit.var { A.solver.varData lit.var with removed := .none }
  let S2 := S1.set_decision_var lit.var
  let outer := S2.map_inter_to_outer lit.var
  let S3 := S2.enqueue lit
  { A with
    num_vars_removed := (A.num_vars_removed + (2 ^ 64 - 1)) % 2 ^ 64,
    savedState := A.savedState.set outer lbool.l_Undef,
    solver := { S3 with ok := E.propagate_ok S3 } }

/-- The body of the loop of `CompHandler::moveVariablesBetweenSolvers` for the variable
`var`. -/
def CompHandler.moveVariablesBetweenSolvers_step (acc : CompHandler × SATSolver) (var : Nat) :
    CompHandler × SATSolver :=
  let S1 := acc.1.solver.unset_decision_var var
  let S2 := S1.setVarData var { S1.varData var with removed := .decomposed }
  ({ acc.1 with solver := S2, num_vars_removed := (acc.1.num_vars_removed + 1) % 2 ^ 64 },
    acc.2.new_var)

/-- The counter `num_vars_removed` is the number of outer variables marked
`Removed::decomposed`, as a `size_t`. -/
structure CompHandler.Counted (H : CompHandler) : Prop where
  count : H.num_vars_removed
    = (List.range H.solver.nVarsOuter).countP H.is_decomposed % 2 ^ 64

/-! ## The arrangement of `std::sort` in the GNU C++ library

`std::sort` of the GNU C++ library runs `std::__introsort_loop` and then
`std::__final_insertion_sort`.  The first leaves a range of at most 16 entries as it is and
partitions a longer one around the median of three of its entries; the second is an
insertion sort, which keeps the order of equal entries.  The arrays of this model hold
positions of the list that is sorted, and `lt` compares the entries at two positions. -/

namespace StdSort

/-- `std::iter_swap` on the slots `i` and `j`. -/
def swap (a : List Nat) (i j : Nat) : List Nat :=
  (a.set i (a.getD j 0)).set j (a.getD i 0)

/-- `std::__move_median_to_first(result, x, y, z, comp)`. -/
def move_median_to_first (lt : Nat → Nat → Bool) (a : List Nat) (result x y z : Nat) :
    List Nat :=
  if lt (a.getD x 0) (a.getD y 0) then
    if lt (a.getD y 0) (a.getD z 0) then swap a result y
    else if lt (a.getD x 0) (a.getD z 0) then swap a result z
    else swap a result x
  else if lt (a.getD x 0) (a.getD z 0) then swap a result x
  else if lt (a.getD y 0) (a.getD z 0) then swap a result z
  else swap a result y

/-- The loop `while (comp(first, pivot)) ++first` of `std::__unguarded_partition`. -/
def scan_up (lt : Nat → Nat → Bool) (a : List Nat) (pivot : Nat) : Nat → Nat → Nat
  | 0, first => first
  | fuel + 1, first =>
    if lt (a.getD first 0) (a.getD pivot 0) then scan_up lt a pivot fuel (first + 1) else first

/-- The loop `while (comp(pivot, last)) --last` of `std::__unguarded_partition`. -/
def scan_down (lt : Nat → Nat → Bool) (a : List Nat) (pivot : Nat) : Nat → Nat → Nat
  | 0, last => last
  | fuel + 1, last =>
    if lt (a.getD pivot 0) (a.getD last 0) then scan_down lt a pivot fuel (last - 1) else last

/-- `std::__unguarded_partition(first, last, pivot, comp)`: the array and the cut. -/
def unguarded_partition (lt : Nat → Nat → Bool) (pivot : Nat) :
    Nat → List Nat → Nat → Nat → List Nat × Nat
  | 0, a, first, _ => (a, first)
  | fuel + 1, a, first, last =>
    let f := scan_up lt a pivot a.length first
    let l := scan_down lt a pivot a.length (last - 1)
    if !(decide (f < l)) then (a, f)
    else unguarded_partition lt pivot fuel (swap a f l) (f + 1) l

/-- `std::__introsort_loop(first, last, depth_limit, comp)`.  The heap sort to which the
library turns when `depth_limit` is used up is not part of the model; a list of at most 24
entries does not get there, since every partition makes the range shorter and eight of
them are allowed. -/
def introsort_loop (lt : Nat → Nat → Bool) : Nat → List Nat → Nat → Nat → Nat → List Nat
  | 0, a, _, _, _ => a
  | fuel + 1, a, first, last, depth_limit =>
    if last - first ≤ 16 then a
    else if depth_limit = 0 then a
    else
      let mid := first + (last - first) / 2
      let a1 := move_median_to_first lt a first (first + 1) mid (last - 1)
      let r := unguarded_partition lt first a1.length a1 (first + 1) last
      let a2 := introsort_loop lt fuel r.1 r.2 last (depth_limit - 1)
      introsort_loop lt fuel a2 first r.2 (depth_limit - 1)

/-- `std::__lg(n)`: the position of the highest bit of `n`. -/
def lg : Nat → Nat → Nat
  | 0, _ => 0
  | fuel + 1, n => if n < 2 then 0 else lg fuel (n / 2) + 1

/-- The positions of a list of `n` entries in the order in which `std::__introsort_loop`
leaves the entries, called as in `std::sort` with the depth limit `std::__lg(n) * 2`. -/
def order (n : Nat) (lt : Nat → Nat → Bool) : List Nat :=
  introsort_loop lt n (List.range n) 0 n (lg n n * 2)

end StdSort

/-! ## A formula on which `potential` has more than 16 entries

Variables `0..9` and the 24 binary clauses `(a ∨ fᵢ)`, `(bⱼ ∨ fᵢ)` for `i = 1..6` and
`j = 1..3`: with pivot `a`, the first round of `try_bva_on_lit` fills `potential` with 18
entries, the pairs of `b₁`, `b₂`, `b₃` for each of the six clauses of `a`. -/

namespace Example12

def a : Lit := ⟨0, false⟩

/-- The literals `f 1`, ..., `f 6`. -/
def f (i : Nat) : Lit := ⟨i, false⟩

/-- The literals `b 1`, `b 2`, `b 3`. -/
def b (j : Nat) : Lit := ⟨6 + j, false⟩

/-- The watch lists of the 24 clauses, indexed by `Lit::toInt()`. -/
def watch_table : List (List Watched) :=
  [[.binary (f 1) false, .binary (f 2) false, .binary (f 3) false, .binary (f 4) false,
    .binary (f 5) false, .binary (f 6) false], []]
  ++ (List.range 6).flatMap (fun _ =>
    [[.binary a false, .binary (b 1) false, .binary (b 2) false, .binary (b 3) false], []])
  ++ (List.range 3).flatMap (fun _ =>
    [[.binary (f 1) false, .binary (f 2) false, .binary (f 3) false, .binary (f 4) false,
      .binary (f 5) false, .binary (f 6) false], []])

def solver : Solver :=
  { Example.solver with
    nVars := 10
    watches := fun i => watch_table.getD i []
    cl_alloc := [] }

/-- The state of BVA before `try_bva_on_lit` is called. -/
def bva : BVA :=
  { Example2.bva with
    solver := solver
    simplifier_clauses := [] }

/-- The arrangement of `std::sort` in a build with the GNU C++ library, for a list of at
most 24 entries; longer lists do not occur in the example and are left as they are. -/
def sort_order (l : List PotentialClause) : List Nat :=
  if l.length ≤ 24 then
    StdSort.order l.length
      (fun i j =>
        match l[i]?, l[j]? with
        | some x, some y => BVA.lit_pair.lt x.lits y.lits
        | _, _ => false)
  else List.range l.length

/-- The arrangement of `std::sort` of `m_cls` in a build with the GNU C++ library, for a
list of at most 24 entries. -/
def mysort_order (S : Solver) (l : List OccurClause) : List Nat :=
  if l.length ≤ 24 then
    StdSort.order l.length
      (fun i j =>
        match l[i]?, l[j]? with
        | some x, some y => BVA.mysort S x y
        | _, _ => false)
  else List.range l.length

/-- The environment of `Example` with the sort of the GNU C++ library. -/
def env : Env :=
  { Example.env with sort_order := sort_order, mysort_order := mysort_order }

/-- The state in which the loop of `try_bva_on_lit(a)` starts. -/
def start : BVA := BVA.try_bva_on_lit_init env bva a

/-- The state in which the second round of the loop of `try_bva_on_lit(a)` starts. -/
def round1 : BVA := (BVA.try_bva_on_lit_next env a start).getD start

end Example12
/-- The sort charge of the examples never raises the budget. -/
theorem Example.sub_sort_cost_le (l : Int) (n : Nat) : Example.sub_sort_cost l n ≤ l := by
  unfold Example.sub_sort_cost
  split
  · exact le_refl _
  · split <;> omega

/-! ## Frame lemmas for the solver primitives -/

namespace Solver

@[simp] theorem setWatches_trace (S : Solver) (i ws) : (S.setWatches i ws).trace = S.trace := rfl
@[simp] theorem setWatches_cl_alloc (S : Solver) (i ws) : (S.setWatches i ws).cl_alloc = S.cl_alloc := rfl
@[simp] theorem setWatches_nVars (S : Solver) (i ws) : (S.setWatches i ws).nVars = S.nVars := rfl
@[simp] theorem setWatches_ok (S : Solver) (i ws) : (S.setWatches i ws).ok = S.ok := rfl
@[simp] theorem pushWatch_trace (S : Solver) (l w) : (S.pushWatch l w).trace = S.trace := rfl
@[simp] theorem pushWatch_cl_alloc (S : Solver) (l w) : (S.pushWatch l w).cl_alloc = S.cl_alloc := rfl
@[simp] theorem pushWatch_nVars (S : Solver) (l w) : (S.pushWatch l w).nVars = S.nVars := rfl
@[simp] theorem pushWatch_ok (S : Solver) (l w) : (S.pushWatch l w).ok = S.ok := rfl
@[simp] theorem log_cl_alloc (S : Solver) (c) : (S.log c).cl_alloc = S.cl_alloc := rfl
@[simp] theorem log_nVars (S : Solver) (c) : (S.log c).nVars = S.nVars := rfl
@[simp] theorem log_ok (S : Solver) (c) : (S.log c).ok = S.ok := rfl
@[simp] theorem log_watches (S : Solver) (c) : (S.log c).watches = S.watches := rfl
@[simp] theorem log_trace (S : Solver) (c) : (S.log c).trace = S.trace ++ [c] := rfl

theorem foldl_pushWatch_frame (f : Lit → Watched) (ls : List Lit) (S : Solver) :
    (ls.foldl (fun T l => T.pushWatch l (f l)) S).trace = S.trace ∧
    (ls.foldl (fun T l => T.pushWatch l (f l)) S).cl_alloc = S.cl_alloc ∧
    (ls.foldl (fun T l => T.pushWatch l (f l)) S).nVars = S.nVars ∧
    (ls.foldl (fun T l => T.pushWatch l (f l)) S).ok = S.ok := by
  induction ls generalizing S with
  | nil => simp
  | cons a t ih => simpa using ih (S.pushWatch a (f a))

@[simp] theorem linkInClause_trace (S : Solver) (o) : (S.linkInClause o).trace = S.trace :=
  (foldl_pushWatch_frame _ _ S).1
@[simp] theorem linkInClause_cl_alloc (S : Solver) (o) :
    (S.linkInClause o).cl_alloc = S.cl_alloc := (foldl_pushWatch_frame _ _ S).2.1
@[simp] theorem linkInClause_nVars (S : Solver) (o) : (S.linkInClause o).nVars = S.nVars :=
  (foldl_pushWatch_frame _ _ S).2.2.1
@[simp] theorem linkInClause_ok (S : Solver) (o) : (S.linkInClause o).ok = S.ok :=
  (foldl_pushWatch_frame _ _ S).2.2.2

theorem foldl_setWatches_frame (g : Solver → Lit → List Watched) (ls : List Lit) (S : Solver) :
    (ls.foldl (fun T l => T.setWatches l.toInt (g T l)) S).trace = S.trace ∧
    (ls.foldl (fun T l => T.setWatches l.toInt (g T l)) S).cl_alloc = S.cl_alloc ∧
    (ls.foldl (fun T l => T.setWatches l.toInt (g T l)) S).nVars = S.nVars ∧
    (ls.foldl (fun T l => T.setWatches l.toInt (g T l)) S).ok = S.ok := by
  induction ls generalizing S with
  | nil => simp
  | cons a t ih => simpa using ih (S.setWatches a.toInt (g S a))

@[simp] theorem unlink_clause_trace (S : Solver) (o) :
    (S.unlink_clause o).trace = S.trace ++ [.unlink_clause o] := by
  unfold unlink_clause
  simp only [log_trace]
  rw [(foldl_setWatches_frame
    (fun T l => (T.watches l.toInt).eraseP (fun w => w.isClause && w.get_offset == o)) _ S).1]
@[simp] theorem unlink_clause_cl_alloc (S : Solver) (o) :
    (S.unlink_clause o).cl_alloc = S.cl_alloc := by
  unfold unlink_clause
  simp only [log_cl_alloc]
  rw [(foldl_setWatches_frame
    (fun T l => (T.watches l.toInt).eraseP (fun w => w.isClause && w.get_offset == o)) _ S).2.1]
@[simp] theorem detach_bin_clause_trace (S : Solver) (a b r) :
    (S.detach_bin_clause a b r).trace = S.trace ++ [.detach_bin_clause a b r] := rfl
@[simp] theorem detach_bin_clause_cl_alloc (S : Solver) (a b r) :
    (S.detach_bin_clause a b r).cl_alloc = S.cl_alloc := rfl
@[simp] theorem detach_tri_clause_trace (S : Solver) (a b c r) :
    (S.detach_tri_clause a b c r).trace = S.trace ++ [.detach_tri_clause a b c r] := rfl
@[simp] theorem detach_tri_clause_cl_alloc (S : Solver) (a b c r) :
    (S.detach_tri_clause a b c r).cl_alloc = S.cl_alloc := rfl
@[simp] theorem new_var_trace (S : Solver) : S.new_var.trace = S.trace ++ [.new_var] := rfl
@[simp] theorem new_var_cl_alloc (S : Solver) : S.new_var.cl_alloc = S.cl_alloc := rfl
@[simp] theorem new_var_nVars (S : Solver) : S.new_var.nVars = S.nVars + 1 := rfl
@[simp] theorem new_var_ok (S : Solver) : S.new_var.ok = S.ok := rfl

end Solver

theorem add_clause_int_trace (E : Env) (S : Solver) (lits red) :
    (add_clause_int E S lits red).1.trace = S.trace ++ [.add_clause_int lits red] := by
  unfold add_clause_int
  simp only []
  split
  · rfl
  · split
    · rfl
    · split <;> rfl

namespace BVA

@[simp] theorem touch_solver (B : BVA) (ls) : (B.touch ls).solver = B.solver := rfl
@[simp] theorem touch_m_lits (B : BVA) (ls) : (B.touch ls).m_lits = B.m_lits := rfl
@[simp] theorem touch_m_cls (B : BVA) (ls) : (B.touch ls).m_cls = B.m_cls := rfl
@[simp] theorem touch_m_cls_lits (B : BVA) (ls) : (B.touch ls).m_cls_lits = B.m_cls_lits := rfl
@[simp] theorem touch_bva_simp_size (B : BVA) (ls) :
    (B.touch ls).bva_simp_size = B.bva_simp_size := rfl
@[simp] theorem touch_seen (B : BVA) (ls) : (B.touch ls).seen = B.seen := rfl

theorem add_binary_clause_trace (E : Env) (B : BVA) (x m_lit) :
    (add_binary_clause E B x m_lit).solver.trace
      = B.solver.trace ++ [.add_clause_int (binary_clause_lits x m_lit) false] := by
  simp [add_binary_clause, add_clause_int_trace, binary_clause_lits]

theorem add_longer_clause_trace (E : Env) (B : BVA) (x cl) :
    (add_longer_clause E B x cl).1.solver.trace
      = B.solver.trace ++ [.add_clause_int (longer_clause_lits B.solver x cl) false] := by
  unfold add_longer_clause longer_clause_lits
  simp only [touch_solver]
  split <;> simp [add_clause_int_trace]

end BVA

namespace BVA

theorem find_cl_for_bva_solver (B : BVA) (t r) : (B.find_cl_for_bva t r).1.solver = B.solver := rfl
theorem find_cl_for_bva_m_lits (B : BVA) (t r) : (B.find_cl_for_bva t r).1.m_lits = B.m_lits := rfl
theorem find_cl_for_bva_m_cls_lits (B : BVA) (t r) :
    (B.find_cl_for_bva t r).1.m_cls_lits = B.m_cls_lits := rfl
theorem find_cl_for_bva_simp (B : BVA) (t r) :
    (B.find_cl_for_bva t r).1.bva_simp_size = B.bva_simp_size := rfl

theorem remove_matching_clause_trace {B B' : BVA} {cl lj}
    (h : B.remove_matching_clause cl lj = some B') :
    ∃ call, call.is_removal = true ∧ B'.solver.trace = B.solver.trace ++ [call]
      ∧ B'.m_cls_lits = B.m_cls_lits ∧ B'.m_lits = B.m_lits
      ∧ B'.bva_simp_size = B.bva_simp_size := by
  unfold remove_matching_clause at h
  simp only [] at h
  split at h
  · rename_i a b _
    simp only [Option.some.injEq] at h
    subst h
    exact ⟨.detach_bin_clause a b false, rfl, by simp, rfl, rfl, rfl⟩
  · split at h
    · rename_i a b c _
      simp only [Option.some.injEq] at h
      subst h
      exact ⟨.detach_tri_clause a b c false, rfl, by simp, rfl, rfl, rfl⟩
    · exact absurd h (by simp)
  · split at h
    · rename_i B2 cl_new heq
      simp only [Option.some.injEq] at h
      subst h
      have h1 := congrArg Prod.fst heq
      simp only at h1
      subst h1
      exact ⟨.unlink_clause cl_new, rfl, by simp [find_cl_for_bva_solver], rfl, rfl, rfl⟩
    · exact absurd h (by simp)

theorem remove_matching_clauses_for_trace {lj} (cls : List m_cls_lits_and_red) :
    ∀ {B B' : BVA}, remove_matching_clauses_for lj B cls = some B' →
    ∃ calls : List SolverCall, calls.length = cls.length ∧ (∀ c ∈ calls, c.is_removal = true)
      ∧ B'.solver.trace = B.solver.trace ++ calls
      ∧ B'.m_cls_lits = B.m_cls_lits ∧ B'.m_lits = B.m_lits
      ∧ B'.bva_simp_size = B.bva_simp_size := by
  induction cls with
  | nil =>
    intro B B' h
    simp only [remove_matching_clauses_for, Option.some.injEq] at h
    subst h
    exact ⟨[], rfl, by simp, by simp, rfl, rfl, rfl⟩
  | cons cl rest ih =>
    intro B B' h
    simp only [remove_matching_clauses_for] at h
    split at h
    · exact absurd h (by simp)
    · rename_i B1 h1
      obtain ⟨call, hc, ht, f1, f2, f3⟩ := remove_matching_clause_trace h1
      obtain ⟨calls, hl, hall, ht2, g1, g2, g3⟩ := ih h
      refine ⟨call :: calls, by simp [hl], ?_, ?_, g1.trans f1, g2.trans f2, g3.trans f3⟩
      · intro c hcm
        rcases List.mem_cons.1 hcm with rfl | hcm
        · exact hc
        · exact hall c hcm
      · rw [ht2, ht]; simp

theorem remove_matching_clauses_trace (ljs : List lit_pair) :
    ∀ {B B' : BVA}, remove_matching_clauses B ljs = some B' →
    ∃ calls : List SolverCall, calls.length = ljs.length * B.m_cls_lits.length
      ∧ (∀ c ∈ calls, c.is_removal = true)
      ∧ B'.solver.trace = B.solver.trace ++ calls
      ∧ B'.m_cls_lits = B.m_cls_lits ∧ B'.m_lits = B.m_lits
      ∧ B'.bva_simp_size = B.bva_simp_size := by
  induction ljs with
  | nil =>
    intro B B' h
    simp only [remove_matching_clauses, Option.some.injEq] at h
    subst h
    exact ⟨[], by simp, by simp, by simp, rfl, rfl, rfl⟩
  | cons lj rest ih =>
    intro B B' h
    simp only [remove_matching_clauses] at h
    split at h
    · exact absurd h (by simp)
    · rename_i B1 h1
      obtain ⟨c1, hl1, hall1, ht1, f1, f2, f3⟩ := remove_matching_clauses_for_trace _ h1
      obtain ⟨c2, hl2, hall2, ht2, g1, g2, g3⟩ := ih h
      refine ⟨c1 ++ c2, ?_, ?_, ?_, g1.trans f1, g2.trans f2, g3.trans f3⟩
      · simp only [List.length_append, hl1, hl2, f1, List.length_cons]
        ring
      · intro c hcm
        rcases List.mem_append.1 hcm with hcm | hcm
        · exact hall1 c hcm
        · exact hall2 c hcm
      · rw [ht2, ht1]; simp

end BVA

theorem add_clause_int_cl_alloc (E : Env) (S : Solver) (lits red) :
    S.cl_alloc <+: (add_clause_int E S lits red).1.cl_alloc := by
  unfold add_clause_int
  simp only []
  split
  · exact List.prefix_refl _
  · split
    · exact List.prefix_refl _
    · split
      · exact List.prefix_refl _
      · exact List.prefix_refl _
      · exact List.prefix_refl _
      · exact List.prefix_refl _
      · exact List.prefix_append _ _

theorem Solver.ptr_of_alloc_grows {S T : Solver} (h : S.cl_alloc <+: T.cl_alloc) {o : Nat}
    (ho : o < S.cl_alloc.length) : T.ptr o = S.ptr o := by
  obtain ⟨t, ht⟩ := h
  unfold Solver.ptr
  rw [← ht, List.getD_append _ _ _ _ ho]

namespace BVA

theorem add_binary_clause_frame (E : Env) (B : BVA) (x m_lit) :
    (add_binary_clause E B x m_lit).m_lits = B.m_lits
    ∧ (add_binary_clause E B x m_lit).m_cls = B.m_cls
    ∧ (add_binary_clause E B x m_lit).bva_simp_size = B.bva_simp_size
    ∧ (add_binary_clause E B x m_lit).seen = B.seen := ⟨rfl, rfl, rfl, rfl⟩

theorem add_binary_clause_cl_alloc (E : Env) (B : BVA) (x m_lit) :
    B.solver.cl_alloc <+: (add_binary_clause E B x m_lit).solver.cl_alloc :=
  add_clause_int_cl_alloc E B.solver _ _

theorem foldl_add_binary_clause (E : Env) (x : Lit) (ljs : List lit_pair) (B : BVA) :
    (ljs.foldl (fun b m_lit => add_binary_clause E b x m_lit) B).solver.trace
        = B.solver.trace ++ ljs.map (fun lj => .add_clause_int (binary_clause_lits x lj) false)
    ∧ (ljs.foldl (fun b m_lit => add_binary_clause E b x m_lit) B).m_lits = B.m_lits
    ∧ (ljs.foldl (fun b m_lit => add_binary_clause E b x m_lit) B).m_cls = B.m_cls
    ∧ (ljs.foldl (fun b m_lit => add_binary_clause E b x m_lit) B).bva_simp_size
        = B.bva_simp_size
    ∧ (ljs.foldl (fun b m_lit => add_binary_clause E b x m_lit) B).seen = B.seen
    ∧ B.solver.cl_alloc
        <+: (ljs.foldl (fun b m_lit => add_binary_clause E b x m_lit) B).solver.cl_alloc := by
  induction ljs generalizing B with
  | nil => simp
  | cons lj rest ih =>
    obtain ⟨h1, h2, h3, h4, h5, h6⟩ := ih (add_binary_clause E B x lj)
    simp only [List.foldl_cons, List.map_cons]
    refine ⟨?_, h2, h3, h4, h5, (add_binary_clause_cl_alloc E B x lj).trans h6⟩
    rw [h1, add_binary_clause_trace]
    simp

theorem add_longer_clause_frame (E : Env) (B : BVA) (x cl) :
    (add_longer_clause E B x cl).1.m_lits = B.m_lits
    ∧ (add_longer_clause E B x cl).1.m_cls = B.m_cls
    ∧ (add_longer_clause E B x cl).1.bva_simp_size = B.bva_simp_size
    ∧ (add_longer_clause E B x cl).1.seen = B.seen := by
  unfold add_longer_clause
  simp only []
  split <;> exact ⟨rfl, rfl, rfl, rfl⟩

theorem add_longer_clause_cl_alloc (E : Env) (B : BVA) (x cl) :
    B.solver.cl_alloc <+: (add_longer_clause E B x cl).1.solver.cl_alloc := by
  unfold add_longer_clause
  simp only [touch_solver]
  split
  · simpa using add_clause_int_cl_alloc E B.solver _ _
  · exact add_clause_int_cl_alloc E B.solver _ _

theorem add_longer_clause_okay (E : Env) (B : BVA) (x cl) :
    (add_longer_clause E B x cl).2 = (add_longer_clause E B x cl).1.solver.ok := rfl

/-- The calls issued by the loop `//Longer clauses`: one `add_clause_int` per round that
was started, and every round was started when the loop ran to its end. -/
theorem add_longer_clauses_trace (E : Env) (x : Lit) (cls : List OccurClause) :
    ∀ (B : BVA), ∃ calls : List (List Lit),
      (add_longer_clauses E x B cls).1.solver.trace
          = B.solver.trace ++ calls.map (fun lits => .add_clause_int lits false)
      ∧ calls.length ≤ cls.length
      ∧ ((add_longer_clauses E x B cls).2 = true → calls.length = cls.length)
      ∧ (add_longer_clauses E x B cls).1.m_lits = B.m_lits
      ∧ (add_longer_clauses E x B cls).1.m_cls = B.m_cls
      ∧ (add_longer_clauses E x B cls).1.bva_simp_size = B.bva_simp_size
      ∧ (add_longer_clauses E x B cls).1.seen = B.seen
      ∧ B.solver.cl_alloc <+: (add_longer_clauses E x B cls).1.solver.cl_alloc := by
  induction cls with
  | nil => intro B; exact ⟨[], by simp [add_longer_clauses], by simp, by simp, rfl, rfl, rfl, rfl,
      List.prefix_refl _⟩
  | cons cl rest ih =>
    intro B
    obtain ⟨f1, f2, f3, f4⟩ := add_longer_clause_frame E B x cl
    have ht := add_longer_clause_trace E B x cl
    have hp := add_longer_clause_cl_alloc E B x cl
    simp only [add_longer_clauses]
    split
    · rename_i B1 heq
      have e1 : (add_longer_clause E B x cl).1 = B1 := by rw [heq]
      rw [e1] at f1 f2 f3 f4 ht hp
      exact ⟨[longer_clause_lits B.solver x cl], by simpa using ht, by simp, by simp,
        f1, f2, f3, f4, hp⟩
    · rename_i B1 heq
      have e1 : (add_longer_clause E B x cl).1 = B1 := by rw [heq]
      rw [e1] at f1 f2 f3 f4 ht hp
      obtain ⟨calls, h1, h2, h3, g1, g2, g3, g4, g5⟩ := ih B1
      refine ⟨longer_clause_lits B.solver x cl :: calls, ?_, by simpa using h2,
        fun h => by simpa using h3 h, g1.trans f1, g2.trans f2, g3.trans f3, g4.trans f4,
        hp.trans g5⟩
      rw [h1, ht]; simp

theorem longer_clause_lits_of_alloc_grows {S T : Solver} (h : S.cl_alloc <+: T.cl_alloc) (x : Lit)
    {cl : OccurClause} (hv : ∀ o blk, cl.ws = .clause o blk → o < S.cl_alloc.length) :
    longer_clause_lits T x cl = longer_clause_lits S x cl := by
  unfold longer_clause_lits
  split
  · rfl
  · rfl
  · rename_i o blk heq
    rw [Solver.ptr_of_alloc_grows h (hv o blk heq)]

/-- When the loop `//Longer clauses` runs to its end, it hands to `add_clause_int` one
clause per entry of `m_cls`, in order. -/
theorem add_longer_clauses_trace_all (E : Env) (x : Lit) (S0 : Solver)
    (cls : List OccurClause) :
    ∀ (B : BVA), S0.cl_alloc <+: B.solver.cl_alloc →
      (∀ cl ∈ cls, ∀ o blk, cl.ws = .clause o blk → o < S0.cl_alloc.length) →
      (add_longer_clauses E x B cls).2 = true →
      (add_longer_clauses E x B cls).1.solver.trace
        = B.solver.trace ++ cls.map (fun cl => .add_clause_int (longer_clause_lits S0 x cl) false) := by
  induction cls with
  | nil => intro B _ _ _; simp [add_longer_clauses]
  | cons cl rest ih =>
    intro B hp hv hflag
    have ht := add_longer_clause_trace E B x cl
    have hp1 := add_longer_clause_cl_alloc E B x cl
    simp only [add_longer_clauses] at hflag ⊢
    split at hflag
    · exact absurd hflag (by simp)
    · rename_i B1 heq
      have e1 : (add_longer_clause E B x cl).1 = B1 := by rw [heq]
      rw [e1] at ht hp1
      rw [ih B1 (hp.trans hp1) (fun c hc => hv c (List.mem_cons_of_mem _ hc)) hflag, ht,
        longer_clause_lits_of_alloc_grows hp x (hv cl (List.mem_cons_self _ _))]
      simp

end BVA

namespace BVA

theorem refresh_watch_irred_size_frame (B : BVA) (l : Lit) :
    (B.refresh_watch_irred_size l).solver = B.solver
    ∧ (B.refresh_watch_irred_size l).bva_simp_size = B.bva_simp_size
    ∧ (B.refresh_watch_irred_size l).m_lits = B.m_lits
    ∧ (B.refresh_watch_irred_size l).m_cls = B.m_cls
    ∧ (B.refresh_watch_irred_size l).seen = B.seen := by
  unfold refresh_watch_irred_size
  split <;> exact ⟨rfl, rfl, rfl, rfl, rfl⟩

theorem update_touched_lits_in_bva_frame (B : BVA) :
    B.update_touched_lits_in_bva.solver = B.solver
    ∧ B.update_touched_lits_in_bva.bva_simp_size = B.bva_simp_size
    ∧ B.update_touched_lits_in_bva.m_lits = B.m_lits
    ∧ B.update_touched_lits_in_bva.m_cls = B.m_cls
    ∧ B.update_touched_lits_in_bva.seen = B.seen := by
  unfold update_touched_lits_in_bva
  simp only []
  generalize B.touched = ts
  induction ts generalizing B with
  | nil => exact ⟨rfl, rfl, rfl, rfl, rfl⟩
  | cons t rest ih =>
    simp only [List.foldl_cons]
    obtain ⟨a1, a2, a3, a4, a5⟩ := refresh_watch_irred_size_frame B (Lit.toLit t)
    obtain ⟨b1, b2, b3, b4, b5⟩ :=
      refresh_watch_irred_size_frame (B.refresh_watch_irred_size (Lit.toLit t)) (Lit.toLit t).neg
    obtain ⟨c1, c2, c3, c4, c5⟩ :=
      ih ((B.refresh_watch_irred_size (Lit.toLit t)).refresh_watch_irred_size (Lit.toLit t).neg)
    exact ⟨c1.trans (b1.trans a1), c2.trans (b2.trans a2), c3.trans (b3.trans a3),
      c4.trans (b4.trans a4), c5.trans (b5.trans a5)⟩

theorem added_clauses_append (a b : List SolverCall) :
    added_clauses (a ++ b) = added_clauses a ++ added_clauses b := by
  simp [added_clauses, List.filterMap_append]

theorem added_clauses_map_add (cs : List (List Lit)) :
    added_clauses (cs.map (fun lits => .add_clause_int lits false)) = cs := by
  induction cs with
  | nil => rfl
  | cons c rest ih => simpa [added_clauses] using ih

theorem added_clauses_of_removals (calls : List SolverCall)
    (h : ∀ c ∈ calls, c.is_removal = true) : added_clauses calls = [] := by
  induction calls with
  | nil => rfl
  | cons c rest ih =>
    have hc := h c (List.mem_cons_self _ _)
    have hr := ih (fun d hd => h d (List.mem_cons_of_mem _ hd))
    cases c <;> simp_all [added_clauses, SolverCall.is_removal]

theorem countP_removal_map_add (cs : List (List Lit)) :
    (cs.map (fun lits => SolverCall.add_clause_int lits false)).countP SolverCall.is_removal = 0 := by
  induction cs with
  | nil => rfl
  | cons c rest ih => simp [SolverCall.is_removal]

theorem countP_removal_of_removals (calls : List SolverCall)
    (h : ∀ c ∈ calls, c.is_removal = true) :
    calls.countP SolverCall.is_removal = calls.length := by
  rw [List.countP_eq_length]
  exact h

end BVA
namespace BVA

/-- The fresh literal `new_lit` of `bva_simplify_system`. -/
theorem bva_new_var_nVars (B : BVA) : B.bva_new_var.solver.nVars - 1 = B.solver.nVars := by
  simp [bva_new_var]

theorem add_binary_clauses_frame (E : Env) (x : Lit) (B : BVA) :
    (add_binary_clauses E x B).solver.trace
        = B.solver.trace ++ B.m_lits.map (fun lj => .add_clause_int (binary_clause_lits x lj) false)
    ∧ (add_binary_clauses E x B).m_lits = B.m_lits
    ∧ (add_binary_clauses E x B).m_cls = B.m_cls
    ∧ (add_binary_clauses E x B).bva_simp_size = B.bva_simp_size
    ∧ (add_binary_clauses E x B).seen = B.seen
    ∧ B.solver.cl_alloc <+: (add_binary_clauses E x B).solver.cl_alloc :=
  foldl_add_binary_clause E x B.m_lits B

/-- A run of `bva_simplify_system` either stops in the loop `//Longer clauses` and returns
`false`, or goes through the removal loops and returns `solver->okay()`. -/
theorem bva_simplify_system_cases {E : Env} {B B' : BVA} {r : Bool}
    (h : bva_simplify_system E B = some (B', r)) :
    (add_longer_clauses E (Lit.neg ⟨B.solver.nVars, false⟩)
        (add_binary_clauses E ⟨B.solver.nVars, false⟩ B.bva_new_var) B.m_cls = (B', false)
      ∧ r = false)
    ∨ ∃ B3 B5,
        add_longer_clauses E (Lit.neg ⟨B.solver.nVars, false⟩)
          (add_binary_clauses E ⟨B.solver.nVars, false⟩ B.bva_new_var) B.m_cls = (B3, true)
        ∧ remove_matching_clauses B3.fill_m_cls_lits_and_red B.m_lits = some B5
        ∧ B' = B5.update_touched_lits_in_bva ∧ r = B5.solver.ok := by
  unfold bva_simplify_system at h
  simp only [bva_new_var_nVars] at h
  have hm : (add_binary_clauses E ⟨B.solver.nVars, false⟩ B.bva_new_var).m_cls = B.m_cls :=
    (add_binary_clauses_frame E _ _).2.2.1
  rw [hm] at h
  split at h
  · rename_i B3 heq
    simp only [Option.some.injEq, Prod.mk.injEq] at h
    left
    rw [heq, h.1]
    exact ⟨rfl, h.2.symm⟩
  · rename_i B3 heq
    have hl : B3.fill_m_cls_lits_and_red.m_lits = B.m_lits := by
      have := (add_longer_clauses_trace E (Lit.neg ⟨B.solver.nVars, false⟩) B.m_cls
        (add_binary_clauses E ⟨B.solver.nVars, false⟩ B.bva_new_var))
      obtain ⟨_, _, _, _, g1, _⟩ := this
      rw [heq] at g1
      exact g1.trans (add_binary_clauses_frame E _ _).2.1
    rw [hl] at h
    split at h
    · simp at h
    · rename_i B5 hrem
      simp only [Option.some.injEq, Prod.mk.injEq] at h
      right
      refine ⟨B3, B5, heq, hrem, h.1.symm, ?_⟩
      rw [← h.2, Solver.okay, (update_touched_lits_in_bva_frame B5).1]

end BVA

namespace BVA

/-- The shape of a run of `bva_simplify_system` that returns `true`: the calls issued by
the two addition loops and by the removal loops. -/
theorem bva_simplify_system_phases {E : Env} {B B' : BVA}
    (h : bva_simplify_system E B = some (B', true)) :
    ∃ (longer : List (List Lit)) (removals : List SolverCall),
      B'.solver.trace = B.solver.trace ++ [.new_var]
          ++ B.m_lits.map (fun lj =>
              .add_clause_int (binary_clause_lits ⟨B.solver.nVars, false⟩ lj) false)
          ++ longer.map (fun lits => .add_clause_int lits false)
          ++ removals
      ∧ longer.length = B.m_cls.length
      ∧ (∀ c ∈ removals, c.is_removal = true)
      ∧ removals.length = B.m_lits.length * B.m_cls.length
      ∧ B'.bva_simp_size
          = B.bva_simp_size + simplification_size B.m_lits.length B.m_cls.length
      ∧ ((∀ cl ∈ B.m_cls, ∀ o blk, cl.ws = .clause o blk → o < B.solver.cl_alloc.length) →
          longer = B.m_cls.map
            (longer_clause_lits B.solver (Lit.neg ⟨B.solver.nVars, false⟩))) := by
  rcases bva_simplify_system_cases h with ⟨_, hr⟩ | ⟨B3, B5, hadd, hrem, hB', hr⟩
  · exact absurd hr (by simp)
  · obtain ⟨b1, b2, b3, b4, b5, b6⟩ :=
      add_binary_clauses_frame E ⟨B.solver.nVars, false⟩ B.bva_new_var
    obtain ⟨longer, l1, l2, l3, l4, l5, l6, l7, l8⟩ :=
      add_longer_clauses_trace E (Lit.neg ⟨B.solver.nVars, false⟩) B.m_cls
        (add_binary_clauses E ⟨B.solver.nVars, false⟩ B.bva_new_var)
    have hall := add_longer_clauses_trace_all E (Lit.neg ⟨B.solver.nVars, false⟩) B.solver
      B.m_cls (add_binary_clauses E ⟨B.solver.nVars, false⟩ B.bva_new_var)
    rw [hadd] at l1 l3 l4 l5 l6 l7 l8 hall
    obtain ⟨removals, r1, r2, r3, r4, r5, r6⟩ := remove_matching_clauses_trace B.m_lits hrem
    obtain ⟨u1, u2, _⟩ := update_touched_lits_in_bva_frame B5
    have ht3 : B3.solver.trace = B.solver.trace ++ [.new_var]
          ++ B.m_lits.map (fun lj =>
              .add_clause_int (binary_clause_lits ⟨B.solver.nVars, false⟩ lj) false)
          ++ longer.map (fun lits => .add_clause_int lits false) := by
      rw [l1, b1]; rfl
    refine ⟨longer, removals, ?_, l3 rfl, r2, ?_, ?_, ?_⟩
    · rw [hB', u1, r3]
      show B3.solver.trace ++ removals = _
      rw [ht3]
    · rw [r1]
      show B.m_lits.length * (B3.m_cls.map _).length = _
      rw [List.length_map, l5, b3]; rfl
    · rw [hB', u2, r6]
      show B3.bva_simp_size = _
      rw [l6, b4]; rfl
    · intro hv
      have h2 := hall (by simpa [bva_new_var] using b6) hv rfl
      rw [l1] at h2
      have h3 := List.append_cancel_left h2
      have h4 := congrArg added_clauses h3
      rw [added_clauses_map_add] at h4
      rw [h4]
      have : (B.m_cls.map fun cl => SolverCall.add_clause_int
          (longer_clause_lits B.solver (Lit.neg ⟨B.solver.nVars, false⟩) cl) false)
          = (B.m_cls.map (longer_clause_lits B.solver (Lit.neg ⟨B.solver.nVars, false⟩))).map
              (fun lits => SolverCall.add_clause_int lits false) := by
        simp
      rw [this, added_clauses_map_add]

end BVA

theorem option_eq_some_of_map_snd {α : Type} (o : Option (α × Bool)) (d : α) (r : Bool)
    (h : o.map Prod.snd = some r) : o = some ((o.map Prod.fst).getD d, r) := by
  cases o with
  | none => simp at h
  | some p => simp at h; simp [← h]

theorem Example.bva_simplify_system_eq :
    BVA.bva_simplify_system Example.env Example.bva = some (Example.bva_simplified, true) :=
  option_eq_some_of_map_snd _ Example.bva true (by decide)

theorem Example.bva_simplify_system_failing_eq :
    BVA.bva_simplify_system Example.env_failing Example.bva = some (Example.bva_failed, false) :=
  option_eq_some_of_map_snd _ Example.bva false (by decide)

/-- C2, as stated, fails: on the example formula `bva_simplify_system` returns `true` and
hands to `add_clause_int` the clauses `(a ∨ x)`, `(b ∨ x)`, `(¬x ∨ c ∨ d ∨ e)`, `(¬x ∨ f)`,
`(¬x ∨ g)`, where `x` is the positive literal of the fresh variable `7`; none of them has
the literals of one of the clauses `(¬x ∨ a)`, `(¬x ∨ b)`, `(x ∨ c ∨ d ∨ e)`, `(x ∨ f)`,
`(x ∨ g)` that the claim lists. -/
theorem bva_added_clauses_polarity_counterexample :
    BVA.bva_simplify_system Example.env Example.bva = some (Example.bva_simplified, true)
    ∧ Example.bva.solver.nVars = 7
    ∧ added_clauses Example.bva_simplified.solver.trace
        = [[Example.a, ⟨7, false⟩], [Example.b, ⟨7, false⟩],
           [⟨7, true⟩, Example.c, Example.d, Example.e], [⟨7, true⟩, Example.f],
           [⟨7, true⟩, Example.g]]
    ∧ spec_added_clauses ⟨7, false⟩ Example.a [Example.a, Example.b]
          [[Example.a, Example.c, Example.d, Example.e], [Example.a, Example.f],
           [Example.a, Example.g]]
        = [[⟨7, true⟩, Example.a], [⟨7, true⟩, Example.b],
           [⟨7, false⟩, Example.c, Example.d, Example.e], [⟨7, false⟩, Example.f],
           [⟨7, false⟩, Example.g]]
    ∧ ∀ added ∈ added_clauses Example.bva_simplified.solver.trace,
        ∀ claimed ∈ spec_added_clauses ⟨7, false⟩ Example.a [Example.a, Example.b]
          [[Example.a, Example.c, Example.d, Example.e], [Example.a, Example.f],
           [Example.a, Example.g]],
        ¬ added.Perm claimed :=
  ⟨Example.bva_simplify_system_eq, rfl, by decide, by decide, by decide⟩

/-- C2, amended: when `bva_simplify_system` returns `true` and the long entries of `m_cls`
point into the clause allocator, the clauses it hands to `add_clause_int` are exactly, in
this order: for each entry of `m_lits` the clause of its literal (or two literals) and the
positive literal `x` of the fresh variable, and for each entry of `m_cls` the clause with
`¬x` in the place of the pivot literal.  All of them are irredundant, and the only other
calls are `new_var` before them and clause removals after them. -/
theorem bva_simplify_system_added_clauses (E : Env) (B B' : BVA)
    (h : BVA.bva_simplify_system E B = some (B', true))
    (hv : ∀ cl ∈ B.m_cls, cl.ws.isClause = true → cl.ws.get_offset < B.solver.cl_alloc.length) :
    ∃ removals : List SolverCall,
      (∀ c ∈ removals, c.is_removal = true)
      ∧ B'.solver.trace = B.solver.trace ++ [.new_var]
          ++ (B.m_lits.map (BVA.binary_clause_lits ⟨B.solver.nVars, false⟩)
              ++ B.m_cls.map (BVA.longer_clause_lits B.solver ⟨B.solver.nVars, true⟩)).map
                (fun lits => .add_clause_int lits false)
          ++ removals
      ∧ added_clauses (B'.solver.trace.drop B.solver.trace.length)
          = B.m_lits.map (BVA.binary_clause_lits ⟨B.solver.nVars, false⟩)
              ++ B.m_cls.map (BVA.longer_clause_lits B.solver ⟨B.solver.nVars, true⟩) := by
  obtain ⟨longer, removals, ht, _, hrem, _, _, hl⟩ := BVA.bva_simplify_system_phases h
  have hl' := hl (fun cl hcl o blk hw => hv cl hcl (by rw [hw]; rfl) |> fun h => by
    rw [hw] at h; exact h)
  have hneg : (Lit.neg ⟨B.solver.nVars, false⟩) = ⟨B.solver.nVars, true⟩ := rfl
  rw [hneg] at hl'
  subst hl'
  have ht' : B'.solver.trace = B.solver.trace ++ [.new_var]
          ++ (B.m_lits.map (BVA.binary_clause_lits ⟨B.solver.nVars, false⟩)
              ++ B.m_cls.map (BVA.longer_clause_lits B.solver ⟨B.solver.nVars, true⟩)).map
                (fun lits => .add_clause_int lits false)
          ++ removals := by
    rw [ht]; simp
  refine ⟨removals, hrem, ht', ?_⟩
  rw [ht']
  simp only [List.append_assoc, List.drop_left]
  rw [BVA.added_clauses_append, BVA.added_clauses_append, BVA.added_clauses_map_add,
    BVA.added_clauses_of_removals _ hrem]
  simp [added_clauses]

theorem bva_simplify_system_added_clauses_witness :
    ∃ removals : List SolverCall,
      (∀ c ∈ removals, c.is_removal = true)
      ∧ Example.bva_simplified.solver.trace = Example.bva.solver.trace ++ [.new_var]
          ++ (Example.bva.m_lits.map (BVA.binary_clause_lits ⟨Example.bva.solver.nVars, false⟩)
              ++ Example.bva.m_cls.map
                  (BVA.longer_clause_lits Example.bva.solver ⟨Example.bva.solver.nVars, true⟩)).map
                (fun lits => .add_clause_int lits false)
          ++ removals
      ∧ added_clauses (Example.bva_simplified.solver.trace.drop Example.bva.solver.trace.length)
          = Example.bva.m_lits.map (BVA.binary_clause_lits ⟨Example.bva.solver.nVars, false⟩)
              ++ Example.bva.m_cls.map
                  (BVA.longer_clause_lits Example.bva.solver ⟨Example.bva.solver.nVars, true⟩) :=
  bva_simplify_system_added_clauses Example.env Example.bva Example.bva_simplified
    Example.bva_simplify_system_eq (by decide)

/-- C3, as stated, fails: on the example formula, in an environment where the addition of
the first clause over `¬x` makes the solver inconsistent, `bva_simplify_system` returns
`false` after `3` clause additions and no clause removal, while `k + m = 5` and
`k·m = 6`. -/
theorem bva_simplify_system_counts_counterexample :
    BVA.bva_simplify_system Example.env_failing Example.bva = some (Example.bva_failed, false)
    ∧ Example.bva.m_lits.length = 2 ∧ Example.bva.m_cls.length = 3
    ∧ (added_clauses Example.bva_failed.solver.trace).length = 3
    ∧ Example.bva_failed.solver.trace.countP SolverCall.is_removal = 0 :=
  ⟨Example.bva_simplify_system_failing_eq, rfl, rfl, by decide, by decide⟩

/-- C3, amended: when `bva_simplify_system` returns `true` (no clause addition made the
solver inconsistent), then for `k = |m_lits|` and `m = |m_cls|` it has issued, after
`new_var`, exactly `k + m` calls of `add_clause_int` and exactly `k·m` clause removals
(`detach_bin_clause`, `detach_tri_clause` or `unlink_clause`, one per call of
`remove_matching_clause`) and nothing else; `bva_simp_size` has grown by
`simplification_size(k, m) = k·m − k − m`, the number of removals minus the number of
additions. -/
theorem bva_simplify_system_call_counts (E : Env) (B B' : BVA)
    (h : BVA.bva_simplify_system E B = some (B', true)) :
    ∃ calls : List SolverCall,
      B'.solver.trace = B.solver.trace ++ .new_var :: calls
      ∧ (added_clauses calls).length = B.m_lits.length + B.m_cls.length
      ∧ calls.countP SolverCall.is_removal = B.m_lits.length * B.m_cls.length
      ∧ calls.length = (B.m_lits.length + B.m_cls.length) + B.m_lits.length * B.m_cls.length
      ∧ B'.bva_simp_size
          = B.bva_simp_size + BVA.simplification_size B.m_lits.length B.m_cls.length
      ∧ BVA.simplification_size B.m_lits.length B.m_cls.length
          = (B.m_lits.length : Int) * B.m_cls.length - B.m_lits.length - B.m_cls.length
      ∧ BVA.simplification_size B.m_lits.length B.m_cls.length
          = (calls.countP SolverCall.is_removal : Int) - ((added_clauses calls).length : Int) := by
  obtain ⟨longer, removals, ht, hlen, hrem, hrlen, hsz, _⟩ := BVA.bva_simplify_system_phases h
  have hadd : (added_clauses ((B.m_lits.map (fun lj =>
              SolverCall.add_clause_int (BVA.binary_clause_lits ⟨B.solver.nVars, false⟩ lj) false)
          ++ longer.map (fun lits => SolverCall.add_clause_int lits false)) ++ removals)).length
        = B.m_lits.length + B.m_cls.length := by
    have e : (B.m_lits.map (fun lj =>
              SolverCall.add_clause_int (BVA.binary_clause_lits ⟨B.solver.nVars, false⟩ lj) false))
        = (B.m_lits.map (BVA.binary_clause_lits ⟨B.solver.nVars, false⟩)).map
            (fun lits => SolverCall.add_clause_int lits false) := by simp
    rw [BVA.added_clauses_append, BVA.added_clauses_append, e, BVA.added_clauses_map_add,
      BVA.added_clauses_map_add, BVA.added_clauses_of_removals _ hrem]
    simp [hlen]
  have hcnt : ((B.m_lits.map (fun lj =>
              SolverCall.add_clause_int (BVA.binary_clause_lits ⟨B.solver.nVars, false⟩ lj) false)
          ++ longer.map (fun lits => SolverCall.add_clause_int lits false)) ++ removals).countP
            SolverCall.is_removal = B.m_lits.length * B.m_cls.length := by
    have e : (B.m_lits.map (fun lj =>
              SolverCall.add_clause_int (BVA.binary_clause_lits ⟨B.solver.nVars, false⟩ lj) false))
        = (B.m_lits.map (BVA.binary_clause_lits ⟨B.solver.nVars, false⟩)).map
            (fun lits => SolverCall.add_clause_int lits false) := by simp
    rw [List.countP_append, List.countP_append, e, BVA.countP_removal_map_add,
      BVA.countP_removal_map_add, BVA.countP_removal_of_removals _ hrem, hrlen]
    simp
  refine ⟨_, ?_, hadd, hcnt, ?_, hsz, rfl, ?_⟩
  · rw [ht]; simp
  · simp [hlen, hrlen]; omega
  · rw [hadd, hcnt]
    simp only [BVA.simplification_size]
    push_cast
    ring

theorem bva_simplify_system_call_counts_witness :
    ∃ calls : List SolverCall,
      Example.bva_simplified.solver.trace = Example.bva.solver.trace ++ .new_var :: calls
      ∧ (added_clauses calls).length = 2 + 3 ∧ calls.countP SolverCall.is_removal = 2 * 3
      ∧ Example.bva_simplified.bva_simp_size = Example.bva.bva_simp_size + 1 := by
  obtain ⟨calls, h1, h2, h3, _, h5, _⟩ :=
    bva_simplify_system_call_counts Example.env Example.bva Example.bva_simplified
      Example.bva_simplify_system_eq
  exact ⟨calls, h1, h2, h3, h5⟩

theorem Example.bva_ready : Example.bva.Ready where
  watches_size := by
    intro i hi
    show Example.watch_table.getD i [] = []
    exact List.getD_eq_default _ _ hi
  vars_bounded := by decide
  offsets_valid := by decide
  long_nodup := by decide
  long_size := by decide
  seen_clear := fun _ => rfl
  m_cls_watched := by decide
  m_cls_pivot := by decide
  m_lits_bounded := by decide
  matched := by decide
  matched_long := by decide
  matched_distinct := by decide

/-! ## Literals and satisfaction -/

theorem Lit.toLit_toInt (l : Lit) : Lit.toLit l.toInt = l := by
  obtain ⟨v, s⟩ := l
  cases s
  · simp [Lit.toLit, Lit.toInt]
  · simp [Lit.toLit, Lit.toInt]
    omega

theorem Lit.toInt_injective {a b : Lit} (h : a.toInt = b.toInt) : a = b := by
  rw [← Lit.toLit_toInt a, ← Lit.toLit_toInt b, h]

theorem Lit.toInt_lt {l : Lit} {n : Nat} (h : l.var < n) : l.toInt < 2 * n := by
  unfold Lit.toInt
  split <;> omega

theorem Lit.var_toLit_lt {i n : Nat} (h : i < 2 * n) : (Lit.toLit i).var < n := by
  simp only [Lit.toLit]
  omega

theorem Lit.eval_update_of_ne (σ : Nat → Bool) (x : Nat) (v : Bool) {l : Lit} (h : l.var ≠ x) :
    l.eval (Function.update σ x v) = l.eval σ := by
  simp [Lit.eval, Function.update_noteq h]

theorem clause_sat_mono {σ : Nat → Bool} {c1 c2 : List Lit} (h : ∀ l ∈ c1, l ∈ c2)
    (hs : clause_sat σ c1) : clause_sat σ c2 := by
  obtain ⟨l, hl, he⟩ := hs
  exact ⟨l, h l hl, he⟩

theorem clause_sat_update {σ : Nat → Bool} {x : Nat} {v : Bool} {c : List Lit}
    (h : ∀ l ∈ c, l.var ≠ x) : clause_sat (Function.update σ x v) c ↔ clause_sat σ c := by
  constructor
  · rintro ⟨l, hl, he⟩
    exact ⟨l, hl, by rwa [Lit.eval_update_of_ne σ x v (h l hl)] at he⟩
  · rintro ⟨l, hl, he⟩
    exact ⟨l, hl, by rwa [Lit.eval_update_of_ne σ x v (h l hl)]⟩

/-! ## Membership in the watch lists after the solver primitives -/

namespace Solver

theorem mem_setWatches {S : Solver} {i : Nat} {ws : List Watched} {j : Nat} {w : Watched} :
    w ∈ (S.setWatches i ws).watches j ↔ (j = i ∧ w ∈ ws) ∨ (j ≠ i ∧ w ∈ S.watches j) := by
  simp only [setWatches]
  by_cases h : j = i <;> simp [h]

theorem mem_pushWatch {S : Solver} {l : Lit} {v : Watched} {j : Nat} {w : Watched} :
    w ∈ (S.pushWatch l v).watches j ↔ w ∈ S.watches j ∨ (j = l.toInt ∧ w = v) := by
  simp only [pushWatch, setWatches]
  by_cases h : j = l.toInt
  · subst h; simp
  · simp [h]

theorem mem_foldl_pushWatch (v : Watched) (ls : List Lit) (S : Solver) {j : Nat} {w : Watched} :
    w ∈ (ls.foldl (fun T l => T.pushWatch l v) S).watches j
      ↔ w ∈ S.watches j ∨ (w = v ∧ ∃ l ∈ ls, j = l.toInt) := by
  induction ls generalizing S with
  | nil => simp
  | cons a t ih =>
    simp only [List.foldl_cons, ih, mem_pushWatch, List.mem_cons, exists_eq_or_imp]
    constructor
    · rintro ((h | ⟨h1, h2⟩) | ⟨h1, h2⟩)
      · exact Or.inl h
      · exact Or.inr ⟨h2, Or.inl h1⟩
      · exact Or.inr ⟨h1, Or.inr h2⟩
    · rintro (h | ⟨h1, h2 | h2⟩)
      · exact Or.inl (Or.inl h)
      · exact Or.inl (Or.inr ⟨h2, h1⟩)
      · exact Or.inr ⟨h1, h2⟩

theorem mem_linkInClause {S : Solver} {o : Nat} {j : Nat} {w : Watched} :
    w ∈ (S.linkInClause o).watches j
      ↔ w ∈ S.watches j
        ∨ (w = .clause o ((S.ptr o).lits.headD lit_Undef) ∧ ∃ l ∈ (S.ptr o).lits, j = l.toInt) :=
  mem_foldl_pushWatch _ _ S

theorem mem_attach_bin_clause {S : Solver} {a b : Lit} {r : Bool} {j : Nat} {w : Watched} :
    w ∈ (S.attach_bin_clause a b r).watches j
      ↔ w ∈ S.watches j ∨ (j = a.toInt ∧ w = .binary b r) ∨ (j = b.toInt ∧ w = .binary a r) := by
  simp only [attach_bin_clause, mem_pushWatch, or_assoc]

theorem mem_attach_tri_clause {S : Solver} {a b c : Lit} {r : Bool} {j : Nat} {w : Watched} :
    w ∈ (S.attach_tri_clause a b c r).watches j
      ↔ w ∈ S.watches j ∨ (j = a.toInt ∧ w = .tertiary b c r)
        ∨ (j = b.toInt ∧ w = .tertiary a c r) ∨ (j = c.toInt ∧ w = .tertiary a b r) := by
  simp only [attach_tri_clause, mem_pushWatch, or_assoc]

/-- Entries of the clause database keep their literals and their redundancy flag when the
allocator grows, as long as they point inside the old allocator. -/
theorem occ_lits_of_alloc_grows {S T : Solver} (h : S.cl_alloc <+: T.cl_alloc) {cl : OccurClause}
    (hv : cl.ws.isClause = true → cl.ws.get_offset < S.cl_alloc.length) :
    T.occ_lits cl = S.occ_lits cl := by
  obtain ⟨l, w⟩ := cl
  cases w with
  | binary _ _ => rfl
  | tertiary _ _ _ => rfl
  | clause o _ =>
    have := ptr_of_alloc_grows h (hv rfl)
    simp only [Watched.get_offset] at this
    simp only [occ_lits, this]

theorem redundant_of_alloc_grows {S T : Solver} (h : S.cl_alloc <+: T.cl_alloc) {w : Watched}
    (hv : w.isClause = true → w.get_offset < S.cl_alloc.length) :
    T.redundant w = S.redundant w := by
  cases w with
  | binary _ _ => rfl
  | tertiary _ _ _ => rfl
  | clause o _ =>
    have := ptr_of_alloc_grows h (hv rfl)
    simp only [Watched.get_offset] at this
    simp only [redundant, this]

end Solver

theorem ptr_append_length (S : Solver) (c : Clause) (T : Solver)
    (h : T.cl_alloc = S.cl_alloc ++ [c]) : T.ptr S.cl_alloc.length = c := by
  unfold Solver.ptr
  rw [h]
  simp [List.getD_eq_getElem?_getD]

theorem add_and_link_step (E : Env) (S : Solver) (lits : List Lit) :
    Solver.AddStep S (add_and_link E S lits) lits := by
  unfold add_and_link add_clause_int
  simp only []
  cases hok : S.ok
  · simp only [Bool.not_false, ite_true]
    exact ⟨List.prefix_refl _, rfl, fun _ _ h => h, fun _ _ h => Or.inl h,
      fun h => by simp [Solver.log, hok] at h, fun h => by simp [Solver.log, hok] at h⟩
  · simp only [Bool.not_true, Bool.false_eq_true, ite_false]
    by_cases hf : E.add_clause_fails S lits = true
    · simp only [hf, ite_true]
      exact ⟨List.prefix_refl _, rfl, fun _ _ h => h, fun _ _ h => Or.inl h,
        fun h => by simp at h, fun _ => hok⟩
    · simp only [hf, Bool.false_eq_true, ite_false]
      have hperm := List.perm_insertionSort Lit.le lits
      generalize List.insertionSort Lit.le lits = ps at hperm
      match ps, hperm with
      | [], hperm =>
        refine ⟨List.prefix_refl _, rfl, fun _ _ h => h, fun _ _ h => Or.inl h, ?_, fun _ => hok⟩
        intro _ h2
        have := hperm.length_eq
        simp at this
        omega
      | [a], hperm =>
        refine ⟨List.prefix_refl _, rfl, fun _ _ h => h, fun _ _ h => Or.inl h, ?_, fun _ => hok⟩
        intro _ h2
        have := hperm.length_eq
        simp at this
        omega
      | [a, b], hperm =>
        simp only []
        refine ⟨List.prefix_refl _, rfl, ?_, ?_, ?_, fun _ => hok⟩
        · intro j w h
          exact Solver.mem_attach_bin_clause.2 (Or.inl h)
        · intro j w h
          rcases Solver.mem_attach_bin_clause.1 h with h | ⟨rfl, rfl⟩ | ⟨rfl, rfl⟩
          · exact Or.inl h
          · right
            refine ⟨rfl, ?_, ?_, by simp [Watched.isClause]⟩
            · intro l hl
              have := hperm.mem_iff.2 hl
              simpa [Solver.occ_lits, Lit.toLit_toInt] using this
            · intro l hl
              apply hperm.mem_iff.1
              simpa [Solver.occ_lits, Lit.toLit_toInt] using hl
          · right
            refine ⟨rfl, ?_, ?_, by simp [Watched.isClause]⟩
            · intro l hl
              have := hperm.mem_iff.2 hl
              simp only [Solver.occ_lits, Lit.toLit_toInt]
              simp at this ⊢
              tauto
            · intro l hl
              apply hperm.mem_iff.1
              simp only [Solver.occ_lits, Lit.toLit_toInt] at hl
              simp at hl ⊢
              tauto
        · intro _ _
          refine ⟨a.toInt, .binary b false, Solver.mem_attach_bin_clause.2 (Or.inr (Or.inl ⟨rfl, rfl⟩)),
            rfl, ?_, ?_, by simp [Watched.isClause]⟩
          · intro l hl
            have := hperm.mem_iff.2 hl
            simpa [Solver.occ_lits, Lit.toLit_toInt] using this
          · intro l hl
            apply hperm.mem_iff.1
            simpa [Solver.occ_lits, Lit.toLit_toInt] using hl
      | [a, b, c], hperm =>
        simp only []
        refine ⟨List.prefix_refl _, rfl, ?_, ?_, ?_, fun _ => hok⟩
        · intro j w h
          exact Solver.mem_attach_tri_clause.2 (Or.inl h)
        · intro j w h
          rcases Solver.mem_attach_tri_clause.1 h with h | ⟨rfl, rfl⟩ | ⟨rfl, rfl⟩ | ⟨rfl, rfl⟩
          · exact Or.inl h
          all_goals
            right
            refine ⟨rfl, ?_, ?_, by simp [Watched.isClause]⟩
            · intro l hl
              have := hperm.mem_iff.2 hl
              simp only [Solver.occ_lits, Lit.toLit_toInt]
              simp at this ⊢
              tauto
            · intro l hl
              apply hperm.mem_iff.1
              simp only [Solver.occ_lits, Lit.toLit_toInt] at hl
              simp at hl ⊢
              tauto
        · intro _ _
          refine ⟨a.toInt, .tertiary b c false,
            Solver.mem_attach_tri_clause.2 (Or.inr (Or.inl ⟨rfl, rfl⟩)),
            rfl, ?_, ?_, by simp [Watched.isClause]⟩
          · intro l hl
            have := hperm.mem_iff.2 hl
            simpa [Solver.occ_lits, Lit.toLit_toInt] using this
          · intro l hl
            apply hperm.mem_iff.1
            simpa [Solver.occ_lits, Lit.toLit_toInt] using hl
      | a :: b :: c :: d :: rest, hperm =>
        simp only []
        have hptr : ∀ (T : Solver), T.cl_alloc = S.cl_alloc ++ [⟨a :: b :: c :: d :: rest, false⟩] →
            T.ptr S.cl_alloc.length = ⟨a :: b :: c :: d :: rest, false⟩ :=
          fun T hT => ptr_append_length S _ T hT
        have hp1 := hptr { S.log (.add_clause_int lits false) with
          cl_alloc := (S.log (.add_clause_int lits false)).cl_alloc
            ++ [⟨a :: b :: c :: d :: rest, false⟩] } rfl
        have hp2 := hptr (({ S.log (.add_clause_int lits false) with
          cl_alloc := (S.log (.add_clause_int lits false)).cl_alloc
            ++ [⟨a :: b :: c :: d :: rest, false⟩] } : Solver).linkInClause S.cl_alloc.length)
          (by rw [Solver.linkInClause_cl_alloc]; rfl)
        refine ⟨?_, by simp, ?_, ?_, ?_, fun _ => hok⟩
        · rw [Solver.linkInClause_cl_alloc]
          exact List.prefix_append _ _
        · intro j w h
          exact Solver.mem_linkInClause.2 (Or.inl h)
        · intro j w h
          rcases Solver.mem_linkInClause.1 h with h | ⟨rfl, l, hl, rfl⟩
          · exact Or.inl h
          · right
            simp only [Solver.log_cl_alloc] at hp1 hp2 ⊢
            refine ⟨?_, ?_, ?_, ?_⟩
            · simp only [Solver.redundant, hp2]
            · intro l' hl'
              simp only [Solver.occ_lits, hp2]
              exact hperm.mem_iff.2 hl'
            · intro l' hl'
              simp only [Solver.occ_lits, hp2] at hl'
              exact hperm.mem_iff.1 hl'
            · intro _
              rw [Solver.linkInClause_cl_alloc]
              simp [Watched.get_offset]
        · intro _ _
          simp only [Solver.log_cl_alloc] at hp1 hp2 ⊢
          refine ⟨a.toInt, .clause S.cl_alloc.length _,
            Solver.mem_linkInClause.2 (Or.inr ⟨rfl, a, ?_, rfl⟩), ?_, ?_, ?_, ?_⟩
          · rw [hp1]; simp
          · simp only [Solver.redundant, hp2]
          · intro l' hl'
            simp only [Solver.occ_lits, hp2]
            exact hperm.mem_iff.2 hl'
          · intro l' hl'
            simp only [Solver.occ_lits, hp2] at hl'
            exact hperm.mem_iff.1 hl'
          · intro _
            rw [Solver.linkInClause_cl_alloc]
            simp [Watched.get_offset]

theorem add_clause_int_none_of_short (E : Env) (S : Solver) (lits : List Lit)
    (h : lits.length ≤ 3) : (add_clause_int E S lits false).2.2 = none := by
  unfold add_clause_int
  simp only []
  split
  · rfl
  · split
    · rfl
    · have hlen := List.length_insertionSort Lit.le lits
      generalize List.insertionSort Lit.le lits = ps at hlen
      rcases ps with _ | ⟨a, _ | ⟨b, _ | ⟨c, _ | ⟨d, rest⟩⟩⟩⟩
      · rfl
      · rfl
      · rfl
      · rfl
      · simp at hlen; omega

theorem BVA.binary_clause_lits_length (x : Lit) (lj : lit_pair) :
    2 ≤ (BVA.binary_clause_lits x lj).length ∧ (BVA.binary_clause_lits x lj).length ≤ 3 := by
  unfold BVA.binary_clause_lits lit_pair.lits
  split <;> simp

theorem BVA.add_binary_clause_solver (E : Env) (B : BVA) (x : Lit) (lj : lit_pair) :
    (BVA.add_binary_clause E B x lj).solver
      = add_and_link E B.solver (BVA.binary_clause_lits x lj) := by
  unfold add_and_link
  rw [add_clause_int_none_of_short E B.solver _ (BVA.binary_clause_lits_length x lj).2]
  rfl

theorem BVA.add_longer_clause_solver (E : Env) (B : BVA) (x : Lit) (cl : OccurClause) :
    (BVA.add_longer_clause E B x cl).1.solver
      = add_and_link E B.solver (BVA.longer_clause_lits B.solver x cl) := by
  unfold add_and_link BVA.add_longer_clause
  simp only [BVA.touch_solver]
  obtain ⟨l, w⟩ := cl
  cases w with
  | binary l2 r =>
    have : (add_clause_int E B.solver
        (BVA.longer_clause_lits B.solver x ⟨l, .binary l2 r⟩) false).2.2 = none :=
      add_clause_int_none_of_short E B.solver _ (by simp [BVA.longer_clause_lits])
    simp only [this]
  | tertiary l2 l3 r =>
    have : (add_clause_int E B.solver
        (BVA.longer_clause_lits B.solver x ⟨l, .tertiary l2 l3 r⟩) false).2.2 = none :=
      add_clause_int_none_of_short E B.solver _ (by simp [BVA.longer_clause_lits])
    simp only [this]
  | clause o blk =>
    simp only []
    cases hr : (add_clause_int E B.solver
        (BVA.longer_clause_lits B.solver x ⟨l, .clause o blk⟩) false).2.2 with
    | none => rfl
    | some newCl => rfl

namespace Solver

theorem denotes_of_alloc_grows {T T' : Solver} {j : Nat} {w : Watched} {c : List Lit}
    (h : T.Denotes j w c) (hp : T.cl_alloc <+: T'.cl_alloc) : T'.Denotes j w c := by
  obtain ⟨h1, h2, h3, h4⟩ := h
  have e1 : T'.occ_lits ⟨Lit.toLit j, w⟩ = T.occ_lits ⟨Lit.toLit j, w⟩ := occ_lits_of_alloc_grows hp h4
  have e2 : T'.redundant w = T.redundant w := redundant_of_alloc_grows hp h4
  refine ⟨e2.trans h1, ?_, ?_, fun hc => lt_of_lt_of_le (h4 hc) hp.length_le⟩
  · rw [e1]; exact h2
  · rw [e1]; exact h3

theorem addInv_step {S T T' : Solver} {issued : List (List Lit)} {lits : List Lit}
    (h : S.AddInv T issued) (hs : T.AddStep T' lits) : S.AddInv T' (issued ++ [lits]) where
  alloc := h.alloc.trans hs.alloc
  nVars := hs.nVars.trans h.nVars
  old := fun j w hw => hs.old j w (h.old j w hw)
  entries := by
    intro j w hw
    rcases hs.entries j w hw with hw | hd
    · rcases h.entries j w hw with hw | ⟨c, hc, hd⟩
      · exact Or.inl hw
      · exact Or.inr ⟨c, List.mem_append_left _ hc, denotes_of_alloc_grows hd hs.alloc⟩
    · exact Or.inr ⟨lits, by simp, hd⟩
  valid := by
    intro j w hw hc
    rcases hs.entries j w hw with hw | hd
    · exact lt_of_lt_of_le (h.valid j w hw hc) hs.alloc.length_le
    · exact hd.2.2.2 hc
  present := by
    intro hok c hc hlen
    rcases List.mem_append.1 hc with hc | hc
    · obtain ⟨j, w, hw, hd⟩ := h.present (hs.ok hok) c hc hlen
      exact ⟨j, w, hs.old j w hw, denotes_of_alloc_grows hd hs.alloc⟩
    · simp only [List.mem_singleton] at hc
      subst hc
      exact hs.present hok hlen

end Solver

theorem BVA.add_binary_clauses_inv (E : Env) (x : Lit) (S : Solver) (ljs : List lit_pair) :
    ∀ (B : BVA) (issued : List (List Lit)), S.AddInv B.solver issued →
      S.AddInv (ljs.foldl (fun b m_lit => BVA.add_binary_clause E b x m_lit) B).solver
        (issued ++ ljs.map (BVA.binary_clause_lits x)) := by
  induction ljs with
  | nil => intro B issued h; simpa using h
  | cons lj rest ih =>
    intro B issued h
    have hs := add_and_link_step E B.solver (BVA.binary_clause_lits x lj)
    rw [← BVA.add_binary_clause_solver] at hs
    have := ih (BVA.add_binary_clause E B x lj) _ (Solver.addInv_step h hs)
    simpa using this

theorem BVA.add_longer_clauses_inv (E : Env) (x : Lit) (S : Solver) (cls : List OccurClause) :
    ∀ (B : BVA) (issued : List (List Lit)), S.AddInv B.solver issued →
      (∀ cl ∈ cls, cl.ws.isClause = true → cl.ws.get_offset < S.cl_alloc.length) →
      ∃ more : List (List Lit),
        S.AddInv (BVA.add_longer_clauses E x B cls).1.solver (issued ++ more)
        ∧ (∀ c ∈ more, c ∈ cls.map (BVA.longer_clause_lits S x))
        ∧ ((BVA.add_longer_clauses E x B cls).2 = true →
            more = cls.map (BVA.longer_clause_lits S x)
            ∧ (cls ≠ [] → (BVA.add_longer_clauses E x B cls).1.solver.ok = true)) := by
  induction cls with
  | nil =>
    intro B issued h _
    exact ⟨[], by simpa [BVA.add_longer_clauses] using h, by simp, fun _ => ⟨rfl, by simp⟩⟩
  | cons cl rest ih =>
    intro B issued h hv
    have hs := add_and_link_step E B.solver (BVA.longer_clause_lits B.solver x cl)
    rw [← BVA.add_longer_clause_solver] at hs
    have hlits : BVA.longer_clause_lits B.solver x cl = BVA.longer_clause_lits S x cl :=
      BVA.longer_clause_lits_of_alloc_grows h.alloc x
        (fun o blk hw => by
          have := hv cl (List.mem_cons_self _ _) (by rw [hw]; rfl)
          rw [hw] at this
          exact this)
    rw [hlits] at hs
    have hok := BVA.add_longer_clause_okay E B x cl
    simp only [BVA.add_longer_clauses]
    split
    · rename_i B1 heq
      have e1 : (BVA.add_longer_clause E B x cl).1 = B1 := by rw [heq]
      rw [e1] at hs
      exact ⟨[BVA.longer_clause_lits S x cl], Solver.addInv_step h hs, by simp, fun hc => by simp at hc⟩
    · rename_i B1 heq
      have e1 : (BVA.add_longer_clause E B x cl).1 = B1 := by rw [heq]
      have e2 : (BVA.add_longer_clause E B x cl).2 = true := by rw [heq]
      rw [e1] at hs hok
      obtain ⟨more, m1, m2, m3⟩ := ih B1 _ (Solver.addInv_step h hs)
        (fun c hc => hv c (List.mem_cons_of_mem _ hc))
      refine ⟨BVA.longer_clause_lits S x cl :: more, by simpa using m1, ?_, ?_⟩
      · intro c hc
        rcases List.mem_cons.1 hc with rfl | hc
        · simp
        · exact List.mem_cons_of_mem _ (m2 c hc)
      · intro hflag
        obtain ⟨m4, m5⟩ := m3 hflag
        refine ⟨by rw [m4]; rfl, fun _ => ?_⟩
        by_cases hr : rest = []
        · subst hr
          simp only [BVA.add_longer_clauses]
          rw [← hok, e2]
        · exact m5 hr

/-! ## Removal of a matched clause -/

theorem setAt_apply (arr : Nat → Nat) (i v j : Nat) :
    BVA.setAt arr i v j = if j = i then v else arr j := rfl

theorem foldl_setAt_apply (v : Nat) (ls : List Lit) (arr : Nat → Nat) (j : Nat) :
    (ls.foldl (fun s lit => BVA.setAt s lit.toInt v) arr) j
      = if ∃ l ∈ ls, j = l.toInt then v else arr j := by
  induction ls generalizing arr with
  | nil => simp
  | cons a t ih =>
    simp only [List.foldl_cons, ih, List.mem_cons, exists_eq_or_imp, setAt_apply]
    by_cases h1 : ∃ l ∈ t, j = l.toInt
    · simp [h1]
    · by_cases h2 : j = a.toInt <;> simp [h1, h2]

theorem marked_iff_mem {torem : List Lit} {seen : Nat → Nat} (hs : ∀ i, seen i = 0) (lit : Lit) :
    (torem.foldl (fun s l => BVA.setAt s l.toInt 1) seen) lit.toInt ≠ 0 ↔ lit ∈ torem := by
  rw [foldl_setAt_apply]
  constructor
  · intro h
    by_cases hex : ∃ l ∈ torem, lit.toInt = l.toInt
    · obtain ⟨l, hl, he⟩ := hex
      rwa [Lit.toInt_injective he]
    · simp [hex, hs] at h
  · intro h
    have hex : ∃ l ∈ torem, lit.toInt = l.toInt := ⟨lit, h, rfl⟩
    simp [hex]

theorem unmarked_clear {torem : List Lit} {seen : Nat → Nat} (hs : ∀ i, seen i = 0) (v : Nat)
    (i : Nat) :
    (torem.foldl (fun s l => BVA.setAt s l.toInt 0)
      (torem.foldl (fun s l => BVA.setAt s l.toInt v) seen)) i = 0 := by
  rw [foldl_setAt_apply, foldl_setAt_apply]
  by_cases hex : ∃ l ∈ torem, i = l.toInt
  · simp [hex]
  · simp [hex, hs]

/-- The scan of `find_cl_for_bva` returns a matching clause of the watch list when there is
one. -/
theorem BVA.find_cl_for_bva_scan_spec (S : Solver) (seen : Nat → Nat) (torem : List Lit)
    (red : Bool) (ws : List Watched) :
    ∀ (cl : Option Nat),
      (∃ w ∈ ws, w.isClause = true ∧ (S.ptr w.get_offset).red = red
          ∧ (S.ptr w.get_offset).lits.length = torem.length
          ∧ ∀ l ∈ (S.ptr w.get_offset).lits, seen l.toInt ≠ 0) →
      ∃ w ∈ ws, BVA.find_cl_for_bva_scan S seen torem red ws cl = some w.get_offset
          ∧ w.isClause = true ∧ (S.ptr w.get_offset).red = red
          ∧ (S.ptr w.get_offset).lits.length = torem.length
          ∧ ∀ l ∈ (S.ptr w.get_offset).lits, seen l.toInt ≠ 0 := by
  induction ws with
  | nil => intro cl h; simp at h
  | cons w rest ih =>
    intro cl h
    simp only [BVA.find_cl_for_bva_scan]
    by_cases hc : w.isClause = true
    · simp only [hc, Bool.not_true, Bool.false_eq_true, ite_false]
      by_cases h1 : ((S.ptr w.get_offset).red != red
          || (S.ptr w.get_offset).lits.length != torem.length) = true
      · simp only [h1, ite_true]
        have hrest : ∃ w' ∈ rest, w'.isClause = true ∧ (S.ptr w'.get_offset).red = red
            ∧ (S.ptr w'.get_offset).lits.length = torem.length
            ∧ ∀ l ∈ (S.ptr w'.get_offset).lits, seen l.toInt ≠ 0 := by
          obtain ⟨w', hw', p1, p2, p3, p4⟩ := h
          rcases List.mem_cons.1 hw' with rfl | hw'
          · simp [p2, p3] at h1
          · exact ⟨w', hw', p1, p2, p3, p4⟩
        obtain ⟨w', hw', q⟩ := ih (some w.get_offset) hrest
        exact ⟨w', List.mem_cons_of_mem _ hw', q⟩
      · simp only [h1, Bool.false_eq_true, ite_false]
        simp only [Bool.or_eq_true, bne_iff_ne, ne_eq, not_or, not_not] at h1
        by_cases h2 : ((S.ptr w.get_offset).lits.all fun lit => seen lit.toInt != 0) = true
        · simp only [h2, ite_true]
          refine ⟨w, List.mem_cons_self _ _, rfl, hc, h1.1, h1.2, ?_⟩
          intro l hl
          have := List.all_eq_true.1 h2 l hl
          simpa using this
        · simp only [h2, Bool.false_eq_true, ite_false]
          have hrest : ∃ w' ∈ rest, w'.isClause = true ∧ (S.ptr w'.get_offset).red = red
              ∧ (S.ptr w'.get_offset).lits.length = torem.length
              ∧ ∀ l ∈ (S.ptr w'.get_offset).lits, seen l.toInt ≠ 0 := by
            obtain ⟨w', hw', p1, p2, p3, p4⟩ := h
            rcases List.mem_cons.1 hw' with rfl | hw'
            · exfalso
              apply h2
              rw [List.all_eq_true]
              intro l hl
              simpa using p4 l hl
            · exact ⟨w', hw', p1, p2, p3, p4⟩
          obtain ⟨w', hw', q⟩ := ih (some w.get_offset) hrest
          exact ⟨w', List.mem_cons_of_mem _ hw', q⟩
    · simp only [hc, Bool.not_false, ite_true]
      have hrest : ∃ w' ∈ rest, w'.isClause = true ∧ (S.ptr w'.get_offset).red = red
          ∧ (S.ptr w'.get_offset).lits.length = torem.length
          ∧ ∀ l ∈ (S.ptr w'.get_offset).lits, seen l.toInt ≠ 0 := by
        obtain ⟨w', hw', p1, p2, p3, p4⟩ := h
        rcases List.mem_cons.1 hw' with rfl | hw'
        · exact absurd p1 hc
        · exact ⟨w', hw', p1, p2, p3, p4⟩
      obtain ⟨w', hw', q⟩ := ih cl hrest
      exact ⟨w', List.mem_cons_of_mem _ hw', q⟩

/-- With `seen` all zero, `find_cl_for_bva` returns a clause of the watch list of `torem[0]`
with the flag `red`, the size of `torem` and literals of `torem` only, when there is one,
and leaves `seen` all zero. -/
theorem BVA.find_cl_for_bva_spec (B : BVA) (torem : List Lit) (red : Bool)
    (hs : ∀ i, B.seen i = 0) (hm : B.solver.LongMatch torem red) :
    ∃ w ∈ B.solver.watches (torem.headD lit_Undef).toInt,
      (B.find_cl_for_bva torem red).2 = some w.get_offset
      ∧ w.isClause = true ∧ (B.solver.ptr w.get_offset).red = red
      ∧ (B.solver.ptr w.get_offset).lits.length = torem.length
      ∧ (∀ l ∈ (B.solver.ptr w.get_offset).lits, l ∈ torem)
      ∧ ∀ i, (B.find_cl_for_bva torem red).1.seen i = 0 := by
  obtain ⟨w0, hw0, p1, p2, p3, p4⟩ := hm
  have hex : ∃ w ∈ B.solver.watches (torem.headD lit_Undef).toInt, w.isClause = true
      ∧ (B.solver.ptr w.get_offset).red = red
      ∧ (B.solver.ptr w.get_offset).lits.length = torem.length
      ∧ ∀ l ∈ (B.solver.ptr w.get_offset).lits,
          (torem.foldl (fun s l => BVA.setAt s l.toInt 1) B.seen) l.toInt ≠ 0 :=
    ⟨w0, hw0, p1, p2, p3, fun l hl => (marked_iff_mem hs l).2 (p4 l hl)⟩
  obtain ⟨w, hw, q0, q1, q2, q3, q4⟩ :=
    BVA.find_cl_for_bva_scan_spec B.solver _ torem red _ none hex
  refine ⟨w, hw, q0, q1, q2, q3, fun l hl => (marked_iff_mem hs l).1 (q4 l hl), ?_⟩
  intro i
  exact unmarked_clear hs 1 i

namespace Solver

theorem ptr_congr {T T' : Solver} (h : T'.cl_alloc = T.cl_alloc) (o : Nat) :
    T'.ptr o = T.ptr o := by
  unfold ptr; rw [h]

theorem occ_lits_congr {T T' : Solver} (h : T'.cl_alloc = T.cl_alloc) (cl : OccurClause) :
    T'.occ_lits cl = T.occ_lits cl := by
  unfold occ_lits
  split <;> simp [ptr_congr h]

theorem redundant_congr {T T' : Solver} (h : T'.cl_alloc = T.cl_alloc) (w : Watched) :
    T'.redundant w = T.redundant w := by
  cases w <;> simp [redundant, ptr_congr h]

theorem remStep_refl (T : Solver) (t : List Lit) : T.RemStep T t :=
  ⟨rfl, rfl, fun _ _ h => h, fun _ _ h => Or.inl h⟩

theorem remStep_trans {T T1 T2 : Solver} {t : List Lit} (h1 : T.RemStep T1 t)
    (h2 : T1.RemStep T2 t) : T.RemStep T2 t where
  alloc := h2.alloc.trans h1.alloc
  nVars := h2.nVars.trans h1.nVars
  sub := fun j w h => h1.sub j w (h2.sub j w h)
  erased := by
    intro j w h
    rcases h1.erased j w h with h | h
    · rcases h2.erased j w h with h | h
      · exact Or.inl h
      · right
        rwa [occ_lits_congr h1.alloc] at h
    · exact Or.inr h

theorem remStep_log {T : Solver} (c : SolverCall) (t : List Lit) : T.RemStep (T.log c) t :=
  ⟨rfl, rfl, fun _ _ h => h, fun _ _ h => Or.inl h⟩

theorem remStep_erase {T : Solver} (i : Nat) (v : Watched) (t : List Lit)
    (h : same_lits (T.occ_lits ⟨Lit.toLit i, v⟩) t) :
    T.RemStep (T.setWatches i ((T.watches i).erase v)) t where
  alloc := rfl
  nVars := rfl
  sub := by
    intro j w hw
    rcases mem_setWatches.1 hw with ⟨rfl, hw⟩ | ⟨_, hw⟩
    · exact List.mem_of_mem_erase hw
    · exact hw
  erased := by
    intro j w hw
    by_cases hj : j = i
    · subst hj
      by_cases hv : w = v
      · subst hv
        exact Or.inr h
      · exact Or.inl (mem_setWatches.2 (Or.inl ⟨rfl, (List.mem_erase_of_ne hv).2 hw⟩))
    · exact Or.inl (mem_setWatches.2 (Or.inr ⟨hj, hw⟩))

theorem remStep_eraseP {T : Solver} (i : Nat) (p : Watched → Bool) (t : List Lit)
    (h : ∀ w ∈ T.watches i, p w = true → same_lits (T.occ_lits ⟨Lit.toLit i, w⟩) t) :
    T.RemStep (T.setWatches i ((T.watches i).eraseP p)) t where
  alloc := rfl
  nVars := rfl
  sub := by
    intro j w hw
    rcases mem_setWatches.1 hw with ⟨rfl, hw⟩ | ⟨_, hw⟩
    · exact List.mem_of_mem_eraseP hw
    · exact hw
  erased := by
    intro j w hw
    by_cases hj : j = i
    · subst hj
      by_cases hv : p w = true
      · exact Or.inr (h w hw hv)
      · exact Or.inl (mem_setWatches.2 (Or.inl ⟨rfl, (List.mem_eraseP_of_neg hv).2 hw⟩))
    · exact Or.inl (mem_setWatches.2 (Or.inr ⟨hj, hw⟩))

theorem remStep_detach_bin_clause (T : Solver) (a b : Lit) (r : Bool) (t : List Lit)
    (h : same_lits [a, b] t) : T.RemStep (T.detach_bin_clause a b r) t := by
  unfold Solver.detach_bin_clause
  refine remStep_trans (remStep_trans (remStep_erase a.toInt (.binary b r) t ?_)
    (remStep_erase b.toInt (.binary a r) t ?_)) (remStep_log _ t)
  · simpa [occ_lits, Lit.toLit_toInt] using h
  · simp only [occ_lits, Lit.toLit_toInt]
    refine ⟨fun l hl => h.1 l ?_, fun l hl => ?_⟩
    · simp at hl ⊢; tauto
    · have := h.2 l hl
      simp at this ⊢; tauto

theorem remStep_detach_tri_clause (T : Solver) (a b c : Lit) (r : Bool) (t : List Lit)
    (h : same_lits [a, b, c] t) : T.RemStep (T.detach_tri_clause a b c r) t := by
  unfold Solver.detach_tri_clause
  refine remStep_trans (remStep_trans (remStep_trans
    (remStep_erase a.toInt (.tertiary b c r) t ?_)
    (remStep_erase b.toInt (.tertiary a c r) t ?_))
    (remStep_erase c.toInt (.tertiary a b r) t ?_)) (remStep_log _ t)
  · simpa [occ_lits, Lit.toLit_toInt] using h
  · simp only [occ_lits, Lit.toLit_toInt]
    refine ⟨fun l hl => h.1 l ?_, fun l hl => ?_⟩
    · simp at hl ⊢; tauto
    · have := h.2 l hl
      simp at this ⊢; tauto
  · simp only [occ_lits, Lit.toLit_toInt]
    refine ⟨fun l hl => h.1 l ?_, fun l hl => ?_⟩
    · simp at hl ⊢; tauto
    · have := h.2 l hl
      simp at this ⊢; tauto

theorem remStep_foldl_eraseP (o : Nat) (t : List Lit) (ls : List Lit) :
    ∀ (T : Solver), same_lits (T.ptr o).lits t →
      T.RemStep (ls.foldl (fun T l => T.setWatches l.toInt
        ((T.watches l.toInt).eraseP (fun w => w.isClause && w.get_offset == o))) T) t := by
  induction ls with
  | nil => intro T _; exact remStep_refl T t
  | cons a rest ih =>
    intro T h
    simp only [List.foldl_cons]
    have h1 : T.RemStep (T.setWatches a.toInt
        ((T.watches a.toInt).eraseP (fun w => w.isClause && w.get_offset == o))) t := by
      apply remStep_eraseP
      intro w _ hp
      cases w with
      | binary _ _ => simp [Watched.isClause] at hp
      | tertiary _ _ _ => simp [Watched.isClause] at hp
      | clause o' blk =>
        simp [Watched.isClause, Watched.get_offset] at hp
        subst hp
        simpa [occ_lits] using h
    exact remStep_trans h1 (ih _ (by rw [ptr_congr h1.alloc]; exact h))

theorem remStep_unlink_clause (T : Solver) (o : Nat) (t : List Lit)
    (h : same_lits (T.ptr o).lits t) : T.RemStep (T.unlink_clause o) t := by
  unfold Solver.unlink_clause
  exact remStep_trans (remStep_foldl_eraseP o t _ T h) (remStep_log _ t)

end Solver

theorem same_lits_of_perm {s t : List Lit} (h : s.Perm t) : same_lits s t :=
  ⟨fun _ hl => h.mem_iff.1 hl, fun _ hl => h.mem_iff.2 hl⟩

/-- A list without repetitions that is contained in a list of the same length holds the
same elements. -/
theorem same_lits_of_nodup_subset {s t : List Lit} (hn : s.Nodup) (hsub : ∀ l ∈ s, l ∈ t)
    (hlen : s.length = t.length) : same_lits s t := by
  have hsp : s.Subperm t := hn.subperm hsub
  have hp : s.Perm t := hsp.perm_of_length_le (le_of_eq hlen.symm)
  exact same_lits_of_perm hp

theorem BVA.remove_matching_clause_long (B : BVA) (cl : m_cls_lits_and_red) (lj : lit_pair)
    (h2 : (BVA.to_remove_lits cl lj).length ≠ 2) (h3 : (BVA.to_remove_lits cl lj).length ≠ 3) :
    B.remove_matching_clause cl lj =
      match (({ B with to_remove := BVA.to_remove_lits cl lj }).touch
          (BVA.to_remove_lits cl lj)).find_cl_for_bva (BVA.to_remove_lits cl lj) cl.red with
      | (B2, some cl_new) => some { B2 with solver := B2.solver.unlink_clause cl_new }
      | (_, none) => none := by
  unfold BVA.remove_matching_clause
  simp only []
  split
  · rename_i a b heq
    rw [heq] at h2
    simp at h2
  · rename_i a b c heq
    rw [heq] at h3
    simp at h3
  · rfl

/-- One call of `remove_matching_clause` succeeds and takes out only entries that stand for
the clause `to_remove`. -/
theorem BVA.remove_matching_clause_step (B : BVA) (cl : m_cls_lits_and_red) (lj : lit_pair)
    (hs : ∀ i, B.seen i = 0)
    (hm : (BVA.to_remove_lits cl lj).length ≠ 2 → (BVA.to_remove_lits cl lj).length ≠ 3 →
      B.solver.LongMatch (BVA.to_remove_lits cl lj) cl.red)
    (hn : ∀ w ∈ B.solver.watches ((BVA.to_remove_lits cl lj).headD lit_Undef).toInt,
      w.isClause = true → (∀ l ∈ (B.solver.ptr w.get_offset).lits, l ∈ BVA.to_remove_lits cl lj) →
      (B.solver.ptr w.get_offset).lits.Nodup) :
    ∃ B', B.remove_matching_clause cl lj = some B'
      ∧ B.solver.RemStep B'.solver (BVA.to_remove_lits cl lj)
      ∧ (∀ i, B'.seen i = 0) ∧ B'.m_cls_lits = B.m_cls_lits ∧ B'.m_lits = B.m_lits := by
  by_cases h2 : (BVA.to_remove_lits cl lj).length = 2
  · unfold BVA.remove_matching_clause
    simp only []
    generalize BVA.to_remove_lits cl lj = torem at h2 ⊢
    match torem, h2 with
    | [a, b], _ =>
      exact ⟨_, rfl, Solver.remStep_detach_bin_clause _ a b false _ ⟨fun _ h => h, fun _ h => h⟩,
        hs, rfl, rfl⟩
  · by_cases h3 : (BVA.to_remove_lits cl lj).length = 3
    · unfold BVA.remove_matching_clause
      simp only []
      generalize BVA.to_remove_lits cl lj = torem at h3 ⊢
      match torem, h3 with
      | [a, b, c], _ =>
        simp only []
        have hperm := List.perm_insertionSort Lit.le [a, b, c]
        generalize List.insertionSort Lit.le [a, b, c] = ps at hperm
        have hlen := hperm.length_eq
        match ps, hperm, hlen with
        | [a', b', c'], hperm, _ =>
          exact ⟨_, rfl, Solver.remStep_detach_tri_clause _ a' b' c' false _
            (same_lits_of_perm hperm), hs, rfl, rfl⟩
    · rw [BVA.remove_matching_clause_long B cl lj h2 h3]
      have hs1 : ∀ i, (({ B with to_remove := BVA.to_remove_lits cl lj }).touch
          (BVA.to_remove_lits cl lj)).seen i = 0 := hs
      obtain ⟨w, hw, q0, q1, q2, q3, q4, q5⟩ :=
        BVA.find_cl_for_bva_spec (({ B with to_remove := BVA.to_remove_lits cl lj }).touch
          (BVA.to_remove_lits cl lj)) (BVA.to_remove_lits cl lj) cl.red hs1 (hm h2 h3)
      have hnd := hn w hw q1 q4
      have hsame : same_lits (B.solver.ptr w.get_offset).lits (BVA.to_remove_lits cl lj) :=
        same_lits_of_nodup_subset hnd q4 q3
      generalize hr : (({ B with to_remove := BVA.to_remove_lits cl lj }).touch
          (BVA.to_remove_lits cl lj)).find_cl_for_bva (BVA.to_remove_lits cl lj) cl.red = r
        at q0 q5
      obtain ⟨B2, o⟩ := r
      simp only at q0
      subst q0
      have hB2 : B2 = ((({ B with to_remove := BVA.to_remove_lits cl lj }).touch
          (BVA.to_remove_lits cl lj)).find_cl_for_bva (BVA.to_remove_lits cl lj) cl.red).1 := by
        rw [hr]
      have hsol : B2.solver = B.solver := by rw [hB2]; rfl
      refine ⟨_, rfl, ?_, q5, ?_, ?_⟩
      · show B.solver.RemStep (B2.solver.unlink_clause w.get_offset) _
        rw [hsol]
        exact Solver.remStep_unlink_clause _ _ _ hsame
      · show B2.m_cls_lits = _
        rw [hB2]; rfl
      · show B2.m_lits = _
        rw [hB2]; rfl

theorem same_lits_symm {s t : List Lit} (h : same_lits s t) : same_lits t s := ⟨h.2, h.1⟩

theorem same_lits_trans {s t u : List Lit} (h1 : same_lits s t) (h2 : same_lits t u) :
    same_lits s u :=
  ⟨fun l hl => h2.1 l (h1.1 l hl), fun l hl => h1.2 l (h2.2 l hl)⟩

namespace Solver

theorem remInv_step {T0 T T' : Solver} {done : List (List Lit)} {t : List Lit}
    (h : T0.RemInv T done) (hs : T.RemStep T' t) : T0.RemInv T' (done ++ [t]) where
  alloc := hs.alloc.trans h.alloc
  nVars := hs.nVars.trans h.nVars
  sub := fun j w hw => h.sub j w (hs.sub j w hw)
  erased := by
    intro j w hw
    rcases h.erased j w hw with hw | ⟨u, hu, hsame⟩
    · rcases hs.erased j w hw with hw | hsame
      · exact Or.inl hw
      · right
        rw [occ_lits_congr h.alloc] at hsame
        exact ⟨t, by simp, hsame⟩
    · exact Or.inr ⟨u, List.mem_append_left _ hu, hsame⟩

theorem occ_lits_of_isClause (T : Solver) (l : Lit) {w : Watched} (h : w.isClause = true) :
    T.occ_lits ⟨l, w⟩ = (T.ptr w.get_offset).lits := by
  cases w with
  | binary _ _ => simp [Watched.isClause] at h
  | tertiary _ _ _ => simp [Watched.isClause] at h
  | clause o blk => rfl

end Solver

theorem BVA.remove_matching_clauses_for_inv (T0 : Solver) (lj : lit_pair)
    (cls : List m_cls_lits_and_red) :
    ∀ (B : BVA) (done : List (List Lit)),
      T0.RemInv B.solver done → (∀ i, B.seen i = 0) →
      (∀ cl ∈ cls, (BVA.to_remove_lits cl lj).length ≠ 2 →
        (BVA.to_remove_lits cl lj).length ≠ 3 → T0.LongMatch (BVA.to_remove_lits cl lj) cl.red) →
      (∀ cl ∈ cls, T0.NodupWithin (BVA.to_remove_lits cl lj)) →
      (done ++ cls.map (fun cl => BVA.to_remove_lits cl lj)).Pairwise
        (fun s t => ¬ same_lits s t) →
      ∃ B', BVA.remove_matching_clauses_for lj B cls = some B'
        ∧ T0.RemInv B'.solver (done ++ cls.map (fun cl => BVA.to_remove_lits cl lj))
        ∧ (∀ i, B'.seen i = 0) ∧ B'.m_cls_lits = B.m_cls_lits ∧ B'.m_lits = B.m_lits := by
  induction cls with
  | nil =>
    intro B done h hs _ _ _
    exact ⟨B, rfl, by simpa using h, hs, rfl, rfl⟩
  | cons cl rest ih =>
    intro B done h hs hm hn hp
    have hm' : (BVA.to_remove_lits cl lj).length ≠ 2 → (BVA.to_remove_lits cl lj).length ≠ 3 →
        B.solver.LongMatch (BVA.to_remove_lits cl lj) cl.red := by
      intro h2 h3
      obtain ⟨w0, hw0, p1, p2, p3, p4⟩ := hm cl (List.mem_cons_self _ _) h2 h3
      have hnd := hn cl (List.mem_cons_self _ _) _ w0 hw0 p1 p4
      rcases h.erased _ w0 hw0 with hw | ⟨t, ht, hsame⟩
      · refine ⟨w0, hw, p1, ?_, ?_, ?_⟩
        · rw [Solver.ptr_congr h.alloc]; exact p2
        · rw [Solver.ptr_congr h.alloc]; exact p3
        · rw [Solver.ptr_congr h.alloc]; exact p4
      · exfalso
        rw [Solver.occ_lits_of_isClause T0 _ p1] at hsame
        have hs2 : same_lits (T0.ptr w0.get_offset).lits (BVA.to_remove_lits cl lj) :=
          same_lits_of_nodup_subset hnd p4 p3
        have hbad : same_lits t (BVA.to_remove_lits cl lj) := same_lits_trans (same_lits_symm hsame) hs2
        rw [List.pairwise_append] at hp
        exact hp.2.2 t ht _ (by simp) hbad
    have hn' : ∀ w ∈ B.solver.watches ((BVA.to_remove_lits cl lj).headD lit_Undef).toInt,
        w.isClause = true →
        (∀ l ∈ (B.solver.ptr w.get_offset).lits, l ∈ BVA.to_remove_lits cl lj) →
        (B.solver.ptr w.get_offset).lits.Nodup := by
      intro w hw hc hsub
      rw [Solver.ptr_congr h.alloc] at hsub ⊢
      exact hn cl (List.mem_cons_self _ _) _ w (h.sub _ w hw) hc hsub
    obtain ⟨B1, e1, hstep, hs1, f1, f2⟩ := BVA.remove_matching_clause_step B cl lj hs hm' hn'
    have hp' : ((done ++ [BVA.to_remove_lits cl lj])
        ++ rest.map (fun cl => BVA.to_remove_lits cl lj)).Pairwise
        (fun s t => ¬ same_lits s t) := by
      simpa using hp
    obtain ⟨B2, e2, hinv, hs2, g1, g2⟩ := ih B1 _ (Solver.remInv_step h hstep) hs1
      (fun c hc => hm c (List.mem_cons_of_mem _ hc))
      (fun c hc => hn c (List.mem_cons_of_mem _ hc)) hp'
    refine ⟨B2, ?_, by simpa using hinv, hs2, g1.trans f1, g2.trans f2⟩
    simp only [BVA.remove_matching_clauses_for, e1]
    exact e2

theorem BVA.remove_matching_clauses_inv (T0 : Solver) (cls : List m_cls_lits_and_red)
    (ljs : List lit_pair) :
    ∀ (B : BVA) (done : List (List Lit)),
      B.m_cls_lits = cls →
      T0.RemInv B.solver done → (∀ i, B.seen i = 0) →
      (∀ lj ∈ ljs, ∀ cl ∈ cls, (BVA.to_remove_lits cl lj).length ≠ 2 →
        (BVA.to_remove_lits cl lj).length ≠ 3 → T0.LongMatch (BVA.to_remove_lits cl lj) cl.red) →
      (∀ lj ∈ ljs, ∀ cl ∈ cls, T0.NodupWithin (BVA.to_remove_lits cl lj)) →
      (done ++ ljs.flatMap (fun lj => cls.map (fun cl => BVA.to_remove_lits cl lj))).Pairwise
        (fun s t => ¬ same_lits s t) →
      ∃ B', BVA.remove_matching_clauses B ljs = some B'
        ∧ T0.RemInv B'.solver
            (done ++ ljs.flatMap (fun lj => cls.map (fun cl => BVA.to_remove_lits cl lj)))
        ∧ (∀ i, B'.seen i = 0) := by
  induction ljs with
  | nil =>
    intro B done _ h hs _ _ _
    exact ⟨B, rfl, by simpa using h, hs⟩
  | cons lj rest ih =>
    intro B done hcls h hs hm hn hp
    have hp1 : (done ++ cls.map (fun cl => BVA.to_remove_lits cl lj)).Pairwise
        (fun s t => ¬ same_lits s t) := by
      simp only [List.flatMap_cons, ← List.append_assoc] at hp
      exact (List.pairwise_append.1 hp).1
    obtain ⟨B1, e1, hinv, hs1, f1, _⟩ := BVA.remove_matching_clauses_for_inv T0 lj cls B done h hs
      (hm lj (List.mem_cons_self _ _)) (hn lj (List.mem_cons_self _ _)) hp1
    have hp2 : ((done ++ cls.map (fun cl => BVA.to_remove_lits cl lj))
        ++ rest.flatMap (fun lj => cls.map (fun cl => BVA.to_remove_lits cl lj))).Pairwise
        (fun s t => ¬ same_lits s t) := by
      simpa [List.flatMap_cons] using hp
    obtain ⟨B2, e2, hinv2, hs2⟩ := ih B1 _ (f1.trans hcls) hinv hs1
      (fun l hl => hm l (List.mem_cons_of_mem _ hl))
      (fun l hl => hn l (List.mem_cons_of_mem _ hl)) hp2
    refine ⟨B2, ?_, by simpa [List.flatMap_cons] using hinv2, hs2⟩
    simp only [BVA.remove_matching_clauses, hcls, e1]
    exact e2

/-! ## Equisatisfiability of `bva_simplify_system` -/

namespace BVA.Ready

variable {B : BVA}

theorem index_lt (h : B.Ready) {i : Nat} {w : Watched} (hw : w ∈ B.solver.watches i) :
    i < 2 * B.solver.nVars := by
  by_contra hc
  rw [h.watches_size i (by omega)] at hw
  simp at hw

theorem matched_bounded (h : B.Ready) {t : List Lit} (ht : t ∈ B.matched_clauses) :
    ∀ l ∈ t, l.var < B.solver.nVars := by
  obtain ⟨i, hi, w, hw, _, h1, h2⟩ := h.matched t ht
  intro l hl
  exact h.vars_bounded i hi w hw l (h2 l hl)

theorem matched_sat (h : B.Ready) {t : List Lit} (ht : t ∈ B.matched_clauses)
    {σ : Nat → Bool} (hσ : B.solver.models σ) : clause_sat σ t := by
  obtain ⟨i, hi, w, hw, hr, h1, h2⟩ := h.matched t ht
  exact clause_sat_mono h1 (hσ i w hw hr)

theorem m_cls_valid (h : B.Ready) {cl : OccurClause} (hc : cl ∈ B.m_cls)
    (hl : cl.ws.isClause = true) : cl.ws.get_offset < B.solver.cl_alloc.length :=
  h.offsets_valid _ (h.index_lt (h.m_cls_watched cl hc)) _ (h.m_cls_watched cl hc) hl

theorem mem_matched {lj : lit_pair} {cl : OccurClause} (hl : lj ∈ B.m_lits)
    (hc : cl ∈ B.m_cls) :
    BVA.to_remove_lits (BVA.cls_lits_and_red B.solver cl) lj ∈ B.matched_clauses := by
  simp only [BVA.matched_clauses, List.mem_flatMap, List.mem_map]
  exact ⟨lj, hl, cl, hc, rfl⟩

theorem addInv_new_var (h : B.Ready) : B.solver.AddInv B.bva_new_var.solver [] where
  alloc := List.prefix_refl _
  nVars := rfl
  old := by
    intro j w hw
    have hj := h.index_lt hw
    show w ∈ ((B.solver.setWatches (2 * B.solver.nVars) []).setWatches
      (2 * B.solver.nVars + 1) []).watches j
    rw [Solver.mem_setWatches]
    right
    refine ⟨by omega, ?_⟩
    rw [Solver.mem_setWatches]
    exact Or.inr ⟨by omega, hw⟩
  entries := by
    intro j w hw
    left
    have hw' : w ∈ ((B.solver.setWatches (2 * B.solver.nVars) []).setWatches
      (2 * B.solver.nVars + 1) []).watches j := hw
    rw [Solver.mem_setWatches] at hw'
    rcases hw' with ⟨_, hw'⟩ | ⟨_, hw'⟩
    · simp at hw'
    · rw [Solver.mem_setWatches] at hw'
      rcases hw' with ⟨_, hw'⟩ | ⟨_, hw'⟩
      · simp at hw'
      · exact hw'
  valid := by
    intro j w hw hc
    have hw' : w ∈ ((B.solver.setWatches (2 * B.solver.nVars) []).setWatches
      (2 * B.solver.nVars + 1) []).watches j := hw
    rw [Solver.mem_setWatches] at hw'
    rcases hw' with ⟨_, hw'⟩ | ⟨_, hw'⟩
    · simp at hw'
    · rw [Solver.mem_setWatches] at hw'
      rcases hw' with ⟨_, hw'⟩ | ⟨_, hw'⟩
      · simp at hw'
      · exact h.offsets_valid j (h.index_lt hw') w hw' hc
  present := by
    intro _ c hc
    simp at hc

end BVA.Ready

/-- The literals of a clause of `m_cls` other than the pivot occur in the clause built by
`add_longer_clause`. -/
theorem BVA.cls_lits_subset_longer (S : Solver) (x : Lit) (cl : OccurClause) :
    ∀ l ∈ (BVA.cls_lits_and_red S cl).lits, l ∈ BVA.longer_clause_lits S x cl := by
  obtain ⟨p, w⟩ := cl
  cases w with
  | binary l2 r => intro l hl; simp [BVA.cls_lits_and_red] at hl; simp [BVA.longer_clause_lits, hl]
  | tertiary l2 l3 r =>
    intro l hl
    simp [BVA.cls_lits_and_red] at hl
    simp [BVA.longer_clause_lits]
    tauto
  | clause o blk =>
    intro l hl
    simp only [BVA.cls_lits_and_red, List.mem_filter, bne_iff_ne, ne_eq] at hl
    simp only [BVA.longer_clause_lits, List.mem_map]
    exact ⟨l, hl.1, by simp [Ne.symm hl.2]⟩

/-- Every literal of the clause built by `add_longer_clause` is the new literal or a
literal of the clause other than the pivot. -/
theorem BVA.longer_subset_cls_lits (S : Solver) (x : Lit) (cl : OccurClause) :
    ∀ l ∈ BVA.longer_clause_lits S x cl, l = x ∨ l ∈ (BVA.cls_lits_and_red S cl).lits := by
  obtain ⟨p, w⟩ := cl
  cases w with
  | binary l2 r => intro l hl; simpa [BVA.longer_clause_lits, BVA.cls_lits_and_red] using hl
  | tertiary l2 l3 r =>
    intro l hl; simpa [BVA.longer_clause_lits, BVA.cls_lits_and_red] using hl
  | clause o blk =>
    intro l hl
    simp only [BVA.longer_clause_lits, List.mem_map] at hl
    obtain ⟨l0, hl0, he⟩ := hl
    by_cases hp : l0 = p
    · left; simpa [hp] using he.symm
    · right
      simp only [hp, ite_false] at he
      subst he
      simp only [BVA.cls_lits_and_red, List.mem_filter, bne_iff_ne, ne_eq]
      exact ⟨hl0, fun h => hp h.symm⟩

/-- The new literal occurs in the clause built by `add_longer_clause` when the pivot is a
literal of the clause. -/
theorem BVA.new_lit_mem_longer (S : Solver) (x : Lit) (cl : OccurClause)
    (h : cl.lit ∈ S.occ_lits cl) : x ∈ BVA.longer_clause_lits S x cl := by
  obtain ⟨p, w⟩ := cl
  cases w with
  | binary l2 r => simp [BVA.longer_clause_lits]
  | tertiary l2 l3 r => simp [BVA.longer_clause_lits]
  | clause o blk =>
    simp only [Solver.occ_lits] at h
    simp only [BVA.longer_clause_lits, List.mem_map]
    exact ⟨p, h, by simp⟩

theorem BVA.cls_lits_and_red_of_alloc_grows {S T : Solver} (h : S.cl_alloc <+: T.cl_alloc)
    {cl : OccurClause} (hv : cl.ws.isClause = true → cl.ws.get_offset < S.cl_alloc.length) :
    BVA.cls_lits_and_red T cl = BVA.cls_lits_and_red S cl := by
  obtain ⟨p, w⟩ := cl
  cases w with
  | binary _ _ => rfl
  | tertiary _ _ _ => rfl
  | clause o blk =>
    have := Solver.ptr_of_alloc_grows h (hv rfl)
    simp only [Watched.get_offset] at this
    simp only [BVA.cls_lits_and_red, this]

namespace BVA.Ready

variable {B : BVA}

theorem m_lits_var_lt (h : B.Ready) {lj : lit_pair} (hl : lj ∈ B.m_lits) :
    ∀ l ∈ lj.lits, l.var < B.solver.nVars := by
  intro l hm
  obtain ⟨h1, h2⟩ := h.m_lits_bounded lj hl
  simp only [lit_pair.lits] at hm
  by_cases hu : lj.lit2 = lit_Undef
  · simp [hu] at hm
    rw [hm]; exact h1
  · simp [hu] at hm
    rcases hm with rfl | rfl
    · exact h1
    · exact h2 hu

/-- The clauses that `bva_simplify_system` adds: for each entry of `m_lits` its literals
with the positive new literal, for each entry of `m_cls` the clause with the negative new
literal in the place of the pivot. -/
theorem exists_value (h : B.Ready) {σ : Nat → Bool} (hσ : B.solver.models σ) :
    ∃ b : Bool, ∀ c ∈ B.m_lits.map (BVA.binary_clause_lits ⟨B.solver.nVars, false⟩)
        ++ B.m_cls.map (BVA.longer_clause_lits B.solver (Lit.neg ⟨B.solver.nVars, false⟩)),
      clause_sat (Function.update σ B.solver.nVars b) c := by
  by_cases hall : ∀ lj ∈ B.m_lits, clause_sat σ lj.lits
  · refine ⟨false, ?_⟩
    intro c hc
    rcases List.mem_append.1 hc with hc | hc
    · obtain ⟨lj, hlj, rfl⟩ := List.mem_map.1 hc
      have hs := hall lj hlj
      have hb := h.m_lits_var_lt hlj
      have : clause_sat (Function.update σ B.solver.nVars false) lj.lits :=
        (clause_sat_update (fun l hl => Nat.ne_of_lt (hb l hl))).2 hs
      exact clause_sat_mono (fun l hl => List.mem_append_left _ hl) this
    · obtain ⟨cl, hcl, rfl⟩ := List.mem_map.1 hc
      refine ⟨_, BVA.new_lit_mem_longer _ _ cl (h.m_cls_pivot cl hcl), ?_⟩
      simp [Lit.eval, Lit.neg]
  · refine ⟨true, ?_⟩
    intro c hc
    rcases List.mem_append.1 hc with hc | hc
    · obtain ⟨lj, hlj, rfl⟩ := List.mem_map.1 hc
      refine ⟨⟨B.solver.nVars, false⟩, by simp [BVA.binary_clause_lits], ?_⟩
      simp [Lit.eval]
    · obtain ⟨cl, hcl, rfl⟩ := List.mem_map.1 hc
      simp only [not_forall] at hall
      obtain ⟨lj, hlj, hns⟩ := hall
      have hm := mem_matched hlj hcl
      obtain ⟨l, hl, he⟩ := h.matched_sat hm hσ
      have hb := h.matched_bounded hm l hl
      simp only [BVA.to_remove_lits, List.mem_append] at hl
      rcases hl with hl | hl
      · exact absurd ⟨l, hl, he⟩ hns
      · refine ⟨l, BVA.cls_lits_subset_longer _ _ cl l hl, ?_⟩
        rw [Lit.eval_update_of_ne σ _ _ (Nat.ne_of_lt hb)]
        exact he

end BVA.Ready

/-- Resolution on the new variable: the two clauses added for `ℓⱼ` and `Cᵢ` imply the
matched clause `(Cᵢ \ {ℓ}) ∪ ℓⱼ`. -/
theorem BVA.resolve_added (S : Solver) (n : Nat) (lj : lit_pair) (cl : OccurClause)
    {τ : Nat → Bool}
    (h1 : clause_sat τ (BVA.binary_clause_lits ⟨n, false⟩ lj))
    (h2 : clause_sat τ (BVA.longer_clause_lits S (Lit.neg ⟨n, false⟩) cl)) :
    clause_sat τ (BVA.to_remove_lits (BVA.cls_lits_and_red S cl) lj) := by
  obtain ⟨l1, hl1, he1⟩ := h1
  obtain ⟨l2, hl2, he2⟩ := h2
  simp only [BVA.binary_clause_lits, List.mem_append, List.mem_singleton] at hl1
  rcases hl1 with hl1 | rfl
  · exact ⟨l1, List.mem_append_left _ hl1, he1⟩
  · rcases BVA.longer_subset_cls_lits S _ cl l2 hl2 with rfl | hl2
    · simp [Lit.eval, Lit.neg] at he1 he2
      rw [he1] at he2
      exact absurd he2 (by simp)
    · exact ⟨l2, List.mem_append_right _ hl2, he2⟩

namespace Solver

/-- Forward direction: an assignment that satisfies the formula of `S` and the added
clauses satisfies the formula after the additions. -/
theorem addInv_models_forward {S T : Solver} {issued : List (List Lit)} (h : S.AddInv T issued)
    {σ τ : Nat → Bool} (hσ : S.models σ)
    (hback : ∀ j, ∀ w ∈ S.watches j, clause_sat σ (S.occ_lits ⟨Lit.toLit j, w⟩) →
      clause_sat τ (S.occ_lits ⟨Lit.toLit j, w⟩))
    (hv : ∀ j, ∀ w ∈ S.watches j, w.isClause = true → w.get_offset < S.cl_alloc.length)
    (hc : ∀ c ∈ issued, clause_sat τ c) : T.models τ := by
  intro j w hw hr
  rcases h.entries j w hw with hw0 | ⟨c, hcm, hd⟩
  · have e1 := @occ_lits_of_alloc_grows _ _ h.alloc ⟨Lit.toLit j, w⟩ (hv j w hw0)
    have e2 := @redundant_of_alloc_grows _ _ h.alloc w (hv j w hw0)
    rw [e1]
    exact hback j w hw0 (hσ j w hw0 (e2 ▸ hr))
  · exact clause_sat_mono hd.2.1 (hc c hcm)

/-- Backward direction without removals: the old clauses are still there. -/
theorem addInv_models_backward {S T : Solver} {issued : List (List Lit)} (h : S.AddInv T issued)
    {σ τ : Nat → Bool} (hτ : T.models τ)
    (hback : ∀ j, ∀ w ∈ S.watches j, clause_sat τ (S.occ_lits ⟨Lit.toLit j, w⟩) →
      clause_sat σ (S.occ_lits ⟨Lit.toLit j, w⟩))
    (hv : ∀ j, ∀ w ∈ S.watches j, w.isClause = true → w.get_offset < S.cl_alloc.length) :
    S.models σ := by
  intro j w hw hr
  have e1 := @occ_lits_of_alloc_grows _ _ h.alloc ⟨Lit.toLit j, w⟩ (hv j w hw)
  have e2 := @redundant_of_alloc_grows _ _ h.alloc w (hv j w hw)
  apply hback j w hw
  rw [← e1]
  exact hτ j w (h.old j w hw) (e2.trans hr)

theorem remInv_models_forward {T0 T : Solver} {done : List (List Lit)} (h : T0.RemInv T done)
    {τ : Nat → Bool} (hτ : T0.models τ) : T.models τ := by
  intro j w hw hr
  rw [occ_lits_congr h.alloc]
  exact hτ j w (h.sub j w hw) ((redundant_congr h.alloc w).symm.trans hr)

end Solver

theorem Solver.remInv_refl (T : Solver) : T.RemInv T [] :=
  ⟨rfl, rfl, fun _ _ h => h, fun _ _ h => Or.inl h⟩

theorem BVA.longer_clause_lits_length (S : Solver) (x : Lit) (cl : OccurClause)
    (h : cl.ws.isClause = true → 2 ≤ (S.ptr cl.ws.get_offset).lits.length) :
    2 ≤ (BVA.longer_clause_lits S x cl).length := by
  obtain ⟨p, w⟩ := cl
  cases w with
  | binary _ _ => simp [BVA.longer_clause_lits]
  | tertiary _ _ _ => simp [BVA.longer_clause_lits]
  | clause o blk => simpa [BVA.longer_clause_lits] using h rfl

/-- A clause that was added over the new variable is still in the solver after the removal
loops, so an assignment that satisfies the final formula satisfies it. -/
theorem Solver.added_clause_sat {S T0 T : Solver} {issued done : List (List Lit)}
    (I : S.AddInv T0 issued) (R : T0.RemInv T done) (hok : T0.ok = true)
    (hdone : ∀ t ∈ done, ∀ l ∈ t, l.var < S.nVars)
    {c : List Lit} (hc : c ∈ issued) (hlen : 2 ≤ c.length) (hx : ∃ l ∈ c, l.var = S.nVars)
    {τ : Nat → Bool} (hτ : T.models τ) : clause_sat τ c := by
  obtain ⟨j, w, hw, hd⟩ := I.present hok c hc hlen
  rcases R.erased j w hw with hw' | ⟨t, ht, hsame⟩
  · have := hτ j w hw' ((Solver.redundant_congr R.alloc w).trans hd.1)
    rw [Solver.occ_lits_congr R.alloc] at this
    exact clause_sat_mono hd.2.2.1 this
  · exfalso
    obtain ⟨l, hl, hvar⟩ := hx
    have := hdone t ht l (hsame.1 l (hd.2.1 l hl))
    omega

theorem BVA.bva_simplify_system_of_false {E : Env} {B B3 : BVA}
    (hadd : BVA.add_longer_clauses E (Lit.neg ⟨B.solver.nVars, false⟩)
      (BVA.add_binary_clauses E ⟨B.solver.nVars, false⟩ B.bva_new_var) B.m_cls = (B3, false)) :
    BVA.bva_simplify_system E B = some (B3, false) := by
  unfold BVA.bva_simplify_system
  simp only [BVA.bva_new_var_nVars]
  have hm : (BVA.add_binary_clauses E ⟨B.solver.nVars, false⟩ B.bva_new_var).m_cls = B.m_cls :=
    (BVA.add_binary_clauses_frame E _ _).2.2.1
  rw [hm, hadd]

theorem BVA.bva_simplify_system_of_true {E : Env} {B B3 B5 : BVA}
    (hadd : BVA.add_longer_clauses E (Lit.neg ⟨B.solver.nVars, false⟩)
      (BVA.add_binary_clauses E ⟨B.solver.nVars, false⟩ B.bva_new_var) B.m_cls = (B3, true))
    (hrem : BVA.remove_matching_clauses B3.fill_m_cls_lits_and_red B.m_lits = some B5) :
    BVA.bva_simplify_system E B
      = some (B5.update_touched_lits_in_bva, B5.update_touched_lits_in_bva.solver.okay) := by
  unfold BVA.bva_simplify_system
  simp only [BVA.bva_new_var_nVars]
  have hm : (BVA.add_binary_clauses E ⟨B.solver.nVars, false⟩ B.bva_new_var).m_cls = B.m_cls :=
    (BVA.add_binary_clauses_frame E _ _).2.2.1
  rw [hm, hadd]
  have hl : B3.fill_m_cls_lits_and_red.m_lits = B.m_lits := by
    obtain ⟨_, _, _, _, g1, _⟩ := BVA.add_longer_clauses_trace E (Lit.neg ⟨B.solver.nVars, false⟩)
      B.m_cls (BVA.add_binary_clauses E ⟨B.solver.nVars, false⟩ B.bva_new_var)
    rw [hadd] at g1
    exact g1.trans (BVA.add_binary_clauses_frame E _ _).2.1
  simp only [hl, hrem]

/-- C1: `bva_simplify_system` preserves equisatisfiability.  In a state as described by
`BVA.Ready` (for every `ℓⱼ` of `m_lits` and `Cᵢ` of `m_cls` the clause `(Cᵢ \ {ℓ}) ∪ ℓⱼ`
is a clause of the formula `F`), the call returns, the fresh variable is `nVars`, and an
assignment satisfies `F` if and only if, with some value given to the fresh variable, it
satisfies the formula `F'` that the call leaves in the solver.  This holds also when a
clause addition makes the solver inconsistent and the call returns early. -/
theorem bva_simplify_system_equisat (E : Env) (B : BVA) (h : B.Ready) :
    ∃ B' r, BVA.bva_simplify_system E B = some (B', r)
      ∧ B'.solver.nVars = B.solver.nVars + 1
      ∧ ∀ σ : Nat → Bool,
          B.solver.models σ
            ↔ ∃ b : Bool, B'.solver.models (Function.update σ B.solver.nVars b) := by
  have hv : ∀ j, ∀ w ∈ B.solver.watches j, w.isClause = true →
      w.get_offset < B.solver.cl_alloc.length :=
    fun j w hw hc => h.offsets_valid j (h.index_lt hw) w hw hc
  have hvb : ∀ j, ∀ w ∈ B.solver.watches j, ∀ l ∈ B.solver.occ_lits ⟨Lit.toLit j, w⟩,
      l.var ≠ B.solver.nVars :=
    fun j w hw l hl => Nat.ne_of_lt (h.vars_bounded j (h.index_lt hw) w hw l hl)
  have hfw : ∀ (σ : Nat → Bool) (b : Bool), ∀ j, ∀ w ∈ B.solver.watches j,
      clause_sat σ (B.solver.occ_lits ⟨Lit.toLit j, w⟩) →
      clause_sat (Function.update σ B.solver.nVars b) (B.solver.occ_lits ⟨Lit.toLit j, w⟩) :=
    fun σ b j w hw hs => (clause_sat_update (hvb j w hw)).2 hs
  have hbw : ∀ (σ : Nat → Bool) (b : Bool), ∀ j, ∀ w ∈ B.solver.watches j,
      clause_sat (Function.update σ B.solver.nVars b) (B.solver.occ_lits ⟨Lit.toLit j, w⟩) →
      clause_sat σ (B.solver.occ_lits ⟨Lit.toLit j, w⟩) :=
    fun σ b j w hw hs => (clause_sat_update (hvb j w hw)).1 hs
  have I2 := BVA.add_binary_clauses_inv E ⟨B.solver.nVars, false⟩ B.solver B.m_lits
    B.bva_new_var [] h.addInv_new_var
  obtain ⟨more, I3, hmore, hflag⟩ := BVA.add_longer_clauses_inv E
    (Lit.neg ⟨B.solver.nVars, false⟩) B.solver B.m_cls
    (BVA.add_binary_clauses E ⟨B.solver.nVars, false⟩ B.bva_new_var) _ I2
    (fun cl hcl hc => h.m_cls_valid hcl hc)
  have hissued : ∀ c ∈ ([] ++ B.m_lits.map (BVA.binary_clause_lits ⟨B.solver.nVars, false⟩))
      ++ more, c ∈ B.m_lits.map (BVA.binary_clause_lits ⟨B.solver.nVars, false⟩)
        ++ B.m_cls.map (BVA.longer_clause_lits B.solver (Lit.neg ⟨B.solver.nVars, false⟩)) := by
    intro c hc
    simp only [List.nil_append] at hc
    rcases List.mem_append.1 hc with hc | hc
    · exact List.mem_append_left _ hc
    · exact List.mem_append_right _ (hmore c hc)
  generalize hadd : BVA.add_longer_clauses E (Lit.neg ⟨B.solver.nVars, false⟩)
    (BVA.add_binary_clauses E ⟨B.solver.nVars, false⟩ B.bva_new_var) B.m_cls = res
    at I3 hflag
  obtain ⟨B3, flag⟩ := res
  simp only at I3 hflag
  cases flag with
  | false =>
    refine ⟨B3, false, BVA.bva_simplify_system_of_false hadd, I3.nVars, ?_⟩
    intro σ
    constructor
    · intro hσ
      obtain ⟨b, hb⟩ := h.exists_value hσ
      exact ⟨b, Solver.addInv_models_forward I3 hσ (hfw σ b) hv (fun c hc => hb c (hissued c hc))⟩
    · rintro ⟨b, hb⟩
      exact Solver.addInv_models_backward I3 hb (hbw σ b) hv
  | true =>
    obtain ⟨hmore_eq, hok⟩ := hflag rfl
    subst hmore_eq
    -- frames of the addition loops
    obtain ⟨_, _, _, _, _, g2, _, g4, _⟩ := BVA.add_longer_clauses_trace E
      (Lit.neg ⟨B.solver.nVars, false⟩) B.m_cls
      (BVA.add_binary_clauses E ⟨B.solver.nVars, false⟩ B.bva_new_var)
    rw [hadd] at g2 g4
    obtain ⟨_, _, b3, _, b5, _⟩ :=
      BVA.add_binary_clauses_frame E ⟨B.solver.nVars, false⟩ B.bva_new_var
    have hcls3 : B3.m_cls = B.m_cls := g2.trans b3
    have hseen3 : ∀ i, B3.seen i = 0 := by
      intro i
      have : B3.seen = B.seen := g4.trans b5
      rw [this]; exact h.seen_clear i
    have hcls : B3.fill_m_cls_lits_and_red.m_cls_lits
        = B.m_cls.map (BVA.cls_lits_and_red B.solver) := by
      show B3.m_cls.map (BVA.cls_lits_and_red B3.solver) = _
      rw [hcls3]
      apply List.map_congr_left
      intro cl hcl
      exact BVA.cls_lits_and_red_of_alloc_grows I3.alloc (fun hc => h.m_cls_valid hcl hc)
    have hflat : B.m_lits.flatMap (fun lj => (B.m_cls.map (BVA.cls_lits_and_red B.solver)).map
        (fun cl => BVA.to_remove_lits cl lj)) = B.matched_clauses := by
      simp [BVA.matched_clauses, List.map_map, Function.comp_def]
    have hxin : ∀ c ∈ ([] ++ B.m_lits.map (BVA.binary_clause_lits ⟨B.solver.nVars, false⟩))
        ++ B.m_cls.map (BVA.longer_clause_lits B.solver (Lit.neg ⟨B.solver.nVars, false⟩)),
        ∃ l ∈ c, l.var = B.solver.nVars := by
      intro c hc
      simp only [List.nil_append] at hc
      rcases List.mem_append.1 hc with hc | hc
      · obtain ⟨lj, _, rfl⟩ := List.mem_map.1 hc
        exact ⟨⟨B.solver.nVars, false⟩, by simp [BVA.binary_clause_lits], rfl⟩
      · obtain ⟨cl, hcl, rfl⟩ := List.mem_map.1 hc
        exact ⟨_, BVA.new_lit_mem_longer _ _ cl (h.m_cls_pivot cl hcl), rfl⟩
    have hm : ∀ lj ∈ B.m_lits, ∀ cl ∈ B.m_cls.map (BVA.cls_lits_and_red B.solver),
        (BVA.to_remove_lits cl lj).length ≠ 2 → (BVA.to_remove_lits cl lj).length ≠ 3 →
        B3.solver.LongMatch (BVA.to_remove_lits cl lj) cl.red := by
      intro lj hlj cl' hcl' h2 h3
      obtain ⟨cl, hcl, rfl⟩ := List.mem_map.1 hcl'
      obtain ⟨w, hw, p1, p2, p3, p4⟩ := h.matched_long lj hlj cl hcl h2 h3
      have e := Solver.ptr_of_alloc_grows I3.alloc (hv _ w hw p1)
      exact ⟨w, I3.old _ w hw, p1, by rw [e]; exact p2, by rw [e]; exact p3,
        by rw [e]; exact p4⟩
    have hn : ∀ lj ∈ B.m_lits, ∀ cl ∈ B.m_cls.map (BVA.cls_lits_and_red B.solver),
        B3.solver.NodupWithin (BVA.to_remove_lits cl lj) := by
      intro lj hlj cl' hcl' j w hw hc hsub
      obtain ⟨cl, hcl, rfl⟩ := List.mem_map.1 hcl'
      rcases I3.entries j w hw with hw0 | ⟨c, hcm, hd⟩
      · rw [Solver.ptr_of_alloc_grows I3.alloc (hv j w hw0 hc)]
        exact h.long_nodup j (h.index_lt hw0) w hw0 hc
      · exfalso
        obtain ⟨l, hl, hvar⟩ := hxin c hcm
        have h1 := hd.2.1 l hl
        rw [Solver.occ_lits_of_isClause _ _ hc] at h1
        have := h.matched_bounded (BVA.Ready.mem_matched hlj hcl) l (hsub l h1)
        omega
    have hp : ([] ++ B.m_lits.flatMap (fun lj =>
        (B.m_cls.map (BVA.cls_lits_and_red B.solver)).map
          (fun cl => BVA.to_remove_lits cl lj))).Pairwise (fun s t => ¬ same_lits s t) := by
      rw [List.nil_append, hflat]
      exact h.matched_distinct
    obtain ⟨B5, hrem, R, _⟩ := BVA.remove_matching_clauses_inv B3.solver
      (B.m_cls.map (BVA.cls_lits_and_red B.solver)) B.m_lits B3.fill_m_cls_lits_and_red []
      hcls (Solver.remInv_refl _) hseen3 hm hn hp
    rw [List.nil_append, hflat] at R
    have R' : B3.solver.RemInv B5.solver B.matched_clauses := R
    have hsol : B5.update_touched_lits_in_bva.solver = B5.solver :=
      (BVA.update_touched_lits_in_bva_frame B5).1
    refine ⟨_, _, BVA.bva_simplify_system_of_true hadd hrem, ?_, ?_⟩
    · rw [hsol, R'.nVars]; exact I3.nVars
    · intro σ
      rw [hsol]
      constructor
      · intro hσ
        obtain ⟨b, hb⟩ := h.exists_value hσ
        exact ⟨b, Solver.remInv_models_forward R'
          (Solver.addInv_models_forward I3 hσ (hfw σ b) hv (fun c hc => hb c (hissued c hc)))⟩
      · rintro ⟨b, hb⟩
        intro j w hw hr
        apply hbw σ b j w hw
        have e1 := @Solver.occ_lits_of_alloc_grows _ _ I3.alloc ⟨Lit.toLit j, w⟩ (hv j w hw)
        have e2 := @Solver.redundant_of_alloc_grows _ _ I3.alloc w (hv j w hw)
        rcases R'.erased j w (I3.old j w hw) with hw5 | ⟨t, ht, hsame⟩
        · have := hb j w hw5 ((Solver.redundant_congr R'.alloc w).trans (e2.trans hr))
          rwa [Solver.occ_lits_congr R'.alloc, e1] at this
        · rw [e1] at hsame
          simp only [BVA.matched_clauses, List.mem_flatMap, List.mem_map] at ht
          obtain ⟨lj, hlj, cl, hcl, rfl⟩ := ht
          have hok3 : B3.solver.ok = true := hok (List.ne_nil_of_mem hcl)
          have hdone : ∀ t ∈ B.matched_clauses, ∀ l ∈ t, l.var < B.solver.nVars :=
            fun t ht => h.matched_bounded ht
          have hc1 : BVA.binary_clause_lits ⟨B.solver.nVars, false⟩ lj
              ∈ ([] ++ B.m_lits.map (BVA.binary_clause_lits ⟨B.solver.nVars, false⟩))
                ++ B.m_cls.map
                  (BVA.longer_clause_lits B.solver (Lit.neg ⟨B.solver.nVars, false⟩)) := by
            simp only [List.nil_append]
            exact List.mem_append_left _ (List.mem_map_of_mem _ hlj)
          have hc2 : BVA.longer_clause_lits B.solver (Lit.neg ⟨B.solver.nVars, false⟩) cl
              ∈ ([] ++ B.m_lits.map (BVA.binary_clause_lits ⟨B.solver.nVars, false⟩))
                ++ B.m_cls.map
                  (BVA.longer_clause_lits B.solver (Lit.neg ⟨B.solver.nVars, false⟩)) :=
            List.mem_append_right _ (List.mem_map_of_mem _ hcl)
          have s1 := Solver.added_clause_sat I3 R' hok3 hdone hc1
            (BVA.binary_clause_lits_length _ lj).1 (hxin _ hc1) hb
          have s2 := Solver.added_clause_sat I3 R' hok3 hdone hc2
            (BVA.longer_clause_lits_length _ _ cl (fun hc =>
              h.long_size _ (h.index_lt (h.m_cls_watched cl hcl)) _ (h.m_cls_watched cl hcl) hc))
            (hxin _ hc2) hb
          exact clause_sat_mono hsame.2 (BVA.resolve_added B.solver B.solver.nVars lj cl s1 s2)

theorem bva_simplify_system_equisat_witness :
    ∃ B' r, BVA.bva_simplify_system Example.env Example.bva = some (B', r)
      ∧ B'.solver.nVars = Example.bva.solver.nVars + 1
      ∧ ∀ σ : Nat → Bool,
          Example.bva.solver.models σ
            ↔ ∃ b : Bool, B'.solver.models (Function.update σ Example.bva.solver.nVars b) :=
  bva_simplify_system_equisat Example.env Example.bva Example.bva_ready

/-- C5, as stated, fails: with `|m_lits| = 2` and `|m_cls| = 3`, `simplifies_system(2)` is
true although the estimated gain stays at `1`:
`simplification_size(3, 2) = 1 = simplification_size(2, 3)`.  The state is reached by
`try_bva_on_lit(a)` on the formula of `Example2`: its greedy loop ends with
`m_lits = {a, b, h}` and `m_cls = {(a ∨ f), (a ∨ g)}`, having appended `h` in a round of
equal gain. -/
theorem simplifies_system_equal_gain_counterexample :
    Example.bva.m_lits.length = 2 ∧ Example.bva.m_cls.length = 3
    ∧ BVA.simplifies_system Example.bva 2 = true
    ∧ BVA.simplification_size (2 + 1) 2 = 1 ∧ BVA.simplification_size 2 3 = 1
    ∧ ¬ (BVA.simplification_size (2 + 1) 2 > BVA.simplification_size 2 3)
    ∧ (BVA.try_bva_on_lit_loop Example.env Example.a 10
          (BVA.try_bva_on_lit_init Example.env Example2.bva Example.a)).map
        (fun r => (r.1.m_lits, r.1.m_cls, r.2))
        = some ([lit_pair.of_lit Example.a, lit_pair.of_lit Example.b,
                  lit_pair.of_lit Example2.h],
                [⟨Example.a, .binary Example.f false⟩, ⟨Example.a, .binary Example.g false⟩],
                true) := by
  refine ⟨rfl, rfl, by decide, by decide, by decide, by decide, by decide!⟩

/-- C5, amended: `simplifies_system(num_occur)` is true only if the estimated gain does
not decrease, `simplification_size(|m_lits|+1, num_occur) ≥
simplification_size(|m_lits|, |m_cls|)`; in the first round (`|m_lits| = 1`) it is true
only if `num_occur ≥ 2`, and in the later rounds only if the new gain is positive. -/
theorem simplifies_system_gain (B : BVA) (num_occur : Nat)
    (h : B.simplifies_system num_occur = true) :
    BVA.simplification_size (B.m_lits.length + 1) num_occur
        ≥ BVA.simplification_size B.m_lits.length B.m_cls.length
    ∧ (B.m_lits.length = 1 → num_occur ≥ 2)
    ∧ (B.m_lits.length ≠ 1 → BVA.simplification_size (B.m_lits.length + 1) num_occur > 0) := by
  unfold BVA.simplifies_system at h
  by_cases h1 : B.m_lits.length = 1
  · simp only [h1, ite_true, decide_eq_true_eq] at h
    refine ⟨?_, fun _ => h, fun hn => absurd h1 hn⟩
    simp only [BVA.simplification_size, h1]
    push_cast
    have : (2 : Int) ≤ num_occur := by exact_mod_cast h
    nlinarith
  · simp only [h1, ite_false] at h
    by_cases h2 : BVA.simplification_size (↑B.m_lits.length + 1) ↑num_occur ≤ 0
    · simp [h2] at h
    · by_cases h3 : BVA.simplification_size (↑B.m_lits.length + 1) ↑num_occur
          < BVA.simplification_size ↑B.m_lits.length ↑B.m_cls.length
      · simp [h2, h3] at h
      · refine ⟨by omega, fun hn => absurd hn h1, by omega⟩

theorem simplifies_system_gain_witness :
    BVA.simplification_size (Example.bva.m_lits.length + 1) 2
        ≥ BVA.simplification_size Example.bva.m_lits.length Example.bva.m_cls.length
    ∧ (Example.bva.m_lits.length = 1 → 2 ≥ 2)
    ∧ (Example.bva.m_lits.length ≠ 1 →
        BVA.simplification_size (Example.bva.m_lits.length + 1) 2 > 0) :=
  simplifies_system_gain Example.bva 2 (by decide)

/-! ## The greedy loop of `try_bva_on_lit` -/

namespace BVA

theorem frame_refl (B : BVA) : B.Frame B := ⟨rfl, rfl, rfl, le_refl _⟩

theorem frame_trans {A B C : BVA} (h1 : A.Frame B) (h2 : B.Frame C) : A.Frame C :=
  ⟨h2.solver.trans h1.solver, h2.m_lits.trans h1.m_lits, h2.m_cls.trans h1.m_cls,
    le_trans h2.limit h1.limit⟩

theorem for_each_lit_cost_nonneg (S : Solver) (cl : OccurClause) : 0 ≤ S.for_each_lit_cost cl := by
  unfold Solver.for_each_lit_cost
  split
  · exact Int.natCast_nonneg _
  · exact le_refl _

theorem lit_diff_watches_frame (B : BVA) (a b : OccurClause) :
    B.Frame (B.lit_diff_watches a b).1 := by
  have ha := for_each_lit_cost_nonneg B.solver a
  have hb := for_each_lit_cost_nonneg B.solver b
  unfold lit_diff_watches
  simp only []
  split <;> exact ⟨rfl, rfl, rfl, by dsimp only; omega⟩

theorem least_occurring_except_frame (B : BVA) (c : OccurClause) :
    B.Frame (B.least_occurring_except c).1
    ∧ (B.least_occurring_except c).1.limit_to_decrease
        ≤ B.limit_to_decrease - (B.m_lits.length : Int) := by
  have hc := for_each_lit_cost_nonneg B.solver c
  unfold least_occurring_except
  simp only []
  exact ⟨⟨rfl, rfl, rfl, by dsimp only; omega⟩, by omega⟩

theorem fill_potential_scan_frame (E : Env) (lit : Lit) (c : OccurClause) (l_min : Lit)
    (ws : List Watched) : ∀ B : BVA, B.Frame (fill_potential_scan E lit c l_min B ws) := by
  induction ws with
  | nil => intro B; exact frame_refl B
  | cons d_ws rest ih =>
    intro B
    simp only [fill_potential_scan]
    split
    · exact frame_refl B
    · split
      · have f1 := lit_diff_watches_frame B c ⟨l_min, d_ws⟩
        split
        · have f2 := lit_diff_watches_frame (B.lit_diff_watches c ⟨l_min, d_ws⟩).1 ⟨l_min, d_ws⟩ c
          split
          · refine frame_trans (frame_trans f1 (frame_trans f2 ?_)) (ih _)
            exact ⟨rfl, rfl, rfl, by dsimp only; omega⟩
          · exact frame_trans (frame_trans f1 f2) (ih _)
        · exact frame_trans f1 (ih _)
      · exact ih B

theorem fill_potential_for_frame (E : Env) (lit : Lit) (B : BVA) (c : OccurClause) :
    B.Frame (fill_potential_for E lit B c)
    ∧ (fill_potential_for E lit B c).limit_to_decrease
        ≤ B.limit_to_decrease - (B.m_lits.length : Int) := by
  obtain ⟨f1, l1⟩ := least_occurring_except_frame B c
  unfold fill_potential_for
  simp only []
  split
  · exact ⟨f1, l1⟩
  · have hlen : 0 ≤ (((B.least_occurring_except c).1.solver.watches
        (B.least_occurring_except c).2.toInt).length : Int) * 3 := by positivity
    have hm : 0 ≤ ((B.least_occurring_except c).1.m_lits.length : Int) := Int.natCast_nonneg _
    have f3 := fill_potential_scan_frame E lit c (B.least_occurring_except c).2
      ((B.least_occurring_except c).1.solver.watches (B.least_occurring_except c).2.toInt)
      { (B.least_occurring_except c).1 with
        m_lits_this_cl := (B.least_occurring_except c).1.m_lits,
        limit_to_decrease := (B.least_occurring_except c).1.limit_to_decrease
          - ((B.least_occurring_except c).1.m_lits.length : Int)
          - (((B.least_occurring_except c).1.solver.watches
              (B.least_occurring_except c).2.toInt).length : Int) * 3,
        seen2 := mark_seen2 E (B.least_occurring_except c).1.m_lits 1
          (B.least_occurring_except c).1.seen2 }
    have hl := f3.limit
    dsimp only at hl
    have hml : ((B.least_occurring_except c).1.m_lits.length : Int) = (B.m_lits.length : Int) := by
      rw [f1.m_lits]
    refine ⟨⟨f3.solver.trans f1.solver, f3.m_lits.trans f1.m_lits, f3.m_cls.trans f1.m_cls, ?_⟩, ?_⟩
    · dsimp only
      have := f1.limit
      omega
    · dsimp only
      omega

theorem fill_potential_loop_frame (E : Env) (lit : Lit) (cls : List OccurClause) :
    ∀ B : BVA, B.Frame (fill_potential_loop E lit B cls)
      ∧ (cls ≠ [] → 0 ≤ B.limit_to_decrease →
          (fill_potential_loop E lit B cls).limit_to_decrease
            ≤ B.limit_to_decrease - (B.m_lits.length : Int)) := by
  induction cls with
  | nil => intro B; exact ⟨frame_refl B, fun h => absurd rfl h⟩
  | cons c rest ih =>
    intro B
    simp only [fill_potential_loop]
    split
    · rename_i hneg
      exact ⟨frame_refl B, fun _ h0 => absurd hneg (by omega)⟩
    · obtain ⟨f1, l1⟩ := fill_potential_for_frame E lit B c
      obtain ⟨f2, _⟩ := ih (fill_potential_for E lit B c)
      refine ⟨frame_trans f1 f2, fun _ _ => ?_⟩
      have := f2.limit
      omega

end BVA

namespace BVA

theorem most_occuring_lit_in_potential_frame (E : Env)
    (hE : ∀ (l : Int) (n : Nat), E.sub_sort_cost l n ≤ l) (B : BVA) :
    B.Frame (most_occuring_lit_in_potential E B).1 := by
  unfold most_occuring_lit_in_potential
  simp only []
  by_cases h : B.potential.length > 1
  · simp only [h, ite_true]
    split <;> exact ⟨rfl, rfl, rfl, hE _ _⟩
  · simp only [h, ite_false]
    split <;> exact frame_refl B

theorem most_occuring_lit_in_potential_nil (E : Env) (B : BVA) (h : B.potential = []) :
    (most_occuring_lit_in_potential E B).2.2 = 0 := by
  unfold most_occuring_lit_in_potential
  simp [h]

theorem simplifies_system_zero (B : BVA) : B.simplifies_system 0 = false := by
  unfold simplifies_system
  split
  · simp
  · dsimp only
    split
    · rfl
    · rename_i hpos
      exfalso
      apply hpos
      simp only [simplification_size]
      push_cast
      have := Int.natCast_nonneg B.m_lits.length
      nlinarith

theorem simplifies_system_congr {A B : BVA} (h1 : B.m_lits = A.m_lits) (h2 : B.m_cls = A.m_cls)
    (n : Nat) : B.simplifies_system n = A.simplifies_system n := by
  unfold simplifies_system
  rw [h1, h2]

theorem fill_potential_of_m_cls_nil (E : Env) (B : BVA) (lit : Lit) (h : B.m_cls = []) :
    fill_potential E B lit = B := by
  unfold fill_potential
  rw [h]
  rfl

/-- The greedy loop ends: with `fuel` above the budget it returns, and it leaves the solver
as it is. -/
theorem try_bva_on_lit_loop_total (E : Env)
    (hE : ∀ (l : Int) (n : Nat), E.sub_sort_cost l n ≤ l) (lit : Lit) :
    ∀ (fuel : Nat) (B : BVA), B.m_lits ≠ [] →
      ((B.limit_to_decrease < 0 ∧ 1 ≤ fuel) ∨ B.limit_to_decrease.toNat + 2 ≤ fuel) →
      ∃ Bf flag, try_bva_on_lit_loop E lit fuel B = some (Bf, flag)
        ∧ Bf.solver = B.solver := by
  intro fuel
  induction fuel with
  | zero => intro B _ h; omega
  | succ f ih =>
    intro B hne hfuel
    simp only [try_bva_on_lit_loop]
    obtain ⟨f1, l1⟩ := fill_potential_loop_frame E lit B.m_cls { B with potential := [] }
    have e1 : fill_potential E { B with potential := [] } lit
        = fill_potential_loop E lit { B with potential := [] } B.m_cls := rfl
    have hnil : B.m_cls = [] → (fill_potential E { B with potential := [] } lit).potential = [] := by
      intro hn
      rw [fill_potential_of_m_cls_nil E { B with potential := [] } lit hn]
    rw [← e1] at f1 l1
    generalize fill_potential E { B with potential := [] } lit = B1 at f1 l1 hnil
    by_cases hneg : B1.limit_to_decrease < 0
    · simp only [hneg, ite_true]
      exact ⟨B1, false, rfl, f1.solver⟩
    · simp only [hneg, ite_false]
      have f2 := most_occuring_lit_in_potential_frame E hE B1
      by_cases hs : (most_occuring_lit_in_potential E B1).1.simplifies_system
          (most_occuring_lit_in_potential E B1).2.2 = true
      · simp only [hs, ite_true]
        have hB1 : 0 ≤ B1.limit_to_decrease := by omega
        have hBl : 0 ≤ B.limit_to_decrease := le_trans hB1 f1.limit
        have hcls : B.m_cls ≠ [] := by
          intro hn
          rw [most_occuring_lit_in_potential_nil E B1 (hnil hn), simplifies_system_zero] at hs
          exact absurd hs (by simp)
        have hlen : (1 : Int) ≤ (B.m_lits.length : Int) := by
          have : 0 < B.m_lits.length := List.length_pos.2 hne
          omega
        have hdec := l1 hcls hBl
        dsimp only at hdec
        have hpot : 0 ≤ ((most_occuring_lit_in_potential E B1).1.potential.length : Int) * 3 := by
          positivity
        have hl2 := f2.limit
        have hfuel2 : ((most_occuring_lit_in_potential E B1).1.limit_to_decrease
              - ((most_occuring_lit_in_potential E B1).1.potential.length : Int) * 3 < 0 ∧ 1 ≤ f)
            ∨ ((most_occuring_lit_in_potential E B1).1.limit_to_decrease
              - ((most_occuring_lit_in_potential E B1).1.potential.length : Int) * 3).toNat + 2
                ≤ f := by
          rcases hfuel with ⟨hn, _⟩ | hfuel
          · omega
          · by_cases hneg2 : (most_occuring_lit_in_potential E B1).1.limit_to_decrease
                - ((most_occuring_lit_in_potential E B1).1.potential.length : Int) * 3 < 0
            · left
              exact ⟨hneg2, by omega⟩
            · right
              omega
        obtain ⟨Bf, flag, hr, hsol⟩ := ih
          { (most_occuring_lit_in_potential E B1).1 with
            m_lits := (most_occuring_lit_in_potential E B1).1.m_lits
              ++ [(most_occuring_lit_in_potential E B1).2.1],
            limit_to_decrease := (most_occuring_lit_in_potential E B1).1.limit_to_decrease
              - ((most_occuring_lit_in_potential E B1).1.potential.length : Int) * 3,
            m_cls := ((most_occuring_lit_in_potential E B1).1.potential.filter
              (fun pot => pot.lits = (most_occuring_lit_in_potential E B1).2.1)).map
              (fun pot => pot.occur_cl) } (by simp) hfuel2
        exact ⟨Bf, flag, hr, hsol.trans (f2.solver.trans f1.solver)⟩
      · simp only [hs, Bool.false_eq_true, ite_false]
        exact ⟨_, true, rfl, f2.solver.trans f1.solver⟩

end BVA

namespace BVA

theorem is_duplicate_cost_nonneg (S : Solver) (p n : Watched) : 0 ≤ is_duplicate_cost S p n := by
  unfold is_duplicate_cost
  split
  · split
    · decide
    · positivity
  · exact le_refl _

theorem remove_duplicates_scan_cost_nonneg (S : Solver) (rest : List OccurClause) :
    ∀ prev, 0 ≤ remove_duplicates_scan_cost S prev rest := by
  induction rest with
  | nil => intro prev; exact le_refl _
  | cons n rest ih =>
    intro prev
    simp only [remove_duplicates_scan_cost]
    have := is_duplicate_cost_nonneg S prev.ws n.ws
    split
    · exact ih n
    · split
      · have := ih prev; omega
      · have := ih n; omega

theorem remove_duplicates_from_m_cls_frame (E : Env) (B : BVA) :
    (remove_duplicates_from_m_cls E B).solver = B.solver
    ∧ (remove_duplicates_from_m_cls E B).m_lits = B.m_lits
    ∧ (remove_duplicates_from_m_cls E B).limit_to_decrease ≤ B.limit_to_decrease := by
  unfold remove_duplicates_from_m_cls
  split
  · exact ⟨rfl, rfl, le_refl _⟩
  · have h1 : 0 ≤ 2 * (B.m_cls.length : Int) * (isqrt B.m_cls.length : Int) := by positivity
    have h2 : 0 ≤ (E.mysort_cost B.solver B.m_cls : Int) := Int.natCast_nonneg _
    dsimp only
    split
    · exact ⟨rfl, rfl, by dsimp only; omega⟩
    · rename_i first rest _
      have h3 := remove_duplicates_scan_cost_nonneg B.solver rest first
      exact ⟨rfl, rfl, by dsimp only; omega⟩

theorem try_bva_on_lit_init_frame (E : Env) (B : BVA) (lit : Lit) :
    (try_bva_on_lit_init E B lit).solver = B.solver
    ∧ (try_bva_on_lit_init E B lit).m_lits = [lit_pair.of_lit lit]
    ∧ (try_bva_on_lit_init E B lit).limit_to_decrease ≤ B.limit_to_decrease := by
  unfold try_bva_on_lit_init
  dsimp only
  obtain ⟨h1, h2, h3⟩ := remove_duplicates_from_m_cls_frame E
    { B with
      m_lits := [lit_pair.of_lit lit],
      limit_to_decrease := B.limit_to_decrease - ((B.solver.watches lit.toInt).length : Int),
      m_cls := ((B.solver.watches lit.toInt).filter (fun w => !B.solver.redundant w)).map
        (fun w => (⟨lit, w⟩ : OccurClause)) }
  refine ⟨h1, h2, ?_⟩
  dsimp only at h3
  have : 0 ≤ ((B.solver.watches lit.toInt).length : Int) := Int.natCast_nonneg _
  omega

end BVA

/-- C4: `try_bva_on_lit` calls `bva_simplify_system` only if
`simplification_size(|m_lits|, |m_cls|) > 0` for the final `m_lits` and `m_cls`.  With
enough fuel the greedy loop ends in a state `Bf` whose solver is the one it started with;
then either the loop was left by `break` with a positive `simplification_size` and the
result is that of `bva_simplify_system` on `Bf`, or the function returns `solver->okay()`
with the solver unchanged: no variable was added, no clause was added or removed. -/
theorem try_bva_on_lit_gate (E : Env)
    (hE : ∀ (l : Int) (n : Nat), E.sub_sort_cost l n ≤ l) (B : BVA) (lit : Lit) (fuel : Nat)
    (hfuel : B.limit_to_decrease.toNat + 2 ≤ fuel) :
    ∃ Bf flag,
      BVA.try_bva_on_lit_loop E lit fuel (BVA.try_bva_on_lit_init E B lit) = some (Bf, flag)
      ∧ Bf.solver = B.solver
      ∧ ((flag = true ∧ 0 < BVA.simplification_size Bf.m_lits.length Bf.m_cls.length
            ∧ BVA.try_bva_on_lit E fuel B lit = BVA.bva_simplify_system E Bf)
          ∨ ((flag = false ∨ BVA.simplification_size Bf.m_lits.length Bf.m_cls.length ≤ 0)
            ∧ BVA.try_bva_on_lit E fuel B lit = some (Bf, B.solver.okay))) := by
  obtain ⟨i1, i2, i3⟩ := BVA.try_bva_on_lit_init_frame E B lit
  obtain ⟨Bf, flag, hr, hsol⟩ := BVA.try_bva_on_lit_loop_total E hE lit fuel
    (BVA.try_bva_on_lit_init E B lit) (by rw [i2]; simp) (Or.inr (by omega))
  refine ⟨Bf, flag, hr, hsol.trans i1, ?_⟩
  unfold BVA.try_bva_on_lit
  rw [hr]
  cases flag with
  | false =>
    right
    exact ⟨Or.inl rfl, by simp only [hsol, i1]⟩
  | true =>
    by_cases hs : BVA.simplification_size Bf.m_lits.length Bf.m_cls.length ≤ 0
    · right
      refine ⟨Or.inr hs, ?_⟩
      simp only [hs, ite_true, hsol, i1]
    · left
      refine ⟨rfl, by omega, ?_⟩
      simp only [hs, ite_false]

theorem try_bva_on_lit_gate_witness :
    ∃ Bf flag,
      BVA.try_bva_on_lit_loop Example.env Example.a 1002
          (BVA.try_bva_on_lit_init Example.env Example2.bva Example.a) = some (Bf, flag)
      ∧ Bf.solver = Example2.bva.solver
      ∧ ((flag = true ∧ 0 < BVA.simplification_size Bf.m_lits.length Bf.m_cls.length
            ∧ BVA.try_bva_on_lit Example.env 1002 Example2.bva Example.a
                = BVA.bva_simplify_system Example.env Bf)
          ∨ ((flag = false ∨ BVA.simplification_size Bf.m_lits.length Bf.m_cls.length ≤ 0)
            ∧ BVA.try_bva_on_lit Example.env 1002 Example2.bva Example.a
                = some (Bf, Example2.bva.solver.okay))) :=
  try_bva_on_lit_gate Example.env (fun l n => Example.sub_sort_cost_le l n) Example2.bva
    Example.a 1002 (by decide)

/-! ## The entries of `potential` -/

namespace BVA

theorem foldl_setAt_mem_map (v : Nat) (ls : List Lit) :
    ∀ (s : Nat → Nat) (j : Nat),
      (ls.foldl (fun s l => setAt s l.toInt v) s) j
        = if j ∈ ls.map Lit.toInt then v else s j := by
  induction ls with
  | nil => intro s j; simp
  | cons x xs ih =>
    intro s j
    simp only [List.foldl_cons, ih, List.map_cons, List.mem_cons]
    by_cases h1 : j ∈ xs.map Lit.toInt
    · simp [h1]
    · by_cases h2 : j = x.toInt
      · simp [h1, h2, setAt]
      · simp [h1, h2, setAt]

theorem foldl_check_seen_filter (s : Nat → Nat) (ls : List Lit) :
    ∀ acc : Nat × lit_pair,
      ls.foldl (check_seen s) acc
        = (ls.filter (fun l => decide (s l.toInt = 0))).foldl (check_seen (fun _ => 0)) acc := by
  induction ls with
  | nil => intro acc; rfl
  | cons x xs ih =>
    intro acc
    by_cases h : s x.toInt = 0
    · simp only [List.foldl_cons, List.filter_cons, h, decide_True, ite_true]
      rw [ih]
      simp [check_seen, h]
    · simp only [List.foldl_cons, List.filter_cons, h, decide_False]
      rw [ih]
      simp [check_seen, h]

theorem foldl_check_seen_fst (xs : List Lit) :
    ∀ acc : Nat × lit_pair,
      (xs.foldl (check_seen (fun _ => 0)) acc).1 = acc.1 + xs.length := by
  induction xs with
  | nil => intro acc; rfl
  | cons x xs ih =>
    intro acc
    simp only [List.foldl_cons, ih, List.length_cons]
    simp only [check_seen, ite_true]
    omega

theorem lit_diff_watches_seen (B : BVA) (a b : OccurClause) (hs : B.seen = fun _ => 0) :
    (B.lit_diff_watches a b).1.seen = fun _ => 0 := by
  have : (B.solver.occ_lits b).foldl (fun s lit => setAt s lit.toInt 0)
      ((B.solver.occ_lits b).foldl (fun s lit => setAt s lit.toInt 1) B.seen) = fun _ => 0 := by
    funext j
    rw [foldl_setAt_mem_map, foldl_setAt_mem_map, hs]
    split <;> rfl
  unfold lit_diff_watches
  simp only []
  split <;> exact this

theorem lit_diff_watches_potential (B : BVA) (a b : OccurClause) :
    (B.lit_diff_watches a b).1.potential = B.potential
    ∧ (B.lit_diff_watches a b).1.seen2 = B.seen2
    ∧ (B.lit_diff_watches a b).1.m_lits_this_cl = B.m_lits_this_cl := by
  unfold lit_diff_watches
  simp only []
  split <;> exact ⟨rfl, rfl, rfl⟩

theorem lit_diff_watches_snd (B : BVA) (a b : OccurClause) (hs : B.seen = fun _ => 0) :
    (B.lit_diff_watches a b).2
      = lit_pair.of_diff
          ((B.solver.occ_lits a).filter (fun l => decide (l ∉ B.solver.occ_lits b))) := by
  have hf : (B.solver.occ_lits a).filter
        (fun l => decide (((B.solver.occ_lits b).foldl
          (fun s lit => setAt s lit.toInt 1) B.seen) l.toInt = 0))
      = (B.solver.occ_lits a).filter (fun l => decide (l ∉ B.solver.occ_lits b)) := by
    apply List.filter_congr
    intro l _
    rw [foldl_setAt_mem_map, hs]
    by_cases h : l ∈ B.solver.occ_lits b
    · have : l.toInt ∈ (B.solver.occ_lits b).map Lit.toInt := List.mem_map_of_mem _ h
      simp [this, h]
    · have : l.toInt ∉ (B.solver.occ_lits b).map Lit.toInt := by
        intro hm
        obtain ⟨l2, hl2, he⟩ := List.mem_map.1 hm
        exact h (Lit.toInt_injective he ▸ hl2)
      simp [this, h]
  unfold lit_diff_watches
  simp only []
  rw [foldl_check_seen_filter, hf]
  generalize (B.solver.occ_lits a).filter (fun l => decide (l ∉ B.solver.occ_lits b)) = xs
  match xs with
  | [] => simp [lit_pair.of_diff, lit_pair.of_lit]
  | [x] => simp [lit_pair.of_diff, check_seen]
  | [x, y] => simp [lit_pair.of_diff, check_seen]
  | x :: y :: z :: t =>
    have h3 := foldl_check_seen_fst (x :: y :: z :: t) (0, ⟨lit_Undef, lit_Undef⟩)
    have : ¬ (1 ≤ ((x :: y :: z :: t).foldl (check_seen (fun _ => 0))
          (0, ⟨lit_Undef, lit_Undef⟩)).1
        ∧ ((x :: y :: z :: t).foldl (check_seen (fun _ => 0))
          (0, ⟨lit_Undef, lit_Undef⟩)).1 ≤ 2) := by
      rw [h3]
      simp only [List.length_cons]
      omega
    rw [if_neg this]
    simp [lit_pair.of_diff, lit_pair.of_lit]

theorem mem_lits_toInt (p : lit_pair) (j : Nat) :
    j ∈ p.lits.map Lit.toInt
      ↔ j = p.lit1.toInt ∨ ((p.lit2 != lit_Undef) = true ∧ j = p.lit2.toInt) := by
  unfold lit_pair.lits
  by_cases h : (p.lit2 != lit_Undef) = true
  · simp [h]
  · simp [h]

/-- The indices that the marking loops of `least_occurring_except` write. -/
theorem mark_m_lits_apply (v : Nat) (ml : List lit_pair) :
    ∀ (s : Nat → Nat) (j : Nat),
      mark_m_lits ml v s j
        = if j ∈ ml.flatMap (fun p => p.lits.map Lit.toInt) then v else s j := by
  induction ml with
  | nil => intro s j; simp [mark_m_lits]
  | cons p ps ih =>
    intro s j
    have ih2 := ih
    unfold mark_m_lits at ih2 ⊢
    simp only [List.foldl_cons, ih2, List.flatMap_cons, List.mem_append, mem_lits_toInt p j]
    by_cases h1 : j ∈ ps.flatMap (fun p => p.lits.map Lit.toInt)
    · simp only [h1, or_true, ite_true]
    · simp only [h1, or_false, if_false]
      by_cases h2 : (p.lit2 != lit_Undef) = true
      · by_cases h3 : j = p.lit2.toInt
        · simp [setAt, h2, h3]
        · by_cases h4 : j = p.lit1.toInt
          · simp [setAt, h2, h3, h4]
          · simp [setAt, h2, h3, h4]
      · by_cases h4 : j = p.lit1.toInt
        · simp [setAt, h2, h4]
        · simp [setAt, h2, h4]

theorem least_occurring_except_seen (B : BVA) (c : OccurClause) (hs : B.seen = fun _ => 0) :
    (B.least_occurring_except c).1.seen = (fun _ => 0)
    ∧ (B.least_occurring_except c).1.potential = B.potential := by
  unfold least_occurring_except
  refine ⟨?_, rfl⟩
  funext j
  show mark_m_lits B.m_lits 0 (mark_m_lits B.m_lits 1 B.seen) j = 0
  rw [mark_m_lits_apply, mark_m_lits_apply, hs]
  split <;> simp

theorem least_occurring_except_congr (A B : BVA) (c : OccurClause)
    (h1 : B.solver = A.solver) (h2 : B.m_lits = A.m_lits) (h3 : B.seen = A.seen) :
    (B.least_occurring_except c).2 = (A.least_occurring_except c).2 := by
  unfold least_occurring_except
  simp only [h1, h2, h3]

end BVA

theorem Solver.cl_size_eq (S : Solver) (cl : OccurClause) :
    S.cl_size cl.ws = (S.occ_lits cl).length := by
  unfold Solver.cl_size Solver.occ_lits
  cases cl.ws <;> rfl

theorem of_diff_eq_of_lit {xs cs : List Lit} {lit : Lit} (hlit : lit ≠ lit_Undef)
    (hsub : ∀ l ∈ xs, l ∈ cs) (hdef : lit_Undef ∉ cs)
    (h : lit_pair.of_diff xs = lit_pair.of_lit lit) : xs = [lit] := by
  match xs, hsub, h with
  | [], _, h =>
    simp only [lit_pair.of_diff, lit_pair.of_lit, lit_pair.mk.injEq] at h
    exact absurd h.1.symm hlit
  | [x], _, h =>
    simp only [lit_pair.of_diff, lit_pair.of_lit, lit_pair.mk.injEq] at h
    rw [h.1]
  | [x, y], hsub, h =>
    simp only [lit_pair.of_diff, lit_pair.of_lit, lit_pair.mk.injEq] at h
    exact absurd (h.2 ▸ hsub y (by simp)) hdef
  | x :: y :: z :: t, _, h =>
    simp only [lit_pair.of_diff, lit_pair.of_lit, lit_pair.mk.injEq] at h
    exact absurd h.1.symm hlit

theorem of_diff_lits {xs ds : List Lit} (hsub : ∀ l ∈ xs, l ∈ ds) (hdef : lit_Undef ∉ ds)
    (hlen : xs.length = 1 ∨ xs.length = 2) : (lit_pair.of_diff xs).lits = xs := by
  match xs, hsub, hlen with
  | [], _, hlen => simp at hlen
  | [x], _, _ => simp [lit_pair.of_diff, lit_pair.lits]
  | [x, y], hsub, _ =>
    have hy : y ≠ lit_Undef := fun he => hdef (he ▸ hsub y (by simp))
    simp [lit_pair.of_diff, lit_pair.lits, hy]
  | x :: y :: z :: t, _, hlen => simp at hlen

theorem filter_mem_length_comm {cs ds : List Lit} (hc : cs.Nodup) (hd : ds.Nodup) :
    (cs.filter (fun l => decide (l ∈ ds))).length
      = (ds.filter (fun l => decide (l ∈ cs))).length := by
  apply List.Perm.length_eq
  rw [List.perm_ext_iff_of_nodup (hc.filter _) (hd.filter _)]
  intro l
  simp only [List.mem_filter, decide_eq_true_eq]
  tauto

theorem filter_not_mem_length {cs ds : List Lit} (hc : cs.Nodup) (hd : ds.Nodup)
    (h1 : (cs.filter (fun l => decide (l ∉ ds))).length = 1) :
    (ds.filter (fun l => decide (l ∉ cs))).length + cs.length = ds.length + 1 := by
  have e1 : (cs.filter (fun l => decide (l ∈ ds))).length
      + (cs.filter (fun l => decide (l ∉ ds))).length = cs.length := by
    have := @List.length_eq_length_filter_add _ cs (fun l => decide (l ∈ ds))
    simp only [Bool.not_eq_true, decide_eq_false_iff_not, decide_not] at this ⊢
    omega
  have e2 : (ds.filter (fun l => decide (l ∈ cs))).length
      + (ds.filter (fun l => decide (l ∉ cs))).length = ds.length := by
    have := @List.length_eq_length_filter_add _ ds (fun l => decide (l ∈ cs))
    simp only [Bool.not_eq_true, decide_eq_false_iff_not, decide_not] at this ⊢
    omega
  have e3 := filter_mem_length_comm hc hd
  omega

/-- Two clauses whose difference `c \ d` is the pivot alone: `d` witnesses the potential
entry made of `c` and of `d \ c`. -/
theorem Solver.witnesses_of_diff (S : Solver) (lit : Lit) (c : OccurClause) (l_min : Lit)
    (d_ws : Watched) (hlit : lit ≠ lit_Undef)
    (hcn : (S.occ_lits c).Nodup) (hcd : lit_Undef ∉ S.occ_lits c)
    (hdn : (S.occ_lits ⟨l_min, d_ws⟩).Nodup) (hdd : lit_Undef ∉ S.occ_lits ⟨l_min, d_ws⟩)
    (hw : d_ws ∈ S.watches l_min.toInt) (hred : S.redundant d_ws = false)
    (hne : c.ws ≠ d_ws)
    (hsz : S.cl_size c.ws = S.cl_size d_ws ∨ S.cl_size c.ws + 1 = S.cl_size d_ws)
    (h1 : lit_pair.of_diff
        ((S.occ_lits c).filter (fun l => decide (l ∉ S.occ_lits ⟨l_min, d_ws⟩)))
      = lit_pair.of_lit lit) :
    S.Witnesses lit c l_min d_ws
      (lit_pair.of_diff
        ((S.occ_lits ⟨l_min, d_ws⟩).filter (fun l => decide (l ∉ S.occ_lits c)))) := by
  have hx := of_diff_eq_of_lit hlit
    (fun l hl => (List.mem_filter.1 hl).1) hcd h1
  have hcd1 : ∀ l, (l ∈ S.occ_lits c ∧ l ∉ S.occ_lits ⟨l_min, d_ws⟩) ↔ l = lit := by
    intro l
    have : l ∈ (S.occ_lits c).filter (fun l => decide (l ∉ S.occ_lits ⟨l_min, d_ws⟩))
        ↔ l = lit := by rw [hx]; simp
    simpa [List.mem_filter] using this
  have hlen := filter_not_mem_length hcn hdn (by rw [hx]; rfl)
  have hs1 := S.cl_size_eq c
  have hs2 := S.cl_size_eq ⟨l_min, d_ws⟩
  simp only [] at hs2
  have hlen2 : ((S.occ_lits ⟨l_min, d_ws⟩).filter
        (fun l => decide (l ∉ S.occ_lits c))).length = 1
      ∨ ((S.occ_lits ⟨l_min, d_ws⟩).filter
        (fun l => decide (l ∉ S.occ_lits c))).length = 2 := by omega
  have hl := of_diff_lits (fun l hl => (List.mem_filter.1 hl).1) hdd hlen2
  have hdc : ∀ l, (l ∈ S.occ_lits ⟨l_min, d_ws⟩ ∧ l ∉ S.occ_lits c)
      ↔ l ∈ (lit_pair.of_diff
        ((S.occ_lits ⟨l_min, d_ws⟩).filter (fun l => decide (l ∉ S.occ_lits c)))).lits := by
    intro l
    rw [hl]
    simp [List.mem_filter]
  refine ⟨hw, hred, hne, hcd1, hdc, ?_, ?_⟩
  · rw [hl]
    omega
  · intro l
    constructor
    · intro hd
      by_cases hc : l ∈ S.occ_lits c
      · left
        refine ⟨hc, fun he => ?_⟩
        exact ((hcd1 lit).2 rfl).2 (he ▸ hd)
      · right
        exact (hdc l).1 ⟨hd, hc⟩
    · rintro (⟨hc, hn⟩ | hd)
      · by_contra hnd
        exact hn ((hcd1 l).1 ⟨hc, hnd⟩)
      · exact ((hdc l).2 hd).1

namespace BVA

theorem fill_potential_scan_entries (E : Env) (lit : Lit) (c : OccurClause) (l_min : Lit)
    (S : Solver) (hlit : lit ≠ lit_Undef)
    (hcn : (S.occ_lits c).Nodup) (hcd : lit_Undef ∉ S.occ_lits c) :
    ∀ (ws : List Watched) (B : BVA), B.solver = S → B.seen = (fun _ => 0) →
      (∀ w ∈ ws, w ∈ S.watches l_min.toInt ∧ (S.occ_lits ⟨l_min, w⟩).Nodup
        ∧ lit_Undef ∉ S.occ_lits ⟨l_min, w⟩) →
      (fill_potential_scan E lit c l_min B ws).seen = (fun _ => 0)
      ∧ ∃ new, (fill_potential_scan E lit c l_min B ws).potential = B.potential ++ new
        ∧ ∀ p ∈ new, p.occur_cl = c ∧ ∃ d_ws, S.Witnesses lit c l_min d_ws p.lits := by
  intro ws
  induction ws with
  | nil =>
    intro B _ hs _
    exact ⟨hs, [], by simp [fill_potential_scan], by simp⟩
  | cons d_ws rest ih =>
    intro B hS hs hws
    have hrest : ∀ w ∈ rest, w ∈ S.watches l_min.toInt ∧ (S.occ_lits ⟨l_min, w⟩).Nodup
        ∧ lit_Undef ∉ S.occ_lits ⟨l_min, w⟩ := fun w hw => hws w (List.mem_cons_of_mem _ hw)
    obtain ⟨hdw, hdn, hdd⟩ := hws d_ws (List.mem_cons_self _ _)
    simp only [fill_potential_scan]
    split
    · exact ⟨hs, [], by simp, by simp⟩
    · split
      · rename_i hcond
        have f1 := lit_diff_watches_frame B c ⟨l_min, d_ws⟩
        have s1 := lit_diff_watches_seen B c ⟨l_min, d_ws⟩ hs
        have p1 := lit_diff_watches_potential B c ⟨l_min, d_ws⟩
        have v1 := lit_diff_watches_snd B c ⟨l_min, d_ws⟩ hs
        split
        · rename_i hpiv
          have f2 := lit_diff_watches_frame (B.lit_diff_watches c ⟨l_min, d_ws⟩).1
            ⟨l_min, d_ws⟩ c
          have s2 := lit_diff_watches_seen (B.lit_diff_watches c ⟨l_min, d_ws⟩).1
            ⟨l_min, d_ws⟩ c s1
          have p2 := lit_diff_watches_potential (B.lit_diff_watches c ⟨l_min, d_ws⟩).1
            ⟨l_min, d_ws⟩ c
          have v2 := lit_diff_watches_snd (B.lit_diff_watches c ⟨l_min, d_ws⟩).1
            ⟨l_min, d_ws⟩ c s1
          split
          · simp only [Bool.and_eq_true, bne_iff_ne, ne_eq, Bool.or_eq_true, beq_iff_eq,
              Bool.not_eq_true', decide_eq_true_eq] at hcond
            obtain ⟨⟨hne, hsz⟩, hred⟩ := hcond
            rw [hS] at hsz hred v1
            rw [f1.solver, hS] at v2
            have hsz2 : S.cl_size c.ws = S.cl_size d_ws ∨ S.cl_size c.ws + 1 = S.cl_size d_ws := by
              rcases hsz with h | h
              · exact Or.inl h
              · exact Or.inr h.1.1
            have hW := S.witnesses_of_diff lit c l_min d_ws hlit hcn hcd hdn hdd hdw hred hne
              hsz2 (by rw [← v1]; exact hpiv)
            rw [← v2] at hW
            obtain ⟨hseen, new, hpot, hgood⟩ := ih
              { ((B.lit_diff_watches c ⟨l_min, d_ws⟩).1.lit_diff_watches ⟨l_min, d_ws⟩ c).1 with
                limit_to_decrease :=
                  ((B.lit_diff_watches c ⟨l_min, d_ws⟩).1.lit_diff_watches
                    ⟨l_min, d_ws⟩ c).1.limit_to_decrease - 3,
                potential :=
                  ((B.lit_diff_watches c ⟨l_min, d_ws⟩).1.lit_diff_watches
                    ⟨l_min, d_ws⟩ c).1.potential
                  ++ [⟨((B.lit_diff_watches c ⟨l_min, d_ws⟩).1.lit_diff_watches
                      ⟨l_min, d_ws⟩ c).2, c⟩],
                m_lits_this_cl :=
                  ((B.lit_diff_watches c ⟨l_min, d_ws⟩).1.lit_diff_watches
                    ⟨l_min, d_ws⟩ c).1.m_lits_this_cl
                  ++ [((B.lit_diff_watches c ⟨l_min, d_ws⟩).1.lit_diff_watches
                      ⟨l_min, d_ws⟩ c).2],
                seen2 := setAt
                  ((B.lit_diff_watches c ⟨l_min, d_ws⟩).1.lit_diff_watches
                    ⟨l_min, d_ws⟩ c).1.seen2
                  (E.hash ((B.lit_diff_watches c ⟨l_min, d_ws⟩).1.lit_diff_watches
                      ⟨l_min, d_ws⟩ c).2 E.seen2_size) 1 }
              (by show _ = S; rw [f2.solver, f1.solver, hS]) s2 hrest
            refine ⟨hseen,
              (⟨((B.lit_diff_watches c ⟨l_min, d_ws⟩).1.lit_diff_watches
                  ⟨l_min, d_ws⟩ c).2, c⟩ : PotentialClause) :: new, ?_, ?_⟩
            · rw [hpot]
              show (_ ++ [_]) ++ new = _
              rw [p2.1, p1.1, List.append_assoc]
              rfl
            · intro p hp
              rcases List.mem_cons.1 hp with he | hp
              · rw [he]
                exact ⟨rfl, d_ws, hW⟩
              · exact hgood p hp
          · obtain ⟨hseen, new, hpot, hgood⟩ := ih _ (by rw [f2.solver, f1.solver, hS]) s2 hrest
            exact ⟨hseen, new, by rw [hpot, p2.1, p1.1], hgood⟩
        · obtain ⟨hseen, new, hpot, hgood⟩ := ih _ (by rw [f1.solver, hS]) s1 hrest
          exact ⟨hseen, new, by rw [hpot, p1.1], hgood⟩
      · exact ih B hS hs hrest

end BVA

namespace BVA

theorem Scannable.watched_wf {B : BVA} {lit : Lit} (h : B.Scannable lit) {l : Lit}
    {w : Watched} (hw : w ∈ B.solver.watches l.toInt) :
    (B.solver.occ_lits ⟨l, w⟩).Nodup ∧ lit_Undef ∉ B.solver.occ_lits ⟨l, w⟩ := by
  have hlt : l.toInt < 2 * B.solver.nVars := by
    by_contra hge
    rw [h.watches_size l.toInt (by omega)] at hw
    simp at hw
  have h1 := h.lits_nodup l.toInt hlt w hw
  have h2 := h.lits_defined l.toInt hlt w hw
  rw [Lit.toLit_toInt] at h1 h2
  exact ⟨h1, h2⟩

theorem fill_potential_for_entries (E : Env) (lit : Lit) (B0 B : BVA) (c : OccurClause)
    (h0 : B0.Scannable lit) (hS : B.solver = B0.solver) (hM : B.m_lits = B0.m_lits)
    (hs : B.seen = fun _ => 0) (hc : c ∈ B0.m_cls) :
    (fill_potential_for E lit B c).seen = (fun _ => 0)
    ∧ ∃ new, (fill_potential_for E lit B c).potential = B.potential ++ new
      ∧ ∀ p ∈ new, p.occur_cl ∈ B0.m_cls
          ∧ ∃ d_ws, B0.solver.Witnesses lit p.occur_cl
              (B0.least_occurring_except p.occur_cl).2 d_ws p.lits := by
  have hl : (B.least_occurring_except c).2 = (B0.least_occurring_except c).2 :=
    least_occurring_except_congr B0 B c hS hM (hs.trans (funext h0.seen_clear).symm)
  obtain ⟨s1, p1⟩ := least_occurring_except_seen B c hs
  obtain ⟨f1, _⟩ := least_occurring_except_frame B c
  obtain ⟨hcn, hcd⟩ := h0.watched_wf (h0.m_cls_watched c hc)
  unfold fill_potential_for
  simp only []
  split
  · exact ⟨s1, [], by simp [p1], by simp⟩
  · obtain ⟨hseen, new, hpot, hgood⟩ := fill_potential_scan_entries E lit c
      (B.least_occurring_except c).2 B0.solver h0.pivot hcn hcd
      ((B.least_occurring_except c).1.solver.watches (B.least_occurring_except c).2.toInt)
      { (B.least_occurring_except c).1 with
        m_lits_this_cl := (B.least_occurring_except c).1.m_lits,
        limit_to_decrease := (B.least_occurring_except c).1.limit_to_decrease
          - ((B.least_occurring_except c).1.m_lits.length : Int)
          - (((B.least_occurring_except c).1.solver.watches
              (B.least_occurring_except c).2.toInt).length : Int) * 3,
        seen2 := mark_seen2 E (B.least_occurring_except c).1.m_lits 1
          (B.least_occurring_except c).1.seen2 }
      (by show (B.least_occurring_except c).1.solver = _; rw [f1.solver, hS]) s1
      (by
        intro w hw
        rw [f1.solver, hS] at hw
        exact ⟨hw, h0.watched_wf hw⟩)
    refine ⟨hseen, new, ?_, ?_⟩
    · show (fill_potential_scan _ _ _ _ _ _).potential = _
      rw [hpot]
      show (B.least_occurring_except c).1.potential ++ new = _
      rw [p1]
    · intro p hp
      obtain ⟨he, d_ws, hW⟩ := hgood p hp
      rw [hl] at hW
      rw [he]
      exact ⟨hc, d_ws, hW⟩

theorem fill_potential_loop_entries (E : Env) (lit : Lit) (B0 : BVA) (h0 : B0.Scannable lit) :
    ∀ (rest : List OccurClause) (B : BVA), B.solver = B0.solver → B.m_lits = B0.m_lits →
      B.seen = (fun _ => 0) → (∀ c ∈ rest, c ∈ B0.m_cls) →
      ∃ new, (fill_potential_loop E lit B rest).potential = B.potential ++ new
        ∧ ∀ p ∈ new, p.occur_cl ∈ B0.m_cls
            ∧ ∃ d_ws, B0.solver.Witnesses lit p.occur_cl
                (B0.least_occurring_except p.occur_cl).2 d_ws p.lits := by
  intro rest
  induction rest with
  | nil =>
    intro B _ _ _ _
    exact ⟨[], by simp [fill_potential_loop], by simp⟩
  | cons c rest ih =>
    intro B hS hM hs hsub
    simp only [fill_potential_loop]
    split
    · exact ⟨[], by simp, by simp⟩
    · obtain ⟨hseen, new1, hpot1, hgood1⟩ := fill_potential_for_entries E lit B0 B c h0 hS hM hs
        (hsub c (List.mem_cons_self _ _))
      obtain ⟨f1, _⟩ := fill_potential_for_frame E lit B c
      obtain ⟨new2, hpot2, hgood2⟩ := ih (fill_potential_for E lit B c)
        (by rw [f1.solver, hS]) (by rw [f1.m_lits, hM]) hseen
        (fun c2 h2 => hsub c2 (List.mem_cons_of_mem _ h2))
      refine ⟨new1 ++ new2, by rw [hpot2, hpot1, List.append_assoc], ?_⟩
      intro p hp
      rcases List.mem_append.1 hp with h | h
      · exact hgood1 p h
      · exact hgood2 p h

end BVA

theorem Example2.bva_round1_scannable : Example2.bva_round1.Scannable Example.a where
  seen_clear := fun _ => rfl
  pivot := by decide
  watches_size := by
    intro i hi
    show Example2.watch_table.getD i [] = []
    exact List.getD_eq_default _ _ hi
  lits_nodup := by decide
  lits_defined := by decide
  m_cls_watched := by decide

/-- The first round of the greedy loop of `try_bva_on_lit(a)` on `Example2` starts from
`bva_round1` and finds five entries: `b` for each of the three clauses of `a`, and `h` for
the two binary ones. -/
theorem Example2.fill_potential_round1 :
    (BVA.try_bva_on_lit_init Example.env Example2.bva Example.a).m_lits
        = Example2.bva_round1.m_lits
    ∧ (BVA.try_bva_on_lit_init Example.env Example2.bva Example.a).m_cls
        = Example2.bva_round1.m_cls
    ∧ ((BVA.fill_potential Example.env Example2.bva_round1 Example.a).potential).map
        (fun p => (p.lits, p.occur_cl.ws))
      = [(lit_pair.of_lit Example.b, .binary Example.f false),
         (lit_pair.of_lit Example2.h, .binary Example.f false),
         (lit_pair.of_lit Example.b, .binary Example.g false),
         (lit_pair.of_lit Example2.h, .binary Example.g false),
         (lit_pair.of_lit Example.b, .clause 0 Example.a)] := by
  decide!

/-- C6: every entry `(diff, c)` that `fill_potential(lit)` appends to `potential` has `c`
in `m_cls` and is witnessed by an irredundant clause `d`, different from `c`, in the watch
list of the least-occurring literal of `c`, with `lits(c) \ lits(d) = {lit}` and
`lits(d) \ lits(c) = diff` (one literal, or two when `|d| = |c| + 1`); the clause
`(c \ {lit}) ∪ diff` is therefore present in the formula, as `d`. -/
theorem fill_potential_entries (E : Env) (B : BVA) (lit : Lit) (h : B.Scannable lit) :
    ∃ new, (B.fill_potential E lit).potential = B.potential ++ new
      ∧ ∀ p ∈ new, p.occur_cl ∈ B.m_cls
          ∧ ∃ d_ws, B.solver.Witnesses lit p.occur_cl
              (B.least_occurring_except p.occur_cl).2 d_ws p.lits :=
  BVA.fill_potential_loop_entries E lit B h B.m_cls B rfl rfl (funext h.seen_clear)
    (fun _ hc => hc)

theorem fill_potential_entries_witness :
    ∃ new, (Example2.bva_round1.fill_potential Example.env Example.a).potential
        = Example2.bva_round1.potential ++ new
      ∧ ∀ p ∈ new, p.occur_cl ∈ Example2.bva_round1.m_cls
          ∧ ∃ d_ws, Example2.bva_round1.solver.Witnesses Example.a p.occur_cl
              (Example2.bva_round1.least_occurring_except p.occur_cl).2 d_ws p.lits :=
  fill_potential_entries Example.env Example2.bva_round1 Example.a
    Example2.bva_round1_scannable

/-! ## The component handler -/

namespace CompHandler

theorem solve_component_of_false (E : CompEnv) (H : CompHandler) (comp : Nat)
    (vars : List Nat)
    (h : E.solve (solve_component_setup E H comp vars).2 = lbool.l_False) :
    solve_component E H comp vars
      = ({ (solve_component_setup E H comp vars).1 with
            solver := { (solve_component_setup E H comp vars).1.solver with ok := false } },
          false) := by
  unfold solve_component
  simp only [h]
  rfl

theorem handle_loop_append (E : CompEnv) (rt : List (Nat × List Nat))
    (pre rest : List (Nat × Nat)) :
    ∀ (H Hp : CompHandler), handle_loop E rt H pre = (Hp, true) →
      handle_loop E rt H (pre ++ rest) = handle_loop E rt Hp rest := by
  induction pre with
  | nil =>
    intro H Hp h
    simp only [handle_loop, Prod.mk.injEq] at h
    rw [List.nil_append, h.1]
  | cons s pre ih =>
    intro H Hp h
    simp only [handle_loop, List.cons_append] at h ⊢
    split at h
    · simp at h
    · rename_i hc
      rw [if_neg hc]
      exact ih _ _ h

end CompHandler

/-- C7: if the sub-solver of a component returns `l_False`, `solve_component` sets the `ok`
flag of the main solver to false and returns false; `handle()`, whose loop has reached
that component in the state `Hp`, then leaves the loop (its result is the state that
`solve_component` left, with the component finder deleted: no later component is tried)
and returns false. -/
theorem handle_unsat (E : CompEnv) (H Hp : CompHandler) (pre post : List (Nat × Nat))
    (s : Nat × Nat)
    (hfound : (E.find_components H.solver).found = true)
    (htime : (E.find_components H.solver).timedOut = false)
    (hnum : 1 < (E.find_components H.solver).reverseTable.length % 2 ^ 32)
    (hsizes : (CompHandler.get_component_sizes
        { H with compFinder := some (E.find_components H.solver) }).dropLast
      = pre ++ s :: post)
    (hpre : CompHandler.handle_loop E (E.find_components H.solver).reverseTable
        { H with compFinder := some (E.find_components H.solver) } pre = (Hp, true))
    (hsmall : (((E.find_components H.solver).reverseTable.lookup s.1).getD []).length
      ≤ 100 * 1000)
    (hassump : CompHandler.assumpsInsideComponent E Hp
      (((E.find_components H.solver).reverseTable.lookup s.1).getD []) = false)
    (hunsat : E.solve (CompHandler.solve_component_setup E Hp s.1
      (((E.find_components H.solver).reverseTable.lookup s.1).getD [])).2 = lbool.l_False) :
    (CompHandler.solve_component E Hp s.1
        (((E.find_components H.solver).reverseTable.lookup s.1).getD [])).1.solver.ok = false
    ∧ (CompHandler.solve_component E Hp s.1
        (((E.find_components H.solver).reverseTable.lookup s.1).getD [])).2 = false
    ∧ CompHandler.handle E H
      = ({ (CompHandler.solve_component E Hp s.1
              (((E.find_components H.solver).reverseTable.lookup s.1).getD [])).1 with
            compFinder := none }, false) := by
  have hsc := CompHandler.solve_component_of_false E Hp s.1 _ hunsat
  have hloop : CompHandler.handle_loop E (E.find_components H.solver).reverseTable
      { H with compFinder := some (E.find_components H.solver) } (pre ++ s :: post)
      = ((CompHandler.solve_component E Hp s.1
          (((E.find_components H.solver).reverseTable.lookup s.1).getD [])).1, false) := by
    rw [CompHandler.handle_loop_append E _ pre (s :: post) _ Hp hpre]
    have h1 : ¬ ((((E.find_components H.solver).reverseTable.lookup s.1).getD []).length
        > 100 * 1000) := by omega
    simp only [CompHandler.handle_loop, CompHandler.try_to_solve_component]
    rw [if_neg h1, hassump]
    simp only [Bool.false_eq_true, if_false]
    rw [hsc]
    simp
  refine ⟨by rw [hsc], by rw [hsc], ?_⟩
  unfold CompHandler.handle
  simp only [hfound, htime, Bool.not_true, Bool.false_eq_true, if_false]
  have h2 : ¬ ((E.find_components H.solver).reverseTable.length % 2 ^ 32 ≤ 1) := by omega
  rw [if_neg h2, hsizes, hloop]
  simp only [hsc]

theorem handle_unsat_witness :
    (CompHandler.solve_component Example3.env_unsat
        { Example3.handler with compFinder := some Example3.finder } 0 [0, 1]).1.solver.ok
      = false
    ∧ (CompHandler.solve_component Example3.env_unsat
        { Example3.handler with compFinder := some Example3.finder } 0 [0, 1]).2 = false
    ∧ CompHandler.handle Example3.env_unsat Example3.handler
      = ({ (CompHandler.solve_component Example3.env_unsat
              { Example3.handler with compFinder := some Example3.finder } 0 [0, 1]).1 with
            compFinder := none }, false) :=
  handle_unsat Example3.env_unsat Example3.handler
    { Example3.handler with compFinder := some Example3.finder } [] [] (0, 2)
    rfl rfl (by decide) (by decide) rfl (by decide) rfl rfl

namespace CompHandler

theorem cut_clauses_flatten (L : List (List Lit)) :
    ∀ pre : List Lit, cut_clauses (pre ++ L.flatten) pre.length (L.map List.length) = L := by
  induction L with
  | nil => intro pre; rfl
  | cons cl rest ih =>
    intro pre
    simp only [List.map_cons, List.flatten_cons, cut_clauses, List.cons.injEq]
    constructor
    · rw [List.drop_left, List.take_left]
    · have := ih (pre ++ cl)
      rw [List.append_assoc, List.length_append] at this
      exact this

theorem foldl_saveClause (cls : List (List Lit)) :
    ∀ H : CompHandler,
      (cls.foldl saveClause H).solver = H.solver
      ∧ (cls.foldl saveClause H).removedClauses
        = ⟨H.removedClauses.lits
              ++ (cls.map (fun cl => cl.map H.solver.map_inter_to_outer_lit)).flatten,
            H.removedClauses.sizes
              ++ (cls.map (fun cl => cl.map H.solver.map_inter_to_outer_lit)).map
                List.length⟩ := by
  induction cls with
  | nil => intro H; simp
  | cons cl rest ih =>
    intro H
    obtain ⟨h1, h2⟩ := ih (H.saveClause cl)
    simp only [List.foldl_cons]
    refine ⟨h1, ?_⟩
    rw [h2]
    simp [saveClause, List.append_assoc]

theorem clear_removed_frame (H : CompHandler) (outer : Nat) :
    (H.clear_removed outer).solver.trace = H.solver.trace
    ∧ (H.clear_removed outer).removedClauses = H.removedClauses
    ∧ (H.clear_removed outer).savedState = H.savedState
    ∧ (H.clear_removed outer).solver.outerToInterMain = H.solver.outerToInterMain
    ∧ (H.clear_removed outer).solver.nVarsOuter = H.solver.nVarsOuter := by
  unfold clear_removed
  simp only []
  split <;> exact ⟨rfl, rfl, rfl, rfl, rfl⟩

theorem foldl_clear_removed_frame (L : List Nat) :
    ∀ H : CompHandler,
      (L.foldl clear_removed H).solver.trace = H.solver.trace
      ∧ (L.foldl clear_removed H).removedClauses = H.removedClauses
      ∧ (L.foldl clear_removed H).savedState = H.savedState
      ∧ (L.foldl clear_removed H).solver.outerToInterMain = H.solver.outerToInterMain
      ∧ (L.foldl clear_removed H).solver.nVarsOuter = H.solver.nVarsOuter := by
  induction L with
  | nil => intro H; exact ⟨rfl, rfl, rfl, rfl, rfl⟩
  | cons o rest ih =>
    intro H
    obtain ⟨a1, a2, a3, a4, a5⟩ := ih (H.clear_removed o)
    obtain ⟨b1, b2, b3, b4, b5⟩ := clear_removed_frame H o
    simp only [List.foldl_cons]
    exact ⟨a1.trans b1, a2.trans b2, a3.trans b3, a4.trans b4, a5.trans b5⟩

theorem foldl_addClause_trace (cls : List (List Lit)) :
    ∀ S : Solver,
      (cls.foldl (fun S tmp => S.addClause tmp) S).trace
        = S.trace ++ cls.map (fun cl => SolverCall.addClause cl)
      ∧ (cls.foldl (fun S tmp => S.addClause tmp) S).varData = S.varData := by
  induction cls with
  | nil => intro S; simp
  | cons cl rest ih =>
    intro S
    obtain ⟨h1, h2⟩ := ih (S.addClause cl)
    simp only [List.foldl_cons, List.map_cons]
    refine ⟨?_, h2⟩
    rw [h1]
    simp [Solver.addClause, Solver.log]

theorem readdRemovedClauses_trace (H : CompHandler) :
    H.readdRemovedClauses.solver.trace
      = H.solver.trace
        ++ (cut_clauses H.removedClauses.lits 0 H.removedClauses.sizes).map
          (fun cl => SolverCall.addClause cl)
    ∧ H.readdRemovedClauses.removedClauses = ⟨[], []⟩ := by
  obtain ⟨a1, a2, _, _, _⟩ := foldl_clear_removed_frame (List.range H.solver.nVarsOuter) H
  unfold readdRemovedClauses
  refine ⟨?_, rfl⟩
  simp only []
  rw [(foldl_addClause_trace _ _).1, a1, a2]

theorem solve_component_of_undef (E : CompEnv) (H : CompHandler) (comp : Nat)
    (vars : List Nat)
    (h : E.solve (solve_component_setup E H comp vars).2 = lbool.l_Undef) :
    solve_component E H comp vars
      = ((solve_component_setup E H comp vars).1.readdRemovedClauses, false) := by
  unfold solve_component
  simp only [h]
  rfl

end CompHandler

/-- C8: restore round trip.  When the sub-solver returns `l_Undef`, `solve_component` runs
`readdRemovedClauses` and returns false; and for the clauses `cls` that `saveClause` has
recorded, in this order, since the store was empty, `readdRemovedClauses` passes to
`solver.addClause` exactly these clauses: as many, in the same order, each with its
literals in outer numbers in the same order; it leaves the store empty. -/
theorem readd_round_trip (E : CompEnv) (H : CompHandler) (cls : List (List Lit))
    (hempty : H.removedClauses = ⟨[], []⟩) :
    CompHandler.cut_clauses (cls.foldl CompHandler.saveClause H).removedClauses.lits 0
        (cls.foldl CompHandler.saveClause H).removedClauses.sizes
      = cls.map (fun cl => cl.map H.solver.map_inter_to_outer_lit)
    ∧ (cls.foldl CompHandler.saveClause H).readdRemovedClauses.solver.trace
      = H.solver.trace
        ++ cls.map (fun cl => SolverCall.addClause (cl.map H.solver.map_inter_to_outer_lit))
    ∧ (cls.foldl CompHandler.saveClause H).readdRemovedClauses.removedClauses = ⟨[], []⟩
    ∧ ∀ (A : CompHandler) (comp : Nat) (vars : List Nat),
        E.solve (CompHandler.solve_component_setup E A comp vars).2 = lbool.l_Undef →
        CompHandler.solve_component E A comp vars
          = ((CompHandler.solve_component_setup E A comp vars).1.readdRemovedClauses,
              false) := by
  obtain ⟨h1, h2⟩ := CompHandler.foldl_saveClause cls H
  obtain ⟨t1, t2⟩ := CompHandler.readdRemovedClauses_trace (cls.foldl CompHandler.saveClause H)
  have hcut : CompHandler.cut_clauses (cls.foldl CompHandler.saveClause H).removedClauses.lits 0
      (cls.foldl CompHandler.saveClause H).removedClauses.sizes
      = cls.map (fun cl => cl.map H.solver.map_inter_to_outer_lit) := by
    rw [h2, hempty]
    have := CompHandler.cut_clauses_flatten
      (cls.map (fun cl => cl.map H.solver.map_inter_to_outer_lit)) []
    simpa using this
  refine ⟨hcut, ?_, t2, fun A comp vars h => CompHandler.solve_component_of_undef E A comp vars h⟩
  rw [t1, hcut, h1, List.map_map]
  rfl

theorem readd_round_trip_witness :
    CompHandler.cut_clauses
        ([[⟨0, false⟩, ⟨1, true⟩], [⟨2, false⟩, ⟨3, false⟩, ⟨4, true⟩]].foldl
          CompHandler.saveClause Example3.handler).removedClauses.lits 0
        ([[⟨0, false⟩, ⟨1, true⟩], [⟨2, false⟩, ⟨3, false⟩, ⟨4, true⟩]].foldl
          CompHandler.saveClause Example3.handler).removedClauses.sizes
      = [[⟨0, false⟩, ⟨1, true⟩], [⟨2, false⟩, ⟨3, false⟩, ⟨4, true⟩]].map
          (fun cl => cl.map Example3.handler.solver.map_inter_to_outer_lit)
    ∧ ([[⟨0, false⟩, ⟨1, true⟩], [⟨2, false⟩, ⟨3, false⟩, ⟨4, true⟩]].foldl
          CompHandler.saveClause Example3.handler).readdRemovedClauses.solver.trace
      = Example3.handler.solver.trace
        ++ [[⟨0, false⟩, ⟨1, true⟩], [⟨2, false⟩, ⟨3, false⟩, ⟨4, true⟩]].map
          (fun cl =>
            SolverCall.addClause (cl.map Example3.handler.solver.map_inter_to_outer_lit))
    ∧ ([[⟨0, false⟩, ⟨1, true⟩], [⟨2, false⟩, ⟨3, false⟩, ⟨4, true⟩]].foldl
          CompHandler.saveClause Example3.handler).readdRemovedClauses.removedClauses
        = ⟨[], []⟩
    ∧ ∀ (A : CompHandler) (comp : Nat) (vars : List Nat),
        Example3.env_timeout.solve
            (CompHandler.solve_component_setup Example3.env_timeout A comp vars).2
          = lbool.l_Undef →
        CompHandler.solve_component Example3.env_timeout A comp vars
          = ((CompHandler.solve_component_setup Example3.env_timeout A comp
                vars).1.readdRemovedClauses, false) :=
  readd_round_trip Example3.env_timeout Example3.handler
    [[⟨0, false⟩, ⟨1, true⟩], [⟨2, false⟩, ⟨3, false⟩, ⟨4, true⟩]] rfl

/-- On the formula of `Example3`, a sub-solver that runs out of time on component `0` makes
`handle()` put the binary clause of that component back through `addClause`. -/
theorem Example3.handle_timeout_trace :
    (CompHandler.handle Example3.env_timeout Example3.handler).1.solver.trace
        = [SolverCall.addClause [⟨0, false⟩, ⟨1, false⟩]]
    ∧ (CompHandler.handle Example3.env_timeout Example3.handler).1.removedClauses = ⟨[], []⟩
    ∧ (CompHandler.handle Example3.env_timeout Example3.handler).2 = true := by
  decide!

namespace CompHandler

theorem moveVariablesBetweenSolvers_spec (vars : List Nat) :
    ∀ (H : CompHandler) (N : SATSolver),
      (∀ v ∈ vars,
        ((moveVariablesBetweenSolvers H N vars).1.solver.varData v).removed = Removed.decomposed
        ∧ ((moveVariablesBetweenSolvers H N vars).1.solver.varData v).is_decision = false)
      ∧ (∀ v, v ∉ vars →
        (moveVariablesBetweenSolvers H N vars).1.solver.varData v = H.solver.varData v)
      ∧ (moveVariablesBetweenSolvers H N vars).2.nVars = N.nVars + vars.length := by
  induction vars with
  | nil =>
    intro H N
    exact ⟨by simp, fun _ _ => rfl, rfl⟩
  | cons x xs ih =>
    intro H N
    simp only [moveVariablesBetweenSolvers, List.foldl_cons] at ih ⊢
    obtain ⟨h1, h2, h3⟩ := ih
      { H with
        solver := (H.solver.unset_decision_var x).setVarData x
          { (H.solver.unset_decision_var x).varData x with removed := .decomposed },
        num_vars_removed := (H.num_vars_removed + 1) % 2 ^ 64 } N.new_var
    refine ⟨?_, ?_, ?_⟩
    · intro v hv
      by_cases hx : v ∈ xs
      · exact h1 v hx
      · have hvx : v = x := by
          rcases List.mem_cons.1 hv with h | h
          · exact h
          · exact absurd h hx
        rw [h2 v hx, hvx]
        simp [Solver.setVarData, Solver.unset_decision_var]
    · intro v hv
      have hvx : v ≠ x := fun h => hv (h ▸ List.mem_cons_self _ _)
      have hxs : v ∉ xs := fun h => hv (List.mem_cons_of_mem _ h)
      rw [h2 v hxs]
      simp [Solver.setVarData, Solver.unset_decision_var, hvx]
    · rw [h3]
      simp only [SATSolver.new_var, List.length_cons]
      omega

theorem foldl_clear_removed_varData (L : List Nat) :
    ∀ (H : CompHandler) (v : Nat),
      (L.foldl clear_removed H).solver.varData v
        = if (H.solver.varData v).removed = Removed.decomposed
              ∧ ∃ o ∈ L, H.solver.map_outer_to_inter o = v then
            { H.solver.varData v with removed := Removed.none, is_decision := true }
          else H.solver.varData v := by
  induction L with
  | nil => intro H v; simp
  | cons o rest ih =>
    intro H v
    simp only [List.foldl_cons]
    rw [ih]
    have hmap : ∀ o2, (H.clear_removed o).solver.map_outer_to_inter o2
        = H.solver.map_outer_to_inter o2 := by
      intro o2
      unfold Solver.map_outer_to_inter
      rw [(clear_removed_frame H o).2.2.2.1]
    simp only [hmap, List.mem_cons, exists_eq_or_imp]
    by_cases hv : H.solver.map_outer_to_inter o = v
    · by_cases hd : (H.solver.varData v).removed = Removed.decomposed
      · have e : (H.clear_removed o).solver.varData v
            = { H.solver.varData v with removed := Removed.none, is_decision := true } := by
          simp [clear_removed, hv, hd, Solver.setVarData, Solver.set_decision_var]
        rw [e]
        simp [hd, hv]
      · have e : (H.clear_removed o).solver.varData v = H.solver.varData v := by
          simp [clear_removed, hv, hd]
        rw [e]
        simp [hd]
    · have e : (H.clear_removed o).solver.varData v = H.solver.varData v := by
        unfold clear_removed
        simp only []
        split
        · simp [Solver.setVarData, Solver.set_decision_var, Ne.symm hv]
        · rfl
      rw [e]
      simp [hv]

theorem readdRemovedClauses_varData (H : CompHandler) (v : Nat) :
    H.readdRemovedClauses.solver.varData v
      = if (H.solver.varData v).removed = Removed.decomposed
            ∧ ∃ o ∈ List.range H.solver.nVarsOuter, H.solver.map_outer_to_inter o = v then
          { H.solver.varData v with removed := Removed.none, is_decision := true }
        else H.solver.varData v := by
  rw [← foldl_clear_removed_varData]
  unfold readdRemovedClauses
  simp only []
  rw [(foldl_addClause_trace _ _).2]

theorem readdRemovedClauses_savedState (H : CompHandler) :
    H.readdRemovedClauses.savedState = List.replicate H.savedState.length lbool.l_Undef := by
  obtain ⟨_, _, a3, _, _⟩ := foldl_clear_removed_frame (List.range H.solver.nVarsOuter) H
  unfold readdRemovedClauses
  simp only []
  rw [a3]
  exact List.map_const _ _

end CompHandler

/-- C9: `moveVariablesBetweenSolvers` sets `removed = decomposed` and clears the decision
flag for the variables of the handed-off component and for no other variable, and creates
one sub-solver variable per component variable.  `readdRemovedClauses` resets every
variable with `removed = decomposed` to `removed = none` with its decision flag set, leaves
the other variables as they are, and resets every `savedState` entry to `l_Undef`.  The
variables are those below `nVarsOuter`, each of which `map_outer_to_inter` reaches. -/
theorem decomposed_marking (H : CompHandler) (N : SATSolver) (vars : List Nat)
    (hperm : ∀ v < H.solver.nVarsOuter,
      ∃ outer < H.solver.nVarsOuter, H.solver.map_outer_to_inter outer = v) :
    (∀ v ∈ vars,
      ((CompHandler.moveVariablesBetweenSolvers H N vars).1.solver.varData v).removed
          = Removed.decomposed
      ∧ ((CompHandler.moveVariablesBetweenSolvers H N vars).1.solver.varData v).is_decision
          = false)
    ∧ (∀ v, v ∉ vars →
      (CompHandler.moveVariablesBetweenSolvers H N vars).1.solver.varData v
        = H.solver.varData v)
    ∧ (CompHandler.moveVariablesBetweenSolvers H N vars).2.nVars = N.nVars + vars.length
    ∧ (∀ v < H.solver.nVarsOuter, (H.solver.varData v).removed = Removed.decomposed →
      (H.readdRemovedClauses.solver.varData v).removed = Removed.none
      ∧ (H.readdRemovedClauses.solver.varData v).is_decision = true)
    ∧ (∀ v, (H.solver.varData v).removed ≠ Removed.decomposed →
      H.readdRemovedClauses.solver.varData v = H.solver.varData v)
    ∧ H.readdRemovedClauses.savedState.length = H.savedState.length
    ∧ (∀ val ∈ H.readdRemovedClauses.savedState, val = lbool.l_Undef) := by
  obtain ⟨m1, m2, m3⟩ := CompHandler.moveVariablesBetweenSolvers_spec vars H N
  refine ⟨m1, m2, m3, ?_, ?_, ?_, ?_⟩
  · intro v hv hd
    obtain ⟨o, ho, hov⟩ := hperm v hv
    rw [CompHandler.readdRemovedClauses_varData,
      if_pos ⟨hd, o, List.mem_range.2 ho, hov⟩]
    exact ⟨rfl, rfl⟩
  · intro v hd
    rw [CompHandler.readdRemovedClauses_varData, if_neg (fun h => hd h.1)]
  · rw [CompHandler.readdRemovedClauses_savedState, List.length_replicate]
  · intro val hval
    rw [CompHandler.readdRemovedClauses_savedState] at hval
    exact List.eq_of_mem_replicate hval

theorem decomposed_marking_witness :
    (∀ v ∈ [2, 3],
      ((CompHandler.moveVariablesBetweenSolvers Example3.handler_moved ⟨{}, 0, []⟩
          [2, 3]).1.solver.varData v).removed = Removed.decomposed
      ∧ ((CompHandler.moveVariablesBetweenSolvers Example3.handler_moved ⟨{}, 0, []⟩
          [2, 3]).1.solver.varData v).is_decision = false)
    ∧ (∀ v, v ∉ [2, 3] →
      (CompHandler.moveVariablesBetweenSolvers Example3.handler_moved ⟨{}, 0, []⟩
          [2, 3]).1.solver.varData v = Example3.handler_moved.solver.varData v)
    ∧ (CompHandler.moveVariablesBetweenSolvers Example3.handler_moved ⟨{}, 0, []⟩
          [2, 3]).2.nVars = (⟨{}, 0, []⟩ : SATSolver).nVars + [2, 3].length
    ∧ (∀ v < Example3.handler_moved.solver.nVarsOuter,
      (Example3.handler_moved.solver.varData v).removed = Removed.decomposed →
      (Example3.handler_moved.readdRemovedClauses.solver.varData v).removed = Removed.none
      ∧ (Example3.handler_moved.readdRemovedClauses.solver.varData v).is_decision = true)
    ∧ (∀ v, (Example3.handler_moved.solver.varData v).removed ≠ Removed.decomposed →
      Example3.handler_moved.readdRemovedClauses.solver.varData v
        = Example3.handler_moved.solver.varData v)
    ∧ Example3.handler_moved.readdRemovedClauses.savedState.length
        = Example3.handler_moved.savedState.length
    ∧ (∀ val ∈ Example3.handler_moved.readdRemovedClauses.savedState, val = lbool.l_Undef) :=
  decomposed_marking Example3.handler_moved ⟨{}, 0, []⟩ [2, 3]
    (fun v hv => ⟨v, hv, rfl⟩)

/-- In `Example3`, the variables `0` and `1` are marked after the move and reset by
`readdRemovedClauses`; variable `2` is never touched. -/
theorem Example3.handler_moved_varData :
    Example3.handler_moved.solver.varData 0 = ⟨Removed.decomposed, false, false, 0⟩
    ∧ Example3.handler_moved.solver.varData 1 = ⟨Removed.decomposed, false, false, 0⟩
    ∧ Example3.handler_moved.solver.varData 2 = ⟨Removed.none, true, false, 0⟩
    ∧ Example3.handler_moved.readdRemovedClauses.solver.varData 0
        = ⟨Removed.none, true, false, 0⟩
    ∧ Example3.handler_moved.readdRemovedClauses.solver.varData 1
        = ⟨Removed.none, true, false, 0⟩
    ∧ Example3.handler_moved.num_vars_removed = 2
    ∧ Example3.handler_moved.readdRemovedClauses.num_vars_removed = 0 := by
  decide

namespace CompHandler

theorem save_solution_frame (E : CompEnv) (N : SATSolver) (vars : List Nat) :
    ∀ H : CompHandler,
      (save_solution_to_savedstate E H N vars).solver = H.solver
      ∧ (save_solution_to_savedstate E H N vars).bigsolver_to_smallsolver
          = H.bigsolver_to_smallsolver
      ∧ (save_solution_to_savedstate E H N vars).savedState.length = H.savedState.length := by
  induction vars with
  | nil => intro H; exact ⟨rfl, rfl, rfl⟩
  | cons x xs ih =>
    intro H
    simp only [save_solution_to_savedstate, List.foldl_cons] at ih ⊢
    split
    · obtain ⟨a, b, c⟩ := ih { H with savedState := H.savedState.set (H.solver.map_inter_to_outer x) (E.get_model N (H.upd_bigsolver_to_smallsolver x)) }
      exact ⟨a, b, by rw [c]; simp⟩
    · exact ih H

theorem save_solution_other (E : CompEnv) (N : SATSolver) (vars : List Nat) :
    ∀ (H : CompHandler) (o : Nat),
      (∀ v ∈ vars, E.get_model N (H.upd_bigsolver_to_smallsolver v) ≠ lbool.l_Undef →
        H.solver.map_inter_to_outer v ≠ o) →
      (save_solution_to_savedstate E H N vars).savedState[o]? = H.savedState[o]? := by
  induction vars with
  | nil => intro H o _; rfl
  | cons x xs ih =>
    intro H o h
    simp only [save_solution_to_savedstate, List.foldl_cons] at ih ⊢
    split
    · rename_i hx
      have hxo : H.solver.map_inter_to_outer x ≠ o :=
        h x (List.mem_cons_self _ _) (by simpa using hx)
      rw [ih { H with savedState := H.savedState.set (H.solver.map_inter_to_outer x) (E.get_model N (H.upd_bigsolver_to_smallsolver x)) } o
        (fun v hv hm => h v (List.mem_cons_of_mem _ hv) hm)]
      simp only []
      rw [List.getElem?_set_ne hxo]
    · exact ih H o (fun v hv hm => h v (List.mem_cons_of_mem _ hv) hm)

theorem save_solution_value (E : CompEnv) (N : SATSolver) (vars : List Nat) :
    ∀ (H : CompHandler),
      (∀ v ∈ vars, ∀ w ∈ vars,
        H.solver.map_inter_to_outer v = H.solver.map_inter_to_outer w → v = w) →
      (∀ v ∈ vars, H.solver.map_inter_to_outer v < H.savedState.length) →
      ∀ v ∈ vars, E.get_model N (H.upd_bigsolver_to_smallsolver v) ≠ lbool.l_Undef →
        (save_solution_to_savedstate E H N vars).savedState[H.solver.map_inter_to_outer v]?
          = some (E.get_model N (H.upd_bigsolver_to_smallsolver v)) := by
  induction vars with
  | nil => intro H _ _ v hv; simp at hv
  | cons x xs ih =>
    intro H hinj hb v hv hm
    have hinj2 : ∀ v ∈ xs, ∀ w ∈ xs,
        H.solver.map_inter_to_outer v = H.solver.map_inter_to_outer w → v = w :=
      fun a ha b hb2 => hinj a (List.mem_cons_of_mem _ ha) b (List.mem_cons_of_mem _ hb2)
    have hb2 : ∀ v ∈ xs, H.solver.map_inter_to_outer v < H.savedState.length :=
      fun a ha => hb a (List.mem_cons_of_mem _ ha)
    by_cases hvx : v ∈ xs
    · simp only [save_solution_to_savedstate, List.foldl_cons] at ih ⊢
      split
      · exact ih { H with savedState := H.savedState.set (H.solver.map_inter_to_outer x) (E.get_model N (H.upd_bigsolver_to_smallsolver x)) } hinj2
          (fun a ha => by simpa using hb2 a ha) v hvx hm
      · exact ih H hinj2 hb2 v hvx hm
    · have hxv : v = x := by
        rcases List.mem_cons.1 hv with h | h
        · exact h
        · exact absurd h hvx
      subst hxv
      have hother := save_solution_other E N xs
      simp only [save_solution_to_savedstate, List.foldl_cons] at hother ⊢
      rw [if_pos (by simpa using hm)]
      rw [hother { H with savedState := H.savedState.set (H.solver.map_inter_to_outer v) (E.get_model N (H.upd_bigsolver_to_smallsolver v)) } (H.solver.map_inter_to_outer v)
        (fun w hw _ he =>
          hvx ((hinj w (List.mem_cons_of_mem _ hw) v (List.mem_cons_self _ _) he) ▸ hw))]
      simp only []
      rw [List.getElem?_set_self]
      simp [hb v (List.mem_cons_self _ _)]

theorem addSavedState_step_spec (acc : CompHandler × List lbool) (x var : Nat) :
    (addSavedState_step acc x).1.savedState = acc.1.savedState
    ∧ (addSavedState_step acc x).2.length = acc.2.length
    ∧ (addSavedState_step acc x).2[var]?
      = if var = x ∧ acc.1.savedState.getD var lbool.l_Undef ≠ lbool.l_Undef
            ∧ var < acc.2.length then
          some (acc.1.savedState.getD var lbool.l_Undef)
        else acc.2[var]? := by
  by_cases hx : acc.1.savedState.getD x lbool.l_Undef = lbool.l_Undef
  · have hstep : addSavedState_step acc x = acc := by
      unfold addSavedState_step
      simp only [hx, bne_self_eq_false, Bool.false_eq_true, if_false]
    rw [hstep]
    refine ⟨rfl, rfl, ?_⟩
    by_cases hv : var = x
    · subst hv
      rw [if_neg (fun h => h.2.1 hx)]
    · rw [if_neg (fun h => hv h.1)]
  · have hb : (acc.1.savedState.getD x lbool.l_Undef != lbool.l_Undef) = true :=
      bne_iff_ne.2 hx
    have hstep : (addSavedState_step acc x).2
        = acc.2.set x (acc.1.savedState.getD x lbool.l_Undef) := by
      unfold addSavedState_step
      simp only [hb, if_true]
    have hstep1 : (addSavedState_step acc x).1.savedState = acc.1.savedState := by
      unfold addSavedState_step
      simp only [hb, if_true]
    rw [hstep]
    refine ⟨hstep1, List.length_set _ _ _, ?_⟩
    by_cases hv : var = x
    · subst hv
      by_cases hl : var < acc.2.length
      · rw [if_pos ⟨rfl, hx, hl⟩, List.getElem?_set_self hl]
      · rw [if_neg (fun h => hl h.2.2)]
        have e1 : (acc.2.set var (acc.1.savedState.getD var lbool.l_Undef))[var]? = none :=
          List.getElem?_eq_none (by rw [List.length_set]; omega)
        have e2 : acc.2[var]? = none := List.getElem?_eq_none (by omega)
        rw [e1, e2]
    · rw [List.getElem?_set_ne (Ne.symm hv), if_neg (fun h => hv h.1)]

theorem addSavedState_fold (L : List Nat) :
    ∀ (acc : CompHandler × List lbool) (var : Nat),
      (L.foldl addSavedState_step acc).1.savedState = acc.1.savedState
      ∧ (L.foldl addSavedState_step acc).2.length = acc.2.length
      ∧ (L.foldl addSavedState_step acc).2[var]?
        = if var ∈ L ∧ acc.1.savedState.getD var lbool.l_Undef ≠ lbool.l_Undef
              ∧ var < acc.2.length then
            some (acc.1.savedState.getD var lbool.l_Undef)
          else acc.2[var]? := by
  induction L with
  | nil =>
    intro acc var
    refine ⟨rfl, rfl, ?_⟩
    rw [if_neg (fun h => List.not_mem_nil _ h.1)]
    rfl
  | cons x xs ih =>
    intro acc var
    simp only [List.foldl_cons]
    obtain ⟨a, b, c⟩ := ih (addSavedState_step acc x) var
    obtain ⟨a1, b1, c1⟩ := addSavedState_step_spec acc x var
    refine ⟨a.trans a1, b.trans b1, ?_⟩
    rw [c, a1, b1, c1]
    by_cases h1 : acc.1.savedState.getD var lbool.l_Undef ≠ lbool.l_Undef
        ∧ var < acc.2.length
    · by_cases h2 : var ∈ xs
      · rw [if_pos ⟨h2, h1⟩, if_pos ⟨List.mem_cons_of_mem _ h2, h1⟩]
      · by_cases h3 : var = x
        · rw [if_neg (fun h => h2 h.1), if_pos ⟨h3, h1⟩,
            if_pos ⟨h3 ▸ List.mem_cons_self _ _, h1⟩]
        · rw [if_neg (fun h => h2 h.1), if_neg (fun h => h3 h.1), if_neg]
          rintro ⟨h, _⟩
          rcases List.mem_cons.1 h with h | h
          · exact h3 h
          · exact h2 h
    · rw [if_neg (fun h => h1 h.2), if_neg (fun h => h1 h.2), if_neg (fun h => h1 h.2)]

theorem addSavedState_spec (H : CompHandler) (solution : List lbool) (var : Nat) :
    (H.addSavedState solution).1.savedState = H.savedState
    ∧ (H.addSavedState solution).2.length = solution.length
    ∧ (H.addSavedState solution).2[var]?
      = if var < H.savedState.length ∧ H.savedState.getD var lbool.l_Undef ≠ lbool.l_Undef
            ∧ var < solution.length then
          some (H.savedState.getD var lbool.l_Undef)
        else solution[var]? := by
  obtain ⟨a, b, c⟩ := addSavedState_fold (List.range H.savedState.length) (H, solution) var
  unfold addSavedState
  refine ⟨a, b, ?_⟩
  rw [c]
  simp only [List.mem_range]

end CompHandler

/-- C10: after `save_solution_to_savedstate`, `savedState[outer(v)]` is the value that the
model of the sub-solver gives to the renumbered `v`, for every component variable `v`
whose model value is defined, and every other entry of `savedState` is as before;
`addSavedState(solution)` then sets `solution[var] = savedState[var]` for the outer
variables with `savedState[var] ≠ l_Undef` and leaves every other entry of `solution` as
it is.  Here `map_inter_to_outer` is one-to-one on the component and maps it into
`savedState`, and `solution` is as long as `savedState`. -/
theorem saved_state_frame (E : CompEnv) (H : CompHandler) (N : SATSolver) (vars : List Nat)
    (solution : List lbool)
    (hinj : ∀ v ∈ vars, ∀ w ∈ vars,
      H.solver.map_inter_to_outer v = H.solver.map_inter_to_outer w → v = w)
    (hbound : ∀ v ∈ vars, H.solver.map_inter_to_outer v < H.savedState.length)
    (hlen : solution.length = H.savedState.length) :
    (∀ v ∈ vars, E.get_model N (H.upd_bigsolver_to_smallsolver v) ≠ lbool.l_Undef →
      (CompHandler.save_solution_to_savedstate E H N vars).savedState[
          H.solver.map_inter_to_outer v]?
        = some (E.get_model N (H.upd_bigsolver_to_smallsolver v)))
    ∧ (∀ o : Nat, (∀ v ∈ vars, E.get_model N (H.upd_bigsolver_to_smallsolver v) ≠ lbool.l_Undef →
        H.solver.map_inter_to_outer v ≠ o) →
      (CompHandler.save_solution_to_savedstate E H N vars).savedState[o]? = H.savedState[o]?)
    ∧ (CompHandler.save_solution_to_savedstate E H N vars).savedState.length
        = H.savedState.length
    ∧ (∀ (var : Nat) (val : lbool),
      (CompHandler.save_solution_to_savedstate E H N vars).savedState[var]? = some val →
      val ≠ lbool.l_Undef →
      ((CompHandler.save_solution_to_savedstate E H N vars).addSavedState solution).2[var]?
        = some val)
    ∧ (∀ var : Nat,
      (CompHandler.save_solution_to_savedstate E H N vars).savedState.getD var lbool.l_Undef
        = lbool.l_Undef →
      ((CompHandler.save_solution_to_savedstate E H N vars).addSavedState solution).2[var]?
        = solution[var]?)
    ∧ ((CompHandler.save_solution_to_savedstate E H N vars).addSavedState solution).2.length
        = solution.length := by
  obtain ⟨_, _, f3⟩ := CompHandler.save_solution_frame E N vars H
  refine ⟨CompHandler.save_solution_value E N vars H hinj hbound,
    CompHandler.save_solution_other E N vars H, f3, ?_, ?_, ?_⟩
  · intro var val hval hne
    obtain ⟨_, _, c⟩ := CompHandler.addSavedState_spec
      (CompHandler.save_solution_to_savedstate E H N vars) solution var
    have hlt : var < (CompHandler.save_solution_to_savedstate E H N vars).savedState.length := by
      by_contra hge
      rw [List.getElem?_eq_none (by omega)] at hval
      exact Option.noConfusion hval
    have hget : (CompHandler.save_solution_to_savedstate E H N vars).savedState.getD var
        lbool.l_Undef = val := by
      rw [List.getD_eq_getElem?_getD, hval]
      rfl
    rw [c, hget, if_pos ⟨hlt, hne, by omega⟩]
  · intro var hu
    obtain ⟨_, _, c⟩ := CompHandler.addSavedState_spec
      (CompHandler.save_solution_to_savedstate E H N vars) solution var
    rw [c, if_neg (fun h => h.2.1 hu)]
  · exact (CompHandler.addSavedState_spec
      (CompHandler.save_solution_to_savedstate E H N vars) solution 0).2.1

theorem saved_state_frame_witness :
    (∀ v ∈ [0, 1],
      Example3.env_sat.get_model Example3.setup.2
          (Example3.setup.1.upd_bigsolver_to_smallsolver v) ≠ lbool.l_Undef →
      (CompHandler.save_solution_to_savedstate Example3.env_sat Example3.setup.1
          Example3.setup.2 [0, 1]).savedState[
          Example3.setup.1.solver.map_inter_to_outer v]?
        = some (Example3.env_sat.get_model Example3.setup.2
            (Example3.setup.1.upd_bigsolver_to_smallsolver v)))
    ∧ (∀ o : Nat, (∀ v ∈ [0, 1],
        Example3.env_sat.get_model Example3.setup.2
            (Example3.setup.1.upd_bigsolver_to_smallsolver v) ≠ lbool.l_Undef →
        Example3.setup.1.solver.map_inter_to_outer v ≠ o) →
      (CompHandler.save_solution_to_savedstate Example3.env_sat Example3.setup.1
          Example3.setup.2 [0, 1]).savedState[o]? = Example3.setup.1.savedState[o]?)
    ∧ (CompHandler.save_solution_to_savedstate Example3.env_sat Example3.setup.1
          Example3.setup.2 [0, 1]).savedState.length = Example3.setup.1.savedState.length
    ∧ (∀ (var : Nat) (val : lbool),
      (CompHandler.save_solution_to_savedstate Example3.env_sat Example3.setup.1
          Example3.setup.2 [0, 1]).savedState[var]? = some val →
      val ≠ lbool.l_Undef →
      ((CompHandler.save_solution_to_savedstate Example3.env_sat Example3.setup.1
          Example3.setup.2 [0, 1]).addSavedState (List.replicate 6 lbool.l_Undef)).2[var]?
        = some val)
    ∧ (∀ var : Nat,
      (CompHandler.save_solution_to_savedstate Example3.env_sat Example3.setup.1
          Example3.setup.2 [0, 1]).savedState.getD var lbool.l_Undef = lbool.l_Undef →
      ((CompHandler.save_solution_to_savedstate Example3.env_sat Example3.setup.1
          Example3.setup.2 [0, 1]).addSavedState (List.replicate 6 lbool.l_Undef)).2[var]?
        = (List.replicate 6 lbool.l_Undef)[var]?)
    ∧ ((CompHandler.save_solution_to_savedstate Example3.env_sat Example3.setup.1
          Example3.setup.2 [0, 1]).addSavedState (List.replicate 6 lbool.l_Undef)).2.length
        = (List.replicate 6 lbool.l_Undef).length :=
  saved_state_frame Example3.env_sat Example3.setup.1 Example3.setup.2 [0, 1]
    (List.replicate 6 lbool.l_Undef) (by decide) (by decide) (by decide)

/-- In `Example3` the model of the sub-solver for component `0` reaches `savedState` and,
through `addSavedState`, the solution; `handle()` solves the component and returns true. -/
theorem Example3.saved_state_values :
    (CompHandler.save_solution_to_savedstate Example3.env_sat Example3.setup.1
        Example3.setup.2 [0, 1]).savedState
      = [lbool.l_True, lbool.l_False, lbool.l_Undef, lbool.l_Undef, lbool.l_Undef,
          lbool.l_Undef]
    ∧ ((CompHandler.save_solution_to_savedstate Example3.env_sat Example3.setup.1
        Example3.setup.2 [0, 1]).addSavedState (List.replicate 6 lbool.l_Undef)).2
      = [lbool.l_True, lbool.l_False, lbool.l_Undef, lbool.l_Undef, lbool.l_Undef,
          lbool.l_Undef]
    ∧ (CompHandler.handle Example3.env_sat Example3.handler).1.savedState
      = [lbool.l_True, lbool.l_False, lbool.l_Undef, lbool.l_Undef, lbool.l_Undef,
          lbool.l_Undef]
    ∧ (CompHandler.handle Example3.env_sat Example3.handler).2 = true
    ∧ Example3.setup.2.clauses = [[⟨0, false⟩, ⟨1, false⟩]]
    ∧ Example3.setup.2.nVars = 2 := by
  decide!

/-- C11, as stated, fails: with `conf.compVarLimit = 1` the component `0` of `Example3`,
which has two variables, is handed to a sub-solver all the same: the result of
`try_to_solve_component` is that of `solve_component`, its two variables are marked
`decomposed` and the model of the sub-solver is in `savedState`. -/
theorem try_to_solve_component_limit_counterexample :
    Example3.handler_limit.solver.conf.compVarLimit = 1
    ∧ ¬ ([0, 1].length ≤ Example3.handler_limit.solver.conf.compVarLimit)
    ∧ CompHandler.try_to_solve_component Example3.env_sat Example3.handler_limit 0 [0, 1]
      = CompHandler.solve_component Example3.env_sat Example3.handler_limit 0 [0, 1]
    ∧ ((CompHandler.try_to_solve_component Example3.env_sat Example3.handler_limit 0
          [0, 1]).1.solver.varData 0).removed = Removed.decomposed
    ∧ ((CompHandler.try_to_solve_component Example3.env_sat Example3.handler_limit 0
          [0, 1]).1.solver.varData 1).removed = Removed.decomposed
    ∧ (CompHandler.try_to_solve_component Example3.env_sat Example3.handler_limit 0
          [0, 1]).1.savedState
      = [lbool.l_True, lbool.l_False, lbool.l_Undef, lbool.l_Undef, lbool.l_Undef,
          lbool.l_Undef]
    ∧ Example3.handler_limit.savedState = List.replicate 6 lbool.l_Undef := by
  refine ⟨rfl, by decide, rfl, by decide!, by decide!, by decide!, rfl⟩

/-- C11, amended: `try_to_solve_component` hands a component to a sub-solver (its result
is that of `solve_component`) only if the component has at most `100 * 1000` variables, a
constant of the code, and none of its variables is inside the assumptions; otherwise it
returns true and leaves the handler as it is.  `conf.compVarLimit` is not read. -/
theorem try_to_solve_component_gate (E : CompEnv) (H : CompHandler) (comp : Nat)
    (vars : List Nat) :
    (vars.length ≤ 100 * 1000 ∧ CompHandler.assumpsInsideComponent E H vars = false
      ∧ CompHandler.try_to_solve_component E H comp vars
        = CompHandler.solve_component E H comp vars)
    ∨ ((100 * 1000 < vars.length ∨ CompHandler.assumpsInsideComponent E H vars = true)
      ∧ CompHandler.try_to_solve_component E H comp vars = (H, true)) := by
  unfold CompHandler.try_to_solve_component
  by_cases h1 : vars.length > 100 * 1000
  · right
    exact ⟨Or.inl h1, by rw [if_pos h1]⟩
  · rw [if_neg h1]
    cases h2 : CompHandler.assumpsInsideComponent E H vars
    · left
      exact ⟨by omega, rfl, by simp⟩
    · right
      exact ⟨Or.inr rfl, by simp⟩

/-- A component of `100001` variables is not handed to a sub-solver, although the default
`conf.compVarLimit` is `1000000`. -/
theorem try_to_solve_component_gate_at_limit :
    Example3.handler.solver.conf.compVarLimit = 1000000
    ∧ CompHandler.try_to_solve_component Example3.env_sat
        { Example3.handler with compFinder := some Example3.finder } 0
        (List.replicate 100001 0)
      = ({ Example3.handler with compFinder := some Example3.finder }, true) := by
  refine ⟨rfl, ?_⟩
  unfold CompHandler.try_to_solve_component
  rw [if_pos (by rw [List.length_replicate]; decide)]

namespace CompHandler

theorem handle_loop_offered_spec (E : CompEnv) (rt : List (Nat × List Nat))
    (L : List (Nat × Nat)) :
    ∀ H : CompHandler,
      (∃ rest, handle_loop_offered E rt H L ++ rest = L)
      ∧ (handle_loop E rt H (handle_loop_offered E rt H L)).1 = (handle_loop E rt H L).1 := by
  induction L with
  | nil => intro H; exact ⟨⟨[], rfl⟩, rfl⟩
  | cons s rest ih =>
    intro H
    simp only [handle_loop_offered]
    by_cases hc : (try_to_solve_component E H s.1 ((rt.lookup s.1).getD [])).2 = true
    · obtain ⟨⟨t, ht⟩, hl⟩ := ih (try_to_solve_component E H s.1 ((rt.lookup s.1).getD [])).1
      simp only [hc, Bool.not_true, Bool.false_eq_true, if_false, handle_loop]
      exact ⟨⟨t, by rw [List.cons_append, ht]⟩, hl⟩
    · have hc2 : (try_to_solve_component E H s.1 ((rt.lookup s.1).getD [])).2 = false := by
        simpa using hc
      simp only [hc2, Bool.not_false, if_true, handle_loop]
      exact ⟨⟨rest, rfl⟩, trivial⟩

theorem get_component_sizes_sorted (H : CompHandler) :
    (H.get_component_sizes).Sorted (fun a b => a.2 ≤ b.2) := by
  unfold get_component_sizes
  split
  · haveI : IsTotal (Nat × Nat) (fun a b => a.2 ≤ b.2) := ⟨fun a b => Nat.le_total a.2 b.2⟩
    haveI : IsTrans (Nat × Nat) (fun a b => a.2 ≤ b.2) := ⟨fun a b c h1 h2 => Nat.le_trans h1 h2⟩
    exact List.sorted_insertionSort _ _
  · exact List.sorted_nil

theorem get_component_sizes_perm (H : CompHandler) (cf : CompFinder)
    (h : H.compFinder = some cf) :
    (H.get_component_sizes).Perm (cf.reverseTable.map (fun p => (p.1, p.2.length % 2 ^ 32))) := by
  unfold get_component_sizes
  rw [h]
  exact List.perm_insertionSort _ _

theorem lookup_of_mem_nodup {rt : List (Nat × List Nat)} (hk : (rt.map Prod.fst).Nodup)
    {k : Nat} {vars : List Nat} (h : (k, vars) ∈ rt) : rt.lookup k = some vars := by
  induction rt with
  | nil => simp at h
  | cons p rest ih =>
    rw [List.map_cons, List.nodup_cons] at hk
    rcases List.mem_cons.1 h with h1 | h1
    · rw [← h1]
      simp [List.lookup]
    · have hne : k ≠ p.1 := by
        intro he
        exact hk.1 (List.mem_map.2 ⟨(k, vars), h1, he⟩)
      obtain ⟨p1, p2⟩ := p
      rw [List.lookup_cons]
      have : (k == p1) = false := by simpa using hne
      rw [this]
      exact ih hk.2 h1

end CompHandler

/-- C12: `handle()` offers components to `try_to_solve_component` in non-decreasing order
of variable count: the components offered are an initial part of the list of all
components sorted by size, without the last entry of that list, which is never offered and
so stays in the main solver; nothing is done for a component that is not offered.  When at
most one component exists, `handle()` offers nothing, leaves the handler and the solver as
they are (no variable is marked) and returns `solver.ok`.  The component finder reports
each component once, with fewer than `2^32` variables. -/
theorem handle_offers_in_order (E : CompEnv) (H : CompHandler)
    (hkeys : ((E.find_components H.solver).reverseTable.map Prod.fst).Nodup)
    (hsize : ∀ p ∈ (E.find_components H.solver).reverseTable, p.2.length < 2 ^ 32) :
    (∃ rest, CompHandler.handle_offered E H ++ rest
      = (CompHandler.get_component_sizes
          { H with compFinder := some (E.find_components H.solver) }).dropLast)
    ∧ (CompHandler.get_component_sizes
          { H with compFinder := some (E.find_components H.solver) }).Perm
        ((E.find_components H.solver).reverseTable.map (fun p => (p.1, p.2.length)))
    ∧ (CompHandler.get_component_sizes
          { H with compFinder := some (E.find_components H.solver) }).Sorted
        (fun a b => a.2 ≤ b.2)
    ∧ (∀ s ∈ CompHandler.handle_offered E H,
        (((E.find_components H.solver).reverseTable.lookup s.1).getD []).length = s.2)
    ∧ ((CompHandler.handle_offered E H).map
        (fun s => (((E.find_components H.solver).reverseTable.lookup s.1).getD []).length)).Sorted
        (fun a b => a ≤ b)
    ∧ (∀ last ∈ (CompHandler.get_component_sizes
          { H with compFinder := some (E.find_components H.solver) }).getLast?,
        last.1 ∉ (CompHandler.handle_offered E H).map Prod.fst)
    ∧ (CompHandler.handle E H).1
      = { (CompHandler.handle_loop E (E.find_components H.solver).reverseTable
            { H with compFinder := some (E.find_components H.solver) }
            (CompHandler.handle_offered E H)).1 with compFinder := none }
    ∧ ((E.find_components H.solver).found = true →
        (E.find_components H.solver).reverseTable.length ≤ 1 →
        CompHandler.handle E H = ({ H with compFinder := none }, H.solver.ok)
        ∧ CompHandler.handle_offered E H = []) := by
  have hperm0 := CompHandler.get_component_sizes_perm
    { H with compFinder := some (E.find_components H.solver) } (E.find_components H.solver) rfl
  have hmap : (E.find_components H.solver).reverseTable.map
        (fun p => (p.1, p.2.length % 2 ^ 32))
      = (E.find_components H.solver).reverseTable.map (fun p => (p.1, p.2.length)) := by
    apply List.map_congr_left
    intro p hp
    rw [Nat.mod_eq_of_lt (hsize p hp)]
  rw [hmap] at hperm0
  have hsorted := CompHandler.get_component_sizes_sorted
    { H with compFinder := some (E.find_components H.solver) }
  -- the offered entries are an initial part of `sizes.dropLast`
  have hpre : ∃ rest, CompHandler.handle_offered E H ++ rest
      = (CompHandler.get_component_sizes
          { H with compFinder := some (E.find_components H.solver) }).dropLast := by
    unfold CompHandler.handle_offered
    simp only []
    split
    · exact ⟨_, List.nil_append _⟩
    · split
      · exact ⟨_, List.nil_append _⟩
      · split
        · exact ⟨_, List.nil_append _⟩
        · exact (CompHandler.handle_loop_offered_spec E _ _ _).1
  obtain ⟨rest, hrest⟩ := hpre
  have hmem_sizes : ∀ s ∈ CompHandler.handle_offered E H,
      s ∈ CompHandler.get_component_sizes
        { H with compFinder := some (E.find_components H.solver) } := by
    intro s hs
    apply List.dropLast_subset
    rw [← hrest]
    exact List.mem_append_left _ hs
  have hcount : ∀ s ∈ CompHandler.get_component_sizes
        { H with compFinder := some (E.find_components H.solver) },
      (((E.find_components H.solver).reverseTable.lookup s.1).getD []).length = s.2 := by
    intro s hs
    have hs2 := hperm0.subset hs
    obtain ⟨p, hp, hps⟩ := List.mem_map.1 hs2
    have hl := CompHandler.lookup_of_mem_nodup hkeys (show (p.1, p.2) ∈ _ from hp)
    rw [← hps]
    simp only []
    rw [hl]
    rfl
  have hsorted_off : ((CompHandler.handle_offered E H).map
      (fun s => (((E.find_components H.solver).reverseTable.lookup s.1).getD []).length)).Sorted
      (fun a b => a ≤ b) := by
    have h1 : ((CompHandler.handle_offered E H).map
        (fun s => (((E.find_components H.solver).reverseTable.lookup s.1).getD []).length))
        = (CompHandler.handle_offered E H).map Prod.snd :=
      List.map_congr_left (fun s hs => hcount s (hmem_sizes s hs))
    rw [h1]
    have h2 : ((CompHandler.get_component_sizes
        { H with compFinder := some (E.find_components H.solver) }).dropLast).Sorted
        (fun a b => a.2 ≤ b.2) :=
      List.Pairwise.sublist (List.dropLast_sublist _) hsorted
    rw [← hrest] at h2
    have h3 : (CompHandler.handle_offered E H).Sorted (fun a b => a.2 ≤ b.2) :=
      List.Pairwise.sublist (List.sublist_append_left _ _) h2
    exact List.pairwise_map.2 h3
  have hlast : ∀ last ∈ (CompHandler.get_component_sizes
        { H with compFinder := some (E.find_components H.solver) }).getLast?,
      last.1 ∉ (CompHandler.handle_offered E H).map Prod.fst := by
    intro last hl hmem
    have hnd : ((CompHandler.get_component_sizes
        { H with compFinder := some (E.find_components H.solver) }).map Prod.fst).Nodup := by
      have hp := hperm0.map Prod.fst
      rw [List.map_map] at hp
      exact (hp.nodup_iff).2 hkeys
    have hsplit := List.dropLast_append_getLast? last hl
    rw [← hsplit, List.map_append, List.nodup_append] at hnd
    obtain ⟨_, _, hdis⟩ := hnd
    refine hdis ?_ (show last.1 ∈ List.map Prod.fst [last] by simp)
    rw [← hrest, List.map_append]
    exact List.mem_append_left _ hmem
  refine ⟨⟨rest, hrest⟩, hperm0, hsorted, fun s hs => hcount s (hmem_sizes s hs), hsorted_off,
    hlast, ?_, ?_⟩
  · unfold CompHandler.handle CompHandler.handle_offered
    simp only []
    split
    · rfl
    · split
      · rfl
      · split
        · rfl
        · simp only []
          rw [(CompHandler.handle_loop_offered_spec E _ _ _).2]
  · intro hfound hle
    have hmod : (E.find_components H.solver).reverseTable.length % 2 ^ 32 ≤ 1 := by
      rw [Nat.mod_eq_of_lt (by omega)]
      exact hle
    unfold CompHandler.handle CompHandler.handle_offered
    simp only [hfound, Bool.not_true, Bool.false_eq_true, if_false, hmod, if_true]
    constructor
    · split
      · rfl
      · rfl
    · split <;> rfl

theorem handle_offers_in_order_witness :
    (∃ rest, CompHandler.handle_offered Example3.env_sat Example3.handler ++ rest
      = (CompHandler.get_component_sizes
          { Example3.handler with
            compFinder := some (Example3.env_sat.find_components Example3.handler.solver)
          }).dropLast)
    ∧ (CompHandler.get_component_sizes
          { Example3.handler with
            compFinder := some (Example3.env_sat.find_components Example3.handler.solver)
          }).Perm
        ((Example3.env_sat.find_components Example3.handler.solver).reverseTable.map
          (fun p => (p.1, p.2.length)))
    ∧ (CompHandler.get_component_sizes
          { Example3.handler with
            compFinder := some (Example3.env_sat.find_components Example3.handler.solver)
          }).Sorted (fun a b => a.2 ≤ b.2)
    ∧ (∀ s ∈ CompHandler.handle_offered Example3.env_sat Example3.handler,
        (((Example3.env_sat.find_components Example3.handler.solver).reverseTable.lookup
          s.1).getD []).length = s.2)
    ∧ ((CompHandler.handle_offered Example3.env_sat Example3.handler).map
        (fun s => (((Example3.env_sat.find_components
          Example3.handler.solver).reverseTable.lookup s.1).getD []).length)).Sorted
        (fun a b => a ≤ b)
    ∧ (∀ last ∈ (CompHandler.get_component_sizes
          { Example3.handler with
            compFinder := some (Example3.env_sat.find_components Example3.handler.solver)
          }).getLast?,
        last.1 ∉ (CompHandler.handle_offered Example3.env_sat Example3.handler).map Prod.fst)
    ∧ (CompHandler.handle Example3.env_sat Example3.handler).1
      = { (CompHandler.handle_loop Example3.env_sat
            (Example3.env_sat.find_components Example3.handler.solver).reverseTable
            { Example3.handler with
              compFinder := some (Example3.env_sat.find_components Example3.handler.solver) }
            (CompHandler.handle_offered Example3.env_sat Example3.handler)).1 with
          compFinder := none }
    ∧ ((Example3.env_sat.find_components Example3.handler.solver).found = true →
        (Example3.env_sat.find_components Example3.handler.solver).reverseTable.length ≤ 1 →
        CompHandler.handle Example3.env_sat Example3.handler
          = ({ Example3.handler with compFinder := none }, Example3.handler.solver.ok)
        ∧ CompHandler.handle_offered Example3.env_sat Example3.handler = []) :=
  handle_offers_in_order Example3.env_sat Example3.handler (by decide) (by decide)

/-- In `Example3` the component `0` (two variables) is offered and the component `1` (four
variables) is not. -/
theorem Example3.handle_offered_eq :
    CompHandler.handle_offered Example3.env_sat Example3.handler = [(0, 2)]
    ∧ CompHandler.get_component_sizes { Example3.handler with compFinder := some Example3.finder }
      = [(0, 2), (1, 4)] := by
  decide!

namespace CompHandler

/-- The loop of `createRenumbering` writes `rest` into `smallsolver_to_bigsolver` behind the
first `i` entries. -/
theorem createRenumbering_fold_s2b (rest : List Nat) :
    ∀ (b2s s2b : List Nat) (i : Nat), s2b.length = i + rest.length →
      (rest.foldl
        (fun (acc : List Nat × List Nat × Nat) v =>
          (acc.1.set v acc.2.2, acc.2.1.set acc.2.2 v, acc.2.2 + 1))
        (b2s, s2b, i)).2.1 = s2b.take i ++ rest := by
  induction rest with
  | nil =>
    intro b2s s2b i h
    simp only [List.foldl_nil, List.append_nil]
    rw [List.take_of_length_le (by simp at h; omega)]
  | cons v rest ih =>
    intro b2s s2b i h
    simp only [List.foldl_cons]
    rw [ih (b2s.set v i) (s2b.set i v) (i + 1) (by rw [List.length_set, h, List.length_cons]; omega)]
    have hi : i < s2b.length := by rw [h, List.length_cons]; omega
    have e : (s2b.set i v).take i = s2b.take i := by
      rw [List.set_take, List.set_eq_of_length_le (by rw [List.length_take]; omega)]
    rw [List.take_succ, e, List.getElem?_set_self hi]
    simp

/-- The loop of `createRenumbering` writes the position of each variable of `rest` into
`bigsolver_to_smallsolver` and leaves the other entries as they are. -/
theorem createRenumbering_fold_b2s (rest : List Nat) :
    ∀ (b2s s2b : List Nat) (i : Nat), rest.Nodup → (∀ v ∈ rest, v < b2s.length) →
      (∀ k (hk : k < rest.length),
        (rest.foldl
          (fun (acc : List Nat × List Nat × Nat) v =>
            (acc.1.set v acc.2.2, acc.2.1.set acc.2.2 v, acc.2.2 + 1))
          (b2s, s2b, i)).1[rest[k]]? = some (i + k))
      ∧ (∀ u, u ∉ rest →
        (rest.foldl
          (fun (acc : List Nat × List Nat × Nat) v =>
            (acc.1.set v acc.2.2, acc.2.1.set acc.2.2 v, acc.2.2 + 1))
          (b2s, s2b, i)).1[u]? = b2s[u]?) := by
  induction rest with
  | nil =>
    intro b2s s2b i _ _
    exact ⟨fun k hk => absurd hk (Nat.not_lt_zero _), fun _ _ => rfl⟩
  | cons v rest ih =>
    intro b2s s2b i hnd hlt
    rw [List.nodup_cons] at hnd
    obtain ⟨h1, h2⟩ := ih (b2s.set v i) (s2b.set i v) (i + 1) hnd.2
      (fun w hw => by rw [List.length_set]; exact hlt w (List.mem_cons_of_mem _ hw))
    simp only [List.foldl_cons]
    constructor
    · intro k hk
      cases k with
      | zero =>
        simp only [List.getElem_cons_zero, Nat.add_zero]
        rw [h2 v hnd.1, List.getElem?_set_self (hlt v (List.mem_cons_self _ _))]
      | succ k =>
        simp only [List.getElem_cons_succ]
        rw [h1 k (by simpa using hk)]
        congr 1
        omega
    · intro u hu
      have huv : u ≠ v := fun h => hu (h ▸ List.mem_cons_self _ _)
      rw [h2 u (fun h => hu (List.mem_cons_of_mem _ h)), List.getElem?_set_ne (Ne.symm huv)]

theorem length_resize (l : List Nat) (n : Nat) : (resize l n).length = n := by
  unfold resize
  simp only [List.length_append, List.length_take, List.length_replicate]
  omega

theorem createRenumbering_s2b (H : CompHandler) (vars : List Nat) :
    (H.createRenumbering vars).smallsolver_to_bigsolver = vars := by
  unfold createRenumbering
  simp only []
  rw [createRenumbering_fold_s2b vars _ _ 0 (by rw [length_resize]; omega)]
  simp

theorem createRenumbering_b2s (H : CompHandler) (vars : List Nat) (hnd : vars.Nodup)
    (hlt : ∀ v ∈ vars, v < H.solver.nVars) (k : Nat) (hk : k < vars.length) :
    (H.createRenumbering vars).upd_bigsolver_to_smallsolver vars[k] = k := by
  unfold upd_bigsolver_to_smallsolver createRenumbering
  simp only []
  have := (createRenumbering_fold_b2s vars (resize H.bigsolver_to_smallsolver H.solver.nVars)
    (resize H.smallsolver_to_bigsolver vars.length) 0 hnd
    (fun v hv => by rw [length_resize]; exact hlt v hv)).1 k hk
  rw [List.getD_eq_getElem?_getD, this]
  simp

end CompHandler

theorem foldl_preserves {α β γ : Type} (f : β → α → β) (g : β → γ)
    (h : ∀ b a, g (f b a) = g b) : ∀ (l : List α) (b : β), g (l.foldl f b) = g b := by
  intro l
  induction l with
  | nil => intro b; rfl
  | cons a t ih => intro b; rw [List.foldl_cons, ih, h]

namespace CompHandler

/-- Moving variables and clauses leaves the two renumbering tables as they are. -/
theorem moveVariablesBetweenSolvers_maps (H : CompHandler) (N : SATSolver) (vars : List Nat) :
    (moveVariablesBetweenSolvers H N vars).1.bigsolver_to_smallsolver
        = H.bigsolver_to_smallsolver
    ∧ (moveVariablesBetweenSolvers H N vars).1.smallsolver_to_bigsolver
        = H.smallsolver_to_bigsolver := by
  unfold moveVariablesBetweenSolvers
  constructor
  · apply foldl_preserves _ (fun acc : CompHandler × SATSolver => acc.1.bigsolver_to_smallsolver)
    intro _ _
    rfl
  · apply foldl_preserves _ (fun acc : CompHandler × SATSolver => acc.1.smallsolver_to_bigsolver)
    intro _ _
    rfl

theorem move_binary_clause_maps (H : CompHandler) (N : SATSolver) (comp : Nat) (i : Watched)
    (lit : Lit) :
    (move_binary_clause H N comp i lit).1.bigsolver_to_smallsolver = H.bigsolver_to_smallsolver
    ∧ (move_binary_clause H N comp i lit).1.smallsolver_to_bigsolver
        = H.smallsolver_to_bigsolver := by
  unfold move_binary_clause
  simp only []
  split
  · exact ⟨rfl, rfl⟩
  · split
    · split <;> exact ⟨rfl, rfl⟩
    · split <;> exact ⟨rfl, rfl⟩

theorem move_tri_clause_maps (H : CompHandler) (N : SATSolver) (comp : Nat) (i : Watched)
    (lit : Lit) :
    (move_tri_clause H N comp i lit).1.bigsolver_to_smallsolver = H.bigsolver_to_smallsolver
    ∧ (move_tri_clause H N comp i lit).1.smallsolver_to_bigsolver
        = H.smallsolver_to_bigsolver := by
  unfold move_tri_clause
  simp only []
  split
  · exact ⟨rfl, rfl⟩
  · split
    · split <;> exact ⟨rfl, rfl⟩
    · split <;> exact ⟨rfl, rfl⟩

theorem moveClausesImplicit_entry_maps (comp : Nat) (lit : Lit)
    (acc : CompHandler × SATSolver × List Watched) (i : Watched) :
    (moveClausesImplicit_entry comp lit acc i).1.bigsolver_to_smallsolver
        = acc.1.bigsolver_to_smallsolver
    ∧ (moveClausesImplicit_entry comp lit acc i).1.smallsolver_to_bigsolver
        = acc.1.smallsolver_to_bigsolver := by
  unfold moveClausesImplicit_entry
  simp only []
  split
  · exact move_binary_clause_maps _ _ _ _ _
  · split
    · exact move_tri_clause_maps _ _ _ _ _
    · exact ⟨rfl, rfl⟩

theorem moveClausesImplicit_lit_maps (comp : Nat) (acc : CompHandler × SATSolver) (lit : Lit) :
    (moveClausesImplicit_lit comp acc lit).1.bigsolver_to_smallsolver
        = acc.1.bigsolver_to_smallsolver
    ∧ (moveClausesImplicit_lit comp acc lit).1.smallsolver_to_bigsolver
        = acc.1.smallsolver_to_bigsolver := by
  unfold moveClausesImplicit_lit
  simp only []
  split
  · exact ⟨rfl, rfl⟩
  · exact ⟨foldl_preserves _
        (fun a : CompHandler × SATSolver × List Watched => a.1.bigsolver_to_smallsolver)
        (fun a i => (moveClausesImplicit_entry_maps comp lit a i).1) _ _,
      foldl_preserves _
        (fun a : CompHandler × SATSolver × List Watched => a.1.smallsolver_to_bigsolver)
        (fun a i => (moveClausesImplicit_entry_maps comp lit a i).2) _ _⟩

theorem moveClausesImplicit_maps (H : CompHandler) (N : SATSolver) (comp : Nat)
    (vars : List Nat) :
    (moveClausesImplicit H N comp vars).1.bigsolver_to_smallsolver = H.bigsolver_to_smallsolver
    ∧ (moveClausesImplicit H N comp vars).1.smallsolver_to_bigsolver
        = H.smallsolver_to_bigsolver := by
  unfold moveClausesImplicit moveClausesImplicit_loop
  simp only []
  constructor
  · rw [foldl_preserves _ (fun a : CompHandler × SATSolver => a.1.bigsolver_to_smallsolver)
      (fun a v => by
        show (moveClausesImplicit_lit comp (moveClausesImplicit_lit comp a ⟨v, false⟩)
          ⟨v, true⟩).1.bigsolver_to_smallsolver = _
        rw [(moveClausesImplicit_lit_maps _ _ _).1, (moveClausesImplicit_lit_maps _ _ _).1])]
  · rw [foldl_preserves _ (fun a : CompHandler × SATSolver => a.1.smallsolver_to_bigsolver)
      (fun a v => by
        show (moveClausesImplicit_lit comp (moveClausesImplicit_lit comp a ⟨v, false⟩)
          ⟨v, true⟩).1.smallsolver_to_bigsolver = _
        rw [(moveClausesImplicit_lit_maps _ _ _).2, (moveClausesImplicit_lit_maps _ _ _).2])]

theorem moveClausesLong_move_maps (H : CompHandler) (N : SATSolver) (offset : Nat) :
    (moveClausesLong_move H N offset).1.bigsolver_to_smallsolver = H.bigsolver_to_smallsolver
    ∧ (moveClausesLong_move H N offset).1.smallsolver_to_bigsolver
        = H.smallsolver_to_bigsolver := by
  unfold moveClausesLong_move
  simp only []
  split <;> exact ⟨rfl, rfl⟩

theorem moveClausesLong_step_maps (comp : Nat) (acc : CompHandler × SATSolver × List Nat)
    (offset : Nat) :
    (moveClausesLong_step comp acc offset).1.bigsolver_to_smallsolver
        = acc.1.bigsolver_to_smallsolver
    ∧ (moveClausesLong_step comp acc offset).1.smallsolver_to_bigsolver
        = acc.1.smallsolver_to_bigsolver := by
  unfold moveClausesLong_step
  simp only []
  split
  · exact ⟨rfl, rfl⟩
  · split
    · split
      · exact ⟨rfl, rfl⟩
      · split
        · exact ⟨rfl, rfl⟩
        · exact moveClausesLong_move_maps _ _ _
    · exact moveClausesLong_move_maps _ _ _

theorem moveClausesLong_maps (H : CompHandler) (N : SATSolver) (comp : Nat) (cs : List Nat) :
    (moveClausesLong H N comp cs).1.bigsolver_to_smallsolver = H.bigsolver_to_smallsolver
    ∧ (moveClausesLong H N comp cs).1.smallsolver_to_bigsolver
        = H.smallsolver_to_bigsolver := by
  unfold moveClausesLong
  exact ⟨foldl_preserves _
      (fun a : CompHandler × SATSolver × List Nat => a.1.bigsolver_to_smallsolver)
      (fun a o => (moveClausesLong_step_maps comp a o).1) _ _,
    foldl_preserves _
      (fun a : CompHandler × SATSolver × List Nat => a.1.smallsolver_to_bigsolver)
      (fun a o => (moveClausesLong_step_maps comp a o).2) _ _⟩

theorem solve_component_setup_maps (E : CompEnv) (H : CompHandler) (comp : Nat)
    (vars_orig : List Nat) :
    (solve_component_setup E H comp vars_orig).1.bigsolver_to_smallsolver
        = (H.createRenumbering (vars_orig.insertionSort (fun a b => a ≤ b))).bigsolver_to_smallsolver
    ∧ (solve_component_setup E H comp vars_orig).1.smallsolver_to_bigsolver
        = (H.createRenumbering (vars_orig.insertionSort (fun a b => a ≤ b))).smallsolver_to_bigsolver := by
  unfold solve_component_setup
  simp only []
  constructor
  · rw [(moveClausesLong_maps _ _ _ _).1]
    simp only []
    rw [(moveClausesLong_maps _ _ _ _).1, (moveClausesImplicit_maps _ _ _ _).1,
      (moveVariablesBetweenSolvers_maps _ _ _).1]
  · rw [(moveClausesLong_maps _ _ _ _).2]
    simp only []
    rw [(moveClausesLong_maps _ _ _ _).2, (moveClausesImplicit_maps _ _ _ _).2,
      (moveVariablesBetweenSolvers_maps _ _ _).2]

end CompHandler

/-- C13: for a list `vars` of pairwise distinct variables below `nVars`,
`createRenumbering(vars)` builds mutually inverse maps onto `0..|vars|-1`:
`bigsolver_to_smallsolver[smallsolver_to_bigsolver[i]] = i` for every `i < |vars|`,
`smallsolver_to_bigsolver[bigsolver_to_smallsolver[v]] = v` and
`bigsolver_to_smallsolver[v] < |vars|` for every `v` in `vars`.  `solve_component` sorts
the variables first and keeps the maps while it sets up the sub-solver, so there the map
is strictly order-preserving on the variables of the component. -/
theorem createRenumbering_inverse (E : CompEnv) (H : CompHandler) (comp : Nat)
    (vars : List Nat) (hnd : vars.Nodup) (hlt : ∀ v ∈ vars, v < H.solver.nVars) :
    (∀ i < vars.length,
      (H.createRenumbering vars).upd_bigsolver_to_smallsolver
        ((H.createRenumbering vars).smallsolver_to_bigsolver.getD i 0) = i)
    ∧ (∀ v ∈ vars,
      (H.createRenumbering vars).smallsolver_to_bigsolver.getD
        ((H.createRenumbering vars).upd_bigsolver_to_smallsolver v) 0 = v)
    ∧ (∀ v ∈ vars, (H.createRenumbering vars).upd_bigsolver_to_smallsolver v < vars.length)
    ∧ (H.createRenumbering vars).smallsolver_to_bigsolver.length = vars.length
    ∧ (∀ v ∈ vars, ∀ w ∈ vars, v < w →
      (CompHandler.solve_component_setup E H comp vars).1.upd_bigsolver_to_smallsolver v
        < (CompHandler.solve_component_setup E H comp vars).1.upd_bigsolver_to_smallsolver w)
    ∧ (∀ v ∈ vars,
      (CompHandler.solve_component_setup E H comp vars).1.smallsolver_to_bigsolver.getD
        ((CompHandler.solve_component_setup E H comp vars).1.upd_bigsolver_to_smallsolver v) 0
        = v) := by
  have hs2b := CompHandler.createRenumbering_s2b H vars
  have hb2s := CompHandler.createRenumbering_b2s H vars hnd hlt
  have key : ∀ v ∈ vars, ∃ k, ∃ hk : k < vars.length, vars[k] = v
      ∧ (H.createRenumbering vars).upd_bigsolver_to_smallsolver v = k := by
    intro v hv
    obtain ⟨k, hk, hkv⟩ := List.getElem_of_mem hv
    exact ⟨k, hk, hkv, by rw [← hkv]; exact hb2s k hk⟩
  -- the sorted list, as `solve_component` uses it
  have hperm := List.perm_insertionSort (fun a b : Nat => a ≤ b) vars
  have hnd2 : (vars.insertionSort (fun a b => a ≤ b)).Nodup := hperm.nodup_iff.2 hnd
  have hlt2 : ∀ v ∈ vars.insertionSort (fun a b => a ≤ b), v < H.solver.nVars :=
    fun v hv => hlt v (hperm.subset hv)
  have hsorted : (vars.insertionSort (fun a b => a ≤ b)).Sorted (fun a b => a ≤ b) :=
    List.sorted_insertionSort _ _
  have hb2s2 := CompHandler.createRenumbering_b2s H _ hnd2 hlt2
  have hs2b2 := CompHandler.createRenumbering_s2b H (vars.insertionSort (fun a b => a ≤ b))
  obtain ⟨m1, m2⟩ := CompHandler.solve_component_setup_maps E H comp vars
  have key2 : ∀ v ∈ vars, ∃ k, ∃ hk : k < (vars.insertionSort (fun a b => a ≤ b)).length,
      (vars.insertionSort (fun a b => a ≤ b))[k] = v
      ∧ (CompHandler.solve_component_setup E H comp vars).1.upd_bigsolver_to_smallsolver v
        = k := by
    intro v hv
    obtain ⟨k, hk, hkv⟩ := List.getElem_of_mem (hperm.symm.subset hv)
    refine ⟨k, hk, hkv, ?_⟩
    have := hb2s2 k hk
    unfold CompHandler.upd_bigsolver_to_smallsolver at this ⊢
    rw [m1, ← hkv]
    exact this
  refine ⟨?_, ?_, ?_, by rw [hs2b], ?_, ?_⟩
  · intro i hi
    rw [hs2b, List.getD_eq_getElem?_getD, List.getElem?_eq_getElem hi]
    exact hb2s i hi
  · intro v hv
    obtain ⟨k, hk, hkv, hu⟩ := key v hv
    rw [hs2b, hu, List.getD_eq_getElem?_getD, List.getElem?_eq_getElem hk]
    exact hkv
  · intro v hv
    obtain ⟨k, hk, _, hu⟩ := key v hv
    rw [hu]
    exact hk
  · intro v hv w hw hvw
    obtain ⟨j, hj, hjv, hu⟩ := key2 v hv
    obtain ⟨k, hk, hkw, hu2⟩ := key2 w hw
    rw [hu, hu2]
    by_contra hge
    have hkj : k ≤ j := by omega
    rcases Nat.eq_or_lt_of_le hkj with he | hlt3
    · subst he
      rw [hjv] at hkw
      omega
    · have := List.pairwise_iff_getElem.1 hsorted k j hk hj hlt3
      rw [hjv, hkw] at this
      omega
  · intro v hv
    obtain ⟨k, hk, hkv, hu⟩ := key2 v hv
    rw [m2, hs2b2, hu, List.getD_eq_getElem?_getD, List.getElem?_eq_getElem hk]
    exact hkv

theorem createRenumbering_inverse_witness :
    (∀ i < [1, 0].length,
      (Example3.handler.createRenumbering [1, 0]).upd_bigsolver_to_smallsolver
        ((Example3.handler.createRenumbering [1, 0]).smallsolver_to_bigsolver.getD i 0) = i)
    ∧ (∀ v ∈ [1, 0],
      (Example3.handler.createRenumbering [1, 0]).smallsolver_to_bigsolver.getD
        ((Example3.handler.createRenumbering [1, 0]).upd_bigsolver_to_smallsolver v) 0 = v)
    ∧ (∀ v ∈ [1, 0],
      (Example3.handler.createRenumbering [1, 0]).upd_bigsolver_to_smallsolver v
        < [1, 0].length)
    ∧ (Example3.handler.createRenumbering [1, 0]).smallsolver_to_bigsolver.length
        = [1, 0].length
    ∧ (∀ v ∈ [1, 0], ∀ w ∈ [1, 0], v < w →
      (CompHandler.solve_component_setup Example3.env_sat Example3.handler 0
          [1, 0]).1.upd_bigsolver_to_smallsolver v
        < (CompHandler.solve_component_setup Example3.env_sat Example3.handler 0
          [1, 0]).1.upd_bigsolver_to_smallsolver w)
    ∧ (∀ v ∈ [1, 0],
      (CompHandler.solve_component_setup Example3.env_sat Example3.handler 0
          [1, 0]).1.smallsolver_to_bigsolver.getD
        ((CompHandler.solve_component_setup Example3.env_sat Example3.handler 0
          [1, 0]).1.upd_bigsolver_to_smallsolver v) 0 = v) :=
  createRenumbering_inverse Example3.env_sat Example3.handler 0 [1, 0] (by decide) (by decide)

/-- On the unsorted list `[1, 0]`, `createRenumbering` alone maps `1` to `0` and `0` to `1`;
`solve_component` sorts the list first and maps `0` to `0` and `1` to `1`. -/
theorem Example3.createRenumbering_eq :
    (Example3.handler.createRenumbering [1, 0]).bigsolver_to_smallsolver = [1, 0, 0, 0, 0, 0]
    ∧ (Example3.handler.createRenumbering [1, 0]).smallsolver_to_bigsolver = [1, 0]
    ∧ (CompHandler.solve_component_setup Example3.env_sat Example3.handler 0
        [1, 0]).1.bigsolver_to_smallsolver = [0, 1, 0, 0, 0, 0]
    ∧ (CompHandler.solve_component_setup Example3.env_sat Example3.handler 0
        [1, 0]).1.smallsolver_to_bigsolver = [0, 1] := by
  decide!

/-! ## `bounded_var_addition` -/

namespace BVA

theorem lit_diff_watches_heap (B : BVA) (a b : OccurClause) :
    (B.lit_diff_watches a b).1.var_bva_order = B.var_bva_order := by
  unfold lit_diff_watches
  simp only []
  split <;> rfl

theorem least_occurring_except_heap (B : BVA) (c : OccurClause) :
    (B.least_occurring_except c).1.var_bva_order = B.var_bva_order := rfl

theorem fill_potential_scan_heap (E : Env) (lit : Lit) (c : OccurClause) (l_min : Lit)
    (ws : List Watched) :
    ∀ B : BVA, (fill_potential_scan E lit c l_min B ws).var_bva_order = B.var_bva_order := by
  induction ws with
  | nil => intro B; rfl
  | cons d_ws rest ih =>
    intro B
    simp only [fill_potential_scan]
    split
    · rfl
    · split
      · split
        · split
          · rw [ih]
            show ((B.lit_diff_watches c ⟨l_min, d_ws⟩).1.lit_diff_watches
              ⟨l_min, d_ws⟩ c).1.var_bva_order = _
            rw [lit_diff_watches_heap, lit_diff_watches_heap]
          · rw [ih, lit_diff_watches_heap, lit_diff_watches_heap]
        · rw [ih, lit_diff_watches_heap]
      · exact ih B

theorem fill_potential_for_heap (E : Env) (lit : Lit) (B : BVA) (c : OccurClause) :
    (fill_potential_for E lit B c).var_bva_order = B.var_bva_order := by
  unfold fill_potential_for
  simp only []
  split
  · rfl
  · show (fill_potential_scan _ _ _ _ _ _).var_bva_order = _
    rw [fill_potential_scan_heap]
    rfl

theorem fill_potential_loop_heap (E : Env) (lit : Lit) (cls : List OccurClause) :
    ∀ B : BVA, (fill_potential_loop E lit B cls).var_bva_order = B.var_bva_order := by
  induction cls with
  | nil => intro B; rfl
  | cons c rest ih =>
    intro B
    simp only [fill_potential_loop]
    split
    · rfl
    · rw [ih, fill_potential_for_heap]

theorem most_occuring_lit_in_potential_heap (E : Env) (B : BVA) :
    (most_occuring_lit_in_potential E B).1.var_bva_order = B.var_bva_order := by
  unfold most_occuring_lit_in_potential
  simp only []
  split <;> split <;> rfl

theorem try_bva_on_lit_loop_heap (E : Env) (lit : Lit) :
    ∀ (fuel : Nat) (B Bf : BVA) (flag : Bool),
      try_bva_on_lit_loop E lit fuel B = some (Bf, flag) →
      Bf.var_bva_order = B.var_bva_order := by
  intro fuel
  induction fuel with
  | zero => intro B Bf flag h; simp [try_bva_on_lit_loop] at h
  | succ fuel ih =>
    intro B Bf flag h
    simp only [try_bva_on_lit_loop] at h
    have hfp : (fill_potential E { B with potential := [] } lit).var_bva_order
        = B.var_bva_order := by
      unfold fill_potential
      rw [fill_potential_loop_heap]
    split at h
    · simp only [Option.some.injEq, Prod.mk.injEq] at h
      rw [← h.1, hfp]
    · split at h
      · rw [ih _ _ _ h]
        show (most_occuring_lit_in_potential E _).1.var_bva_order = _
        rw [most_occuring_lit_in_potential_heap, hfp]
      · simp only [Option.some.injEq, Prod.mk.injEq] at h
        rw [← h.1, most_occuring_lit_in_potential_heap, hfp]

theorem try_bva_on_lit_init_heap (E : Env) (B : BVA) (lit : Lit) :
    (try_bva_on_lit_init E B lit).var_bva_order = B.var_bva_order := by
  unfold try_bva_on_lit_init remove_duplicates_from_m_cls
  simp only []
  split
  · rfl
  · split <;> rfl

theorem add_binary_clause_heap (E : Env) (B : BVA) (x : Lit) (m_lit : lit_pair) :
    (add_binary_clause E B x m_lit).var_bva_order = B.var_bva_order := rfl

theorem add_binary_clauses_heap (E : Env) (x : Lit) (B : BVA) :
    (add_binary_clauses E x B).var_bva_order = B.var_bva_order := by
  unfold add_binary_clauses
  exact foldl_preserves _ (fun b : BVA => b.var_bva_order)
    (fun b m => add_binary_clause_heap E b x m) _ _

theorem add_longer_clause_heap (E : Env) (B : BVA) (x : Lit) (cl : OccurClause) :
    (add_longer_clause E B x cl).1.var_bva_order = B.var_bva_order := by
  unfold add_longer_clause
  simp only []
  split <;> rfl

theorem add_longer_clauses_heap (E : Env) (x : Lit) (cls : List OccurClause) :
    ∀ B : BVA, (add_longer_clauses E x B cls).1.var_bva_order = B.var_bva_order := by
  induction cls with
  | nil => intro B; rfl
  | cons cl rest ih =>
    intro B
    have h1 := add_longer_clause_heap E B x cl
    simp only [add_longer_clauses]
    split
    · rename_i B1 heq
      rw [heq] at h1
      exact h1
    · rename_i B1 heq
      rw [heq] at h1
      rw [ih, h1]

theorem remove_matching_clause_heap (B B1 : BVA) (cl : m_cls_lits_and_red) (lj : lit_pair)
    (h : B.remove_matching_clause cl lj = some B1) : B1.var_bva_order = B.var_bva_order := by
  unfold remove_matching_clause at h
  simp only [] at h
  split at h
  · simp only [Option.some.injEq] at h
    rw [← h]
    rfl
  · split at h
    · simp only [Option.some.injEq] at h
      rw [← h]
      rfl
    · exact Option.noConfusion h
  · split at h
    · rename_i B2 cl_new heq
      simp only [Option.some.injEq] at h
      rw [← h]
      have e := congrArg Prod.fst heq
      simp only [] at e
      rw [← e]
      rfl
    · exact Option.noConfusion h

theorem remove_matching_clauses_for_heap (lj : lit_pair) (cls : List m_cls_lits_and_red) :
    ∀ (B B1 : BVA), remove_matching_clauses_for lj B cls = some B1 →
      B1.var_bva_order = B.var_bva_order := by
  induction cls with
  | nil =>
    intro B B1 h
    simp only [remove_matching_clauses_for, Option.some.injEq] at h
    rw [h]
  | cons cl rest ih =>
    intro B B1 h
    simp only [remove_matching_clauses_for] at h
    split at h
    · exact Option.noConfusion h
    · rename_i B2 heq
      exact (ih B2 B1 h).trans (remove_matching_clause_heap B B2 cl lj heq)

theorem remove_matching_clauses_heap (ljs : List lit_pair) :
    ∀ (B B1 : BVA), remove_matching_clauses B ljs = some B1 →
      B1.var_bva_order = B.var_bva_order := by
  induction ljs with
  | nil =>
    intro B B1 h
    simp only [remove_matching_clauses, Option.some.injEq] at h
    rw [h]
  | cons lj rest ih =>
    intro B B1 h
    simp only [remove_matching_clauses] at h
    split at h
    · exact Option.noConfusion h
    · rename_i B2 heq
      exact (ih B2 B1 h).trans (remove_matching_clauses_for_heap lj _ B B2 heq)

theorem refresh_watch_irred_size_heap (B : BVA) (l : Lit) :
    (B.refresh_watch_irred_size l).var_bva_order = B.var_bva_order := by
  unfold refresh_watch_irred_size
  split <;> rfl

theorem update_touched_lits_in_bva_heap (B : BVA) :
    B.update_touched_lits_in_bva.var_bva_order = B.var_bva_order := by
  unfold update_touched_lits_in_bva
  simp only []
  exact foldl_preserves _ (fun b : BVA => b.var_bva_order)
    (fun b l => by
      show ((b.refresh_watch_irred_size _).refresh_watch_irred_size _).var_bva_order = _
      rw [refresh_watch_irred_size_heap, refresh_watch_irred_size_heap]) _ _

theorem add_longer_clauses_ok (E : Env) (x : Lit) (cls : List OccurClause) :
    ∀ B : BVA,
      ((add_longer_clauses E x B cls).2 = false → (add_longer_clauses E x B cls).1.solver.ok = false)
      ∧ ((add_longer_clauses E x B cls).2 = true → cls ≠ [] →
          (add_longer_clauses E x B cls).1.solver.ok = true) := by
  induction cls with
  | nil =>
    intro B
    exact ⟨fun h => by simp [add_longer_clauses] at h, fun _ h => absurd rfl h⟩
  | cons cl rest ih =>
    intro B
    have hok := add_longer_clause_okay E B x cl
    simp only [add_longer_clauses]
    split
    · rename_i B1 heq
      rw [heq] at hok
      exact ⟨fun _ => hok.symm, fun h => by simp at h⟩
    · rename_i B1 heq
      rw [heq] at hok
      obtain ⟨i1, i2⟩ := ih B1
      refine ⟨i1, fun h _ => ?_⟩
      by_cases hr : rest = []
      · subst hr
        simp only [add_longer_clauses]
        exact hok.symm
      · exact i2 h hr

theorem remove_matching_clause_ok (B B1 : BVA) (cl : m_cls_lits_and_red) (lj : lit_pair)
    (h : B.remove_matching_clause cl lj = some B1) : B1.solver.ok = B.solver.ok := by
  unfold remove_matching_clause at h
  simp only [] at h
  split at h
  · simp only [Option.some.injEq] at h
    rw [← h]
    simp [Solver.detach_bin_clause, Solver.log, Solver.setWatches]
  · split at h
    · simp only [Option.some.injEq] at h
      rw [← h]
      simp [Solver.detach_tri_clause, Solver.log, Solver.setWatches]
    · exact Option.noConfusion h
  · split at h
    · rename_i B2 cl_new heq
      simp only [Option.some.injEq] at h
      have e := congrArg Prod.fst heq
      simp only [] at e
      rw [← h, ← e]
      show (Solver.unlink_clause _ _).ok = _
      unfold Solver.unlink_clause
      simp only [Solver.log]
      exact (Solver.foldl_setWatches_frame
        (fun T l => (T.watches l.toInt).eraseP (fun w => w.isClause && w.get_offset == cl_new))
        _ _).2.2.2
    · exact Option.noConfusion h

end BVA

namespace BVA

theorem remove_matching_clauses_for_ok (lj : lit_pair) (cls : List m_cls_lits_and_red) :
    ∀ (B B1 : BVA), remove_matching_clauses_for lj B cls = some B1 →
      B1.solver.ok = B.solver.ok := by
  induction cls with
  | nil =>
    intro B B1 h
    simp only [remove_matching_clauses_for, Option.some.injEq] at h
    rw [h]
  | cons cl rest ih =>
    intro B B1 h
    simp only [remove_matching_clauses_for] at h
    split at h
    · exact Option.noConfusion h
    · rename_i B2 heq
      exact (ih B2 B1 h).trans (remove_matching_clause_ok B B2 cl lj heq)

theorem remove_matching_clauses_ok (ljs : List lit_pair) :
    ∀ (B B1 : BVA), remove_matching_clauses B ljs = some B1 → B1.solver.ok = B.solver.ok := by
  induction ljs with
  | nil =>
    intro B B1 h
    simp only [remove_matching_clauses, Option.some.injEq] at h
    rw [h]
  | cons lj rest ih =>
    intro B B1 h
    simp only [remove_matching_clauses] at h
    split at h
    · exact Option.noConfusion h
    · rename_i B2 heq
      exact (ih B2 B1 h).trans (remove_matching_clauses_for_ok lj _ B B2 heq)

/-- What `bva_simplify_system` returns is the `ok` flag of the solver it leaves, and the
heap holds the same literals as before. -/
theorem bva_simplify_system_ret {E : Env} {B B' : BVA} {r : Bool}
    (h : bva_simplify_system E B = some (B', r)) :
    r = B'.solver.ok ∧ B'.var_bva_order = B.var_bva_order := by
  have hb : (add_binary_clauses E ⟨B.solver.nVars, false⟩ B.bva_new_var).var_bva_order
      = B.var_bva_order := by
    rw [add_binary_clauses_heap]
    rfl
  have h1 := add_longer_clauses_heap E (Lit.neg ⟨B.solver.nVars, false⟩) B.m_cls
    (add_binary_clauses E ⟨B.solver.nVars, false⟩ B.bva_new_var)
  rcases bva_simplify_system_cases h with ⟨hadd, hr⟩ | ⟨B3, B5, hadd, hrem, hB, hr⟩
  · have h2 := (add_longer_clauses_ok E (Lit.neg ⟨B.solver.nVars, false⟩) B.m_cls
      (add_binary_clauses E ⟨B.solver.nVars, false⟩ B.bva_new_var)).1
    rw [hadd] at h1 h2
    exact ⟨by rw [hr]; exact (h2 rfl).symm, h1.trans hb⟩
  · rw [hadd] at h1
    have h2 := remove_matching_clauses_heap _ _ _ hrem
    refine ⟨?_, ?_⟩
    · rw [hr, hB, (update_touched_lits_in_bva_frame B5).1]
    · rw [hB, update_touched_lits_in_bva_heap, h2]
      exact h1.trans hb

/-- When `bva_simplify_system` returns false, the solver is not ok and no clause was
removed: the calls issued are `new_var` and clause additions. -/
theorem bva_simplify_system_false {E : Env} {B B' : BVA}
    (h : bva_simplify_system E B = some (B', false)) :
    B'.solver.ok = false
    ∧ ∃ calls, B'.solver.trace = B.solver.trace ++ calls
        ∧ calls.countP SolverCall.is_removal = 0 := by
  refine ⟨(bva_simplify_system_ret h).1.symm, ?_⟩
  obtain ⟨b1, _, b3, _⟩ := add_binary_clauses_frame E ⟨B.solver.nVars, false⟩ B.bva_new_var
  obtain ⟨longer, l1, _, _, _, l5, _⟩ :=
    add_longer_clauses_trace E (Lit.neg ⟨B.solver.nVars, false⟩) B.m_cls
      (add_binary_clauses E ⟨B.solver.nVars, false⟩ B.bva_new_var)
  have hnew : B.bva_new_var.solver.trace = B.solver.trace ++ [SolverCall.new_var] := rfl
  have hcount : ([SolverCall.new_var]
      ++ (B.bva_new_var.m_lits.map (fun lj =>
          SolverCall.add_clause_int (binary_clause_lits ⟨B.solver.nVars, false⟩ lj) false))
      ++ longer.map (fun lits => SolverCall.add_clause_int lits false)).countP
        SolverCall.is_removal = 0 := by
    have e : (B.bva_new_var.m_lits.map (fun lj =>
          SolverCall.add_clause_int (binary_clause_lits ⟨B.solver.nVars, false⟩ lj) false))
        = (B.bva_new_var.m_lits.map (binary_clause_lits ⟨B.solver.nVars, false⟩)).map
            (fun lits => SolverCall.add_clause_int lits false) := by simp
    rw [List.countP_append, List.countP_append, e, countP_removal_map_add,
      countP_removal_map_add]
    rfl
  rcases bva_simplify_system_cases h with ⟨hadd, _⟩ | ⟨B3, B5, hadd, hrem, hB, hr⟩
  · rw [hadd] at l1
    refine ⟨_, ?_, hcount⟩
    rw [l1, b1, hnew]
    simp only [List.append_assoc]
  · rw [hadd] at l1 l5
    have hok3 : B3.solver.ok = false := by
      have := remove_matching_clauses_ok _ _ _ hrem
      rw [← hr] at this
      exact this.symm
    have hnil : B.m_cls = [] := by
      by_contra hne
      have := (add_longer_clauses_ok E (Lit.neg ⟨B.solver.nVars, false⟩) B.m_cls
        (add_binary_clauses E ⟨B.solver.nVars, false⟩ B.bva_new_var)).2
      rw [hadd] at this
      rw [this rfl hne] at hok3
      exact Bool.noConfusion hok3
    obtain ⟨calls, c1, _, c3, _⟩ := remove_matching_clauses_trace B.m_lits hrem
    have hm : B3.fill_m_cls_lits_and_red.m_cls_lits = [] := by
      show B3.m_cls.map _ = []
      rw [l5, b3]
      show B.m_cls.map _ = []
      rw [hnil]
      rfl
    rw [hm, List.length_nil, Nat.mul_zero] at c1
    have hc : calls = [] := List.length_eq_zero.1 c1
    refine ⟨_, ?_, hcount⟩
    rw [hB, (update_touched_lits_in_bva_frame B5).1, c3, hc, List.append_nil]
    show B3.solver.trace = _
    rw [l1, b1, hnew]
    simp only [List.append_assoc]

/-- What `try_bva_on_lit` returns is the `ok` flag of the solver it leaves, and the heap
holds the same literals as before. -/
theorem try_bva_on_lit_ret {E : Env} {fuel : Nat} {B B' : BVA} {lit : Lit} {r : Bool}
    (h : try_bva_on_lit E fuel B lit = some (B', r)) :
    r = B'.solver.ok ∧ B'.var_bva_order = B.var_bva_order := by
  unfold try_bva_on_lit at h
  split at h
  · exact Option.noConfusion h
  · rename_i B1 heq
    simp only [Option.some.injEq, Prod.mk.injEq] at h
    rw [← h.1, ← h.2]
    exact ⟨rfl, (try_bva_on_lit_loop_heap E lit fuel _ B1 false heq).trans
      (try_bva_on_lit_init_heap E B lit)⟩
  · rename_i B1 heq
    have hh := (try_bva_on_lit_loop_heap E lit fuel _ B1 true heq).trans
      (try_bva_on_lit_init_heap E B lit)
    simp only [] at h
    split at h
    · simp only [Option.some.injEq, Prod.mk.injEq] at h
      rw [← h.1, ← h.2]
      exact ⟨rfl, hh⟩
    · obtain ⟨a, b⟩ := bva_simplify_system_ret h
      exact ⟨a, b.trans hh⟩

theorem heap_min_mem (B : BVA) (h : B.var_bva_order ≠ []) : B.heap_min ∈ B.var_bva_order := by
  unfold heap_min
  have key : ∀ (l : List Nat) (best : Nat),
      l.foldl (fun best x => if VarBVAOrder B.watch_irred_sizes x best then x else best) best
        = best
      ∨ l.foldl (fun best x => if VarBVAOrder B.watch_irred_sizes x best then x else best) best
        ∈ l := by
    intro l
    induction l with
    | nil => intro best; exact Or.inl rfl
    | cons x xs ih =>
      intro best
      simp only [List.foldl_cons]
      rcases ih (if VarBVAOrder B.watch_irred_sizes x best then x else best) with h1 | h1
      · rw [h1]
        split
        · exact Or.inr (List.mem_cons_self _ _)
        · exact Or.inl rfl
      · exact Or.inr (List.mem_cons_of_mem _ h1)
  rcases key B.var_bva_order (B.var_bva_order.headD 0) with h1 | h1
  · rw [h1]
    cases hl : B.var_bva_order with
    | nil => exact absurd hl h
    | cons a t => simp
  · exact h1

end BVA

namespace BVA

/-- The loop of `bounded_var_addition` ends within as many rounds as the heap has
entries. -/
theorem bounded_var_addition_loop_total (E : Env) :
    ∀ (fuel : Nat) (A : BVA), A.var_bva_order.length < fuel →
      bounded_var_addition_loop E fuel A = Outcome.assert_failed
      ∨ ∃ A', bounded_var_addition_loop E fuel A = Outcome.returned A' := by
  intro fuel
  induction fuel with
  | zero => intro A h; exact absurd h (Nat.not_lt_zero _)
  | succ fuel ih =>
    intro A h
    simp only [bounded_var_addition_loop]
    split
    · exact Or.inr ⟨A, rfl⟩
    · rename_i hne
      split
      · exact Or.inr ⟨A, rfl⟩
      · split
        · exact Or.inl rfl
        · rename_i B2 ok heq
          have hheap := (try_bva_on_lit_ret heq).2
          have hmem : A.heap_min ∈ A.var_bva_order :=
            heap_min_mem A (fun hnil => hne (by rw [hnil]; rfl))
          have hlen : B2.var_bva_order.length < fuel := by
            rw [hheap]
            show (A.var_bva_order.erase A.heap_min).length < fuel
            rw [List.length_erase_of_mem hmem]
            have : 0 < A.var_bva_order.length := List.length_pos_of_mem hmem
            omega
          split
          · exact Or.inr ⟨B2, rfl⟩
          · exact ih B2 hlen

end BVA

/-- C19: sticky Unsat in BVA.  When `bva_simplify_system` returns false, the solver is not
ok and none of the matched clauses was removed (the calls issued hold no removal); a call
of `try_bva_on_lit` that returns false ends the loop of `bounded_var_addition` at once, so
that no further literal is tried; and `bounded_var_addition` ends (on a failed assertion
or by returning), and whenever it returns, it returns true if and only if `solver.ok` is
true at that moment.  The loop of `try_bva_on_lit` always ends within the fuel that the
driver gives it.  Here `propagate_occur`, which is not among the sources, returns the
`ok` flag that it leaves, as the propagation policy of the specification says. -/
theorem bounded_var_addition_sticky (E : Env)
    (hE : ∀ (l : Int) (n : Nat), E.sub_sort_cost l n ≤ l)
    (hprop : ∀ S : Solver, (E.propagate_occur S).2 = (E.propagate_occur S).1.ok) (B : BVA) :
    (∀ A A' : BVA, BVA.bva_simplify_system E A = some (A', false) →
      A'.solver.ok = false
      ∧ ∃ calls, A'.solver.trace = A.solver.trace ++ calls
          ∧ calls.countP SolverCall.is_removal = 0)
    ∧ (∀ (fuel : Nat) (A A2 : BVA), A.var_bva_order ≠ [] →
      ¬ (A.limit_to_decrease < 0 ∨ A.bva_worked ≥ A.solver.conf.bva_limit_per_call
          ∨ E.must_interrupt_asap A.solver = true) →
      BVA.try_bva_on_lit E (A.limit_to_decrease.toNat + 2)
          { A with var_bva_order := A.var_bva_order.erase A.heap_min } (Lit.toLit A.heap_min)
        = some (A2, false) →
      BVA.bounded_var_addition_loop E (fuel + 1) A = Outcome.returned A2
      ∧ A2.solver.ok = false)
    ∧ (∀ (A : BVA) (lit : Lit), ∃ Af flag,
      BVA.try_bva_on_lit_loop E lit (A.limit_to_decrease.toNat + 2)
        (BVA.try_bva_on_lit_init E A lit) = some (Af, flag))
    ∧ (BVA.bounded_var_addition E B = Outcome.assert_failed
      ∨ ∃ B' b, BVA.bounded_var_addition E B = Outcome.returned (B', b)
          ∧ (b = true ↔ B'.solver.ok = true)) := by
  refine ⟨fun A A' h => BVA.bva_simplify_system_false h, ?_, ?_, ?_⟩
  · intro fuel A A2 hne hcond htry
    have hemp : A.var_bva_order.isEmpty = false := by
      cases hl : A.var_bva_order with
      | nil => exact absurd hl hne
      | cons a t => rfl
    refine ⟨?_, (BVA.try_bva_on_lit_ret htry).1.symm⟩
    simp only [BVA.bounded_var_addition_loop, hemp, Bool.false_eq_true, if_false]
    rw [if_neg hcond]
    simp only [htry, Bool.not_false, if_true]
  · intro A lit
    obtain ⟨_, i2, i3⟩ := BVA.try_bva_on_lit_init_frame E A lit
    obtain ⟨Af, flag, hr, _⟩ := BVA.try_bva_on_lit_loop_total E hE lit
      (A.limit_to_decrease.toNat + 2) (BVA.try_bva_on_lit_init E A lit)
      (by rw [i2]; simp) (Or.inr (by omega))
    exact ⟨Af, flag, hr⟩
  · unfold BVA.bounded_var_addition
    by_cases hd : (!B.solver.conf.do_bva) = true
    · rw [if_pos hd]
      exact Or.inr ⟨B, B.solver.okay, rfl, Iff.rfl⟩
    · rw [if_neg hd]
      simp only []
      by_cases hp : (!(E.propagate_occur B.solver).2) = true
      · rw [if_pos hp]
        refine Or.inr ⟨_, false, rfl, ?_⟩
        have : (E.propagate_occur B.solver).1.ok = false := by
          rw [← hprop]
          simpa using hp
        simp only []
        rw [this]
      · rw [if_neg hp]
        rcases BVA.bounded_var_addition_loop_total E _
            (BVA.bounded_var_addition_init E B (E.propagate_occur B.solver).1)
            (Nat.lt_succ_self _) with h | ⟨A', h⟩
        · rw [h]
          exact Or.inl rfl
        · rw [h]
          exact Or.inr ⟨_, _, rfl, Iff.rfl⟩

theorem bounded_var_addition_sticky_witness :
    (∀ A A' : BVA, BVA.bva_simplify_system Example2.env_failing A = some (A', false) →
      A'.solver.ok = false
      ∧ ∃ calls, A'.solver.trace = A.solver.trace ++ calls
          ∧ calls.countP SolverCall.is_removal = 0)
    ∧ (∀ (fuel : Nat) (A A2 : BVA), A.var_bva_order ≠ [] →
      ¬ (A.limit_to_decrease < 0 ∨ A.bva_worked ≥ A.solver.conf.bva_limit_per_call
          ∨ Example2.env_failing.must_interrupt_asap A.solver = true) →
      BVA.try_bva_on_lit Example2.env_failing (A.limit_to_decrease.toNat + 2)
          { A with var_bva_order := A.var_bva_order.erase A.heap_min } (Lit.toLit A.heap_min)
        = some (A2, false) →
      BVA.bounded_var_addition_loop Example2.env_failing (fuel + 1) A = Outcome.returned A2
      ∧ A2.solver.ok = false)
    ∧ (∀ (A : BVA) (lit : Lit), ∃ Af flag,
      BVA.try_bva_on_lit_loop Example2.env_failing lit (A.limit_to_decrease.toNat + 2)
        (BVA.try_bva_on_lit_init Example2.env_failing A lit) = some (Af, flag))
    ∧ (BVA.bounded_var_addition Example2.env_failing Example2.bva = Outcome.assert_failed
      ∨ ∃ B' b, BVA.bounded_var_addition Example2.env_failing Example2.bva
            = Outcome.returned (B', b)
          ∧ (b = true ↔ B'.solver.ok = true)) :=
  bounded_var_addition_sticky Example2.env_failing
    (fun l n => Example.sub_sort_cost_le l n) (fun _ => rfl) Example2.bva


/-- On the formula of `Example2`, with an environment in which the first clause over the
negated fresh variable makes the solver inconsistent, `bounded_var_addition` returns false
with `ok` false after the first literal it tries: the fresh variable `8` exists, no clause
was removed, and `15` of the `16` literals are still in the heap. -/
theorem Example2.bounded_var_addition_failing :
    BVA.run_summary (BVA.bounded_var_addition Example2.env_failing Example2.bva)
      = some (false, false, 9, 0, 15) := by
  decide!

/-- With no failing addition, the run on `Example2` tries all `16` literals, creates one
variable, removes six clauses and returns true. -/
theorem Example2.bounded_var_addition_run :
    BVA.run_summary (BVA.bounded_var_addition Example.env Example2.bva)
      = some (true, true, 9, 6, 0) := by
  decide!


/-! ## C20: the probing budget and `global_timeout_multiplier` -/

/-- The budget that `calc_numpropstodo` returns is the same for every value of
`global_timeout_multiplier`, when `num_active_vars` does not read the configuration. -/
theorem Prober.calc_numpropstodo_multiplier (E : ProbeEnv) (P : Prober) (c : ℚ)
    (hE : ∀ S : Solver, ∀ conf : SolverConf,
      E.num_active_vars { S with conf := conf } = E.num_active_vars S) :
    (Prober.calc_numpropstodo E
      { P with solver :=
          { P.solver with conf := { P.solver.conf with global_timeout_multiplier := c } } }).2
      = (Prober.calc_numpropstodo E P).2 := by
  simp only [Prober.calc_numpropstodo, hE]

/-- C20: `calc_numpropstodo` does not read `global_timeout_multiplier`.  On the example,
with the limit of 800 million and without hyper-binary resolution, the budget is
288 000 000 with the multiplier 1 and also with the multiplier 2, where the claim asks for
twice as much. -/
theorem calc_numpropstodo_ignores_multiplier :
    (Prober.calc_numpropstodo Example4.env (Example4.prober_with_multiplier 1)).2 = 288000000
    ∧ (Prober.calc_numpropstodo Example4.env (Example4.prober_with_multiplier 2)).2
      = 288000000 := by
  constructor <;> decide!

/-! ## C16: `randomize_possible_choices` -/

theorem cons_set_perm (a : Nat) : ∀ (t : List Nat) (k : Nat), k < t.length →
    (t.getD k 0 :: t.set k a).Perm (a :: t)
  | [], k, h => by simp at h
  | b :: t, 0, _ => by
    rw [List.getD_cons_zero, List.set_cons_zero]
    exact List.Perm.swap _ _ _
  | b :: t, k + 1, h => by
    rw [List.getD_cons_succ, List.set_cons_succ]
    have h1 : k < t.length := by simpa using h
    exact (List.Perm.swap _ _ _).trans (((cons_set_perm a t k h1).cons b).trans
      (List.Perm.swap _ _ _))

theorem set_set_perm : ∀ (l : List Nat) (i j : Nat), i < l.length → j < l.length →
    ((l.set i (l.getD j 0)).set j (l.getD i 0)).Perm l
  | [], i, _, h, _ => by simp at h
  | a :: t, 0, 0, _, _ => by
    simp only [List.getD_cons_zero, List.set_cons_zero]
    exact List.Perm.refl _
  | a :: t, 0, k + 1, _, h => by
    simp only [List.getD_cons_zero, List.getD_cons_succ, List.set_cons_zero,
      List.set_cons_succ]
    exact cons_set_perm a t k (by simpa using h)
  | a :: t, k + 1, 0, h, _ => by
    simp only [List.getD_cons_zero, List.getD_cons_succ, List.set_cons_zero,
      List.set_cons_succ]
    exact cons_set_perm a t k (by simpa using h)
  | a :: t, k + 1, m + 1, h1, h2 => by
    simp only [List.getD_cons_succ, List.set_cons_succ]
    exact (set_set_perm t k m (by simpa using h1) (by simpa using h2)).cons a

theorem Prober.swap_perm (l : List Nat) (i j : Nat) (hi : i < l.length) (hj : j < l.length) :
    ∃ p, Prober.swap l i j = some p ∧ p.Perm l := by
  refine ⟨_, ?_, set_set_perm l i j hi hj⟩
  unfold Prober.swap
  rw [if_pos ⟨hi, hj⟩]

/-- The loop `Random swap` keeps a permutation of the vector it started with and draws one
random number a round, as long as each number drawn keeps the swap inside the vector. -/
theorem Prober.randomize_loop_perm (poss : List Nat) (S : Solver)
    (hr : ∀ i, i + 1 < poss.length → S.mtrand (S.mtrand_calls + i) ≤ poss.length - 1 - i) :
    ∀ k, k ≤ poss.length - 1 →
      ∃ p, (List.range k).foldlM Prober.randomize_possible_choices_step (poss, S)
          = some (p, { S with mtrand_calls := S.mtrand_calls + k })
        ∧ p.Perm poss := by
  intro k
  induction k with
  | zero => intro _; exact ⟨poss, rfl, List.Perm.refl _⟩
  | succ k ih =>
    intro hk
    obtain ⟨p, hp, hperm⟩ := ih (by omega)
    have hlen : p.length = poss.length := hperm.length_eq
    have hrk := hr k (by omega)
    obtain ⟨q, hq, hqperm⟩ := Prober.swap_perm p k (k + S.mtrand (S.mtrand_calls + k))
      (by omega) (by omega)
    refine ⟨q, ?_, hqperm.trans hperm⟩
    rw [List.range_succ, List.foldlM_append, hp]
    simp only [Option.bind_eq_bind, Option.some_bind, List.foldlM_cons, List.foldlM_nil,
      Prober.randomize_possible_choices_step, Solver.randInt, hq]
    rfl

/-- C16: when every number drawn by `randInt(n)` lies in `[0, n]`,
`randomize_possible_choices` returns a vector, so that every swap index lay inside it; the
vector is a permutation of the variables below `nVars` that have no value and are not
removed, in ascending order, and holds each of them exactly once. -/
theorem randomize_possible_choices_perm (P : Prober) (free : List Nat)
    (hfree : free = (List.range P.solver.nVars).filter (fun i =>
      decide (P.solver.assigns i = lbool.l_Undef)
        && decide ((P.solver.varData i).removed = Removed.none)))
    (hr : ∀ i, i + 1 < free.length →
      P.solver.mtrand (P.solver.mtrand_calls + i) ≤ free.length - 1 - i) :
    ∃ poss_choice P1, P.randomize_possible_choices = some (poss_choice, P1)
      ∧ poss_choice.Perm free
      ∧ poss_choice.Nodup
      ∧ (∀ v, v ∈ poss_choice ↔ (v < P.solver.nVars ∧ P.solver.assigns v = lbool.l_Undef
          ∧ (P.solver.varData v).removed = Removed.none)) := by
  obtain ⟨p, hp, hperm⟩ := Prober.randomize_loop_perm free P.solver hr (free.length - 1)
    (Nat.le_refl _)
  have hnd : free.Nodup := by
    rw [hfree]; exact (List.nodup_range _).filter _
  refine ⟨p, { P with solver :=
      { P.solver with mtrand_calls := P.solver.mtrand_calls + (free.length - 1) } },
    ?_, hperm, hperm.nodup_iff.mpr hnd, ?_⟩
  · unfold Prober.randomize_possible_choices
    simp only []
    rw [← hfree, hp]
  · intro v
    rw [hperm.mem_iff, hfree, List.mem_filter, List.mem_range]
    simp

/-- Four free variables and the random numbers `2, 0, 1`. -/
theorem randomize_possible_choices_perm_witness :
    (∀ i, i + 1 < [0, 1, 2, 3].length →
      ({ solver := { Example4.solver with mtrand := fun i => [2, 0, 1].getD i 0 } } : Prober).solver.mtrand
          (({ solver := { Example4.solver with mtrand := fun i => [2, 0, 1].getD i 0 } } : Prober).solver.mtrand_calls + i)
        ≤ [0, 1, 2, 3].length - 1 - i)
    ∧ ∃ poss_choice P1,
      Prober.randomize_possible_choices
        { solver := { Example4.solver with mtrand := fun i => [2, 0, 1].getD i 0 } }
        = some (poss_choice, P1)
      ∧ poss_choice.Perm [0, 1, 2, 3]
      ∧ poss_choice.Nodup
      ∧ (∀ v, v ∈ poss_choice ↔ (v < Example4.solver.nVars
          ∧ Example4.solver.assigns v = lbool.l_Undef
          ∧ (Example4.solver.varData v).removed = Removed.none)) :=
  have hr : ∀ i, i + 1 < [0, 1, 2, 3].length →
      ({ solver := { Example4.solver with mtrand := fun i => [2, 0, 1].getD i 0 } } : Prober).solver.mtrand
          (({ solver := { Example4.solver with mtrand := fun i => [2, 0, 1].getD i 0 } } : Prober).solver.mtrand_calls + i)
        ≤ [0, 1, 2, 3].length - 1 - i := by
    intro i hi
    have hi3 : i < 3 := by
      simp only [List.length_cons, List.length_nil] at hi
      omega
    interval_cases i <;> decide
  ⟨hr, randomize_possible_choices_perm
    { solver := { Example4.solver with mtrand := fun i => [2, 0, 1].getD i 0 } }
    [0, 1, 2, 3] (by decide) hr⟩

/-- The vector returned on the example: `0` is swapped with `2`, `1` with itself, `0`
(at index 2) with `3`. -/
theorem Example4.randomize_possible_choices_run :
    (Prober.randomize_possible_choices
        { solver := { Example4.solver with mtrand := fun i => [2, 0, 1].getD i 0 } }).map
      Prod.fst = some [2, 1, 3, 0] := by
  decide!

/-! ## The prober: decision levels -/

theorem Solver.decisionLevel_cancelUntil_zero (S : Solver) :
    (S.cancelUntil 0).decisionLevel = 0 := by
  unfold Solver.cancelUntil Solver.decisionLevel
  by_cases h : 0 < S.trail_lim.length
  · rw [if_pos h]; simp
  · rw [if_neg h]; omega

theorem Solver.conf_cancelUntil (S : Solver) (level : Nat) :
    (S.cancelUntil level).conf = S.conf := by
  unfold Solver.cancelUntil
  split <;> rfl

theorem Solver.ok_cancelUntil (S : Solver) (level : Nat) :
    (S.cancelUntil level).ok = S.ok := by
  unfold Solver.cancelUntil
  split <;> rfl

theorem Lit.neg_neg (l : Lit) : l.neg.neg = l := by
  cases l; simp [Lit.neg]

/-- The solver that `hyper_bin_res_all` and `remove_useless_bins` leave after
`cancelUntil(0)` is at decision level zero. -/
theorem ProbeEnv.KeepsLevel.after_cancel {E : ProbeEnv} (hE : E.KeepsLevel) (S : Solver) :
    (E.remove_useless_bins (E.hyper_bin_res_all (S.cancelUntil 0)).1).1.decisionLevel = 0 := by
  unfold Solver.decisionLevel
  rw [hE.remove_useless_bins, hE.hyper_bin_res_all]
  exact Solver.decisionLevel_cancelUntil_zero S

theorem Prober.try_this_begin_conf (P : Prober) (lit : Lit) (first : Bool) :
    (P.try_this_begin lit first).solver.conf = P.solver.conf := by
  unfold Prober.try_this_begin
  cases first <;> rfl

theorem Prober.try_this_begin_drup (P : Prober) (lit : Lit) (first : Bool) :
    (P.try_this_begin lit first).solver.drup_enabled = P.solver.drup_enabled := by
  unfold Prober.try_this_begin
  cases first <;> rfl

/-- C18 (amended): when hyper-binary resolution is on, the tentative hyper-binary
propagation of `try_this` leaves `timedOutPropagateFull` set and the proof log is not
enabled, `try_this` returns `okay()` of a solver that has `conf.otfHyperbin` false and is
at decision level zero, with no mark in `propagated` and with `propagatedBitSet` and
`toEnqueue` empty; the solver is the one left by `hyper_bin_res_all` and
`remove_useless_bins` after `cancelUntil(0)`, so that `fully_enqueue_these` has not run. -/
theorem try_this_hyperbin_timeout (E : ProbeEnv) (hE : E.KeepsLevel) (hT : E.KeepsConf)
    (P : Prober) (lit : Lit) (first : Bool) (n : Nat)
    (hinv : ∀ v, P.propagated v = true → v ∈ P.propagatedBitSet)
    (hhb : P.solver.conf.otfHyperbin = true)
    (hto : (Prober.try_this_hyper E (P.try_this_begin lit first).solver n).1.timedOutPropagateFull
      = true)
    (hdrup : (Prober.try_this_hyper E (P.try_this_begin lit first).solver n).1.drup_enabled
      = false) :
    ∃ P1, Prober.try_this E P lit first n = some (P1, P1.solver.okay)
      ∧ P1.solver.conf.otfHyperbin = false
      ∧ P1.solver.decisionLevel = 0
      ∧ (∀ v, P1.propagated v = false)
      ∧ P1.propagatedBitSet = []
      ∧ P1.toEnqueue = []
      ∧ P1.solver = (E.remove_useless_bins (E.hyper_bin_res_all (Solver.cancelUntil
          { (Prober.try_this_hyper E (P.try_this_begin lit first).solver n).1 with
            conf := { (Prober.try_this_hyper E (P.try_this_begin lit first).solver n).1.conf with
              otfHyperbin := false } } 0)).1).1 := by
  have hhb1 : (P.try_this_begin lit first).solver.conf.otfHyperbin = true := by
    rw [Prober.try_this_begin_conf]; exact hhb
  have hc : ∀ Q : Prober, Q.solver.timedOutPropagateFull = true → Q.solver.drup_enabled = false →
      Prober.check_timeout_due_to_hyperbin E Q
        = ({ Q with
             solver := (E.remove_useless_bins (E.hyper_bin_res_all (Solver.cancelUntil
               { Q.solver with conf := { Q.solver.conf with otfHyperbin := false } } 0)).1).1,
             runStats :=
               { Q.runStats with
                 addedBin := Q.runStats.addedBin + (E.hyper_bin_res_all (Solver.cancelUntil
                   { Q.solver with conf := { Q.solver.conf with otfHyperbin := false } } 0)).2,
                 removedIrredBin := Q.runStats.removedIrredBin
                   + (E.remove_useless_bins (E.hyper_bin_res_all (Solver.cancelUntil
                     { Q.solver with conf := { Q.solver.conf with otfHyperbin := false } } 0)).1).2.1,
                 removedRedBin := Q.runStats.removedRedBin
                   + (E.remove_useless_bins (E.hyper_bin_res_all (Solver.cancelUntil
                     { Q.solver with conf := { Q.solver.conf with otfHyperbin := false } } 0)).1).2.2 },
             propagated := fun v => if v ∈ Q.propagatedBitSet then false else Q.propagated v,
             propagatedBitSet := [],
             toEnqueue := [] }, true) := by
    intro Q h1 h2
    unfold Prober.check_timeout_due_to_hyperbin
    rw [if_pos (by rw [h1, h2]; rfl)]
  have hcq := hc { P.try_this_begin lit first with
    solver := (Prober.try_this_hyper E (P.try_this_begin lit first).solver n).1 } hto hdrup
  refine ⟨(Prober.check_timeout_due_to_hyperbin E { P.try_this_begin lit first with
    solver := (Prober.try_this_hyper E (P.try_this_begin lit first).solver n).1 }).1,
    ?_, ?_, ?_, ?_, ?_, ?_, ?_⟩
  · unfold Prober.try_this Prober.try_this_propagate
    rw [if_pos hhb1]
    simp only [hcq, if_true]
  · rw [hcq]
    simp only [hT.remove_useless_bins_conf, hT.hyper_bin_res_all_conf, Solver.conf_cancelUntil]
  · rw [hcq]
    exact hE.after_cancel _
  · intro v
    rw [hcq]
    simp only []
    by_cases hv : v ∈ (P.try_this_begin lit first).propagatedBitSet
    · rw [if_pos hv]
    · rw [if_neg hv]
      cases first
      · have : (P.try_this_begin lit false).propagated v = P.propagated v := rfl
        rw [this]
        have hv1 : v ∉ P.propagatedBitSet := hv
        cases hp : P.propagated v
        · rfl
        · exact absurd (hinv v hp) hv1
      · have : (P.try_this_begin lit true).propagated v
            = if v ∈ P.propagatedBitSet then false else P.propagated v := rfl
        rw [this]
        by_cases hv2 : v ∈ P.propagatedBitSet
        · rw [if_pos hv2]
        · rw [if_neg hv2]
          cases hp : P.propagated v
          · rfl
          · exact absurd (hinv v hp) hv2
  · rw [hcq]
  · rw [hcq]
  · rw [hcq]

theorem Example6.timeout_env_keepsLevel : Example6.env.KeepsLevel :=
  ⟨fun _ => rfl, fun _ => rfl, fun _ => rfl, fun _ => rfl, fun _ => rfl, fun _ _ _ => rfl,
    fun _ _ => rfl⟩

theorem Example6.timeout_env_keepsConf : Example6.env.KeepsConf :=
  ⟨fun _ => rfl, fun _ => rfl⟩

/-- On the example the propagation of the probe `x0` times out while the prober holds
the mark of `x2` and a literal in `toEnqueue`. -/
theorem try_this_hyperbin_timeout_witness :
    Example6.env.KeepsLevel ∧ Example6.env.KeepsConf
    ∧ (∀ v, Example6.prober.propagated v = true → v ∈ Example6.prober.propagatedBitSet)
    ∧ Example6.prober.solver.conf.otfHyperbin = true
    ∧ (Prober.try_this_hyper Example6.env
        (Example6.prober.try_this_begin ⟨0, false⟩ false).solver 1000).1.timedOutPropagateFull
      = true
    ∧ (Prober.try_this_hyper Example6.env
        (Example6.prober.try_this_begin ⟨0, false⟩ false).solver 1000).1.drup_enabled = false
    ∧ ∃ P1, Prober.try_this Example6.env Example6.prober ⟨0, false⟩ false 1000
        = some (P1, P1.solver.okay)
      ∧ P1.solver.conf.otfHyperbin = false
      ∧ P1.solver.decisionLevel = 0
      ∧ (∀ v, P1.propagated v = false)
      ∧ P1.propagatedBitSet = []
      ∧ P1.toEnqueue = []
      ∧ P1.solver = (Example6.env.remove_useless_bins (Example6.env.hyper_bin_res_all
          (Solver.cancelUntil
            { (Prober.try_this_hyper Example6.env
                (Example6.prober.try_this_begin ⟨0, false⟩ false).solver 1000).1 with
              conf := { (Prober.try_this_hyper Example6.env
                  (Example6.prober.try_this_begin ⟨0, false⟩ false).solver 1000).1.conf with
                otfHyperbin := false } } 0)).1).1 :=
  have hinv : ∀ v, Example6.prober.propagated v = true → v ∈ Example6.prober.propagatedBitSet := by
    intro v hv
    have : v = 2 := by simpa [Example6.prober] using hv
    subst this
    decide
  ⟨Example6.timeout_env_keepsLevel, Example6.timeout_env_keepsConf, hinv, rfl, by decide!,
    by decide!,
    try_this_hyperbin_timeout Example6.env Example6.timeout_env_keepsLevel
      Example6.timeout_env_keepsConf Example6.prober ⟨0, false⟩ false 1000 hinv rfl (by decide!)
      (by decide!)⟩

/-- C18 (as claimed, refuted): on the example the solver writes a proof log, hyper-binary
resolution is on and the propagation of the probe `¬x0`, the second of a pair, leaves
`timedOutPropagateFull` set.  `check_timeout_due_to_hyperbin` tests the flag together with
`!drup->enabled()` and does nothing: `try_this` goes on, `conf.otfHyperbin` stays true, the
mark of `x1` stays, and the bothprop literal `x1` is handed to `fully_enqueue_these`. -/
theorem try_this_hyperbin_timeout_counterexample :
    Example6.prober_sink.solver.conf.otfHyperbin = true
    ∧ (Prober.try_this_hyper Example6.env_flag
        (Example6.prober_sink.try_this_begin ⟨0, true⟩ false).solver 1000).1.timedOutPropagateFull
      = true
    ∧ (Prober.try_this Example6.env_flag Example6.prober_sink ⟨0, true⟩ false 1000).map
        (fun r => (r.2, r.1.solver.conf.otfHyperbin, r.1.propagated 1, r.1.propagatedBitSet,
          r.1.solver.trace))
      = some (true, true, true, [1], [SolverCall.fully_enqueue_these [⟨1, false⟩]]) := by
  refine ⟨rfl, ?_, ?_⟩ <;> decide!

/-- What `try_this` returns on the example: the flag, `conf.otfHyperbin`, the decision
level, the length of `toEnqueue` and the mark of `x2`. -/
theorem Example6.try_this_timeout_run :
    (Prober.try_this Example6.env Example6.prober ⟨0, false⟩ false 1000).map
      (fun r => (r.2, r.1.solver.conf.otfHyperbin, r.1.solver.decisionLevel,
        r.1.toEnqueue.length, r.1.propagated 2))
      = some (true, false, 0, 0, false) := by
  decide!

/-! ## C14: the failed literal -/

theorem Example4.fully_enqueue_these_trail_lim (S : Solver) (lits : List Lit) :
    (Example4.fully_enqueue_these S lits).1.trail_lim = S.trail_lim := by
  unfold Example4.fully_enqueue_these
  simp only []
  induction lits generalizing S with
  | nil => rfl
  | cons l ls ih =>
    rw [List.foldl_cons, ih]
    split
    · rfl
    · split <;> rfl

theorem Example5.conflict_env_keepsLevel : Example5.env.KeepsLevel :=
  ⟨fun _ => rfl, fun _ => rfl, fun _ => rfl, fun _ => rfl, fun _ => rfl,
    fun S lits _ => Example4.fully_enqueue_these_trail_lim S lits,
    fun S lits => Example4.fully_enqueue_these_trail_lim S lits⟩

/-- C14 (amended): without hyper-binary resolution, when the tentative propagation of
the probe literal ends in a conflict whose learnt clause is the one literal `c`, `try_this`
returns `solver.ok` after `cancelUntil(0)`, `hyper_bin_res_all` and `remove_useless_bins`;
the solver is then at decision level zero and the unit clause `c`, the negation of the
failed literal found, is added through `add_clause_int`, which leaves the solver at
decision level zero. -/
theorem try_this_conflict_unit (E : ProbeEnv) (hE : E.KeepsLevel) (P : Prober) (lit : Lit)
    (first : Bool) (n confl : Nat) (c : Lit)
    (hhb : P.solver.conf.otfHyperbin = false)
    (hconfl : (E.propagate (P.try_this_begin lit first).solver).2 = some confl)
    (hlearnt : (E.analyze_conflict (E.propagate (P.try_this_begin lit first).solver).1
      confl).learnt_clause = [c])
    (hc : c.neg ≠ lit_Undef) :
    ∃ P1 S, Prober.try_this E P lit first n = some (P1, P1.solver.ok)
      ∧ S = (E.remove_useless_bins (E.hyper_bin_res_all (Solver.cancelUntil
          (E.analyze_conflict (E.propagate (P.try_this_begin lit first).solver).1 confl)
          0)).1).1
      ∧ S.decisionLevel = 0
      ∧ P1.solver = E.add_clause_int (S.log (.add_clause_int [c] true)) [c] true
      ∧ P1.solver.decisionLevel = 0 := by
  have hhb1 : (P.try_this_begin lit first).solver.conf.otfHyperbin = false := by
    rw [Prober.try_this_begin_conf]; exact hhb
  refine ⟨Prober.handle_failed_lit E
      { P.try_this_begin lit first with
        solver := E.analyze_conflict (E.propagate (P.try_this_begin lit first).solver).1 confl }
      lit c.neg, _, ?_, rfl, hE.after_cancel _, ?_, ?_⟩
  · unfold Prober.try_this Prober.try_this_propagate
    rw [if_neg (by rw [hhb1]; decide)]
    simp only [hconfl, hlearnt]
    unfold Prober.try_this_finish
    rw [if_pos hc]
  · unfold Prober.handle_failed_lit Prober.clear_up_before_first_set
    simp only [Lit.neg_neg]
  · unfold Prober.handle_failed_lit Prober.clear_up_before_first_set
    simp only [Lit.neg_neg]
    unfold Solver.decisionLevel
    rw [hE.add_clause_int]
    exact hE.after_cancel _

/-- On the example the probe `x0` ends in a conflict and the clause learnt is `¬x3`. -/
theorem try_this_conflict_unit_witness :
    Example5.env.KeepsLevel
    ∧ Example5.prober.solver.conf.otfHyperbin = false
    ∧ (Example5.env.propagate (Example5.prober.try_this_begin ⟨0, false⟩ true).solver).2 = some 4
    ∧ (Example5.env.analyze_conflict
        (Example5.env.propagate (Example5.prober.try_this_begin ⟨0, false⟩ true).solver).1
        4).learnt_clause = [⟨3, true⟩]
    ∧ (⟨3, true⟩ : Lit).neg ≠ lit_Undef
    ∧ ∃ P1 S, Prober.try_this Example5.env Example5.prober ⟨0, false⟩ true 1000
        = some (P1, P1.solver.ok)
      ∧ S = (Example5.env.remove_useless_bins (Example5.env.hyper_bin_res_all
          (Solver.cancelUntil (Example5.env.analyze_conflict
            (Example5.env.propagate (Example5.prober.try_this_begin ⟨0, false⟩ true).solver).1
            4) 0)).1).1
      ∧ S.decisionLevel = 0
      ∧ P1.solver = Example5.env.add_clause_int (S.log (.add_clause_int [⟨3, true⟩] true))
          [⟨3, true⟩] true
      ∧ P1.solver.decisionLevel = 0 :=
  ⟨Example5.conflict_env_keepsLevel, rfl, by decide!, by decide!, by decide,
    try_this_conflict_unit Example5.env Example5.conflict_env_keepsLevel Example5.prober ⟨0, false⟩
      true 1000 4 ⟨3, true⟩ rfl (by decide!) (by decide!) (by decide)⟩

/-- C14 (as claimed, refuted): on the example the probe literal `l = x0` ends in a
conflict with the learnt clause `¬x3`.  `try_this` issues the one call
`add_clause_int([¬x3], true)`; no unit clause `¬x0` is added, and afterwards `x3` is false
while `¬x0` has no value at decision level zero. -/
theorem try_this_failed_literal_counterexample :
    (Prober.try_this Example5.env Example5.prober ⟨0, false⟩ true 1000).map
      (fun r => (r.1.solver.trace, r.1.solver.value ⟨3, true⟩, r.1.solver.value ⟨0, true⟩,
        r.1.solver.decisionLevel, r.1.solver.trail))
      = some ([.add_clause_int [⟨3, true⟩] true], lbool.l_True, lbool.l_Undef, 0, [⟨3, true⟩]) := by
  decide!

/-! ## C17: probing and the decision level -/

theorem Prober.check_timeout_level {E : ProbeEnv} (hE : E.KeepsLevel) (Q : Prober)
    (h : (Prober.check_timeout_due_to_hyperbin E Q).2 = true) :
    (Prober.check_timeout_due_to_hyperbin E Q).1.solver.decisionLevel = 0 := by
  unfold Prober.check_timeout_due_to_hyperbin at h ⊢
  split
  · exact hE.after_cancel _
  · rename_i hc
    rw [if_neg hc] at h
    simp at h

/-- A return of `try_this` out of its tentative propagation with `solver.ok` true is at
decision level zero. -/
theorem Prober.try_this_propagate_level {E : ProbeEnv} (hE : E.KeepsLevel) (Q : Prober) (n : Nat)
    (P1 : Prober) (ret : Bool)
    (h : Prober.try_this_propagate E Q n = .returned P1 ret) (hok : P1.solver.ok = true) :
    P1.solver.decisionLevel = 0 := by
  unfold Prober.try_this_propagate at h
  split at h
  · simp only [] at h
    split at h
    · rename_i hc
      injection h with h1 h2
      rw [← h1]
      exact Prober.check_timeout_level hE _ hc
    · exact Prober.Tentative.noConfusion h
  · simp only [] at h
    split at h
    · split at h
      · injection h with h1 h2
        rw [← h1] at hok
        exact absurd hok (by simp)
      · exact Prober.Tentative.noConfusion h
      · exact Prober.Tentative.noConfusion h
    · exact Prober.Tentative.noConfusion h

theorem Prober.handle_failed_lit_level {E : ProbeEnv} (hE : E.KeepsLevel) (Q : Prober)
    (lit failed : Lit) : (Prober.handle_failed_lit E Q lit failed).solver.decisionLevel = 0 := by
  unfold Prober.handle_failed_lit Prober.clear_up_before_first_set
  simp only []
  unfold Solver.decisionLevel
  rw [hE.add_clause_int]
  exact hE.after_cancel _

/-- A return of `try_this` after its tentative propagation is at decision level zero. -/
theorem Prober.try_this_finish_level {E : ProbeEnv} (hE : E.KeepsLevel) (Q : Prober)
    (lit : Lit) (first : Bool) (failed : Lit) (P1 : Prober) (ret : Bool)
    (h : Prober.try_this_finish E Q lit first failed = some (P1, ret)) :
    P1.solver.decisionLevel = 0 := by
  unfold Prober.try_this_finish at h
  split at h
  · simp only [Option.some.injEq, Prod.mk.injEq] at h
    rw [← h.1]
    exact Prober.handle_failed_lit_level hE _ _ _
  · split at h
    · exact Option.noConfusion h
    · split at h
      · exact Option.noConfusion h
      · simp only [] at h
        split at h
        · exact Option.noConfusion h
        · split at h
          · exact Option.noConfusion h
          · split at h
            · exact Option.noConfusion h
            · simp only [Option.some.injEq, Prod.mk.injEq] at h
              rw [← h.1]
              simp only []
              unfold Solver.decisionLevel
              rw [hE.fully_enqueue_these]
              exact hE.after_cancel _

/-- Every return of `try_this` with `solver.ok` true is at decision level zero. -/
theorem Prober.try_this_level {E : ProbeEnv} (hE : E.KeepsLevel) (P : Prober) (lit : Lit)
    (first : Bool) (n : Nat) (P1 : Prober) (ret : Bool)
    (h : Prober.try_this E P lit first n = some (P1, ret)) (hok : P1.solver.ok = true) :
    P1.solver.decisionLevel = 0 := by
  unfold Prober.try_this at h
  split at h
  · rename_i Q r hq
    simp only [Option.some.injEq, Prod.mk.injEq] at h
    rw [← h.1] at hok ⊢
    exact Prober.try_this_propagate_level hE _ n Q r hq hok
  · exact Option.noConfusion h
  · exact Prober.try_this_finish_level hE _ lit first _ P1 ret h

/-- The loop of `probe` keeps: a solver with `ok` true is at decision level zero. -/
theorem Prober.probe_loop_level {E : ProbeEnv} (hE : E.KeepsLevel) (n : Nat) :
    ∀ (poss : List Nat) (P P1 : Prober),
      (P.solver.ok = true → P.solver.decisionLevel = 0) →
      Prober.probe_loop E n P poss = some P1 →
      P1.solver.ok = true → P1.solver.decisionLevel = 0 := by
  intro poss
  induction poss with
  | nil =>
    intro P P1 hP h
    unfold Prober.probe_loop at h
    simp only [Option.some.injEq] at h
    rw [← h]; exact hP
  | cons var rest ih =>
    intro P P1 hP h
    unfold Prober.probe_loop at h
    split at h
    · simp only [Option.some.injEq] at h
      rw [← h]; exact hP
    · simp only [] at h
      split at h
      · refine ih _ P1 ?_ h
        exact hP
      · split at h
        · refine ih _ P1 ?_ h
          exact hP
        · split at h
          · exact Option.noConfusion h
          · rename_i P3 ret h3
            split at h
            · simp only [Option.some.injEq] at h
              rw [← h]
              exact Prober.try_this_level hE _ _ _ _ P3 ret h3
            · split at h
              · split at h
                · exact Option.noConfusion h
                · rename_i P4 ret2 h4
                  split at h
                  · simp only [Option.some.injEq] at h
                    rw [← h]
                    exact Prober.try_this_level hE _ _ _ _ P4 ret2 h4
                  · exact ih _ _ (Prober.try_this_level hE _ _ _ _ P4 ret2 h4) h
              · exact ih _ _ (Prober.try_this_level hE _ _ _ _ P3 ret h3) h

theorem foldlM_option_preserves {α β : Type} (f : β → α → Option β) (I : β → Prop)
    (hstep : ∀ b a b1, I b → f b a = some b1 → I b1) :
    ∀ (l : List α) (b b1 : β), I b → l.foldlM f b = some b1 → I b1 := by
  intro l
  induction l with
  | nil =>
    intro b b1 hb h
    simp only [List.foldlM_nil] at h
    cases h
    exact hb
  | cons a l ih =>
    intro b b1 hb h
    rw [List.foldlM_cons] at h
    cases hf : f b a with
    | none => rw [hf] at h; simp at h
    | some b2 =>
      rw [hf] at h
      exact ih b2 b1 (hstep b a b2 hb hf) h

theorem Prober.randomize_possible_choices_trail_lim (P : Prober) (l : List Nat) (P1 : Prober)
    (h : P.randomize_possible_choices = some (l, P1)) :
    P1.solver.trail_lim = P.solver.trail_lim ∧ P1.solver.ok = P.solver.ok := by
  unfold Prober.randomize_possible_choices at h
  simp only [] at h
  split at h
  · exact Option.noConfusion h
  · rename_i r hr
    simp only [Option.some.injEq, Prod.mk.injEq] at h
    rw [← h.2]
    exact foldlM_option_preserves Prober.randomize_possible_choices_step
      (fun acc => acc.2.trail_lim = P.solver.trail_lim ∧ acc.2.ok = P.solver.ok)
      (by
        intro b a b1 hb hf
        unfold Prober.randomize_possible_choices_step at hf
        simp only [] at hf
        split at hf
        · exact Option.noConfusion hf
        · simp only [Option.some.injEq] at hf
          rw [← hf]
          exact hb)
      _ _ r ⟨rfl, rfl⟩ hr

theorem Prober.clean_clauses_after_probe_trail_lim {E : ProbeEnv} (hE : E.KeepsLevel)
    (P P1 : Prober) (h : P.clean_clauses_after_probe E = some P1) :
    P1.solver.trail_lim = P.solver.trail_lim := by
  unfold Prober.clean_clauses_after_probe at h
  split at h
  · simp only [] at h
    split at h
    · simp only [Option.some.injEq] at h
      rw [← h]
      simp only []
      rw [hE.reattachLongs, hE.detach_nonbins_nontris]
    · exact Option.noConfusion h
  · simp only [Option.some.injEq] at h
    rw [← h]
    exact hE.remove_and_clean_all _

theorem Prober.checkOTFRatio_frame (E : ProbeEnv) (P : Prober) :
    (P.checkOTFRatio E).solver.trail_lim = P.solver.trail_lim
    ∧ (P.checkOTFRatio E).solver.ok = P.solver.ok := by
  unfold Prober.checkOTFRatio
  simp only []
  split <;> exact ⟨rfl, rfl⟩

theorem Prober.check_if_must_disable_otf_frame (E : ProbeEnv) (P : Prober) (n : Nat) :
    (P.check_if_must_disable_otf_hyperbin_and_tred E n).solver.trail_lim = P.solver.trail_lim
    ∧ (P.check_if_must_disable_otf_hyperbin_and_tred E n).solver.ok = P.solver.ok := by
  unfold Prober.check_if_must_disable_otf_hyperbin_and_tred
  simp only []
  split
  · exact Prober.checkOTFRatio_frame E P
  · exact ⟨rfl, rfl⟩

theorem Prober.check_if_must_disable_cache_frame (E : ProbeEnv) (P : Prober) :
    (P.check_if_must_disable_cache_update E).solver.trail_lim = P.solver.trail_lim
    ∧ (P.check_if_must_disable_cache_update E).solver.ok = P.solver.ok := by
  unfold Prober.check_if_must_disable_cache_update
  simp only []
  split <;> exact ⟨rfl, rfl⟩

/-- A return of `probe` with `solver.ok` true is at decision level zero. -/
theorem Prober.probe_level {E : ProbeEnv} (hE : E.KeepsLevel) (P P1 : Prober) (ret : Bool)
    (h : Prober.probe E P = some (P1, ret)) (hok : P1.solver.ok = true) :
    P1.solver.decisionLevel = 0 := by
  unfold Prober.probe at h
  split at h
  · exact Option.noConfusion h
  · rename_i h0
    simp only [] at h
    split at h
    · exact Option.noConfusion h
    · rename_i poss P5 h5
      split at h
      · exact Option.noConfusion h
      · rename_i P6 h6
        have hl5 := (Prober.randomize_possible_choices_trail_lim _ _ _ h5).1
        have hP5 : P5.solver.decisionLevel = 0 := by
          unfold Solver.decisionLevel
          rw [hl5]
          have : P.solver.decisionLevel = 0 := by
            by_contra hne
            exact h0 (Or.inl hne)
          unfold Prober.update_numpropstodo_based_on_prev_performance Prober.calc_numpropstodo
            Prober.reset_stats_and_state Prober.clean_clauses_before_probe
          simp only []
          rw [hE.remove_and_clean_all]
          exact this
        have hI := Prober.probe_loop_level hE _ poss P5 P6 (fun _ => hP5) h6
        split at h
        · exact Option.noConfusion h
        · rename_i P8 h8
          simp only [Option.some.injEq, Prod.mk.injEq] at h
          rw [← h.1] at hok ⊢
          unfold Solver.decisionLevel
          rw [(Prober.check_if_must_disable_cache_frame _ _).1,
            (Prober.check_if_must_disable_otf_frame _ _ _).1]
          rw [(Prober.check_if_must_disable_cache_frame _ _).2,
            (Prober.check_if_must_disable_otf_frame _ _ _).2] at hok
          have hok8 : P8.solver.ok = true := hok
          show P8.solver.trail_lim.length = 0
          split at h8
          · rename_i hc
            rw [Prober.clean_clauses_after_probe_trail_lim hE _ _ h8]
            simp only [Bool.and_eq_true] at hc
            exact hI hc.1
          · simp only [Option.some.injEq] at h8
            rw [← h8] at hok8 ⊢
            exact hI hok8

/-- C17 (amended): every return of `try_this` with `solver.ok` true leaves the solver at
decision level zero, and so does every return of `probe`, which starts at decision level
zero, with `solver.ok` true. -/
theorem probe_ends_at_level_zero (E : ProbeEnv) (hE : E.KeepsLevel) (P : Prober) :
    (∀ lit first n P1 ret, Prober.try_this E P lit first n = some (P1, ret) →
      P1.solver.ok = true → P1.solver.decisionLevel = 0)
    ∧ (∀ P1 ret, Prober.probe E P = some (P1, ret) →
      P1.solver.ok = true → P1.solver.decisionLevel = 0) :=
  ⟨fun lit first n P1 ret h hok => Prober.try_this_level hE P lit first n P1 ret h hok,
    fun P1 ret h hok => Prober.probe_level hE P P1 ret h hok⟩

theorem Example4.probe_env_keepsLevel : Example4.env.KeepsLevel :=
  ⟨fun _ => rfl, fun _ => rfl, fun _ => rfl, fun _ => rfl, fun _ => rfl,
    fun S lits _ => Example4.fully_enqueue_these_trail_lim S lits,
    fun S lits => Example4.fully_enqueue_these_trail_lim S lits⟩

/-- What a run of `probe` shows of its result: the flag returned, `solver.ok`, the
decision level, the trail and the number of assignments made at decision level zero. -/
theorem Example4.probe_run :
    (Prober.probe Example4.env Example4.prober).map
      (fun r => (r.2, r.1.solver.ok, r.1.solver.decisionLevel, r.1.solver.trail,
        r.1.runStats.zeroDepthAssigns))
      = some (true, true, 0, [⟨1, false⟩], 1) := by
  decide!

/-- C17 (as claimed, refuted): on the example `probe` starts at decision level zero; the
first probe ends in a conflict whose learnt clause is empty, `try_this` sets `ok` to false
and returns without `cancelUntil(0)`, and `probe` returns false at decision level one. -/
theorem probe_level_counterexample :
    Example5.prober.solver.decisionLevel = 0
    ∧ (Prober.probe Example5.env_empty Example5.prober).map
        (fun r => (r.2, r.1.solver.ok, r.1.solver.decisionLevel, r.1.solver.trail.length))
      = some (false, false, 1, 5) := by
  constructor
  · rfl
  · decide!

/-- What the first probe of the example shows of its result. -/
theorem Example4.try_this_first_run :
    (Prober.try_this Example4.env Example4.prober ⟨0, false⟩ true 1000).map
      (fun r => (r.2, r.1.solver.ok, r.1.solver.decisionLevel, r.1.solver.trail,
        r.1.propagatedBitSet))
      = some (true, true, 0, [], [2, 1, 0]) := by
  decide!

/-- On the example both the first probe and `probe` return with `ok` true, at decision
level zero. -/
theorem probe_ends_at_level_zero_witness :
    Example4.env.KeepsLevel
    ∧ (∃ P1 ret, Prober.try_this Example4.env Example4.prober ⟨0, false⟩ true 1000
        = some (P1, ret) ∧ P1.solver.ok = true ∧ P1.solver.decisionLevel = 0)
    ∧ (∃ P1 ret, Prober.probe Example4.env Example4.prober = some (P1, ret)
        ∧ P1.solver.ok = true ∧ P1.solver.decisionLevel = 0) := by
  refine ⟨Example4.probe_env_keepsLevel, ?_, ?_⟩
  · have hrun := Example4.try_this_first_run
    cases h : Prober.try_this Example4.env Example4.prober ⟨0, false⟩ true 1000 with
    | none => rw [h] at hrun; simp at hrun
    | some r =>
      rw [h] at hrun
      simp only [Option.map_some', Option.some.injEq, Prod.mk.injEq] at hrun
      exact ⟨r.1, r.2, rfl, hrun.2.1,
        (probe_ends_at_level_zero Example4.env Example4.probe_env_keepsLevel Example4.prober).1
          ⟨0, false⟩ true 1000 r.1 r.2 h hrun.2.1⟩
  · have hrun := Example4.probe_run
    cases h : Prober.probe Example4.env Example4.prober with
    | none => rw [h] at hrun; simp at hrun
    | some r =>
      rw [h] at hrun
      simp only [Option.map_some', Option.some.injEq, Prod.mk.injEq] at hrun
      exact ⟨r.1, r.2, rfl, hrun.2.1,
        (probe_ends_at_level_zero Example4.env Example4.probe_env_keepsLevel Example4.prober).2
          r.1 r.2 h hrun.2.1⟩

/-! ## C15: bothprop -/

theorem Solver.value_true (S : Solver) (t : Lit) (h : S.value t = lbool.l_True) :
    decide (S.assigns t.var = lbool.l_True) = !t.sign := by
  unfold Solver.value at h
  cases ha : S.assigns t.var <;> rw [ha] at h <;> cases hs : t.sign <;> rw [hs] at h <;>
    simp at h ⊢

/-- Without the implication cache a round of the loop `Fill bothprop, cache` is
`check_and_set_both_prop` and the mark in `visitedAlready`. -/
theorem Prober.try_this_fill_nocache (E : ProbeEnv) (lit : Lit) (first : Bool) (n : Nat)
    (P : Prober) (t : Lit) (hc : P.solver.conf.doCache = false) :
    Prober.try_this_fill E lit first n P t
      = some { Prober.check_and_set_both_prop { P with extraTime := P.extraTime + 2 } t.var first
          with visitedAlready := fun i => if i = t.toInt then true
            else (Prober.check_and_set_both_prop { P with extraTime := P.extraTime + 2 } t.var
              first).visitedAlready i } := by
  have hs : (Prober.check_and_set_both_prop { P with extraTime := P.extraTime + 2 } t.var
      first).solver = P.solver := by
    unfold Prober.check_and_set_both_prop
    split
    · rfl
    · split
      · split <;> rfl
      · rfl
  unfold Prober.try_this_fill
  simp only []
  split
  · rfl
  · unfold Prober.update_cache
    simp only [hs, hc, Bool.false_and, Bool.false_eq_true, if_false]

theorem Prober.try_this_fill_first (E : ProbeEnv) (lit : Lit) (n : Nat) (P : Prober) (t : Lit)
    (hc : P.solver.conf.doCache = false) :
    ∃ P1, Prober.try_this_fill E lit true n P t = some P1
      ∧ P1.solver = P.solver ∧ P1.toEnqueue = P.toEnqueue
      ∧ P1.propagated = (fun v => if v = t.var then true else P.propagated v)
      ∧ P1.propValue = (fun v => if v = t.var then decide (P.solver.assigns t.var = lbool.l_True)
          else P.propValue v) :=
  ⟨_, Prober.try_this_fill_nocache E lit true n P t hc, rfl, rfl, rfl, rfl⟩

theorem Prober.try_this_fill_second (E : ProbeEnv) (lit : Lit) (n : Nat) (P : Prober) (t : Lit)
    (hc : P.solver.conf.doCache = false) :
    ∃ P1, Prober.try_this_fill E lit false n P t = some P1
      ∧ P1.solver = P.solver ∧ P1.propagated = P.propagated ∧ P1.propValue = P.propValue
      ∧ P1.toEnqueue = P.toEnqueue
          ++ (if (P.propagated t.var
                && decide (P.propValue t.var = decide (P.solver.assigns t.var = lbool.l_True)))
              = true
            then [(⟨t.var, !P.propValue t.var⟩ : Lit)] else []) := by
  refine ⟨_, Prober.try_this_fill_nocache E lit false n P t hc, ?_, ?_, ?_, ?_⟩
  all_goals
    unfold Prober.check_and_set_both_prop
    simp only [Bool.false_eq_true, if_false]
    by_cases h1 : P.propagated t.var = true
    · by_cases h2 : P.propValue t.var = decide (P.solver.assigns t.var = lbool.l_True)
      · simp [h1, h2]
      · simp [h1, h2]
    · simp [h1]

/-- The loop `Fill bothprop, cache` of a first probe marks the variables of the trail and
records their values. -/
theorem Prober.fill_first (E : ProbeEnv) (lit : Lit) (n : Nat) :
    ∀ (T : List Lit) (P : Prober), P.solver.conf.doCache = false →
      ∃ P1, T.foldlM (Prober.try_this_fill E lit true n) P = some P1
        ∧ P1.solver = P.solver ∧ P1.toEnqueue = P.toEnqueue
        ∧ (∀ v, P1.propagated v = true ↔ (v ∈ T.map Lit.var ∨ P.propagated v = true))
        ∧ (∀ v, v ∈ T.map Lit.var →
            P1.propValue v = decide (P.solver.assigns v = lbool.l_True))
        ∧ (∀ v, v ∉ T.map Lit.var → P1.propValue v = P.propValue v) := by
  intro T
  induction T with
  | nil =>
    intro P _
    exact ⟨P, rfl, rfl, rfl, fun v => by simp, fun v hv => by simp at hv, fun _ _ => rfl⟩
  | cons t T ih =>
    intro P hc
    obtain ⟨Q, hQ, hs, he, hp, hv⟩ := Prober.try_this_fill_first E lit n P t hc
    obtain ⟨P1, h1, hs1, he1, hp1, hv1, hv2⟩ := ih Q (by rw [hs]; exact hc)
    refine ⟨P1, ?_, hs1.trans hs, he1.trans he, ?_, ?_, ?_⟩
    · rw [List.foldlM_cons, hQ]; exact h1
    · intro v
      rw [hp1 v, hp]
      simp only [List.map_cons, List.mem_cons]
      by_cases hvt : v = t.var
      · simp [hvt]
      · simp [hvt]
    · intro v hmem
      by_cases hvT : v ∈ T.map Lit.var
      · rw [hv1 v hvT, hs]
      · rw [hv2 v hvT, hv]
        simp only [List.map_cons, List.mem_cons] at hmem
        rcases hmem with hmem | hmem
        · simp only []
          rw [if_pos hmem, hmem]
        · exact absurd hmem hvT
    · intro v hmem
      simp only [List.map_cons, List.mem_cons, not_or] at hmem
      rw [hv2 v hmem.2, hv]
      simp only []
      rw [if_neg hmem.1]

/-- The loop `Fill bothprop, cache` of a second probe appends to `toEnqueue`, in the order
of its visit, the literal `Lit(var, !propValue[var])` of each marked variable that has the
recorded value. -/
theorem Prober.fill_second (E : ProbeEnv) (lit : Lit) (n : Nat) :
    ∀ (T : List Lit) (P : Prober), P.solver.conf.doCache = false →
      ∃ P1, T.foldlM (Prober.try_this_fill E lit false n) P = some P1
        ∧ P1.solver = P.solver ∧ P1.propagated = P.propagated ∧ P1.propValue = P.propValue
        ∧ P1.toEnqueue = P.toEnqueue
            ++ (T.filter (fun t => P.propagated t.var
                && decide (P.propValue t.var
                  = decide (P.solver.assigns t.var = lbool.l_True)))).map
              (fun t => (⟨t.var, !P.propValue t.var⟩ : Lit)) := by
  intro T
  induction T with
  | nil =>
    intro P _
    exact ⟨P, rfl, rfl, rfl, rfl, by simp⟩
  | cons t T ih =>
    intro P hc
    obtain ⟨Q, hQ, hs, hp, hv, he⟩ := Prober.try_this_fill_second E lit n P t hc
    obtain ⟨P1, h1, hs1, hp1, hv1, he1⟩ := ih Q (by rw [hs]; exact hc)
    refine ⟨P1, ?_, hs1.trans hs, hp1.trans hp, hv1.trans hv, ?_⟩
    · rw [List.foldlM_cons, hQ]; exact h1
    · rw [he1, he, hp, hv, hs, List.append_assoc]
      congr 1
      by_cases hcond : (P.propagated t.var
          && decide (P.propValue t.var = decide (P.solver.assigns t.var = lbool.l_True))) = true
      · rw [if_pos hcond]
        simp only [List.filter_cons, hcond, if_true, List.map_cons, List.singleton_append]
      · rw [if_neg hcond]
        simp only [List.filter_cons, hcond, if_false, List.nil_append, Bool.false_eq_true]

/-- A tentative propagation that is over leaves the bothprop state of the prober as it
was. -/
theorem Prober.try_this_propagate_fields (E : ProbeEnv) (Q : Prober) (n : Nat) (Q1 : Prober)
    (f : Lit) (h : Prober.try_this_propagate E Q n = .propagated Q1 f) :
    Q1.propagated = Q.propagated ∧ Q1.propValue = Q.propValue ∧ Q1.toEnqueue = Q.toEnqueue
      ∧ Q1.propagatedBitSet = Q.propagatedBitSet := by
  unfold Prober.try_this_propagate at h
  split at h
  · simp only [] at h
    split at h
    · exact Prober.Tentative.noConfusion h
    · rename_i hc
      injection h with h1 h2
      rw [← h1]
      unfold Prober.check_timeout_due_to_hyperbin at hc ⊢
      split
      · rename_i hcond
        rw [if_pos hcond] at hc
        simp at hc
      · exact ⟨rfl, rfl, rfl, rfl⟩
  · simp only [] at h
    split at h
    · split at h
      · exact Prober.Tentative.noConfusion h
      · injection h with h1 h2
        rw [← h1]
        exact ⟨rfl, rfl, rfl, rfl⟩
      · exact Prober.Tentative.noConfusion h
    · injection h with h1 h2
      rw [← h1]
      exact ⟨rfl, rfl, rfl, rfl⟩

theorem Prober.fill_solver (E : ProbeEnv) (lit : Lit) (first : Bool) (n : Nat) (T : List Lit)
    (P P1 : Prober) (hc : P.solver.conf.doCache = false)
    (h : T.foldlM (Prober.try_this_fill E lit first n) P = some P1) :
    P1.solver = P.solver := by
  cases first
  · obtain ⟨Q, hQ, hs, _⟩ := Prober.fill_second E lit n T P hc
    rw [hQ] at h
    cases h
    exact hs
  · obtain ⟨Q, hQ, hs, _⟩ := Prober.fill_first E lit n T P hc
    rw [hQ] at h
    cases h
    exact hs

/-- Without the implication cache, a probe that did not fail returns the bothprop state
that the loop `Fill bothprop, cache` left, and the solver that `fully_enqueue_these` left
when given `toEnqueue` after `cancelUntil(0)`, `hyper_bin_res_all` and
`remove_useless_bins`. -/
theorem Prober.try_this_finish_nofail (E : ProbeEnv) (Q : Prober) (lit : Lit) (first : Bool)
    (P1 : Prober) (r : Bool) (hc : Q.solver.conf.doCache = false)
    (h : Prober.try_this_finish E Q lit first lit_Undef = some (P1, r)) :
    ∃ n Q1, (Prober.bothprop_trail Q.solver).foldlM (Prober.try_this_fill E lit first n) Q
        = some Q1
      ∧ P1.propagated = Q1.propagated ∧ P1.propValue = Q1.propValue
      ∧ P1.toEnqueue = Q1.toEnqueue
      ∧ P1.solver = (E.fully_enqueue_these
          (((E.remove_useless_bins (E.hyper_bin_res_all (Q.solver.cancelUntil 0)).1).1).log
            (.fully_enqueue_these Q1.toEnqueue)) Q1.toEnqueue).1 := by
  unfold Prober.try_this_finish at h
  rw [if_neg (by simp)] at h
  split at h
  · exact Option.noConfusion h
  · split at h
    · exact Option.noConfusion h
    · simp only [] at h
      split at h
      · exact Option.noConfusion h
      · rename_i Q1 hQ1
        have hs : Q1.solver = Q.solver := Prober.fill_solver E lit first _ _ Q Q1 hc hQ1
        have hc1 : Q1.solver.conf.doCache = false := by rw [hs]; exact hc
        rw [hc1] at h
        simp only [Bool.and_false, Bool.false_eq_true, if_false] at h
        split at h
        · exact Option.noConfusion h
        · simp only [Option.some.injEq, Prod.mk.injEq] at h
          refine ⟨_, Q1, hQ1, ?_, ?_, ?_, ?_⟩
          · rw [← h.1]
          · rw [← h.1]
          · rw [← h.1]
          · rw [← h.1, hs]

theorem filter_map_eq_filter (T : List Lit) (c d : Lit → Bool) (mk : Lit → Lit)
    (h : ∀ t ∈ T, c t = d t ∧ (c t = true → mk t = t)) :
    (T.filter c).map mk = T.filter d := by
  induction T with
  | nil => rfl
  | cons t T ih =>
    have ht := h t (List.mem_cons_self _ _)
    have ih1 := ih (fun u hu => h u (List.mem_cons_of_mem _ hu))
    simp only [List.filter_cons]
    rw [← ht.1]
    by_cases hc : c t = true
    · simp only [hc, if_true, List.map_cons]
      rw [ht.2 hc, ih1]
    · simp only [hc, if_false, Bool.false_eq_true]
      exact ih1

/-- C15: let the probe `try_this(l, true)` and then the probe `try_this(¬l, false)` both
end their tentative propagation without a failed literal, with `conf.doCache` false, each
literal on the trail being true.  Then `toEnqueue` after the second probe holds, in the
order of the visit, the literals above decision level zero of the second trail that were
above decision level zero on the first trail: a literal is in it exactly if it was on
both trails, there is one literal to a variable when the second trail has one, and
`fully_enqueue_these` was called with it on a solver at decision level zero. -/
theorem try_this_bothprop (E : ProbeEnv) (hE : E.KeepsLevel) (P : Prober) (l : Lit) (n : Nat)
    (Pa P1 Pb P2 : Prober) (r1 r2 : Bool)
    (hinv : ∀ v, P.propagated v = true → v ∈ P.propagatedBitSet)
    (h1p : Prober.try_this_propagate E (P.try_this_begin l true) n = .propagated Pa lit_Undef)
    (h1 : Prober.try_this E P l true n = some (P1, r1))
    (h2p : Prober.try_this_propagate E (P1.try_this_begin l.neg false) n
      = .propagated Pb lit_Undef)
    (h2 : Prober.try_this E P1 l.neg false n = some (P2, r2))
    (hca : Pa.solver.conf.doCache = false) (hcb : Pb.solver.conf.doCache = false)
    (hva : ∀ t ∈ Prober.bothprop_trail Pa.solver, Pa.solver.value t = lbool.l_True)
    (hvb : ∀ t ∈ Prober.bothprop_trail Pb.solver, Pb.solver.value t = lbool.l_True) :
    P2.toEnqueue = (Prober.bothprop_trail Pb.solver).filter
        (fun t => decide (t ∈ Prober.bothprop_trail Pa.solver))
    ∧ (∀ t, t ∈ P2.toEnqueue
        ↔ (t ∈ Prober.bothprop_trail Pa.solver ∧ t ∈ Prober.bothprop_trail Pb.solver))
    ∧ (((Prober.bothprop_trail Pb.solver).map Lit.var).Nodup
        → (P2.toEnqueue.map Lit.var).Nodup)
    ∧ (∃ S : Solver, S.decisionLevel = 0
        ∧ P2.solver = (E.fully_enqueue_these (S.log (.fully_enqueue_these P2.toEnqueue))
            P2.toEnqueue).1) := by
  -- the first probe
  unfold Prober.try_this at h1
  rw [h1p] at h1
  simp only [] at h1
  obtain ⟨na, Qa, hQa, hpa, hva1, _, _⟩ :=
    Prober.try_this_finish_nofail E Pa l true P1 r1 hca h1
  obtain ⟨Qa1, hQa1, _, _, hmark, hval, _⟩ :=
    Prober.fill_first E l na (Prober.bothprop_trail Pa.solver) Pa hca
  rw [hQa1] at hQa
  cases hQa
  have hfa := Prober.try_this_propagate_fields E _ n Pa _ h1p
  have hPa0 : ∀ v, Pa.propagated v = false := by
    intro v
    rw [hfa.1]
    have : (P.try_this_begin l true).propagated v
        = if v ∈ P.propagatedBitSet then false else P.propagated v := rfl
    rw [this]
    by_cases hv : v ∈ P.propagatedBitSet
    · rw [if_pos hv]
    · rw [if_neg hv]
      cases hp : P.propagated v
      · rfl
      · exact absurd (hinv v hp) hv
  have hmark1 : ∀ v, P1.propagated v = true
      ↔ v ∈ (Prober.bothprop_trail Pa.solver).map Lit.var := by
    intro v
    rw [hpa, hmark v, hPa0 v]
    simp
  -- the second probe
  unfold Prober.try_this at h2
  rw [h2p] at h2
  simp only [] at h2
  obtain ⟨nb, Qb, hQb, _, _, heb, hsb⟩ :=
    Prober.try_this_finish_nofail E Pb l.neg false P2 r2 hcb h2
  obtain ⟨Qb1, hQb1, _, _, _, henq⟩ :=
    Prober.fill_second E l.neg nb (Prober.bothprop_trail Pb.solver) Pb hcb
  rw [hQb1] at hQb
  cases hQb
  have hfb := Prober.try_this_propagate_fields E _ n Pb _ h2p
  have hb1 : Pb.propagated = P1.propagated := hfb.1
  have hb2 : Pb.propValue = P1.propValue := hfb.2.1
  have hb3 : Pb.toEnqueue = [] := hfb.2.2.1
  have hkey : P2.toEnqueue = (Prober.bothprop_trail Pb.solver).filter
      (fun t => decide (t ∈ Prober.bothprop_trail Pa.solver)) := by
    rw [heb, henq, hb3, List.nil_append]
    apply filter_map_eq_filter
    intro t ht
    have hbt := Solver.value_true Pb.solver t (hvb t ht)
    rw [hb1, hb2, hbt]
    by_cases hvar : t.var ∈ (Prober.bothprop_trail Pa.solver).map Lit.var
    · obtain ⟨u, hu, huv⟩ := List.mem_map.mp hvar
      have hau := Solver.value_true Pa.solver u (hva u hu)
      rw [huv] at hau
      have hpv : P1.propValue t.var = !u.sign := by
        rw [hva1, hval t.var hvar, hau]
      rw [(hmark1 t.var).mpr hvar, hpv]
      by_cases hsign : u.sign = t.sign
      · have hut : u = t := by
          cases u; cases t
          simp only [Lit.mk.injEq]
          exact ⟨huv, hsign⟩
        rw [← hut] at ht ⊢
        constructor
        · simp [hu]
        · intro _
          cases u
          simp
      · have hnt : t ∉ Prober.bothprop_trail Pa.solver := by
          intro hmem
          have hat := Solver.value_true Pa.solver t (hva t hmem)
          rw [hau] at hat
          apply hsign
          cases hu1 : u.sign <;> cases ht1 : t.sign <;> rw [hu1, ht1] at hat <;> simp at hat ⊢
        constructor
        · have : (!u.sign) ≠ (!t.sign) := by
            intro h
            apply hsign
            cases hu1 : u.sign <;> cases ht1 : t.sign <;> rw [hu1, ht1] at h <;> simp at h ⊢
          simp [this, hnt]
        · intro hc
          have : (!u.sign) ≠ (!t.sign) := by
            intro h
            apply hsign
            cases hu1 : u.sign <;> cases ht1 : t.sign <;> rw [hu1, ht1] at h <;> simp at h ⊢
          simp [this] at hc
    · have hnt : t ∉ Prober.bothprop_trail Pa.solver := by
        intro hmem
        exact hvar (List.mem_map_of_mem _ hmem)
      have hpf : P1.propagated t.var = false := by
        cases hp : P1.propagated t.var
        · rfl
        · exact absurd ((hmark1 t.var).mp hp) hvar
      rw [hpf]
      constructor
      · simp [hnt]
      · intro hc
        simp at hc
  refine ⟨hkey, ?_, ?_, ?_⟩
  · intro t
    rw [hkey, List.mem_filter]
    simp only [decide_eq_true_eq]
    exact And.comm
  · intro hnd
    rw [hkey]
    exact hnd.sublist ((List.filter_sublist _).map _)
  · refine ⟨(E.remove_useless_bins (E.hyper_bin_res_all (Pb.solver.cancelUntil 0)).1).1,
      hE.after_cancel _, ?_⟩
    rw [hsb, ← heb]

/-- On the example the probe `x0` leaves the trail `x0, x1, x2` and the probe `¬x0` the
trail `¬x0, x1, ¬x2`. -/
theorem try_this_bothprop_witness :
    Example4.env.KeepsLevel
    ∧ (∀ v, Example4.prober.propagated v = true → v ∈ Example4.prober.propagatedBitSet)
    ∧ Prober.try_this_propagate Example4.env (Example4.prober.try_this_begin ⟨0, false⟩ true)
        1000 = .propagated Example4.after_first_propagation lit_Undef
    ∧ Prober.try_this Example4.env Example4.prober ⟨0, false⟩ true 1000
        = some (Example4.after_first_probe, true)
    ∧ Prober.try_this_propagate Example4.env
        (Example4.after_first_probe.try_this_begin (⟨0, false⟩ : Lit).neg false) 1000
        = .propagated Example4.after_second_propagation lit_Undef
    ∧ Prober.try_this Example4.env Example4.after_first_probe (⟨0, false⟩ : Lit).neg false 1000
        = some (Example4.after_second_probe, true)
    ∧ Example4.after_first_propagation.solver.conf.doCache = false
    ∧ Example4.after_second_propagation.solver.conf.doCache = false
    ∧ (∀ t ∈ Prober.bothprop_trail Example4.after_first_propagation.solver,
        Example4.after_first_propagation.solver.value t = lbool.l_True)
    ∧ (∀ t ∈ Prober.bothprop_trail Example4.after_second_propagation.solver,
        Example4.after_second_propagation.solver.value t = lbool.l_True)
    ∧ (Example4.after_second_probe.toEnqueue
        = (Prober.bothprop_trail Example4.after_second_propagation.solver).filter
          (fun t => decide (t ∈ Prober.bothprop_trail Example4.after_first_propagation.solver))
      ∧ (∀ t, t ∈ Example4.after_second_probe.toEnqueue
          ↔ (t ∈ Prober.bothprop_trail Example4.after_first_propagation.solver
            ∧ t ∈ Prober.bothprop_trail Example4.after_second_propagation.solver))
      ∧ (((Prober.bothprop_trail Example4.after_second_propagation.solver).map Lit.var).Nodup
          → (Example4.after_second_probe.toEnqueue.map Lit.var).Nodup)
      ∧ (∃ S : Solver, S.decisionLevel = 0
          ∧ Example4.after_second_probe.solver = (Example4.env.fully_enqueue_these
              (S.log (.fully_enqueue_these Example4.after_second_probe.toEnqueue))
              Example4.after_second_probe.toEnqueue).1)) :=
  have hinv : ∀ v, Example4.prober.propagated v = true
      → v ∈ Example4.prober.propagatedBitSet := by
    intro v hv
    simp [Example4.prober] at hv
  ⟨Example4.probe_env_keepsLevel, hinv, rfl, rfl, rfl, rfl, rfl, rfl, by decide!, by decide!,
    try_this_bothprop Example4.env Example4.probe_env_keepsLevel Example4.prober ⟨0, false⟩ 1000
      Example4.after_first_propagation Example4.after_first_probe
      Example4.after_second_propagation Example4.after_second_probe true true
      hinv rfl rfl rfl rfl rfl rfl (by decide!) (by decide!)⟩

/-- The two trails of the example and `toEnqueue` after the second probe: `x1`, the one
literal on both trails; `fully_enqueue_these` then puts it on the trail of decision level
zero. -/
theorem Example4.bothprop_run :
    (Prober.bothprop_trail Example4.after_first_propagation.solver,
      Prober.bothprop_trail Example4.after_second_propagation.solver,
      Example4.after_second_probe.toEnqueue,
      Example4.after_second_probe.solver.trail,
      Example4.after_second_probe.solver.trace)
      = ([⟨2, false⟩, ⟨1, false⟩, ⟨0, false⟩], [⟨2, true⟩, ⟨1, false⟩, ⟨0, true⟩],
        [⟨1, false⟩], [⟨1, false⟩],
        [.fully_enqueue_these [], .fully_enqueue_these [⟨1, false⟩]]) := by
  decide!

/-! ## C22: the configuration of a sub-solver -/

/-- C22: for every parent configuration and every `numVars`, `configureNewSolver` returns
a configuration with `doCompHandler` false and `doSQL` false (zero); from 60 variables on
`do_simplify_problem`, `doStamp`, `doCache`, `doProbe`, `otfHyperbin` and `verbosity` are
the parent's, and below 60 variables the five flags are false and `verbosity` is at most
zero. -/
theorem configureNewSolver_no_recursion (E : CompEnv) (H : CompHandler) (numVars : Nat) :
    (CompHandler.configureNewSolver E H numVars).doCompHandler = false
    ∧ (CompHandler.configureNewSolver E H numVars).doSQL = 0
    ∧ (60 ≤ numVars →
        (CompHandler.configureNewSolver E H numVars).do_simplify_problem
            = H.solver.conf.do_simplify_problem
        ∧ (CompHandler.configureNewSolver E H numVars).doStamp = H.solver.conf.doStamp
        ∧ (CompHandler.configureNewSolver E H numVars).doCache = H.solver.conf.doCache
        ∧ (CompHandler.configureNewSolver E H numVars).doProbe = H.solver.conf.doProbe
        ∧ (CompHandler.configureNewSolver E H numVars).otfHyperbin = H.solver.conf.otfHyperbin
        ∧ (CompHandler.configureNewSolver E H numVars).verbosity = H.solver.conf.verbosity)
    ∧ (numVars < 60 →
        (CompHandler.configureNewSolver E H numVars).do_simplify_problem = false
        ∧ (CompHandler.configureNewSolver E H numVars).doStamp = false
        ∧ (CompHandler.configureNewSolver E H numVars).doCache = false
        ∧ (CompHandler.configureNewSolver E H numVars).doProbe = false
        ∧ (CompHandler.configureNewSolver E H numVars).otfHyperbin = false
        ∧ (CompHandler.configureNewSolver E H numVars).verbosity ≤ 0) := by
  refine ⟨rfl, ?_, ?_, ?_⟩
  · unfold CompHandler.configureNewSolver
    simp only []
    split <;> rfl
  · intro h
    have h60 : ¬ numVars < 60 := by omega
    have h20 : ¬ (numVars < 20 ∧ H.solver.conf.verbosity < 3) := by
      intro hc; omega
    simp [CompHandler.configureNewSolver, h60, h20]
  · intro h
    by_cases h20 : numVars < 20 ∧ H.solver.conf.verbosity < 3
    · simp [CompHandler.configureNewSolver, h, h20]
    · simp [CompHandler.configureNewSolver, h, h20]

/-- The handler of the example with a component of 100 and one of 2 variables. -/
theorem configureNewSolver_no_recursion_witness :
    (60 ≤ 100 ∧ 2 < 60)
    ∧ (CompHandler.configureNewSolver Example3.env_sat Example3.handler 100).doCompHandler = false
    ∧ (CompHandler.configureNewSolver Example3.env_sat Example3.handler 100).otfHyperbin
        = Example3.handler.solver.conf.otfHyperbin
    ∧ (CompHandler.configureNewSolver Example3.env_sat Example3.handler 100).verbosity
        = Example3.handler.solver.conf.verbosity
    ∧ (CompHandler.configureNewSolver Example3.env_sat Example3.handler 2).doCompHandler = false
    ∧ (CompHandler.configureNewSolver Example3.env_sat Example3.handler 2).otfHyperbin = false
    ∧ (CompHandler.configureNewSolver Example3.env_sat Example3.handler 2).verbosity ≤ 0 :=
  ⟨⟨by decide, by decide⟩,
    (configureNewSolver_no_recursion Example3.env_sat Example3.handler 100).1,
    ((configureNewSolver_no_recursion Example3.env_sat Example3.handler 100).2.2.1
      (by decide)).2.2.2.2.1,
    ((configureNewSolver_no_recursion Example3.env_sat Example3.handler 100).2.2.1
      (by decide)).2.2.2.2.2,
    (configureNewSolver_no_recursion Example3.env_sat Example3.handler 2).1,
    ((configureNewSolver_no_recursion Example3.env_sat Example3.handler 2).2.2.2
      (by decide)).2.2.2.2.1,
    ((configureNewSolver_no_recursion Example3.env_sat Example3.handler 2).2.2.2
      (by decide)).2.2.2.2.2⟩

/-! ## C21: the seed order of BVA -/

theorem Lit.toInt_toLit (i : Nat) : (Lit.toLit i).toInt = i := by
  unfold Lit.toLit Lit.toInt
  simp only []
  by_cases h : i % 2 = 1
  · simp [h]; omega
  · simp [h]; omega

/-- `calc_watch_irred_size` counts the entries of the watch list that are not redundant. -/
theorem BVA.calc_watch_irred_size_eq (B : BVA) (lit : Lit) :
    B.calc_watch_irred_size lit
      = ((B.solver.watches lit.toInt).filter (fun w => !B.solver.redundant w)).length := by
  unfold BVA.calc_watch_irred_size
  have key : ∀ (ws : List Watched) (n : Nat),
      ws.foldl
        (fun num w =>
          match w with
          | .binary _ r => num + (if !r then 1 else 0)
          | .tertiary _ _ r => num + (if !r then 1 else 0)
          | .clause o _ => num + (if !(B.solver.ptr o).red then 1 else 0)) n
        = n + (ws.filter (fun w => !B.solver.redundant w)).length := by
    intro ws
    induction ws with
    | nil => intro n; rfl
    | cons w ws ih =>
      intro n
      rw [List.foldl_cons, ih, List.filter_cons]
      cases w with
      | binary l r => cases r <;> (simp [Solver.redundant]; try omega)
      | tertiary l2 l3 r => cases r <;> (simp [Solver.redundant]; try omega)
      | clause o b =>
        cases h : (B.solver.ptr o).red <;> (simp [Solver.redundant, h]; try omega)
  rw [key]
  omega

/-- No literal of the heap has a larger entry in `watch_irred_sizes` than the one that
`remove_min` takes out. -/
theorem BVA.heap_min_max (B : BVA) :
    ∀ x ∈ B.var_bva_order, B.watch_irred_sizes x ≤ B.watch_irred_sizes B.heap_min := by
  have key : ∀ (l : List Nat) (best : Nat),
      B.watch_irred_sizes best
          ≤ B.watch_irred_sizes (l.foldl
            (fun best x => if BVA.VarBVAOrder B.watch_irred_sizes x best then x else best) best)
      ∧ ∀ x ∈ l, B.watch_irred_sizes x
          ≤ B.watch_irred_sizes (l.foldl
            (fun best x => if BVA.VarBVAOrder B.watch_irred_sizes x best then x else best)
            best) := by
    intro l
    induction l with
    | nil => intro best; exact ⟨le_refl _, fun x hx => by simp at hx⟩
    | cons y ys ih =>
      intro best
      simp only [List.foldl_cons]
      have h1 := ih (if BVA.VarBVAOrder B.watch_irred_sizes y best then y else best)
      have hb : B.watch_irred_sizes best
            ≤ B.watch_irred_sizes (if BVA.VarBVAOrder B.watch_irred_sizes y best then y else best)
          ∧ B.watch_irred_sizes y
            ≤ B.watch_irred_sizes
              (if BVA.VarBVAOrder B.watch_irred_sizes y best then y else best) := by
        by_cases hc : BVA.VarBVAOrder B.watch_irred_sizes y best = true
        · rw [if_pos hc]
          unfold BVA.VarBVAOrder at hc
          simp only [decide_eq_true_eq] at hc
          exact ⟨by omega, le_refl _⟩
        · rw [if_neg hc]
          unfold BVA.VarBVAOrder at hc
          simp only [decide_eq_true_eq] at hc
          exact ⟨le_refl _, by omega⟩
      refine ⟨le_trans hb.1 h1.1, ?_⟩
      intro x hx
      rcases List.mem_cons.mp hx with hx | hx
      · rw [hx]; exact le_trans hb.2 h1.1
      · exact h1.2 x hx
  intro x hx
  unfold BVA.heap_min
  exact (key B.var_bva_order (B.var_bva_order.headD 0)).2 x hx

/-- C21: in the state in which `bounded_var_addition` enters its loop the heap holds
exactly the literals below `2 * nVars` that have no value and whose variable has
`removed == none`; on these literals `VarBVAOrder` puts `a` before `b` exactly if the watch
list of `a` has more entries that are not redundant than that of `b`; `VarBVAOrder` is
irreflexive and transitive and so is its incomparability; and the literal that
`remove_min` takes first is in the heap and no literal of the heap has more irredundant
watch entries. -/
theorem bounded_var_addition_seed_order (E : Env) (B : BVA) (S : Solver) :
    (∀ i, i ∈ (BVA.bounded_var_addition_init E B S).var_bva_order
      ↔ (i < (BVA.bounded_var_addition_init E B S).solver.nVars * 2
        ∧ (BVA.bounded_var_addition_init E B S).solver.value (Lit.toLit i) = lbool.l_Undef
        ∧ ((BVA.bounded_var_addition_init E B S).solver.varData (Lit.toLit i).var).removed
          = Removed.none))
    ∧ (∀ a b, a < (BVA.bounded_var_addition_init E B S).solver.nVars * 2 →
        b < (BVA.bounded_var_addition_init E B S).solver.nVars * 2 →
        (BVA.VarBVAOrder (BVA.bounded_var_addition_init E B S).watch_irred_sizes a b = true
          ↔ (((BVA.bounded_var_addition_init E B S).solver.watches b).filter
                (fun w => !(BVA.bounded_var_addition_init E B S).solver.redundant w)).length
            < (((BVA.bounded_var_addition_init E B S).solver.watches a).filter
                (fun w => !(BVA.bounded_var_addition_init E B S).solver.redundant w)).length))
    ∧ (∀ (sizes : Nat → Nat),
        (∀ a, BVA.VarBVAOrder sizes a a = false)
        ∧ (∀ a b c, BVA.VarBVAOrder sizes a b = true → BVA.VarBVAOrder sizes b c = true →
            BVA.VarBVAOrder sizes a c = true)
        ∧ (∀ a b c, BVA.VarBVAOrder sizes a b = false → BVA.VarBVAOrder sizes b a = false →
            BVA.VarBVAOrder sizes b c = false → BVA.VarBVAOrder sizes c b = false →
            BVA.VarBVAOrder sizes a c = false ∧ BVA.VarBVAOrder sizes c a = false))
    ∧ ((BVA.bounded_var_addition_init E B S).var_bva_order ≠ [] →
        (BVA.bounded_var_addition_init E B S).heap_min
            ∈ (BVA.bounded_var_addition_init E B S).var_bva_order
        ∧ ∀ x ∈ (BVA.bounded_var_addition_init E B S).var_bva_order,
            (((BVA.bounded_var_addition_init E B S).solver.watches x).filter
                (fun w => !(BVA.bounded_var_addition_init E B S).solver.redundant w)).length
            ≤ (((BVA.bounded_var_addition_init E B S).solver.watches
                (BVA.bounded_var_addition_init E B S).heap_min).filter
                (fun w => !(BVA.bounded_var_addition_init E B S).solver.redundant w)).length) := by
  have hsize : ∀ i, i < (BVA.bounded_var_addition_init E B S).solver.nVars * 2 →
      (BVA.bounded_var_addition_init E B S).watch_irred_sizes i
        = (((BVA.bounded_var_addition_init E B S).solver.watches i).filter
            (fun w => !(BVA.bounded_var_addition_init E B S).solver.redundant w)).length := by
    intro i hi
    have h1 : (BVA.bounded_var_addition_init E B S).watch_irred_sizes i
        = BVA.calc_watch_irred_size
            { B with
              solver := (BVA.bounded_var_addition_init E B S).solver,
              limit_to_decrease := (BVA.bounded_var_addition_init E B S).limit_to_decrease,
              bva_worked := 0, bva_simp_size := 0, var_bva_order := [] } (Lit.toLit i) := by
      unfold BVA.bounded_var_addition_init BVA.calc_watch_irred_sizes
      simp only []
      exact if_pos hi
    rw [h1, BVA.calc_watch_irred_size_eq, Lit.toInt_toLit]
  have hmem : ∀ i, i ∈ (BVA.bounded_var_addition_init E B S).var_bva_order
      ↔ (i < (BVA.bounded_var_addition_init E B S).solver.nVars * 2
        ∧ (BVA.bounded_var_addition_init E B S).solver.value (Lit.toLit i) = lbool.l_Undef
        ∧ ((BVA.bounded_var_addition_init E B S).solver.varData (Lit.toLit i).var).removed
          = Removed.none) := by
    intro i
    unfold BVA.bounded_var_addition_init BVA.calc_watch_irred_sizes
    simp only [List.mem_filter, List.mem_range, Bool.and_eq_true, decide_eq_true_eq]
  refine ⟨hmem, ?_, ?_, ?_⟩
  · intro a b ha hb
    unfold BVA.VarBVAOrder
    rw [hsize a ha, hsize b hb]
    simp only [decide_eq_true_eq, gt_iff_lt]
  · intro sizes
    unfold BVA.VarBVAOrder
    refine ⟨fun a => by simp, ?_, ?_⟩
    · intro a b c h1 h2
      simp only [decide_eq_true_eq] at h1 h2 ⊢
      omega
    · intro a b c h1 h2 h3 h4
      simp only [decide_eq_false_iff_not] at h1 h2 h3 h4 ⊢
      constructor <;> omega
  · intro hne
    refine ⟨BVA.heap_min_mem _ hne, ?_⟩
    intro x hx
    have hx2 := ((hmem x).mp hx).1
    have hm2 := ((hmem _).mp (BVA.heap_min_mem _ hne)).1
    rw [← hsize x hx2, ← hsize _ hm2]
    exact BVA.heap_min_max _ x hx

/-- On the example the heap is not empty, so that a first literal is tried. -/
theorem bounded_var_addition_seed_order_witness :
    (BVA.bounded_var_addition_init Example.env Example2.bva Example2.solver).var_bva_order ≠ []
    ∧ ((BVA.bounded_var_addition_init Example.env Example2.bva Example2.solver).heap_min
          ∈ (BVA.bounded_var_addition_init Example.env Example2.bva Example2.solver).var_bva_order
      ∧ ∀ x ∈ (BVA.bounded_var_addition_init Example.env Example2.bva
            Example2.solver).var_bva_order,
          (((BVA.bounded_var_addition_init Example.env Example2.bva Example2.solver).solver.watches
              x).filter
              (fun w => !(BVA.bounded_var_addition_init Example.env Example2.bva
                Example2.solver).solver.redundant w)).length
          ≤ (((BVA.bounded_var_addition_init Example.env Example2.bva
                Example2.solver).solver.watches
              (BVA.bounded_var_addition_init Example.env Example2.bva Example2.solver).heap_min).filter
              (fun w => !(BVA.bounded_var_addition_init Example.env Example2.bva
                Example2.solver).solver.redundant w)).length) :=
  ⟨by decide!,
    (bounded_var_addition_seed_order Example.env Example2.bva Example2.solver).2.2.2
      (by decide!)⟩

/-- The heap of the example: all sixteen literals; the first literal tried and the number
of its irredundant watch entries. -/
theorem Example2.seed_order_run :
    ((BVA.bounded_var_addition_init Example.env Example2.bva Example2.solver).var_bva_order.length,
      (BVA.bounded_var_addition_init Example.env Example2.bva Example2.solver).heap_min,
      (BVA.bounded_var_addition_init Example.env Example2.bva
        Example2.solver).watch_irred_sizes
        (BVA.bounded_var_addition_init Example.env Example2.bva Example2.solver).heap_min,
      ((List.range 16).map (BVA.bounded_var_addition_init Example.env Example2.bva
        Example2.solver).watch_irred_sizes).foldl max 0)
      = (16, 0, 3, 3) := by
  decide!

/-! ## C23: the two default schedules -/

/-- The tokens of the two default schedules. -/
theorem default_schedule_tokens :
    schedule_tokens ({} : SolverConf).simplify_at_startup_sequence
      = ["sub-impl".toList, "simplify".toList, "scc-vrepl".toList]
    ∧ schedule_tokens ({} : SolverConf).simplify_nonstartup_sequence
      = ["handle-comps".toList, "scc-vrepl".toList, "cache-clean".toList,
          "cache-tryboth".toList, "sub-impl".toList, "intree-probe".toList, "probe".toList,
          "str-cls".toList, "distill-cls".toList, "scc-vrepl".toList, "sub-impl".toList,
          "simplify".toList, "str-impl".toList, "cache-clean".toList, "str-cls".toList,
          "distill-cls".toList, "scc-vrepl".toList, "check-cache-size".toList,
          "renumber".toList] := by
  constructor <;> decide!

/-- C23 (as claimed, refuted): the token `handle-comps` of the default
`simplify_nonstartup_sequence` does not occur in the default
`simplify_at_startup_sequence`, which has 3 tokens against 19. -/
theorem startup_schedule_counterexample :
    "handle-comps".toList ∈ schedule_tokens ({} : SolverConf).simplify_nonstartup_sequence
    ∧ "handle-comps".toList ∉ schedule_tokens ({} : SolverConf).simplify_at_startup_sequence
    ∧ (schedule_tokens ({} : SolverConf).simplify_at_startup_sequence).length = 3
    ∧ (schedule_tokens ({} : SolverConf).simplify_nonstartup_sequence).length = 19 := by
  refine ⟨?_, ?_, ?_, ?_⟩ <;> decide!

/-- C23 (amended): every step token of the default `simplify_at_startup_sequence` also
occurs in the default `simplify_nonstartup_sequence`, and the nonstartup sequence has at
least as many tokens. -/
theorem nonstartup_schedule_richer :
    (∀ t ∈ schedule_tokens ({} : SolverConf).simplify_at_startup_sequence,
      t ∈ schedule_tokens ({} : SolverConf).simplify_nonstartup_sequence)
    ∧ (schedule_tokens ({} : SolverConf).simplify_at_startup_sequence).length
      ≤ (schedule_tokens ({} : SolverConf).simplify_nonstartup_sequence).length := by
  constructor <;> decide!

/-! ## C26 and C27: duplicates in `m_cls`, and the clause that `find_cl_for_bva` returns -/

/-- C26: on the example `m_cls` holds the long clauses `(a ∨ c ∨ d ∨ e)` and
`(a ∨ c ∨ d ∨ e ∨ f)`.  They differ in size, the clean-up loop of
`remove_duplicates_from_m_cls` leaves its `switch` with `del == true`, and the second
clause is dropped: after the call `m_cls` holds the first clause only, and no entry
denotes `(a ∨ c ∨ d ∨ e ∨ f)`. -/
theorem remove_duplicates_drops_other_size :
    Example7.bva.m_cls = [⟨Example.a, .clause 0 Example.a⟩, ⟨Example.a, .clause 1 Example.a⟩]
    ∧ Example7.solver.occ_lits ⟨Example.a, .clause 0 Example.a⟩
      = [Example.a, Example.c, Example.d, Example.e]
    ∧ Example7.solver.occ_lits ⟨Example.a, .clause 1 Example.a⟩
      = [Example.a, Example.c, Example.d, Example.e, Example.f]
    ∧ (BVA.remove_duplicates_from_m_cls Example.env Example7.bva).m_cls
      = [⟨Example.a, .clause 0 Example.a⟩]
    ∧ (∀ c ∈ (BVA.remove_duplicates_from_m_cls Example.env Example7.bva).m_cls,
        (BVA.remove_duplicates_from_m_cls Example.env Example7.bva).solver.occ_lits c
          ≠ [Example.a, Example.c, Example.d, Example.e, Example.f]) := by
  refine ⟨rfl, ?_, ?_, ?_, ?_⟩ <;> decide!

/-- C27: on the example the watch list of `a` holds the one long clause
`(a ∨ c ∨ d ∨ e)`.  For `torem = [a, c, d, f]` no clause of the list has all its literals
in `torem`, yet `find_cl_for_bva` returns the clause `(a ∨ c ∨ d ∨ e)`, the last long
clause that its scan read, and its assertion `cl != NULL` does not fail. -/
theorem find_cl_for_bva_returns_unmatched :
    (Example.bva.find_cl_for_bva [Example.a, Example.c, Example.d, Example.f] false).2 = some 0
    ∧ (Example.solver.ptr 0).lits = [Example.a, Example.c, Example.d, Example.e]
    ∧ Example.e ∉ [Example.a, Example.c, Example.d, Example.f]
    ∧ (∀ w ∈ Example.solver.watches Example.a.toInt, w.isClause = true →
        ¬ (∀ l ∈ (Example.solver.ptr w.get_offset).lits,
          l ∈ [Example.a, Example.c, Example.d, Example.f])) := by
  refine ⟨?_, ?_, ?_, ?_⟩ <;> decide!

/-! ## C29: moving the long clauses of a component -/

namespace CompHandler

theorem detachClause_frame (S : Solver) (offset : Nat) :
    (S.detachClause offset).cl_alloc = S.cl_alloc
    ∧ (S.detachClause offset).interToOuterMain = S.interToOuterMain := by
  unfold Solver.detachClause
  generalize (S.ptr offset).lits = ls
  induction ls generalizing S with
  | nil => exact ⟨rfl, rfl⟩
  | cons a t ih =>
    rw [List.foldl_cons]
    exact ih _

/-- The three cases of the loop body of `moveClausesLong`. -/
theorem moveClausesLong_step_eq (comp : Nat) (H : CompHandler) (N : SATSolver) (k : List Nat)
    (offset : Nat) :
    moveClausesLong_step comp (H, N, k) offset
      = if H.stays_in_main comp offset then (H, N, k ++ [offset])
        else if H.irredundant_of_comp comp offset then
          ({ H.saveClause (H.solver.ptr offset).lits with
              solver := (H.saveClause (H.solver.ptr offset).lits).solver.detachClause offset },
            N.add_clause ((H.solver.ptr offset).lits.map H.upd_bigsolver_to_smallsolver_lit), k)
        else ({ H with solver := H.solver.detachClause offset }, N, k) := by
  unfold moveClausesLong_step moveClausesLong_move stays_in_main irredundant_of_comp
  simp only []
  generalize H.getVarComp ((H.solver.ptr offset).lits.headD lit_Undef).var = v
  cases hred : (H.solver.ptr offset).red
  · by_cases hc : v = comp
    · simp [hc]
    · simp [hc]
  · cases h1 : (H.solver.ptr offset).lits.any (fun l => H.getVarComp l.var == comp)
    · simp [h1]
    · cases h2 : (H.solver.ptr offset).lits.any (fun l => H.getVarComp l.var != comp)
      · simp [h1, h2]
      · simp [h1, h2]

/-- A clause that does not stay is an irredundant clause of the component or a redundant
clause with a variable in it. -/
theorem not_stays_iff (H : CompHandler) (comp offset : Nat) :
    (!H.stays_in_main comp offset)
      = (H.irredundant_of_comp comp offset || H.redundant_in_comp comp offset) := by
  unfold stays_in_main irredundant_of_comp redundant_in_comp
  generalize H.getVarComp ((H.solver.ptr offset).lits.headD lit_Undef).var = v
  cases (H.solver.ptr offset).red <;>
    cases (H.solver.ptr offset).lits.any (fun l => H.getVarComp l.var == comp) <;>
    by_cases hc : v = comp <;>
    simp [hc, bne]

/-- The loop of `moveClausesLong`, started in a handler `G` that has the clauses, the
components and the renumbering of `H`. -/
theorem moveClausesLong_fold (comp : Nat) (H : CompHandler) :
    ∀ (cs : List Nat) (G : CompHandler) (N : SATSolver) (k : List Nat),
      G.compFinder = H.compFinder → G.solver.cl_alloc = H.solver.cl_alloc →
      G.solver.interToOuterMain = H.solver.interToOuterMain →
      G.bigsolver_to_smallsolver = H.bigsolver_to_smallsolver →
      (cs.foldl (moveClausesLong_step comp) (G, N, k)).2.2
          = k ++ cs.filter (H.stays_in_main comp)
      ∧ (cs.foldl (moveClausesLong_step comp) (G, N, k)).2.1.clauses
          = N.clauses ++ (cs.filter (H.irredundant_of_comp comp)).map
              (fun o => (H.solver.ptr o).lits.map H.upd_bigsolver_to_smallsolver_lit)
      ∧ (cs.foldl (moveClausesLong_step comp) (G, N, k)).1.removedClauses.lits
          = G.removedClauses.lits ++ (cs.filter (H.irredundant_of_comp comp)).flatMap
              (fun o => (H.solver.ptr o).lits.map H.solver.map_inter_to_outer_lit)
      ∧ (cs.foldl (moveClausesLong_step comp) (G, N, k)).1.removedClauses.sizes
          = G.removedClauses.sizes ++ (cs.filter (H.irredundant_of_comp comp)).map
              (fun o => (H.solver.ptr o).lits.length)
      ∧ (cs.foldl (moveClausesLong_step comp) (G, N, k)).1.solver
          = (cs.filter (fun o => !H.stays_in_main comp o)).foldl Solver.detachClause
              G.solver := by
  intro cs
  induction cs with
  | nil =>
    intro G N k _ _ _ _
    simp
  | cons o cs ih =>
    intro G N k hcf hcl hio hbs
    have hptr : G.solver.ptr o = H.solver.ptr o := by
      unfold Solver.ptr; rw [hcl]
    have hgv : ∀ v, G.getVarComp v = H.getVarComp v := by
      intro v; unfold getVarComp; rw [hcf]
    have hstays : G.stays_in_main comp o = H.stays_in_main comp o := by
      unfold stays_in_main; simp only [hptr, hgv]
    have hirr : G.irredundant_of_comp comp o = H.irredundant_of_comp comp o := by
      unfold irredundant_of_comp; simp only [hptr, hgv]
    have hupd : ∀ l, G.upd_bigsolver_to_smallsolver_lit l = H.upd_bigsolver_to_smallsolver_lit l := by
      intro l
      unfold upd_bigsolver_to_smallsolver_lit upd_bigsolver_to_smallsolver
      rw [hbs]
    have hout : ∀ l, G.solver.map_inter_to_outer_lit l = H.solver.map_inter_to_outer_lit l := by
      intro l
      unfold Solver.map_inter_to_outer_lit Solver.map_inter_to_outer
      rw [hio]
    rw [List.foldl_cons, moveClausesLong_step_eq, hstays, hirr]
    cases hs : H.stays_in_main comp o
    · have hns := not_stays_iff H comp o
      rw [hs] at hns
      cases hi : H.irredundant_of_comp comp o
      · simp only [Bool.false_eq_true, if_false]
        obtain ⟨h1, h2, h3, h4, h5⟩ := ih { G with solver := G.solver.detachClause o } N k
          hcf ((detachClause_frame _ _).1.trans hcl) ((detachClause_frame _ _).2.trans hio) hbs
        refine ⟨?_, ?_, ?_, ?_, ?_⟩
        · rw [h1, List.filter_cons, hs]; simp
        · rw [h2, List.filter_cons, hi]; simp
        · rw [h3, List.filter_cons, hi]; simp
        · rw [h4, List.filter_cons, hi]; simp
        · rw [h5, List.filter_cons, hs]; simp
      · simp only [Bool.false_eq_true, if_false, if_true]
        obtain ⟨h1, h2, h3, h4, h5⟩ := ih
          { G.saveClause (G.solver.ptr o).lits with
            solver := (G.saveClause (G.solver.ptr o).lits).solver.detachClause o }
          (N.add_clause ((G.solver.ptr o).lits.map G.upd_bigsolver_to_smallsolver_lit)) k
          hcf ((detachClause_frame _ _).1.trans hcl) ((detachClause_frame _ _).2.trans hio) hbs
        refine ⟨?_, ?_, ?_, ?_, ?_⟩
        · rw [h1, List.filter_cons, hs]; simp
        · rw [h2, List.filter_cons, hi]
          simp only [if_true, List.map_cons, SATSolver.add_clause, List.append_assoc,
            List.singleton_append, hptr]
          congr 2
          exact List.map_congr_left (fun l _ => hupd l)
        · rw [h3, List.filter_cons, hi]
          simp only [if_true, List.flatMap_cons, saveClause, List.append_assoc, hptr]
          congr 2
          exact List.map_congr_left (fun l _ => hout l)
        · rw [h4, List.filter_cons, hi]
          simp only [if_true, List.map_cons, saveClause, List.append_assoc,
            List.singleton_append, hptr]
        · rw [h5, List.filter_cons, hs]
          simp only [Bool.not_false, if_true, List.foldl_cons]
          rfl
    · have hi : H.irredundant_of_comp comp o = false := by
        have hns := not_stays_iff H comp o
        rw [hs] at hns
        cases h : H.irredundant_of_comp comp o
        · rfl
        · rw [h] at hns; simp at hns
      simp only [if_true]
      obtain ⟨h1, h2, h3, h4, h5⟩ := ih G N (k ++ [o]) hcf hcl hio hbs
      refine ⟨?_, ?_, ?_, ?_, ?_⟩
      · rw [h1, List.filter_cons, hs]; simp
      · rw [h2, List.filter_cons, hi]; simp
      · rw [h3, List.filter_cons, hi]; simp
      · rw [h4, List.filter_cons, hi]; simp
      · rw [h5, List.filter_cons, hs]; simp

end CompHandler

/-- C29: after `moveClausesLong(cs, newSolver, comp)`, `cs` holds in their order the
offsets of the clauses that stay (irredundant with the variable of the first literal
outside `comp`, or redundant with no variable in `comp`); the irredundant clauses of
`comp` are added to `newSolver` in their order, each literal renumbered by
`bigsolver_to_smallsolver` with its sign, and recorded by `saveClause` with their outer
literals and sizes; the main solver is left as `detachClause` leaves it on each clause that
does not stay, and a clause that does not stay is an irredundant clause of `comp` or a
redundant clause with a variable in `comp`, which `newSolver` is not given. -/
theorem moveClausesLong_spec (H : CompHandler) (N : SATSolver) (comp : Nat) (cs : List Nat) :
    (CompHandler.moveClausesLong H N comp cs).2.2 = cs.filter (H.stays_in_main comp)
    ∧ (CompHandler.moveClausesLong H N comp cs).2.1.clauses
        = N.clauses ++ (cs.filter (H.irredundant_of_comp comp)).map
            (fun o => (H.solver.ptr o).lits.map H.upd_bigsolver_to_smallsolver_lit)
    ∧ (∀ l, (H.upd_bigsolver_to_smallsolver_lit l).sign = l.sign
        ∧ (H.upd_bigsolver_to_smallsolver_lit l).var = H.bigsolver_to_smallsolver.getD l.var 0)
    ∧ (CompHandler.moveClausesLong H N comp cs).1.removedClauses.lits
        = H.removedClauses.lits ++ (cs.filter (H.irredundant_of_comp comp)).flatMap
            (fun o => (H.solver.ptr o).lits.map H.solver.map_inter_to_outer_lit)
    ∧ (CompHandler.moveClausesLong H N comp cs).1.removedClauses.sizes
        = H.removedClauses.sizes ++ (cs.filter (H.irredundant_of_comp comp)).map
            (fun o => (H.solver.ptr o).lits.length)
    ∧ (CompHandler.moveClausesLong H N comp cs).1.solver
        = (cs.filter (fun o => H.irredundant_of_comp comp o || H.redundant_in_comp comp o)).foldl
            Solver.detachClause H.solver
    ∧ (∀ o, (!H.stays_in_main comp o)
        = (H.irredundant_of_comp comp o || H.redundant_in_comp comp o)) := by
  obtain ⟨h1, h2, h3, h4, h5⟩ :=
    CompHandler.moveClausesLong_fold comp H cs H N [] rfl rfl rfl rfl
  refine ⟨?_, h2, fun l => ⟨rfl, rfl⟩, h3, h4, ?_, fun o => CompHandler.not_stays_iff H comp o⟩
  · unfold CompHandler.moveClausesLong
    rw [h1, List.nil_append]
  · unfold CompHandler.moveClausesLong
    rw [h5]
    congr 1
    apply List.filter_congr
    intro o _
    exact CompHandler.not_stays_iff H comp o

/-! ## C30: the assignment of packed rows -/

/-- C30: on the example the rows `a` and `b` have one column word each, `b[0]` is set and
`a[0]` is not.  The assignment `a = b` copies `size+1 = 2` bytes, which lie in the word
`is_true_internal`: afterwards the right-hand sides agree and `b` is unchanged, but `a[0]`
is still not set while `b[0]` is. -/
theorem packed_row_assign_keeps_columns :
    Example8.a.size = Example8.b.size
    ∧ Example8.b.get Example8.mem 0 = true
    ∧ Example8.a.get (PackedRow.assign Example8.a Example8.b Example8.mem) 0 = false
    ∧ Example8.b.get (PackedRow.assign Example8.a Example8.b Example8.mem) 0 = true
    ∧ Example8.a.is_true (PackedRow.assign Example8.a Example8.b Example8.mem) = 1
    ∧ Example8.b.is_true (PackedRow.assign Example8.a Example8.b Example8.mem) = 1 := by
  refine ⟨rfl, ?_, ?_, ?_, ?_, ?_⟩ <;> decide!

/-- The assignment of rows of at most seven column words changes no column bit of the
left-hand side: the `size+1` bytes copied lie before `mp`. -/
theorem PackedRow.assign_columns_unchanged (a b : PackedRow) (mem : Nat → Nat)
    (ha : 8 ≤ a.mp) (hsize : a.size ≤ 7) (i : Nat) :
    a.get (PackedRow.assign a b mem) i = a.get mem i := by
  have hw : ∀ k, a.word (PackedRow.assign a b mem) k = a.word mem k := by
    intro k
    unfold PackedRow.word PackedRow.read_word
    have hb : ∀ j, PackedRow.assign a b mem (a.mp + 8 * k + j) = mem (a.mp + 8 * k + j) := by
      intro j
      unfold PackedRow.assign PackedRow.memcpy
      rw [if_neg (by omega)]
    simp only [hb]
  unfold PackedRow.get
  rw [hw]

/-! ## C24 and C25: the tool `restrictSHA1` -/

namespace RestrictSHA1

theorem clamp_nonneg (n : Int) (h : 0 ≤ n) : clamp 0 |n| 512 = min n 512 := by
  unfold clamp
  rw [abs_of_nonneg h]
  have h1 : ¬ n < 0 := by omega
  rw [if_neg h1]
  by_cases h2 : n > 512
  · rw [if_pos h2]; omega
  · rw [if_neg h2]; omega

/-- The loop over the input lines, when every line that `isPrefix` takes for a header has
the two numbers: each line is written as the specification says. -/
theorem copy_lines_wellformed (N : Int) :
    ∀ (cnfFile outfile : List (List Char)),
      (∀ line ∈ cnfFile, isPrefix line headerPrefix = true →
        ∃ V C, read_header line = some (some (V, C))) →
      copy_lines N cnfFile outfile = (outfile ++ cnfFile.map (restricted_line N), none) := by
  intro cnfFile
  induction cnfFile with
  | nil => intro outfile _; simp [copy_lines]
  | cons line rest ih =>
    intro outfile h
    have hrest : ∀ l ∈ rest, isPrefix l headerPrefix = true →
        ∃ V C, read_header l = some (some (V, C)) :=
      fun l hl => h l (List.mem_cons_of_mem _ hl)
    unfold copy_lines
    by_cases hp : isPrefix line headerPrefix = true
    · obtain ⟨V, C, hVC⟩ := h line (List.mem_cons_self _ _) hp
      rw [if_pos hp, hVC]
      simp only []
      rw [ih _ hrest]
      simp [restricted_line, hp, hVC]
    · rw [if_neg hp, ih _ hrest]
      simp [restricted_line, hp]

/-- With a non-negative first argument `n` and `N = min(n, 512)`, on an input in which
every line that `isPrefix` takes for a header has the two numbers, `main` returns 0 and
the output is the input lines in order, the header lines rewritten, followed by the `N`
lines `-i 0` for `i = 1, …, N`. -/
theorem main_nonneg_wellformed (n : Int) (cnfFile : List (List Char)) (RAND_MAX : Nat)
    (rand : Nat → Nat) (hn : 0 ≤ n)
    (h : ∀ line ∈ cnfFile, isPrefix line headerPrefix = true →
      ∃ V C, read_header line = some (some (V, C))) :
    main 4 n cnfFile RAND_MAX rand
      = ⟨cnfFile.map (restricted_line (min n 512))
          ++ (List.range (min n 512).toNat).map zero_unit, .returned 0⟩ := by
  unfold main
  rw [if_neg (by decide), clamp_nonneg n hn]
  simp only []
  rw [copy_lines_wellformed _ _ _ h]
  simp only [List.nil_append]
  rw [if_neg (by omega)]

end RestrictSHA1

/-- C24: on the input lines `p cnf 2 1`, the empty line and `1 2 0`, with the first
argument 1, the claim asks for the output `p cnf 2 2`, the empty line, `1 2 0`, `-1 0`.
`isPrefix` holds of the empty line, which has no character to compare, `substr` is called
past its end and throws: the run ends with the one output line `p cnf 2 2`.  Without the
empty line the run returns 0 with the output that the claim asks for. -/
theorem restrictSHA1_empty_line :
    RestrictSHA1.isPrefix "".toList RestrictSHA1.headerPrefix = true
    ∧ RestrictSHA1.main 4 1 ["p cnf 2 1".toList, "".toList, "1 2 0".toList] 2147483647
        (fun _ => 0)
      = ⟨["p cnf 2 2".toList], .out_of_range⟩
    ∧ ["p cnf 2 1".toList, "".toList, "1 2 0".toList].map (RestrictSHA1.restricted_line 1)
        ++ (List.range 1).map RestrictSHA1.zero_unit
      = ["p cnf 2 2".toList, "".toList, "1 2 0".toList, "-1 0".toList]
    ∧ RestrictSHA1.main 4 1 ["p cnf 2 1".toList, "1 2 0".toList] 2147483647 (fun _ => 0)
      = ⟨["p cnf 2 2".toList, "1 2 0".toList, "-1 0".toList], .returned 0⟩ := by
  refine ⟨?_, ?_, ?_, ?_⟩ <;> decide!

theorem cons_set_perm_int (a : Int) : ∀ (t : List Int) (k : Nat), k < t.length →
    (t.getD k 0 :: t.set k a).Perm (a :: t)
  | [], k, h => by simp at h
  | b :: t, 0, _ => by
    rw [List.getD_cons_zero, List.set_cons_zero]
    exact List.Perm.swap _ _ _
  | b :: t, k + 1, h => by
    rw [List.getD_cons_succ, List.set_cons_succ]
    have h1 : k < t.length := by simpa using h
    exact (List.Perm.swap _ _ _).trans (((cons_set_perm_int a t k h1).cons b).trans
      (List.Perm.swap _ _ _))

theorem set_set_perm_int : ∀ (l : List Int) (i j : Nat), i < l.length → j < l.length →
    ((l.set i (l.getD j 0)).set j (l.getD i 0)).Perm l
  | [], i, _, h, _ => by simp at h
  | a :: t, 0, 0, _, _ => by
    simp only [List.getD_cons_zero, List.set_cons_zero]
    exact List.Perm.refl _
  | a :: t, 0, k + 1, _, h => by
    simp only [List.getD_cons_zero, List.getD_cons_succ, List.set_cons_zero,
      List.set_cons_succ]
    exact cons_set_perm_int a t k (by simpa using h)
  | a :: t, k + 1, 0, h, _ => by
    simp only [List.getD_cons_zero, List.getD_cons_succ, List.set_cons_zero,
      List.set_cons_succ]
    exact cons_set_perm_int a t k (by simpa using h)
  | a :: t, k + 1, m + 1, h1, h2 => by
    simp only [List.getD_cons_succ, List.set_cons_succ]
    exact (set_set_perm_int t k m (by simpa using h1) (by simpa using h2)).cons a

namespace RestrictSHA1

/-- For a result of `std::rand()` below `RAND_MAX` the swap index of round `i` lies in
`[i, length - 1]`. -/
theorem indexToSwap_range (RAND_MAX r : Nat) (length i : Int) (hr : r < RAND_MAX)
    (hi : i < length) :
    i ≤ indexToSwap RAND_MAX r length i ∧ indexToSwap RAND_MAX r length i < length := by
  unfold indexToSwap
  have hRM : (0 : ℚ) < (RAND_MAX : ℚ) := by
    have : 0 < RAND_MAX := by omega
    exact_mod_cast this
  have hlen : (0 : ℚ) < ((length - i : Int) : ℚ) := by
    have : 0 < length - i := by omega
    exact_mod_cast this
  have hq0 : (0 : ℚ) ≤ (r : ℚ) / (RAND_MAX : ℚ) := by positivity
  have hq1 : (r : ℚ) / (RAND_MAX : ℚ) < 1 := by
    rw [div_lt_one hRM]
    exact_mod_cast hr
  have hfloor : Rat.floor ((r : ℚ) / (RAND_MAX : ℚ) * ((length - i : Int) : ℚ))
      = ⌊(r : ℚ) / (RAND_MAX : ℚ) * ((length - i : Int) : ℚ)⌋ := rfl
  rw [hfloor]
  have h0 : 0 ≤ ⌊(r : ℚ) / (RAND_MAX : ℚ) * ((length - i : Int) : ℚ)⌋ :=
    Int.floor_nonneg.mpr (mul_nonneg hq0 (le_of_lt hlen))
  have h1 : ⌊(r : ℚ) / (RAND_MAX : ℚ) * ((length - i : Int) : ℚ)⌋ < length - i := by
    rw [Int.floor_lt]
    calc (r : ℚ) / (RAND_MAX : ℚ) * ((length - i : Int) : ℚ)
        < 1 * ((length - i : Int) : ℚ) := by
          exact mul_lt_mul_of_pos_right hq1 hlen
      _ = ((length - i : Int) : ℚ) := one_mul _
  constructor <;> omega

/-- For the result `RAND_MAX` of `std::rand()` the swap index of round `i` is `length`. -/
theorem indexToSwap_max (RAND_MAX : Nat) (length i : Int) (hRM : 0 < RAND_MAX) :
    indexToSwap RAND_MAX RAND_MAX length i = length := by
  unfold indexToSwap
  have hRM1 : (RAND_MAX : ℚ) ≠ 0 := by
    have : RAND_MAX ≠ 0 := by omega
    exact_mod_cast this
  rw [div_self hRM1, one_mul]
  have : Rat.floor ((length - i : Int) : ℚ) = length - i := by
    show ⌊((length - i : Int) : ℚ)⌋ = length - i
    exact Int.floor_intCast _
  rw [this]
  omega

theorem swap_is_perm (l : List Int) (i j : Int) (hi0 : 0 ≤ i) (hi : i < l.length) (hj0 : 0 ≤ j)
    (hj : j < l.length) : ∃ p, swap l i j = some p ∧ p.Perm l := by
  refine ⟨_, ?_, set_set_perm_int l i.toNat j.toNat (by omega) (by omega)⟩
  unfold swap
  rw [if_pos ⟨hi0, hi, hj0, hj⟩]

/-- When every result of `std::rand()` is below `RAND_MAX`, `shuffle` uses no index outside
the list and leaves a permutation of it. -/
theorem shuffle_perm (RAND_MAX : Nat) (rand : Nat → Nat) (list : List Int) (shuffleFirstN : Int)
    (hr : ∀ i, rand i < RAND_MAX) :
    ∃ l, shuffle RAND_MAX rand list list.length shuffleFirstN = some l ∧ l.Perm list := by
  unfold shuffle
  simp only []
  have hn : (clamp 0 shuffleFirstN list.length).toNat ≤ list.length := by
    unfold clamp
    split
    · simp
    · split <;> omega
  generalize (clamp 0 shuffleFirstN list.length).toNat = n at hn
  induction n with
  | zero => exact ⟨list, rfl, List.Perm.refl _⟩
  | succ k ih =>
    obtain ⟨p, hp, hperm⟩ := ih (by omega)
    have hlen : p.length = list.length := hperm.length_eq
    have hrange := indexToSwap_range RAND_MAX (rand k) list.length k (hr k) (by omega)
    obtain ⟨q, hq, hqperm⟩ := swap_is_perm p k (indexToSwap RAND_MAX (rand k) list.length k)
      (by omega) (by omega) (by omega) (by omega)
    refine ⟨q, ?_, hqperm.trans hperm⟩
    rw [List.range_succ, List.foldlM_append, hp]
    simp only [Option.bind_eq_bind, Option.some_bind, List.foldlM_cons, List.foldlM_nil, hq]
    rfl

end RestrictSHA1

/-- C25: with the first argument −1 and `RAND_MAX = 2147483647`, when the first call of
`std::rand()` returns `RAND_MAX` the quotient is 1 and the swap index of round 0 is
`512`, the length of `randomizedOrder`: `std::swap` is given `list[512]`, outside the
array, where the claim asks for an index in `[0, 511]`.  With results below `RAND_MAX`
the run returns 0. -/
theorem restrictSHA1_swap_index_out_of_bounds :
    RestrictSHA1.indexToSwap 2147483647 2147483647 512 0 = 512
    ∧ RestrictSHA1.shuffle 2147483647 (fun _ => 2147483647) ((List.range 512).map Int.ofNat)
        512 1 = none
    ∧ RestrictSHA1.main 4 (-1) ["p cnf 600 1".toList] 2147483647 (fun _ => 2147483647)
      = ⟨["p cnf 600 2".toList], .out_of_bounds⟩
    ∧ RestrictSHA1.main 4 (-2) ["p cnf 600 1".toList] 2147483647
        (fun i => [2147483646, 0, 1, 0].getD i 0)
      = ⟨["p cnf 600 3".toList, "512 0".toList, "-2 0".toList], .returned 0⟩ := by
  refine ⟨?_, ?_, ?_, ?_⟩ <;> decide!


/-! ## C28: moving the implicit clauses of a component -/

theorem Solver.WatchFrame.watch_refl (S : Solver) : S.WatchFrame S :=
  ⟨rfl, rfl, rfl, fun _ => List.Sublist.refl _, fun _ => rfl⟩

theorem Solver.WatchFrame.watch_trans {S S1 S2 : Solver} (h1 : S.WatchFrame S1)
    (h2 : S1.WatchFrame S2) : S.WatchFrame S2 :=
  ⟨h2.outer.trans h1.outer, h2.irredBins.trans h1.irredBins, h2.irredTris.trans h1.irredTris,
    fun m => (h2.sub m).trans (h1.sub m), fun m => (h2.irr m).trans (h1.irr m)⟩

theorem filter_erase_of_not (p : Watched → Bool) (l : List Watched) (x : Watched)
    (hx : p x = false) : (l.erase x).filter p = l.filter p := by
  induction l with
  | nil => rfl
  | cons a t ih =>
    by_cases hax : a = x
    · subst hax
      rw [List.erase_cons_head, List.filter_cons, hx]
      simp
    · rw [List.erase_cons_tail (by simpa using hax), List.filter_cons, List.filter_cons, ih]

/-- Taking a redundant entry out of one watch list. -/
theorem Solver.WatchFrame.erase_red (S : Solver) (j : Nat) (x : Watched) (hx : x.red = true) :
    S.WatchFrame (S.setWatches j ((S.watches j).erase x)) := by
  refine ⟨rfl, rfl, rfl, ?_, ?_⟩
  · intro m
    unfold Solver.setWatches
    simp only []
    split
    · rename_i h; rw [h]; exact List.erase_sublist _ _
    · exact List.Sublist.refl _
  · intro m
    unfold Solver.setWatches
    simp only []
    split
    · rename_i h
      rw [h]
      exact filter_erase_of_not _ _ _ (by simp [hx])
    · rfl

theorem Solver.WatchFrame.removeWBin (S : Solver) (l1 l2 : Lit) :
    S.WatchFrame (S.removeWBin l1 l2 true) :=
  Solver.WatchFrame.erase_red S _ _ rfl

theorem Solver.WatchFrame.removeWTri (S : Solver) (l1 l2 l3 : Lit) :
    S.WatchFrame (S.removeWTri l1 l2 l3 true) :=
  Solver.WatchFrame.erase_red S _ _ rfl

theorem Solver.WatchFrame.redBins {S S1 : Solver} (h : S.WatchFrame S1) (n : Nat) :
    S.WatchFrame { S1 with redBins := n } :=
  ⟨h.outer, h.irredBins, h.irredTris, h.sub, h.irr⟩

theorem Solver.WatchFrame.redTris {S S1 : Solver} (h : S.WatchFrame S1) (n : Nat) :
    S.WatchFrame { S1 with redTris := n } :=
  ⟨h.outer, h.irredBins, h.irredTris, h.sub, h.irr⟩

namespace CompHandler

theorem ImplicitFrame.implicit_refl (G : CompHandler) : G.ImplicitFrame G :=
  ⟨rfl, rfl, Solver.WatchFrame.watch_refl _⟩

theorem ImplicitFrame.implicit_trans {G G1 G2 : CompHandler} (h1 : G.ImplicitFrame G1)
    (h2 : G1.ImplicitFrame G2) : G.ImplicitFrame G2 :=
  ⟨h2.compFinder.trans h1.compFinder, h2.big.trans h1.big, h1.solver.watch_trans h2.solver⟩

theorem remove_bin_except_for_lit1_frame (G : CompHandler) (lit lit2 : Lit) :
    G.ImplicitFrame (G.remove_bin_except_for_lit1 lit lit2) := by
  unfold remove_bin_except_for_lit1
  exact ⟨rfl, rfl, (Solver.WatchFrame.removeWBin _ _ _).redBins _⟩

theorem remove_tri_except_for_lit1_frame (G : CompHandler) (lit lit2 lit3 : Lit) :
    G.ImplicitFrame (G.remove_tri_except_for_lit1 lit lit2 lit3) := by
  unfold remove_tri_except_for_lit1
  simp only []
  refine ⟨rfl, rfl, Solver.WatchFrame.redTris ?_ _⟩
  have step : ∀ (S : Solver) (c : Bool) (a b d : Lit),
      S.WatchFrame (if c then S.removeWTri a b d true else S) := by
    intro S c a b d
    cases c
    · exact Solver.WatchFrame.watch_refl _
    · exact Solver.WatchFrame.removeWTri _ _ _ _
  exact ((step _ _ _ _ _).watch_trans (step _ _ _ _ _)).watch_trans (step _ _ _ _ _)

end CompHandler

namespace CompHandler

/-- One watch entry of a literal of the component, in the loop of `moveClausesImplicit`:
a long entry is kept; an implicit entry is not; an irredundant implicit entry whose
literals follow `lit` in ascending order is saved and added to the sub-solver; an
irredundant binary or ternary entry is counted. -/
theorem moveClausesImplicit_entry_spec (comp : Nat) (lit : Lit) (G : CompHandler)
    (N : SATSolver) (kept : List Watched) (i : Watched)
    (hlit : G.getVarComp lit.var = comp)
    (hbin : i.isBinary = true → i.red = false → G.getVarComp i.lit2.var = comp)
    (htri : i.isTri = true → i.red = false →
      G.getVarComp i.lit2.var = comp ∧ G.getVarComp i.lit3.var = comp) :
    (moveClausesImplicit_entry comp lit (G, N, kept) i).2.2
        = kept ++ (if i.isClause then [i] else [])
    ∧ (moveClausesImplicit_entry comp lit (G, N, kept) i).2.1.clauses
        = N.clauses ++ (moved_entry lit i).toList.map
            (fun c => c.map G.upd_bigsolver_to_smallsolver_lit)
    ∧ (moveClausesImplicit_entry comp lit (G, N, kept) i).1.removedClauses.lits
        = G.removedClauses.lits ++ (moved_entry lit i).toList.flatMap
            (fun c => c.map G.solver.map_inter_to_outer_lit)
    ∧ (moveClausesImplicit_entry comp lit (G, N, kept) i).1.removedClauses.sizes
        = G.removedClauses.sizes ++ (moved_entry lit i).toList.map List.length
    ∧ (moveClausesImplicit_entry comp lit (G, N, kept) i).1.numRemovedHalfIrred
        = G.numRemovedHalfIrred + (if i.isBinary && !i.red then 1 else 0)
    ∧ (moveClausesImplicit_entry comp lit (G, N, kept) i).1.numRemovedThirdIrred
        = G.numRemovedThirdIrred + (if i.isTri && !i.red then 1 else 0)
    ∧ G.ImplicitFrame (moveClausesImplicit_entry comp lit (G, N, kept) i).1 := by
  cases i with
  | clause o b =>
    simp [moveClausesImplicit_entry, Watched.isBinary, Watched.isTri, Watched.isClause,
      moved_entry, ImplicitFrame.implicit_refl]
  | binary l2 r =>
    have hcond : (Watched.isBinary (.binary l2 r)
        && (G.getVarComp lit.var == comp
          || G.getVarComp (Watched.lit2 (.binary l2 r)).var == comp)) = true := by
      simp [Watched.isBinary, hlit]
    unfold moveClausesImplicit_entry
    simp only [hcond, if_true]
    unfold move_binary_clause
    simp only [Watched.lit2, Watched.red, Watched.isClause, Watched.isBinary, Watched.isTri]
    by_cases h2 : G.getVarComp l2.var = comp
    · have hc1 : (G.getVarComp lit.var != comp || G.getVarComp l2.var != comp) = false := by
        simp [hlit, h2]
      simp only [hc1, Bool.false_eq_true, if_false]
      cases hlt : lit.lt l2 <;> cases r <;>
        simp [moved_entry, hlt, saveClause, SATSolver.add_clause, ImplicitFrame.implicit_refl] <;>
        exact ⟨rfl, rfl, Solver.WatchFrame.watch_refl _⟩
    · have hr : r = true := by
        cases r
        · exact absurd (hbin rfl rfl) h2
        · rfl
      subst hr
      have hc1 : (G.getVarComp lit.var != comp || G.getVarComp l2.var != comp) = true := by
        simp [hlit, h2]
      simp only [hc1, if_true]
      refine ⟨by simp, by simp [moved_entry], by simp [moved_entry, remove_bin_except_for_lit1],
        by simp [moved_entry, remove_bin_except_for_lit1],
        by simp [remove_bin_except_for_lit1], by simp [remove_bin_except_for_lit1],
        remove_bin_except_for_lit1_frame _ _ _⟩
  | tertiary l2 l3 r =>
    have hcond : (Watched.isTri (.tertiary l2 l3 r)
        && (G.getVarComp lit.var == comp
          || G.getVarComp (Watched.lit2 (.tertiary l2 l3 r)).var == comp
          || G.getVarComp (Watched.lit3 (.tertiary l2 l3 r)).var == comp)) = true := by
      simp [Watched.isTri, hlit]
    unfold moveClausesImplicit_entry
    simp only [Watched.isBinary, Bool.false_and, Bool.false_eq_true, if_false, hcond, if_true]
    unfold move_tri_clause
    simp only [Watched.lit2, Watched.lit3, Watched.red, Watched.isClause, Watched.isBinary,
      Watched.isTri]
    by_cases h2 : G.getVarComp l2.var = comp ∧ G.getVarComp l3.var = comp
    · have hc1 : (G.getVarComp lit.var != comp || G.getVarComp l2.var != comp
          || G.getVarComp l3.var != comp) = false := by
        simp [hlit, h2.1, h2.2]
      simp only [hc1, Bool.false_eq_true, if_false]
      cases hlt : (lit.lt l2 && l2.lt l3) <;> cases r <;>
        simp [moved_entry, hlt, saveClause, SATSolver.add_clause, ImplicitFrame.implicit_refl] <;>
        exact ⟨rfl, rfl, Solver.WatchFrame.watch_refl _⟩
    · have hr : r = true := by
        cases r
        · exact absurd (htri rfl rfl) h2
        · rfl
      subst hr
      have hc1 : (G.getVarComp lit.var != comp || G.getVarComp l2.var != comp
          || G.getVarComp l3.var != comp) = true := by
        by_cases h3 : G.getVarComp l2.var = comp
        · have h4 : ¬ G.getVarComp l3.var = comp := fun h => h2 ⟨h3, h⟩
          simp [hlit, h3, h4]
        · simp [hlit, h3]
      simp only [hc1, if_true]
      have hf := remove_tri_except_for_lit1_frame G lit l2 l3
      refine ⟨by simp, by simp [moved_entry], ?_, ?_, ?_, ?_, hf⟩
      · simp [moved_entry, remove_tri_except_for_lit1]
      · simp [moved_entry, remove_tri_except_for_lit1]
      · simp [remove_tri_except_for_lit1]
      · simp [remove_tri_except_for_lit1]

end CompHandler

namespace CompHandler

theorem ImplicitFrame.getVarComp {G G1 : CompHandler} (h : G.ImplicitFrame G1) (v : Nat) :
    G1.getVarComp v = G.getVarComp v := by
  unfold CompHandler.getVarComp
  rw [h.compFinder]

theorem ImplicitFrame.upd {G G1 : CompHandler} (h : G.ImplicitFrame G1) :
    G1.upd_bigsolver_to_smallsolver_lit = G.upd_bigsolver_to_smallsolver_lit := by
  funext l
  unfold upd_bigsolver_to_smallsolver_lit upd_bigsolver_to_smallsolver
  rw [h.big]

theorem ImplicitFrame.map_outer {G G1 : CompHandler} (h : G.ImplicitFrame G1) :
    G1.solver.map_inter_to_outer_lit = G.solver.map_inter_to_outer_lit := by
  funext l
  unfold Solver.map_inter_to_outer_lit Solver.map_inter_to_outer
  rw [h.solver.outer]

/-- The loop of `moveClausesImplicit` over the watch list `ws` of a literal of the
component. -/
theorem moveClausesImplicit_scan_spec (comp : Nat) (lit : Lit) :
    ∀ (ws : List Watched) (G : CompHandler) (N : SATSolver) (kept : List Watched),
      G.getVarComp lit.var = comp →
      (∀ i ∈ ws, i.isBinary = true → i.red = false → G.getVarComp i.lit2.var = comp) →
      (∀ i ∈ ws, i.isTri = true → i.red = false →
        G.getVarComp i.lit2.var = comp ∧ G.getVarComp i.lit3.var = comp) →
      (ws.foldl (moveClausesImplicit_entry comp lit) (G, N, kept)).2.2
          = kept ++ ws.filter Watched.isClause
      ∧ (ws.foldl (moveClausesImplicit_entry comp lit) (G, N, kept)).2.1.clauses
          = N.clauses ++ (ws.filterMap (moved_entry lit)).map
              (fun c => c.map G.upd_bigsolver_to_smallsolver_lit)
      ∧ (ws.foldl (moveClausesImplicit_entry comp lit) (G, N, kept)).1.removedClauses.lits
          = G.removedClauses.lits ++ (ws.filterMap (moved_entry lit)).flatMap
              (fun c => c.map G.solver.map_inter_to_outer_lit)
      ∧ (ws.foldl (moveClausesImplicit_entry comp lit) (G, N, kept)).1.removedClauses.sizes
          = G.removedClauses.sizes ++ (ws.filterMap (moved_entry lit)).map List.length
      ∧ (ws.foldl (moveClausesImplicit_entry comp lit) (G, N, kept)).1.numRemovedHalfIrred
          = G.numRemovedHalfIrred + (ws.filter (fun w => w.isBinary && !w.red)).length
      ∧ (ws.foldl (moveClausesImplicit_entry comp lit) (G, N, kept)).1.numRemovedThirdIrred
          = G.numRemovedThirdIrred + (ws.filter (fun w => w.isTri && !w.red)).length
      ∧ G.ImplicitFrame (ws.foldl (moveClausesImplicit_entry comp lit) (G, N, kept)).1 := by
  intro ws
  induction ws with
  | nil =>
    intro G N kept _ _ _
    simp [ImplicitFrame.implicit_refl]
  | cons i ws ih =>
    intro G N kept hlit hbin htri
    obtain ⟨e1, e2, e3, e4, e5, e6, e7⟩ := moveClausesImplicit_entry_spec comp lit G N kept i
      hlit (hbin i (List.mem_cons_self _ _)) (htri i (List.mem_cons_self _ _))
    rw [List.foldl_cons]
    generalize hr : moveClausesImplicit_entry comp lit (G, N, kept) i = r at e1 e2 e3 e4 e5 e6 e7
    obtain ⟨G1, N1, kept1⟩ := r
    simp only [] at e1 e2 e3 e4 e5 e6 e7
    obtain ⟨f1, f2, f3, f4, f5, f6, f7⟩ := ih G1 N1 kept1
      (by rw [e7.getVarComp]; exact hlit)
      (fun j hj hb hr => by
        rw [e7.getVarComp]; exact hbin j (List.mem_cons_of_mem _ hj) hb hr)
      (fun j hj hb hr => by
        rw [e7.getVarComp, e7.getVarComp]; exact htri j (List.mem_cons_of_mem _ hj) hb hr)
    refine ⟨?_, ?_, ?_, ?_, ?_, ?_, e7.implicit_trans f7⟩
    · rw [f1, e1, List.filter_cons]
      cases i.isClause <;> simp
    · rw [f2, e2, e7.upd, List.filterMap_cons]
      cases moved_entry lit i <;> simp
    · rw [f3, e3, e7.map_outer, List.filterMap_cons]
      cases moved_entry lit i <;> simp
    · rw [f4, e4, List.filterMap_cons]
      cases moved_entry lit i <;> simp
    · rw [f5, e5, List.filter_cons]
      cases (i.isBinary && !i.red) <;> (simp; try omega)
    · rw [f6, e6, List.filter_cons]
      cases (i.isTri && !i.red) <;> (simp; try omega)

/-- The pass of `moveClausesImplicit` over the watch list of a literal of the component:
the irredundant implicit entries whose literals follow `lit` in ascending order are saved
and added to the sub-solver, the irredundant implicit entries are counted, the watch list
keeps its long entries, and the other watch lists lose redundant entries only. -/
theorem moveClausesImplicit_lit_spec (comp : Nat) (lit : Lit) (G : CompHandler)
    (N : SATSolver)
    (hlit : G.getVarComp lit.var = comp)
    (hbin : ∀ i ∈ G.solver.watches lit.toInt, i.isBinary = true → i.red = false →
      G.getVarComp i.lit2.var = comp)
    (htri : ∀ i ∈ G.solver.watches lit.toInt, i.isTri = true → i.red = false →
      G.getVarComp i.lit2.var = comp ∧ G.getVarComp i.lit3.var = comp) :
    (moveClausesImplicit_lit comp (G, N) lit).2.clauses
        = N.clauses ++ ((G.solver.watches lit.toInt).filterMap (moved_entry lit)).map
            (fun c => c.map G.upd_bigsolver_to_smallsolver_lit)
    ∧ (moveClausesImplicit_lit comp (G, N) lit).1.removedClauses.lits
        = G.removedClauses.lits ++ ((G.solver.watches lit.toInt).filterMap
            (moved_entry lit)).flatMap (fun c => c.map G.solver.map_inter_to_outer_lit)
    ∧ (moveClausesImplicit_lit comp (G, N) lit).1.removedClauses.sizes
        = G.removedClauses.sizes
          ++ ((G.solver.watches lit.toInt).filterMap (moved_entry lit)).map List.length
    ∧ (moveClausesImplicit_lit comp (G, N) lit).1.numRemovedHalfIrred
        = G.numRemovedHalfIrred
          + ((G.solver.watches lit.toInt).filter (fun w => w.isBinary && !w.red)).length
    ∧ (moveClausesImplicit_lit comp (G, N) lit).1.numRemovedThirdIrred
        = G.numRemovedThirdIrred
          + ((G.solver.watches lit.toInt).filter (fun w => w.isTri && !w.red)).length
    ∧ (moveClausesImplicit_lit comp (G, N) lit).1.compFinder = G.compFinder
    ∧ (moveClausesImplicit_lit comp (G, N) lit).1.bigsolver_to_smallsolver
        = G.bigsolver_to_smallsolver
    ∧ (moveClausesImplicit_lit comp (G, N) lit).1.solver.interToOuterMain
        = G.solver.interToOuterMain
    ∧ (moveClausesImplicit_lit comp (G, N) lit).1.solver.irredBins = G.solver.irredBins
    ∧ (moveClausesImplicit_lit comp (G, N) lit).1.solver.irredTris = G.solver.irredTris
    ∧ (moveClausesImplicit_lit comp (G, N) lit).1.solver.watches lit.toInt
        = (G.solver.watches lit.toInt).filter Watched.isClause
    ∧ (∀ m, m ≠ lit.toInt →
        ((moveClausesImplicit_lit comp (G, N) lit).1.solver.watches m).Sublist
            (G.solver.watches m)
        ∧ ((moveClausesImplicit_lit comp (G, N) lit).1.solver.watches m).filter
              (fun w => !w.red)
            = (G.solver.watches m).filter (fun w => !w.red)) := by
  unfold moveClausesImplicit_lit
  simp only []
  by_cases hempty : (G.solver.watches lit.toInt).isEmpty = true
  · rw [if_pos hempty]
    have hnil : G.solver.watches lit.toInt = [] := List.isEmpty_iff.mp hempty
    exact ⟨by simp [hnil], by simp [hnil], by simp [hnil], by simp [hnil], by simp [hnil],
      rfl, rfl, rfl, rfl, rfl, by simp [hnil], fun m _ => ⟨List.Sublist.refl _, rfl⟩⟩
  · rw [if_neg hempty]
    obtain ⟨f1, f2, f3, f4, f5, f6, f7⟩ :=
      moveClausesImplicit_scan_spec comp lit (G.solver.watches lit.toInt) G N [] hlit hbin htri
    simp only []
    refine ⟨f2, f3, f4, f5, f6, f7.compFinder, f7.big, f7.solver.outer, f7.solver.irredBins,
      f7.solver.irredTris, ?_, ?_⟩
    · unfold Solver.setWatches
      simp only [if_true]
      rw [f1, List.nil_append]
    · intro m hm
      unfold Solver.setWatches
      simp only [if_neg hm]
      exact ⟨f7.solver.sub m, f7.solver.irr m⟩

end CompHandler

theorem filterMap_filter_of_none {α β : Type} (p : α → Bool) (f : α → Option β)
    (h : ∀ x, p x = false → f x = none) (l : List α) :
    (l.filter p).filterMap f = l.filterMap f := by
  induction l with
  | nil => rfl
  | cons a t ih =>
    rw [List.filter_cons]
    cases hp : p a
    · simp only [Bool.false_eq_true, if_false]
      rw [List.filterMap_cons, h a hp, ih]
    · simp only [if_true]
      rw [List.filterMap_cons, List.filterMap_cons, ih]

theorem filter_filter_of_imp {α : Type} (p q : α → Bool) (h : ∀ x, q x = true → p x = true)
    (l : List α) : (l.filter p).filter q = l.filter q := by
  rw [List.filter_filter]
  apply List.filter_congr
  intro x _
  cases hq : q x
  · simp
  · simp [h x hq]

namespace CompHandler

theorem moved_entry_red (lit : Lit) (w : Watched) (h : (!w.red) = false) :
    moved_entry lit w = none := by
  cases w with
  | binary l r => cases r <;> simp [Watched.red] at h ⊢; rfl
  | tertiary l2 l3 r => cases r <;> simp [Watched.red] at h ⊢; rfl
  | clause o b => rfl

/-- The loop of `moveClausesImplicit` over literals of the component.  `scanned` lists the
watch lists visited before; the handler `G` has the component finder and the renumbering
of `H`, its unvisited watch lists have the irredundant entries of those of `H`, and its
visited ones are the long entries of those of `H`. -/
theorem moveClausesImplicit_lits_spec (comp : Nat) (H : CompHandler) :
    ∀ (Ls : List Lit) (G : CompHandler) (N : SATSolver) (scanned : List Nat),
      (Ls.map Lit.toInt).Nodup →
      (∀ l ∈ Ls, l.toInt ∉ scanned) →
      (∀ l ∈ Ls, H.getVarComp l.var = comp) →
      (∀ l ∈ Ls, ∀ i ∈ H.solver.watches l.toInt, i.isBinary = true → i.red = false →
        H.getVarComp i.lit2.var = comp) →
      (∀ l ∈ Ls, ∀ i ∈ H.solver.watches l.toInt, i.isTri = true → i.red = false →
        H.getVarComp i.lit2.var = comp ∧ H.getVarComp i.lit3.var = comp) →
      G.compFinder = H.compFinder →
      G.bigsolver_to_smallsolver = H.bigsolver_to_smallsolver →
      G.solver.interToOuterMain = H.solver.interToOuterMain →
      (∀ m, m ∉ scanned → (G.solver.watches m).filter (fun w => !w.red)
        = (H.solver.watches m).filter (fun w => !w.red)) →
      (∀ m, m ∈ scanned → G.solver.watches m = (H.solver.watches m).filter Watched.isClause) →
      (Ls.foldl (moveClausesImplicit_lit comp) (G, N)).2.clauses
          = N.clauses ++ (Ls.flatMap (fun l =>
              (H.solver.watches l.toInt).filterMap (moved_entry l))).map
              (fun c => c.map H.upd_bigsolver_to_smallsolver_lit)
      ∧ (Ls.foldl (moveClausesImplicit_lit comp) (G, N)).1.removedClauses.lits
          = G.removedClauses.lits ++ (Ls.flatMap (fun l =>
              (H.solver.watches l.toInt).filterMap (moved_entry l))).flatMap
              (fun c => c.map H.solver.map_inter_to_outer_lit)
      ∧ (Ls.foldl (moveClausesImplicit_lit comp) (G, N)).1.removedClauses.sizes
          = G.removedClauses.sizes ++ (Ls.flatMap (fun l =>
              (H.solver.watches l.toInt).filterMap (moved_entry l))).map List.length
      ∧ (Ls.foldl (moveClausesImplicit_lit comp) (G, N)).1.numRemovedHalfIrred
          = G.numRemovedHalfIrred + (Ls.flatMap (fun l =>
              (H.solver.watches l.toInt).filter (fun w => w.isBinary && !w.red))).length
      ∧ (Ls.foldl (moveClausesImplicit_lit comp) (G, N)).1.numRemovedThirdIrred
          = G.numRemovedThirdIrred + (Ls.flatMap (fun l =>
              (H.solver.watches l.toInt).filter (fun w => w.isTri && !w.red))).length
      ∧ (Ls.foldl (moveClausesImplicit_lit comp) (G, N)).1.solver.irredBins
          = G.solver.irredBins
      ∧ (Ls.foldl (moveClausesImplicit_lit comp) (G, N)).1.solver.irredTris
          = G.solver.irredTris
      ∧ (∀ m, m ∈ scanned ∨ m ∈ Ls.map Lit.toInt →
          (Ls.foldl (moveClausesImplicit_lit comp) (G, N)).1.solver.watches m
            = (H.solver.watches m).filter Watched.isClause) := by
  intro Ls
  induction Ls with
  | nil =>
    intro G N scanned _ _ _ _ _ _ _ _ _ hI2
    refine ⟨by simp, by simp, by simp, by simp, by simp, rfl, rfl, ?_⟩
    intro m hm
    rcases hm with hm | hm
    · exact hI2 m hm
    · simp at hm
  | cons l Ls ih =>
    intro G N scanned hnd hdisj hcomp hcB hcT hcf hbig hout hI1 hI2
    have hl : l.toInt ∉ scanned := hdisj l (List.mem_cons_self _ _)
    have hgv : ∀ v, G.getVarComp v = H.getVarComp v := by
      intro v; unfold getVarComp; rw [hcf]
    have hirr := hI1 _ hl
    have hmemG : ∀ i, i ∈ G.solver.watches l.toInt → i.red = false →
        i ∈ H.solver.watches l.toInt := by
      intro i hi hr
      have : i ∈ (G.solver.watches l.toInt).filter (fun w => !w.red) :=
        List.mem_filter.mpr ⟨hi, by simp [hr]⟩
      rw [hirr] at this
      exact (List.mem_filter.mp this).1
    obtain ⟨s1, s2, s3, s4, s5, s6, s7, s8, s9, s10, s11, s12⟩ :=
      moveClausesImplicit_lit_spec comp l G N
        (by rw [hgv]; exact hcomp l (List.mem_cons_self _ _))
        (fun i hi hb hr => by
          rw [hgv]; exact hcB l (List.mem_cons_self _ _) i (hmemG i hi hr) hb hr)
        (fun i hi hb hr => by
          rw [hgv, hgv]; exact hcT l (List.mem_cons_self _ _) i (hmemG i hi hr) hb hr)
    rw [List.foldl_cons]
    generalize moveClausesImplicit_lit comp (G, N) l = r at s1 s2 s3 s4 s5 s6 s7 s8 s9 s10 s11 s12
    obtain ⟨G1, N1⟩ := r
    simp only [] at s1 s2 s3 s4 s5 s6 s7 s8 s9 s10 s11 s12
    have hupd : G.upd_bigsolver_to_smallsolver_lit = H.upd_bigsolver_to_smallsolver_lit := by
      funext x
      unfold upd_bigsolver_to_smallsolver_lit upd_bigsolver_to_smallsolver
      rw [hbig]
    have houtl : G.solver.map_inter_to_outer_lit = H.solver.map_inter_to_outer_lit := by
      funext x
      unfold Solver.map_inter_to_outer_lit Solver.map_inter_to_outer
      rw [hout]
    have hmoved : (G.solver.watches l.toInt).filterMap (moved_entry l)
        = (H.solver.watches l.toInt).filterMap (moved_entry l) := by
      rw [← filterMap_filter_of_none (fun w => !w.red) (moved_entry l)
          (fun x hx => moved_entry_red l x hx) (G.solver.watches l.toInt),
        ← filterMap_filter_of_none (fun w => !w.red) (moved_entry l)
          (fun x hx => moved_entry_red l x hx) (H.solver.watches l.toInt), hirr]
    have hcntB : (G.solver.watches l.toInt).filter (fun w => w.isBinary && !w.red)
        = (H.solver.watches l.toInt).filter (fun w => w.isBinary && !w.red) := by
      rw [← filter_filter_of_imp (fun w => !w.red) (fun w => w.isBinary && !w.red)
          (fun x hx => by simp at hx ⊢; exact hx.2) (G.solver.watches l.toInt),
        ← filter_filter_of_imp (fun w => !w.red) (fun w => w.isBinary && !w.red)
          (fun x hx => by simp at hx ⊢; exact hx.2) (H.solver.watches l.toInt), hirr]
    have hcntT : (G.solver.watches l.toInt).filter (fun w => w.isTri && !w.red)
        = (H.solver.watches l.toInt).filter (fun w => w.isTri && !w.red) := by
      rw [← filter_filter_of_imp (fun w => !w.red) (fun w => w.isTri && !w.red)
          (fun x hx => by simp at hx ⊢; exact hx.2) (G.solver.watches l.toInt),
        ← filter_filter_of_imp (fun w => !w.red) (fun w => w.isTri && !w.red)
          (fun x hx => by simp at hx ⊢; exact hx.2) (H.solver.watches l.toInt), hirr]
    have hcl : (G.solver.watches l.toInt).filter Watched.isClause
        = (H.solver.watches l.toInt).filter Watched.isClause := by
      rw [← filter_filter_of_imp (fun w => !w.red) Watched.isClause
          (fun x hx => by cases x <;> simp [Watched.isClause, Watched.red] at hx ⊢)
          (G.solver.watches l.toInt),
        ← filter_filter_of_imp (fun w => !w.red) Watched.isClause
          (fun x hx => by cases x <;> simp [Watched.isClause, Watched.red] at hx ⊢)
          (H.solver.watches l.toInt), hirr]
    have hnd1 : (Ls.map Lit.toInt).Nodup := (List.nodup_cons.mp (by simpa using hnd)).2
    have hlLs : l.toInt ∉ Ls.map Lit.toInt := (List.nodup_cons.mp (by simpa using hnd)).1
    obtain ⟨t1, t2, t3, t4, t5, t6, t7, t8⟩ := ih G1 N1 (l.toInt :: scanned) hnd1
      (fun x hx => by
        intro hmem
        rcases List.mem_cons.mp hmem with h | h
        · exact hlLs (by rw [← h]; exact List.mem_map_of_mem _ hx)
        · exact hdisj x (List.mem_cons_of_mem _ hx) h)
      (fun x hx => hcomp x (List.mem_cons_of_mem _ hx))
      (fun x hx => hcB x (List.mem_cons_of_mem _ hx))
      (fun x hx => hcT x (List.mem_cons_of_mem _ hx))
      (s6.trans hcf) (s7.trans hbig) (s8.trans hout)
      (fun m hm => by
        have hm1 : m ≠ l.toInt := fun h => hm (by rw [h]; exact List.mem_cons_self _ _)
        have hm2 : m ∉ scanned := fun h => hm (List.mem_cons_of_mem _ h)
        rw [(s12 m hm1).2]
        exact hI1 m hm2)
      (fun m hm => by
        rcases List.mem_cons.mp hm with h | h
        · rw [h, s11, hcl]
        · have hm1 : m ≠ l.toInt := fun h2 => hl (by rw [← h2]; exact h)
          have hsub := (s12 m hm1).1
          have hir := (s12 m hm1).2
          have hG := hI2 m h
          have hall : (G.solver.watches m).filter (fun w => !w.red) = G.solver.watches m := by
            rw [hG]
            apply List.filter_eq_self.mpr
            intro x hx
            have hx2 := (List.mem_filter.mp hx).2
            cases x <;> simp [Watched.isClause, Watched.red] at hx2 ⊢
          rw [hall] at hir
          have hsub2 : (G.solver.watches m).Sublist (G1.solver.watches m) := by
            rw [← hir]; exact List.filter_sublist _
          rw [← hG]
          exact List.Sublist.antisymm hsub hsub2)
    refine ⟨?_, ?_, ?_, ?_, ?_, t6.trans s9, t7.trans s10, ?_⟩
    · rw [t1, s1, hupd, hmoved, List.flatMap_cons, List.map_append, List.append_assoc]
    · rw [t2, s2, houtl, hmoved, List.flatMap_cons, List.flatMap_append, List.append_assoc]
    · rw [t3, s3, hmoved, List.flatMap_cons, List.map_append, List.append_assoc]
    · rw [t4, s4, hcntB, List.flatMap_cons, List.length_append]; omega
    · rw [t5, s5, hcntT, List.flatMap_cons, List.length_append]; omega
    · intro m hm
      apply t8
      rcases hm with hm | hm
      · exact Or.inl (List.mem_cons_of_mem _ hm)
      · rw [List.map_cons] at hm
        rcases List.mem_cons.mp hm with h | h
        · exact Or.inl (by rw [h]; exact List.mem_cons_self _ _)
        · exact Or.inr h

end CompHandler

theorem filterMap_split_perm {α β : Type} (p q : α → Bool) (f : α → Option β)
    (hpq : ∀ x, p x = true → q x = false)
    (hf : ∀ x, p x = false → q x = false → f x = none) (l : List α) :
    (l.filterMap f).Perm ((l.filter p).filterMap f ++ (l.filter q).filterMap f) := by
  induction l with
  | nil => simp
  | cons a t ih =>
    cases hp : p a
    · cases hq : q a
      · rw [List.filterMap_cons, hf a hp hq]
        simpa [List.filter_cons, hp, hq] using ih
      · rw [List.filter_cons, List.filter_cons]
        simp only [hp, hq, if_true, Bool.false_eq_true, if_false]
        rw [List.filterMap_cons, List.filterMap_cons]
        cases hfa : f a
        · exact ih
        · exact (List.Perm.cons _ ih).trans List.perm_middle.symm
    · have hq := hpq a hp
      rw [List.filter_cons, List.filter_cons]
      simp only [hp, hq, if_true, Bool.false_eq_true, if_false]
      rw [List.filterMap_cons, List.filterMap_cons]
      cases hfa : f a
      · exact ih
      · exact List.Perm.cons _ ih

theorem flatMap_single_key {κ β : Type} [DecidableEq κ] (a : κ) (x : β) :
    ∀ (Ls : List κ), Ls.Nodup → a ∈ Ls →
      Ls.flatMap (fun l => if a = l then [x] else []) = [x] := by
  intro Ls
  induction Ls with
  | nil => intro _ h; simp at h
  | cons l Ls ih =>
    intro hnd hmem
    have hnd2 := List.nodup_cons.mp hnd
    rw [List.flatMap_cons]
    by_cases h : a = l
    · subst h
      have hz : Ls.flatMap (fun l => if a = l then [x] else []) = [] := by
        rw [List.flatMap_eq_nil_iff]
        intro l hl
        have : a ≠ l := fun e => hnd2.1 (e ▸ hl)
        simp [this]
      simp [hz]
    · have hmem2 : a ∈ Ls := by
        rcases List.mem_cons.mp hmem with e | e
        · exact absurd e h
        · exact e
      simp [h, ih hnd2.2 hmem2]

theorem flatMap_filter_key_perm {α κ β : Type} [DecidableEq κ] (key : α → κ) (g : α → β)
    (Ls : List κ) (hnd : Ls.Nodup) :
    ∀ (xs : List α), (∀ x ∈ xs, key x ∈ Ls) →
      (Ls.flatMap (fun l => (xs.filter (fun x => decide (key x = l))).map g)).Perm
        (xs.map g) := by
  intro xs
  induction xs with
  | nil => intro _; simp
  | cons a t ih =>
    intro hk
    have h1 : (fun l => ((a :: t).filter (fun x => decide (key x = l))).map g)
        = fun l => (if key a = l then [g a] else [])
            ++ (t.filter (fun x => decide (key x = l))).map g := by
      funext l
      by_cases h : key a = l <;> simp [List.filter_cons, h]
    rw [h1]
    refine (List.flatMap_append_perm Ls _ _).symm.trans ?_
    rw [flatMap_single_key (key a) (g a) Ls hnd (hk a (List.mem_cons_self _ _))]
    exact List.Perm.cons _ (ih (fun x hx => hk x (List.mem_cons_of_mem _ hx)))

theorem Lit.lt_irrefl_of_lt {a b : Lit} (h : a.lt b = true) : b.lt a = false := by
  unfold Lit.lt at h ⊢
  simp at h ⊢
  omega

namespace CompHandler

theorem lits_of_vars_cons (v : Nat) (vars : List Nat) :
    lits_of_vars (v :: vars) = (⟨v, false⟩ : Lit) :: (⟨v, true⟩ : Lit) :: lits_of_vars vars := by
  simp [lits_of_vars, List.flatMap_cons]

theorem mem_lits_of_vars {l : Lit} {vars : List Nat} :
    l ∈ lits_of_vars vars ↔ l.var ∈ vars := by
  induction vars with
  | nil => simp [lits_of_vars]
  | cons v vs ih =>
    rw [lits_of_vars_cons]
    obtain ⟨x, s⟩ := l
    simp only [List.mem_cons, ih, Lit.mk.injEq]
    cases s <;> simp

theorem lits_of_vars_nodup {vars : List Nat} (h : vars.Nodup) :
    ((lits_of_vars vars).map Lit.toInt).Nodup := by
  induction vars with
  | nil => simp [lits_of_vars]
  | cons v vs ih =>
    have h2 := List.nodup_cons.mp h
    rw [lits_of_vars_cons, List.map_cons, List.map_cons]
    have hnot : ∀ s : Bool, (⟨v, s⟩ : Lit).toInt ∉ (lits_of_vars vs).map Lit.toInt := by
      intro s hm
      obtain ⟨l, hl, he⟩ := List.mem_map.mp hm
      have := Lit.toInt_injective he
      rw [this] at hl
      exact h2.1 (mem_lits_of_vars.mp hl)
    refine List.nodup_cons.mpr ⟨?_, List.nodup_cons.mpr ⟨hnot true, ih h2.2⟩⟩
    intro hm
    rcases List.mem_cons.mp hm with e | e
    · simp [Lit.toInt] at e
    · exact hnot false e

theorem moveClausesImplicit_loop_eq (H : CompHandler) (N : SATSolver) (comp : Nat)
    (vars : List Nat) :
    moveClausesImplicit_loop H N comp vars
      = (lits_of_vars vars).foldl (moveClausesImplicit_lit comp)
          ({ H with
              numRemovedHalfIrred := 0,
              numRemovedHalfRed := 0,
              numRemovedThirdIrred := 0,
              numRemovedThirdRed := 0 }, N) := by
  unfold moveClausesImplicit_loop
  simp only []
  generalize (({ H with
              numRemovedHalfIrred := 0,
              numRemovedHalfRed := 0,
              numRemovedThirdIrred := 0,
              numRemovedThirdRed := 0 } : CompHandler), N) = init
  induction vars generalizing init with
  | nil => rfl
  | cons v vs ih =>
    rw [lits_of_vars_cons, List.foldl_cons, List.foldl_cons, List.foldl_cons, ih]

theorem moved_entry_bin_entries (bins : List (Lit × Lit))
    (hasc : ∀ p ∈ bins, p.1.lt p.2 = true) (lit : Lit) :
    (bin_entries bins lit).filterMap (moved_entry lit)
      = (bins.filter (fun p => decide (p.1 = lit))).map (fun p => [p.1, p.2]) := by
  unfold bin_entries
  rw [List.filterMap_append]
  have h1 : ((bins.filter (fun p => p.1 = lit)).map (fun p => Watched.binary p.2 false)).filterMap
      (moved_entry lit)
      = (bins.filter (fun p => decide (p.1 = lit))).map (fun p => [p.1, p.2]) := by
    rw [List.filterMap_map, ← List.filterMap_eq_map]
    apply List.filterMap_congr
    intro p hp
    have hp2 := List.mem_filter.mp hp
    have he : p.1 = lit := by simpa using hp2.2
    have := hasc p hp2.1
    rw [he] at this
    simp [moved_entry, this, he]
  have h2 : ((bins.filter (fun p => p.2 = lit)).map (fun p => Watched.binary p.1 false)).filterMap
      (moved_entry lit) = [] := by
    rw [List.filterMap_eq_nil_iff]
    intro w hw
    obtain ⟨p, hp, hpw⟩ := List.mem_map.mp hw
    have hp2 := List.mem_filter.mp hp
    have he : p.2 = lit := by simpa using hp2.2
    have := Lit.lt_irrefl_of_lt (hasc p hp2.1)
    rw [he] at this
    rw [← hpw]
    simp [moved_entry, this]
  rw [h1, h2, List.append_nil]

theorem moved_entry_tri_entries (tris : List (Lit × Lit × Lit))
    (hasc : ∀ t ∈ tris, t.1.lt t.2.1 = true ∧ t.2.1.lt t.2.2 = true) (lit : Lit) :
    (tri_entries tris lit).filterMap (moved_entry lit)
      = (tris.filter (fun t => decide (t.1 = lit))).map (fun t => [t.1, t.2.1, t.2.2]) := by
  unfold tri_entries
  rw [List.filterMap_append, List.filterMap_append]
  have h1 : ((tris.filter (fun t => t.1 = lit)).map
      (fun t => Watched.tertiary t.2.1 t.2.2 false)).filterMap (moved_entry lit)
      = (tris.filter (fun t => decide (t.1 = lit))).map (fun t => [t.1, t.2.1, t.2.2]) := by
    rw [List.filterMap_map, ← List.filterMap_eq_map]
    apply List.filterMap_congr
    intro t ht
    have ht2 := List.mem_filter.mp ht
    have he : t.1 = lit := by simpa using ht2.2
    have := hasc t ht2.1
    rw [he] at this
    simp [moved_entry, this.1, this.2, he]
  have h2 : ((tris.filter (fun t => t.2.1 = lit)).map
      (fun t => Watched.tertiary t.1 t.2.2 false)).filterMap (moved_entry lit) = [] := by
    rw [List.filterMap_eq_nil_iff]
    intro w hw
    obtain ⟨t, ht, htw⟩ := List.mem_map.mp hw
    have ht2 := List.mem_filter.mp ht
    have he : t.2.1 = lit := by simpa using ht2.2
    have := Lit.lt_irrefl_of_lt (hasc t ht2.1).1
    rw [he] at this
    rw [← htw]
    simp [moved_entry, this]
  have h3 : ((tris.filter (fun t => t.2.2 = lit)).map
      (fun t => Watched.tertiary t.1 t.2.1 false)).filterMap (moved_entry lit) = [] := by
    rw [List.filterMap_eq_nil_iff]
    intro w hw
    obtain ⟨t, ht, htw⟩ := List.mem_map.mp hw
    have ht2 := List.mem_filter.mp ht
    have he : t.2.2 = lit := by simpa using ht2.2
    have ha := hasc t ht2.1
    have : lit.lt t.1 = false := by
      rw [← he]
      have h1 := ha.1
      have h2 := ha.2
      unfold Lit.lt at h1 h2 ⊢
      simp at h1 h2 ⊢
      omega
    rw [← htw]
    simp [moved_entry, this]
  rw [h1, h2, h3, List.append_nil, List.append_nil]

end CompHandler

namespace CompHandler

theorem Represents.bin_closed {S : Solver} {vars : List Nat} {bins : List (Lit × Lit)}
    {tris : List (Lit × Lit × Lit)} (hrep : Represents S vars bins tris)
    {l : Lit} (hl : l ∈ lits_of_vars vars) {i : Watched} (hi : i ∈ S.watches l.toInt)
    (hb : i.isBinary = true) (hr : i.red = false) : i.lit2.var ∈ vars := by
  have h1 : i ∈ (S.watches l.toInt).filter (fun w => w.isBinary && !w.red) :=
    List.mem_filter.mpr ⟨hi, by simp [hb, hr]⟩
  have h2 := (hrep.bin_watches l hl).mem_iff.mp h1
  unfold bin_entries at h2
  rcases List.mem_append.mp h2 with h | h
  · obtain ⟨p, hp, hpw⟩ := List.mem_map.mp h
    rw [← hpw]
    exact (hrep.bins_inside p (List.mem_filter.mp hp).1).2
  · obtain ⟨p, hp, hpw⟩ := List.mem_map.mp h
    rw [← hpw]
    exact (hrep.bins_inside p (List.mem_filter.mp hp).1).1

theorem Represents.tri_closed {S : Solver} {vars : List Nat} {bins : List (Lit × Lit)}
    {tris : List (Lit × Lit × Lit)} (hrep : Represents S vars bins tris)
    {l : Lit} (hl : l ∈ lits_of_vars vars) {i : Watched} (hi : i ∈ S.watches l.toInt)
    (hb : i.isTri = true) (hr : i.red = false) : i.lit2.var ∈ vars ∧ i.lit3.var ∈ vars := by
  have h1 : i ∈ (S.watches l.toInt).filter (fun w => w.isTri && !w.red) :=
    List.mem_filter.mpr ⟨hi, by simp [hb, hr]⟩
  have h2 := (hrep.tri_watches l hl).mem_iff.mp h1
  unfold tri_entries at h2
  rcases List.mem_append.mp h2 with h | h
  · obtain ⟨t, ht, htw⟩ := List.mem_map.mp h
    rw [← htw]
    have := hrep.tris_inside t (List.mem_filter.mp ht).1
    exact ⟨this.2.1, this.2.2⟩
  · rcases List.mem_append.mp h with h | h
    · obtain ⟨t, ht, htw⟩ := List.mem_map.mp h
      rw [← htw]
      have := hrep.tris_inside t (List.mem_filter.mp ht).1
      exact ⟨this.1, this.2.2⟩
    · obtain ⟨t, ht, htw⟩ := List.mem_map.mp h
      rw [← htw]
      have := hrep.tris_inside t (List.mem_filter.mp ht).1
      exact ⟨this.1, this.2.1⟩

/-- The clauses that the visits of the watch lists hand over are, up to their order, the
irredundant binary and ternary clauses of the variables. -/
theorem Represents.moved_perm {S : Solver} {vars : List Nat} {bins : List (Lit × Lit)}
    {tris : List (Lit × Lit × Lit)} (hrep : Represents S vars bins tris)
    (hvars : vars.Nodup) :
    ((lits_of_vars vars).flatMap (fun l =>
        (S.watches l.toInt).filterMap (moved_entry l))).Perm
      (bins.map (fun p => [p.1, p.2]) ++ tris.map (fun t => [t.1, t.2.1, t.2.2])) := by
  have hnd : (lits_of_vars vars).Nodup := List.Nodup.of_map _ (lits_of_vars_nodup hvars)
  have h1 : ((lits_of_vars vars).flatMap (fun l =>
        (S.watches l.toInt).filterMap (moved_entry l))).Perm
      ((lits_of_vars vars).flatMap (fun l =>
        (bins.filter (fun p => decide (p.1 = l))).map (fun p => [p.1, p.2])
          ++ (tris.filter (fun t => decide (t.1 = l))).map (fun t => [t.1, t.2.1, t.2.2]))) := by
    apply List.Perm.flatMap_left
    intro l hl
    refine (filterMap_split_perm (fun w => w.isBinary && !w.red) (fun w => w.isTri && !w.red)
      (moved_entry l) ?_ ?_ (S.watches l.toInt)).trans ?_
    · intro x hx
      cases x <;> simp [Watched.isBinary, Watched.isTri] at hx ⊢
    · intro x hp hq
      cases x with
      | binary l2 r => cases r <;> simp [Watched.isBinary, Watched.red] at hp ⊢; rfl
      | tertiary l2 l3 r => cases r <;> simp [Watched.isTri, Watched.red] at hq ⊢; rfl
      | clause o b => rfl
    · rw [← moved_entry_bin_entries bins hrep.bins_ascending l,
        ← moved_entry_tri_entries tris hrep.tris_ascending l]
      exact List.Perm.append ((hrep.bin_watches l hl).filterMap _)
        ((hrep.tri_watches l hl).filterMap _)
  refine h1.trans ((List.flatMap_append_perm _ _ _).symm.trans ?_)
  exact List.Perm.append
    (flatMap_filter_key_perm (fun p : Lit × Lit => p.1) _ _ hnd bins
      (fun p hp => mem_lits_of_vars.mpr (hrep.bins_inside p hp).1))
    (flatMap_filter_key_perm (fun t : Lit × Lit × Lit => t.1) _ _ hnd tris
      (fun t ht => mem_lits_of_vars.mpr (hrep.tris_inside t ht).1))

/-- The irredundant binary entries in the watch lists of the variables are two for each
irredundant binary clause. -/
theorem Represents.bin_count {S : Solver} {vars : List Nat} {bins : List (Lit × Lit)}
    {tris : List (Lit × Lit × Lit)} (hrep : Represents S vars bins tris)
    (hvars : vars.Nodup) :
    ((lits_of_vars vars).flatMap (fun l =>
        (S.watches l.toInt).filter (fun w => w.isBinary && !w.red))).length
      = 2 * bins.length := by
  have hnd : (lits_of_vars vars).Nodup := List.Nodup.of_map _ (lits_of_vars_nodup hvars)
  have h1 : ((lits_of_vars vars).flatMap (fun l =>
        (S.watches l.toInt).filter (fun w => w.isBinary && !w.red))).Perm
      ((lits_of_vars vars).flatMap (fun l =>
        (bins.filter (fun p => decide (p.1 = l))).map (fun p => Watched.binary p.2 false)
          ++ (bins.filter (fun p => decide (p.2 = l))).map
              (fun p => Watched.binary p.1 false))) :=
    List.Perm.flatMap_left _ (fun l hl => hrep.bin_watches l hl)
  have h2 := h1.trans ((List.flatMap_append_perm _ _ _).symm.trans
    (List.Perm.append
      (flatMap_filter_key_perm (fun p : Lit × Lit => p.1) _ _ hnd bins
        (fun p hp => mem_lits_of_vars.mpr (hrep.bins_inside p hp).1))
      (flatMap_filter_key_perm (fun p : Lit × Lit => p.2) _ _ hnd bins
        (fun p hp => mem_lits_of_vars.mpr (hrep.bins_inside p hp).2))))
  rw [h2.length_eq, List.length_append, List.length_map, List.length_map]
  omega

/-- The irredundant ternary entries in the watch lists of the variables are three for each
irredundant ternary clause. -/
theorem Represents.tri_count {S : Solver} {vars : List Nat} {bins : List (Lit × Lit)}
    {tris : List (Lit × Lit × Lit)} (hrep : Represents S vars bins tris)
    (hvars : vars.Nodup) :
    ((lits_of_vars vars).flatMap (fun l =>
        (S.watches l.toInt).filter (fun w => w.isTri && !w.red))).length
      = 3 * tris.length := by
  have hnd : (lits_of_vars vars).Nodup := List.Nodup.of_map _ (lits_of_vars_nodup hvars)
  have h1 : ((lits_of_vars vars).flatMap (fun l =>
        (S.watches l.toInt).filter (fun w => w.isTri && !w.red))).Perm
      ((lits_of_vars vars).flatMap (fun l =>
        (tris.filter (fun t => decide (t.1 = l))).map
            (fun t => Watched.tertiary t.2.1 t.2.2 false)
          ++ ((tris.filter (fun t => decide (t.2.1 = l))).map
              (fun t => Watched.tertiary t.1 t.2.2 false)
            ++ (tris.filter (fun t => decide (t.2.2 = l))).map
              (fun t => Watched.tertiary t.1 t.2.1 false)))) :=
    List.Perm.flatMap_left _ (fun l hl => hrep.tri_watches l hl)
  have h2 := h1.trans ((List.flatMap_append_perm _ _ _).symm.trans
    (List.Perm.append
      (flatMap_filter_key_perm (fun t : Lit × Lit × Lit => t.1) _ _ hnd tris
        (fun t ht => mem_lits_of_vars.mpr (hrep.tris_inside t ht).1))
      ((List.flatMap_append_perm _ _ _).symm.trans
        (List.Perm.append
          (flatMap_filter_key_perm (fun t : Lit × Lit × Lit => t.2.1) _ _ hnd tris
            (fun t ht => mem_lits_of_vars.mpr (hrep.tris_inside t ht).2.1))
          (flatMap_filter_key_perm (fun t : Lit × Lit × Lit => t.2.2) _ _ hnd tris
            (fun t ht => mem_lits_of_vars.mpr (hrep.tris_inside t ht).2.2))))))
  rw [h2.length_eq, List.length_append, List.length_append, List.length_map, List.length_map,
    List.length_map]
  omega

end CompHandler

/-- C28: `moveClausesImplicit` transfers each irredundant implicit clause of the component
exactly once.  When `bins` and `tris` are the irredundant binary and ternary clauses of
the variables `vars` of the component `comp` (ternary watch entries storing their two
other literals in ascending order), the clauses added to `newSolver` are, renumbered and
up to their order, exactly `bins` and `tris`, each once; `saveClause` stores the same
clauses in the outer numbering, in the same order; the watch lists of the literals of
`vars` keep their long entries only; and `irredBins` and `irredTris` go down, as 64-bit
counters, by the numbers of these clauses. -/
theorem moveClausesImplicit_transfers_once (H : CompHandler) (newSolver : SATSolver)
    (comp : Nat) (vars : List Nat) (bins : List (Lit × Lit)) (tris : List (Lit × Lit × Lit))
    (hvars : vars.Nodup) (hcomp : ∀ v ∈ vars, H.getVarComp v = comp)
    (hrep : CompHandler.Represents H.solver vars bins tris) :
    ∃ moved : List (List Lit),
      moved.Perm (bins.map (fun p => [p.1, p.2]) ++ tris.map (fun t => [t.1, t.2.1, t.2.2]))
      ∧ (CompHandler.moveClausesImplicit H newSolver comp vars).2.clauses
          = newSolver.clauses ++ moved.map (fun c => c.map H.upd_bigsolver_to_smallsolver_lit)
      ∧ (CompHandler.moveClausesImplicit H newSolver comp vars).1.removedClauses.lits
          = H.removedClauses.lits
            ++ moved.flatMap (fun c => c.map H.solver.map_inter_to_outer_lit)
      ∧ (CompHandler.moveClausesImplicit H newSolver comp vars).1.removedClauses.sizes
          = H.removedClauses.sizes ++ moved.map List.length
      ∧ (∀ lit ∈ CompHandler.lits_of_vars vars,
          (CompHandler.moveClausesImplicit H newSolver comp vars).1.solver.watches lit.toInt
            = (H.solver.watches lit.toInt).filter Watched.isClause)
      ∧ (CompHandler.moveClausesImplicit H newSolver comp vars).1.solver.irredBins
          = CompHandler.sub64 H.solver.irredBins bins.length
      ∧ (CompHandler.moveClausesImplicit H newSolver comp vars).1.solver.irredTris
          = CompHandler.sub64 H.solver.irredTris tris.length := by
  have hloop := CompHandler.moveClausesImplicit_loop_eq H newSolver comp vars
  obtain ⟨t1, t2, t3, t4, t5, t6, t7, t8⟩ :=
    CompHandler.moveClausesImplicit_lits_spec comp H (CompHandler.lits_of_vars vars)
      { H with
        numRemovedHalfIrred := 0,
        numRemovedHalfRed := 0,
        numRemovedThirdIrred := 0,
        numRemovedThirdRed := 0 } newSolver []
      (CompHandler.lits_of_vars_nodup hvars)
      (fun _ _ h => by simp at h)
      (fun l hl => hcomp _ (CompHandler.mem_lits_of_vars.mp hl))
      (fun l hl i hi hb hr => hcomp _ (hrep.bin_closed hl hi hb hr))
      (fun l hl i hi hb hr =>
        ⟨hcomp _ (hrep.tri_closed hl hi hb hr).1, hcomp _ (hrep.tri_closed hl hi hb hr).2⟩)
      rfl rfl rfl (fun _ _ => rfl) (fun _ h => by simp at h)
  rw [← hloop] at t1 t2 t3 t4 t5 t6 t7 t8
  rw [hrep.bin_count hvars] at t4
  rw [hrep.tri_count hvars] at t5
  refine ⟨_, hrep.moved_perm hvars, t1, t2, t3, ?_, ?_, ?_⟩
  · intro lit hl
    exact t8 _ (Or.inr (List.mem_map_of_mem _ hl))
  · show CompHandler.sub64 (CompHandler.moveClausesImplicit_loop H newSolver comp vars).1.solver.irredBins
      ((CompHandler.moveClausesImplicit_loop H newSolver comp vars).1.numRemovedHalfIrred / 2) = _
    rw [t4, t6]
    simp
  · show CompHandler.sub64 (CompHandler.moveClausesImplicit_loop H newSolver comp vars).1.solver.irredTris
      ((CompHandler.moveClausesImplicit_loop H newSolver comp vars).1.numRemovedThirdIrred / 3) = _
    rw [t5, t7]
    simp

theorem Example9.represents :
    CompHandler.Represents Example9.solver Example9.vars Example9.bins Example9.tris :=
  ⟨by decide, by decide, by decide, by decide, by decide, by decide⟩

theorem moveClausesImplicit_transfers_once_witness :
    Example9.vars.Nodup
    ∧ (∀ v ∈ Example9.vars, Example9.handler.getVarComp v = 1)
    ∧ CompHandler.Represents Example9.solver Example9.vars Example9.bins Example9.tris
    ∧ ∃ moved : List (List Lit),
      moved.Perm (Example9.bins.map (fun p => [p.1, p.2])
        ++ Example9.tris.map (fun t => [t.1, t.2.1, t.2.2]))
      ∧ (CompHandler.moveClausesImplicit Example9.handler Example9.newSolver 1
            Example9.vars).2.clauses
          = Example9.newSolver.clauses
            ++ moved.map (fun c => c.map Example9.handler.upd_bigsolver_to_smallsolver_lit)
      ∧ (CompHandler.moveClausesImplicit Example9.handler Example9.newSolver 1
            Example9.vars).1.removedClauses.lits
          = Example9.handler.removedClauses.lits
            ++ moved.flatMap (fun c => c.map Example9.handler.solver.map_inter_to_outer_lit)
      ∧ (CompHandler.moveClausesImplicit Example9.handler Example9.newSolver 1
            Example9.vars).1.removedClauses.sizes
          = Example9.handler.removedClauses.sizes ++ moved.map List.length
      ∧ (∀ lit ∈ CompHandler.lits_of_vars Example9.vars,
          (CompHandler.moveClausesImplicit Example9.handler Example9.newSolver 1
              Example9.vars).1.solver.watches lit.toInt
            = (Example9.handler.solver.watches lit.toInt).filter Watched.isClause)
      ∧ (CompHandler.moveClausesImplicit Example9.handler Example9.newSolver 1
            Example9.vars).1.solver.irredBins
          = CompHandler.sub64 Example9.handler.solver.irredBins Example9.bins.length
      ∧ (CompHandler.moveClausesImplicit Example9.handler Example9.newSolver 1
            Example9.vars).1.solver.irredTris
          = CompHandler.sub64 Example9.handler.solver.irredTris Example9.tris.length :=
  ⟨by decide, by decide, Example9.represents,
    moveClausesImplicit_transfers_once Example9.handler Example9.newSolver 1 Example9.vars
      Example9.bins Example9.tris (by decide) (by decide) Example9.represents⟩

/-- The run of `moveClausesImplicit` on component `1` of `Example9`: the clauses of the
sub-solver, the stored literals and sizes, the watch lists of the literals `0, 2` of the
other component and `4 .. 9` of this one, and the counters `irredBins`, `irredTris`,
`redBins`, `redTris` of the main solver. -/
theorem Example9.moveClausesImplicit_run :
    ((CompHandler.moveClausesImplicit Example9.handler Example9.newSolver 1
          Example9.vars).2.clauses,
      (CompHandler.moveClausesImplicit Example9.handler Example9.newSolver 1
          Example9.vars).1.removedClauses.lits,
      (CompHandler.moveClausesImplicit Example9.handler Example9.newSolver 1
          Example9.vars).1.removedClauses.sizes,
      [0, 2, 4, 5, 6, 7, 8, 9].map (CompHandler.moveClausesImplicit Example9.handler
          Example9.newSolver 1 Example9.vars).1.solver.watches,
      [(CompHandler.moveClausesImplicit Example9.handler Example9.newSolver 1
          Example9.vars).1.solver.irredBins,
        (CompHandler.moveClausesImplicit Example9.handler Example9.newSolver 1
          Example9.vars).1.solver.irredTris,
        (CompHandler.moveClausesImplicit Example9.handler Example9.newSolver 1
          Example9.vars).1.solver.redBins,
        (CompHandler.moveClausesImplicit Example9.handler Example9.newSolver 1
          Example9.vars).1.solver.redTris])
      = ([[⟨0, false⟩, ⟨1, false⟩], [⟨0, false⟩, ⟨1, true⟩, ⟨2, false⟩]],
         [⟨2, false⟩, ⟨3, false⟩, ⟨2, false⟩, ⟨3, true⟩, ⟨4, false⟩],
         [2, 3],
         [[.binary ⟨1, false⟩ false], [.binary ⟨0, false⟩ false], [], [], [], [], [], []],
         [1, 0, 0, 0]) := by
  decide!

/-! ## C38: the header test of `restrictSHA1` -/

namespace RestrictSHA1

/-- On a text that is at least as long as the prefix, `isPrefix` is the prefix test. -/
theorem isPrefix_iff_of_length_le :
    ∀ (str pre : List Char), pre.length ≤ str.length →
      (isPrefix str pre = true ↔ pre <+: str)
  | _, [], _ => by
    constructor
    · intro _; exact List.nil_prefix
    · intro _; unfold isPrefix; split <;> simp_all
  | [], p :: pre, h => by simp at h
  | c :: str, p :: pre, h => by
    have ih := isPrefix_iff_of_length_le str pre (by simpa using h)
    unfold isPrefix
    by_cases hc : c = p
    · subst hc
      simp only [bne_self_eq_false, Bool.false_eq_true, if_false, ih]
      exact (List.prefix_cons_inj c).symm
    · have hne : (c != p) = true := by simpa using hc
      simp only [hne, if_true]
      constructor
      · intro h2; exact absurd h2 (by simp)
      · intro h2
        have := List.cons_prefix_cons.mp h2
        exact absurd this.1.symm hc

/-- On a text shorter than the prefix, `isPrefix` holds as soon as the text is a prefix of
the prefix. -/
theorem isPrefix_of_shorter :
    ∀ (str pre : List Char), str <+: pre → isPrefix str pre = true
  | [], _, _ => by unfold isPrefix; rfl
  | c :: str, [], h => by simp at h
  | c :: str, p :: pre, h => by
    have h2 := List.cons_prefix_cons.mp h
    unfold isPrefix
    rw [h2.1]
    simp only [bne_self_eq_false, Bool.false_eq_true, if_false]
    exact isPrefix_of_shorter str pre h2.2

end RestrictSHA1

/-- C38: the text `p c` does not begin with `p cnf `, yet `isPrefix` holds of it: the loop
stops at the end of the shorter text.  `main` takes the line `p c` for a header and ends in
`substr`, where the claim asks for the line to be copied: on the lines `p cnf 1 1`, `p c`,
`1 0` the output is the one line `p cnf 1 1`. -/
theorem isPrefix_accepts_shorter_text :
    RestrictSHA1.isPrefix "p c".toList "p cnf ".toList = true
    ∧ ¬ ("p cnf ".toList <+: "p c".toList)
    ∧ RestrictSHA1.main 4 0 ["p cnf 1 1".toList, "p c".toList, "1 0".toList] 2147483647
        (fun _ => 0)
      = ⟨["p cnf 1 1".toList], .out_of_range⟩ := by
  refine ⟨?_, ?_, ?_⟩ <;> decide!

/-! ## C31: `popcnt_is_one(from)` -/

/-- C31: the row `a` of `Example8` has one word, all of whose bits are zero, so that no bit
above column `63` is set.  `popcnt_is_one(63)` increments `from` to `64`, reads `mp[1]`,
the word after the row, finds it non-zero and returns false.  On `Example10`, where that
word is zero, the loop starts at `i = 2`, past `size = 1`, and returns false at the
non-zero word `mp[2]`. -/
theorem popcnt_is_one_last_column :
    Example8.a.size = 1
    ∧ (∀ i, i < 64 → Example8.a.get Example8.mem i = false)
    ∧ (∀ fuel, Example8.a.popcnt_is_one Example8.mem fuel 63 = some (false, [1]))
    ∧ (∀ i, i < 64 → Example10.a.get Example10.mem i = false)
    ∧ (∀ fuel, Example10.a.popcnt_is_one Example10.mem (fuel + 1) 63
        = some (false, [1, 2])) := by
  refine ⟨rfl, ?_, ?_, ?_, ?_⟩
  · decide!
  · intro fuel
    have h : Example8.a.word Example8.mem 1 = 1 := by decide!
    unfold PackedRow.popcnt_is_one
    simp only [show (63 + 1) % 2 ^ 32 / 64 = 1 from by decide,
      show (63 + 1) % 2 ^ 32 % 64 = 0 from by decide, h]
    rfl
  · decide!
  · intro fuel
    have h1 : Example10.a.word Example10.mem 1 = 0 := by decide!
    have h2 : Example10.a.word Example10.mem 2 = 1 := by decide!
    unfold PackedRow.popcnt_is_one
    simp only [show (63 + 1) % 2 ^ 32 / 64 = 1 from by decide,
      show (63 + 1) % 2 ^ 32 % 64 = 0 from by decide, h1]
    unfold PackedRow.popcnt_is_one_loop
    have h3 : (⟨8, 1⟩ : PackedRow).word Example10.mem 2 = 1 := h2
    simp [h3, Example10.a]

namespace PackedRow

theorem read_word_eq (mem : Nat → Nat) (addr : Nat) :
    read_word mem addr
      = mem addr % 256 + mem (addr + 1) % 256 * 256 + mem (addr + 2) % 256 * 256 ^ 2
        + mem (addr + 3) % 256 * 256 ^ 3 + mem (addr + 4) % 256 * 256 ^ 4
        + mem (addr + 5) % 256 * 256 ^ 5 + mem (addr + 6) % 256 * 256 ^ 6
        + mem (addr + 7) % 256 * 256 ^ 7 := by
  simp [read_word, List.range, List.range.loop]

theorem read_word_lt (mem : Nat → Nat) (addr : Nat) : read_word mem addr < 2 ^ 64 := by
  rw [read_word_eq]
  norm_num
  omega

theorem read_word_congr (m1 m2 : Nat → Nat) (addr : Nat)
    (h : ∀ k, k < 8 → m1 (addr + k) = m2 (addr + k)) : read_word m1 addr = read_word m2 addr := by
  rw [read_word_eq, read_word_eq, ← h 1 (by omega), ← h 2 (by omega), ← h 3 (by omega),
    ← h 4 (by omega), ← h 5 (by omega), ← h 6 (by omega), ← h 7 (by omega)]
  have := h 0 (by omega)
  simp only [Nat.add_zero] at this
  rw [this]

theorem read_write_word (mem : Nat → Nat) (addr w : Nat) (hw : w < 2 ^ 64) :
    read_word (write_word mem addr w) addr = w := by
  rw [read_word_eq]
  simp only [write_word]
  rw [if_pos (by omega), if_pos (by omega), if_pos (by omega), if_pos (by omega),
    if_pos (by omega), if_pos (by omega), if_pos (by omega), if_pos (by omega)]
  simp only [Nat.sub_self, Nat.add_sub_cancel_left, pow_zero, Nat.div_one]
  norm_num at hw ⊢
  omega

theorem write_word_other (mem : Nat → Nat) (addr w x : Nat) (h : x < addr ∨ addr + 8 ≤ x) :
    write_word mem addr w x = mem x := by
  unfold write_word
  rw [if_neg (by omega)]

theorem read_write_word_other (mem : Nat → Nat) (addr w addr2 : Nat)
    (h : addr2 + 8 ≤ addr ∨ addr + 8 ≤ addr2) :
    read_word (write_word mem addr w) addr2 = read_word mem addr2 := by
  apply read_word_congr
  intro k hk
  exact write_word_other mem addr w _ (by omega)

end PackedRow

namespace PackedRow

theorem get_eq_testBit (r : PackedRow) (mem : Nat → Nat) (i : Nat) :
    r.get mem i = (r.word mem (i / 64)).testBit (i % 64) := by
  unfold get Nat.testBit
  rw [Nat.and_comm]

theorem word_lt (r : PackedRow) (mem : Nat → Nat) (k : Nat) : r.word mem k < 2 ^ 64 :=
  read_word_lt mem _

theorem eq_zero_iff_testBit (w : Nat) (hw : w < 2 ^ 64) :
    w = 0 ↔ ∀ j, j < 64 → w.testBit j = false := by
  constructor
  · intro h j _; rw [h]; exact Nat.zero_testBit j
  · intro h
    apply Nat.eq_of_testBit_eq
    intro i
    rw [Nat.zero_testBit]
    by_cases hi : i < 64
    · exact h i hi
    · apply Nat.testBit_eq_false_of_lt
      calc w < 2 ^ 64 := hw
        _ ≤ 2 ^ i := Nat.pow_le_pow_right (by decide) (by omega)

theorem shiftRight_eq_zero_iff (w s : Nat) (hw : w < 2 ^ 64) :
    w >>> s = 0 ↔ ∀ j, s ≤ j → j < 64 → w.testBit j = false := by
  constructor
  · intro h j hs _
    have : (w >>> s).testBit (j - s) = false := by rw [h]; exact Nat.zero_testBit _
    rw [Nat.testBit_shiftRight] at this
    rwa [show s + (j - s) = j from by omega] at this
  · intro h
    apply Nat.eq_of_testBit_eq
    intro i
    rw [Nat.zero_testBit, Nat.testBit_shiftRight]
    by_cases hi : s + i < 64
    · exact h _ (by omega) hi
    · apply Nat.testBit_eq_false_of_lt
      calc w < 2 ^ 64 := hw
        _ ≤ 2 ^ (s + i) := Nat.pow_le_pow_right (by decide) (by omega)

/-- The loop of `popcnt_is_one` started at a word index `i ≤ size` with enough fuel: it
reads words of the row only and returns true exactly if they are all zero. -/
theorem popcnt_is_one_loop_spec (r : PackedRow) (mem : Nat → Nat) (hsize : r.size < 2 ^ 32) :
    ∀ (fuel i : Nat) (reads : List Nat), i ≤ r.size → r.size - i < fuel →
      ∃ b rs, r.popcnt_is_one_loop mem fuel i reads = some (b, reads ++ rs)
        ∧ (∀ k ∈ rs, i ≤ k ∧ k < r.size)
        ∧ (b = true ↔ ∀ k, i ≤ k → k < r.size → r.word mem k = 0) := by
  intro fuel
  induction fuel with
  | zero => intro i reads _ h; omega
  | succ fuel ih =>
    intro i reads hi hf
    unfold popcnt_is_one_loop
    by_cases h1 : i = r.size
    · rw [if_pos h1]
      refine ⟨true, [], by simp, by simp, ?_⟩
      simp only [true_iff]
      intro k hk1 hk2
      omega
    · rw [if_neg h1]
      by_cases h2 : r.word mem i ≠ 0
      · rw [if_pos h2]
        refine ⟨false, [i], rfl, ?_, ?_⟩
        · intro k hk
          simp only [List.mem_singleton] at hk
          omega
        · constructor
          · intro h; exact absurd h (by simp)
          · intro h; exact absurd (h i (le_refl _) (by omega)) h2
      · rw [if_neg h2]
        have hi1 : (i + 1) % 2 ^ 32 = i + 1 := Nat.mod_eq_of_lt (by omega)
        rw [hi1]
        obtain ⟨b, rs, e1, e2, e3⟩ := ih (i + 1) (reads ++ [i]) (by omega) (by omega)
        refine ⟨b, i :: rs, ?_, ?_, ?_⟩
        · rw [e1]; simp
        · intro k hk
          rcases List.mem_cons.mp hk with e | e
          · omega
          · have := e2 k e; omega
        · rw [e3]
          constructor
          · intro h k hk1 hk2
            by_cases hki : k = i
            · rw [hki]; exact not_not.mp h2
            · exact h k (by omega) hk2
          · intro h k hk1 hk2
            exact h k (by omega) hk2

/-- Below the last column `popcnt_is_one(from)` is what its name says: for
`from + 1 < 64·size` it returns, reads words of the row only, and returns true exactly if
no bit above column `from` is set. -/
theorem popcnt_is_one_spec (r : PackedRow) (mem : Nat → Nat) (from0 : Nat)
    (h1 : from0 + 1 < 64 * r.size) (h2 : from0 + 1 < 2 ^ 32) (hsize : r.size < 2 ^ 32) :
    ∃ b reads, r.popcnt_is_one mem r.size from0 = some (b, reads)
      ∧ (∀ k ∈ reads, k < r.size)
      ∧ (b = true ↔ ∀ i, from0 < i → i < 64 * r.size → r.get mem i = false) := by
  unfold popcnt_is_one
  have hf : (from0 + 1) % 2 ^ 32 = from0 + 1 := Nat.mod_eq_of_lt h2
  simp only [hf]
  have hk0 : (from0 + 1) / 64 < r.size := by omega
  by_cases ht : r.word mem ((from0 + 1) / 64) >>> ((from0 + 1) % 64) ≠ 0
  · rw [if_pos ht]
    refine ⟨false, [(from0 + 1) / 64], rfl, ?_, ?_⟩
    · intro k hk
      simp only [List.mem_singleton] at hk
      omega
    · constructor
      · intro h; exact absurd h (by simp)
      · intro h
        exfalso
        apply ht
        rw [shiftRight_eq_zero_iff _ _ (word_lt r mem _)]
        intro j hj1 hj2
        have := h (64 * ((from0 + 1) / 64) + j) (by omega) (by omega)
        rw [get_eq_testBit] at this
        rwa [show (64 * ((from0 + 1) / 64) + j) / 64 = (from0 + 1) / 64 from by omega,
          show (64 * ((from0 + 1) / 64) + j) % 64 = j from by omega] at this
  · rw [if_neg ht]
    have ht0 := not_not.mp ht
    rw [shiftRight_eq_zero_iff _ _ (word_lt r mem _)] at ht0
    obtain ⟨b, rs, e1, e2, e3⟩ := popcnt_is_one_loop_spec r mem hsize r.size
      ((from0 + 1) / 64 + 1) [(from0 + 1) / 64] (by omega) (by omega)
    refine ⟨b, [(from0 + 1) / 64] ++ rs, e1, ?_, ?_⟩
    · intro k hk
      rcases List.mem_append.mp hk with e | e
      · simp only [List.mem_singleton] at e
        omega
      · exact (e2 k e).2
    · rw [e3]
      constructor
      · intro h i hi1 hi2
        rw [get_eq_testBit]
        by_cases hik : i / 64 = (from0 + 1) / 64
        · rw [hik]
          exact ht0 _ (by omega) (by omega)
        · rw [h (i / 64) (by omega) (by omega)]
          exact Nat.zero_testBit _
      · intro h k hk1 hk2
        rw [eq_zero_iff_testBit _ (word_lt r mem k)]
        intro j hj
        have := h (64 * k + j) (by omega) (by omega)
        rw [get_eq_testBit] at this
        rwa [show (64 * k + j) / 64 = k from by omega,
          show (64 * k + j) % 64 = j from by omega] at this

end PackedRow

namespace PackedRow

/-- The memory after the first `n` rounds of the loop of `operator^=`. -/
theorem xor_loop_spec (a b : PackedRow) (mem : Nat → Nat) (ha : 8 ≤ a.mp) (hb : 8 ≤ b.mp)
    (hsize : a.size = b.size)
    (hdisj : a.mp + 8 * a.size ≤ b.mp - 8 ∨ b.mp + 8 * b.size ≤ a.mp - 8) :
    ∀ n, n ≤ a.size →
      (∀ addr, addr < a.mp ∨ a.mp + 8 * n ≤ addr →
        (List.range n).foldl
          (fun m i => write_word m (a.mp + 8 * i) (a.word m i ^^^ b.word m i)) mem addr
          = mem addr)
      ∧ (∀ k, k < n →
        a.word ((List.range n).foldl
          (fun m i => write_word m (a.mp + 8 * i) (a.word m i ^^^ b.word m i)) mem) k
          = a.word mem k ^^^ b.word mem k) := by
  intro n
  induction n with
  | zero => intro _; exact ⟨fun _ _ => rfl, fun k hk => absurd hk (by omega)⟩
  | succ n ih =>
    intro hn
    obtain ⟨i1, i2⟩ := ih (by omega)
    rw [List.range_succ, List.foldl_append]
    simp only [List.foldl_cons, List.foldl_nil]
    generalize (List.range n).foldl
      (fun m i => write_word m (a.mp + 8 * i) (a.word m i ^^^ b.word m i)) mem = F at i1 i2
    have ea : a.word F n = a.word mem n := by
      unfold word
      apply read_word_congr
      intro k hk
      exact i1 _ (by omega)
    have eb : b.word F n = b.word mem n := by
      unfold word
      apply read_word_congr
      intro k hk
      exact i1 _ (by omega)
    rw [ea, eb]
    constructor
    · intro addr haddr
      rw [write_word_other _ _ _ _ (by omega)]
      exact i1 addr (by omega)
    · intro k hk
      by_cases hkn : k = n
      · rw [hkn]
        unfold word
        rw [read_write_word _ _ _ (Nat.xor_lt_two_pow (read_word_lt _ _) (read_word_lt _ _))]
      · have : a.word (write_word F (a.mp + 8 * n) (a.word mem n ^^^ b.word mem n)) k
            = a.word F k := by
          unfold word
          exact read_write_word_other _ _ _ _ (by omega)
        rw [this]
        exact i2 k (by omega)

/-- The words of the two rows after `a ^= b`, for rows of equal size that share no byte:
each word of `a`, the word `is_true_internal` included, is the exclusive or of the two old
words, and no byte outside `a` has changed. -/
theorem xor_assign_words (a b : PackedRow) (mem : Nat → Nat) (ha : 8 ≤ a.mp) (hb : 8 ≤ b.mp)
    (hsize : a.size = b.size)
    (hdisj : a.mp + 8 * a.size ≤ b.mp - 8 ∨ b.mp + 8 * b.size ≤ a.mp - 8) :
    (∀ k, k < a.size → a.word (xor_assign a b mem) k = a.word mem k ^^^ b.word mem k)
    ∧ a.is_true (xor_assign a b mem) = a.is_true mem ^^^ b.is_true mem
    ∧ (∀ addr, ¬ a.owns addr → xor_assign a b mem addr = mem addr) := by
  obtain ⟨i1, i2⟩ := xor_loop_spec a b mem ha hb hsize hdisj a.size (le_refl _)
  unfold xor_assign
  simp only []
  generalize (List.range a.size).foldl
    (fun m i => write_word m (a.mp + 8 * i) (a.word m i ^^^ b.word m i)) mem = F at i1 i2
  have ea : a.is_true F = a.is_true mem := by
    unfold is_true
    apply read_word_congr
    intro k hk
    exact i1 _ (by omega)
  have eb : b.is_true F = b.is_true mem := by
    unfold is_true
    apply read_word_congr
    intro k hk
    exact i1 _ (by omega)
  rw [ea, eb]
  refine ⟨?_, ?_, ?_⟩
  · intro k hk
    have : a.word (write_word F (a.mp - 8) (a.is_true mem ^^^ b.is_true mem)) k = a.word F k := by
      unfold word
      exact read_write_word_other _ _ _ _ (by omega)
    rw [this]
    exact i2 k hk
  · unfold is_true
    rw [read_write_word _ _ _ (Nat.xor_lt_two_pow (read_word_lt _ _) (read_word_lt _ _))]
  · intro addr haddr
    unfold owns at haddr
    rw [write_word_other _ _ _ _ (by omega)]
    exact i1 addr (by omega)

theorem word_congr_of_not_owns (a b : PackedRow) (m1 m2 : Nat → Nat) (hb : 8 ≤ b.mp)
    (hdisj : a.mp + 8 * a.size ≤ b.mp - 8 ∨ b.mp + 8 * b.size ≤ a.mp - 8)
    (h : ∀ addr, ¬ a.owns addr → m1 addr = m2 addr) :
    (∀ k, k < b.size → b.word m1 k = b.word m2 k) ∧ b.is_true m1 = b.is_true m2 := by
  constructor
  · intro k hk
    unfold word
    apply read_word_congr
    intro j hj
    apply h
    unfold owns
    omega
  · unfold is_true
    apply read_word_congr
    intro j hj
    apply h
    unfold owns
    omega

end PackedRow

/-! ## C39: `operator^=` of `PackedRow` -/

/-- C39: for rows `a` and `b` of equal size that share no byte of memory, `a ^= b` sets
every column bit `a[i]` to `a[i] XOR b[i]` and the right-hand side of `a` to the exclusive
or of the two right-hand sides, and changes no byte of `b`; applying `^= b` twice gives
`a` its bits and its right-hand side back. -/
theorem packed_row_xor_assign (a b : PackedRow) (mem : Nat → Nat) (ha : 8 ≤ a.mp) (hb : 8 ≤ b.mp)
    (hsize : a.size = b.size)
    (hdisj : a.mp + 8 * a.size ≤ b.mp - 8 ∨ b.mp + 8 * b.size ≤ a.mp - 8) :
    (∀ i, i < 64 * a.size →
      a.get (PackedRow.xor_assign a b mem) i = Bool.xor (a.get mem i) (b.get mem i))
    ∧ a.is_true (PackedRow.xor_assign a b mem) = a.is_true mem ^^^ b.is_true mem
    ∧ (∀ addr, b.owns addr → PackedRow.xor_assign a b mem addr = mem addr)
    ∧ (∀ i, i < 64 * a.size →
      a.get (PackedRow.xor_assign a b (PackedRow.xor_assign a b mem)) i = a.get mem i)
    ∧ a.is_true (PackedRow.xor_assign a b (PackedRow.xor_assign a b mem)) = a.is_true mem := by
  obtain ⟨w1, t1, o1⟩ := PackedRow.xor_assign_words a b mem ha hb hsize hdisj
  obtain ⟨w2, t2, _⟩ :=
    PackedRow.xor_assign_words a b (PackedRow.xor_assign a b mem) ha hb hsize hdisj
  obtain ⟨bw, bt⟩ := PackedRow.word_congr_of_not_owns a b (PackedRow.xor_assign a b mem) mem
    hb hdisj o1
  refine ⟨?_, t1, ?_, ?_, ?_⟩
  · intro i hi
    rw [PackedRow.get_eq_testBit, PackedRow.get_eq_testBit, PackedRow.get_eq_testBit,
      w1 _ (by omega), Nat.testBit_xor]
  · intro addr haddr
    apply o1
    unfold PackedRow.owns at haddr ⊢
    omega
  · intro i hi
    rw [PackedRow.get_eq_testBit, PackedRow.get_eq_testBit, w2 _ (by omega), w1 _ (by omega),
      bw _ (by omega), Nat.xor_cancel_right]
  · rw [t2, t1, bt, Nat.xor_cancel_right]

theorem packed_row_xor_assign_witness :
    8 ≤ Example8.a.mp ∧ 8 ≤ Example8.b.mp ∧ Example8.a.size = Example8.b.size
    ∧ (Example8.a.mp + 8 * Example8.a.size ≤ Example8.b.mp - 8
      ∨ Example8.b.mp + 8 * Example8.b.size ≤ Example8.a.mp - 8)
    ∧ (∀ i, i < 64 * Example8.a.size →
      Example8.a.get (PackedRow.xor_assign Example8.a Example8.b Example8.mem) i
        = Bool.xor (Example8.a.get Example8.mem i) (Example8.b.get Example8.mem i))
    ∧ Example8.a.is_true (PackedRow.xor_assign Example8.a Example8.b Example8.mem)
      = Example8.a.is_true Example8.mem ^^^ Example8.b.is_true Example8.mem
    ∧ (∀ addr, Example8.b.owns addr →
      PackedRow.xor_assign Example8.a Example8.b Example8.mem addr = Example8.mem addr)
    ∧ (∀ i, i < 64 * Example8.a.size →
      Example8.a.get (PackedRow.xor_assign Example8.a Example8.b
        (PackedRow.xor_assign Example8.a Example8.b Example8.mem)) i
        = Example8.a.get Example8.mem i)
    ∧ Example8.a.is_true (PackedRow.xor_assign Example8.a Example8.b
        (PackedRow.xor_assign Example8.a Example8.b Example8.mem))
      = Example8.a.is_true Example8.mem :=
  ⟨by decide, by decide, rfl, by decide,
    packed_row_xor_assign Example8.a Example8.b Example8.mem (by decide) (by decide) rfl
      (by decide)⟩

/-- The run of `a ^= b` on the rows of `Example8`: the right-hand side and the bit of
column `0` of `a` become one, `b` keeps both, and a second `a ^= b` clears them in `a`.
With `b` in the place of `a`, `b ^= b` clears the row `b`. -/
theorem Example8.xor_assign_run :
    (Example8.a.is_true (PackedRow.xor_assign Example8.a Example8.b Example8.mem),
      Example8.a.get (PackedRow.xor_assign Example8.a Example8.b Example8.mem) 0,
      Example8.b.is_true (PackedRow.xor_assign Example8.a Example8.b Example8.mem),
      Example8.b.get (PackedRow.xor_assign Example8.a Example8.b Example8.mem) 0)
      = (1, true, 1, true)
    ∧ (Example8.a.is_true (PackedRow.xor_assign Example8.a Example8.b
          (PackedRow.xor_assign Example8.a Example8.b Example8.mem)),
        Example8.a.get (PackedRow.xor_assign Example8.a Example8.b
          (PackedRow.xor_assign Example8.a Example8.b Example8.mem)) 0)
      = (0, false)
    ∧ (Example8.b.is_true (PackedRow.xor_assign Example8.b Example8.b Example8.mem),
        Example8.b.get (PackedRow.xor_assign Example8.b Example8.b Example8.mem) 0)
      = (0, false) := by
  refine ⟨?_, ?_, ?_⟩ <;> decide!

/-! ## C34: `lit_diff_watches` -/

namespace BVA

/-- The pair that `lit_diff_watches(a, b)` returns when `seen` is zero at the literals of
`a`. -/
theorem lit_diff_watches_snd_of_clear (B : BVA) (a b : OccurClause)
    (hs : ∀ l ∈ B.solver.occ_lits a, B.seen l.toInt = 0) :
    (B.lit_diff_watches a b).2
      = lit_pair.of_diff
          ((B.solver.occ_lits a).filter (fun l => decide (l ∉ B.solver.occ_lits b))) := by
  have hf : (B.solver.occ_lits a).filter
        (fun l => decide (((B.solver.occ_lits b).foldl
          (fun s lit => setAt s lit.toInt 1) B.seen) l.toInt = 0))
      = (B.solver.occ_lits a).filter (fun l => decide (l ∉ B.solver.occ_lits b)) := by
    apply List.filter_congr
    intro l hl
    rw [foldl_setAt_mem_map, hs l hl]
    by_cases h : l ∈ B.solver.occ_lits b
    · have : l.toInt ∈ (B.solver.occ_lits b).map Lit.toInt := List.mem_map_of_mem _ h
      simp [this, h]
    · have : l.toInt ∉ (B.solver.occ_lits b).map Lit.toInt := by
        intro hm
        obtain ⟨l2, hl2, he⟩ := List.mem_map.1 hm
        exact h (Lit.toInt_injective he ▸ hl2)
      simp [this, h]
  unfold lit_diff_watches
  simp only []
  rw [foldl_check_seen_filter, hf]
  generalize (B.solver.occ_lits a).filter (fun l => decide (l ∉ B.solver.occ_lits b)) = xs
  match xs with
  | [] => simp [lit_pair.of_diff, lit_pair.of_lit]
  | [x] => simp [lit_pair.of_diff, check_seen]
  | [x, y] => simp [lit_pair.of_diff, check_seen]
  | x :: y :: z :: t =>
    have h3 := foldl_check_seen_fst (x :: y :: z :: t) (0, ⟨lit_Undef, lit_Undef⟩)
    have : ¬ (1 ≤ ((x :: y :: z :: t).foldl (check_seen (fun _ => 0))
          (0, ⟨lit_Undef, lit_Undef⟩)).1
        ∧ ((x :: y :: z :: t).foldl (check_seen (fun _ => 0))
          (0, ⟨lit_Undef, lit_Undef⟩)).1 ≤ 2) := by
      rw [h3]
      simp only [List.length_cons]
      omega
    rw [if_neg this]
    simp [lit_pair.of_diff, lit_pair.of_lit]

/-- The array `seen` after `lit_diff_watches(a, b)`: the entries of the literals of `b`,
which the call has set, are zero, and the other entries are as before. -/
theorem lit_diff_watches_seen_after (B : BVA) (a b : OccurClause) (j : Nat) :
    (B.lit_diff_watches a b).1.seen j
      = if j ∈ (B.solver.occ_lits b).map Lit.toInt then 0 else B.seen j := by
  have : ((B.solver.occ_lits b).foldl (fun s lit => setAt s lit.toInt 0)
      ((B.solver.occ_lits b).foldl (fun s lit => setAt s lit.toInt 1) B.seen)) j
      = if j ∈ (B.solver.occ_lits b).map Lit.toInt then 0 else B.seen j := by
    rw [foldl_setAt_mem_map, foldl_setAt_mem_map]
    split <;> rfl
  unfold lit_diff_watches
  simp only []
  split <;> exact this

end BVA

/-- C34: `lit_diff_watches(a, b)`, called with `a.lit != b.lit` and with `seen` zero at the
literals of `a`, returns the literals of the clause `a` that do not occur in the clause
`b`: the pair `(l, lit_Undef)` when there is exactly one, the pair `(l1, l2)` in the order
of the clause when there are exactly two, and the pair of `lit_Undef` when there are none
or more than two.  The entries of `seen` that it sets, those of the literals of `b`, are
zero when it returns, and it leaves the other entries as they were. -/
theorem lit_diff_watches_spec (B : BVA) (a b : OccurClause) (_hlit : a.lit ≠ b.lit)
    (hs : ∀ l ∈ B.solver.occ_lits a, B.seen l.toInt = 0) :
    (∀ l, (B.solver.occ_lits a).filter (fun l => decide (l ∉ B.solver.occ_lits b)) = [l] →
      (B.lit_diff_watches a b).2 = ⟨l, lit_Undef⟩)
    ∧ (∀ l1 l2,
      (B.solver.occ_lits a).filter (fun l => decide (l ∉ B.solver.occ_lits b)) = [l1, l2] →
      (B.lit_diff_watches a b).2 = ⟨l1, l2⟩)
    ∧ (((B.solver.occ_lits a).filter (fun l => decide (l ∉ B.solver.occ_lits b))).length = 0
        ∨ 2 < ((B.solver.occ_lits a).filter
            (fun l => decide (l ∉ B.solver.occ_lits b))).length →
      (B.lit_diff_watches a b).2 = ⟨lit_Undef, lit_Undef⟩)
    ∧ (∀ j, (B.lit_diff_watches a b).1.seen j
        = if j ∈ (B.solver.occ_lits b).map Lit.toInt then 0 else B.seen j) := by
  have h := BVA.lit_diff_watches_snd_of_clear B a b hs
  refine ⟨?_, ?_, ?_, BVA.lit_diff_watches_seen_after B a b⟩
  · intro l hl
    rw [h, hl]
    rfl
  · intro l1 l2 hl
    rw [h, hl]
    rfl
  · intro hl
    rw [h]
    generalize (B.solver.occ_lits a).filter (fun l => decide (l ∉ B.solver.occ_lits b)) = xs at hl
    match xs, hl with
    | [], _ => rfl
    | [x], hl => simp at hl
    | [x, y], hl => simp at hl
    | x :: y :: z :: t, _ => rfl

/-- On `Example2`, for the clause `(a ∨ f)` watched by `a` and the clause `(f ∨ b)`
watched by `f`, the first has the one literal `a` that the second lacks. -/
theorem lit_diff_watches_spec_witness :
    (⟨Example.a, .binary Example.f false⟩ : OccurClause).lit
        ≠ (⟨Example.f, .binary Example.b false⟩ : OccurClause).lit
    ∧ (∀ l ∈ Example2.bva.solver.occ_lits ⟨Example.a, .binary Example.f false⟩,
        Example2.bva.seen l.toInt = 0)
    ∧ (Example2.bva.lit_diff_watches ⟨Example.a, .binary Example.f false⟩
        ⟨Example.f, .binary Example.b false⟩).2 = ⟨Example.a, lit_Undef⟩ :=
  ⟨by decide, by decide,
    (lit_diff_watches_spec Example2.bva ⟨Example.a, .binary Example.f false⟩
      ⟨Example.f, .binary Example.b false⟩ (by decide) (by decide)).1 Example.a (by decide)⟩

/-! ## C33: `least_occurring_except` -/

namespace BVA

theorem foldl_check_smallest_filter (S : Solver) (s : Nat → Nat) (ls : List Lit) :
    ∀ acc : Lit × Nat,
      ls.foldl (check_smallest S s) acc
        = (ls.filter (fun l => decide (s l.toInt = 0))).foldl
            (check_smallest S (fun _ => 0)) acc := by
  induction ls with
  | nil => intro acc; rfl
  | cons x xs ih =>
    intro acc
    by_cases h : s x.toInt = 0
    · simp only [List.foldl_cons, List.filter_cons, h, decide_True, ite_true]
      rw [ih]
      simp [check_smallest, h]
    · simp only [List.foldl_cons, List.filter_cons, h, decide_False]
      rw [ih]
      simp [check_smallest, h]

/-- The scan of `check_smallest` over unmarked literals, started with `(r, v)`: either no
literal has a watch list shorter than `v` and the pair is kept, or the result is the first
literal of the list whose watch list is shortest. -/
theorem foldl_check_smallest_spec (S : Solver) :
    ∀ (xs : List Lit) (r : Lit) (v : Nat),
      ((xs.foldl (check_smallest S (fun _ => 0)) (r, v)) = (r, v)
        ∧ ∀ l ∈ xs, v ≤ (S.watches l.toInt).length)
      ∨ (∃ pre post,
          xs = pre ++ (xs.foldl (check_smallest S (fun _ => 0)) (r, v)).1 :: post
          ∧ (S.watches (xs.foldl (check_smallest S (fun _ => 0)) (r, v)).1.toInt).length < v
          ∧ (∀ l ∈ pre,
              (S.watches (xs.foldl (check_smallest S (fun _ => 0)) (r, v)).1.toInt).length
                < (S.watches l.toInt).length)
          ∧ (∀ l ∈ post,
              (S.watches (xs.foldl (check_smallest S (fun _ => 0)) (r, v)).1.toInt).length
                ≤ (S.watches l.toInt).length)) := by
  intro xs
  induction xs with
  | nil => intro r v; exact Or.inl ⟨rfl, fun _ h => absurd h (by simp)⟩
  | cons x xs ih =>
    intro r v
    rw [List.foldl_cons]
    by_cases hx : (S.watches x.toInt).length < v
    · have hstep : check_smallest S (fun _ => 0) (r, v) x = (x, (S.watches x.toInt).length) := by
        simp [check_smallest, hx]
      rw [hstep]
      rcases ih x (S.watches x.toInt).length with ⟨e, hall⟩ | ⟨pre, post, e, h1, h2, h3⟩
      · right
        rw [e]
        exact ⟨[], xs, rfl, hx, fun _ h => absurd h (by simp), hall⟩
      · right
        refine ⟨x :: pre, post, ?_, by omega, ?_, h3⟩
        · rw [List.cons_append, ← e]
        · intro l hl
          rcases List.mem_cons.mp hl with e2 | e2
          · rw [e2]; exact h1
          · exact h2 l e2
    · have hstep : check_smallest S (fun _ => 0) (r, v) x = (r, v) := by
        simp [check_smallest, hx]
      rw [hstep]
      rcases ih r v with ⟨e, hall⟩ | ⟨pre, post, e, h1, h2, h3⟩
      · left
        refine ⟨e, ?_⟩
        intro l hl
        rcases List.mem_cons.mp hl with e2 | e2
        · rw [e2]; omega
        · exact hall l e2
      · right
        refine ⟨x :: pre, post, ?_, h1, ?_, h3⟩
        · rw [List.cons_append, ← e]
        · intro l hl
          rcases List.mem_cons.mp hl with e2 | e2
          · rw [e2]; omega
          · exact h2 l e2

/-- The array `seen` after `least_occurring_except`: the entries of the literals of
`m_lits`, which the call has set, are zero, and the other entries are as before. -/
theorem least_occurring_except_seen_after (B : BVA) (c : OccurClause) (j : Nat) :
    (B.least_occurring_except c).1.seen j
      = if j ∈ B.m_lits.flatMap (fun p => p.lits.map Lit.toInt) then 0 else B.seen j := by
  unfold least_occurring_except
  show mark_m_lits B.m_lits 0 (mark_m_lits B.m_lits 1 B.seen) j = _
  rw [mark_m_lits_apply, mark_m_lits_apply]
  split <;> rfl

theorem mem_flatMap_lits_toInt (m_lits : List lit_pair) (l : Lit) :
    l.toInt ∈ m_lits.flatMap (fun p => p.lits.map Lit.toInt)
      ↔ l ∈ m_lits.flatMap lit_pair.lits := by
  simp only [List.mem_flatMap, List.mem_map]
  constructor
  · rintro ⟨p, hp, l2, hl2, he⟩
    exact ⟨p, hp, Lit.toInt_injective he ▸ hl2⟩
  · rintro ⟨p, hp, hl⟩
    exact ⟨p, hp, l, hl, rfl⟩

end BVA

/-- C33: `least_occurring_except(c)`, called with `seen` zero at the literals of `c` and
with watch lists shorter than the largest `size_t`.  The candidates are the literals of `c`
other than the watched literal `c.lit` that occur in no pair of `m_lits`, in the order of
the clause.  Without a candidate the result is `lit_Undef`; otherwise it is a candidate
whose watch list is no longer than that of any candidate and shorter than that of every
candidate before it.  The entries of `seen` that the call sets, those of the literals of
`m_lits`, are zero when it returns, and it leaves the other entries as they were. -/
theorem least_occurring_except_spec (B : BVA) (c : OccurClause)
    (hs : ∀ l ∈ B.solver.occ_lits_except_watched c, B.seen l.toInt = 0)
    (hw : ∀ l ∈ B.solver.occ_lits_except_watched c,
      (B.solver.watches l.toInt).length < 2 ^ 64 - 1) :
    ((B.solver.occ_lits_except_watched c).filter
        (fun l => decide (l ∉ B.m_lits.flatMap lit_pair.lits)) = [] →
      (B.least_occurring_except c).2 = lit_Undef)
    ∧ ((B.solver.occ_lits_except_watched c).filter
        (fun l => decide (l ∉ B.m_lits.flatMap lit_pair.lits)) ≠ [] →
      ∃ pre post,
        (B.solver.occ_lits_except_watched c).filter
            (fun l => decide (l ∉ B.m_lits.flatMap lit_pair.lits))
          = pre ++ (B.least_occurring_except c).2 :: post
        ∧ (∀ l ∈ pre, (B.solver.watches (B.least_occurring_except c).2.toInt).length
            < (B.solver.watches l.toInt).length)
        ∧ (∀ l ∈ post, (B.solver.watches (B.least_occurring_except c).2.toInt).length
            ≤ (B.solver.watches l.toInt).length))
    ∧ (∀ j, (B.least_occurring_except c).1.seen j
        = if j ∈ B.m_lits.flatMap (fun p => p.lits.map Lit.toInt) then 0 else B.seen j) := by
  have hf : (B.solver.occ_lits_except_watched c).filter
        (fun l => decide (BVA.mark_m_lits B.m_lits 1 B.seen l.toInt = 0))
      = (B.solver.occ_lits_except_watched c).filter
        (fun l => decide (l ∉ B.m_lits.flatMap lit_pair.lits)) := by
    apply List.filter_congr
    intro l hl
    rw [BVA.mark_m_lits_apply, hs l hl]
    by_cases h : l ∈ B.m_lits.flatMap lit_pair.lits
    · have := (BVA.mem_flatMap_lits_toInt B.m_lits l).mpr h
      simp [this, h]
    · have : l.toInt ∉ B.m_lits.flatMap (fun p => p.lits.map Lit.toInt) :=
        fun h2 => h ((BVA.mem_flatMap_lits_toInt B.m_lits l).mp h2)
      simp [this, h]
  have hres : (B.least_occurring_except c).2
      = (((B.solver.occ_lits_except_watched c).filter
          (fun l => decide (l ∉ B.m_lits.flatMap lit_pair.lits))).foldl
          (BVA.check_smallest B.solver (fun _ => 0)) (lit_Undef, 2 ^ 64 - 1)).1 := by
    unfold BVA.least_occurring_except
    simp only []
    rw [BVA.foldl_check_smallest_filter, hf]
  have hw2 : ∀ l ∈ (B.solver.occ_lits_except_watched c).filter
      (fun l => decide (l ∉ B.m_lits.flatMap lit_pair.lits)),
      (B.solver.watches l.toInt).length < 2 ^ 64 - 1 :=
    fun l hl => hw l (List.mem_filter.mp hl).1
  rw [hres]
  generalize (B.solver.occ_lits_except_watched c).filter
    (fun l => decide (l ∉ B.m_lits.flatMap lit_pair.lits)) = xs at hw2
  refine ⟨?_, ?_, BVA.least_occurring_except_seen_after B c⟩
  · intro h
    rw [h]
    rfl
  · intro hne
    rcases BVA.foldl_check_smallest_spec B.solver xs lit_Undef (2 ^ 64 - 1) with
      ⟨_, hall⟩ | ⟨pre, post, e, _, h2, h3⟩
    · exfalso
      cases xs with
      | nil => exact hne rfl
      | cons x t =>
        have h1 := hall x (List.mem_cons_self _ _)
        have h2 := hw2 x (List.mem_cons_self _ _)
        omega
    · exact ⟨pre, post, e, h2, h3⟩

/-- On `Example2`, in the first round for the literal `a`: of the literals `c, d, e` of the
clause `(a ∨ c ∨ d ∨ e)`, whose watch lists have two entries each, the first is
returned. -/
theorem least_occurring_except_spec_witness :
    (∀ l ∈ Example2.bva_round1.solver.occ_lits_except_watched ⟨Example.a, .clause 0 Example.a⟩,
      Example2.bva_round1.seen l.toInt = 0)
    ∧ (∀ l ∈ Example2.bva_round1.solver.occ_lits_except_watched
          ⟨Example.a, .clause 0 Example.a⟩,
        (Example2.bva_round1.solver.watches l.toInt).length < 2 ^ 64 - 1)
    ∧ (Example2.bva_round1.solver.occ_lits_except_watched
          ⟨Example.a, .clause 0 Example.a⟩).filter
        (fun l => decide (l ∉ Example2.bva_round1.m_lits.flatMap lit_pair.lits))
      = [Example.c, Example.d, Example.e]
    ∧ (Example2.bva_round1.least_occurring_except ⟨Example.a, .clause 0 Example.a⟩).2
      = Example.c
    ∧ ∃ pre post,
        (Example2.bva_round1.solver.occ_lits_except_watched
            ⟨Example.a, .clause 0 Example.a⟩).filter
            (fun l => decide (l ∉ Example2.bva_round1.m_lits.flatMap lit_pair.lits))
          = pre ++ (Example2.bva_round1.least_occurring_except
              ⟨Example.a, .clause 0 Example.a⟩).2 :: post
        ∧ (∀ l ∈ pre, (Example2.bva_round1.solver.watches
              (Example2.bva_round1.least_occurring_except
                ⟨Example.a, .clause 0 Example.a⟩).2.toInt).length
            < (Example2.bva_round1.solver.watches l.toInt).length)
        ∧ (∀ l ∈ post, (Example2.bva_round1.solver.watches
              (Example2.bva_round1.least_occurring_except
                ⟨Example.a, .clause 0 Example.a⟩).2.toInt).length
            ≤ (Example2.bva_round1.solver.watches l.toInt).length) :=
  ⟨by decide!, by decide!, by decide!, by decide!,
    (least_occurring_except_spec Example2.bva_round1 ⟨Example.a, .clause 0 Example.a⟩
      (by decide!) (by decide!)).2.1 (by decide!)⟩

/-! ## C32: `most_occuring_lit_in_potential` -/

namespace BVA

theorem lit_pair.lt_iff (a b : lit_pair) :
    lit_pair.lt a b = true
      ↔ a.lit1.toInt < b.lit1.toInt
        ∨ (a.lit1.toInt = b.lit1.toInt ∧ a.lit2.toInt < b.lit2.toInt) := by
  unfold lit_pair.lt Lit.lt
  by_cases h1 : a.lit1 = b.lit1
  · simp [h1]
  · have h3 : a.lit1.toInt ≠ b.lit1.toInt := fun e => h1 (Lit.toInt_injective e)
    have h4 : (a.lit1 != b.lit1) = true := by simpa using h1
    simp only [h4, if_true, decide_eq_true_eq]
    omega

theorem lit_pair.lt_eq_false_iff (a b : lit_pair) :
    lit_pair.lt a b = false
      ↔ ¬ (a.lit1.toInt < b.lit1.toInt
        ∨ (a.lit1.toInt = b.lit1.toInt ∧ a.lit2.toInt < b.lit2.toInt)) := by
  rw [← lit_pair.lt_iff]
  simp

theorem lit_pair.lt_trichotomy {a b : lit_pair} (h : a ≠ b) :
    lit_pair.lt a b = true ∨ lit_pair.lt b a = true := by
  rw [lit_pair.lt_iff, lit_pair.lt_iff]
  have : a.lit1.toInt ≠ b.lit1.toInt ∨ a.lit2.toInt ≠ b.lit2.toInt := by
    by_contra hc
    apply h
    have e1 : a.lit1 = b.lit1 := Lit.toInt_injective (by omega)
    have e2 : a.lit2 = b.lit2 := Lit.toInt_injective (by omega)
    cases a; cases b
    simp_all
  omega

theorem lit_pair.lt_total (a b : lit_pair) :
    lit_pair.lt b a = false ∨ lit_pair.lt a b = false := by
  rw [lit_pair.lt_eq_false_iff, lit_pair.lt_eq_false_iff]
  omega

theorem lit_pair.lt_negtrans (a b c : lit_pair) (h1 : lit_pair.lt b a = false)
    (h2 : lit_pair.lt c b = false) : lit_pair.lt c a = false := by
  rw [lit_pair.lt_eq_false_iff] at h1 h2 ⊢
  omega

theorem lit_pair.lt_irrefl (a : lit_pair) : lit_pair.lt a a = false := by
  rcases lit_pair.lt_total a a with h | h <;> exact h

/-- The end of a run in the counting loop: with the run counted in, the larger of `num` and
`largest` is the largest number of occurrences, attained by the pair kept with it. -/
theorem ScanInv.close {P0 : List lit_pair} {st : Nat × lit_pair × lit_pair × Nat}
    (h : ScanInv P0 st) :
    (∀ q, (P0 ++ List.replicate st.2.2.2 st.2.2.1).count q
        ≤ (if st.2.2.2 ≥ st.1 then st.2.2.2 else st.1))
    ∧ (P0 ++ List.replicate st.2.2.2 st.2.2.1).count
        (if st.2.2.2 ≥ st.1 then st.2.2.1 else st.2.1)
      = (if st.2.2.2 ≥ st.1 then st.2.2.2 else st.1)
    ∧ (∀ q ∈ P0 ++ List.replicate st.2.2.2 st.2.2.1,
        (P0 ++ List.replicate st.2.2.2 st.2.2.1).count q
          = (if st.2.2.2 ≥ st.1 then st.2.2.2 else st.1) →
        q ≠ (if st.2.2.2 ≥ st.1 then st.2.2.1 else st.2.1) →
        lit_pair.lt q (if st.2.2.2 ≥ st.1 then st.2.2.1 else st.2.1) = true) := by
  obtain ⟨largest, most, last, num⟩ := st
  simp only [] at h ⊢
  have hlast : last ∉ P0 := by
    intro hm
    have := h.below last hm
    simp only [] at this
    rw [lit_pair.lt_irrefl] at this
    exact absurd this (by simp)
  have hc0 : P0.count last = 0 := List.count_eq_zero_of_not_mem hlast
  have hcount : ∀ q, (P0 ++ List.replicate num last).count q
      = P0.count q + (if last = q then num else 0) := by
    intro q
    rw [List.count_append, List.count_replicate]
    by_cases e : last = q <;> simp [e]
  have hb := h.bound
  have ha := h.attained
  have ht := h.ties
  simp only [] at hb ha ht
  by_cases hn : num ≥ largest
  · simp only [hn, if_true]
    refine ⟨?_, ?_, ?_⟩
    · intro q
      rw [hcount]
      by_cases e : last = q
      · rw [← e, hc0]; simp
      · simp only [e, if_false]
        have := hb q
        omega
    · rw [hcount, hc0]; simp
    · intro q hq hcq hne
      rcases List.mem_append.mp hq with hq1 | hq1
      · exact h.below q hq1
      · exact absurd (List.eq_of_mem_replicate hq1) hne
  · simp only [hn, if_false]
    have hmP : most ∈ P0 := by
      apply List.count_pos_iff.mp
      omega
    have hml : last ≠ most := fun e => hlast (e ▸ hmP)
    refine ⟨?_, ?_, ?_⟩
    · intro q
      rw [hcount]
      by_cases e : last = q
      · rw [← e, hc0]; simp; omega
      · simp only [e, if_false]
        have := hb q
        omega
    · rw [hcount]
      simp [hml, ha]
    · intro q hq hcq hne
      rw [hcount] at hcq
      by_cases e : last = q
      · rw [← e, hc0] at hcq
        simp at hcq
        omega
      · simp only [e, if_false, Nat.add_zero] at hcq
        have hq1 : q ∈ P0 := by
          rcases List.mem_append.mp hq with hq1 | hq1
          · exact hq1
          · exact absurd (List.eq_of_mem_replicate hq1).symm e
        exact ht q hq1 hcq hne

/-- One round of the counting loop on the next pair of a list in ascending order. -/
theorem ScanInv.step {P0 : List lit_pair} {st : Nat × lit_pair × lit_pair × Nat}
    (h : ScanInv P0 st) (pot : PotentialClause)
    (hs : ∀ q ∈ P0 ++ List.replicate st.2.2.2 st.2.2.1, lit_pair.lt pot.lits q = false) :
    ∃ P1, P1 ++ List.replicate (most_occuring_scan st pot).2.2.2
          (most_occuring_scan st pot).2.2.1
        = (P0 ++ List.replicate st.2.2.2 st.2.2.1) ++ [pot.lits]
      ∧ ScanInv P1 (most_occuring_scan st pot) := by
  have hclose := h.close
  obtain ⟨largest, most, last, num⟩ := st
  simp only [] at h hs hclose ⊢
  unfold most_occuring_scan
  simp only []
  by_cases hx : last = pot.lits
  · have hb : (last != pot.lits) = false := by simpa using hx
    simp only [hb, Bool.false_eq_true, if_false]
    refine ⟨P0, ?_, ?_⟩
    · rw [List.append_assoc, ← hx]
      congr 1
      rw [List.replicate_succ', List.append_cancel_left_eq]
    · exact ⟨fun e => absurd e (by simp), h.below, h.bound, h.attained, h.ties⟩
  · have hb : (last != pot.lits) = true := by simpa using hx
    simp only [hb, if_true]
    have hnot : pot.lits ∉ P0 ++ List.replicate num last := by
      intro hm
      rcases List.mem_append.mp hm with hm1 | hm1
      · have h1 := h.below _ hm1
        simp only [] at h1
        have hnum : num ≠ 0 := by
          intro e
          have := h.fresh e
          rw [this] at hm1
          exact absurd hm1 (by simp)
        have hl : last ∈ P0 ++ List.replicate num last :=
          List.mem_append_right _ (List.mem_replicate.mpr ⟨hnum, rfl⟩)
        have := hs last hl
        rw [h1] at this
        exact absurd this (by simp)
      · exact hx (List.eq_of_mem_replicate hm1).symm
    have hbelow : ∀ q ∈ P0 ++ List.replicate num last, lit_pair.lt q pot.lits = true := by
      intro q hq
      have hne : q ≠ pot.lits := fun e => hnot (e ▸ hq)
      rcases lit_pair.lt_trichotomy hne with e | e
      · exact e
      · rw [hs q hq] at e
        exact absurd e (by simp)
    by_cases hn : num ≥ largest
    · simp only [hn, if_true] at hclose ⊢
      exact ⟨P0 ++ List.replicate num last, rfl,
        ⟨fun e => absurd e (by simp), hbelow, hclose.1, hclose.2.1, hclose.2.2⟩⟩
    · simp only [hn, if_false] at hclose ⊢
      exact ⟨P0 ++ List.replicate num last, rfl,
        ⟨fun e => absurd e (by simp), hbelow, hclose.1, hclose.2.1, hclose.2.2⟩⟩

/-- The counting loop over entries whose pairs are in ascending order. -/
theorem ScanInv.fold :
    ∀ (L : List PotentialClause) (P0 : List lit_pair) (st : Nat × lit_pair × lit_pair × Nat),
      ScanInv P0 st →
      ((P0 ++ List.replicate st.2.2.2 st.2.2.1) ++ L.map (fun pot => pot.lits)).Pairwise
        (fun a b => lit_pair.lt b a = false) →
      ∃ P1, P1 ++ List.replicate (L.foldl most_occuring_scan st).2.2.2
            (L.foldl most_occuring_scan st).2.2.1
          = (P0 ++ List.replicate st.2.2.2 st.2.2.1) ++ L.map (fun pot => pot.lits)
        ∧ ScanInv P1 (L.foldl most_occuring_scan st) := by
  intro L
  induction L with
  | nil => intro P0 st h _; exact ⟨P0, by simp, h⟩
  | cons pot rest ih =>
    intro P0 st h hp
    rw [List.map_cons] at hp
    have hs : ∀ q ∈ P0 ++ List.replicate st.2.2.2 st.2.2.1, lit_pair.lt pot.lits q = false := by
      intro q hq
      have := List.pairwise_append.mp hp
      exact this.2.2 q hq pot.lits (List.mem_cons_self _ _)
    obtain ⟨P1, e1, h1⟩ := h.step pot hs
    have hp2 : ((P1 ++ List.replicate (most_occuring_scan st pot).2.2.2
        (most_occuring_scan st pot).2.2.1) ++ rest.map (fun pot => pot.lits)).Pairwise
        (fun a b => lit_pair.lt b a = false) := by
      rw [e1, List.append_assoc]
      exact hp
    obtain ⟨P2, e2, h2⟩ := ih P1 _ h1 hp2
    refine ⟨P2, ?_, ?_⟩
    · rw [List.foldl_cons, e2, e1, List.map_cons, List.append_assoc]
      rfl
    · rw [List.foldl_cons]
      exact h2

end BVA

namespace BVA

theorem filterMap_getElem?_range {α : Type} (l : List α) :
    (List.range l.length).filterMap (fun i => l[i]?) = l := by
  induction l with
  | nil => rfl
  | cons x t ih =>
    rw [List.length_cons, List.range_succ_eq_map, List.filterMap_cons]
    simp only [List.getElem?_cons_zero, List.filterMap_map]
    congr 1
    have : ((fun i => (x :: t)[i]?) ∘ Nat.succ) = fun i => t[i]? := by
      funext i
      simp
    rw [this]
    exact ih

/-- Whatever the list of positions, `arrange` gives the entries of the list, each once. -/
theorem arrange_perm {α : Type} (order : List Nat) (l : List α) :
    (arrange order l).Perm l := by
  unfold arrange
  split
  · rename_i h
    obtain ⟨h1, h2, h3⟩ := h
    have hsub : order ⊆ List.range l.length :=
      fun i hi => List.mem_range.2 (h3 i hi)
    have hperm : order.Perm (List.range l.length) :=
      (List.subperm_of_subset h2 hsub).perm_of_length_le (by rw [List.length_range, h1])
    have := hperm.filterMap (fun i => l[i]?)
    rw [filterMap_getElem?_range] at this
    exact this
  · exact List.Perm.refl _

/-- Whatever `sort_order` says, `sort_arrange` gives the entries of the list, each once. -/
theorem sort_arrange_perm (E : Env) (l : List PotentialClause) :
    (sort_arrange E l).Perm l :=
  arrange_perm _ l

/-- With the order of the positions as `sort_order`, `sort_arrange` leaves the list as it
is. -/
theorem sort_arrange_range (E : Env) (l : List PotentialClause)
    (h : E.sort_order l = List.range l.length) : sort_arrange E l = l := by
  unfold sort_arrange arrange
  rw [h]
  split
  · exact filterMap_getElem?_range l
  · rfl

/-- The entries of `potential` as the counting loop of `most_occuring_lit_in_potential`
reads them, a permutation of `potential` whose pairs are in ascending order, and the result
in terms of the state in which the loop ends. -/
theorem most_occuring_lit_in_potential_unfold (E : Env) (B : BVA) :
    ∃ L : List PotentialClause,
      L.Perm B.potential
      ∧ (L.map (fun pot => pot.lits)).Pairwise (fun a b => lit_pair.lt b a = false)
      ∧ (most_occuring_lit_in_potential E B).2
        = (if (L.foldl most_occuring_scan
                (0, ⟨lit_Undef, lit_Undef⟩, ⟨lit_Undef, lit_Undef⟩, 0)).2.2.2
              ≥ (L.foldl most_occuring_scan
                (0, ⟨lit_Undef, lit_Undef⟩, ⟨lit_Undef, lit_Undef⟩, 0)).1
          then ((L.foldl most_occuring_scan
                (0, ⟨lit_Undef, lit_Undef⟩, ⟨lit_Undef, lit_Undef⟩, 0)).2.2.1,
              (L.foldl most_occuring_scan
                (0, ⟨lit_Undef, lit_Undef⟩, ⟨lit_Undef, lit_Undef⟩, 0)).2.2.2)
          else ((L.foldl most_occuring_scan
                (0, ⟨lit_Undef, lit_Undef⟩, ⟨lit_Undef, lit_Undef⟩, 0)).2.1,
              (L.foldl most_occuring_scan
                (0, ⟨lit_Undef, lit_Undef⟩, ⟨lit_Undef, lit_Undef⟩, 0)).1)) := by
  by_cases h : B.potential.length > 1
  · refine ⟨(sort_arrange E B.potential).insertionSort
        (fun a b => lit_pair.lt b.lits a.lits = false),
      (List.perm_insertionSort _ _).trans (sort_arrange_perm E B.potential), ?_, ?_⟩
    · rw [List.pairwise_map]
      exact @List.sorted_insertionSort _ (fun a b => lit_pair.lt b.lits a.lits = false) _
        ⟨fun a b => lit_pair.lt_total a.lits b.lits⟩
        ⟨fun a b c h1 h2 => lit_pair.lt_negtrans a.lits b.lits c.lits h1 h2⟩
        (sort_arrange E B.potential)
    · unfold most_occuring_lit_in_potential
      simp only [h, if_true]
      split <;> rfl
  · refine ⟨B.potential, List.Perm.refl _, ?_, ?_⟩
    · match hp : B.potential with
      | [] => simp
      | [x] => simp
      | x :: y :: t =>
        rw [hp] at h
        simp at h
    · unfold most_occuring_lit_in_potential
      simp only [h, if_false]
      split <;> rfl

end BVA

/-- The pair and the number that `most_occuring_lit_in_potential` returns: no pair of
`potential` occurs more often than `largest` times, the returned pair occurs `largest`
times, and the pairs that occur as often are below it in the order of the sort. -/
theorem BVA.most_occuring_lit_in_potential_counts (E : Env) (B : BVA) :
    (∀ p, (B.potential.map (fun pot => pot.lits)).count p
        ≤ (BVA.most_occuring_lit_in_potential E B).2.2)
    ∧ (B.potential.map (fun pot => pot.lits)).count
        (BVA.most_occuring_lit_in_potential E B).2.1
      = (BVA.most_occuring_lit_in_potential E B).2.2
    ∧ (∀ p ∈ B.potential.map (fun pot => pot.lits),
        (B.potential.map (fun pot => pot.lits)).count p
          = (BVA.most_occuring_lit_in_potential E B).2.2 →
        p ≠ (BVA.most_occuring_lit_in_potential E B).2.1 →
        BVA.lit_pair.lt p (BVA.most_occuring_lit_in_potential E B).2.1 = true) := by
  obtain ⟨L, hperm, hsorted, hres⟩ := BVA.most_occuring_lit_in_potential_unfold E B
  have hcount : ∀ p, (B.potential.map (fun pot => pot.lits)).count p
      = (L.map (fun pot => pot.lits)).count p :=
    fun p => ((hperm.map _).count_eq p).symm
  have hmem : ∀ p, p ∈ B.potential.map (fun pot => pot.lits)
      ↔ p ∈ L.map (fun pot => pot.lits) :=
    fun p => ((hperm.map _).mem_iff).symm
  have hinit : BVA.ScanInv [] (0, ⟨lit_Undef, lit_Undef⟩, ⟨lit_Undef, lit_Undef⟩, 0) :=
    ⟨fun _ => rfl, fun _ h => absurd h (by simp), fun _ => by simp, by simp,
      fun _ h => absurd h (by simp)⟩
  obtain ⟨P1, e1, h1⟩ := BVA.ScanInv.fold L [] _ hinit (by simpa using hsorted)
  have hc := h1.close
  rw [e1] at hc
  simp only [List.replicate_zero, List.append_nil, List.nil_append] at hc
  generalize L.foldl BVA.most_occuring_scan
    (0, ⟨lit_Undef, lit_Undef⟩, ⟨lit_Undef, lit_Undef⟩, 0) = st at hres hc
  refine ⟨?_, ?_, ?_⟩
  · intro p
    rw [hcount, hres]
    have := hc.1 p
    by_cases hn : st.2.2.2 ≥ st.1
    · simp only [hn, if_true] at this ⊢; exact this
    · simp only [hn, if_false] at this ⊢; exact this
  · rw [hcount, hres]
    have := hc.2.1
    by_cases hn : st.2.2.2 ≥ st.1
    · simp only [hn, if_true] at this ⊢; exact this
    · simp only [hn, if_false] at this ⊢; exact this
  · intro p hp hcp hne
    rw [hmem] at hp
    rw [hcount, hres] at hcp
    rw [hres] at hne ⊢
    have := hc.2.2 p hp
    by_cases hn : st.2.2.2 ≥ st.1
    · simp only [hn, if_true] at this hcp hne ⊢; exact this hcp hne
    · simp only [hn, if_false] at this hcp hne ⊢; exact this hcp hne

/-- C32: `most_occuring_lit_in_potential` sets `largest` to the largest number of entries
of `potential` that have the same `lit_pair`: no pair occurs more often, and the pair
returned occurs `largest` times.  Among the pairs of `potential` that occur as often, the
returned one is the last in the order of the sort.  For an empty `potential` the pair
`(lit_Undef, lit_Undef)` is returned with `largest = 0`. -/
theorem most_occuring_lit_in_potential_spec (E : Env) (B : BVA) :
    (∀ p, (B.potential.map (fun pot => pot.lits)).count p
        ≤ (BVA.most_occuring_lit_in_potential E B).2.2)
    ∧ (B.potential.map (fun pot => pot.lits)).count
        (BVA.most_occuring_lit_in_potential E B).2.1
      = (BVA.most_occuring_lit_in_potential E B).2.2
    ∧ (∀ p ∈ B.potential.map (fun pot => pot.lits),
        (B.potential.map (fun pot => pot.lits)).count p
          = (BVA.most_occuring_lit_in_potential E B).2.2 →
        p ≠ (BVA.most_occuring_lit_in_potential E B).2.1 →
        BVA.lit_pair.lt p (BVA.most_occuring_lit_in_potential E B).2.1 = true)
    ∧ (B.potential = [] →
        (BVA.most_occuring_lit_in_potential E B).2.1 = ⟨lit_Undef, lit_Undef⟩
        ∧ (BVA.most_occuring_lit_in_potential E B).2.2 = 0) := by
  obtain ⟨h1, h2, h3⟩ := BVA.most_occuring_lit_in_potential_counts E B
  refine ⟨h1, h2, h3, ?_⟩
  intro hnil
  have h0 := BVA.most_occuring_lit_in_potential_nil E B hnil
  refine ⟨?_, h0⟩
  unfold BVA.most_occuring_lit_in_potential
  simp [hnil]

/-- On `Example2`, in the first round for the literal `a`, `potential` has the pair of `b`
three times and the pair of `h` twice, and `most_occuring_lit_in_potential` returns the
pair of `b` with `largest = 3`. -/
theorem Example2.most_occuring_round1 :
    ((BVA.fill_potential Example.env Example2.bva_round1 Example.a).potential.map
        (fun pot => pot.lits),
      (BVA.most_occuring_lit_in_potential Example.env
        (BVA.fill_potential Example.env Example2.bva_round1 Example.a)).2)
      = ([⟨Example.b, lit_Undef⟩, ⟨Example2.h, lit_Undef⟩, ⟨Example.b, lit_Undef⟩,
          ⟨Example2.h, lit_Undef⟩, ⟨Example.b, lit_Undef⟩],
        (⟨Example.b, lit_Undef⟩, 3)) := by
  decide!

/-! ## C35: the clauses matched by `try_bva_on_lit` -/

namespace BVA

theorem remove_duplicates_scan_sublist (S : Solver) :
    ∀ (rest : List OccurClause) (prev : OccurClause),
      (remove_duplicates_scan S prev rest).Sublist rest := by
  intro rest
  induction rest with
  | nil => intro prev; exact List.Sublist.refl _
  | cons next rest ih =>
    intro prev
    simp only [remove_duplicates_scan]
    split
    · exact (ih next).cons₂ _
    · split
      · exact (ih prev).cons _
      · exact (ih next).cons₂ _

theorem remove_duplicates_from_m_cls_mem (E : Env) (B : BVA) (c : OccurClause)
    (h : c ∈ (remove_duplicates_from_m_cls E B).m_cls) : c ∈ B.m_cls := by
  unfold remove_duplicates_from_m_cls at h
  split at h
  · exact h
  · simp only [] at h
    have hmem : ∀ x, x ∈ (arrange (E.mysort_order B.solver B.m_cls) B.m_cls).insertionSort
          (fun a b => mysort B.solver b a = false)
        → x ∈ B.m_cls := fun x hx =>
      (arrange_perm _ B.m_cls).mem_iff.mp ((List.perm_insertionSort _ _).mem_iff.mp hx)
    generalize (arrange (E.mysort_order B.solver B.m_cls) B.m_cls).insertionSort
      (fun a b => mysort B.solver b a = false) = sorted at h hmem
    match sorted, h, hmem with
    | [], h, _ => simp at h
    | first :: rest, h, hmem =>
      simp only [] at h
      rcases List.mem_cons.mp h with e | e
      · rw [e]; exact hmem first (List.mem_cons_self _ _)
      · exact hmem c (List.mem_cons_of_mem _
          ((remove_duplicates_scan_sublist B.solver rest first).subset e))

/-- The state in which the loop of `try_bva_on_lit` starts: `m_lits` holds the literal and
every entry of `m_cls` is an irredundant entry of its watch list. -/
theorem try_bva_on_lit_init_m_cls (E : Env) (B : BVA) (lit : Lit) :
    (try_bva_on_lit_init E B lit).m_lits = [lit_pair.of_lit lit]
    ∧ (try_bva_on_lit_init E B lit).solver = B.solver
    ∧ (∀ c ∈ (try_bva_on_lit_init E B lit).m_cls,
        c.lit = lit ∧ c.ws ∈ B.solver.watches lit.toInt ∧ B.solver.redundant c.ws = false) := by
  unfold try_bva_on_lit_init
  simp only []
  obtain ⟨f1, f2, _⟩ := remove_duplicates_from_m_cls_frame E
    { B with
      m_cls := ((B.solver.watches lit.toInt).filter (fun w => !B.solver.redundant w)).map
        (fun w => (⟨lit, w⟩ : OccurClause)),
      m_lits := [lit_pair.of_lit lit],
      limit_to_decrease := B.limit_to_decrease - ((B.solver.watches lit.toInt).length : Int) }
  refine ⟨f2, f1, ?_⟩
  intro c hc
  have := remove_duplicates_from_m_cls_mem E _ c hc
  simp only [List.mem_map, List.mem_filter] at this
  obtain ⟨w, ⟨hw1, hw2⟩, e⟩ := this
  rw [← e]
  exact ⟨rfl, hw1, by simpa using hw2⟩

theorem least_occurring_except_potential (B : BVA) (c : OccurClause) :
    (B.least_occurring_except c).1.potential = B.potential
    ∧ (B.least_occurring_except c).1.seen2 = B.seen2 := ⟨rfl, rfl⟩

/-- The entries that the scan of `fill_potential` for the clause `c` appends: each has the
clause `c`, and no two have the same pair, as the scan marks the pair of each entry in
`seen2` and appends no pair that is marked. -/
theorem fill_potential_scan_keys (E : Env) (lit : Lit) (c : OccurClause) (l_min : Lit) :
    ∀ (ws : List Watched) (B : BVA) (P0 N : List PotentialClause),
      B.potential = P0 ++ N →
      (∀ e ∈ N, e.occur_cl = c) →
      (N.map (fun pot => pot.lits)).Nodup →
      (∀ e ∈ N, B.seen2 (E.hash e.lits E.seen2_size) ≠ 0) →
      ∃ N', (fill_potential_scan E lit c l_min B ws).potential = P0 ++ N'
        ∧ (∀ e ∈ N', e.occur_cl = c)
        ∧ (N'.map (fun pot => pot.lits)).Nodup := by
  intro ws
  induction ws with
  | nil => intro B P0 N h1 h2 h3 _; exact ⟨N, h1, h2, h3⟩
  | cons d_ws rest ih =>
    intro B P0 N h1 h2 h3 h4
    simp only [fill_potential_scan]
    split
    · exact ⟨N, h1, h2, h3⟩
    · split
      · obtain ⟨p1, s1, _⟩ := lit_diff_watches_potential B c ⟨l_min, d_ws⟩
        split
        · obtain ⟨p2, s2, _⟩ := lit_diff_watches_potential
            (B.lit_diff_watches c ⟨l_min, d_ws⟩).1 ⟨l_min, d_ws⟩ c
          split
          · rename_i hzero
            apply ih _ P0 (N ++ [⟨((B.lit_diff_watches c ⟨l_min, d_ws⟩).1.lit_diff_watches
                ⟨l_min, d_ws⟩ c).2, c⟩])
            · show _ ++ _ = _
              rw [p2, p1, h1, List.append_assoc]
            · intro e he
              rcases List.mem_append.mp he with he1 | he1
              · exact h2 e he1
              · rw [List.mem_singleton.mp he1]
            · rw [List.map_append, List.nodup_append]
              refine ⟨h3, by simp, ?_⟩
              intro k hk1 hk2
              simp only [List.map_cons, List.map_nil, List.mem_singleton] at hk2
              obtain ⟨e, he, hek⟩ := List.mem_map.mp hk1
              have := h4 e he
              rw [s2, s1] at hzero
              rw [hek, hk2] at this
              exact this hzero
            · intro e he
              show setAt _ _ 1 _ ≠ 0
              unfold setAt
              split
              · decide
              · rcases List.mem_append.mp he with he1 | he1
                · rw [s2, s1]; exact h4 e he1
                · rename_i hne
                  rw [List.mem_singleton.mp he1] at hne
                  exact absurd rfl hne
          · apply ih _ P0 N
            · rw [p2, p1, h1]
            · exact h2
            · exact h3
            · intro e he; rw [s2, s1]; exact h4 e he
        · apply ih _ P0 N
          · rw [p1, h1]
          · exact h2
          · exact h3
          · intro e he; rw [s1]; exact h4 e he
      · exact ih B P0 N h1 h2 h3 h4

theorem fill_potential_for_keys (E : Env) (lit : Lit) (B : BVA) (c : OccurClause) :
    ∃ N, (fill_potential_for E lit B c).potential = B.potential ++ N
      ∧ (∀ e ∈ N, e.occur_cl = c)
      ∧ (N.map (fun pot => pot.lits)).Nodup := by
  unfold fill_potential_for
  simp only []
  split
  · exact ⟨[], by simp [least_occurring_except_potential], fun _ h => absurd h (by simp),
      by simp⟩
  · obtain ⟨N, e1, e2, e3⟩ := fill_potential_scan_keys E lit c (B.least_occurring_except c).2
      ((B.least_occurring_except c).1.solver.watches (B.least_occurring_except c).2.toInt)
      { (B.least_occurring_except c).1 with
        m_lits_this_cl := (B.least_occurring_except c).1.m_lits,
        limit_to_decrease := (B.least_occurring_except c).1.limit_to_decrease
          - ((B.least_occurring_except c).1.m_lits.length : Int)
          - (((B.least_occurring_except c).1.solver.watches
              (B.least_occurring_except c).2.toInt).length : Int) * 3,
        seen2 := mark_seen2 E (B.least_occurring_except c).1.m_lits 1
          (B.least_occurring_except c).1.seen2 }
      B.potential [] (by simp [least_occurring_except_potential])
      (fun _ h => absurd h (by simp)) (by simp) (fun _ h => absurd h (by simp))
    exact ⟨N, e1, e2, e3⟩

theorem filter_key_sublist_singleton (N : List PotentialClause) (c : OccurClause)
    (k : lit_pair) (h1 : ∀ e ∈ N, e.occur_cl = c) (h2 : (N.map (fun pot => pot.lits)).Nodup) :
    ((N.filter (fun pot => decide (pot.lits = k))).map (fun pot => pot.occur_cl)).Sublist [c] := by
  induction N with
  | nil => simp
  | cons e t ih =>
    rw [List.map_cons] at h2
    have hn := List.nodup_cons.mp h2
    have ih2 := ih (fun x hx => h1 x (List.mem_cons_of_mem _ hx)) hn.2
    rw [List.filter_cons]
    by_cases hk : e.lits = k
    · simp only [hk, decide_True, if_true, List.map_cons]
      have hnil : t.filter (fun pot => decide (pot.lits = k)) = [] := by
        rw [List.filter_eq_nil_iff]
        intro x hx
        simp only [decide_eq_true_eq]
        intro hxk
        apply hn.1
        rw [hk, ← hxk]
        exact List.mem_map_of_mem (fun pot : PotentialClause => pot.lits) hx
      rw [hnil, h1 e (List.mem_cons_self _ _)]
      exact List.Sublist.refl _
    · simp only [hk, decide_False]
      exact ih2

/-- The entries that `fill_potential` appends for the clauses `cls`: for each pair, the
clauses of the entries with that pair are, in their order, a sublist of `cls`. -/
theorem fill_potential_loop_keys (E : Env) (lit : Lit) :
    ∀ (cls : List OccurClause) (B : BVA),
      ∃ N, (fill_potential_loop E lit B cls).potential = B.potential ++ N
        ∧ ∀ k : lit_pair,
          ((N.filter (fun pot => decide (pot.lits = k))).map (fun pot => pot.occur_cl)).Sublist
            cls := by
  intro cls
  induction cls with
  | nil => intro B; exact ⟨[], by simp [fill_potential_loop], fun k => by simp⟩
  | cons c rest ih =>
    intro B
    simp only [fill_potential_loop]
    split
    · exact ⟨[], by simp, fun k => by simp⟩
    · obtain ⟨N1, e1, a1, n1⟩ := fill_potential_for_keys E lit B c
      obtain ⟨N2, e2, s2⟩ := ih (fill_potential_for E lit B c)
      refine ⟨N1 ++ N2, by rw [e2, e1, List.append_assoc], ?_⟩
      intro k
      rw [List.filter_append, List.map_append]
      exact List.Sublist.append (filter_key_sublist_singleton N1 c k a1 n1) (s2 k)

/-- The sort of `potential` keeps the entries of one pair in their order. -/
theorem filter_insertionSort_key (L : List PotentialClause) (k : lit_pair) :
    (L.insertionSort (fun a b => lit_pair.lt b.lits a.lits = false)).filter
        (fun pot => decide (pot.lits = k))
      = L.filter (fun pot => decide (pot.lits = k)) := by
  have hpw : (L.filter (fun pot => decide (pot.lits = k))).Pairwise
      (fun a b => lit_pair.lt b.lits a.lits = false) := by
    rw [List.pairwise_iff_forall_sublist]
    intro a b hab
    have ha := hab.subset (List.mem_cons_self _ _)
    have hb := hab.subset (List.mem_cons_of_mem _ (List.mem_cons_self _ _))
    have ea : a.lits = k := by simpa using (List.mem_filter.mp ha).2
    have eb : b.lits = k := by simpa using (List.mem_filter.mp hb).2
    rw [ea, eb]
    exact lit_pair.lt_irrefl k
  have hsub := List.sublist_insertionSort hpw (List.filter_sublist L)
  have hsub2 := hsub.filter (fun pot => decide (pot.lits = k))
  rw [List.filter_filter] at hsub2
  simp only [Bool.and_self] at hsub2
  have hlen : ((L.insertionSort (fun a b => lit_pair.lt b.lits a.lits = false)).filter
      (fun pot => decide (pot.lits = k))).length
      = (L.filter (fun pot => decide (pot.lits = k))).length :=
    ((List.perm_insertionSort _ L).filter _).length_eq
  exact (hsub2.eq_of_length hlen.symm).symm

theorem most_occuring_lit_in_potential_fields (E : Env) (B : BVA) :
    (most_occuring_lit_in_potential E B).1.solver = B.solver
    ∧ (most_occuring_lit_in_potential E B).1.m_lits = B.m_lits
    ∧ (most_occuring_lit_in_potential E B).1.m_cls = B.m_cls
    ∧ (∀ k : lit_pair,
        ((most_occuring_lit_in_potential E B).1.potential.filter
            (fun pot => decide (pot.lits = k))).Perm
          (B.potential.filter (fun pot => decide (pot.lits = k))))
    ∧ (E.sort_order B.potential = List.range B.potential.length →
        ∀ k : lit_pair,
          (most_occuring_lit_in_potential E B).1.potential.filter
              (fun pot => decide (pot.lits = k))
            = B.potential.filter (fun pot => decide (pot.lits = k))) := by
  unfold most_occuring_lit_in_potential
  simp only []
  by_cases h : B.potential.length > 1
  · simp only [h, if_true]
    split <;> exact ⟨rfl, rfl, rfl,
      fun k => ((List.perm_insertionSort _ _).trans (sort_arrange_perm E B.potential)).filter _,
      fun hr k => by
        simp only [sort_arrange_range E B.potential hr]
        exact filter_insertionSort_key B.potential k⟩
  · simp only [h, if_false]
    split <;> exact ⟨rfl, rfl, rfl, fun k => List.Perm.refl _, fun _ k => rfl⟩

end BVA

namespace BVA

/-- The loop of `try_bva_on_lit` goes on from the state that `try_bva_on_lit_next` gives. -/
theorem try_bva_on_lit_loop_next (E : Env) (lit : Lit) (fuel : Nat) (B B2 : BVA)
    (h : try_bva_on_lit_next E lit B = some B2) :
    try_bva_on_lit_loop E lit (fuel + 1) B = try_bva_on_lit_loop E lit fuel B2 := by
  unfold try_bva_on_lit_next at h
  simp only [try_bva_on_lit_loop]
  simp only [] at h
  split at h
  · exact absurd h (by simp)
  · rename_i hneg
    simp only [hneg, if_false]
    split at h
    · rename_i hs
      simp only [hs, if_true]
      simp only [Option.some.injEq] at h
      rw [h]
    · exact absurd h (by simp)

/-- The loop of `try_bva_on_lit` is left in the round in which `try_bva_on_lit_next` gives
no state, with `m_lits` and `m_cls` as the round found them. -/
theorem try_bva_on_lit_loop_stop (E : Env) (lit : Lit) (fuel : Nat) (B : BVA)
    (h : try_bva_on_lit_next E lit B = none) :
    ∃ Bf flag, try_bva_on_lit_loop E lit (fuel + 1) B = some (Bf, flag)
      ∧ Bf.m_lits = B.m_lits ∧ Bf.m_cls = B.m_cls ∧ Bf.solver = B.solver := by
  obtain ⟨f1, _⟩ := fill_potential_loop_frame E lit B.m_cls { B with potential := [] }
  have e1 : fill_potential E { B with potential := [] } lit
      = fill_potential_loop E lit { B with potential := [] } B.m_cls := rfl
  rw [← e1] at f1
  obtain ⟨g1, g2, g3, _, _⟩ := most_occuring_lit_in_potential_fields E
    (fill_potential E { B with potential := [] } lit)
  unfold try_bva_on_lit_next at h
  simp only [try_bva_on_lit_loop]
  simp only [] at h
  split at h
  · rename_i hneg
    simp only [hneg, if_true]
    exact ⟨_, _, rfl, f1.m_lits, f1.m_cls, f1.solver⟩
  · rename_i hneg
    simp only [hneg, if_false]
    split at h
    · exact absurd h (by simp)
    · rename_i hs
      simp only [hs]
      exact ⟨_, _, rfl, g2.trans f1.m_lits, g3.trans f1.m_cls, g1.trans f1.solver⟩

/-- An accepted round of the loop of `try_bva_on_lit`: the new `m_cls` is a rearrangement
of a sublist of the old one, with `num_occur` entries, `m_lits` has one pair more, and the
solver is as it was. -/
theorem try_bva_on_lit_next_spec (E : Env) (lit : Lit) (B B2 : BVA)
    (h : try_bva_on_lit_next E lit B = some B2) :
    B2.m_cls.Subperm B.m_cls
    ∧ B2.m_cls.length
      = (most_occuring_lit_in_potential E (fill_potential E { B with potential := [] } lit)).2.2
    ∧ B2.m_lits = B.m_lits
        ++ [(most_occuring_lit_in_potential E
              (fill_potential E { B with potential := [] } lit)).2.1]
    ∧ B2.solver = B.solver := by
  obtain ⟨f1, _⟩ := fill_potential_loop_frame E lit B.m_cls { B with potential := [] }
  obtain ⟨N, k1, k2⟩ := fill_potential_loop_keys E lit B.m_cls { B with potential := [] }
  have e1 : fill_potential E { B with potential := [] } lit
      = fill_potential_loop E lit { B with potential := [] } B.m_cls := rfl
  rw [← e1] at f1 k1
  obtain ⟨g1, g2, g3, g4, _⟩ := most_occuring_lit_in_potential_fields E
    (fill_potential E { B with potential := [] } lit)
  obtain ⟨_, c2, _⟩ := most_occuring_lit_in_potential_counts E
    (fill_potential E { B with potential := [] } lit)
  unfold try_bva_on_lit_next at h
  simp only [] at h
  split at h
  · exact absurd h (by simp)
  · split at h
    · simp only [Option.some.injEq] at h
      rw [← h]
      simp only []
      have hp := (g4 (most_occuring_lit_in_potential E
        (fill_potential E { B with potential := [] } lit)).2.1).map (fun pot => pot.occur_cl)
      simp only [List.nil_append] at k1
      refine ⟨?_, ?_, ?_, g1.trans f1.solver⟩
      · refine hp.subperm.trans (List.Sublist.subperm ?_)
        rw [k1]
        exact k2 _
      · rw [hp.length_eq, List.length_map, ← c2, k1, List.count_eq_countP, List.countP_map,
          List.countP_eq_length_filter]
        congr 1
      · rw [g2, f1.m_lits]
    · exact absurd h (by simp)

end BVA

namespace BVA

/-- The state in which a round of the loop of `try_bva_on_lit` starts: the solver is as at
the call, `m_lits` has one pair for each round so far after the literal itself, and `m_cls`
is a rearrangement of a sublist of the `m_cls` of the first round. -/
theorem try_bva_on_lit_round_inv (E : Env) (B : BVA) (lit : Lit) :
    ∀ (n : Nat) (Bn : BVA),
      try_bva_on_lit_round E lit n (try_bva_on_lit_init E B lit) = some Bn →
      Bn.solver = B.solver
      ∧ Bn.m_lits.length = n + 1
      ∧ Bn.m_cls.Subperm (try_bva_on_lit_init E B lit).m_cls := by
  obtain ⟨i1, i2, _⟩ := try_bva_on_lit_init_m_cls E B lit
  intro n
  induction n with
  | zero =>
    intro Bn h
    simp only [try_bva_on_lit_round, Option.some.injEq] at h
    rw [← h]
    exact ⟨i2, by rw [i1]; rfl, List.Subperm.refl _⟩
  | succ n ih =>
    intro Bn h
    simp only [try_bva_on_lit_round] at h
    cases hp : try_bva_on_lit_round E lit n (try_bva_on_lit_init E B lit) with
    | none => rw [hp] at h; exact absurd h (by simp)
    | some Bp =>
      rw [hp] at h
      simp only [Option.some_bind] at h
      obtain ⟨a1, a2, a3⟩ := ih Bp hp
      obtain ⟨b1, _, b3, b4⟩ := try_bva_on_lit_next_spec E lit Bp Bn h
      refine ⟨b4.trans a1, ?_, b1.trans a3⟩
      rw [b3, List.length_append, a2]
      rfl

end BVA

/-- C35 (amended): in every round of the loop of `try_bva_on_lit(lit)`, every entry of
`m_cls` has the occurrence literal `lit` and is an irredundant entry of the watch list of
`lit`, `m_lits` has one pair for each accepted round after the literal itself, and `m_cls`
has no more entries than in the first round.  When the round is accepted, the new `m_cls`
is, up to the order of its entries, a sublist of the `m_cls` of the round, it has exactly
`num_occur` entries, and `m_lits` has one pair more. -/
theorem try_bva_on_lit_m_cls_shrinks (E : Env) (B : BVA) (lit : Lit) (n : Nat) (Bn : BVA)
    (h : BVA.try_bva_on_lit_round E lit n (BVA.try_bva_on_lit_init E B lit) = some Bn) :
    (∀ c ∈ Bn.m_cls,
      c.lit = lit ∧ c.ws ∈ B.solver.watches lit.toInt ∧ B.solver.redundant c.ws = false)
    ∧ Bn.m_lits.length = n + 1
    ∧ Bn.m_cls.length ≤ (BVA.try_bva_on_lit_init E B lit).m_cls.length
    ∧ (∀ Bn1, BVA.try_bva_on_lit_next E lit Bn = some Bn1 →
        (∃ sub : List OccurClause, sub.Sublist Bn.m_cls ∧ Bn1.m_cls.Perm sub)
        ∧ Bn1.m_cls.length
          = (BVA.most_occuring_lit_in_potential E
              (BVA.fill_potential E { Bn with potential := [] } lit)).2.2
        ∧ Bn1.m_cls.length ≤ Bn.m_cls.length
        ∧ Bn1.m_lits.length = Bn.m_lits.length + 1) := by
  obtain ⟨_, _, i3⟩ := BVA.try_bva_on_lit_init_m_cls E B lit
  obtain ⟨_, a2, a3⟩ := BVA.try_bva_on_lit_round_inv E B lit n Bn h
  refine ⟨fun c hc => i3 c (a3.subset hc), a2, a3.length_le, ?_⟩
  intro Bn1 h1
  obtain ⟨b1, b2, b3, _⟩ := BVA.try_bva_on_lit_next_spec E lit Bn Bn1 h1
  have hle := b1.length_le
  obtain ⟨sub, hperm, hsub⟩ := b1
  refine ⟨⟨sub, hsub, hperm.symm⟩, b2, hle, ?_⟩
  rw [b3, List.length_append]
  rfl

theorem option_eq_some_getD {α : Type} (o : Option α) (d : α) (h : o.isSome = true) :
    o = some (o.getD d) := by
  cases o with
  | none => exact absurd h (by simp)
  | some b => rfl

/-- The second round of the loop of `try_bva_on_lit(a)` on `Example2` starts from
`bva_round2`. -/
theorem Example2.round2_eq :
    BVA.try_bva_on_lit_round Example.env Example.a 1
        (BVA.try_bva_on_lit_init Example.env Example2.bva Example.a)
      = some Example2.bva_round2 :=
  option_eq_some_getD _ Example2.bva (by decide!)

/-- The first round of the loop of `try_bva_on_lit(a)` on `Example12` is accepted and
leaves `round1`. -/
theorem Example12.round1_eq :
    BVA.try_bva_on_lit_next Example12.env Example12.a Example12.start
      = some Example12.round1 :=
  option_eq_some_getD _ Example12.start (by decide!)

/-- The theorem on two runs: the second round on `Example2`, and the first round on
`Example12`, which is accepted and leaves the six clauses of `m_cls` in another order. -/
theorem try_bva_on_lit_m_cls_shrinks_witness :
    BVA.try_bva_on_lit_round Example.env Example.a 1
        (BVA.try_bva_on_lit_init Example.env Example2.bva Example.a)
      = some Example2.bva_round2
    ∧ Example2.bva_round2.m_lits.length = 1 + 1
    ∧ Example2.bva_round2.m_cls.length
      ≤ (BVA.try_bva_on_lit_init Example.env Example2.bva Example.a).m_cls.length
    ∧ BVA.try_bva_on_lit_round Example12.env Example12.a 0
        (BVA.try_bva_on_lit_init Example12.env Example12.bva Example12.a)
      = some Example12.start
    ∧ BVA.try_bva_on_lit_next Example12.env Example12.a Example12.start
      = some Example12.round1
    ∧ (∀ c ∈ Example12.start.m_cls,
        c.lit = Example12.a ∧ c.ws ∈ Example12.bva.solver.watches Example12.a.toInt
          ∧ Example12.bva.solver.redundant c.ws = false)
    ∧ (∃ sub : List OccurClause,
        sub.Sublist Example12.start.m_cls ∧ Example12.round1.m_cls.Perm sub)
    ∧ Example12.round1.m_cls.length = 6
    ∧ Example12.round1.m_cls.length ≤ Example12.start.m_cls.length
    ∧ Example12.round1.m_lits.length = Example12.start.m_lits.length + 1 :=
  ⟨Example2.round2_eq,
    (try_bva_on_lit_m_cls_shrinks Example.env Example2.bva Example.a 1 Example2.bva_round2
      Example2.round2_eq).2.1,
    (try_bva_on_lit_m_cls_shrinks Example.env Example2.bva Example.a 1 Example2.bva_round2
      Example2.round2_eq).2.2.1,
    rfl, Example12.round1_eq,
    (try_bva_on_lit_m_cls_shrinks Example12.env Example12.bva Example12.a 0 Example12.start
      rfl).1,
    ((try_bva_on_lit_m_cls_shrinks Example12.env Example12.bva Example12.a 0 Example12.start
      rfl).2.2.2 Example12.round1 Example12.round1_eq).1,
    ((try_bva_on_lit_m_cls_shrinks Example12.env Example12.bva Example12.a 0 Example12.start
      rfl).2.2.2 Example12.round1 Example12.round1_eq).2.1.trans (by decide!),
    ((try_bva_on_lit_m_cls_shrinks Example12.env Example12.bva Example12.a 0 Example12.start
      rfl).2.2.2 Example12.round1 Example12.round1_eq).2.2.1,
    ((try_bva_on_lit_m_cls_shrinks Example12.env Example12.bva Example12.a 0 Example12.start
      rfl).2.2.2 Example12.round1 Example12.round1_eq).2.2.2⟩

/-- The rounds of the loop of `try_bva_on_lit(a)` on `Example2`: the first round starts
with the three clauses of `a` and accepts the pair of `b`, which all three match; the
second round accepts the pair of `h`, which the two binary clauses match; the loop is left
in the third round. -/
theorem Example2.rounds_run :
    (BVA.try_bva_on_lit_init Example.env Example2.bva Example.a).m_cls.map (fun c => c.ws)
      = [.binary Example.f false, .binary Example.g false, .clause 0 Example.a]
    ∧ (BVA.try_bva_on_lit_round Example.env Example.a 1
        (BVA.try_bva_on_lit_init Example.env Example2.bva Example.a)).map
        (fun B => (B.m_cls.map (fun c => c.ws), B.m_lits))
      = some ([.binary Example.f false, .binary Example.g false, .clause 0 Example.a],
          [⟨Example.a, lit_Undef⟩, ⟨Example.b, lit_Undef⟩])
    ∧ (BVA.try_bva_on_lit_round Example.env Example.a 2
        (BVA.try_bva_on_lit_init Example.env Example2.bva Example.a)).map
        (fun B => (B.m_cls.map (fun c => c.ws), B.m_lits))
      = some ([.binary Example.f false, .binary Example.g false],
          [⟨Example.a, lit_Undef⟩, ⟨Example.b, lit_Undef⟩, ⟨Example2.h, lit_Undef⟩])
    ∧ (BVA.try_bva_on_lit_round Example.env Example.a 3
        (BVA.try_bva_on_lit_init Example.env Example2.bva Example.a)).isSome = false := by
  refine ⟨?_, ?_, ?_, ?_⟩ <;> decide!

/-! ## C35: the order of `m_cls` after a round on a longer `potential` -/

/-- The first round of the loop of `try_bva_on_lit(a)` on `Example12`: `fill_potential`
leaves the pairs of `b 1`, `b 2`, `b 3` for each of the six clauses in turn, and the sort
leaves the entries of one pair in another order than that of the clauses. -/
theorem Example12.sort_run :
    (BVA.fill_potential Example12.env { Example12.start with potential := [] }
        Example12.a).potential.map (fun p => (p.lits.lit1.var - 6, p.occur_cl.ws))
      = ((List.range 6).flatMap (fun i => [(1, i + 1), (2, i + 1), (3, i + 1)])).map
          (fun q => (q.1, Watched.binary (Example12.f q.2) false))
    ∧ (BVA.most_occuring_lit_in_potential Example12.env
        (BVA.fill_potential Example12.env { Example12.start with potential := [] }
          Example12.a)).1.potential.map (fun p => (p.lits.lit1.var - 6, p.occur_cl.ws))
      = [(1, 1), (1, 2), (1, 6), (1, 3), (1, 5), (1, 4), (2, 1), (2, 6), (2, 5), (2, 4),
          (2, 3), (2, 2), (3, 3), (3, 4), (3, 2), (3, 5), (3, 1), (3, 6)].map
          (fun q => (q.1, Watched.binary (Example12.f q.2) false))
    ∧ (BVA.most_occuring_lit_in_potential Example12.env
        (BVA.fill_potential Example12.env { Example12.start with potential := [] }
          Example12.a)).2
      = (⟨Example12.b 3, lit_Undef⟩, 6) := by
  refine ⟨?_, ?_, ?_⟩ <;> decide!

/-- C35 (as claimed, refuted): on `Example12`, with `std::sort` as in a build with the GNU
C++ library, the loop of `try_bva_on_lit(a)` starts with the six clauses `(a ∨ f 1)`, ...,
`(a ∨ f 6)` in `m_cls`, `potential` gets 18 entries, and the first round is accepted with
the pair of `b 3` and leaves `m_cls` with the clauses of `f 3`, `f 4`, `f 2`, `f 5`, `f 1`,
`f 6` in this order, which is no sublist of the `m_cls` of the round. -/
theorem try_bva_on_lit_m_cls_order_counterexample :
    BVA.try_bva_on_lit_round Example12.env Example12.a 0
        (BVA.try_bva_on_lit_init Example12.env Example12.bva Example12.a)
      = some Example12.start
    ∧ Example12.start.m_cls.map (fun c => c.ws)
      = [.binary (Example12.f 1) false, .binary (Example12.f 2) false,
          .binary (Example12.f 3) false, .binary (Example12.f 4) false,
          .binary (Example12.f 5) false, .binary (Example12.f 6) false]
    ∧ (BVA.fill_potential Example12.env { Example12.start with potential := [] }
        Example12.a).potential.length = 18
    ∧ (BVA.try_bva_on_lit_next Example12.env Example12.a Example12.start).map
        (fun B => (B.m_cls.map (fun c => c.ws), B.m_lits))
      = some ([.binary (Example12.f 3) false, .binary (Example12.f 4) false,
            .binary (Example12.f 2) false, .binary (Example12.f 5) false,
            .binary (Example12.f 1) false, .binary (Example12.f 6) false],
          [⟨Example12.a, lit_Undef⟩, ⟨Example12.b 3, lit_Undef⟩])
    ∧ ¬ ∀ Bn1, BVA.try_bva_on_lit_next Example12.env Example12.a Example12.start = some Bn1 →
        Bn1.m_cls.Sublist Example12.start.m_cls := by
  refine ⟨rfl, by decide!, by decide!, by decide!, ?_⟩
  intro hall
  have hs := hall Example12.round1 Example12.round1_eq
  exact absurd hs (by decide!)

/-! ## C37: the budget of BVA -/

/-- C37 (as claimed, refuted): on `Example11` the budget is `219` when `try_bva_on_lit(a)`
is called and `13` when its loop is left, so that every test of the budget finds it
non-negative and `bva_simplify_system` is called.  After the two removals for the literal
`a` the budget is `-1`; the removal loops go on and four more clauses are removed, for `b`
and for `h`.  `bounded_var_addition` returns with the budget `-25`, one fresh variable and
six clauses removed. -/
theorem bounded_var_addition_budget_counterexample :
    Example11.called.limit_to_decrease = 219
    ∧ (BVA.try_bva_on_lit_loop Example.env Example.a
        (Example11.called.limit_to_decrease.toNat + 2)
        (BVA.try_bva_on_lit_init Example.env Example11.called Example.a)).map
        (fun r => (r.1.limit_to_decrease, r.2)) = some (13, true)
    ∧ (BVA.remove_matching_clauses_for ⟨Example.a, lit_Undef⟩ Example11.before_removal
        Example11.before_removal.m_cls_lits).map
        (fun B => (B.limit_to_decrease, B.solver.trace.countP SolverCall.is_removal))
      = some (-1, 2)
    ∧ (Example11.result.limit_to_decrease, Example11.result.solver.nVars,
        Example11.result.solver.trace.countP SolverCall.is_removal) = (-25, 9, 6)
    ∧ Example11.result.solver.trace
      = Example11.after_first.solver.trace
        ++ [.detach_bin_clause Example.b Example.f false,
            .detach_bin_clause Example.b Example.g false,
            .detach_bin_clause Example2.h Example.f false,
            .detach_bin_clause Example2.h Example.g false] := by
  refine ⟨?_, ?_, ?_, ?_, ?_⟩
  · decide!
  · decide!
  · decide!
  · decide!
  · decide!

namespace BVA

/-- The loop of `try_bva_on_lit` gets from its start to the state in which round `n`
starts. -/
theorem try_bva_on_lit_loop_round (E : Env) (lit : Lit) :
    ∀ (n fuel : Nat) (B Bn : BVA), try_bva_on_lit_round E lit n B = some Bn →
      try_bva_on_lit_loop E lit (fuel + n) B = try_bva_on_lit_loop E lit fuel Bn := by
  intro n
  induction n with
  | zero =>
    intro fuel B Bn h
    simp only [try_bva_on_lit_round, Option.some.injEq] at h
    rw [h]
    rfl
  | succ n ih =>
    intro fuel B Bn h
    simp only [try_bva_on_lit_round] at h
    cases hp : try_bva_on_lit_round E lit n B with
    | none => rw [hp] at h; exact absurd h (by simp)
    | some Bp =>
      rw [hp] at h
      simp only [Option.some_bind] at h
      rw [show fuel + (n + 1) = (fuel + 1) + n from by omega, ih (fuel + 1) B Bp hp,
        try_bva_on_lit_loop_next E lit fuel Bp Bn h]

/-- A round of the loop of `try_bva_on_lit` in which the budget is negative after
`fill_potential`: the loop is left with the flag false, in the state that `fill_potential`
left, and the solver is as the round found it. -/
theorem try_bva_on_lit_loop_exhausted (E : Env) (lit : Lit) (fuel : Nat) (B : BVA)
    (h : (fill_potential E { B with potential := [] } lit).limit_to_decrease < 0) :
    try_bva_on_lit_loop E lit (fuel + 1) B
      = some (fill_potential E { B with potential := [] } lit, false)
    ∧ (fill_potential E { B with potential := [] } lit).solver = B.solver := by
  obtain ⟨f1, _⟩ := fill_potential_loop_frame E lit B.m_cls { B with potential := [] }
  refine ⟨?_, f1.solver⟩
  simp only [try_bva_on_lit_loop]
  rw [if_pos h]

end BVA

/-- C37 (amended): once the budget is negative at the test at the head of the loop of
`bounded_var_addition`, the loop is left in the state it is in: no further
`try_bva_on_lit` is started.  Once the budget is negative at the test of `try_bva_on_lit`
after `fill_potential`, in whichever round, `try_bva_on_lit` returns `solver->okay()` in
the state that `fill_potential` left, with the solver as it was when `try_bva_on_lit` was
called, and the loop of `bounded_var_addition` is left at its next test.  So from either
test on no variable is created and no clause is added or removed. -/
theorem bounded_var_addition_budget_tests (E : Env) :
    (∀ (fuel : Nat) (B : BVA), B.limit_to_decrease < 0 →
      BVA.bounded_var_addition_loop E (fuel + 1) B = Outcome.returned B)
    ∧ (∀ (fuel n : Nat) (B Bn : BVA) (lit : Lit),
        BVA.try_bva_on_lit_round E lit n (BVA.try_bva_on_lit_init E B lit) = some Bn →
        (BVA.fill_potential E { Bn with potential := [] } lit).limit_to_decrease < 0 →
        BVA.try_bva_on_lit E (fuel + 1 + n) B lit
            = some (BVA.fill_potential E { Bn with potential := [] } lit,
                (BVA.fill_potential E { Bn with potential := [] } lit).solver.okay)
          ∧ (BVA.fill_potential E { Bn with potential := [] } lit).solver = B.solver
          ∧ ∀ fuel2, BVA.bounded_var_addition_loop E (fuel2 + 1)
              (BVA.fill_potential E { Bn with potential := [] } lit)
            = Outcome.returned (BVA.fill_potential E { Bn with potential := [] } lit)) := by
  have head : ∀ (fuel : Nat) (B : BVA), B.limit_to_decrease < 0 →
      BVA.bounded_var_addition_loop E (fuel + 1) B = Outcome.returned B := by
    intro fuel B h
    simp only [BVA.bounded_var_addition_loop]
    split
    · rfl
    · rw [if_pos (Or.inl h)]
  refine ⟨head, ?_⟩
  intro fuel n B Bn lit hr hneg
  obtain ⟨e1, e2⟩ := BVA.try_bva_on_lit_loop_exhausted E lit fuel Bn hneg
  obtain ⟨s1, _, _⟩ := BVA.try_bva_on_lit_round_inv E B lit n Bn hr
  refine ⟨?_, e2.trans s1, fun fuel2 => head fuel2 _ hneg⟩
  unfold BVA.try_bva_on_lit
  rw [BVA.try_bva_on_lit_loop_round E lit n (fuel + 1) _ Bn hr, e1]

/-- Both tests on examples: with the budget `-1` the loop of `bounded_var_addition` is left
at its head; and with the budget `50` the first `fill_potential` of `try_bva_on_lit(a)`
leaves a negative budget, `try_bva_on_lit` returns with the solver as it was, and the loop
of `bounded_var_addition` is left at its next test. -/
theorem bounded_var_addition_budget_tests_witness :
    ({ Example2.bva with limit_to_decrease := -1 } : BVA).limit_to_decrease < 0
    ∧ BVA.bounded_var_addition_loop Example.env (0 + 1)
        { Example2.bva with limit_to_decrease := -1 }
      = Outcome.returned { Example2.bva with limit_to_decrease := -1 }
    ∧ BVA.try_bva_on_lit_round Example.env Example.a 0
        (BVA.try_bva_on_lit_init Example.env Example11.low Example.a)
      = some (BVA.try_bva_on_lit_init Example.env Example11.low Example.a)
    ∧ (BVA.fill_potential Example.env
        { BVA.try_bva_on_lit_init Example.env Example11.low Example.a with potential := [] }
        Example.a).limit_to_decrease < 0
    ∧ BVA.try_bva_on_lit Example.env (0 + 1 + 0) Example11.low Example.a
      = some (BVA.fill_potential Example.env
          { BVA.try_bva_on_lit_init Example.env Example11.low Example.a with potential := [] }
          Example.a,
        (BVA.fill_potential Example.env
          { BVA.try_bva_on_lit_init Example.env Example11.low Example.a with potential := [] }
          Example.a).solver.okay)
    ∧ (BVA.fill_potential Example.env
        { BVA.try_bva_on_lit_init Example.env Example11.low Example.a with potential := [] }
        Example.a).solver = Example11.low.solver
    ∧ ∀ fuel2, BVA.bounded_var_addition_loop Example.env (fuel2 + 1)
        (BVA.fill_potential Example.env
          { BVA.try_bva_on_lit_init Example.env Example11.low Example.a with potential := [] }
          Example.a)
      = Outcome.returned (BVA.fill_potential Example.env
          { BVA.try_bva_on_lit_init Example.env Example11.low Example.a with potential := [] }
          Example.a) :=
  ⟨by decide,
    (bounded_var_addition_budget_tests Example.env).1 0
      { Example2.bva with limit_to_decrease := -1 } (by decide),
    rfl, by decide!,
    (bounded_var_addition_budget_tests Example.env).2 0 0 Example11.low
      (BVA.try_bva_on_lit_init Example.env Example11.low Example.a) Example.a rfl (by decide!)⟩

/-- The budget of the second example of the witness: `50` at the call, `41` after the
clauses of `a` were collected, and `-5` when the first `fill_potential` stops. -/
theorem Example11.low_run :
    ((BVA.try_bva_on_lit_init Example.env Example11.low Example.a).limit_to_decrease,
      (BVA.fill_potential Example.env
        { BVA.try_bva_on_lit_init Example.env Example11.low Example.a with potential := [] }
        Example.a).limit_to_decrease) = (41, -5) := by
  decide!

/-! ## Component handler: the sanity check of `handle` holds -/

namespace CompHandler

/-- Changing a predicate at one place of a range changes the count by that place. -/
theorem countP_range_update (p q : Nat → Bool) (o : Nat) :
    ∀ n, o < n → (∀ k < n, k ≠ o → q k = p k) →
      (List.range n).countP q + (if p o = true then 1 else 0)
        = (List.range n).countP p + (if q o = true then 1 else 0) := by
  intro n
  induction n with
  | zero => intro h; omega
  | succ n ih =>
    intro ho hq
    rw [List.range_succ, List.countP_append, List.countP_append]
    simp only [List.countP_cons, List.countP_nil, Nat.zero_add]
    by_cases hon : o = n
    · subst hon
      have e : (List.range o).countP q = (List.range o).countP p :=
        List.countP_congr (fun k hk => by
          have := List.mem_range.1 hk
          rw [hq k (by omega) (by omega)])
      rw [e]
      omega
    · have := ih (by omega) (fun k hk hne => hq k (by omega) hne)
      rw [hq n (by omega) (fun h => hon h.symm)]
      omega

/-- The loop of `check_local_vardata_sanity`: no assertion fails when the three conditions
hold at every saved variable, and the counter is the number of saved variables. -/
theorem check_local_vardata_sanity_fold (H : CompHandler) (L : List Nat) :
    ∀ acc : Bool × Nat, acc.1 = true → acc.2 < 2 ^ 64 →
      (∀ o ∈ L, H.is_saved o = true →
        (H.solver.varData (H.solver.map_outer_to_inter o)).is_decision = false
        ∧ (H.solver.varData (H.solver.map_outer_to_inter o)).removed = Removed.decomposed
        ∧ (H.solver.assigns (H.solver.map_outer_to_inter o) = lbool.l_Undef
          ∨ (H.solver.varData (H.solver.map_outer_to_inter o)).level = 0)) →
      L.foldl H.check_local_vardata_sanity_step acc
        = (true, (acc.2 + L.countP H.is_saved) % 2 ^ 64) := by
  induction L with
  | nil =>
    intro acc h1 h2 _
    simp only [List.foldl_nil, List.countP_nil, Nat.add_zero]
    rw [Nat.mod_eq_of_lt h2, ← h1]
  | cons o rest ih =>
    intro acc h1 h2 h
    simp only [List.foldl_cons, List.countP_cons]
    by_cases hs : H.is_saved o = true
    · obtain ⟨c1, c2, c3⟩ := h o (List.mem_cons_self _ _) hs
      have hs2 : H.savedState.getD o lbool.l_Undef ≠ lbool.l_Undef := by
        simpa [is_saved] using hs
      have e : H.check_local_vardata_sanity_step acc o = (true, (acc.2 + 1) % 2 ^ 64) := by
        unfold check_local_vardata_sanity_step
        simp only []
        rw [if_pos hs2, h1, c1, c2]
        rcases c3 with c3 | c3 <;> simp [c3]
      rw [e, ih _ rfl (Nat.mod_lt _ (by decide))
        (fun o2 ho2 => h o2 (List.mem_cons_of_mem _ ho2)), if_pos hs]
      congr 1
      simp only []
      omega
    · have hs2 : ¬ H.savedState.getD o lbool.l_Undef ≠ lbool.l_Undef := by
        simpa [is_saved] using hs
      have e : H.check_local_vardata_sanity_step acc o = acc := by
        unfold check_local_vardata_sanity_step
        simp only []
        rw [if_neg hs2]
      rw [e, ih acc h1 h2 (fun o2 ho2 => h o2 (List.mem_cons_of_mem _ ho2)), if_neg hs]
      simp

/-- In a sane state no assertion of `check_local_vardata_sanity` fails. -/
theorem check_local_vardata_sanity_of_sane (H : CompHandler) (h : H.Sane) :
    H.check_local_vardata_sanity = true := by
  unfold check_local_vardata_sanity
  simp only []
  rw [check_local_vardata_sanity_fold H _ (true, 0) rfl (by decide)
    (fun o ho hs => by
      have ho2 := List.mem_range.1 ho
      refine ⟨h.nondecision o ho2 hs, ?_, h.value o ho2 hs⟩
      have := h.saved o ho2
      rw [hs] at this
      simpa [is_decomposed] using this.symm)]
  simp only [Nat.zero_add, Bool.true_and, decide_eq_true_eq]
  exact h.count

end CompHandler

namespace CompHandler

theorem detachClause_view (S : Solver) (offset : Nat) :
    (S.detachClause offset).varData = S.varData
    ∧ (S.detachClause offset).assigns = S.assigns
    ∧ (S.detachClause offset).outerToInterMain = S.outerToInterMain
    ∧ (S.detachClause offset).interToOuterMain = S.interToOuterMain
    ∧ (S.detachClause offset).nVarsOuter = S.nVarsOuter
    ∧ (S.detachClause offset).nVars = S.nVars := by
  unfold Solver.detachClause
  refine ⟨?_, ?_, ?_, ?_, ?_, ?_⟩
  · apply foldl_preserves _ (fun T : Solver => T.varData)
    intro _ _
    rfl
  · apply foldl_preserves _ (fun T : Solver => T.assigns)
    intro _ _
    rfl
  · apply foldl_preserves _ (fun T : Solver => T.outerToInterMain)
    intro _ _
    rfl
  · apply foldl_preserves _ (fun T : Solver => T.interToOuterMain)
    intro _ _
    rfl
  · apply foldl_preserves _ (fun T : Solver => T.nVarsOuter)
    intro _ _
    rfl
  · apply foldl_preserves _ (fun T : Solver => T.nVars)
    intro _ _
    rfl

theorem sanity_view_detachClause (H : CompHandler) (offset : Nat) :
    ({ H with solver := H.solver.detachClause offset } : CompHandler).sanity_view
      = H.sanity_view := by
  obtain ⟨a, b, c, d, e, f⟩ := detachClause_view H.solver offset
  unfold sanity_view
  simp only []
  rw [a, b, c, d, e, f]

theorem moveClausesLong_move_view (H : CompHandler) (N : SATSolver) (offset : Nat) :
    (moveClausesLong_move H N offset).1.sanity_view = H.sanity_view
    ∧ (moveClausesLong_move H N offset).2.nVars = N.nVars := by
  unfold moveClausesLong_move
  simp only []
  split
  · exact ⟨sanity_view_detachClause H offset, rfl⟩
  · exact ⟨sanity_view_detachClause (H.saveClause _) offset, rfl⟩

theorem moveClausesLong_step_view (comp : Nat) (acc : CompHandler × SATSolver × List Nat)
    (offset : Nat) :
    (moveClausesLong_step comp acc offset).1.sanity_view = acc.1.sanity_view
    ∧ (moveClausesLong_step comp acc offset).2.1.nVars = acc.2.1.nVars := by
  unfold moveClausesLong_step
  simp only []
  split
  · exact ⟨rfl, rfl⟩
  · split
    · split
      · exact ⟨sanity_view_detachClause acc.1 offset, rfl⟩
      · split
        · exact ⟨rfl, rfl⟩
        · exact moveClausesLong_move_view _ _ _
    · exact moveClausesLong_move_view _ _ _

theorem moveClausesLong_view (H : CompHandler) (N : SATSolver) (comp : Nat) (cs : List Nat) :
    (moveClausesLong H N comp cs).1.sanity_view = H.sanity_view
    ∧ (moveClausesLong H N comp cs).2.1.nVars = N.nVars := by
  unfold moveClausesLong
  exact ⟨foldl_preserves _
      (fun a : CompHandler × SATSolver × List Nat => a.1.sanity_view)
      (fun a o => (moveClausesLong_step_view comp a o).1) _ _,
    foldl_preserves _
      (fun a : CompHandler × SATSolver × List Nat => a.2.1.nVars)
      (fun a o => (moveClausesLong_step_view comp a o).2) _ _⟩

theorem move_binary_clause_view (H : CompHandler) (N : SATSolver) (comp : Nat) (i : Watched)
    (lit : Lit) :
    (move_binary_clause H N comp i lit).1.sanity_view = H.sanity_view
    ∧ (move_binary_clause H N comp i lit).2.nVars = N.nVars := by
  unfold move_binary_clause
  simp only []
  split
  · exact ⟨rfl, rfl⟩
  · split
    · split <;> exact ⟨rfl, rfl⟩
    · split <;> exact ⟨rfl, rfl⟩

theorem sanity_view_removeWTri_if (H : CompHandler) (S : Solver) (p : Prop) [Decidable p]
    (a b d : Lit) (r : Bool) :
    ({ H with solver := if p then S.removeWTri a b d r else S } : CompHandler).sanity_view
      = ({ H with solver := S } : CompHandler).sanity_view := by
  split <;> rfl

theorem sanity_view_tmp_redTris (H : CompHandler) (l : List Lit) (S : Solver) (n : Nat) :
    ({ H with tmp_lits := l, solver := { S with redTris := n } } : CompHandler).sanity_view
      = ({ H with solver := S } : CompHandler).sanity_view := rfl

theorem remove_tri_except_for_lit1_view (H : CompHandler) (lit lit2 lit3 : Lit) :
    (H.remove_tri_except_for_lit1 lit lit2 lit3).sanity_view = H.sanity_view := by
  unfold remove_tri_except_for_lit1
  simp only []
  generalize List.insertionSort Lit.le [lit, lit2, lit3] = sorted
  rw [sanity_view_tmp_redTris, sanity_view_removeWTri_if, sanity_view_removeWTri_if,
    sanity_view_removeWTri_if]

theorem move_tri_clause_view (H : CompHandler) (N : SATSolver) (comp : Nat) (i : Watched)
    (lit : Lit) :
    (move_tri_clause H N comp i lit).1.sanity_view = H.sanity_view
    ∧ (move_tri_clause H N comp i lit).2.nVars = N.nVars := by
  unfold move_tri_clause
  simp only []
  split
  · exact ⟨remove_tri_except_for_lit1_view _ _ _ _, rfl⟩
  · split
    · split <;> exact ⟨rfl, rfl⟩
    · split <;> exact ⟨rfl, rfl⟩

theorem moveClausesImplicit_entry_view (comp : Nat) (lit : Lit)
    (acc : CompHandler × SATSolver × List Watched) (i : Watched) :
    (moveClausesImplicit_entry comp lit acc i).1.sanity_view = acc.1.sanity_view
    ∧ (moveClausesImplicit_entry comp lit acc i).2.1.nVars = acc.2.1.nVars := by
  unfold moveClausesImplicit_entry
  simp only []
  split
  · exact move_binary_clause_view _ _ _ _ _
  · split
    · exact move_tri_clause_view _ _ _ _ _
    · exact ⟨rfl, rfl⟩

theorem moveClausesImplicit_lit_view (comp : Nat) (acc : CompHandler × SATSolver) (lit : Lit) :
    (moveClausesImplicit_lit comp acc lit).1.sanity_view = acc.1.sanity_view
    ∧ (moveClausesImplicit_lit comp acc lit).2.nVars = acc.2.nVars := by
  unfold moveClausesImplicit_lit
  simp only []
  split
  · exact ⟨rfl, rfl⟩
  · exact ⟨foldl_preserves _
        (fun a : CompHandler × SATSolver × List Watched => a.1.sanity_view)
        (fun a i => (moveClausesImplicit_entry_view comp lit a i).1) _ _,
      foldl_preserves _
        (fun a : CompHandler × SATSolver × List Watched => a.2.1.nVars)
        (fun a i => (moveClausesImplicit_entry_view comp lit a i).2) _ _⟩

theorem moveClausesImplicit_view (H : CompHandler) (N : SATSolver) (comp : Nat)
    (vars : List Nat) :
    (moveClausesImplicit H N comp vars).1.sanity_view = H.sanity_view
    ∧ (moveClausesImplicit H N comp vars).2.nVars = N.nVars := by
  unfold moveClausesImplicit moveClausesImplicit_loop
  simp only []
  constructor
  · exact foldl_preserves _ (fun a : CompHandler × SATSolver => a.1.sanity_view)
      (fun a v => by
        show (moveClausesImplicit_lit comp (moveClausesImplicit_lit comp a ⟨v, false⟩)
          ⟨v, true⟩).1.sanity_view = _
        rw [(moveClausesImplicit_lit_view _ _ _).1, (moveClausesImplicit_lit_view _ _ _).1]) _ _
  · exact foldl_preserves _ (fun a : CompHandler × SATSolver => a.2.nVars)
      (fun a v => by
        show (moveClausesImplicit_lit comp (moveClausesImplicit_lit comp a ⟨v, false⟩)
          ⟨v, true⟩).2.nVars = _
        rw [(moveClausesImplicit_lit_view _ _ _).2, (moveClausesImplicit_lit_view _ _ _).2]) _ _

theorem sanity_view_longRedCls (H : CompHandler) (l : List Nat) :
    ({ H with solver := { H.solver with longRedCls := l } } : CompHandler).sanity_view
      = H.sanity_view := rfl

theorem sanity_view_longIrredCls (H : CompHandler) (l : List Nat) :
    ({ H with solver := { H.solver with longIrredCls := l } } : CompHandler).sanity_view
      = H.sanity_view := rfl

/-- Moving the clauses of a component changes nothing that `check_local_vardata_sanity`
reads: after the setup of `solve_component` it is as `moveVariablesBetweenSolvers` left it,
and the sub-solver has the variables that this function created. -/
theorem solve_component_setup_view (E : CompEnv) (H : CompHandler) (comp : Nat)
    (vars_orig : List Nat) :
    (solve_component_setup E H comp vars_orig).1.sanity_view
      = (moveVariablesBetweenSolvers
          (H.createRenumbering (vars_orig.insertionSort (fun a b => a ≤ b)))
          ⟨configureNewSolver E
            (H.createRenumbering (vars_orig.insertionSort (fun a b => a ≤ b)))
            (vars_orig.insertionSort (fun a b => a ≤ b)).length, 0, []⟩
          (vars_orig.insertionSort (fun a b => a ≤ b))).1.sanity_view
    ∧ (solve_component_setup E H comp vars_orig).2.nVars
      = (vars_orig.insertionSort (fun a b => a ≤ b)).length := by
  unfold solve_component_setup
  simp only []
  constructor
  · rw [sanity_view_longRedCls, (moveClausesLong_view _ _ _ _).1, sanity_view_longIrredCls,
      (moveClausesLong_view _ _ _ _).1, (moveClausesImplicit_view _ _ _ _).1]
  · rw [(moveClausesLong_view _ _ _ _).2, (moveClausesLong_view _ _ _ _).2,
      (moveClausesImplicit_view _ _ _ _).2, (moveVariablesBetweenSolvers_spec _ _ _).2.2]
    simp

end CompHandler

namespace CompHandler

theorem move_decision_level_zero_vars_here_eq (E : CompEnv) (H : CompHandler)
    (N : SATSolver) :
    move_decision_level_zero_vars_here E H N
      = (E.get_zero_assigned_lits N).foldl (move_decision_level_zero_vars_here_step E) H :=
  rfl

theorem moveVariablesBetweenSolvers_eq (H : CompHandler) (N : SATSolver) (vars : List Nat) :
    moveVariablesBetweenSolvers H N vars
      = vars.foldl moveVariablesBetweenSolvers_step (H, N) :=
  rfl

/-- Marking or unmarking one outer variable changes the number of marked variables by
one. -/
theorem countP_is_decomposed_update (H G : CompHandler) (o : Nat)
    (hR : H.solver.Renumbered) (ho : o < H.solver.nVarsOuter)
    (hmaps : G.solver.outerToInterMain = H.solver.outerToInterMain)
    (hn : G.solver.nVarsOuter = H.solver.nVarsOuter)
    (hother : ∀ w, w ≠ H.solver.map_outer_to_inter o → G.solver.varData w = H.solver.varData w) :
    (List.range G.solver.nVarsOuter).countP G.is_decomposed
        + (if H.is_decomposed o = true then 1 else 0)
      = (List.range H.solver.nVarsOuter).countP H.is_decomposed
        + (if G.is_decomposed o = true then 1 else 0) := by
  rw [hn]
  apply countP_range_update _ _ o _ ho
  intro k hk hne
  unfold is_decomposed Solver.map_outer_to_inter
  rw [hmaps, hother]
  intro he
  apply hne
  have h1 := hR.outer k hk
  have h2 := hR.outer o ho
  unfold Solver.map_outer_to_inter at he h1 h2
  rw [← h1, he, h2]

/-- What `moveVariablesBetweenSolvers` leaves as it is, and what it adds to
`num_vars_removed`. -/
theorem moveVariablesBetweenSolvers_view (vars : List Nat) :
    ∀ (acc : CompHandler × SATSolver), acc.1.num_vars_removed < 2 ^ 64 →
      (vars.foldl moveVariablesBetweenSolvers_step acc).1.solver.assigns = acc.1.solver.assigns
      ∧ (vars.foldl moveVariablesBetweenSolvers_step acc).1.solver.outerToInterMain
          = acc.1.solver.outerToInterMain
      ∧ (vars.foldl moveVariablesBetweenSolvers_step acc).1.solver.interToOuterMain
          = acc.1.solver.interToOuterMain
      ∧ (vars.foldl moveVariablesBetweenSolvers_step acc).1.solver.nVarsOuter
          = acc.1.solver.nVarsOuter
      ∧ (vars.foldl moveVariablesBetweenSolvers_step acc).1.solver.nVars = acc.1.solver.nVars
      ∧ (vars.foldl moveVariablesBetweenSolvers_step acc).1.savedState = acc.1.savedState
      ∧ (vars.foldl moveVariablesBetweenSolvers_step acc).1.num_vars_removed
          = (acc.1.num_vars_removed + vars.length) % 2 ^ 64 := by
  induction vars with
  | nil =>
    intro acc hlt
    refine ⟨rfl, rfl, rfl, rfl, rfl, rfl, ?_⟩
    simp only [List.foldl_nil, List.length_nil, Nat.add_zero]
    omega
  | cons x xs ih =>
    intro acc _
    obtain ⟨a, b, c, d, e, f, g⟩ := ih (moveVariablesBetweenSolvers_step acc x)
      (Nat.mod_lt _ (by decide))
    simp only [List.foldl_cons, List.length_cons]
    refine ⟨a, b, c, d, e, f, ?_⟩
    rw [g]
    show ((acc.1.num_vars_removed + 1) % 2 ^ 64 + xs.length) % 2 ^ 64 = _
    omega

/-- Marking the variables of a component raises the number of marked outer variables by
the number of variables of the component. -/
theorem moveVariablesBetweenSolvers_count (vars : List Nat) :
    ∀ (acc : CompHandler × SATSolver), acc.1.solver.Renumbered → vars.Nodup →
      (∀ v ∈ vars, v < acc.1.solver.nVars
        ∧ (acc.1.solver.varData v).removed ≠ Removed.decomposed) →
      (List.range (vars.foldl moveVariablesBetweenSolvers_step acc).1.solver.nVarsOuter).countP
          (vars.foldl moveVariablesBetweenSolvers_step acc).1.is_decomposed
        = (List.range acc.1.solver.nVarsOuter).countP acc.1.is_decomposed + vars.length := by
  induction vars with
  | nil => intro acc _ _ _; rfl
  | cons x xs ih =>
    intro acc hR hnd h
    rw [List.nodup_cons] at hnd
    obtain ⟨hx1, hx2⟩ := h x (List.mem_cons_self _ _)
    obtain ⟨r1, r2⟩ := hR.inter x hx1
    have hR2 : (moveVariablesBetweenSolvers_step acc x).1.solver.Renumbered :=
      ⟨hR.outer, hR.inter⟩
    have hstep := countP_is_decomposed_update acc.1 (moveVariablesBetweenSolvers_step acc x).1
      (acc.1.solver.map_inter_to_outer x) hR r1 rfl rfl
      (fun w hw => by
        rw [r2] at hw
        simp [moveVariablesBetweenSolvers_step, Solver.setVarData, Solver.unset_decision_var,
          hw])
    have hp : acc.1.is_decomposed (acc.1.solver.map_inter_to_outer x) = false := by
      unfold is_decomposed
      rw [r2]
      simpa using hx2
    have hq : (moveVariablesBetweenSolvers_step acc x).1.is_decomposed
        (acc.1.solver.map_inter_to_outer x) = true := by
      unfold is_decomposed
      have : (moveVariablesBetweenSolvers_step acc x).1.solver.map_outer_to_inter
          (acc.1.solver.map_inter_to_outer x) = x := r2
      rw [this]
      simp [moveVariablesBetweenSolvers_step, Solver.setVarData, Solver.unset_decision_var]
    rw [hp, hq] at hstep
    simp only [List.foldl_cons, List.length_cons]
    rw [ih (moveVariablesBetweenSolvers_step acc x) hR2 hnd.2
      (fun v hv => by
        obtain ⟨hv1, hv2⟩ := h v (List.mem_cons_of_mem _ hv)
        refine ⟨hv1, ?_⟩
        have hvx : v ≠ x := fun he => hnd.1 (he ▸ hv)
        have : (moveVariablesBetweenSolvers_step acc x).1.solver.varData v
            = acc.1.solver.varData v := by
          simp [moveVariablesBetweenSolvers_step, Solver.setVarData,
            Solver.unset_decision_var, hvx]
        rw [this]
        exact hv2)]
    simp at hstep
    omega

end CompHandler

namespace CompHandler

theorem save_solution_num (E : CompEnv) (N : SATSolver) (vars : List Nat) (H : CompHandler) :
    (save_solution_to_savedstate E H N vars).num_vars_removed = H.num_vars_removed
    ∧ (save_solution_to_savedstate E H N vars).smallsolver_to_bigsolver
        = H.smallsolver_to_bigsolver := by
  unfold save_solution_to_savedstate
  constructor
  · apply foldl_preserves _ (fun A : CompHandler => A.num_vars_removed)
    intro A v
    simp only []
    split <;> rfl
  · apply foldl_preserves _ (fun A : CompHandler => A.smallsolver_to_bigsolver)
    intro A v
    simp only []
    split <;> rfl

/-- What one round of the loop of `move_decision_level_zero_vars_here` does. -/
theorem move_decision_level_zero_vars_here_step_spec (E : CompEnv) (A : CompHandler) (l : Lit) :
    (move_decision_level_zero_vars_here_step E A l).smallsolver_to_bigsolver
        = A.smallsolver_to_bigsolver
    ∧ (move_decision_level_zero_vars_here_step E A l).solver.outerToInterMain
        = A.solver.outerToInterMain
    ∧ (move_decision_level_zero_vars_here_step E A l).solver.interToOuterMain
        = A.solver.interToOuterMain
    ∧ (move_decision_level_zero_vars_here_step E A l).solver.nVarsOuter = A.solver.nVarsOuter
    ∧ (move_decision_level_zero_vars_here_step E A l).solver.nVars = A.solver.nVars
    ∧ (move_decision_level_zero_vars_here_step E A l).savedState
        = A.savedState.set
            (A.solver.map_inter_to_outer (A.smallsolver_to_bigsolver.getD l.var 0))
            lbool.l_Undef
    ∧ (move_decision_level_zero_vars_here_step E A l).num_vars_removed
        = (A.num_vars_removed + (2 ^ 64 - 1)) % 2 ^ 64
    ∧ (∀ w, w ≠ A.smallsolver_to_bigsolver.getD l.var 0 →
        (move_decision_level_zero_vars_here_step E A l).solver.varData w = A.solver.varData w
        ∧ (move_decision_level_zero_vars_here_step E A l).solver.assigns w
            = A.solver.assigns w)
    ∧ ((move_decision_level_zero_vars_here_step E A l).solver.varData
        (A.smallsolver_to_bigsolver.getD l.var 0)).removed = Removed.none := by
  refine ⟨rfl, rfl, rfl, rfl, rfl, rfl, rfl, ?_, ?_⟩
  · intro w hw
    unfold move_decision_level_zero_vars_here_step
    simp only []
    generalize A.smallsolver_to_bigsolver.getD l.var 0 = x at hw ⊢
    simp [Solver.enqueue, Solver.setVarData, Solver.set_decision_var, hw]
  · unfold move_decision_level_zero_vars_here_step
    simp only []
    generalize A.smallsolver_to_bigsolver.getD l.var 0 = x
    simp [Solver.enqueue, Solver.setVarData, Solver.set_decision_var]

/-- What the loop of `move_decision_level_zero_vars_here` does: the variables named by the
literals lose their mark and their saved value; everything else stays. -/
theorem move_decision_level_zero_vars_here_fold (E : CompEnv) (lits : List Lit) :
    ∀ A : CompHandler,
      (lits.foldl (move_decision_level_zero_vars_here_step E) A).smallsolver_to_bigsolver
          = A.smallsolver_to_bigsolver
      ∧ (lits.foldl (move_decision_level_zero_vars_here_step E) A).solver.outerToInterMain
          = A.solver.outerToInterMain
      ∧ (lits.foldl (move_decision_level_zero_vars_here_step E) A).solver.interToOuterMain
          = A.solver.interToOuterMain
      ∧ (lits.foldl (move_decision_level_zero_vars_here_step E) A).solver.nVarsOuter
          = A.solver.nVarsOuter
      ∧ (lits.foldl (move_decision_level_zero_vars_here_step E) A).solver.nVars
          = A.solver.nVars
      ∧ (lits.foldl (move_decision_level_zero_vars_here_step E) A).savedState.length
          = A.savedState.length
      ∧ (∀ w, (∀ l ∈ lits, A.smallsolver_to_bigsolver.getD l.var 0 ≠ w) →
          (lits.foldl (move_decision_level_zero_vars_here_step E) A).solver.varData w
            = A.solver.varData w
          ∧ (lits.foldl (move_decision_level_zero_vars_here_step E) A).solver.assigns w
            = A.solver.assigns w)
      ∧ (∀ w, (∃ l ∈ lits, A.smallsolver_to_bigsolver.getD l.var 0 = w) →
          ((lits.foldl (move_decision_level_zero_vars_here_step E) A).solver.varData w).removed
            = Removed.none)
      ∧ (∀ o, (∀ l ∈ lits,
            A.solver.map_inter_to_outer (A.smallsolver_to_bigsolver.getD l.var 0) ≠ o) →
          (lits.foldl (move_decision_level_zero_vars_here_step E) A).savedState[o]?
            = A.savedState[o]?)
      ∧ (∀ o, (∃ l ∈ lits,
            A.solver.map_inter_to_outer (A.smallsolver_to_bigsolver.getD l.var 0) = o) →
          (lits.foldl (move_decision_level_zero_vars_here_step E) A).savedState.getD o
            lbool.l_Undef = lbool.l_Undef) := by
  induction lits with
  | nil =>
    intro A
    refine ⟨rfl, rfl, rfl, rfl, rfl, rfl, fun _ _ => ⟨rfl, rfl⟩, ?_, fun _ _ => rfl, ?_⟩
    · intro w ⟨l, hl, _⟩
      simp at hl
    · intro w ⟨l, hl, _⟩
      simp at hl
  | cons l rest ih =>
    intro A
    obtain ⟨s1, s2, s3, s4, s5, s6, s7, s8, s9⟩ :=
      move_decision_level_zero_vars_here_step_spec E A l
    obtain ⟨a1, a2, a3, a4, a5, a6, a7, a8, a9, a10⟩ :=
      ih (move_decision_level_zero_vars_here_step E A l)
    have hi2o : (move_decision_level_zero_vars_here_step E A l).solver.map_inter_to_outer
        = A.solver.map_inter_to_outer := by
      funext v
      unfold Solver.map_inter_to_outer
      rw [s3]
    simp only [List.foldl_cons]
    rw [s1] at a7 a8 a9 a10
    rw [hi2o] at a9 a10
    refine ⟨a1.trans s1, a2.trans s2, a3.trans s3, a4.trans s4, a5.trans s5, ?_, ?_, ?_, ?_, ?_⟩
    · rw [a6, s6, List.length_set]
    · intro w hw
      obtain ⟨b1, b2⟩ := a7 w (fun l2 hl2 => hw l2 (List.mem_cons_of_mem _ hl2))
      obtain ⟨c1, c2⟩ := s8 w (Ne.symm (hw l (List.mem_cons_self _ _)))
      exact ⟨b1.trans c1, b2.trans c2⟩
    · intro w ⟨l2, hl2, hw⟩
      by_cases hr : ∃ l3 ∈ rest, A.smallsolver_to_bigsolver.getD l3.var 0 = w
      · exact a8 w hr
      · have hl : l2 = l := by
          rcases List.mem_cons.1 hl2 with h | h
          · exact h
          · exact absurd ⟨l2, h, hw⟩ hr
        rw [(a7 w (fun l3 hl3 he => hr ⟨l3, hl3, he⟩)).1, ← hw, hl]
        exact s9
    · intro o ho
      rw [a9 o (fun l2 hl2 => ho l2 (List.mem_cons_of_mem _ hl2)), s6,
        List.getElem?_set_ne (ho l (List.mem_cons_self _ _))]
    · intro o ⟨l2, hl2, ho⟩
      by_cases hr : ∃ l3 ∈ rest,
          A.solver.map_inter_to_outer (A.smallsolver_to_bigsolver.getD l3.var 0) = o
      · exact a10 o hr
      · have hl : l2 = l := by
          rcases List.mem_cons.1 hl2 with h | h
          · exact h
          · exact absurd ⟨l2, h, ho⟩ hr
        rw [List.getD_eq_getElem?_getD, a9 o (fun l3 hl3 he => hr ⟨l3, hl3, he⟩), s6, ← ho, hl]
        by_cases hlen : A.solver.map_inter_to_outer (A.smallsolver_to_bigsolver.getD l.var 0)
            < A.savedState.length
        · rw [List.getElem?_set_self hlen]
          rfl
        · rw [List.getElem?_eq_none (by rw [List.length_set]; omega)]
          rfl

end CompHandler

theorem Solver.Renumbered.of_eq {S T : Solver} (h : S.Renumbered)
    (h1 : T.outerToInterMain = S.outerToInterMain)
    (h2 : T.interToOuterMain = S.interToOuterMain)
    (h3 : T.nVarsOuter = S.nVarsOuter) (h4 : T.nVars = S.nVars) : T.Renumbered := by
  constructor
  · intro o ho
    have := h.outer o (h3 ▸ ho)
    unfold Solver.map_inter_to_outer Solver.map_outer_to_inter at this ⊢
    rw [h1, h2]
    exact this
  · intro v hv
    have := h.inter v (h4 ▸ hv)
    unfold Solver.map_inter_to_outer Solver.map_outer_to_inter at this ⊢
    rw [h1, h2, h3]
    exact this

namespace CompHandler

/-- The loop of `move_decision_level_zero_vars_here` keeps `num_vars_removed` in step with
the marks, when it meets marked variables only and each of them once. -/
theorem move_decision_level_zero_vars_here_counted (E : CompEnv) (lits : List Lit) :
    ∀ A : CompHandler, A.solver.Renumbered → A.Counted →
      (lits.map (fun l => A.smallsolver_to_bigsolver.getD l.var 0)).Nodup →
      (∀ l ∈ lits, A.smallsolver_to_bigsolver.getD l.var 0 < A.solver.nVars
        ∧ (A.solver.varData (A.smallsolver_to_bigsolver.getD l.var 0)).removed
            = Removed.decomposed) →
      (lits.foldl (move_decision_level_zero_vars_here_step E) A).Counted := by
  induction lits with
  | nil => intro A _ hc _ _; exact hc
  | cons l rest ih =>
    intro A hR hc hnd h
    obtain ⟨s1, s2, s3, s4, s5, s6, s7, s8, s9⟩ :=
      move_decision_level_zero_vars_here_step_spec E A l
    rw [List.map_cons, List.nodup_cons] at hnd
    obtain ⟨hx1, hx2⟩ := h l (List.mem_cons_self _ _)
    obtain ⟨r1, r2⟩ := hR.inter _ hx1
    have hR2 : (move_decision_level_zero_vars_here_step E A l).solver.Renumbered :=
      hR.of_eq s2 s3 s4 s5
    have hstep := countP_is_decomposed_update A (move_decision_level_zero_vars_here_step E A l)
      (A.solver.map_inter_to_outer (A.smallsolver_to_bigsolver.getD l.var 0)) hR r1 s2 s4
      (fun w hw => by
        rw [r2] at hw
        exact (s8 w hw).1)
    have hp : A.is_decomposed
        (A.solver.map_inter_to_outer (A.smallsolver_to_bigsolver.getD l.var 0)) = true := by
      unfold is_decomposed
      rw [r2]
      simpa using hx2
    have hq : (move_decision_level_zero_vars_here_step E A l).is_decomposed
        (A.solver.map_inter_to_outer (A.smallsolver_to_bigsolver.getD l.var 0)) = false := by
      unfold is_decomposed
      have : (move_decision_level_zero_vars_here_step E A l).solver.map_outer_to_inter
          (A.solver.map_inter_to_outer (A.smallsolver_to_bigsolver.getD l.var 0))
          = A.smallsolver_to_bigsolver.getD l.var 0 := by
        unfold Solver.map_outer_to_inter
        rw [s2]
        exact r2
      rw [this, s9]
      rfl
    rw [hp, hq] at hstep
    have hc2 : (move_decision_level_zero_vars_here_step E A l).Counted := by
      constructor
      rw [s7, hc.count]
      simp at hstep
      omega
    simp only [List.foldl_cons]
    apply ih _ hR2 hc2
    · rw [s1]
      exact hnd.2
    · intro l2 hl2
      rw [s1, s5]
      obtain ⟨c1, c2⟩ := h l2 (List.mem_cons_of_mem _ hl2)
      refine ⟨c1, ?_⟩
      have hne : A.smallsolver_to_bigsolver.getD l2.var 0
          ≠ A.smallsolver_to_bigsolver.getD l.var 0 := by
        intro he
        apply hnd.1
        rw [← he]
        exact List.mem_map.2 ⟨l2, hl2, rfl⟩
      rw [(s8 _ hne).1]
      exact c2

theorem clear_removed_maps (H : CompHandler) (outer : Nat) :
    (H.clear_removed outer).solver.interToOuterMain = H.solver.interToOuterMain
    ∧ (H.clear_removed outer).solver.nVars = H.solver.nVars
    ∧ (H.clear_removed outer).solver.assigns = H.solver.assigns := by
  unfold clear_removed
  simp only []
  split <;> exact ⟨rfl, rfl, rfl⟩

/-- The first loop of `readdRemovedClauses` keeps `num_vars_removed` in step with the
marks. -/
theorem foldl_clear_removed_counted (L : List Nat) :
    ∀ H : CompHandler, H.solver.Renumbered → (∀ o ∈ L, o < H.solver.nVarsOuter) →
      H.Counted → (L.foldl clear_removed H).Counted := by
  induction L with
  | nil => intro H _ _ hc; exact hc
  | cons o rest ih =>
    intro H hR hL hc
    obtain ⟨_, _, _, f4, f5⟩ := clear_removed_frame H o
    obtain ⟨g1, g2, _⟩ := clear_removed_maps H o
    have ho := hL o (List.mem_cons_self _ _)
    simp only [List.foldl_cons]
    apply ih _ (hR.of_eq f4 g1 f5 g2)
      (fun o2 ho2 => by rw [f5]; exact hL o2 (List.mem_cons_of_mem _ ho2))
    by_cases hd : (H.solver.varData (H.solver.map_outer_to_inter o)).removed
        = Removed.decomposed
    · have e : H.clear_removed o
          = { H with
              num_vars_removed := (H.num_vars_removed + (2 ^ 64 - 1)) % 2 ^ 64,
              solver := (H.solver.setVarData (H.solver.map_outer_to_inter o)
                { H.solver.varData (H.solver.map_outer_to_inter o) with
                  removed := Removed.none }).set_decision_var
                (H.solver.map_outer_to_inter o) } := by
        unfold clear_removed
        simp only []
        rw [if_pos hd]
      have hstep := countP_is_decomposed_update H (H.clear_removed o) o hR ho f4 f5
        (fun w hw => by
          rw [e]
          simp only [Solver.setVarData, Solver.set_decision_var]
          rw [if_neg hw, if_neg hw])
      have hp : H.is_decomposed o = true := by
        unfold is_decomposed
        simpa using hd
      have hq : (H.clear_removed o).is_decomposed o = false := by
        unfold is_decomposed
        have : (H.clear_removed o).solver.map_outer_to_inter o
            = H.solver.map_outer_to_inter o := by
          unfold Solver.map_outer_to_inter
          rw [f4]
        rw [this, e]
        simp [Solver.setVarData, Solver.set_decision_var]
      rw [hp, hq] at hstep
      constructor
      have hnum : (H.clear_removed o).num_vars_removed
          = (H.num_vars_removed + (2 ^ 64 - 1)) % 2 ^ 64 := by
        rw [e]
      rw [hnum, hc.count]
      simp at hstep
      omega
    · have e : H.clear_removed o = H := by
        unfold clear_removed
        simp only []
        rw [if_neg hd]
      rw [e]
      exact hc

/-- After `readdRemovedClauses` no outer variable is marked or has a saved value, and
`num_vars_removed` is zero. -/
theorem readdRemovedClauses_sane (H : CompHandler) (hR : H.solver.Renumbered)
    (hc : H.Counted) (hsize : H.savedState.length = H.solver.nVarsOuter) :
    H.readdRemovedClauses.Sane ∧ H.readdRemovedClauses.solver.Renumbered := by
  obtain ⟨_, _, _, f4, f5⟩ := foldl_clear_removed_frame (List.range H.solver.nVarsOuter) H
  have hc1 := foldl_clear_removed_counted (List.range H.solver.nVarsOuter) H hR
    (fun o ho => List.mem_range.1 ho) hc
  have g1 : ((List.range H.solver.nVarsOuter).foldl clear_removed H).solver.interToOuterMain
      = H.solver.interToOuterMain :=
    foldl_preserves _ (fun A : CompHandler => A.solver.interToOuterMain)
      (fun A o => (clear_removed_maps A o).1) _ _
  have g2 : ((List.range H.solver.nVarsOuter).foldl clear_removed H).solver.nVars
      = H.solver.nVars :=
    foldl_preserves _ (fun A : CompHandler => A.solver.nVars)
      (fun A o => (clear_removed_maps A o).2.1) _ _
  have e1 : H.readdRemovedClauses.solver.outerToInterMain = H.solver.outerToInterMain := by
    rw [← f4]
    unfold readdRemovedClauses
    simp only []
    apply foldl_preserves _ (fun S : Solver => S.outerToInterMain)
    intro _ _
    rfl
  have e2 : H.readdRemovedClauses.solver.interToOuterMain = H.solver.interToOuterMain := by
    rw [← g1]
    unfold readdRemovedClauses
    simp only []
    apply foldl_preserves _ (fun S : Solver => S.interToOuterMain)
    intro _ _
    rfl
  have e3 : H.readdRemovedClauses.solver.nVarsOuter = H.solver.nVarsOuter := by
    rw [← f5]
    unfold readdRemovedClauses
    simp only []
    apply foldl_preserves _ (fun S : Solver => S.nVarsOuter)
    intro _ _
    rfl
  have e4 : H.readdRemovedClauses.solver.nVars = H.solver.nVars := by
    rw [← g2]
    unfold readdRemovedClauses
    simp only []
    apply foldl_preserves _ (fun S : Solver => S.nVars)
    intro _ _
    rfl
  have e5 : H.readdRemovedClauses.num_vars_removed
      = ((List.range H.solver.nVarsOuter).foldl clear_removed H).num_vars_removed := rfl
  have hsaved : ∀ o, H.readdRemovedClauses.is_saved o = false := by
    intro o
    unfold is_saved
    rw [readdRemovedClauses_savedState, List.getD_eq_getElem?_getD]
    by_cases ho : o < H.savedState.length
    · rw [List.getElem?_eq_getElem (by rw [List.length_replicate]; exact ho)]
      simp
    · rw [List.getElem?_eq_none (by rw [List.length_replicate]; omega)]
      simp
  have hdec : ∀ o < H.solver.nVarsOuter, H.readdRemovedClauses.is_decomposed o = false := by
    intro o ho
    unfold is_decomposed Solver.map_outer_to_inter
    rw [e1, readdRemovedClauses_varData]
    by_cases hd : (H.solver.varData (H.solver.outerToInterMain o)).removed
        = Removed.decomposed
    · rw [if_pos ⟨hd, o, List.mem_range.2 ho, rfl⟩]
      rfl
    · rw [if_neg (fun h => hd h.1)]
      simpa using hd
  have hcnt0 : (List.range H.solver.nVarsOuter).countP H.readdRemovedClauses.is_decomposed
      = 0 := by
    rw [List.countP_eq_zero]
    intro o ho
    rw [hdec o (List.mem_range.1 ho)]
    simp
  have hcnt1 : (List.range H.solver.nVarsOuter).countP
      ((List.range H.solver.nVarsOuter).foldl clear_removed H).is_decomposed = 0 := by
    rw [← hcnt0]
    apply List.countP_congr
    intro o _
    unfold is_decomposed Solver.map_outer_to_inter
    rw [e1, f4]
    have : H.readdRemovedClauses.solver.varData
        = ((List.range H.solver.nVarsOuter).foldl clear_removed H).solver.varData := by
      unfold readdRemovedClauses
      simp only []
      rw [(foldl_addClause_trace _ _).2]
    rw [this]
  refine ⟨⟨?_, ?_, ?_, ?_, ?_⟩, hR.of_eq e1 e2 e3 e4⟩
  · rw [readdRemovedClauses_savedState, List.length_replicate, e3]
    exact hsize
  · intro o ho
    rw [hsaved o, hdec o (e3 ▸ ho)]
  · intro o _ hs
    rw [hsaved o] at hs
    exact absurd hs (by simp)
  · intro o _ hs
    rw [hsaved o] at hs
    exact absurd hs (by simp)
  · have : (List.range H.solver.nVarsOuter).countP H.readdRemovedClauses.is_saved = 0 := by
      rw [List.countP_eq_zero]
      intro o _
      rw [hsaved o]
      simp
    rw [e5, hc1.count, f5, hcnt1, e3, this]

end CompHandler

namespace CompHandler

/-- In a sane state the counter is in step with the marks. -/
theorem Sane.counted {H : CompHandler} (h : H.Sane) : H.Counted := by
  constructor
  rw [h.count]
  congr 1
  apply List.countP_congr
  intro o ho
  rw [h.saved o (List.mem_range.1 ho)]

/-- The state in which `solve_component` calls the sub-solver: the variables of the
component are marked and are no decision variables, the counter has followed, and what
else `check_local_vardata_sanity` reads is as before. -/
theorem solve_component_setup_marks (E : CompEnv) (H : CompHandler) (comp : Nat)
    (vars_orig vars : List Nat) (hv : vars = vars_orig.insertionSort (fun a b => a ≤ b))
    (hS : H.Sane) (hR : H.solver.Renumbered) (hnd : vars.Nodup)
    (hfresh : ∀ v ∈ vars, v < H.solver.nVars
      ∧ H.savedState.getD (H.solver.map_inter_to_outer v) lbool.l_Undef = lbool.l_Undef) :
    (solve_component_setup E H comp vars_orig).1.solver.assigns = H.solver.assigns
    ∧ (solve_component_setup E H comp vars_orig).1.solver.outerToInterMain
        = H.solver.outerToInterMain
    ∧ (solve_component_setup E H comp vars_orig).1.solver.interToOuterMain
        = H.solver.interToOuterMain
    ∧ (solve_component_setup E H comp vars_orig).1.solver.nVarsOuter = H.solver.nVarsOuter
    ∧ (solve_component_setup E H comp vars_orig).1.solver.nVars = H.solver.nVars
    ∧ (solve_component_setup E H comp vars_orig).1.savedState = H.savedState
    ∧ (∀ v ∈ vars,
        ((solve_component_setup E H comp vars_orig).1.solver.varData v).removed
          = Removed.decomposed
        ∧ ((solve_component_setup E H comp vars_orig).1.solver.varData v).is_decision = false)
    ∧ (∀ v, v ∉ vars →
        (solve_component_setup E H comp vars_orig).1.solver.varData v = H.solver.varData v)
    ∧ (solve_component_setup E H comp vars_orig).1.Counted
    ∧ (solve_component_setup E H comp vars_orig).1.smallsolver_to_bigsolver = vars
    ∧ (∀ v ∈ vars,
        (solve_component_setup E H comp vars_orig).1.upd_bigsolver_to_smallsolver v
          < vars.length)
    ∧ (solve_component_setup E H comp vars_orig).2.nVars = vars.length := by
  obtain ⟨sv1, sv2⟩ := solve_component_setup_view E H comp vars_orig
  obtain ⟨sm1, sm2⟩ := solve_component_setup_maps E H comp vars_orig
  rw [← hv] at sv1 sv2 sm1 sm2
  obtain ⟨m1, m2, _⟩ := moveVariablesBetweenSolvers_spec vars (H.createRenumbering vars)
    ⟨configureNewSolver E (H.createRenumbering vars) vars.length, 0, []⟩
  have hlt : H.num_vars_removed < 2 ^ 64 := by
    rw [hS.count]
    exact Nat.mod_lt _ (by decide)
  obtain ⟨v1, v2, v3, v4, v5, v6, v7⟩ := moveVariablesBetweenSolvers_view vars
    (H.createRenumbering vars,
      ⟨configureNewSolver E (H.createRenumbering vars) vars.length, 0, []⟩) hlt
  have hnotdec : ∀ v ∈ vars, v < H.solver.nVars
      ∧ (H.solver.varData v).removed ≠ Removed.decomposed := by
    intro v hvm
    obtain ⟨f1, f2⟩ := hfresh v hvm
    obtain ⟨r1, r2⟩ := hR.inter v f1
    refine ⟨f1, ?_⟩
    have := hS.saved _ r1
    unfold is_saved is_decomposed at this
    rw [r2, f2] at this
    simpa using this
  have mc := moveVariablesBetweenSolvers_count vars
    (H.createRenumbering vars,
      ⟨configureNewSolver E (H.createRenumbering vars) vars.length, 0, []⟩) hR hnd hnotdec
  rw [← moveVariablesBetweenSolvers_eq] at v1 v2 v3 v4 v5 v6 v7 mc
  simp only [sanity_view, Prod.mk.injEq] at sv1
  obtain ⟨w1, w2, w3, w4, w5, w6, w7, w8⟩ := sv1
  refine ⟨w2.trans v1, w3.trans v2, w4.trans v3, w5.trans v4, w6.trans v5, w7.trans v6,
    ?_, ?_, ?_, ?_, ?_, sv2⟩
  · intro v hvm
    rw [w1]
    exact m1 v hvm
  · intro v hvm
    rw [w1]
    exact m2 v hvm
  · constructor
    rw [w8, v7, w5]
    have e : (solve_component_setup E H comp vars_orig).1.is_decomposed
        = (moveVariablesBetweenSolvers (H.createRenumbering vars)
            ⟨configureNewSolver E (H.createRenumbering vars) vars.length, 0, []⟩
            vars).1.is_decomposed := by
      funext o
      unfold is_decomposed Solver.map_outer_to_inter
      rw [w1, w3]
    rw [e, mc]
    show (H.num_vars_removed + vars.length) % 2 ^ 64 = _
    rw [hS.counted.count]
    show _ = ((List.range H.solver.nVarsOuter).countP H.is_decomposed + vars.length) % 2 ^ 64
    omega
  · rw [sm2]
    exact createRenumbering_s2b H vars
  · intro v hvm
    obtain ⟨k, hk, hkv⟩ := List.getElem_of_mem hvm
    have := createRenumbering_b2s H vars hnd (fun v hv2 => (hfresh v hv2).1) k hk
    unfold upd_bigsolver_to_smallsolver at this ⊢
    rw [sm1, ← hkv, this]
    exact hk

end CompHandler

namespace CompHandler

/-- The branch of `solve_component` for a satisfiable component, from the state in which
the sub-solver was called: the state is sane again, and what belongs to variables outside
the component is as in the state `H` before `solve_component`. -/
theorem solve_component_sat_sane (E : CompEnv) (H A R : CompHandler) (N : SATSolver)
    (vars : List Nat)
    (hRdef : R = move_decision_level_zero_vars_here E
      (save_solution_to_savedstate E A N vars) N)
    (hS : H.Sane) (hR : H.solver.Renumbered) (hnd : vars.Nodup)
    (hfresh : ∀ v ∈ vars, v < H.solver.nVars ∧ H.solver.assigns v = lbool.l_Undef)
    (hA1 : A.solver.assigns = H.solver.assigns)
    (hA2 : A.solver.outerToInterMain = H.solver.outerToInterMain)
    (hA3 : A.solver.interToOuterMain = H.solver.interToOuterMain)
    (hA4 : A.solver.nVarsOuter = H.solver.nVarsOuter)
    (hA5 : A.solver.nVars = H.solver.nVars)
    (hA6 : A.savedState = H.savedState)
    (hA7 : ∀ v ∈ vars, (A.solver.varData v).removed = Removed.decomposed
      ∧ (A.solver.varData v).is_decision = false)
    (hA8 : ∀ v, v ∉ vars → A.solver.varData v = H.solver.varData v)
    (hA9 : A.Counted) (hA10 : A.smallsolver_to_bigsolver = vars)
    (hmodel : ∀ v ∈ vars,
      E.get_model N (A.upd_bigsolver_to_smallsolver v) ≠ lbool.l_Undef)
    (hzb : ∀ l ∈ E.get_zero_assigned_lits N, l.var < vars.length)
    (hzn : ((E.get_zero_assigned_lits N).map Lit.var).Nodup) :
    R.Sane ∧ R.solver.Renumbered
    ∧ R.solver.nVars = H.solver.nVars
    ∧ R.solver.interToOuterMain = H.solver.interToOuterMain
    ∧ (∀ w, w ∉ vars → R.solver.assigns w = H.solver.assigns w)
    ∧ (∀ w, w ∉ vars → w < H.solver.nVars →
        R.savedState.getD (H.solver.map_inter_to_outer w) lbool.l_Undef
          = H.savedState.getD (H.solver.map_inter_to_outer w) lbool.l_Undef) := by
  -- the renumbering of the main solver
  have hi2o : ∀ v, A.solver.map_inter_to_outer v = H.solver.map_inter_to_outer v := by
    intro v
    unfold Solver.map_inter_to_outer
    rw [hA3]
  have hback : ∀ v, v < H.solver.nVars → ∀ o, H.solver.map_inter_to_outer v = o →
      H.solver.map_outer_to_inter o = v := by
    intro v hv o ho
    rw [← ho]
    exact (hR.inter v hv).2
  have hinj : ∀ v, v < H.solver.nVars → ∀ w, w < H.solver.nVars →
      H.solver.map_inter_to_outer v = H.solver.map_inter_to_outer w → v = w := by
    intro v hv w hw he
    rw [← hback v hv _ rfl, he, hback w hw _ rfl]
  -- the saved solution
  obtain ⟨p1, _, p3⟩ := save_solution_frame E N vars A
  obtain ⟨q1, q2⟩ := save_solution_num E N vars A
  have val : ∀ v ∈ vars,
      (save_solution_to_savedstate E A N vars).savedState.getD
        (H.solver.map_inter_to_outer v) lbool.l_Undef ≠ lbool.l_Undef := by
    intro v hv
    have := save_solution_value E N vars A
      (fun a ha b hb he => by
        rw [hi2o, hi2o] at he
        exact hinj a (hfresh a ha).1 b (hfresh b hb).1 he)
      (fun a ha => by
        rw [hA6, hS.size, hi2o]
        exact (hR.inter a (hfresh a ha).1).1)
      v hv (hmodel v hv)
    rw [hi2o] at this
    rw [List.getD_eq_getElem?_getD, this]
    exact hmodel v hv
  have oth : ∀ o, (∀ v ∈ vars, H.solver.map_inter_to_outer v ≠ o) →
      (save_solution_to_savedstate E A N vars).savedState[o]? = H.savedState[o]? := by
    intro o ho
    rw [save_solution_other E N vars A o (fun v hv _ => by rw [hi2o]; exact ho v hv), hA6]
  -- the literals assigned at level zero
  have hx : ∀ l ∈ E.get_zero_assigned_lits N, vars.getD l.var 0 ∈ vars := by
    intro l hl
    rw [List.getD_eq_getElem _ _ (hzb l hl)]
    exact List.getElem_mem _
  have hxnd : ((E.get_zero_assigned_lits N).map (fun l => vars.getD l.var 0)).Nodup := by
    have : (E.get_zero_assigned_lits N).map (fun l => vars.getD l.var 0)
        = ((E.get_zero_assigned_lits N).map Lit.var).map (fun i => vars.getD i 0) := by
      rw [List.map_map]
      rfl
    rw [this]
    apply List.Nodup.map_on _ hzn
    intro i hi j hj he
    obtain ⟨l1, hl1, e1⟩ := List.mem_map.1 hi
    obtain ⟨l2, hl2, e2⟩ := List.mem_map.1 hj
    have b1 : i < vars.length := e1 ▸ hzb l1 hl1
    have b2 : j < vars.length := e2 ▸ hzb l2 hl2
    rw [List.getD_eq_getElem _ _ b1, List.getD_eq_getElem _ _ b2] at he
    exact (List.Nodup.getElem_inj_iff hnd).1 he
  have hR5 : (save_solution_to_savedstate E A N vars).solver.Renumbered := by
    rw [p1]
    exact hR.of_eq hA2 hA3 hA4 hA5
  have hC5 : (save_solution_to_savedstate E A N vars).Counted := by
    constructor
    have : (save_solution_to_savedstate E A N vars).is_decomposed = A.is_decomposed := by
      funext o
      unfold is_decomposed
      rw [p1]
    rw [q1, this, p1]
    exact hA9.count
  obtain ⟨a1, a2, a3, a4, a5, a6, a7, a8, a9, a10⟩ :=
    move_decision_level_zero_vars_here_fold E (E.get_zero_assigned_lits N)
      (save_solution_to_savedstate E A N vars)
  have zc := move_decision_level_zero_vars_here_counted E (E.get_zero_assigned_lits N)
    (save_solution_to_savedstate E A N vars) hR5 hC5
    (by rw [q2, hA10]; exact hxnd)
    (fun l hl => by
      rw [q2, hA10, p1, hA5]
      exact ⟨(hfresh _ (hx l hl)).1, (hA7 _ (hx l hl)).1⟩)
  rw [← move_decision_level_zero_vars_here_eq, ← hRdef] at a1 a2 a3 a4 a5 a6 a7 a8 a9 a10 zc
  rw [q2, hA10] at a7 a8 a9 a10
  rw [p1] at a2 a3 a4 a5 a7 a9 a10
  have hRo2i : ∀ o, R.solver.map_outer_to_inter o = H.solver.map_outer_to_inter o := by
    intro o
    unfold Solver.map_outer_to_inter
    rw [a2, hA2]
  -- the three kinds of outer variables
  have k1 : ∀ o < H.solver.nVarsOuter,
      (∃ l ∈ E.get_zero_assigned_lits N, vars.getD l.var 0 = H.solver.map_outer_to_inter o) →
      R.is_saved o = false ∧ R.is_decomposed o = false := by
    intro o ho ⟨l, hl, he⟩
    constructor
    · unfold is_saved
      rw [a10 o ⟨l, hl, by rw [hi2o, he]; exact hR.outer o ho⟩]
      simp
    · unfold is_decomposed
      rw [hRo2i, a8 _ ⟨l, hl, he⟩]
      rfl
  have hzo : ∀ o < H.solver.nVarsOuter,
      (∀ l ∈ E.get_zero_assigned_lits N, vars.getD l.var 0 ≠ H.solver.map_outer_to_inter o) →
      ∀ l ∈ E.get_zero_assigned_lits N,
        A.solver.map_inter_to_outer (vars.getD l.var 0) ≠ o := by
    intro o _ hne l hl he
    rw [hi2o] at he
    exact hne l hl (hback _ (hfresh _ (hx l hl)).1 o he).symm
  have k2 : ∀ o < H.solver.nVarsOuter, H.solver.map_outer_to_inter o ∈ vars →
      (∀ l ∈ E.get_zero_assigned_lits N, vars.getD l.var 0 ≠ H.solver.map_outer_to_inter o) →
      R.is_saved o = true ∧ R.is_decomposed o = true
      ∧ (R.solver.varData (H.solver.map_outer_to_inter o)).is_decision = false
      ∧ R.solver.assigns (H.solver.map_outer_to_inter o) = lbool.l_Undef := by
    intro o ho hmem hne
    obtain ⟨b1, b2⟩ := a7 _ hne
    refine ⟨?_, ?_, ?_, ?_⟩
    · unfold is_saved
      rw [List.getD_eq_getElem?_getD, a9 o (hzo o ho hne), ← List.getD_eq_getElem?_getD]
      have := val _ hmem
      rw [hR.outer o ho] at this
      simpa using this
    · unfold is_decomposed
      rw [hRo2i, b1, (hA7 _ hmem).1]
      rfl
    · rw [b1]
      exact (hA7 _ hmem).2
    · rw [b2, hA1]
      exact (hfresh _ hmem).2
  have hout : ∀ w, w ∉ vars →
      ∀ l ∈ E.get_zero_assigned_lits N, vars.getD l.var 0 ≠ w :=
    fun w hw l hl he => hw (he ▸ hx l hl)
  have k3 : ∀ o < H.solver.nVarsOuter, H.solver.map_outer_to_inter o ∉ vars →
      R.is_saved o = H.is_saved o
      ∧ R.solver.varData (H.solver.map_outer_to_inter o)
        = H.solver.varData (H.solver.map_outer_to_inter o)
      ∧ R.solver.assigns (H.solver.map_outer_to_inter o)
        = H.solver.assigns (H.solver.map_outer_to_inter o) := by
    intro o ho hmem
    obtain ⟨b1, b2⟩ := a7 _ (hout _ hmem)
    refine ⟨?_, ?_, ?_⟩
    · unfold is_saved
      rw [List.getD_eq_getElem?_getD, a9 o (hzo o ho (hout _ hmem)),
        oth o (fun v hv he => hmem (hback v (hfresh v hv).1 o he ▸ hv)),
        ← List.getD_eq_getElem?_getD]
    · rw [b1, hA8 _ hmem]
    · rw [b2, hA1]
  have hn : R.solver.nVarsOuter = H.solver.nVarsOuter := a4.trans hA4
  have hsaved : ∀ o < H.solver.nVarsOuter, R.is_saved o = R.is_decomposed o := by
    intro o ho
    by_cases hmem : H.solver.map_outer_to_inter o ∈ vars
    · by_cases hz : ∃ l ∈ E.get_zero_assigned_lits N,
          vars.getD l.var 0 = H.solver.map_outer_to_inter o
      · obtain ⟨c1, c2⟩ := k1 o ho hz
        rw [c1, c2]
      · obtain ⟨c1, c2, _, _⟩ := k2 o ho hmem (fun l hl he => hz ⟨l, hl, he⟩)
        rw [c1, c2]
    · obtain ⟨c1, c2, _⟩ := k3 o ho hmem
      rw [c1, hS.saved o ho]
      unfold is_decomposed
      rw [hRo2i, c2]
  refine ⟨⟨?_, ?_, ?_, ?_, ?_⟩, ?_, a5.trans hA5, a3.trans hA3, ?_, ?_⟩
  · rw [a6, p3, hA6, hS.size, hn]
  · intro o ho
    exact hsaved o (hn ▸ ho)
  · intro o ho hs
    rw [hn] at ho
    rw [hRo2i]
    by_cases hmem : H.solver.map_outer_to_inter o ∈ vars
    · by_cases hz : ∃ l ∈ E.get_zero_assigned_lits N,
          vars.getD l.var 0 = H.solver.map_outer_to_inter o
      · rw [(k1 o ho hz).1] at hs
        exact absurd hs (by simp)
      · exact (k2 o ho hmem (fun l hl he => hz ⟨l, hl, he⟩)).2.2.1
    · obtain ⟨c1, c2, _⟩ := k3 o ho hmem
      rw [c2]
      exact hS.nondecision o ho (c1 ▸ hs)
  · intro o ho hs
    rw [hn] at ho
    rw [hRo2i]
    by_cases hmem : H.solver.map_outer_to_inter o ∈ vars
    · by_cases hz : ∃ l ∈ E.get_zero_assigned_lits N,
          vars.getD l.var 0 = H.solver.map_outer_to_inter o
      · rw [(k1 o ho hz).1] at hs
        exact absurd hs (by simp)
      · exact Or.inl (k2 o ho hmem (fun l hl he => hz ⟨l, hl, he⟩)).2.2.2
    · obtain ⟨c1, c2, c3⟩ := k3 o ho hmem
      rw [c2, c3]
      exact hS.value o ho (c1 ▸ hs)
  · rw [zc.count]
    congr 1
    apply List.countP_congr
    intro o ho
    rw [hsaved o (hn ▸ List.mem_range.1 ho)]
  · exact hR.of_eq (a2.trans hA2) (a3.trans hA3) hn (a5.trans hA5)
  · intro w hw
    rw [(a7 w (hout w hw)).2, hA1]
  · intro w hw hlt
    rw [List.getD_eq_getElem?_getD,
      a9 _ (fun l hl he => by
        rw [hi2o] at he
        exact hout w hw l hl (hinj _ (hfresh _ (hx l hl)).1 w hlt he)),
      oth _ (fun v hv he => hw (hinj v (hfresh v hv).1 w hlt he ▸ hv)),
      ← List.getD_eq_getElem?_getD]

end CompHandler

namespace CompHandler

theorem solve_component_of_true (E : CompEnv) (H : CompHandler) (comp : Nat)
    (vars : List Nat)
    (h : E.solve (solve_component_setup E H comp vars).2 = lbool.l_True) :
    solve_component E H comp vars
      = (move_decision_level_zero_vars_here E
          (save_solution_to_savedstate E (solve_component_setup E H comp vars).1
            (solve_component_setup E H comp vars).2
            (vars.insertionSort (fun a b => a ≤ b)))
          (solve_component_setup E H comp vars).2, true) := by
  unfold solve_component
  simp only [h]
  rfl

/-- `solve_component` on a component of fresh variables: unless the component was found
unsatisfiable, the state is sane afterwards; and when the loop of `handle` goes on, what
belongs to variables outside the component is as before. -/
theorem solve_component_sane (E : CompEnv) (H : CompHandler) (comp : Nat)
    (vars_orig : List Nat) (hE : E.SubSolver) (hS : H.Sane) (hR : H.solver.Renumbered)
    (hnd : vars_orig.Nodup)
    (hfresh : ∀ v ∈ vars_orig, v < H.solver.nVars ∧ H.solver.assigns v = lbool.l_Undef
      ∧ H.savedState.getD (H.solver.map_inter_to_outer v) lbool.l_Undef = lbool.l_Undef) :
    ((solve_component E H comp vars_orig).2 = true
        ∨ (solve_component E H comp vars_orig).1.solver.ok = true →
      (solve_component E H comp vars_orig).1.Sane)
    ∧ ((solve_component E H comp vars_orig).2 = true →
      (solve_component E H comp vars_orig).1.solver.Renumbered
      ∧ (solve_component E H comp vars_orig).1.solver.nVars = H.solver.nVars
      ∧ (solve_component E H comp vars_orig).1.solver.interToOuterMain
          = H.solver.interToOuterMain
      ∧ (∀ w, w ∉ vars_orig →
          (solve_component E H comp vars_orig).1.solver.assigns w = H.solver.assigns w)
      ∧ (∀ w, w ∉ vars_orig → w < H.solver.nVars →
          (solve_component E H comp vars_orig).1.savedState.getD
              (H.solver.map_inter_to_outer w) lbool.l_Undef
            = H.savedState.getD (H.solver.map_inter_to_outer w) lbool.l_Undef)) := by
  have hperm := List.perm_insertionSort (fun a b : Nat => a ≤ b) vars_orig
  have hmem : ∀ v, v ∈ vars_orig.insertionSort (fun a b => a ≤ b) ↔ v ∈ vars_orig :=
    fun v => hperm.mem_iff
  obtain ⟨s1, s2, s3, s4, s5, s6, s7, s8, s9, s10, s11, s12⟩ :=
    solve_component_setup_marks E H comp vars_orig _ rfl hS hR (hperm.nodup_iff.2 hnd)
      (fun v hv => ⟨(hfresh v ((hmem v).1 hv)).1, (hfresh v ((hmem v).1 hv)).2.2⟩)
  cases hst : E.solve (solve_component_setup E H comp vars_orig).2 with
  | l_Undef =>
    rw [solve_component_of_undef E H comp vars_orig hst]
    refine ⟨fun _ => ?_, fun h => absurd h (by simp)⟩
    exact (readdRemovedClauses_sane _ (hR.of_eq s2 s3 s4 s5) s9
      (by rw [s6, s4]; exact hS.size)).1
  | l_False =>
    rw [solve_component_of_false E H comp vars_orig hst]
    refine ⟨fun h => ?_, fun h => absurd h (by simp)⟩
    rcases h with h | h
    · exact absurd h (by simp)
    · exact absurd h (by simp)
  | l_True =>
    rw [solve_component_of_true E H comp vars_orig hst]
    obtain ⟨t1, t2, t3, t4, t5, t6⟩ := solve_component_sat_sane E H
      (solve_component_setup E H comp vars_orig).1 _
      (solve_component_setup E H comp vars_orig).2
      (vars_orig.insertionSort (fun a b => a ≤ b)) rfl hS hR (hperm.nodup_iff.2 hnd)
      (fun v hv => ⟨(hfresh v ((hmem v).1 hv)).1, (hfresh v ((hmem v).1 hv)).2.1⟩)
      s1 s2 s3 s4 s5 s6 s7 s8 s9 s10
      (fun v hv => hE.model _ hst _ (by rw [s12]; exact s11 v hv))
      (fun l hl => by rw [← s12]; exact hE.zero_bound _ l hl)
      (hE.zero_nodup _)
    refine ⟨fun _ => t1, fun _ => ⟨t2, t3, t4, ?_, ?_⟩⟩
    · intro w hw
      exact t5 w (fun h => hw ((hmem w).1 h))
    · intro w hw hlt
      exact t6 w (fun h => hw ((hmem w).1 h)) hlt

/-- `try_to_solve_component` on a component of fresh variables. -/
theorem try_to_solve_component_sane (E : CompEnv) (H : CompHandler) (comp : Nat)
    (vars_orig : List Nat) (hE : E.SubSolver) (hS : H.Sane) (hR : H.solver.Renumbered)
    (hnd : vars_orig.Nodup)
    (hfresh : ∀ v ∈ vars_orig, v < H.solver.nVars ∧ H.solver.assigns v = lbool.l_Undef
      ∧ H.savedState.getD (H.solver.map_inter_to_outer v) lbool.l_Undef = lbool.l_Undef) :
    ((try_to_solve_component E H comp vars_orig).2 = true
        ∨ (try_to_solve_component E H comp vars_orig).1.solver.ok = true →
      (try_to_solve_component E H comp vars_orig).1.Sane)
    ∧ ((try_to_solve_component E H comp vars_orig).2 = true →
      (try_to_solve_component E H comp vars_orig).1.solver.Renumbered
      ∧ (try_to_solve_component E H comp vars_orig).1.solver.nVars = H.solver.nVars
      ∧ (try_to_solve_component E H comp vars_orig).1.solver.interToOuterMain
          = H.solver.interToOuterMain
      ∧ (∀ w, w ∉ vars_orig →
          (try_to_solve_component E H comp vars_orig).1.solver.assigns w
            = H.solver.assigns w)
      ∧ (∀ w, w ∉ vars_orig → w < H.solver.nVars →
          (try_to_solve_component E H comp vars_orig).1.savedState.getD
              (H.solver.map_inter_to_outer w) lbool.l_Undef
            = H.savedState.getD (H.solver.map_inter_to_outer w) lbool.l_Undef)) := by
  unfold try_to_solve_component
  split
  · exact ⟨fun _ => hS, fun _ => ⟨hR, rfl, rfl, fun _ _ => rfl, fun _ _ _ => rfl⟩⟩
  · split
    · exact ⟨fun _ => hS, fun _ => ⟨hR, rfl, rfl, fun _ _ => rfl, fun _ _ _ => rfl⟩⟩
    · exact solve_component_sane E H comp vars_orig hE hS hR hnd hfresh

end CompHandler

namespace CompHandler

/-- The loop of `handle` over components of fresh variables, no two of which share a
variable: unless a component was found unsatisfiable, the state is sane afterwards. -/
theorem handle_loop_sane (E : CompEnv) (rt : List (Nat × List Nat)) (hE : E.SubSolver) :
    ∀ (sizes : List (Nat × Nat)) (H : CompHandler), H.Sane → H.solver.Renumbered →
      sizes.Pairwise
        (fun a b => List.Disjoint ((rt.lookup a.1).getD []) ((rt.lookup b.1).getD [])) →
      (∀ s ∈ sizes, ((rt.lookup s.1).getD []).Nodup) →
      (∀ s ∈ sizes, ∀ v ∈ (rt.lookup s.1).getD [],
        v < H.solver.nVars ∧ H.solver.assigns v = lbool.l_Undef
        ∧ H.savedState.getD (H.solver.map_inter_to_outer v) lbool.l_Undef
          = lbool.l_Undef) →
      ((handle_loop E rt H sizes).2 = true ∨ (handle_loop E rt H sizes).1.solver.ok = true) →
      (handle_loop E rt H sizes).1.Sane := by
  intro sizes
  induction sizes with
  | nil => intro H hS _ _ _ _ _; exact hS
  | cons s rest ih =>
    intro H hS hR hpw hnd hfresh hres
    rw [List.pairwise_cons] at hpw
    obtain ⟨t1, t2⟩ := try_to_solve_component_sane E H s.1 ((rt.lookup s.1).getD []) hE hS hR
      (hnd s (List.mem_cons_self _ _)) (hfresh s (List.mem_cons_self _ _))
    simp only [handle_loop] at hres ⊢
    by_cases hc : (try_to_solve_component E H s.1 ((rt.lookup s.1).getD [])).2 = true
    · have hc2 : ¬ (!(try_to_solve_component E H s.1 ((rt.lookup s.1).getD [])).2) = true := by
        simp [hc]
      rw [if_neg hc2] at hres ⊢
      obtain ⟨u1, u2, u3, u4, u5⟩ := t2 hc
      apply ih _ (t1 (Or.inl hc)) u1 hpw.2
        (fun s2 hs2 => hnd s2 (List.mem_cons_of_mem _ hs2)) _ hres
      intro s2 hs2 v hv
      obtain ⟨f1, f2, f3⟩ := hfresh s2 (List.mem_cons_of_mem _ hs2) v hv
      have hvn : v ∉ (rt.lookup s.1).getD [] := fun h => hpw.1 s2 hs2 h hv
      refine ⟨by rw [u2]; exact f1, by rw [u4 v hvn]; exact f2, ?_⟩
      have : (try_to_solve_component E H s.1
          ((rt.lookup s.1).getD [])).1.solver.map_inter_to_outer v
          = H.solver.map_inter_to_outer v := by
        unfold Solver.map_inter_to_outer
        rw [u3]
      rw [this, u5 v hvn f1]
      exact f3
    · have hc2 : (!(try_to_solve_component E H s.1 ((rt.lookup s.1).getD [])).2) = true := by
        simpa using hc
      rw [if_pos hc2] at hres ⊢
      rcases hres with h | h
      · exact absurd h (by simp)
      · exact t1 (Or.inr h)

theorem Sane.of_compFinder {H : CompHandler} (h : H.Sane) (cf : Option CompFinder) :
    ({ H with compFinder := cf } : CompHandler).Sane :=
  ⟨h.size, h.saved, h.nondecision, h.value, h.count⟩

/-- Whenever `handle` ends with `solver->ok` true, the state is sane. -/
theorem handle_sane (E : CompEnv) (H : CompHandler) (hE : E.SubSolver) (hS : H.Sane)
    (hR : H.solver.Renumbered) (hF : (E.find_components H.solver).Fresh H)
    (hok : (handle E H).1.solver.ok = true) : (handle E H).1.Sane := by
  unfold handle at hok ⊢
  simp only [] at hok ⊢
  split
  · exact (hS.of_compFinder _).of_compFinder _
  · split
    · exact (hS.of_compFinder _).of_compFinder _
    · split
      · exact (hS.of_compFinder _).of_compFinder _
      · rename_i h1 h2 h3
        rw [if_neg h1, if_neg h2, if_neg h3] at hok
        apply Sane.of_compFinder
        have hperm := get_component_sizes_perm
          ({ H with compFinder := some (E.find_components H.solver) } : CompHandler)
          (E.find_components H.solver) rfl
        have hlook : ∀ s ∈ ({ H with compFinder := some (E.find_components H.solver) } :
            CompHandler).get_component_sizes.dropLast,
            ∃ p ∈ (E.find_components H.solver).reverseTable,
              ((E.find_components H.solver).reverseTable.lookup s.1).getD [] = p.2 := by
          intro s hs
          have hs2 := hperm.subset (List.dropLast_subset _ hs)
          obtain ⟨p, hp, hps⟩ := List.mem_map.1 hs2
          refine ⟨p, hp, ?_⟩
          rw [← hps, lookup_of_mem_nodup hF.keys (show (p.1, p.2) ∈ _ from hp)]
          rfl
        apply handle_loop_sane E _ hE _ _
          (hS.of_compFinder (some (E.find_components H.solver))) hR _ _ _ (Or.inr hok)
        · apply List.Pairwise.sublist (List.dropLast_sublist _)
          apply (List.Perm.pairwise_iff _ hperm).2
          · rw [List.pairwise_map]
            apply List.Pairwise.imp_of_mem _ hF.disjoint
            intro p q hp hq hd
            rw [lookup_of_mem_nodup hF.keys (show (p.1, p.2) ∈ _ from hp),
              lookup_of_mem_nodup hF.keys (show (q.1, q.2) ∈ _ from hq)]
            exact hd
          · intro a b hab
            exact hab.symm
        · intro s hs
          obtain ⟨p, hp, he⟩ := hlook s hs
          rw [he]
          exact hF.nodup p hp
        · intro s hs v hv
          obtain ⟨p, hp, he⟩ := hlook s hs
          rw [he] at hv
          exact ⟨hF.bound p hp v hv, hF.unassigned p hp v hv, hF.unsaved p hp v hv⟩

end CompHandler

/-- C36: whenever `handle()` finishes with `solver->ok` true, no assertion of
`check_local_vardata_sanity` fails: every outer variable with a saved value is no decision
variable, is marked `Removed::decomposed` and is unassigned or assigned at level `0`, and
`num_vars_removed` is the number of these variables (as a `size_t`).  This holds on every
path of `handle()`, also when zero-level literals of a sub-solver were moved back and when
a sub-solver timed out; the state is then sane again for the next call.  The handler is
sane at the call, the two renumbering maps of the solver undo each other, the component
finder reports components of fresh variables, and a model of a sub-solver is total. -/
theorem check_local_vardata_sanity_after_handle (E : CompEnv) (H : CompHandler)
    (hE : E.SubSolver) (hS : H.Sane) (hR : H.solver.Renumbered)
    (hF : (E.find_components H.solver).Fresh H)
    (hok : (CompHandler.handle E H).1.solver.ok = true) :
    (CompHandler.handle E H).1.check_local_vardata_sanity = true
    ∧ (∀ o < (CompHandler.handle E H).1.solver.nVarsOuter,
        (CompHandler.handle E H).1.savedState.getD o lbool.l_Undef ≠ lbool.l_Undef →
        ((CompHandler.handle E H).1.solver.varData
            ((CompHandler.handle E H).1.solver.map_outer_to_inter o)).is_decision = false
        ∧ ((CompHandler.handle E H).1.solver.varData
            ((CompHandler.handle E H).1.solver.map_outer_to_inter o)).removed
          = Removed.decomposed
        ∧ ((CompHandler.handle E H).1.solver.assigns
              ((CompHandler.handle E H).1.solver.map_outer_to_inter o) = lbool.l_Undef
          ∨ ((CompHandler.handle E H).1.solver.varData
              ((CompHandler.handle E H).1.solver.map_outer_to_inter o)).level = 0))
    ∧ (CompHandler.handle E H).1.num_vars_removed
      = ((List.range (CompHandler.handle E H).1.solver.nVarsOuter).filter
          (fun o => decide ((CompHandler.handle E H).1.savedState.getD o lbool.l_Undef
            ≠ lbool.l_Undef))).length % 2 ^ 64
    ∧ (CompHandler.handle E H).1.Sane := by
  have h := CompHandler.handle_sane E H hE hS hR hF hok
  refine ⟨CompHandler.check_local_vardata_sanity_of_sane _ h, ?_, ?_, h⟩
  · intro o ho hs
    have hs2 : (CompHandler.handle E H).1.is_saved o = true := by
      simpa [CompHandler.is_saved] using hs
    refine ⟨h.nondecision o ho hs2, ?_, h.value o ho hs2⟩
    have := h.saved o ho
    rw [hs2] at this
    simpa [CompHandler.is_decomposed] using this.symm
  · rw [h.count, List.countP_eq_length_filter]
    rfl

/-- The handler of `Example3`, which has not moved a component yet, is sane. -/
theorem Example3.handler_sane : Example3.handler.Sane :=
  ⟨by decide, by decide, by decide, by decide, by decide⟩

theorem Example3.env_zero_subSolver : Example3.env_zero.SubSolver := by
  refine ⟨?_, ?_, ?_⟩
  · intro N _ i _
    show (if i = 0 then lbool.l_True else lbool.l_False) ≠ lbool.l_Undef
    split <;> decide
  · intro N l hl
    have hl2 : l ∈ (if 0 < N.nVars then [(⟨0, false⟩ : Lit)] else []) := hl
    split at hl2
    · rename_i h
      rw [List.mem_singleton.1 hl2]
      exact h
    · simp at hl2
  · intro N
    show ((if 0 < N.nVars then [(⟨0, false⟩ : Lit)] else []).map Lit.var).Nodup
    split <;> simp

theorem Example3.finder_fresh :
    (Example3.env_zero.find_components Example3.handler.solver).Fresh Example3.handler :=
  ⟨by decide, by decide,
    by
      show List.Pairwise (fun p q : Nat × List Nat => List.Disjoint p.2 q.2)
        [(0, [0, 1]), (1, [2, 3, 4, 5])]
      simp [List.Disjoint],
    by decide, by decide, by decide⟩

theorem check_local_vardata_sanity_after_handle_witness :
    (CompHandler.handle Example3.env_zero Example3.handler).1.solver.ok = true
    ∧ (CompHandler.handle Example3.env_zero Example3.handler).1.check_local_vardata_sanity
      = true
    ∧ (CompHandler.handle Example3.env_zero Example3.handler).1.num_vars_removed
      = ((List.range
            (CompHandler.handle Example3.env_zero Example3.handler).1.solver.nVarsOuter).filter
          (fun o => decide
            ((CompHandler.handle Example3.env_zero Example3.handler).1.savedState.getD o
              lbool.l_Undef ≠ lbool.l_Undef))).length % 2 ^ 64 :=
  ⟨by decide!,
    (check_local_vardata_sanity_after_handle Example3.env_zero Example3.handler
      Example3.env_zero_subSolver Example3.handler_sane
      ⟨fun _ _ => rfl, fun _ hv => ⟨hv, rfl⟩⟩ Example3.finder_fresh (by decide!)).1,
    (check_local_vardata_sanity_after_handle Example3.env_zero Example3.handler
      Example3.env_zero_subSolver Example3.handler_sane
      ⟨fun _ _ => rfl, fun _ hv => ⟨hv, rfl⟩⟩ Example3.finder_fresh (by decide!)).2.2.1⟩

/-- Two runs of `handle` on `Example3`.  With the sub-solver of `env_zero`, variable `0` of
component `0` comes back assigned at level `0` and variable `1` keeps its saved value:
one variable is counted.  With the sub-solver of `env_timeout` nothing is saved and the
counter is back at zero.  No assertion of `check_local_vardata_sanity` fails in either
state. -/
theorem Example3.check_local_vardata_sanity_run :
    (CompHandler.handle Example3.env_zero Example3.handler).1.check_local_vardata_sanity = true
    ∧ (CompHandler.handle Example3.env_zero Example3.handler).1.savedState
      = [lbool.l_Undef, lbool.l_False, lbool.l_Undef, lbool.l_Undef, lbool.l_Undef,
          lbool.l_Undef]
    ∧ (CompHandler.handle Example3.env_zero Example3.handler).1.num_vars_removed = 1
    ∧ (CompHandler.handle Example3.env_zero Example3.handler).1.solver.assigns 0 = lbool.l_True
    ∧ (CompHandler.handle Example3.env_timeout Example3.handler).1.check_local_vardata_sanity
      = true
    ∧ (CompHandler.handle Example3.env_timeout Example3.handler).1.num_vars_removed = 0 := by
  decide!
end CMSat
